import Mathlib

/-! # B+ tree index of bustub_private: embedding and verification

The development embeds `src/storage/index/b_plus_tree.cpp` and
`src/storage/index/index_iterator.cpp` as state-passing functions over an explicit
buffer-pool store and proves properties of the tree operations.

Conventions of the embedding.

* Keys (`GenericKey<N>` under `GenericComparator<N>`) and values (`RID`) are integers; the
  comparator is the order of `Int`.
* The buffer pool is a finite map from page ids to page contents.  `NewPage` hands out the next
  unused page id and always succeeds (exhaustion of the pool is not part of this model),
  `FetchPage` of an id the pool does not hold is the failure `Failure.page_fault`, and
  `DeletePage` drops the page from the pool.
* Latches and pin counts are not part of the tree state: in a single-threaded run they are
  never read by the code to decide what is written to a page.  The calls to the latches and to
  the buffer pool are the subject of the section "Latches and pins", which logs them.
* A C++ `throw std::runtime_error` is the failure `Failure.runtime_error`; a loop or recursion
  that runs for more steps than pages were ever allocated is the failure `Failure.diverge`.
* The page classes (`BPlusTreeLeafPage`, `BPlusTreeInternalPage`) and the header page are
  declared outside the sources embedded here; their member functions are modelled from the
  specification and marked as such.
-/

namespace bustub

/-- Sentinel page id meaning "no page". -/
def INVALID_PAGE_ID : Int := -1

/-- Page id of the header page. -/
def HEADER_PAGE_ID : Int := 0

/-- Ways in which an operation can fail to return. -/
inductive Failure where
  | runtime_error
  | page_fault
  | bad_access
  | diverge
deriving DecidableEq, Repr

/-- Leaf page: common header, sibling pointer and the ordered array of (key, value) pairs.
The `size` field of the header is the length of `array`. -/
structure LeafPage where
  page_id : Int
  parent_page_id : Int
  max_size : Int
  next_page_id : Int
  array : List (Int × Int)
deriving DecidableEq, Repr

/-- Internal page: common header and the array of (key, child page id) pairs; the key of
slot 0 is unused. -/
structure InternalPage where
  page_id : Int
  parent_page_id : Int
  max_size : Int
  array : List (Int × Int)
deriving DecidableEq, Repr

/-- Tree page: a tagged view on the page bytes. -/
inductive Page where
  | leaf (l : LeafPage)
  | internal (n : InternalPage)
deriving DecidableEq, Repr

/-! ## Page layer -/

namespace LeafPage

/-- Modelled from the spec: `BPlusTreeLeafPage::Init(page_id, parent_id, max_size)`, an empty
leaf with no next sibling. -/
def Init (page_id parent_id max_size : Int) : LeafPage :=
  { page_id := page_id, parent_page_id := parent_id, max_size := max_size,
    next_page_id := INVALID_PAGE_ID, array := [] }

/-- Modelled from the spec: `GetSize` of the common header. -/
def GetSize (l : LeafPage) : Int := l.array.length

/-- Modelled from the spec: `GetMinSize` of a leaf, `ceil((max_size - 1) / 2)`. -/
def GetMinSize (l : LeafPage) : Int := (l.max_size - 1 + 1) / 2

/-- Modelled from the spec: `IsRootPage` of the common header. -/
def IsRootPage (l : LeafPage) : Bool := l.parent_page_id == INVALID_PAGE_ID

/-- Modelled from the spec: `KeyIndex(key)`, the first index whose key is at least `key`. -/
def keyIndex : List (Int × Int) → Int → Nat
  | [], _ => 0
  | kv :: rest, key => if key ≤ kv.1 then 0 else keyIndex rest key + 1

/-- Modelled from the spec: `BPlusTreeLeafPage::KeyIndex`. -/
def KeyIndex (l : LeafPage) (key : Int) : Nat := keyIndex l.array key

/-- Value stored under `key` in an entry array, if any. -/
def lookup : List (Int × Int) → Int → Option Int
  | [], _ => none
  | kv :: rest, key => if kv.1 = key then some kv.2 else lookup rest key

/-- Modelled from the spec: `BPlusTreeLeafPage::Lookup(key)`, found flag and value as an
option. -/
def Lookup (l : LeafPage) (key : Int) : Option Int := lookup l.array key

/-- Insertion of a pair at its sorted position; a pair whose key is present is not inserted. -/
def insertSorted : List (Int × Int) → Int → Int → List (Int × Int)
  | [], key, value => [(key, value)]
  | kv :: rest, key, value =>
    if key < kv.1 then (key, value) :: kv :: rest
    else if key = kv.1 then kv :: rest
    else kv :: insertSorted rest key value

/-- Modelled from the spec: `BPlusTreeLeafPage::Insert(key, value)`; the new size is the size
of the returned page. -/
def Insert (l : LeafPage) (key value : Int) : LeafPage :=
  { l with array := insertSorted l.array key value }

/-- Removal of the entry stored under `key`. -/
def removeKey : List (Int × Int) → Int → List (Int × Int)
  | [], _ => []
  | kv :: rest, key => if kv.1 = key then rest else kv :: removeKey rest key

/-- Modelled from the spec: `BPlusTreeLeafPage::RemoveAndDeleteRecord(key)`; the size after
the call is the size of the returned page. -/
def RemoveAndDeleteRecord (l : LeafPage) (key : Int) : LeafPage :=
  { l with array := removeKey l.array key }

/-- Modelled from the spec: `BPlusTreeLeafPage::MoveHalfTo(dest)`, the upper half of the
entries goes to `dest`, which gets the extra entry when the size is odd.  Returns the shrunk
page and the recipient. -/
def MoveHalfTo (l dest : LeafPage) : LeafPage × LeafPage :=
  ({ l with array := l.array.take (l.array.length / 2) },
   { dest with array := dest.array ++ l.array.drop (l.array.length / 2) })

/-- Modelled from the spec: `BPlusTreeLeafPage::MoveAllTo(dest)`, everything is appended to
`dest`. -/
def MoveAllTo (l dest : LeafPage) : LeafPage × LeafPage :=
  ({ l with array := [] }, { dest with array := dest.array ++ l.array })

/-- Modelled from the spec: `BPlusTreeLeafPage::MoveFirstToEndOf(dest)`. -/
def MoveFirstToEndOf (l dest : LeafPage) : LeafPage × LeafPage :=
  ({ l with array := l.array.tail }, { dest with array := dest.array ++ l.array.take 1 })

/-- Modelled from the spec: `BPlusTreeLeafPage::MoveLastToFrontOf(dest)`. -/
def MoveLastToFrontOf (l dest : LeafPage) : LeafPage × LeafPage :=
  ({ l with array := l.array.dropLast },
   { dest with array := l.array.drop (l.array.length - 1) ++ dest.array })

/-- Modelled from the spec: `KeyAt(index)` of a leaf. -/
def KeyAt (l : LeafPage) (index : Nat) : Option Int := (l.array.get? index).map Prod.fst

/-- Modelled from the spec: `GetItem(index)` of a leaf. -/
def GetItem (l : LeafPage) (index : Nat) : Option (Int × Int) := l.array.get? index

end LeafPage

namespace InternalPage

/-- Modelled from the spec: `BPlusTreeInternalPage::Init(page_id, parent_id, max_size)`. -/
def Init (page_id parent_id max_size : Int) : InternalPage :=
  { page_id := page_id, parent_page_id := parent_id, max_size := max_size, array := [] }

/-- Modelled from the spec: `GetSize` of the common header. -/
def GetSize (n : InternalPage) : Int := n.array.length

/-- Modelled from the spec: `GetMinSize` of an internal page, `ceil(max_size / 2)`. -/
def GetMinSize (n : InternalPage) : Int := (n.max_size + 1) / 2

/-- Modelled from the spec: `IsRootPage` of the common header. -/
def IsRootPage (n : InternalPage) : Bool := n.parent_page_id == INVALID_PAGE_ID

/-- Modelled from the spec: `KeyAt(index)` of an internal page. -/
def KeyAt (n : InternalPage) (index : Nat) : Option Int := (n.array.get? index).map Prod.fst

/-- Modelled from the spec: `ValueAt(index)` of an internal page. -/
def ValueAt (n : InternalPage) (index : Nat) : Option Int := (n.array.get? index).map Prod.snd

/-- Overwrite of the key in slot `index`. -/
def setKeyAt : List (Int × Int) → Nat → Int → List (Int × Int)
  | [], _, _ => []
  | kc :: rest, 0, key => (key, kc.2) :: rest
  | kc :: rest, i + 1, key => kc :: setKeyAt rest i key

/-- Modelled from the spec: `SetKeyAt(index, key)` of an internal page. -/
def SetKeyAt (n : InternalPage) (index : Nat) (key : Int) : InternalPage :=
  { n with array := setKeyAt n.array index key }

/-- Index of the first slot whose value is `value`. -/
def valueIndex : List (Int × Int) → Int → Option Nat
  | [], _ => none
  | kc :: rest, value => if kc.2 = value then some 0 else (valueIndex rest value).map Nat.succ

/-- Modelled from the spec: `ValueIndex(value)`, the slot whose value is `value`; the spec
names no result for a value that no slot holds, which is `none` here. -/
def ValueIndex (n : InternalPage) (value : Int) : Option Nat := valueIndex n.array value

/-- Walk over the separator keys: `cur` is the child left of the keys still to inspect. -/
def lookupFrom : Int → List (Int × Int) → Int → Int
  | cur, [], _ => cur
  | cur, kc :: rest, key => if key < kc.1 then cur else lookupFrom kc.2 rest key

/-- Modelled from the spec: `BPlusTreeInternalPage::Lookup(key)`, the child whose subtree
contains `key`: the child of the last slot whose separator key is at most `key`, slot 0 when
there is none. -/
def Lookup (n : InternalPage) (key : Int) : Option Int :=
  match n.array with
  | [] => none
  | kc :: rest => some (lookupFrom kc.2 rest key)

/-- Insertion of `(key, new_value)` right after the slot whose value is `old_value`. -/
def insertAfter : List (Int × Int) → Int → Int → Int → List (Int × Int)
  | [], _, _, _ => []
  | kc :: rest, old_value, key, new_value =>
    if kc.2 = old_value then kc :: (key, new_value) :: rest
    else kc :: insertAfter rest old_value key new_value

/-- Modelled from the spec: `BPlusTreeInternalPage::InsertNodeAfter(old_value, key,
new_value)`; the new size is the size of the returned page. -/
def InsertNodeAfter (n : InternalPage) (old_value key new_value : Int) : InternalPage :=
  { n with array := insertAfter n.array old_value key new_value }

/-- Modelled from the spec: `BPlusTreeInternalPage::PopulateNewRoot(left, key, right)`; the
unused key of slot 0 is written as 0. -/
def PopulateNewRoot (n : InternalPage) (old_value key new_value : Int) : InternalPage :=
  { n with array := [(0, old_value), (key, new_value)] }

/-- Modelled from the spec: `BPlusTreeInternalPage::Remove(index)`. -/
def Remove (n : InternalPage) (index : Nat) : InternalPage :=
  { n with array := n.array.eraseIdx index }

/-- Modelled from the spec: `BPlusTreeInternalPage::RemoveAndReturnOnlyChild()`. -/
def RemoveAndReturnOnlyChild (n : InternalPage) : Option Int × InternalPage :=
  (n.ValueAt 0, { n with array := [] })

/-- Modelled from the spec: `BPlusTreeInternalPage::MoveHalfTo(dest, bpm)`, the upper half of
the entries goes to `dest`, which gets the extra entry when the size is odd.  Returns the
shrunk page and the recipient; the moved children are reparented by `reparent`. -/
def MoveHalfTo (n dest : InternalPage) : InternalPage × InternalPage :=
  ({ n with array := n.array.take (n.array.length / 2) },
   { dest with array := dest.array ++ n.array.drop (n.array.length / 2) })

/-- Modelled from the spec: `BPlusTreeInternalPage::MoveAllTo(dest, middle_key, bpm)`,
everything is appended to `dest` and `middle_key` becomes the key of the first moved
entry. -/
def MoveAllTo (n dest : InternalPage) (middle_key : Int) : InternalPage × InternalPage :=
  ({ n with array := [] }, { dest with array := dest.array ++ setKeyAt n.array 0 middle_key })

/-- Modelled from the spec: `BPlusTreeInternalPage::MoveFirstToEndOf(dest, middle_key,
bpm)`, the first entry is appended to `dest` under the key `middle_key`. -/
def MoveFirstToEndOf (n dest : InternalPage) (middle_key : Int) :
    InternalPage × InternalPage :=
  ({ n with array := n.array.tail },
   { dest with array := dest.array ++ (n.array.take 1).map (fun kc => (middle_key, kc.2)) })

/-- Modelled from the spec: `BPlusTreeInternalPage::MoveLastToFrontOf(dest, middle_key,
bpm)`, the last entry becomes the first entry of `dest`, whose former first entry takes the
key `middle_key`. -/
def MoveLastToFrontOf (n dest : InternalPage) (middle_key : Int) :
    InternalPage × InternalPage :=
  ({ n with array := n.array.dropLast },
   { dest with array := n.array.drop (n.array.length - 1) ++ setKeyAt dest.array 0 middle_key })

end InternalPage

namespace Page

/-- Common header: `IsLeafPage`. -/
def IsLeafPage : Page → Bool
  | leaf _ => true
  | internal _ => false

/-- Common header: `GetPageId`. -/
def GetPageId : Page → Int
  | leaf l => l.page_id
  | internal n => n.page_id

/-- Common header: `GetParentPageId`. -/
def GetParentPageId : Page → Int
  | leaf l => l.parent_page_id
  | internal n => n.parent_page_id

/-- Common header: `SetParentPageId`. -/
def SetParentPageId : Page → Int → Page
  | leaf l, p => leaf { l with parent_page_id := p }
  | internal n, p => internal { n with parent_page_id := p }

/-- Common header: `GetSize`. -/
def GetSize : Page → Int
  | leaf l => l.GetSize
  | internal n => n.GetSize

/-- Common header: `GetMinSize`. -/
def GetMinSize : Page → Int
  | leaf l => l.GetMinSize
  | internal n => n.GetMinSize

/-- Common header: `IsRootPage`. -/
def IsRootPage (p : Page) : Bool := p.GetParentPageId == INVALID_PAGE_ID

end Page

/-! ## Buffer pool -/

/-- Contents of the buffer pool: page id to tree page. -/
abbrev Pool := Int → Option Page

/-- Write to the frame that holds page `id`. -/
def Pool.write (pages : Pool) (id : Int) (p : Page) : Pool :=
  fun i => if i = id then some p else pages i

/-- Buffer pool `DeletePage`. -/
def Pool.DeletePage (pages : Pool) (id : Int) : Pool :=
  fun i => if i = id then none else pages i

/-- Buffer pool `FetchPage`. -/
def Pool.FetchPage (pages : Pool) (id : Int) : Except Failure Page :=
  match pages id with
  | some p => .ok p
  | none => .error .page_fault

/-- The reparenting step of the internal-page moves: each listed child page is fetched and
its parent page id is rewritten. -/
def reparent (pages : Pool) : List Int → Int → Except Failure Pool
  | [], _ => .ok pages
  | c :: rest, parent =>
    match pages c with
    | none => .error .page_fault
    | some p => reparent (pages.write c (p.SetParentPageId parent)) rest parent

/-! ## Tree handle and transaction -/

/-- Part of the transaction that the tree code writes: the pages queued for deletion. -/
structure Transaction where
  deleted_page_set : List Int
deriving DecidableEq, Repr

/-- Transaction `AddIntoDeletedPageSet`. -/
def Transaction.AddIntoDeletedPageSet (txn : Transaction) (page_id : Int) : Transaction :=
  { txn with deleted_page_set := txn.deleted_page_set ++ [page_id] }

/-- Modelled from the spec: `HeaderPage::InsertRecord(name, root_id)` on the record kept for
the name of this index (`none` when the header page has no record of that name). The
specification and the comment of `UpdateRootPageId` ("insert a record ... instead of updating
it") keep inserting and updating apart: a record is inserted only for a name that has none, and
the record of a name that has one stays as it is. -/
def HeaderPage.InsertRecord (record : Option Int) (root_id : Int) : Option Int :=
  match record with
  | none => some root_id
  | some r => some r

/-- Modelled from the spec: `HeaderPage::UpdateRecord(name, root_id)` on the record kept for
the name of this index. The record of a name that has one is set to `root_id`; a name without
a record gets none. -/
def HeaderPage.UpdateRecord (record : Option Int) (root_id : Int) : Option Int :=
  match record with
  | none => none
  | some _ => some root_id

/-- Tree handle together with the state it works on: the buffer pool contents, the page id
that `NewPage` hands out next and the header page record of this index. -/
structure BPlusTree where
  root_page_id : Int
  leaf_max_size : Int
  internal_max_size : Int
  pages : Pool
  next_page_id : Int
  header_record : Option Int

namespace BPlusTree

/-- Constructor `BPlusTree::BPlusTree` over a buffer pool that holds only the header page
(page 0), so that the first page handed out is page 1. -/
def new (leaf_max_size internal_max_size : Int) : BPlusTree :=
  { root_page_id := INVALID_PAGE_ID, leaf_max_size := leaf_max_size,
    internal_max_size := internal_max_size, pages := fun _ => none, next_page_id := 1,
    header_record := none }

/-- `BPlusTree::IsEmpty`. -/
def IsEmpty (t : BPlusTree) : Bool := t.root_page_id == INVALID_PAGE_ID

/-- In-place write through a page pointer: the frame of page `id` gets the contents `p`. -/
def write (t : BPlusTree) (id : Int) (p : Page) : BPlusTree :=
  { t with pages := t.pages.write id p }

/-- Bound on the number of steps of any loop over distinct pages: the number of page ids
handed out so far. -/
def fuel (t : BPlusTree) : Nat := t.next_page_id.toNat

/-- `BPlusTree::UpdateRootPageId`: `InsertRecord` when `insert_record` is not 0, `UpdateRecord`
otherwise, on the record of this index in the header page. -/
def UpdateRootPageId (t : BPlusTree) (insert_record : Int) : BPlusTree :=
  { t with header_record :=
      if insert_record ≠ 0 then HeaderPage.InsertRecord t.header_record t.root_page_id
      else HeaderPage.UpdateRecord t.header_record t.root_page_id }

/-- `BPlusTree::maxSize`. -/
def maxSize (t : BPlusTree) (node : Page) : Int :=
  if node.IsLeafPage then t.leaf_max_size - 1 else t.internal_max_size

/-- The descent loop of `FindLeafPageByOperation`, started at page `page_id`. -/
def findLeafLoop (pages : Pool) (key : Int) (leftMost : Bool) :
    Nat → Int → Except Failure (Int × LeafPage)
  | 0, _ => .error .diverge
  | fuel + 1, page_id =>
    match pages page_id with
    | none => .error .page_fault
    | some (.leaf l) => .ok (page_id, l)
    | some (.internal n) =>
      match (if leftMost then n.ValueAt 0 else n.Lookup key) with
      | none => .error .bad_access
      | some next_page_id => findLeafLoop pages key leftMost fuel next_page_id

/-- `BPlusTree::FindLeafPage`, which is `FindLeafPageByOperation(...).first`: the page id
and contents of the leaf reached.  The operation argument of `FindLeafPageByOperation` selects
the latch mode and the page-set bookkeeping only; the choice of the next page does not read
it. -/
def FindLeafPage (t : BPlusTree) (key : Int) (leftMost : Bool) :
    Except Failure (Int × LeafPage) :=
  if t.root_page_id = INVALID_PAGE_ID then .error .runtime_error
  else findLeafLoop t.pages key leftMost t.fuel t.root_page_id

/-- `BPlusTree::GetValue`: the tree state afterwards, the returned flag and the result
vector. -/
def GetValue (t : BPlusTree) (key : Int) (result : List Int) :
    Except Failure (BPlusTree × Bool × List Int) :=
  match t.FindLeafPage key false with
  | .error e => .error e
  | .ok (_, leaf_node) =>
    match leaf_node.Lookup key with
    | none => .ok (t, false, result)
    | some value => .ok (t, true, result ++ [value])

/-- `BPlusTree::StartNewTree`. -/
def StartNewTree (t : BPlusTree) (key value : Int) : BPlusTree :=
  let new_page_id := t.next_page_id
  let t1 := { t with next_page_id := t.next_page_id + 1, root_page_id := new_page_id }
  let t2 := t1.UpdateRootPageId 1
  let root_node := (LeafPage.Init new_page_id INVALID_PAGE_ID t.leaf_max_size).Insert key value
  t2.write new_page_id (.leaf root_node)

/-- `BPlusTree::Split`: a fresh page of the kind of `node` takes the upper half of the
entries of the page `node_id`; returns the new page id. -/
def Split (t : BPlusTree) (node_id : Int) : Except Failure (BPlusTree × Int) :=
  let page_id := t.next_page_id
  let t1 := { t with next_page_id := t.next_page_id + 1 }
  match t.pages node_id with
  | none => .error .page_fault
  | some (.leaf old_leaf_node) =>
    let new_leaf_node := LeafPage.Init page_id old_leaf_node.parent_page_id t.leaf_max_size
    let moved := old_leaf_node.MoveHalfTo new_leaf_node
    let next_page_id := moved.1.next_page_id
    let old2 := { moved.1 with next_page_id := moved.2.page_id }
    let new2 := { moved.2 with next_page_id := next_page_id }
    .ok ((t1.write page_id (.leaf new2)).write node_id (.leaf old2), page_id)
  | some (.internal old_internal_node) =>
    let new_internal_node :=
      InternalPage.Init page_id old_internal_node.parent_page_id t.internal_max_size
    let moved := old_internal_node.MoveHalfTo new_internal_node
    let t2 := (t1.write page_id (.internal moved.2)).write node_id (.internal moved.1)
    match reparent t2.pages (moved.2.array.map Prod.snd) moved.2.page_id with
    | .error e => .error e
    | .ok pages => .ok ({ t2 with pages := pages }, page_id)

/-- `BPlusTree::InsertIntoParent`, on the page ids of `old_node` and `new_node`. -/
def InsertIntoParent : Nat → BPlusTree → Int → Int → Int → Except Failure BPlusTree
  | 0, _, _, _, _ => .error .diverge
  | fuel + 1, t, old_id, key, new_id =>
    match t.pages old_id, t.pages new_id with
    | some old_node, some new_node =>
      if old_node.IsRootPage then
        let new_page_id := t.next_page_id
        let t1 := { t with next_page_id := t.next_page_id + 1, root_page_id := new_page_id }
        let new_root_node :=
          (InternalPage.Init new_page_id INVALID_PAGE_ID t.internal_max_size).PopulateNewRoot
            old_node.GetPageId key new_node.GetPageId
        let t2 := t1.write new_page_id (.internal new_root_node)
        let t3 := t2.write old_id (old_node.SetParentPageId t1.root_page_id)
        let t4 := t3.write new_id (new_node.SetParentPageId t1.root_page_id)
        .ok (t4.UpdateRootPageId 0)
      else
        let parent_page_id := old_node.GetParentPageId
        match t.pages parent_page_id with
        | none => .error .page_fault
        | some (.leaf _) => .error .bad_access
        | some (.internal parent_node) =>
          let parent1 :=
            parent_node.InsertNodeAfter old_node.GetPageId key new_node.GetPageId
          let t1 := t.write parent_page_id (.internal parent1)
          if parent1.GetSize < parent1.max_size + 1 then .ok t1
          else
            match t1.Split parent_page_id with
            | .error e => .error e
            | .ok (t2, new_parent_id) =>
              match t2.pages new_parent_id with
              | some (.internal new_parent_node) =>
                match new_parent_node.KeyAt 0 with
                | none => .error .bad_access
                | some up_key => InsertIntoParent fuel t2 parent_page_id up_key new_parent_id
              | _ => .error .bad_access
    | _, _ => .error .page_fault

/-- `BPlusTree::InsertIntoLeaf`. -/
def InsertIntoLeaf (t : BPlusTree) (key value : Int) : Except Failure (BPlusTree × Bool) :=
  match t.FindLeafPage key false with
  | .error e => .error e
  | .ok (page_id, leaf_page) =>
    if (leaf_page.Lookup key).isSome then .ok (t, false)
    else
      let leaf1 := leaf_page.Insert key value
      let t1 := t.write page_id (.leaf leaf1)
      if leaf1.GetSize < t.leaf_max_size then .ok (t1, true)
      else
        match t1.Split page_id with
        | .error e => .error e
        | .ok (t2, new_id) =>
          match t2.pages new_id with
          | some (.leaf new_leaf_page) =>
            match new_leaf_page.KeyAt 0 with
            | none => .error .bad_access
            | some up_key =>
              match InsertIntoParent t2.fuel t2 page_id up_key new_id with
              | .error e => .error e
              | .ok t3 => .ok (t3, true)
          | _ => .error .bad_access

/-- `BPlusTree::Insert`. -/
def Insert (t : BPlusTree) (key value : Int) : Except Failure (BPlusTree × Bool) :=
  if t.IsEmpty then .ok (t.StartNewTree key value, true)
  else t.InsertIntoLeaf key value

/-- `BPlusTree::AdjustRoot`, on the page id of `old_root_node`. -/
def AdjustRoot (t : BPlusTree) (old_root_id : Int) : Except Failure (BPlusTree × Bool) :=
  match t.pages old_root_id with
  | none => .error .page_fault
  | some (.internal internal_node) =>
    if internal_node.GetSize = 1 then
      let removed := internal_node.RemoveAndReturnOnlyChild
      match removed.1 with
      | none => .error .bad_access
      | some child_page_id =>
        let t1 := (t.write old_root_id (.internal removed.2))
        let t2 := ({ t1 with root_page_id := child_page_id }).UpdateRootPageId 0
        match t2.pages t2.root_page_id with
        | none => .error .page_fault
        | some new_root_node =>
          .ok (t2.write t2.root_page_id (new_root_node.SetParentPageId INVALID_PAGE_ID), true)
    else .ok (t, false)
  | some (.leaf leaf_node) =>
    if leaf_node.GetSize = 0 then
      .ok (({ t with root_page_id := INVALID_PAGE_ID }).UpdateRootPageId 0, true)
    else .ok (t, false)

/-- `BPlusTree::Redistribute`, on the page ids of `neighbor_node` and `node`. -/
def Redistribute (t : BPlusTree) (neighbor_id node_id : Int) (index : Nat) :
    Except Failure BPlusTree :=
  match t.pages node_id, t.pages neighbor_id with
  | some (.leaf leaf_node), some (.leaf neighbor_leaf_node) =>
    match t.pages leaf_node.parent_page_id with
    | none => .error .page_fault
    | some (.leaf _) => .error .bad_access
    | some (.internal parent_node) =>
      if index = 0 then
        let moved := neighbor_leaf_node.MoveFirstToEndOf leaf_node
        match moved.1.KeyAt 0 with
        | none => .error .bad_access
        | some k =>
          .ok (((t.write neighbor_id (.leaf moved.1)).write node_id (.leaf moved.2)).write
            leaf_node.parent_page_id (.internal (parent_node.SetKeyAt 1 k)))
      else
        let moved := neighbor_leaf_node.MoveLastToFrontOf leaf_node
        match moved.2.KeyAt 0 with
        | none => .error .bad_access
        | some k =>
          .ok (((t.write neighbor_id (.leaf moved.1)).write node_id (.leaf moved.2)).write
            leaf_node.parent_page_id (.internal (parent_node.SetKeyAt index k)))
  | some (.internal internal_node), some (.internal neighbor_internal_node) =>
    match t.pages internal_node.parent_page_id with
    | none => .error .page_fault
    | some (.leaf _) => .error .bad_access
    | some (.internal parent_node) =>
      if index = 0 then
        match parent_node.KeyAt 1 with
        | none => .error .bad_access
        | some middle_key =>
          let moved := neighbor_internal_node.MoveFirstToEndOf internal_node middle_key
          let t1 := (t.write neighbor_id (.internal moved.1)).write node_id (.internal moved.2)
          match reparent t1.pages ((neighbor_internal_node.array.take 1).map Prod.snd)
              internal_node.page_id with
          | .error e => .error e
          | .ok pages =>
            match moved.1.KeyAt 0 with
            | none => .error .bad_access
            | some k =>
              .ok (({ t1 with pages := pages }).write internal_node.parent_page_id
                (.internal (parent_node.SetKeyAt 1 k)))
      else
        match parent_node.KeyAt index with
        | none => .error .bad_access
        | some middle_key =>
          let moved := neighbor_internal_node.MoveLastToFrontOf internal_node middle_key
          let t1 := (t.write neighbor_id (.internal moved.1)).write node_id (.internal moved.2)
          match reparent t1.pages
              ((neighbor_internal_node.array.drop
                (neighbor_internal_node.array.length - 1)).map Prod.snd)
              internal_node.page_id with
          | .error e => .error e
          | .ok pages =>
            match moved.2.KeyAt 0 with
            | none => .error .bad_access
            | some k =>
              .ok (({ t1 with pages := pages }).write internal_node.parent_page_id
                (.internal (parent_node.SetKeyAt index k)))
  | some _, some _ => .error .bad_access
  | _, _ => .error .page_fault

/-- `BPlusTree::Coalesce`, on the page ids of `*neighbor_node`, `*node` and `*parent`; the
recursive call of `CoalesceOrRedistribute` on the parent is the argument `recur`. -/
def Coalesce (recur : BPlusTree → Int → Transaction → Except Failure (BPlusTree × Transaction × Bool))
    (t : BPlusTree) (neighbor_id node_id parent_id : Int) (index : Nat) (txn : Transaction) :
    Except Failure (BPlusTree × Transaction × Bool) :=
  let key_index := if index = 0 then 1 else index
  let neighbor_id1 := if index = 0 then node_id else neighbor_id
  let node_id1 := if index = 0 then neighbor_id else node_id
  match t.pages parent_id with
  | none => .error .page_fault
  | some (.leaf _) => .error .bad_access
  | some (.internal parent) =>
    match t.pages node_id1, t.pages neighbor_id1 with
    | some (.leaf leaf_node), some (.leaf neighbor_leaf_node) =>
      let page_id := leaf_node.next_page_id
      let moved := leaf_node.MoveAllTo neighbor_leaf_node
      let t1 := (t.write node_id1 (.leaf moved.1)).write neighbor_id1
        (.leaf { moved.2 with next_page_id := page_id })
      recur (t1.write parent_id (.internal (parent.Remove key_index))) parent_id txn
    | some (.internal internal_node), some (.internal neighbor_internal_node) =>
      match parent.KeyAt key_index with
      | none => .error .bad_access
      | some middle_key =>
        let moved := internal_node.MoveAllTo neighbor_internal_node middle_key
        let t1 := (t.write node_id1 (.internal moved.1)).write neighbor_id1 (.internal moved.2)
        match reparent t1.pages (internal_node.array.map Prod.snd)
            neighbor_internal_node.page_id with
        | .error e => .error e
        | .ok pages =>
          recur (({ t1 with pages := pages }).write parent_id
            (.internal (parent.Remove key_index))) parent_id txn
    | some _, some _ => .error .bad_access
    | _, _ => .error .page_fault

/-- `BPlusTree::CoalesceOrRedistribute`, on the page id of `node`: the state afterwards and
the returned flag ("the page `node` should be deleted"). -/
def CoalesceOrRedistribute :
    Nat → BPlusTree → Int → Transaction → Except Failure (BPlusTree × Transaction × Bool)
  | 0, _, _, _ => .error .diverge
  | fuel + 1, t, node_id, txn =>
    match t.pages node_id with
    | none => .error .page_fault
    | some node =>
      if node.IsRootPage then
        match t.AdjustRoot node_id with
        | .error e => .error e
        | .ok (t1, b) => .ok (t1, txn, b)
      else if node.GetSize ≥ node.GetMinSize then .ok (t, txn, false)
      else
        let parent_page_id := node.GetParentPageId
        match t.pages parent_page_id with
        | none => .error .page_fault
        | some (.leaf _) => .error .bad_access
        | some (.internal parent_node) =>
          match parent_node.ValueIndex node.GetPageId with
          | none => .error .bad_access
          | some index =>
            match parent_node.ValueAt (if index = 0 then 1 else index - 1) with
            | none => .error .bad_access
            | some sibling_page_id =>
              match t.pages sibling_page_id with
              | none => .error .page_fault
              | some sibling_node =>
                if sibling_node.GetSize + node.GetSize > t.maxSize node then
                  match t.Redistribute sibling_page_id node_id index with
                  | .error e => .error e
                  | .ok t1 => .ok (t1, txn, false)
                else
                  match Coalesce (CoalesceOrRedistribute fuel) t sibling_page_id node_id
                      parent_page_id index txn with
                  | .error e => .error e
                  | .ok (t1, txn1, delete_parent) =>
                    .ok (t1,
                      if delete_parent then txn1.AddIntoDeletedPageSet parent_node.page_id
                      else txn1,
                      true)

/-- `BPlusTree::Remove`. -/
def Remove (t : BPlusTree) (key : Int) (txn : Transaction) :
    Except Failure (BPlusTree × Transaction) :=
  match t.FindLeafPage key false with
  | .error e => .error e
  | .ok (page_id, leaf_node) =>
    let old_size := leaf_node.GetSize
    let leaf1 := leaf_node.RemoveAndDeleteRecord key
    let t1 := t.write page_id (.leaf leaf1)
    if leaf1.GetSize = old_size then .ok (t1, txn)
    else
      match CoalesceOrRedistribute t1.fuel t1 page_id txn with
      | .error e => .error e
      | .ok (t2, txn1, leaf_delete) =>
        let txn2 := if leaf_delete then txn1.AddIntoDeletedPageSet leaf1.page_id else txn1
        .ok ({ t2 with pages := txn2.deleted_page_set.foldl Pool.DeletePage t2.pages },
             { txn2 with deleted_page_set := [] })

end BPlusTree

/-! ## Index iterator -/

/-- State of `IndexIterator`: the page id of the current leaf and the index in it. -/
structure IndexIterator where
  page_id : Int
  index : Int
deriving DecidableEq, Repr

namespace BPlusTree

/-- `BPlusTree::begin`. -/
def begin (t : BPlusTree) : Except Failure IndexIterator :=
  match t.FindLeafPage 0 true with
  | .error e => .error e
  | .ok (page_id, _) => .ok { page_id := page_id, index := 0 }

/-- `BPlusTree::Begin(key)`. -/
def Begin (t : BPlusTree) (key : Int) : Except Failure IndexIterator :=
  match t.FindLeafPage key false with
  | .error e => .error e
  | .ok (page_id, leaf) => .ok { page_id := page_id, index := leaf.KeyIndex key }

/-- The loop of `BPlusTree::end` along the sibling chain. -/
def endLoop (pages : Pool) : Nat → Int → LeafPage → Except Failure IndexIterator
  | 0, _, _ => .error .diverge
  | fuel + 1, page_id, leaf =>
    if leaf.next_page_id ≠ INVALID_PAGE_ID then
      match pages leaf.next_page_id with
      | none => .error .page_fault
      | some (.internal _) => .error .bad_access
      | some (.leaf next) => endLoop pages fuel leaf.next_page_id next
    else .ok { page_id := page_id, index := leaf.GetSize }

/-- `BPlusTree::end`. -/
def end_ (t : BPlusTree) : Except Failure IndexIterator :=
  match t.FindLeafPage 0 true with
  | .error e => .error e
  | .ok (page_id, leaf) => endLoop t.pages t.fuel page_id leaf

end BPlusTree

namespace IndexIterator

/-- `IndexIterator::isEnd`. -/
def isEnd (t : BPlusTree) (it : IndexIterator) : Except Failure Bool :=
  match t.pages it.page_id with
  | some (.leaf leaf_page) =>
    .ok (leaf_page.next_page_id == INVALID_PAGE_ID && it.index == leaf_page.GetSize)
  | some (.internal _) => .error .bad_access
  | none => .error .page_fault

/-- `IndexIterator::operator*`. -/
def deref (t : BPlusTree) (it : IndexIterator) : Except Failure (Int × Int) :=
  match t.pages it.page_id with
  | some (.leaf leaf_page) =>
    if it.index < 0 then .error .bad_access
    else
      match leaf_page.GetItem it.index.toNat with
      | some kv => .ok kv
      | none => .error .bad_access
  | some (.internal _) => .error .bad_access
  | none => .error .page_fault

/-- `IndexIterator::operator++`. -/
def next (t : BPlusTree) (it : IndexIterator) : Except Failure IndexIterator :=
  match t.pages it.page_id with
  | some (.leaf leaf_page) =>
    let index := it.index + 1
    if leaf_page.next_page_id ≠ INVALID_PAGE_ID ∧ index = leaf_page.GetSize then
      match t.pages leaf_page.next_page_id with
      | some (.leaf _) => .ok { page_id := leaf_page.next_page_id, index := 0 }
      | some (.internal _) => .error .bad_access
      | none => .error .page_fault
    else .ok { it with index := index }
  | some (.internal _) => .error .bad_access
  | none => .error .page_fault

/-- `IndexIterator::operator==`: same page id and same index. -/
def eq (t : BPlusTree) (it itr : IndexIterator) : Except Failure Bool :=
  match t.pages it.page_id, t.pages itr.page_id with
  | some p, some q => .ok (p.GetPageId == q.GetPageId && it.index == itr.index)
  | _, _ => .error .page_fault

/-- `IndexIterator::operator!=`. -/
def ne (t : BPlusTree) (it itr : IndexIterator) : Except Failure Bool :=
  match eq t it itr with
  | .ok b => .ok (!b)
  | .error e => .error e

end IndexIterator

/-! ## Drivers: sequences of calls -/

namespace BPlusTree

/-- The loop `for (it = first; it != last; ++it) out.push_back(*it)`. -/
def scanLoop (t : BPlusTree) (last : IndexIterator) :
    Nat → IndexIterator → Except Failure (List (Int × Int))
  | 0, _ => .error .diverge
  | fuel + 1, it =>
    match IndexIterator.ne t it last with
    | .error e => .error e
    | .ok false => .ok []
    | .ok true =>
      match IndexIterator.deref t it with
      | .error e => .error e
      | .ok kv =>
        match IndexIterator.next t it with
        | .error e => .error e
        | .ok it1 =>
          match scanLoop t last fuel it1 with
          | .error e => .error e
          | .ok rest => .ok (kv :: rest)

/-- The pairs visited by `for (it = begin(); it != end(); ++it)`, with at most `fuel`
evaluations of the loop condition. -/
def scan (t : BPlusTree) (fuel : Nat) : Except Failure (List (Int × Int)) :=
  match t.begin, t.end_ with
  | .ok first, .ok last => scanLoop t last fuel first
  | .error e, _ => .error e
  | _, .error e => .error e

/-- The calls `Insert(k, v)` for the pairs of `kvs` in order: the final tree and the
returned flags. -/
def InsertAll (t : BPlusTree) : List (Int × Int) → Except Failure (BPlusTree × List Bool)
  | [] => .ok (t, [])
  | kv :: rest =>
    match t.Insert kv.1 kv.2 with
    | .error e => .error e
    | .ok (t1, b) =>
      match InsertAll t1 rest with
      | .error e => .error e
      | .ok (t2, bs) => .ok (t2, b :: bs)

/-- The calls `Remove(k)` for the keys of `ks` in order. -/
def RemoveAll (t : BPlusTree) (txn : Transaction) :
    List Int → Except Failure (BPlusTree × Transaction)
  | [] => .ok (t, txn)
  | k :: rest =>
    match t.Remove k txn with
    | .error e => .error e
    | .ok (t1, txn1) => RemoveAll t1 txn1 rest

end BPlusTree

/-- The tree built by the calls `Insert(k, v)` for the pairs of `kvs`, in order, on a newly
constructed tree. -/
def build (L I : Int) (kvs : List (Int × Int)) : Except Failure BPlusTree :=
  match (BPlusTree.new L I).InsertAll kvs with
  | .ok (t, _) => .ok t
  | .error e => .error e

/-- The tree of `build` after the calls `Remove(k)` for the keys of `ks`, in order, with a
fresh transaction. -/
def buildThenRemove (L I : Int) (kvs : List (Int × Int)) (ks : List Int) :
    Except Failure BPlusTree :=
  match build L I kvs with
  | .ok t =>
    match t.RemoveAll { deleted_page_set := [] } ks with
    | .ok (t1, _) => .ok t1
    | .error e => .error e
  | .error e => .error e

/-- The calls `Insert(k, v)`, `Remove(k)`, `GetValue(k)` in a row: flag and result vector of
the last call. -/
def insertRemoveGet (t : BPlusTree) (k v : Int) : Except Failure (Bool × List Int) :=
  match t.Insert k v with
  | .error e => .error e
  | .ok (t1, _) =>
    match t1.Remove k { deleted_page_set := [] } with
    | .error e => .error e
    | .ok (t2, _) =>
      match t2.GetValue k [] with
      | .error e => .error e
      | .ok (_, b, r) => .ok (b, r)

/-- The calls of `build` followed by `Insert(k, v)`, `Remove(k)`, `GetValue(k)`: flag and
result vector of the last call. -/
def buildInsertRemoveGet (L I : Int) (kvs : List (Int × Int)) (k v : Int) :
    Except Failure (Bool × List Int) :=
  match build L I kvs with
  | .error e => .error e
  | .ok t => insertRemoveGet t k v

/-- Whether `CoalesceOrRedistribute`, started on the page `node_id`, reaches a call of
`Coalesce` with `index == 0`: the walk takes the decisions of `CoalesceOrRedistribute` and
follows the state changes of `Coalesce` up the tree. -/
def coalescesLeftmost : Nat → BPlusTree → Int → Bool
  | 0, _, _ => false
  | fuel + 1, t, node_id =>
    match t.pages node_id with
    | none => false
    | some node =>
      if node.IsRootPage then false
      else if node.GetSize ≥ node.GetMinSize then false
      else
        match t.pages node.GetParentPageId with
        | some (.internal parent_node) =>
          match parent_node.ValueIndex node.GetPageId with
          | none => false
          | some index =>
            match parent_node.ValueAt (if index = 0 then 1 else index - 1) with
            | none => false
            | some sibling_page_id =>
              match t.pages sibling_page_id with
              | none => false
              | some sibling_node =>
                if sibling_node.GetSize + node.GetSize > t.maxSize node then false
                else if index = 0 then true
                else
                  match BPlusTree.Coalesce (fun t1 _ txn1 => .ok (t1, txn1, false)) t
                      sibling_page_id node_id node.GetParentPageId index
                      { deleted_page_set := [] } with
                  | .ok (t1, _, _) => coalescesLeftmost fuel t1 node.GetParentPageId
                  | .error _ => false
        | _ => false

/-- Whether, after the calls of `build` followed by `Insert(k, v)`, the call `Remove(k)`
coalesces a page that is child 0 of its parent. -/
def removeCoalescesLeftmost (L I : Int) (kvs : List (Int × Int)) (k v : Int) : Bool :=
  match build L I kvs with
  | .error _ => false
  | .ok t =>
    match t.Insert k v with
    | .error _ => false
    | .ok (t1, _) =>
      match t1.FindLeafPage k false with
      | .error _ => false
      | .ok (page_id, leaf_node) =>
        let t2 := t1.write page_id (.leaf (leaf_node.RemoveAndDeleteRecord k))
        coalescesLeftmost t2.fuel t2 page_id

/-- The pairs visited by the iteration from `begin()` to `end()` on the tree of `build`. -/
def buildThenScan (L I : Int) (kvs : List (Int × Int)) (fuel : Nat) :
    Except Failure (List (Int × Int)) :=
  match build L I kvs with
  | .error e => .error e
  | .ok t => t.scan fuel

/-- Scenario 4 of the specification: the keys 1 to 10, key `k` with value `100 + k`. -/
def scenarioKeys : List (Int × Int) :=
  [(1, 101), (2, 102), (3, 103), (4, 104), (5, 105), (6, 106), (7, 107), (8, 108), (9, 109),
   (10, 110)]

/-! ## Well-formedness of trees built by insertion

The invariant is stated page by page against an annotation of the pages (`Ghost`): the level of
each page above the leaves, the key interval each page is responsible for, and the position of
each leaf in the sibling chain. -/

deriving instance DecidableEq for Except

/-- Annotation of the pages of a tree. -/
structure Ghost where
  lvl : Int → Nat
  lo : Int → Option Int
  hi : Int → Option Int
  pos : Int → Nat

/-- Annotation with the upper bound of page `q` replaced. -/
def Ghost.setHi (g : Ghost) (q : Int) (u : Option Int) : Ghost :=
  { g with hi := fun i => if i = q then u else g.hi i }

/-- Membership of `k` in the interval from `lo` (inclusive) to `hi` (exclusive); `none` is an
absent bound. -/
def InRange (lo hi : Option Int) (k : Int) : Prop :=
  (∀ a, lo = some a → a ≤ k) ∧ (∀ b, hi = some b → k < b)

/-- Page `c` is in the pool, names `q` as its parent, sits at level `h` and is responsible for
the interval from `lower` to `upper`. -/
def ChildOK (pages : Pool) (g : Ghost) (q : Int) (h : Nat) (c : Int)
    (lower upper : Option Int) : Prop :=
  ∃ pg, pages c = some pg ∧ pg.GetParentPageId = q ∧ g.lvl c = h ∧ g.lo c = lower ∧
    g.hi c = upper

/-- The children of an internal page, read from child `c` on through the slots `rest`, tile
the interval from `lower` to `upper` with the separator keys as boundaries. -/
def Chain (P : Int → Option Int → Option Int → Prop) :
    Int → Option Int → List (Int × Int) → Option Int → Prop
  | c, lower, [], upper => P c lower upper
  | c, lower, kc :: rest, upper => P c lower (some kc.1) ∧ Chain P kc.2 (some kc.1) rest upper

/-- Well-formedness of a leaf page. -/
def LeafOK (pages : Pool) (g : Ghost) (q : Int) (l : LeafPage) : Prop :=
  g.lvl q = 0 ∧ l.array ≠ [] ∧ l.array.Pairwise (fun a b => a.1 < b.1) ∧
  (∀ kv ∈ l.array, InRange (g.lo q) (g.hi q) kv.1) ∧
  (l.next_page_id = INVALID_PAGE_ID → g.hi q = none) ∧
  (l.next_page_id ≠ INVALID_PAGE_ID →
    ∃ l1 b, pages l.next_page_id = some (.leaf l1) ∧ g.hi q = some b ∧
      g.lo l.next_page_id = some b ∧ g.pos q < g.pos l.next_page_id)

/-- Well-formedness of an internal page. -/
def InternalOK (pages : Pool) (g : Ghost) (q : Int) (n : InternalPage) : Prop :=
  ∃ h kc rest, g.lvl q = h + 1 ∧ n.array = kc :: rest ∧
    Chain (ChildOK pages g q h) kc.2 (g.lo q) rest (g.hi q) ∧ (n.array.map Prod.snd).Nodup

/-- Part of the invariant that holds at every moment of an insertion. -/
structure Base (t : BPlusTree) (g : Ghost) : Prop where
  ids : ∀ q pg, t.pages q = some pg → 0 < q ∧ q < t.next_page_id
  pid : ∀ q pg, t.pages q = some pg → pg.GetPageId = q
  leafOK : ∀ q l, t.pages q = some (.leaf l) → LeafOK t.pages g q l
  leafUniq : ∀ q q1 l l1 k, t.pages q = some (.leaf l) → t.pages q1 = some (.leaf l1) →
    InRange (g.lo q) (g.hi q) k → InRange (g.lo q1) (g.hi q1) k → q = q1
  lvlRoot : ∀ q pg, t.pages q = some pg → g.lvl q ≤ g.lvl t.root_page_id
  fuel : g.lvl t.root_page_id < t.next_page_id.toNat
  pos : ∀ q l, t.pages q = some (.leaf l) → g.pos q < t.next_page_id.toNat
  rootPage : ∃ pg, t.pages t.root_page_id = some pg ∧
    pg.GetParentPageId = INVALID_PAGE_ID ∧ g.lo t.root_page_id = none

/-- Well-formedness of a non-empty tree under the annotation `g`. -/
structure Inv (t : BPlusTree) (g : Ghost) extends Base t g : Prop where
  internalOK : ∀ q n, t.pages q = some (.internal n) → InternalOK t.pages g q n
  listed : ∀ q pg, t.pages q = some pg → q ≠ t.root_page_id →
    ∃ n, t.pages pg.GetParentPageId = some (.internal n) ∧ q ∈ n.array.map Prod.snd
  rootHi : g.hi t.root_page_id = none

/-- State between a split and the insertion of the new page into the parent: page `old` was
split at `key`, its upper part is the page `new`, which no internal page lists yet, and the
parent of `old` still treats `old` as reaching up to `u`. -/
structure HoleInv (t : BPlusTree) (g : Ghost) (old new key : Int) (u : Option Int)
    extends Base t g : Prop where
  oldPage : ∃ po pn, t.pages old = some po ∧ t.pages new = some pn ∧
    pn.GetParentPageId = po.GetParentPageId
  distinct : new ≠ old
  lvlNew : g.lvl new = g.lvl old
  hiOld : g.hi old = some key
  loNew : g.lo new = some key
  hiNew : g.hi new = u
  fresh : ∀ q n, t.pages q = some (.internal n) → new ∉ n.array.map Prod.snd
  internalOK : ∀ q n po, t.pages q = some (.internal n) → t.pages old = some po →
    q ≠ po.GetParentPageId → InternalOK t.pages g q n
  parentOK : ∀ po n, t.pages old = some po → t.pages po.GetParentPageId = some (.internal n) →
    InternalOK t.pages (g.setHi old u) po.GetParentPageId n
  listed : ∀ q pg, t.pages q = some pg → q ≠ t.root_page_id → q ≠ new →
    ∃ n, t.pages pg.GetParentPageId = some (.internal n) ∧ q ∈ n.array.map Prod.snd
  rootHi : (old ≠ t.root_page_id → g.hi t.root_page_id = none) ∧
    (old = t.root_page_id → u = none)

/-- The sibling chain from leaf `q` to its last leaf `qe` holds the pairs `es`, in order. -/
inductive ChainFrom (pages : Pool) : Int → Int → List (Int × Int) → Prop
  | last (q : Int) (l : LeafPage) : pages q = some (.leaf l) →
      l.next_page_id = INVALID_PAGE_ID → ChainFrom pages q q l.array
  | cons (q qe : Int) (l : LeafPage) (es : List (Int × Int)) : pages q = some (.leaf l) →
      l.next_page_id ≠ INVALID_PAGE_ID → ChainFrom pages l.next_page_id qe es →
      ChainFrom pages q qe (l.array ++ es)

/-- The pair `(k, v)` is held by some leaf page of the pool. -/
def Stored (t : BPlusTree) (k v : Int) : Prop :=
  ∃ q l, t.pages q = some (.leaf l) ∧ (k, v) ∈ l.array

/-- Well-formedness of a tree state, empty or not, together with its contents. -/
def TreeInv (t : BPlusTree) (m : Int → Option Int) : Prop :=
  (t.root_page_id = INVALID_PAGE_ID ∧ (∀ q, t.pages q = none) ∧ 0 < t.next_page_id ∧
      ∀ k, m k = none) ∨
  (∃ g, Inv t g ∧ ∀ k v, Stored t k v ↔ m k = some v)

/-- Contents after the calls `Insert(k, v)` for the pairs of `kvs` in order on a tree with
contents `m`: a key that is present keeps its value. -/
def insertAllSpec (m : Int → Option Int) : List (Int × Int) → Int → Option Int
  | [] => m
  | kv :: rest =>
    insertAllSpec (fun k => if k = kv.1 ∧ m k = none then some kv.2 else m k) rest

/-! ## Shape of a tree during a removal -/

/-- Size facts of a tree page: the maximum size recorded in the page is the one of the tree,
and an internal page has at least two children. -/
def PageSz (L I : Int) : Page → Prop
  | .leaf l => l.max_size = L
  | .internal n => n.max_size = I ∧ 2 ≤ n.array.length

/-- Every page of the pool satisfies `PageSz`. -/
def SzInv (t : BPlusTree) : Prop :=
  ∀ q pg, t.pages q = some pg → PageSz t.leaf_max_size t.internal_max_size pg

/-- The child page ids listed by a page; a leaf lists none. -/
def Page.children : Page → List Int
  | .leaf _ => []
  | .internal n => n.array.map Prod.snd

/-- Common header: `GetMaxSize`. -/
def Page.GetMaxSize : Page → Int
  | .leaf l => l.max_size
  | .internal n => n.max_size

/-- The page `pg1` carries the header of the page `pg`: page id, parent page id, page type
and maximum size. -/
def Page.SameHeader (pg pg1 : Page) : Prop :=
  pg1.GetPageId = pg.GetPageId ∧ pg1.GetParentPageId = pg.GetParentPageId ∧
    pg1.IsLeafPage = pg.IsLeafPage ∧ pg1.GetMaxSize = pg.GetMaxSize

/-- Shape of the tree during a removal, keys left aside: `lvl` is the height of a page above
the leaves, `dead` marks the pages that are emptied and no longer listed, and `hole` is the
one internal page that may be left with a single child. -/
structure Shape (t : BPlusTree) (lvl : Int → Nat) (dead : Int → Prop) (hole : Int) : Prop where
  ids : ∀ q pg, t.pages q = some pg → 0 < q ∧ pg.GetPageId = q
  root : ∃ pg, t.pages t.root_page_id = some pg ∧ pg.GetParentPageId = INVALID_PAGE_ID ∧
    ¬ dead t.root_page_id
  kind : ∀ q pg, t.pages q = some pg → ¬ dead q →
    (pg.IsLeafPage = true ↔ lvl q = 0) ∧
      pg.GetMaxSize = if pg.IsLeafPage then t.leaf_max_size else t.internal_max_size
  wide : ∀ q pg, t.pages q = some pg → ¬ dead q → pg.IsLeafPage = false →
    1 ≤ pg.children.length ∧ (q ≠ hole → 2 ≤ pg.children.length)
  child : ∀ q pg, t.pages q = some pg → ¬ dead q →
    pg.children.Nodup ∧ ∀ c ∈ pg.children, ¬ dead c ∧ lvl q = lvl c + 1 ∧
      ∃ pc, t.pages c = some pc ∧ pc.GetParentPageId = q
  listed : ∀ q pg, t.pages q = some pg → ¬ dead q → q ≠ t.root_page_id →
    ¬ dead pg.GetParentPageId ∧ ∃ pp, t.pages pg.GetParentPageId = some pp ∧ q ∈ pp.children
  lvlRoot : ∀ q pg, t.pages q = some pg → ¬ dead q → lvl q ≤ lvl t.root_page_id
  fuel : lvl t.root_page_id < t.next_page_id.toNat

/-- Every entry held by a leaf page of `t1` is held by a leaf page of `t`. -/
def LeavesFrom (t1 t : BPlusTree) : Prop :=
  ∀ q l e, t1.pages q = some (.leaf l) → e ∈ l.array →
    ∃ q0 l0, t.pages q0 = some (.leaf l0) ∧ e ∈ l0.array
/-! ## Observations on trees built by insertion -/

/-- The walk of `BPlusTree::end` along the sibling chain, started at the leaf `page_id`, with
every leaf it visits recorded under its page id. -/
def leafChainFrom (pages : Pool) : Nat → Int → Except Failure (List (Int × LeafPage))
  | 0, _ => .error .diverge
  | fuel + 1, page_id =>
    match pages page_id with
    | none => .error .page_fault
    | some (.internal _) => .error .bad_access
    | some (.leaf leaf) =>
      if leaf.next_page_id = INVALID_PAGE_ID then .ok [(page_id, leaf)]
      else
        match leafChainFrom pages fuel leaf.next_page_id with
        | .error e => .error e
        | .ok rest => .ok ((page_id, leaf) :: rest)

/-- The leaves visited by following `next_page_id` from the leftmost leaf, the leaf that
`FindLeafPage` reaches with `leftMost = true`. -/
def BPlusTree.leafChain (t : BPlusTree) : Except Failure (List (Int × LeafPage)) :=
  match t.FindLeafPage 0 true with
  | .error e => .error e
  | .ok (page_id, _) => leafChainFrom t.pages t.fuel page_id

/-- The entries of a list of leaves, leaf after leaf. -/
def entriesOf (ch : List (Int × LeafPage)) : List (Int × Int) :=
  ch.flatMap (fun e => e.2.array)

/-- Page `q` belongs to the subtree of page `p`: it is `p` or belongs to the subtree of a child
listed by the internal page `p`. -/
inductive Subtree (pages : Pool) : Int → Int → Prop
  | self (p : Int) : Subtree pages p p
  | child (p c q : Int) (n : InternalPage) : pages p = some (.internal n) →
      c ∈ n.array.map Prod.snd → Subtree pages c q → Subtree pages p q

/-- The subtree of page `x` holds a pair, and every pair it holds has its key in the interval
that the annotation gives to `x`. -/
def SubtreeOK (pages : Pool) (g : Ghost) (x : Int) : Prop :=
  (∃ q l kv, Subtree pages x q ∧ pages q = some (.leaf l) ∧ kv ∈ l.array) ∧
  ∀ q l kv, Subtree pages x q → pages q = some (.leaf l) → kv ∈ l.array →
    InRange (g.lo x) (g.hi x) kv.1

/-- Capacity of a page: at most `leaf_max_size - 1` entries in a leaf and at most
`internal_max_size` slots in an internal page. -/
def Page.AtMost (L I : Int) (pg : Page) : Prop :=
  pg.GetSize ≤ if pg.IsLeafPage then L - 1 else I

/-- Minimum occupancy of a page: `ceil((leaf_max_size - 1) / 2)` entries in a leaf and
`ceil(internal_max_size / 2)` slots in an internal page. -/
def Page.AtLeast (L I : Int) (pg : Page) : Prop :=
  (if pg.IsLeafPage then (L - 1 + 1) / 2 else (I + 1) / 2) ≤ pg.GetSize

/-- Occupancy facts that hold at every moment of an insertion: every page carries its own id,
which was handed out before; every page other than the page `over`, which is about to be split,
is within its capacity; and every page listed as a child, whose id was handed out before,
has the minimum occupancy. -/
structure Fill (t : BPlusTree) (over : Option Int) : Prop where
  ids : ∀ x px, t.pages x = some px → x < t.next_page_id ∧ px.GetPageId = x
  atMost : ∀ x px, t.pages x = some px → over ≠ some x →
    px.AtMost t.leaf_max_size t.internal_max_size
  listed : ∀ p n c, t.pages p = some (.internal n) → c ∈ n.array.map Prod.snd →
    c < t.next_page_id ∧
      ∀ pc, t.pages c = some pc → pc.AtLeast t.leaf_max_size t.internal_max_size

/-- A top-level call that modifies the tree. -/
inductive Op where
  | insert (key value : Int)
  | remove (key : Int)
deriving DecidableEq, Repr

/-- The calls of `ops` in order, each `Remove` with a transaction whose sets are empty. -/
def BPlusTree.run (t : BPlusTree) : List Op → Except Failure BPlusTree
  | [] => .ok t
  | .insert key value :: rest =>
    match t.Insert key value with
    | .error e => .error e
    | .ok (t1, _) => run t1 rest
  | .remove key :: rest =>
    match t.Remove key { deleted_page_set := [] } with
    | .error e => .error e
    | .ok (t1, _) => run t1 rest

/-- The root page id and the header page record after the calls of `ops` on a newly
constructed tree. -/
def runThenHeader (L I : Int) (ops : List Op) : Except Failure (Int × Option Int) :=
  match (BPlusTree.new L I).run ops with
  | .error e => .error e
  | .ok t => .ok (t.root_page_id, t.header_record)

/-- The tree whose only page is the root leaf, page 1, holding the entries `arr`. -/
def rootLeafOf (L I : Int) (arr : List (Int × Int)) : BPlusTree :=
  { root_page_id := 1, leaf_max_size := L, internal_max_size := I,
    pages := Pool.write (fun _ => none) 1
      (.leaf { page_id := 1, parent_page_id := INVALID_PAGE_ID, max_size := L,
               next_page_id := INVALID_PAGE_ID, array := arr }),
    next_page_id := 2, header_record := some 1 }
/-! ## Latches and pins

The operations once more, this time with every call to the buffer pool and to a latch written
to a log, in the order in which a single thread makes them.  The tree state is computed as in
the embedding above; the log is what the claims about pin counts and latches are stated on.

* `NewPage` hands out a page as long as the pool has a free frame: `avail` is the number of
  pages it can still hand out, and with `avail = 0` it returns no page.
* The transaction pointer of `Insert` and `Remove` is not null; its page set is `page_set`.
* The root latch `root_latch_` is a `std::mutex`: `lock` (the lock guard of `Insert`) and
  `try_lock` leave it held, `unlock` leaves it free.
* A C++ exception unwinds the stack: the lock guard of `Insert` releases the root latch, and
  nothing else is released.  The use of a null page pointer is the failure
  `Failure.bad_access`.
-/

/-- The enumeration `Operation` of `FindLeafPageByOperation`. -/
inductive Operation where
  | FIND
  | INSERT
  | DELETE
deriving DecidableEq, Repr

/-- The three places of the insertion code that call `NewPage`. -/
inductive Site where
  | StartNewTree
  | Split
  | InsertIntoParent
deriving DecidableEq, Repr

/-- A call to the buffer pool or to a latch.  `NewPage` carries the place of the call and the
page id handed out, `none` when the pool returns no page. -/
inductive Event where
  | FetchPage (page_id : Int)
  | NewPage (site : Site) (page_id : Option Int)
  | UnpinPage (page_id : Int) (is_dirty : Bool)
  | DeletePage (page_id : Int)
  | RLatch (page_id : Int)
  | RUnlatch (page_id : Int)
  | WLatch (page_id : Int)
  | WUnlatch (page_id : Int)
  | root_lock
  | root_try_lock
  | root_unlock
deriving DecidableEq, Repr

/-- Outcome of a logged call: the calls made, in order, and the value returned or the failure
raised. -/
structure Traced (α : Type) where
  log : List Event
  result : Except Failure α

/-- The calls `evs` come first. -/
def Traced.emit {α : Type} (x : Traced α) (evs : List Event) : Traced α :=
  { log := evs ++ x.log, result := x.result }

/-- Sequencing: `f` runs on the value of `x`; a failure of `x` ends the run. -/
def Traced.bind {α β : Type} (x : Traced α) (f : α → Traced β) : Traced β :=
  match x.result with
  | .error e => { log := x.log, result := .error e }
  | .ok a => { log := x.log ++ (f a).log, result := (f a).result }

/-- Modelled from the spec: effect of one call on the pin count `c` of page `p`; `FetchPage`
and `NewPage` pin the page, `UnpinPage` takes one pin off a pinned page. -/
def pinStep (p : Int) (c : Nat) : Event → Nat
  | .FetchPage q => if q = p then c + 1 else c
  | .NewPage _ (some q) => if q = p then c + 1 else c
  | .UnpinPage q _ => if q = p then c - 1 else c
  | _ => c

/-- Pin count of page `p` after the calls of `log`, every pin count being 0 before. -/
def pinCount (log : List Event) (p : Int) : Nat := log.foldl (pinStep p) 0

/-- Modelled from the spec: effect of one call on the number of write latches held on page
`p`. -/
def wlatchStep (p : Int) (c : Nat) : Event → Nat
  | .WLatch q => if q = p then c + 1 else c
  | .WUnlatch q => if q = p then c - 1 else c
  | _ => c

/-- Write latches held on page `p` after the calls of `log`, none being held before. -/
def writeLatches (log : List Event) (p : Int) : Nat := log.foldl (wlatchStep p) 0

/-- Modelled from the spec: effect of one call on the number of read latches held on page
`p`. -/
def rlatchStep (p : Int) (c : Nat) : Event → Nat
  | .RLatch q => if q = p then c + 1 else c
  | .RUnlatch q => if q = p then c - 1 else c
  | _ => c

/-- Read latches held on page `p` after the calls of `log`, none being held before. -/
def readLatches (log : List Event) (p : Int) : Nat := log.foldl (rlatchStep p) 0

/-- Effect of one call on the root latch: held or not. -/
def rootStep (held : Bool) : Event → Bool
  | .root_lock => true
  | .root_try_lock => true
  | .root_unlock => false
  | _ => held

/-- Whether the root latch is held after the calls of `log`, it being free before. -/
def rootLatchHeld (log : List Event) : Bool := log.foldl rootStep false

/-- The `NewPage` calls of a log: the place of each call and the page id handed out. -/
def newPageCalls (log : List Event) : List (Site × Option Int) :=
  log.filterMap (fun e =>
    match e with
    | .NewPage site page_id => some (site, page_id)
    | _ => none)

/-- Whenever `NewPage` returned no page in `StartNewTree` or in `Split`, the call has raised
the runtime error. -/
def Traced.OomRaises {α : Type} (x : Traced α) : Prop :=
  ∀ site, site ≠ Site.InsertIntoParent → (site, none) ∈ newPageCalls x.log →
    x.result = .error .runtime_error

/-- `BPlusTree::IsSafe`. -/
def BPlusTree.IsSafe (t : BPlusTree) (node : Page) (op : Operation) : Bool :=
  if node.IsRootPage then
    (op == .INSERT && decide (node.GetSize < t.maxSize node)) ||
      (op == .DELETE && decide (node.GetSize > 2))
  else if op = .INSERT then decide (node.GetSize < t.maxSize node)
  else if op = .DELETE then decide (node.GetSize > node.GetMinSize)
  else true

/-- What `FindLeafPageByOperation` returns and leaves behind: the page id of the leaf, the
flag `root_page_latch_` and the page set of the transaction. -/
structure Descent where
  page_id : Int
  root_page_latch : Bool
  page_set : List Int
deriving DecidableEq, Repr

namespace Latched

/-- `BPlusTree::UnlockUnpinPages`: the calls made for the pages of the page set, which is
cleared afterwards. -/
def UnlockUnpinPages (page_set : List Int) : List Event :=
  page_set.flatMap (fun p => [.WUnlatch p, .UnpinPage p false])

/-- `BPlusTree::Unlock`: the calls made for the pages of the page set, which is cleared
afterwards. -/
def Unlock (page_set : List Int) : List Event :=
  page_set.map (fun p => .WUnlatch p)

/-- `BPlusTree::UpdateRootPageId`: the header page is fetched and unpinned. -/
def UpdateRootPageId : List Event :=
  [.FetchPage HEADER_PAGE_ID, .UnpinPage HEADER_PAGE_ID true]

/-- The statement `if (root_page_latch_) root_latch_.unlock();`. -/
def unlockRoot (root_page_latch : Bool) : List Event :=
  if root_page_latch then [.root_unlock] else []

/-- Modelled from the spec: the internal-page moves (`MoveHalfTo`, `MoveAllTo`,
`MoveFirstToEndOf`, `MoveLastToFrontOf`) fetch each moved child, rewrite its parent page id and
unpin it dirty. -/
def reparentEvents (children : List Int) : List Event :=
  children.flatMap (fun c => [.FetchPage c, .UnpinPage c true])

/-- The loop of `FindLeafPageByOperation`, at the page `page_id`, which is pinned and
latched. -/
def descendLoop (t : BPlusTree) (key : Int) (op : Operation) (leftMost : Bool) :
    Nat → Int → Bool → List Int → Traced Descent
  | 0, _, _, _ => { log := [], result := .error .diverge }
  | fuel + 1, page_id, root_page_latch, page_set =>
    match t.pages page_id with
    | none => { log := [], result := .error .page_fault }
    | some (.leaf _) =>
      { log := [],
        result := .ok { page_id := page_id, root_page_latch := root_page_latch,
                        page_set := page_set } }
    | some (.internal internal_node) =>
      match (if leftMost then internal_node.ValueAt 0 else internal_node.Lookup key) with
      | none => { log := [], result := .error .bad_access }
      | some next_page_id =>
        match t.pages next_page_id with
        | none => descendLoop t key op leftMost fuel next_page_id root_page_latch page_set
        | some next_node =>
          if op = .FIND then
            (descendLoop t key op leftMost fuel next_page_id root_page_latch page_set).emit
              [.FetchPage next_page_id, .RLatch next_page_id, .RUnlatch page_id,
               .UnpinPage page_id false]
          else if t.IsSafe next_node op then
            (descendLoop t key op leftMost fuel next_page_id false []).emit
              ([.FetchPage next_page_id, .WLatch next_page_id] ++ unlockRoot root_page_latch ++
                UnlockUnpinPages (page_set ++ [page_id]))
          else
            (descendLoop t key op leftMost fuel next_page_id root_page_latch
              (page_set ++ [page_id])).emit [.FetchPage next_page_id, .WLatch next_page_id]

/-- `BPlusTree::FindLeafPageByOperation`. -/
def FindLeafPageByOperation (t : BPlusTree) (key : Int) (op : Operation) (leftMost : Bool)
    (page_set : List Int) : Traced Descent :=
  if t.root_page_id = INVALID_PAGE_ID then { log := [], result := .error .runtime_error }
  else
    match t.pages t.root_page_id with
    | none => { log := [.root_try_lock], result := .error .page_fault }
    | some node =>
      if op = .FIND then
        (descendLoop t key op leftMost t.fuel t.root_page_id false page_set).emit
          [.root_try_lock, .FetchPage t.root_page_id, .root_unlock, .RLatch t.root_page_id]
      else if t.IsSafe node op then
        (descendLoop t key op leftMost t.fuel t.root_page_id false page_set).emit
          [.root_try_lock, .FetchPage t.root_page_id, .WLatch t.root_page_id, .root_unlock]
      else
        (descendLoop t key op leftMost t.fuel t.root_page_id true page_set).emit
          [.root_try_lock, .FetchPage t.root_page_id, .WLatch t.root_page_id]

/-- `BPlusTree::GetValue`: the flag returned and the result vector. -/
def GetValue (t : BPlusTree) (key : Int) (result : List Int) : Traced (Bool × List Int) :=
  (FindLeafPageByOperation t key .FIND false []).bind fun d =>
    match t.pages d.page_id with
    | some (.leaf leaf_node) =>
      { log := [.RUnlatch d.page_id, .UnpinPage d.page_id false],
        result :=
          match leaf_node.Lookup key with
          | none => .ok (false, result)
          | some value => .ok (true, result ++ [value]) }
    | _ => { log := [], result := .error .bad_access }

/-- `BPlusTree::StartNewTree`: the pages the pool can still hand out and the tree. -/
def StartNewTree (avail : Nat) (t : BPlusTree) (key value : Int) : Traced (Nat × BPlusTree) :=
  match avail with
  | 0 => { log := [.NewPage .StartNewTree none], result := .error .runtime_error }
  | avail1 + 1 =>
    { log := [.NewPage .StartNewTree (some t.next_page_id)] ++ UpdateRootPageId ++
        [.UnpinPage t.next_page_id true],
      result := .ok (avail1, t.StartNewTree key value) }

/-- `BPlusTree::Split`: the pages the pool can still hand out, the tree and the id of the new
page. -/
def Split (avail : Nat) (t : BPlusTree) (node_id : Int) : Traced (Nat × BPlusTree × Int) :=
  match avail with
  | 0 => { log := [.NewPage .Split none], result := .error .runtime_error }
  | avail1 + 1 =>
    match t.Split node_id with
    | .error e => { log := [.NewPage .Split (some t.next_page_id)], result := .error e }
    | .ok (t1, new_id) =>
      { log := .NewPage .Split (some new_id) ::
          (match t1.pages new_id with
           | some (.internal new_node) => reparentEvents (new_node.array.map Prod.snd)
           | _ => []),
        result := .ok (avail1, t1, new_id) }

/-- `BPlusTree::InsertIntoParent`: the pages the pool can still hand out, the tree and the page
set of the transaction. -/
def InsertIntoParent :
    Nat → Nat → BPlusTree → Int → Int → Int → Bool → List Int →
      Traced (Nat × BPlusTree × List Int)
  | 0, _, _, _, _, _, _, _ => { log := [], result := .error .diverge }
  | fuel + 1, avail, t, old_id, key, new_id, root_page_latch, page_set =>
    match t.pages old_id, t.pages new_id with
    | some old_node, some new_node =>
      if old_node.IsRootPage then
        match avail with
        | 0 => { log := [.NewPage .InsertIntoParent none], result := .error .bad_access }
        | avail1 + 1 =>
          let new_page_id := t.next_page_id
          let t1 := { t with next_page_id := t.next_page_id + 1, root_page_id := new_page_id }
          let new_root_node :=
            (InternalPage.Init new_page_id INVALID_PAGE_ID t.internal_max_size).PopulateNewRoot
              old_node.GetPageId key new_node.GetPageId
          let t2 := t1.write new_page_id (.internal new_root_node)
          let t3 := t2.write old_id (old_node.SetParentPageId t1.root_page_id)
          let t4 := t3.write new_id (new_node.SetParentPageId t1.root_page_id)
          { log := [.NewPage .InsertIntoParent (some new_page_id), .UnpinPage new_page_id true] ++
              UpdateRootPageId ++ unlockRoot root_page_latch ++ Unlock page_set,
            result := .ok (avail1, t4.UpdateRootPageId 0, []) }
      else
        let parent_page_id := old_node.GetParentPageId
        match t.pages parent_page_id with
        | none => { log := [], result := .error .page_fault }
        | some (.leaf _) => { log := [.FetchPage parent_page_id], result := .error .bad_access }
        | some (.internal parent_node) =>
          let parent1 :=
            parent_node.InsertNodeAfter old_node.GetPageId key new_node.GetPageId
          let t1 := t.write parent_page_id (.internal parent1)
          if parent1.GetSize < parent1.max_size + 1 then
            { log := [.FetchPage parent_page_id] ++ unlockRoot root_page_latch ++
                Unlock page_set ++ [.UnpinPage parent1.page_id true],
              result := .ok (avail, t1, []) }
          else
            ((Split avail t1 parent_page_id).bind fun s =>
              match s.2.1.pages s.2.2 with
              | some (.internal new_parent_node) =>
                match new_parent_node.KeyAt 0 with
                | none => { log := [], result := .error .bad_access }
                | some up_key =>
                  (InsertIntoParent fuel s.1 s.2.1 parent_page_id up_key s.2.2 root_page_latch
                    page_set).bind fun r =>
                    { log := [.UnpinPage parent1.page_id true,
                              .UnpinPage new_parent_node.page_id true],
                      result := .ok r }
              | _ => { log := [], result := .error .bad_access }).emit
              [.FetchPage parent_page_id]
    | _, _ => { log := [], result := .error .page_fault }

/-- `BPlusTree::InsertIntoLeaf`: the pages the pool can still hand out, the tree, the page set
of the transaction and the flag returned. -/
def InsertIntoLeaf (avail : Nat) (t : BPlusTree) (key value : Int) (page_set : List Int) :
    Traced (Nat × BPlusTree × List Int × Bool) :=
  (FindLeafPageByOperation t key .INSERT false page_set).bind fun d =>
    match t.pages d.page_id with
    | some (.leaf leaf_page) =>
      if (leaf_page.Lookup key).isSome then
        { log := unlockRoot d.root_page_latch ++ UnlockUnpinPages d.page_set ++
            [.WUnlatch d.page_id, .UnpinPage d.page_id false],
          result := .ok (avail, t, [], false) }
      else
        let leaf1 := leaf_page.Insert key value
        let t1 := t.write d.page_id (.leaf leaf1)
        if leaf1.GetSize < t.leaf_max_size then
          { log := unlockRoot d.root_page_latch ++
              [.WUnlatch d.page_id, .UnpinPage d.page_id true],
            result := .ok (avail, t1, d.page_set, true) }
        else
          (Split avail t1 d.page_id).bind fun s =>
            match s.2.1.pages s.2.2 with
            | some (.leaf new_leaf_page) =>
              match new_leaf_page.KeyAt 0 with
              | none => { log := [], result := .error .bad_access }
              | some up_key =>
                (InsertIntoParent s.2.1.fuel s.1 s.2.1 d.page_id up_key s.2.2 d.root_page_latch
                  d.page_set).bind fun r =>
                  { log := [.WUnlatch d.page_id, .UnpinPage leaf1.page_id true,
                            .UnpinPage new_leaf_page.page_id true],
                    result := .ok (r.1, r.2.1, r.2.2, true) }
            | _ => { log := [], result := .error .bad_access }
    | _ => { log := [], result := .error .bad_access }

/-- `BPlusTree::Insert`: the lock guard takes the root latch first and releases it when the
call returns and when it raises. -/
def Insert (avail : Nat) (t : BPlusTree) (key value : Int) (page_set : List Int) :
    Traced (Nat × BPlusTree × List Int × Bool) :=
  let body : Traced (Nat × BPlusTree × List Int × Bool) :=
    if t.IsEmpty then
      (StartNewTree avail t key value).bind fun r =>
        { log := [], result := .ok (r.1, r.2, page_set, true) }
    else InsertIntoLeaf avail t key value page_set
  { log := [.root_lock] ++ body.log ++ [.root_unlock], result := body.result }

/-- `BPlusTree::AdjustRoot`. -/
def AdjustRoot (t : BPlusTree) (old_root_id : Int) (root_page_latch : Bool) :
    Traced (BPlusTree × Bool) :=
  match t.pages old_root_id with
  | none => { log := [], result := .error .page_fault }
  | some (.internal internal_node) =>
    if internal_node.GetSize = 1 then
      match t.AdjustRoot old_root_id with
      | .error e => { log := UpdateRootPageId ++ unlockRoot root_page_latch, result := .error e }
      | .ok r =>
        { log := UpdateRootPageId ++ unlockRoot root_page_latch ++
            [.FetchPage r.1.root_page_id, .UnpinPage r.1.root_page_id true],
          result := .ok r }
    else { log := [], result := t.AdjustRoot old_root_id }
  | some (.leaf leaf_node) =>
    if leaf_node.GetSize = 0 then
      { log := UpdateRootPageId ++ unlockRoot root_page_latch,
        result := t.AdjustRoot old_root_id }
    else { log := [], result := t.AdjustRoot old_root_id }

/-- The children that `Redistribute` moves between two internal pages: the first child of the
neighbour when `index == 0`, its last child otherwise; none between leaves. -/
def movedByRedistribute (t : BPlusTree) (neighbor_id node_id : Int) (index : Nat) : List Int :=
  match t.pages node_id, t.pages neighbor_id with
  | some (.internal _), some (.internal neighbor_internal_node) =>
    if index = 0 then (neighbor_internal_node.array.take 1).map Prod.snd
    else
      (neighbor_internal_node.array.drop (neighbor_internal_node.array.length - 1)).map Prod.snd
  | _, _ => []

/-- `BPlusTree::Redistribute`. -/
def Redistribute (t : BPlusTree) (neighbor_id node_id : Int) (index : Nat)
    (root_page_latch : Bool) : Traced BPlusTree :=
  match t.pages node_id with
  | none => { log := unlockRoot root_page_latch, result := .error .page_fault }
  | some node =>
    match t.pages node.GetParentPageId with
    | some (.internal parent_node) =>
      { log := unlockRoot root_page_latch ++ [.FetchPage node.GetParentPageId] ++
          reparentEvents (movedByRedistribute t neighbor_id node_id index) ++
          [.UnpinPage parent_node.page_id true],
        result := t.Redistribute neighbor_id node_id index }
    | _ =>
      { log := unlockRoot root_page_latch,
        result :=
          match t.Redistribute neighbor_id node_id index with
          | .error e => .error e
          | .ok _ => .error .bad_access }

/-- The children that `Coalesce` moves: all children of the right-hand page when the two pages
are internal pages; none between leaves. -/
def movedByCoalesce (t : BPlusTree) (neighbor_id node_id : Int) (index : Nat) : List Int :=
  match t.pages (if index = 0 then neighbor_id else node_id) with
  | some (.internal internal_node) => internal_node.array.map Prod.snd
  | _ => []

/-- `BPlusTree::CoalesceOrRedistribute` with `BPlusTree::Coalesce`, on the page id of `node`:
the tree, the transaction, its page set and the returned flag. -/
def CoalesceOrRedistribute :
    Nat → BPlusTree → Int → Transaction → Bool → List Int →
      Traced (BPlusTree × Transaction × List Int × Bool)
  | 0, _, _, _, _, _ => { log := [], result := .error .diverge }
  | fuel + 1, t, node_id, txn, root_page_latch, page_set =>
    match t.pages node_id with
    | none => { log := [], result := .error .page_fault }
    | some node =>
      if node.IsRootPage then
        ((AdjustRoot t node_id root_page_latch).bind fun r =>
          { log := [], result := .ok (r.1, txn, [], r.2) }).emit (UnlockUnpinPages page_set)
      else if node.GetSize ≥ node.GetMinSize then
        { log := UnlockUnpinPages page_set, result := .ok (t, txn, [], false) }
      else
        let parent_page_id := node.GetParentPageId
        match t.pages parent_page_id with
        | none => { log := [], result := .error .page_fault }
        | some (.leaf _) => { log := [.FetchPage parent_page_id], result := .error .bad_access }
        | some (.internal parent_node) =>
          match parent_node.ValueIndex node.GetPageId with
          | none => { log := [.FetchPage parent_page_id], result := .error .bad_access }
          | some index =>
            match parent_node.ValueAt (if index = 0 then 1 else index - 1) with
            | none => { log := [.FetchPage parent_page_id], result := .error .bad_access }
            | some sibling_page_id =>
              match t.pages sibling_page_id with
              | none => { log := [.FetchPage parent_page_id], result := .error .page_fault }
              | some sibling_node =>
                if sibling_node.GetSize + node.GetSize > t.maxSize node then
                  ((Redistribute t sibling_page_id node_id index root_page_latch).bind fun t1 =>
                    { log := UnlockUnpinPages page_set ++
                        [.WUnlatch sibling_page_id, .UnpinPage sibling_node.GetPageId true,
                         .UnpinPage node.GetPageId true],
                      result := .ok (t1, txn, [], false) }).emit
                    [.FetchPage parent_page_id, .FetchPage sibling_page_id,
                     .WLatch sibling_page_id]
                else
                  match BPlusTree.Coalesce (fun t1 _ txn1 => .ok (t1, txn1, false)) t
                      sibling_page_id node_id parent_page_id index txn with
                  | .error e =>
                    { log := [.FetchPage parent_page_id, .FetchPage sibling_page_id,
                              .WLatch sibling_page_id],
                      result := .error e }
                  | .ok moved =>
                    ((CoalesceOrRedistribute fuel moved.1 parent_page_id txn root_page_latch
                      page_set).bind fun r =>
                      { log := [.WUnlatch sibling_page_id, .UnpinPage parent_node.page_id true,
                                .UnpinPage sibling_node.GetPageId true],
                        result := .ok (r.1,
                          if r.2.2.2 then r.2.1.AddIntoDeletedPageSet parent_node.page_id
                          else r.2.1,
                          r.2.2.1, true) }).emit
                      ([.FetchPage parent_page_id, .FetchPage sibling_page_id,
                        .WLatch sibling_page_id] ++
                        reparentEvents (movedByCoalesce t sibling_page_id node_id index))

/-- `BPlusTree::Remove`: the tree, the transaction and its page set. -/
def Remove (t : BPlusTree) (key : Int) (txn : Transaction) (page_set : List Int) :
    Traced (BPlusTree × Transaction × List Int) :=
  (FindLeafPageByOperation t key .DELETE false page_set).bind fun d =>
    match t.pages d.page_id with
    | some (.leaf leaf_node) =>
      let old_size := leaf_node.GetSize
      let leaf1 := leaf_node.RemoveAndDeleteRecord key
      let t1 := t.write d.page_id (.leaf leaf1)
      if leaf1.GetSize = old_size then
        { log := unlockRoot d.root_page_latch ++ UnlockUnpinPages d.page_set ++
            [.WUnlatch d.page_id, .UnpinPage leaf1.page_id false],
          result := .ok (t1, txn, []) }
      else
        (CoalesceOrRedistribute t1.fuel t1 d.page_id txn d.root_page_latch d.page_set).bind
          fun r =>
            let txn2 :=
              if r.2.2.2 then r.2.1.AddIntoDeletedPageSet leaf1.page_id else r.2.1
            { log := [.WUnlatch d.page_id, .UnpinPage leaf1.page_id true] ++
                txn2.deleted_page_set.map (fun p => .DeletePage p),
              result := .ok
                ({ r.1 with pages := txn2.deleted_page_set.foldl Pool.DeletePage r.1.pages },
                 { txn2 with deleted_page_set := [] }, r.2.2.1) }
    | _ => { log := [], result := .error .bad_access }

end Latched

/-- Pin count of page `p` when `Insert(key, value)` has returned on the tree of `build`, with
the flag it returned; every pin count is 0 before the call and the pool has `avail` free
frames. -/
def insertThenPins (L I : Int) (kvs : List (Int × Int)) (avail : Nat) (key value p : Int) :
    Except Failure (Bool × Nat) :=
  match build L I kvs with
  | .error e => .error e
  | .ok t =>
    match (Latched.Insert avail t key value []).result with
    | .error e => .error e
    | .ok r => .ok (r.2.2.2, pinCount (Latched.Insert avail t key value []).log p)

/-- What is left behind by `Insert(key, value)` on the tree `t`, no latch being held and no
page being pinned before: the failure raised, if any, whether the root latch is held, and the
pin count, the write latches and the read latches of page `p`. -/
def insertOutcome (avail : Nat) (t : BPlusTree) (key value p : Int) :
    Option Failure × Bool × Nat × Nat × Nat :=
  ((match (Latched.Insert avail t key value []).result with
    | .error e => some e
    | .ok _ => none),
   rootLatchHeld (Latched.Insert avail t key value []).log,
   pinCount (Latched.Insert avail t key value []).log p,
   writeLatches (Latched.Insert avail t key value []).log p,
   readLatches (Latched.Insert avail t key value []).log p)

/-- Whether the root latch is held when `Remove(key)` has returned on the tree of `build`; no
latch is held before the call. -/
def removeThenRootLatch (L I : Int) (kvs : List (Int × Int)) (key : Int) :
    Except Failure Bool :=
  match build L I kvs with
  | .error e => .error e
  | .ok t =>
    match (Latched.Remove t key { deleted_page_set := [] } []).result with
    | .error e => .error e
    | .ok _ => .ok (rootLatchHeld (Latched.Remove t key { deleted_page_set := [] } []).log)
/-! ## Observations on removals and on the descent -/

/-- The tree of `build`; the newly constructed tree when an insertion does not return. -/
def built (L I : Int) (kvs : List (Int × Int)) : BPlusTree :=
  match build L I kvs with
  | .ok t => t
  | .error _ => BPlusTree.new L I

/-- The (key, value) or (key, child) pairs held by a page. -/
def Page.entries : Page → List (Int × Int)
  | .leaf l => l.array
  | .internal n => n.array

/-- The page ids passed to the buffer pool `DeletePage`, in call order. -/
def deletePageCalls : List Event → List Int
  | [] => []
  | .DeletePage p :: rest => p :: deletePageCalls rest
  | _ :: rest => deletePageCalls rest

/-- What a removal leaves behind: page ids handed over for deletion, in order, and the entries
of the pages looked at (`none` for a page that is not in the pool). -/
structure RemovalReport where
  deleted : List Int
  entries : List (Option (List (Int × Int)))
deriving DecidableEq, Repr

/-- `Remove(key)` on the tree `t`, stopped before the loop over the deleted page set of the
transaction: the page ids queued for deletion and, for each page id of `qs`, the entries the
page holds at that moment. -/
def removeQueued (t : BPlusTree) (key : Int) (qs : List Int) : Except Failure RemovalReport :=
  match t.FindLeafPage key false with
  | .error e => .error e
  | .ok (page_id, leaf_node) =>
    let leaf1 := leaf_node.RemoveAndDeleteRecord key
    let t1 := t.write page_id (.leaf leaf1)
    match BPlusTree.CoalesceOrRedistribute t1.fuel t1 page_id { deleted_page_set := [] } with
    | .error e => .error e
    | .ok (t2, txn1, leaf_delete) =>
      let txn2 := if leaf_delete then txn1.AddIntoDeletedPageSet leaf1.page_id else txn1
      .ok { deleted := txn2.deleted_page_set,
            entries := qs.map (fun q => (t2.pages q).map Page.entries) }

/-- The page ids that the calls of `Remove(key)` on the tree `t` pass to `DeletePage`, and for
each page id of `qs` the entries of the page when `Remove` has returned. -/
def removeDeleted (t : BPlusTree) (key : Int) (qs : List Int) : Except Failure RemovalReport :=
  match (Latched.Remove t key { deleted_page_set := [] } []).result with
  | .error e => .error e
  | .ok r =>
    .ok { deleted := deletePageCalls (Latched.Remove t key { deleted_page_set := [] } []).log,
          entries := qs.map (fun q => (r.1.pages q).map Page.entries) }

/-- The page ids that the descent of `FindLeafPageByOperation` visits from the page `page_id`
on: the root first, the leaf last. -/
def descentPath (pages : Pool) (key : Int) (leftMost : Bool) : Nat → Int → List Int
  | 0, _ => []
  | fuel + 1, page_id =>
    match pages page_id with
    | none => []
    | some (.leaf _) => [page_id]
    | some (.internal n) =>
      match (if leftMost then n.ValueAt 0 else n.Lookup key) with
      | none => [page_id]
      | some next_page_id => page_id :: descentPath pages key leftMost fuel next_page_id

/-- Whether `IsSafe(node, op)` holds of the page with id `q`. -/
def BPlusTree.safeAt (t : BPlusTree) (op : Operation) (q : Int) : Bool :=
  match t.pages q with
  | some node => t.IsSafe node op
  | none => false

/-- The part of a path from its deepest node that satisfies `safe` on, if there is one. -/
def deepestSafe (safe : Int → Bool) : List Int → Option (List Int)
  | [] => none
  | p :: rest =>
    match deepestSafe safe rest with
    | some s => some s
    | none => if safe p then some (p :: rest) else none

/-- The proper ancestors of the last node of `path` from the deepest safe node below the root
on, or from the root on when no node below the root is safe. -/
def heldAncestors (safe : Int → Bool) : List Int → List Int
  | [] => []
  | root :: rest =>
    match deepestSafe safe rest with
    | some s => s.dropLast
    | none => (root :: rest).dropLast

/-- Annotation with the bound between the adjacent pages `a` (on the left) and `b` (on the
right) replaced by the key `k`. -/
def Ghost.setSep (g : Ghost) (a b : Int) (k : Int) : Ghost :=
  { g with lo := fun i => if i = b then some k else g.lo i,
           hi := fun i => if i = a then some k else g.hi i }

/-- Separator consistency: for every internal page and every slot `i + 1` of it, every key
held by a leaf in the subtree of the child of slot `i` is less than the key of slot `i + 1`, and
every key held by a leaf in the subtree of the child of slot `i + 1` is at least that key. -/
def SeparatorsOK (pages : Pool) : Prop :=
  ∀ q n i a b, pages q = some (.internal n) → n.array.get? i = some a →
    n.array.get? (i + 1) = some b →
    (∀ q1 l e, Subtree pages a.2 q1 → pages q1 = some (.leaf l) → e ∈ l.array → e.1 < b.1) ∧
    (∀ q1 l e, Subtree pages b.2 q1 → pages q1 = some (.leaf l) → e ∈ l.array → b.1 ≤ e.1)
/-! ## Iterators, depth of pages, and the join executor -/

/-- The iterators that a caller obtains from `begin()` or `Begin(key)` and then advances with
`operator++`, each step being taken from an iterator of which `isEnd()` is false. -/
inductive IndexIterator.Reached (t : BPlusTree) : IndexIterator → Prop
  | ofbegin (it : IndexIterator) : t.begin = .ok it → IndexIterator.Reached t it
  | ofBegin (key : Int) (it : IndexIterator) : t.Begin key = .ok it →
      IndexIterator.Reached t it
  | step (it it1 : IndexIterator) : IndexIterator.Reached t it →
      IndexIterator.isEnd t it = .ok false → IndexIterator.next t it = .ok it1 →
      IndexIterator.Reached t it1

/-- The loop `for (it = Begin(key); it != end(); ++it) out.push_back(*it)`, with at most `fuel`
evaluations of the loop condition. -/
def BPlusTree.scanFrom (t : BPlusTree) (key : Int) (fuel : Nat) :
    Except Failure (List (Int × Int)) :=
  match t.Begin key, t.end_ with
  | .ok first, .ok last => t.scanLoop last fuel first
  | .error e, _ => .error e
  | _, .error e => .error e

/-- Page `q` is reached from page `p` by `d` steps, each from an internal page to one of the
children it lists. -/
inductive DepthIs (pages : Pool) : Int → Int → Nat → Prop
  | self (p : Int) : DepthIs pages p p 0
  | child (p x c : Int) (d : Nat) (n : InternalPage) : DepthIs pages p x d →
      pages x = some (.internal n) → c ∈ n.array.map Prod.snd → DepthIs pages p c (d + 1)

/-- Modelled from the spec: a tuple of the executors, as the values of its columns. -/
abbrev Tuple := List Int

/-- Modelled from the spec: a child executor that yields the tuples of a finite list. `Init`
sets the cursor to the start and `Next` hands out the tuple at the cursor and moves on, or
returns false at the end of the list. -/
structure ListExecutor where
  tuples : List Tuple
  rest : List Tuple
deriving DecidableEq, Repr

/-- Modelled from the spec: `Init` of a child executor. -/
def ListExecutor.Init (e : ListExecutor) : ListExecutor := { e with rest := e.tuples }

/-- Modelled from the spec: `Next` of a child executor, giving the tuple handed out, if any,
and the executor afterwards. -/
def ListExecutor.Next (e : ListExecutor) : Option Tuple × ListExecutor :=
  match e.rest with
  | [] => (none, e)
  | x :: xs => (some x, { e with rest := xs })

/-- State of `NestedLoopJoinExecutor`: the plan (join predicate and the column expressions of
the output schema) and the two child executors. -/
structure NestedLoopJoinExecutor where
  predicate : Tuple → Tuple → Bool
  columns : List (Tuple → Tuple → Int)
  left_executor : ListExecutor
  right_executor : ListExecutor

namespace NestedLoopJoinExecutor

/-- `NestedLoopJoinExecutor::Init`. -/
def Init (e : NestedLoopJoinExecutor) : NestedLoopJoinExecutor :=
  { e with left_executor := e.left_executor.Init, right_executor := e.right_executor.Init }

/-- `NestedLoopJoinExecutor::Join`: one value for every column of the output schema. -/
def Join (e : NestedLoopJoinExecutor) (left_tuple right_tuple : Tuple) : Tuple :=
  e.columns.map (fun expr => expr left_tuple right_tuple)

/-- The `while` loop of `NestedLoopJoinExecutor::Next`, with the tuples that the left child
still has to hand out as the argument that decreases. -/
def nextLoop (e : NestedLoopJoinExecutor) :
    List Tuple → ListExecutor → Option Tuple × List Tuple × ListExecutor
  | [], right => (none, [], right)
  | t1 :: left, right =>
    match right.Next with
    | (some t2, right1) =>
      if e.predicate t1 t2 then (some (e.Join t1 t2), left, right1)
      else nextLoop e left right1
    | (none, right1) => nextLoop e left right1

/-- `NestedLoopJoinExecutor::Next`: the tuple written to `*tuple` when the call returns true,
and the executor afterwards. -/
def Next (e : NestedLoopJoinExecutor) : Option Tuple × NestedLoopJoinExecutor :=
  match nextLoop e e.left_executor.rest e.right_executor with
  | (r, left, right) =>
    (r, { e with left_executor := { e.left_executor with rest := left },
                 right_executor := right })

/-- The tuples returned by the calls of `Next`, repeated until a call returns false, at most
`fuel` calls being made. -/
def drain : Nat → NestedLoopJoinExecutor → Option (List Tuple)
  | 0, _ => none
  | fuel + 1, e =>
    match e.Next with
    | (none, _) => some []
    | (some x, e1) => (drain fuel e1).map (fun xs => x :: xs)

end NestedLoopJoinExecutor

/-- The executor over the child executors that yield `Ls` and `Rs`, after `Init`, and the
tuples its `Next` calls return. -/
def joinOutput (predicate : Tuple → Tuple → Bool) (columns : List (Tuple → Tuple → Int))
    (Ls Rs : List Tuple) : Option (List Tuple) :=
  NestedLoopJoinExecutor.drain (Ls.length + 1)
    (NestedLoopJoinExecutor.Init
      { predicate := predicate, columns := columns,
        left_executor := { tuples := Ls, rest := [] },
        right_executor := { tuples := Rs, rest := [] } })

/-- The join as the specification words it: the joined tuples of all pairs of `Ls` and `Rs`
that satisfy the predicate, each pair once, the left tuples in the outer loop. -/
def joinAllPairs (predicate : Tuple → Tuple → Bool) (columns : List (Tuple → Tuple → Int))
    (Ls Rs : List Tuple) : List Tuple :=
  Ls.flatMap (fun l => (Rs.filter (fun r => predicate l r)).map
    (fun r => columns.map (fun expr => expr l r)))
/-! ## The live pages of a tree during a removal -/

/-- The pool without the pages of `dead`. -/
def Pool.hide (pages : Pool) (dead : List Int) : Pool :=
  fun x => if x ∈ dead then none else pages x

/-- The tree as its live pages show it. During a `Remove` the pages that a coalesce has emptied
stay in the buffer pool until `Remove` hands them to `DeletePage`; `dead` lists them, and they
are left out of the pool of `t.hide dead`. -/
def BPlusTree.hide (t : BPlusTree) (dead : List Int) : BPlusTree :=
  { t with pages := t.pages.hide dead }

/-- The tree of the keys 1 to 8, 0 and -1 (inserted in this order, `leaf_max_size = 4`,
`internal_max_size = 3`) at the moment at which `Remove(7)` calls `Redistribute` on internal
pages: leaf 5 has lost key 7 and has been emptied into its left sibling, leaf 4; their parent,
page 6, has dropped the slot of leaf 5 and holds one child, while its sibling, page 3, holds
three. The emptied leaf 5 is still in the pool. -/
def redistributionState : BPlusTree :=
  { root_page_id := 7, leaf_max_size := 4, internal_max_size := 3, next_page_id := 9,
    header_record := some 7,
    pages := fun x =>
      if x = 1 then some (.leaf (LeafPage.mk 1 3 4 8 [(-1, 99), (0, 100)]))
      else if x = 2 then some (.leaf (LeafPage.mk 2 3 4 4 [(3, 103), (4, 104)]))
      else if x = 3 then some (.internal (InternalPage.mk 3 7 3 [(0, 1), (1, 8), (3, 2)]))
      else if x = 4 then
        some (.leaf (LeafPage.mk 4 6 4 INVALID_PAGE_ID [(5, 105), (6, 106), (8, 108)]))
      else if x = 5 then some (.leaf (LeafPage.mk 5 6 4 INVALID_PAGE_ID []))
      else if x = 6 then some (.internal (InternalPage.mk 6 7 3 [(5, 4)]))
      else if x = 7 then some (.internal (InternalPage.mk 7 INVALID_PAGE_ID 3 [(0, 3), (5, 6)]))
      else if x = 8 then some (.leaf (LeafPage.mk 8 3 4 2 [(1, 101), (2, 102)]))
      else none }

/-- Levels, key intervals and chain positions of the live pages of `redistributionState`. -/
def redistributionGhost : Ghost :=
  { lvl := fun x => if x = 7 then 2 else if x = 3 then 1 else if x = 6 then 1 else 0,
    lo := fun x =>
      if x = 8 then some 1 else if x = 2 then some 3 else if x = 4 then some 5
      else if x = 6 then some 5 else none,
    hi := fun x =>
      if x = 1 then some 1 else if x = 8 then some 3 else if x = 2 then some 5
      else if x = 3 then some 5 else none,
    pos := fun x => if x = 8 then 1 else if x = 2 then 2 else if x = 4 then 3 else 0 }

/-! ## Lemmas -/

/-! ## Entry arrays of leaf pages -/

theorem lookup_eq_none {arr : List (Int × Int)} {k : Int} :
    LeafPage.lookup arr k = none ↔ ∀ v, (k, v) ∉ arr := by
  induction arr with
  | nil => simp [LeafPage.lookup]
  | cons kv rest ih =>
    obtain ⟨a, b⟩ := kv
    by_cases h : a = k
    · subst h
      simp only [LeafPage.lookup, if_true, List.mem_cons, not_or]
      constructor
      · intro h; cases h
      · intro h; exact absurd rfl (h b).1
    · simp only [LeafPage.lookup, h, if_false, ih, List.mem_cons, not_or, Prod.mk.injEq]
      constructor
      · intro h1 v; exact ⟨fun h2 => h h2.1.symm, h1 v⟩
      · intro h1 v; exact (h1 v).2

theorem lookup_eq_some {arr : List (Int × Int)} {k v : Int}
    (hs : arr.Pairwise (fun a b => a.1 < b.1)) :
    LeafPage.lookup arr k = some v ↔ (k, v) ∈ arr := by
  induction arr with
  | nil => simp [LeafPage.lookup]
  | cons kv rest ih =>
    obtain ⟨a, b⟩ := kv
    rw [List.pairwise_cons] at hs
    by_cases h : a = k
    · subst h
      simp only [LeafPage.lookup, if_true, List.mem_cons, Option.some.injEq, Prod.mk.injEq,
        true_and]
      constructor
      · intro h; exact Or.inl h.symm
      · rintro (h | h)
        · exact h.symm
        · exact absurd (hs.1 _ h) (lt_irrefl _)
    · simp only [LeafPage.lookup, h, if_false, ih hs.2, List.mem_cons, Prod.mk.injEq]
      constructor
      · intro h1; exact Or.inr h1
      · rintro (h1 | h1)
        · exact absurd h1.1.symm h
        · exact h1

theorem mem_insertSorted {arr : List (Int × Int)} {k v : Int} (hk : ∀ w, (k, w) ∉ arr)
    (x : Int × Int) :
    x ∈ LeafPage.insertSorted arr k v ↔ x = (k, v) ∨ x ∈ arr := by
  induction arr with
  | nil => simp [LeafPage.insertSorted]
  | cons kv rest ih =>
    obtain ⟨a, b⟩ := kv
    have hne : k ≠ a := fun h => hk b (by simp [h])
    have hk1 : ∀ w, (k, w) ∉ rest := fun w hw => hk w (List.mem_cons_of_mem _ hw)
    simp only [LeafPage.insertSorted, hne, if_false]
    split
    · simp
    · simp only [List.mem_cons, ih hk1]
      tauto

theorem length_insertSorted {arr : List (Int × Int)} {k v : Int} (hk : ∀ w, (k, w) ∉ arr) :
    (LeafPage.insertSorted arr k v).length = arr.length + 1 := by
  induction arr with
  | nil => simp [LeafPage.insertSorted]
  | cons kv rest ih =>
    obtain ⟨a, b⟩ := kv
    have hne : k ≠ a := fun h => hk b (by simp [h])
    have hk1 : ∀ w, (k, w) ∉ rest := fun w hw => hk w (List.mem_cons_of_mem _ hw)
    simp only [LeafPage.insertSorted, hne, if_false]
    split
    · simp
    · simp [ih hk1]

theorem pairwise_insertSorted {arr : List (Int × Int)} {k v : Int} (hk : ∀ w, (k, w) ∉ arr)
    (hs : arr.Pairwise (fun a b => a.1 < b.1)) :
    (LeafPage.insertSorted arr k v).Pairwise (fun a b => a.1 < b.1) := by
  induction arr with
  | nil => simp [LeafPage.insertSorted]
  | cons kv rest ih =>
    obtain ⟨a, b⟩ := kv
    have hne : k ≠ a := fun h => hk b (by simp [h])
    have hk1 : ∀ w, (k, w) ∉ rest := fun w hw => hk w (List.mem_cons_of_mem _ hw)
    rw [List.pairwise_cons] at hs
    simp only [LeafPage.insertSorted, hne, if_false]
    split
    · rename_i hlt
      rw [List.pairwise_cons]
      refine ⟨?_, List.pairwise_cons.2 hs⟩
      intro x hx
      rcases List.mem_cons.1 hx with h | h
      · subst h; exact hlt
      · exact lt_trans hlt (hs.1 x h)
    · rename_i hlt
      rw [List.pairwise_cons]
      refine ⟨?_, ih hk1 hs.2⟩
      intro x hx
      rcases (mem_insertSorted hk1 x).1 hx with h | h
      · subst h
        show a < k
        omega
      · exact hs.1 x h

theorem removeKey_of_not_mem {arr : List (Int × Int)} {k : Int} (hk : ∀ w, (k, w) ∉ arr) :
    LeafPage.removeKey arr k = arr := by
  induction arr with
  | nil => simp [LeafPage.removeKey]
  | cons kv rest ih =>
    obtain ⟨a, b⟩ := kv
    have hne : a ≠ k := fun h => hk b (by simp [h])
    have hk1 : ∀ w, (k, w) ∉ rest := fun w hw => hk w (List.mem_cons_of_mem _ hw)
    simp [LeafPage.removeKey, hne, ih hk1]

theorem mem_removeKey {arr : List (Int × Int)} {k : Int}
    (hs : arr.Pairwise (fun a b => a.1 < b.1)) (x : Int × Int) :
    x ∈ LeafPage.removeKey arr k ↔ x ∈ arr ∧ x.1 ≠ k := by
  induction arr with
  | nil => simp [LeafPage.removeKey]
  | cons kv rest ih =>
    obtain ⟨a, b⟩ := kv
    rw [List.pairwise_cons] at hs
    by_cases h : a = k
    · subst h
      simp only [LeafPage.removeKey, if_true, List.mem_cons]
      constructor
      · intro hx
        exact ⟨Or.inr hx, fun h1 => absurd (hs.1 x hx) (by omega)⟩
      · rintro ⟨h1 | h1, h2⟩
        · subst h1; exact absurd rfl h2
        · exact h1
    · simp only [LeafPage.removeKey, h, if_false, List.mem_cons, ih hs.2]
      constructor
      · rintro (h1 | h1)
        · subst h1; exact ⟨Or.inl rfl, h⟩
        · exact ⟨Or.inr h1.1, h1.2⟩
      · rintro ⟨h1 | h1, h2⟩
        · exact Or.inl h1
        · exact Or.inr ⟨h1, h2⟩

theorem length_removeKey_of_mem {arr : List (Int × Int)} {k v : Int} (hk : (k, v) ∈ arr) :
    (LeafPage.removeKey arr k).length + 1 = arr.length := by
  induction arr with
  | nil => simp at hk
  | cons kv rest ih =>
    obtain ⟨a, b⟩ := kv
    by_cases h : a = k
    · simp [LeafPage.removeKey, h]
    · have : (k, v) ∈ rest := by
        rcases List.mem_cons.1 hk with h1 | h1
        · exact absurd (Prod.mk.inj h1).1.symm h
        · exact h1
      simp [LeafPage.removeKey, h, ih this]

theorem pairwise_removeKey {arr : List (Int × Int)} {k : Int}
    (hs : arr.Pairwise (fun a b => a.1 < b.1)) :
    (LeafPage.removeKey arr k).Pairwise (fun a b => a.1 < b.1) := by
  induction arr with
  | nil => simp [LeafPage.removeKey]
  | cons kv rest ih =>
    rw [List.pairwise_cons] at hs
    by_cases h : kv.1 = k
    · simp [LeafPage.removeKey, h, hs.2]
    · simp only [LeafPage.removeKey, h, if_false, List.pairwise_cons]
      exact ⟨fun x hx => hs.1 x ((mem_removeKey hs.2 x).1 hx).1, ih hs.2⟩

/-! ## Slot arrays of internal pages -/

theorem Chain.mono {P Q : Int → Option Int → Option Int → Prop} :
    ∀ {rest : List (Int × Int)} {c : Int} {lower upper : Option Int},
      (∀ d l u, d ∈ c :: rest.map Prod.snd → P d l u → Q d l u) →
      Chain P c lower rest upper → Chain Q c lower rest upper
  | [], c, lower, upper, h, hc => h c lower upper (by simp) hc
  | kc :: rest, c, lower, upper, h, hc => by
    refine ⟨h c lower _ (by simp) hc.1, Chain.mono (fun d l u hd => h d l u ?_) hc.2⟩
    simp only [List.map_cons, List.mem_cons] at hd ⊢
    tauto

theorem Chain.append {P : Int → Option Int → Option Int → Prop} :
    ∀ {xs : List (Int × Int)} {c : Int} {lower upper : Option Int} {kc : Int × Int}
      {ys : List (Int × Int)},
      Chain P c lower (xs ++ kc :: ys) upper ↔
        Chain P c lower xs (some kc.1) ∧ Chain P kc.2 (some kc.1) ys upper
  | [], c, lower, upper, kc, ys => by simp [Chain]
  | x :: xs, c, lower, upper, kc, ys => by
    show P c lower (some x.1) ∧ Chain P x.2 (some x.1) (xs ++ kc :: ys) upper ↔ _
    rw [@Chain.append P xs]
    simp only [Chain, and_assoc]

/-- Every child of a chain satisfies the predicate for some pair of bounds. -/
theorem Chain.child {P : Int → Option Int → Option Int → Prop} :
    ∀ {rest : List (Int × Int)} {c : Int} {lower upper : Option Int},
      Chain P c lower rest upper → ∀ d, d ∈ c :: rest.map Prod.snd → ∃ l u, P d l u
  | [], c, lower, upper, hc, d, hd => by
    simp only [List.map_nil, List.mem_singleton] at hd
    subst hd; exact ⟨_, _, hc⟩
  | kc :: rest, c, lower, upper, hc, d, hd => by
    rcases List.mem_cons.1 hd with h | h
    · subst h; exact ⟨_, _, hc.1⟩
    · exact Chain.child hc.2 d (by simpa using h)

theorem Chain.lookupFrom {P : Int → Option Int → Option Int → Prop} {key : Int} :
    ∀ {rest : List (Int × Int)} {c : Int} {lower upper : Option Int},
      Chain P c lower rest upper → InRange lower upper key →
      ∃ l u, P (InternalPage.lookupFrom c rest key) l u ∧ InRange l u key
  | [], c, lower, upper, hc, hr => ⟨lower, upper, hc, hr⟩
  | kc :: rest, c, lower, upper, hc, hr => by
    simp only [InternalPage.lookupFrom]
    split
    · rename_i hlt
      exact ⟨lower, some kc.1, hc.1, hr.1, fun b hb => by cases hb; exact hlt⟩
    · rename_i hlt
      exact Chain.lookupFrom hc.2 ⟨fun a ha => by cases ha; omega, hr.2⟩

/-! ## Descent -/

theorem Chain.head {P : Int → Option Int → Option Int → Prop} {rest : List (Int × Int)}
    {c : Int} {lower upper : Option Int} (hc : Chain P c lower rest upper) :
    ∃ u, P c lower u := by
  cases rest with
  | nil => exact ⟨upper, hc⟩
  | cons kc rest => exact ⟨_, hc.1⟩

theorem findLeafLoop_spec {pages : Pool} {g : Ghost} {key : Int}
    (hint : ∀ q n, pages q = some (.internal n) → InternalOK pages g q n) :
    ∀ (fuel : Nat) (q : Int) (pg : Page), pages q = some pg → g.lvl q < fuel →
      InRange (g.lo q) (g.hi q) key →
      ∃ q1 l, BPlusTree.findLeafLoop pages key false fuel q = .ok (q1, l) ∧
        pages q1 = some (.leaf l) ∧ InRange (g.lo q1) (g.hi q1) key := by
  intro fuel
  induction fuel with
  | zero => intro q pg _ h; omega
  | succ fuel ih =>
    intro q pg hq hl hr
    cases pg with
    | leaf l => exact ⟨q, l, by simp [BPlusTree.findLeafLoop, hq], hq, hr⟩
    | internal n =>
      obtain ⟨h, kc, rest, hlvl, harr, hch, -⟩ := hint q n hq
      obtain ⟨lo1, hi1, ⟨pg1, hc1, -, hl1, hlo1, hhi1⟩, hr1⟩ := hch.lookupFrom hr
      obtain ⟨q1, l, h1, h2, h3⟩ := ih _ pg1 hc1 (by omega) (by rw [hlo1, hhi1]; exact hr1)
      refine ⟨q1, l, ?_, h2, h3⟩
      simp only [BPlusTree.findLeafLoop, hq, InternalPage.Lookup, harr]
      exact h1

theorem findLeafLoop_leftMost {pages : Pool} {g : Ghost} {key : Int}
    (hint : ∀ q n, pages q = some (.internal n) → InternalOK pages g q n) :
    ∀ (fuel : Nat) (q : Int) (pg : Page), pages q = some pg → g.lvl q < fuel →
      ∃ q1 l, BPlusTree.findLeafLoop pages key true fuel q = .ok (q1, l) ∧
        pages q1 = some (.leaf l) ∧ g.lo q1 = g.lo q := by
  intro fuel
  induction fuel with
  | zero => intro q pg _ h; omega
  | succ fuel ih =>
    intro q pg hq hl
    cases pg with
    | leaf l => exact ⟨q, l, by simp [BPlusTree.findLeafLoop, hq], hq, rfl⟩
    | internal n =>
      obtain ⟨h, kc, rest, hlvl, harr, hch, -⟩ := hint q n hq
      obtain ⟨u, pg1, hc1, -, hl1, hlo1, -⟩ := hch.head
      obtain ⟨q1, l, h1, h2, h3⟩ := ih _ pg1 hc1 (by omega)
      refine ⟨q1, l, ?_, h2, h3.trans hlo1⟩
      simp only [BPlusTree.findLeafLoop, hq, InternalPage.ValueAt, harr]
      exact h1

/-- Descent from the root of a well-formed tree reaches the leaf responsible for the key. -/
theorem FindLeafPage_spec {t : BPlusTree} {g : Ghost} (hinv : Inv t g) (key : Int) :
    ∃ q l, t.FindLeafPage key false = .ok (q, l) ∧ t.pages q = some (.leaf l) ∧
      InRange (g.lo q) (g.hi q) key := by
  obtain ⟨pg, hroot, hpar, hlo⟩ := hinv.rootPage
  have hne : t.root_page_id ≠ INVALID_PAGE_ID := by
    have := (hinv.ids _ _ hroot).1
    simp only [INVALID_PAGE_ID]; omega
  obtain ⟨q, l, h1, h2, h3⟩ := @findLeafLoop_spec t.pages g key hinv.internalOK t.fuel
    t.root_page_id pg hroot hinv.fuel
    (by rw [hlo, hinv.rootHi]; exact ⟨fun a ha => (by cases ha), fun b hb => (by cases hb)⟩)
  exact ⟨q, l, by simp only [BPlusTree.FindLeafPage, hne, if_false]; exact h1, h2, h3⟩

theorem FindLeafPage_leftMost {t : BPlusTree} {g : Ghost} (hinv : Inv t g) (key : Int) :
    ∃ q l, t.FindLeafPage key true = .ok (q, l) ∧ t.pages q = some (.leaf l) ∧
      g.lo q = none := by
  obtain ⟨pg, hroot, hpar, hlo⟩ := hinv.rootPage
  have hne : t.root_page_id ≠ INVALID_PAGE_ID := by
    have := (hinv.ids _ _ hroot).1
    simp only [INVALID_PAGE_ID]; omega
  obtain ⟨q, l, h1, h2, h3⟩ := @findLeafLoop_leftMost t.pages g key hinv.internalOK t.fuel
    t.root_page_id pg hroot hinv.fuel
  exact ⟨q, l, by simp only [BPlusTree.FindLeafPage, hne, if_false]; exact h1, h2,
    h3.trans hlo⟩

/-! ## Frame lemmas -/

theorem ChildOK.congrChild {pages pages1 : Pool} {g g1 : Ghost} {q h c : _} {l u : Option Int}
    (hp : (pages1 c).map Page.GetParentPageId = (pages c).map Page.GetParentPageId)
    (hlvl : g1.lvl c = g.lvl c) (hlo : g1.lo c = g.lo c) (hhi : g1.hi c = g.hi c)
    (hc : ChildOK pages g q h c l u) : ChildOK pages1 g1 q h c l u := by
  obtain ⟨pg, h1, h2, h3, h4, h5⟩ := hc
  rw [h1] at hp
  cases hpg : pages1 c with
  | none => simp [hpg] at hp
  | some pg1 =>
    simp only [hpg, Option.map_some', Option.some.injEq] at hp
    exact ⟨pg1, hpg, hp.trans h2, hlvl.trans h3, hlo.trans h4, hhi.trans h5⟩

theorem InternalOK.congrInternal {pages pages1 : Pool} {g g1 : Ghost} {q : Int} {n n1 : InternalPage}
    (harr : n1.array = n.array)
    (hlvl : g1.lvl q = g.lvl q) (hlo : g1.lo q = g.lo q) (hhi : g1.hi q = g.hi q)
    (hch : ∀ c ∈ n.array.map Prod.snd,
      (pages1 c).map Page.GetParentPageId = (pages c).map Page.GetParentPageId ∧
      g1.lvl c = g.lvl c ∧ g1.lo c = g.lo c ∧ g1.hi c = g.hi c)
    (hok : InternalOK pages g q n) : InternalOK pages1 g1 q n1 := by
  obtain ⟨h, kc, rest, h1, h2, h3, h4⟩ := hok
  refine ⟨h, kc, rest, hlvl.trans h1, harr.trans h2, ?_, by rw [harr]; exact h4⟩
  rw [hlo, hhi]
  refine h3.mono (fun d l u hd hc => ?_)
  have hd1 : d ∈ n.array.map Prod.snd := by rw [h2]; simpa using hd
  obtain ⟨e1, e2, e3, e4⟩ := hch d hd1
  exact hc.congrChild e1 e2 e3 e4

theorem LeafOK.congrLeaf {pages pages1 : Pool} {g g1 : Ghost} {q : Int} {l l1 : LeafPage}
    (harr : l1.array = l.array) (hnext : l1.next_page_id = l.next_page_id)
    (hlvl : g1.lvl q = g.lvl q) (hlo : g1.lo q = g.lo q) (hhi : g1.hi q = g.hi q)
    (hn : ∀ l2, pages l.next_page_id = some (.leaf l2) →
      (∃ l3, pages1 l.next_page_id = some (.leaf l3)) ∧
      g1.lo l.next_page_id = g.lo l.next_page_id ∧
      (g.pos q < g.pos l.next_page_id → g1.pos q < g1.pos l.next_page_id))
    (hok : LeafOK pages g q l) : LeafOK pages1 g1 q l1 := by
  obtain ⟨h1, h2, h3, h4, h5, h6⟩ := hok
  refine ⟨hlvl.trans h1, by rw [harr]; exact h2, by rw [harr]; exact h3, ?_, ?_, ?_⟩
  · rw [harr, hlo, hhi]; exact h4
  · rw [hnext, hhi]; exact h5
  · rw [hnext, hhi]
    intro hne
    obtain ⟨l2, b, e1, e2, e3, e4⟩ := h6 hne
    obtain ⟨⟨l3, e5⟩, e6, e7⟩ := hn l2 e1
    exact ⟨l3, b, e5, e2, e6.trans e3, e7 e4⟩

theorem Pool.write_apply (pages : Pool) (id : Int) (p : Page) (x : Int) :
    pages.write id p x = if x = id then some p else pages x := rfl

theorem BPlusTree.write_pages (t : BPlusTree) (id : Int) (p : Page) :
    (t.write id p).pages = t.pages.write id p := rfl

theorem InRange.none_none (k : Int) : InRange none none k :=
  ⟨fun a ha => (by cases ha), fun b hb => (by cases hb)⟩

/-- Replacing the entries of a leaf by other sorted entries of its interval keeps the tree
well-formed. -/
theorem Inv.writeLeaf {t : BPlusTree} {g : Ghost} {q : Int} {l l1 : LeafPage}
    (hinv : Inv t g) (hq : t.pages q = some (.leaf l))
    (hid : l1.page_id = l.page_id) (hpar : l1.parent_page_id = l.parent_page_id)
    (hnext : l1.next_page_id = l.next_page_id) (hne : l1.array ≠ [])
    (hs : l1.array.Pairwise (fun a b => a.1 < b.1))
    (hr : ∀ kv ∈ l1.array, InRange (g.lo q) (g.hi q) kv.1) :
    Inv (t.write q (.leaf l1)) g := by
  have hleaf : ∀ x lx, (t.write q (.leaf l1)).pages x = some (.leaf lx) →
      ∃ ly, t.pages x = some (.leaf ly) ∧ (x ≠ q → lx = ly) ∧ (x = q → lx = l1) := by
    intro x lx hx
    rw [BPlusTree.write_pages, Pool.write_apply] at hx
    by_cases h : x = q
    · subst h
      simp only [if_true, Option.some.injEq, Page.leaf.injEq] at hx
      exact ⟨l, hq, fun h => absurd rfl h, fun _ => hx.symm⟩
    · simp only [h, if_false] at hx
      exact ⟨lx, hx, fun _ => rfl, fun h1 => absurd h1 h⟩
  have hint : ∀ x n, (t.write q (.leaf l1)).pages x = some (.internal n) →
      t.pages x = some (.internal n) := by
    intro x n hx
    rw [BPlusTree.write_pages, Pool.write_apply] at hx
    by_cases h : x = q
    · simp [h] at hx
    · simpa [h] using hx
  have hint1 : ∀ x n, t.pages x = some (.internal n) →
      (t.write q (.leaf l1)).pages x = some (.internal n) := by
    intro x n hx
    rw [BPlusTree.write_pages, Pool.write_apply]
    by_cases h : x = q
    · subst h; rw [hq] at hx; cases hx
    · simpa [h] using hx
  have hsome : ∀ x pg, (t.write q (.leaf l1)).pages x = some pg →
      ∃ pg0, t.pages x = some pg0 ∧ pg.GetParentPageId = pg0.GetParentPageId ∧
        pg.GetPageId = pg0.GetPageId := by
    intro x pg hx
    rw [BPlusTree.write_pages, Pool.write_apply] at hx
    by_cases h : x = q
    · subst h
      simp only [if_true, Option.some.injEq] at hx
      subst hx
      exact ⟨_, hq, hpar, hid⟩
    · simp only [h, if_false] at hx
      exact ⟨pg, hx, rfl, rfl⟩
  have hpars : ∀ c, ((t.write q (.leaf l1)).pages c).map Page.GetParentPageId =
      (t.pages c).map Page.GetParentPageId := by
    intro c
    rw [BPlusTree.write_pages, Pool.write_apply]
    by_cases h : c = q
    · subst h; simp [hq, Page.GetParentPageId, hpar]
    · simp [h]
  have hleafex : ∀ x lx, t.pages x = some (.leaf lx) →
      ∃ ly, (t.write q (.leaf l1)).pages x = some (.leaf ly) := by
    intro x lx hx
    rw [BPlusTree.write_pages, Pool.write_apply]
    by_cases h : x = q
    · exact ⟨l1, by simp [h]⟩
    · exact ⟨lx, by simpa [h] using hx⟩
  refine
    { ids := ?_, pid := ?_, leafOK := ?_, leafUniq := ?_, lvlRoot := ?_, fuel := hinv.fuel,
      pos := ?_, rootPage := ?_, internalOK := ?_, listed := ?_, rootHi := hinv.rootHi }
  · intro x pg hx
    obtain ⟨pg0, h0, -, -⟩ := hsome x pg hx
    exact hinv.ids x pg0 h0
  · intro x pg hx
    obtain ⟨pg0, h0, -, h2⟩ := hsome x pg hx
    exact h2.trans (hinv.pid x pg0 h0)
  · intro x lx hx
    obtain ⟨ly, h0, h1, h2⟩ := hleaf x lx hx
    have hok := hinv.leafOK x ly h0
    by_cases h : x = q
    · subst h
      have e1 := h2 rfl
      subst e1
      rw [hq] at h0; cases h0
      obtain ⟨a1, a2, a3, a4, a5, a6⟩ := hok
      refine ⟨a1, hne, hs, hr, by rw [hnext]; exact a5, ?_⟩
      rw [hnext]
      intro hn
      obtain ⟨l2, b, e1, e2, e3, e4⟩ := a6 hn
      obtain ⟨l3, e5⟩ := hleafex _ _ e1
      exact ⟨l3, b, e5, e2, e3, e4⟩
    · have e1 := h1 h
      subst e1
      exact hok.congrLeaf rfl rfl rfl rfl rfl (fun l2 hl2 => ⟨hleafex _ _ hl2, rfl, id⟩)
  · intro x x1 lx lx1 k hx hx1
    obtain ⟨ly, h0, -, -⟩ := hleaf x lx hx
    obtain ⟨ly1, h1, -, -⟩ := hleaf x1 lx1 hx1
    exact hinv.leafUniq x x1 ly ly1 k h0 h1
  · intro x pg hx
    obtain ⟨pg0, h0, -, -⟩ := hsome x pg hx
    exact hinv.lvlRoot x pg0 h0
  · intro x lx hx
    obtain ⟨ly, h0, -, -⟩ := hleaf x lx hx
    exact hinv.pos x ly h0
  · obtain ⟨pg, h1, h2, h3⟩ := hinv.rootPage
    have := hpars t.root_page_id
    rw [h1] at this
    cases hpg : (t.write q (.leaf l1)).pages t.root_page_id with
    | none => simp [hpg] at this
    | some pg1 =>
      simp only [hpg, Option.map_some', Option.some.injEq] at this
      exact ⟨pg1, hpg, this.trans h2, h3⟩
  · intro x n hx
    exact (hinv.internalOK x n (hint x n hx)).congrInternal rfl rfl rfl rfl
      (fun c _ => ⟨hpars c, rfl, rfl, rfl⟩)
  · intro x pg hx hroot
    obtain ⟨pg0, h0, h1, -⟩ := hsome x pg hx
    obtain ⟨n, e1, e2⟩ := hinv.listed x pg0 h0 hroot
    exact ⟨n, by rw [h1]; exact hint1 _ _ e1, e2⟩

theorem Stored.storedWriteLeaf {t : BPlusTree} {q : Int} {l l1 : LeafPage}
    (_hq : t.pages q = some (.leaf l)) (k v : Int) :
    Stored (t.write q (.leaf l1)) k v ↔
      (k, v) ∈ l1.array ∨ ∃ x lx, x ≠ q ∧ t.pages x = some (.leaf lx) ∧ (k, v) ∈ lx.array := by
  constructor
  · rintro ⟨x, lx, hx, hm⟩
    rw [BPlusTree.write_pages, Pool.write_apply] at hx
    by_cases h : x = q
    · simp only [h, if_true, Option.some.injEq, Page.leaf.injEq] at hx
      subst hx; exact Or.inl hm
    · simp only [h, if_false] at hx
      exact Or.inr ⟨x, lx, h, hx, hm⟩
  · rintro (hm | ⟨x, lx, h, hx, hm⟩)
    · exact ⟨q, l1, by simp [BPlusTree.write_pages, Pool.write_apply], hm⟩
    · exact ⟨x, lx, by simp [BPlusTree.write_pages, Pool.write_apply, h, hx], hm⟩

/-- In a well-formed tree a stored key sits in the leaf responsible for it. -/
theorem Inv.stored_leaf {t : BPlusTree} {g : Ghost} (hinv : Inv t g) {q : Int} {l : LeafPage}
    (hq : t.pages q = some (.leaf l)) {k : Int} (hr : InRange (g.lo q) (g.hi q) k) (v : Int) :
    Stored t k v ↔ (k, v) ∈ l.array := by
  constructor
  · rintro ⟨x, lx, hx, hm⟩
    have h1 := (hinv.leafOK x lx hx).2.2.2.1 _ hm
    have := hinv.leafUniq x q lx l k hx hq h1 hr
    subst this
    rw [hq] at hx; cases hx
    exact hm
  · intro hm
    exact ⟨q, l, hq, hm⟩

theorem Inv.fresh_none {t : BPlusTree} {g : Ghost} (hinv : Base t g) :
    t.pages t.next_page_id = none := by
  cases h : t.pages t.next_page_id with
  | none => rfl
  | some pg => have := (hinv.ids _ _ h).2; omega

theorem InternalOK.child_exists {pages : Pool} {g : Ghost} {q : Int} {n : InternalPage}
    (hok : InternalOK pages g q n) {c : Int} (hc : c ∈ n.array.map Prod.snd) :
    ∃ pg l u, pages c = some pg ∧ pg.GetParentPageId = q ∧ g.lvl c + 1 = g.lvl q ∧
      g.lo c = l ∧ g.hi c = u := by
  obtain ⟨h, kc, rest, h1, h2, h3, -⟩ := hok
  obtain ⟨l, u, pg, e1, e2, e3, e4, e5⟩ := h3.child c (by rw [h2] at hc; simpa using hc)
  exact ⟨pg, l, u, e1, e2, by omega, e4, e5⟩

/-- State after the split of a leaf: the hole invariant holds for the leaf and its new right
sibling. -/
theorem leaf_split_hole {t t2 : BPlusTree} {g : Ghost} {q : Int} {l old2 new2 : LeafPage}
    {xs ys : List (Int × Int)} {kv0 : Int × Int}
    (hinv : Inv t g) (hq : t.pages q = some (.leaf l))
    (hp : ∀ x, t2.pages x = if x = q then some (.leaf old2)
      else if x = t.next_page_id then some (.leaf new2) else t.pages x)
    (hnext : t2.next_page_id = t.next_page_id + 1) (hroot : t2.root_page_id = t.root_page_id)
    (ho1 : old2.page_id = l.page_id) (ho2 : old2.parent_page_id = l.parent_page_id)
    (ho3 : old2.next_page_id = t.next_page_id) (ho4 : old2.array = xs)
    (hn1 : new2.page_id = t.next_page_id) (hn2 : new2.parent_page_id = l.parent_page_id)
    (hn3 : new2.next_page_id = l.next_page_id) (hn4 : new2.array = kv0 :: ys)
    (hxs : xs ≠ []) (hs : (xs ++ kv0 :: ys).Pairwise (fun a b => a.1 < b.1))
    (hr : ∀ kv ∈ xs ++ kv0 :: ys, InRange (g.lo q) (g.hi q) kv.1) :
    ∃ g1, HoleInv t2 g1 q t.next_page_id kv0.1 (g.hi q) ∧
      ∀ x, x ≠ t.next_page_id → g1.lvl x = g.lvl x := by
  have hN : t.pages t.next_page_id = none := Inv.fresh_none hinv.toBase
  have hqN : q ≠ t.next_page_id := by intro h; rw [← h, hq] at hN; cases hN
  have hqpos := hinv.ids q _ hq
  have hex : ∀ x pg, t.pages x = some pg → x ≠ t.next_page_id := by
    intro x pg hx h; rw [h, hN] at hx; cases hx
  obtain ⟨a1, a2, a3, a4, a5, a6⟩ := hinv.leafOK q l hq
  rw [List.pairwise_append] at hs
  obtain ⟨hs1, hs2, hs3⟩ := hs
  have hk0 : InRange (g.lo q) (g.hi q) kv0.1 := hr kv0 (by simp)
  -- pages of the new state
  have hpq : t2.pages q = some (.leaf old2) := by rw [hp]; simp
  have hpN : t2.pages t.next_page_id = some (.leaf new2) := by
    rw [hp]; simp [Ne.symm hqN]
  have hpo : ∀ x, x ≠ q → x ≠ t.next_page_id → t2.pages x = t.pages x := by
    intro x h1 h2; rw [hp]; simp [h1, h2]
  have hint : ∀ x n, t2.pages x = some (.internal n) → t.pages x = some (.internal n) := by
    intro x n hx
    by_cases h1 : x = q
    · rw [h1, hpq] at hx; cases hx
    · by_cases h2 : x = t.next_page_id
      · rw [h2, hpN] at hx; cases hx
      · rwa [hpo x h1 h2] at hx
  have hint1 : ∀ x n, t.pages x = some (.internal n) → t2.pages x = some (.internal n) := by
    intro x n hx
    have h1 : x ≠ q := by intro h; rw [h, hq] at hx; cases hx
    rw [hpo x h1 (hex x _ hx)]; exact hx
  have hleafex : ∀ x lx, t.pages x = some (.leaf lx) → ∃ ly, t2.pages x = some (.leaf ly) := by
    intro x lx hx
    by_cases h1 : x = q
    · exact ⟨old2, by rw [h1]; exact hpq⟩
    · exact ⟨lx, by rw [hpo x h1 (hex x _ hx)]; exact hx⟩
  have hpars : ∀ c pg, t.pages c = some pg →
      (t2.pages c).map Page.GetParentPageId = (t.pages c).map Page.GetParentPageId := by
    intro c pg hc
    by_cases h1 : c = q
    · subst h1; rw [hpq, hq]; simp [Page.GetParentPageId, ho2]
    · rw [hpo c h1 (hex c _ hc)]
  refine ⟨{ lvl := fun x => if x = t.next_page_id then 0 else g.lvl x,
            lo := fun x => if x = t.next_page_id then some kv0.1 else g.lo x,
            hi := fun x => if x = q then some kv0.1
                           else if x = t.next_page_id then g.hi q else g.hi x,
            pos := fun x => if x = t.next_page_id then g.pos q + 1
                            else if g.pos q < g.pos x then g.pos x + 1 else g.pos x }, ?_,
          fun x hx => by simp only [hx, if_false]⟩
  have hchild : ∀ x n, t.pages x = some (.internal n) → ∀ c ∈ n.array.map Prod.snd,
      ∃ pg, t.pages c = some pg ∧ pg.GetParentPageId = x := by
    intro x n hx c hc
    obtain ⟨pg, -, -, e1, e2, -⟩ := (hinv.internalOK x n hx).child_exists hc
    exact ⟨pg, e1, e2⟩
  -- ranges of the two halves
  have hrq : ∀ kv ∈ xs, InRange (g.lo q) (some kv0.1) kv.1 := by
    intro kv hkv
    exact ⟨(hr kv (by simp [hkv])).1, fun b hb => by cases hb; exact hs3 kv hkv kv0 (by simp)⟩
  have hrN : ∀ kv ∈ kv0 :: ys, InRange (some kv0.1) (g.hi q) kv.1 := by
    intro kv hkv
    refine ⟨fun a ha => ?_, (hr kv (by simp [List.mem_cons.1 hkv])).2⟩
    cases ha
    rcases List.mem_cons.1 hkv with h | h
    · rw [h]
    · exact le_of_lt ((List.pairwise_cons.1 hs2).1 kv h)
  refine
    { ids := ?_, pid := ?_, leafOK := ?_, leafUniq := ?_, lvlRoot := ?_, fuel := ?_,
      pos := ?_, rootPage := ?_, oldPage := ?_, distinct := Ne.symm hqN, lvlNew := ?_,
      hiOld := ?_, loNew := ?_, hiNew := ?_, fresh := ?_, internalOK := ?_, parentOK := ?_,
      listed := ?_, rootHi := ?_ }
  · -- ids
    intro x pg hx
    rw [hnext]
    by_cases h1 : x = q
    · subst h1; omega
    · by_cases h2 : x = t.next_page_id
      · subst h2; omega
      · rw [hpo x h1 h2] at hx
        have := hinv.ids x pg hx; omega
  · -- pid
    intro x pg hx
    by_cases h1 : x = q
    · subst h1; rw [hpq] at hx; cases hx
      exact ho1.trans (hinv.pid _ _ hq)
    · by_cases h2 : x = t.next_page_id
      · subst h2; rw [hpN] at hx; cases hx; exact hn1
      · rw [hpo x h1 h2] at hx; exact hinv.pid x pg hx
  · -- leafOK
    intro x lx hx
    by_cases h1 : x = q
    · subst h1; rw [hpq] at hx; cases hx
      refine ⟨by simp [hqN, a1], by rw [ho4]; exact hxs, by rw [ho4]; exact hs1, ?_, ?_, ?_⟩
      · rw [ho4]; simpa [hqN] using hrq
      · rw [ho3]; intro h; simp only [INVALID_PAGE_ID] at h; omega
      · intro _
        rw [ho3]
        exact ⟨new2, kv0.1, hpN, by simp, by simp, by simp [hqN]⟩
    · by_cases h2 : x = t.next_page_id
      · subst h2; rw [hpN] at hx; cases hx
        refine ⟨by simp, by rw [hn4]; simp, by rw [hn4]; exact hs2, ?_, ?_, ?_⟩
        · rw [hn4]; simpa [Ne.symm hqN] using hrN
        · rw [hn3]; intro h; simpa [Ne.symm hqN] using a5 h
        · rw [hn3]; intro h
          obtain ⟨l2, b, e1, e2, e3, e4⟩ := a6 h
          obtain ⟨l3, e5⟩ := hleafex _ _ e1
          have e6 := hex _ _ e1
          refine ⟨l3, b, e5, by simpa [Ne.symm hqN] using e2, by simpa [e6] using e3, ?_⟩
          simp [e6, e4]
      · rw [hpo x h1 h2] at hx
        have hok := hinv.leafOK x lx hx
        refine hok.congrLeaf rfl rfl (by simp [h2]) (by simp [h2]) (by simp [h1, h2]) ?_
        intro l2 hl2
        have e6 := hex _ _ hl2
        refine ⟨hleafex _ _ hl2, by simp [e6], ?_⟩
        intro hlt
        simp only [h2, e6, if_false]
        split <;> split <;> omega
  · -- leafUniq
    have key : ∀ x lx k, t2.pages x = some (.leaf lx) →
        InRange (if x = t.next_page_id then some kv0.1 else g.lo x)
          (if x = q then some kv0.1 else if x = t.next_page_id then g.hi q else g.hi x) k →
        ∃ y ly, t.pages y = some (.leaf ly) ∧ InRange (g.lo y) (g.hi y) k ∧
          (x ≠ q → x ≠ t.next_page_id → y = x) ∧ (x = q → y = q ∧ k < kv0.1) ∧
          (x = t.next_page_id → y = q ∧ kv0.1 ≤ k) := by
      intro x lx k hx hrx
      by_cases h1 : x = q
      · subst h1
        simp only [if_true, hqN, if_false] at hrx
        refine ⟨x, l, hq, ⟨hrx.1, fun b hb => ?_⟩, fun h => absurd rfl h,
          fun _ => ⟨rfl, hrx.2 _ rfl⟩, fun h => absurd h hqN⟩
        exact lt_trans (hrx.2 _ rfl) (hk0.2 b hb)
      · by_cases h2 : x = t.next_page_id
        · subst h2
          simp only [if_true, h1, if_false] at hrx
          refine ⟨q, l, hq, ⟨fun a ha => ?_, hrx.2⟩, fun _ h => absurd rfl h,
            fun h => absurd h h1, fun _ => ⟨rfl, hrx.1 _ rfl⟩⟩
          exact le_trans (hk0.1 a ha) (hrx.1 _ rfl)
        · simp only [h1, h2, if_false] at hrx
          rw [hpo x h1 h2] at hx
          exact ⟨x, lx, hx, hrx, fun _ _ => rfl, fun h => absurd h h1, fun h => absurd h h2⟩
    intro x x1 lx lx1 k hx hx1 hrx hrx1
    obtain ⟨y, ly, e1, e2, e3, e4, e5⟩ := key x lx k hx hrx
    obtain ⟨y1, ly1, f1, f2, f3, f4, f5⟩ := key x1 lx1 k hx1 hrx1
    have hy := hinv.leafUniq y y1 ly ly1 k e1 f1 e2 f2
    by_cases h1 : x = q
    · by_cases h2 : x1 = q
      · rw [h1, h2]
      · by_cases h3 : x1 = t.next_page_id
        · have := (e4 h1).2; have := (f5 h3).2; omega
        · have := f3 h2 h3; have := (e4 h1).1; omega
    · by_cases h2 : x = t.next_page_id
      · by_cases h3 : x1 = q
        · have := (e5 h2).2; have := (f4 h3).2; omega
        · by_cases h4 : x1 = t.next_page_id
          · rw [h2, h4]
          · have := f3 h3 h4; have := (e5 h2).1; omega
      · by_cases h3 : x1 = q
        · have := e3 h1 h2; have := (f4 h3).1; omega
        · by_cases h4 : x1 = t.next_page_id
          · have := e3 h1 h2; have := (f5 h4).1; omega
          · have := e3 h1 h2; have := f3 h3 h4; omega
  · -- lvlRoot
    intro x pg hx
    obtain ⟨pr, hr1, -, -⟩ := hinv.rootPage
    rw [hroot]
    simp only [hex _ _ hr1, if_false]
    by_cases h2 : x = t.next_page_id
    · simp [h2]
    · simp only [h2, if_false]
      by_cases h1 : x = q
      · subst h1; exact hinv.lvlRoot _ _ hq
      · rw [hpo x h1 h2] at hx; exact hinv.lvlRoot _ _ hx
  · -- fuel
    obtain ⟨pr, hr1, -, -⟩ := hinv.rootPage
    rw [hroot, hnext]
    simp only [hex _ _ hr1, if_false]
    have := hinv.fuel
    omega
  · -- pos
    intro x lx hx
    rw [hnext]
    have hqp := hinv.pos q l hq
    by_cases h2 : x = t.next_page_id
    · simp only [h2, if_true]; omega
    · simp only [h2, if_false]
      have : g.pos x < t.next_page_id.toNat := by
        by_cases h1 : x = q
        · subst h1; exact hqp
        · rw [hpo x h1 h2] at hx; exact hinv.pos x lx hx
      split <;> omega
  · -- rootPage
    obtain ⟨pr, hr1, hr2, hr3⟩ := hinv.rootPage
    rw [hroot]
    have := hpars _ _ hr1
    rw [hr1] at this
    cases hpg : t2.pages t.root_page_id with
    | none => simp [hpg] at this
    | some pg1 =>
      simp only [hpg, Option.map_some', Option.some.injEq] at this
      exact ⟨pg1, rfl, this.trans hr2, by simp [hex _ _ hr1, hr3]⟩
  · exact ⟨_, _, hpq, hpN, by simp [Page.GetParentPageId, hn2, ho2]⟩
  · simp [Ne.symm hqN, a1]
  · simp
  · simp
  · simp [Ne.symm hqN]
  · -- fresh
    intro x n hx hmem
    obtain ⟨pg, e1, -⟩ := hchild x n (hint x n hx) _ hmem
    rw [hN] at e1; cases e1
  · -- internalOK
    intro x n po hx hpo1 hne
    rw [hpq] at hpo1; cases hpo1
    have hx0 := hint x n hx
    have hxq : x ≠ q := by intro h; rw [h, hq] at hx0; cases hx0
    refine (hinv.internalOK x n hx0).congrInternal rfl (by simp [hex x _ hx0])
      (by simp [hex x _ hx0]) (by simp [hex x _ hx0, hxq]) ?_
    intro c hc
    obtain ⟨pg, e1, e2⟩ := hchild x n hx0 c hc
    have hcN := hex c _ e1
    have hcq : c ≠ q := by
      intro h; rw [h, hq] at e1; cases e1
      apply hne
      simp [Page.GetParentPageId, ho2] at e2 ⊢
      exact e2.symm
    exact ⟨hpars c pg e1, by simp [hcN], by simp [hcN], by simp [hcN, hcq]⟩
  · -- parentOK
    intro po n hpo1 hx
    rw [hpq] at hpo1; cases hpo1
    simp only [Page.GetParentPageId] at hx ⊢
    have hx0 := hint _ n hx
    have hxq : old2.parent_page_id ≠ q := by intro h; rw [h, hq] at hx0; cases hx0
    refine (hinv.internalOK _ n hx0).congrInternal rfl (by simp [Ghost.setHi, hex _ _ hx0])
      (by simp [Ghost.setHi, hex _ _ hx0])
      (by simp [Ghost.setHi, hex _ _ hx0, hxq]) ?_
    intro c hc
    obtain ⟨pg, e1, e2⟩ := hchild _ n hx0 c hc
    have hcN := hex c _ e1
    refine ⟨hpars c pg e1, by simp [Ghost.setHi, hcN], by simp [Ghost.setHi, hcN], ?_⟩
    by_cases hcq : c = q
    · simp [Ghost.setHi, hcq]
    · simp [Ghost.setHi, hcN, hcq]
  · -- listed
    intro x pg hx hxr hxN
    rw [hroot] at hxr
    by_cases h1 : x = q
    · subst h1; rw [hpq] at hx; cases hx
      obtain ⟨n, e1, e2⟩ := hinv.listed _ _ hq hxr
      exact ⟨n, by simpa [Page.GetParentPageId, ho2] using hint1 _ _ e1, e2⟩
    · rw [hpo x h1 hxN] at hx
      obtain ⟨n, e1, e2⟩ := hinv.listed _ _ hx hxr
      exact ⟨n, hint1 _ _ e1, e2⟩
  · -- rootHi
    obtain ⟨pr, hr1, -, -⟩ := hinv.rootPage
    rw [hroot]
    refine ⟨fun h => ?_, fun h => ?_⟩
    · simp [Ne.symm h, hex _ _ hr1, hinv.rootHi]
    · rw [h]; exact hinv.rootHi

theorem Stored.leaf_split {t t2 : BPlusTree} {q : Int} {l old2 new2 : LeafPage}
    (hq : t.pages q = some (.leaf l)) (hN : t.pages t.next_page_id = none)
    (hp : ∀ x, t2.pages x = if x = q then some (.leaf old2)
      else if x = t.next_page_id then some (.leaf new2) else t.pages x) (k v : Int) :
    Stored t2 k v ↔ (k, v) ∈ old2.array ++ new2.array ∨
      ∃ x lx, x ≠ q ∧ t.pages x = some (.leaf lx) ∧ (k, v) ∈ lx.array := by
  have hqN : q ≠ t.next_page_id := by intro h; rw [← h, hq] at hN; cases hN
  constructor
  · rintro ⟨x, lx, hx, hm⟩
    rw [hp] at hx
    by_cases h1 : x = q
    · simp only [h1, if_true, Option.some.injEq, Page.leaf.injEq] at hx
      subst hx; exact Or.inl (List.mem_append.2 (Or.inl hm))
    · by_cases h2 : x = t.next_page_id
      · rw [if_neg h1, if_pos h2] at hx
        simp only [Option.some.injEq, Page.leaf.injEq] at hx
        subst hx; exact Or.inl (List.mem_append.2 (Or.inr hm))
      · simp only [h1, h2, if_false] at hx
        exact Or.inr ⟨x, lx, h1, hx, hm⟩
  · rintro (hm | ⟨x, lx, h1, hx, hm⟩)
    · rcases List.mem_append.1 hm with hm | hm
      · exact ⟨q, old2, by rw [hp]; simp, hm⟩
      · exact ⟨t.next_page_id, new2, by rw [hp]; simp [Ne.symm hqN], hm⟩
    · have h2 : x ≠ t.next_page_id := by intro h; rw [h, hN] at hx; cases hx
      exact ⟨x, lx, by rw [hp]; simp [h1, h2, hx], hm⟩

/-! ## Insertion into a slot array -/

theorem insertAfter_chain {P Q : Int → Option Int → Option Int → Prop} {old key new : Int}
    (hPQ : ∀ d l u, d ≠ old → P d l u → Q d l u)
    (hold : ∀ l u, P old l u → Q old l (some key) ∧ Q new (some key) u) :
    ∀ (rest : List (Int × Int)) (c k0 : Int) (lower upper : Option Int),
      Chain P c lower rest upper → old ∈ c :: rest.map Prod.snd →
      (c :: rest.map Prod.snd).Nodup →
      ∃ rest1, InternalPage.insertAfter ((k0, c) :: rest) old key new = (k0, c) :: rest1 ∧
        Chain Q c lower rest1 upper ∧ rest1.length = rest.length + 1 ∧
        ∀ d, d ∈ c :: rest1.map Prod.snd ↔ d = new ∨ d ∈ c :: rest.map Prod.snd := by
  intro rest
  induction rest with
  | nil =>
    intro c k0 lower upper hc hmem _
    simp only [List.map_nil, List.mem_singleton] at hmem
    subst hmem
    refine ⟨[(key, new)], by simp [InternalPage.insertAfter], ?_, rfl, ?_⟩
    · exact hold _ _ hc
    · intro d; simp; tauto
  | cons kc rest ih =>
    intro c k0 lower upper hc hmem hnd
    by_cases h : c = old
    · subst h
      refine ⟨(key, new) :: kc :: rest, by simp [InternalPage.insertAfter], ?_, rfl, ?_⟩
      · refine ⟨(hold _ _ hc.1).1, (hold _ _ hc.1).2, ?_⟩
        refine hc.2.mono (fun d l u hd hp => hPQ d l u ?_ hp)
        intro hdc
        rw [List.nodup_cons] at hnd
        apply hnd.1
        rw [← hdc]
        simpa using hd
      · intro d; simp; tauto
    · have hmem1 : old ∈ kc.2 :: rest.map Prod.snd := by
        rcases List.mem_cons.1 hmem with h1 | h1
        · exact absurd h1.symm h
        · simpa using h1
      have hnd1 : (kc.2 :: rest.map Prod.snd).Nodup := by
        rw [List.nodup_cons] at hnd; simpa using hnd.2
      obtain ⟨rest1, e1, e2, e3, e4⟩ := ih kc.2 kc.1 (some kc.1) upper hc.2 hmem1 hnd1
      refine ⟨kc :: rest1, ?_, ⟨hPQ _ _ _ h hc.1, e2⟩, by simp [e3], ?_⟩
      · have : InternalPage.insertAfter ((k0, c) :: kc :: rest) old key new
            = (k0, c) :: InternalPage.insertAfter (kc :: rest) old key new := by
          simp [InternalPage.insertAfter, h]
        rw [this]
        have e1' : InternalPage.insertAfter (kc :: rest) old key new = kc :: rest1 := e1
        rw [e1']
      · intro d
        have := e4 d
        simp only [List.map_cons, List.mem_cons] at this ⊢
        tauto

theorem nodup_insertAfter {old key new : Int} :
    ∀ (arr : List (Int × Int)), (arr.map Prod.snd).Nodup → new ∉ arr.map Prod.snd →
      ((InternalPage.insertAfter arr old key new).map Prod.snd).Nodup := by
  intro arr
  induction arr with
  | nil => intro _ _; simp [InternalPage.insertAfter]
  | cons kc rest ih =>
    intro hnd hnew
    simp only [List.map_cons, List.nodup_cons, List.mem_cons, not_or] at hnd hnew
    simp only [InternalPage.insertAfter]
    split
    · simp only [List.map_cons, List.nodup_cons, List.mem_cons, not_or]
      exact ⟨⟨fun h => hnew.1 h.symm, hnd.1⟩, hnew.2, hnd.2⟩
    · simp only [List.map_cons, List.nodup_cons]
      refine ⟨?_, ih hnd.2 hnew.2⟩
      intro hmem
      have : ∀ (r : List (Int × Int)) (d : Int),
          d ∈ (InternalPage.insertAfter r old key new).map Prod.snd →
          d = new ∨ d ∈ r.map Prod.snd := by
        intro r
        induction r with
        | nil => intro d hd; simp [InternalPage.insertAfter] at hd
        | cons x r ihr =>
          intro d hd
          simp only [InternalPage.insertAfter] at hd
          split at hd
          · simp only [List.map_cons, List.mem_cons] at hd ⊢; tauto
          · simp only [List.map_cons, List.mem_cons] at hd ⊢
            rcases hd with hd | hd
            · tauto
            · have := ihr d hd; tauto
      rcases this rest kc.2 hmem with h1 | h1
      · exact hnew.1 h1.symm
      · exact hnd.1 h1

/-! ## Reparenting -/

theorem Page.setParent_setParent (p : Page) (a b : Int) :
    (p.SetParentPageId a).SetParentPageId b = p.SetParentPageId b := by
  cases p <;> rfl

theorem reparent_spec (parent : Int) :
    ∀ (cs : List Int) (pages : Pool), (∀ c ∈ cs, ∃ pg, pages c = some pg) →
      ∃ pages1, reparent pages cs parent = .ok pages1 ∧
        ∀ x, pages1 x = if x ∈ cs then (pages x).map (fun p => p.SetParentPageId parent)
          else pages x := by
  intro cs
  induction cs with
  | nil => intro pages _; exact ⟨pages, rfl, fun x => by simp⟩
  | cons c rest ih =>
    intro pages hex
    obtain ⟨pg, hpg⟩ := hex c (by simp)
    have hex1 : ∀ d ∈ rest, ∃ pg1, (pages.write c (pg.SetParentPageId parent)) d = some pg1 := by
      intro d hd
      rw [Pool.write_apply]
      by_cases h : d = c
      · exact ⟨pg.SetParentPageId parent, by simp [h]⟩
      · obtain ⟨pg1, h1⟩ := hex d (List.mem_cons_of_mem _ hd)
        exact ⟨pg1, by simp [h, h1]⟩
    obtain ⟨pages1, e1, e2⟩ := ih _ hex1
    refine ⟨pages1, by simp only [reparent, hpg]; exact e1, ?_⟩
    intro x
    rw [e2 x, Pool.write_apply]
    by_cases h : x = c
    · subst h
      by_cases h1 : x ∈ rest
      · simp [h1, hpg, Page.setParent_setParent]
      · simp [h1, hpg]
    · by_cases h1 : x ∈ rest
      · simp [h, h1]
      · simp [h, h1]

/-! ## Transfer of the base invariant across changes that keep the leaf contents -/

theorem Base.transfer {t t1 : BPlusTree} {g g1 : Ghost} (hb : Base t g)
    (hleaf : ∀ x l1, t1.pages x = some (.leaf l1) →
      ∃ l, t.pages x = some (.leaf l) ∧ l1.array = l.array ∧
        l1.next_page_id = l.next_page_id)
    (hleaf2 : ∀ x l, t.pages x = some (.leaf l) → ∃ l1, t1.pages x = some (.leaf l1))
    (hg : ∀ x l, t.pages x = some (.leaf l) →
      g1.lvl x = g.lvl x ∧ g1.lo x = g.lo x ∧ g1.hi x = g.hi x ∧ g1.pos x = g.pos x)
    (hids : ∀ x pg, t1.pages x = some pg → 0 < x ∧ x < t1.next_page_id ∧ pg.GetPageId = x)
    (hlvl : ∀ x pg, t1.pages x = some pg → g1.lvl x ≤ g1.lvl t1.root_page_id)
    (hfuel : g1.lvl t1.root_page_id < t1.next_page_id.toNat)
    (hnext : t.next_page_id ≤ t1.next_page_id)
    (hroot : ∃ pg, t1.pages t1.root_page_id = some pg ∧
      pg.GetParentPageId = INVALID_PAGE_ID ∧ g1.lo t1.root_page_id = none) :
    Base t1 g1 := by
  refine
    { ids := fun x pg hx => ⟨(hids x pg hx).1, (hids x pg hx).2.1⟩,
      pid := fun x pg hx => (hids x pg hx).2.2,
      leafOK := ?_, leafUniq := ?_, lvlRoot := hlvl, fuel := hfuel, pos := ?_,
      rootPage := hroot }
  · intro x l1 hx
    obtain ⟨l, h1, h2, h3⟩ := hleaf x l1 hx
    obtain ⟨e1, e2, e3, e4⟩ := hg x l h1
    refine (hb.leafOK x l h1).congrLeaf h2 h3 e1 e2 e3 ?_
    intro l2 hl2
    obtain ⟨f1, f2, f3, f4⟩ := hg _ l2 hl2
    exact ⟨hleaf2 _ _ hl2, f2, fun h => by rw [e4, f4]; exact h⟩
  · intro x x1 l l1 k hx hx1 hr hr1
    obtain ⟨l0, h1, -, -⟩ := hleaf x l hx
    obtain ⟨l01, h11, -, -⟩ := hleaf x1 l1 hx1
    obtain ⟨e1, e2, e3, e4⟩ := hg x l0 h1
    obtain ⟨f1, f2, f3, f4⟩ := hg x1 l01 h11
    rw [e2, e3] at hr
    rw [f2, f3] at hr1
    exact hb.leafUniq x x1 l0 l01 k h1 h11 hr hr1
  · intro x l1 hx
    obtain ⟨l, h1, -, -⟩ := hleaf x l1 hx
    obtain ⟨e1, e2, e3, e4⟩ := hg x l h1
    have := hb.pos x l h1
    have h0 := (hb.ids x _ h1).1
    rw [e4]
    omega

theorem Stored.congrStored {t t1 : BPlusTree}
    (hleaf : ∀ x l1, t1.pages x = some (.leaf l1) →
      ∃ l, t.pages x = some (.leaf l) ∧ l1.array = l.array)
    (hleaf2 : ∀ x l, t.pages x = some (.leaf l) →
      ∃ l1, t1.pages x = some (.leaf l1) ∧ l1.array = l.array) (k v : Int) :
    Stored t1 k v ↔ Stored t k v := by
  constructor
  · rintro ⟨x, l1, hx, hm⟩
    obtain ⟨l, h1, h2⟩ := hleaf x l1 hx
    exact ⟨x, l, h1, by rw [← h2]; exact hm⟩
  · rintro ⟨x, l, hx, hm⟩
    obtain ⟨l1, h1, h2⟩ := hleaf2 x l hx
    exact ⟨x, l1, h1, by rw [h2]; exact hm⟩

theorem Ghost.setHi_lvl (g : Ghost) (q : Int) (u : Option Int) : (g.setHi q u).lvl = g.lvl := rfl
theorem Ghost.setHi_lo (g : Ghost) (q : Int) (u : Option Int) : (g.setHi q u).lo = g.lo := rfl
theorem Ghost.setHi_hi (g : Ghost) (q : Int) (u : Option Int) (x : Int) :
    (g.setHi q u).hi x = if x = q then u else g.hi x := rfl

/-- The root is the only page whose parent page id is `INVALID_PAGE_ID`. -/
theorem HoleInv.isRoot_iff {t : BPlusTree} {g : Ghost} {old new key : Int} {u : Option Int}
    (hh : HoleInv t g old new key u) {po : Page} (hpo : t.pages old = some po) :
    po.GetParentPageId = INVALID_PAGE_ID ↔ old = t.root_page_id := by
  constructor
  · intro h
    by_contra hne
    obtain ⟨n, e1, -⟩ := hh.listed old po hpo hne hh.distinct.symm
    have := (hh.ids _ _ e1).1
    rw [h] at this
    simp [INVALID_PAGE_ID] at this
  · intro h
    obtain ⟨pr, h1, h2, -⟩ := hh.rootPage
    rw [← h, hpo] at h1
    cases h1
    exact h2

/-- Insertion of the new page into the parent of the split page closes the hole. -/
theorem HoleInv.insertNodeAfter {t : BPlusTree} {g : Ghost} {old new key : Int}
    {u : Option Int} (hh : HoleInv t g old new key u) {po : Page} {n : InternalPage}
    (hpo : t.pages old = some po) (hnr : old ≠ t.root_page_id)
    (hp : t.pages po.GetParentPageId = some (.internal n)) :
    Inv (t.write po.GetParentPageId (.internal (n.InsertNodeAfter old key new))) g ∧
      2 ≤ (n.InsertNodeAfter old key new).array.length ∧
      ∀ k v, Stored (t.write po.GetParentPageId
        (.internal (n.InsertNodeAfter old key new))) k v ↔ Stored t k v := by
  obtain ⟨po1, pn, hpo1, hpn, hpar⟩ := hh.oldPage
  rw [hpo] at hpo1; cases hpo1
  obtain ⟨n1, hn1, hmem⟩ := hh.listed old po hpo hnr hh.distinct.symm
  rw [hp] at hn1; cases hn1
  obtain ⟨h, kc, rest, hlvl, harr, hch, hnd⟩ := hh.parentOK po n hpo hp
  rw [Ghost.setHi_lvl] at hlvl
  rw [Ghost.setHi_lo] at hch
  have hmem1 : old ∈ kc.2 :: rest.map Prod.snd := by rw [harr] at hmem; simpa using hmem
  obtain ⟨lo0, hi0, pg0, c1, c2, c3, c4, c5⟩ := hch.child old hmem1
  rw [Ghost.setHi_lvl] at c3
  have hpold : po.GetParentPageId ≠ old := by intro h1; rw [h1] at hlvl; omega
  have hpnew : po.GetParentPageId ≠ new := by
    intro h1; rw [h1, hh.lvlNew] at hlvl; omega
  rw [Ghost.setHi_hi, if_neg hpold] at hch
  have hnew : new ∉ n.array.map Prod.snd := hh.fresh _ n hp
  -- pages of the new state
  have hw : ∀ x, (t.write po.GetParentPageId (.internal (n.InsertNodeAfter old key new))).pages x
      = if x = po.GetParentPageId then some (.internal (n.InsertNodeAfter old key new))
        else t.pages x := fun x => rfl
  have hpars : ∀ c, ((t.write po.GetParentPageId
      (.internal (n.InsertNodeAfter old key new))).pages c).map Page.GetParentPageId =
      (t.pages c).map Page.GetParentPageId := by
    intro c
    by_cases h1 : c = po.GetParentPageId
    · rw [h1, hw, if_pos rfl, hp]; rfl
    · rw [hw, if_neg h1]
  -- the new slot array
  have hnd1 : (kc.2 :: rest.map Prod.snd).Nodup := by rw [harr] at hnd; simpa using hnd
  obtain ⟨rest1, e1, e2, e3, e4⟩ := @insertAfter_chain
    (ChildOK t.pages (g.setHi old u) po.GetParentPageId h)
    (ChildOK (t.write po.GetParentPageId
      (.internal (n.InsertNodeAfter old key new))).pages g po.GetParentPageId h)
    old key new
    (fun d l u1 hd hc => @ChildOK.congrChild t.pages _ (g.setHi old u) g _ _ _ _ _ (hpars d) rfl rfl
      (by rw [Ghost.setHi_hi, if_neg hd]) hc)
    (fun l u1 hc => by
      obtain ⟨pg, f1, f2, f3, f4, f5⟩ := hc
      rw [Ghost.setHi_hi, if_pos rfl] at f5
      rw [Ghost.setHi_lvl] at f3
      rw [Ghost.setHi_lo] at f4
      subst f5
      refine ⟨⟨pg, ?_, f2, f3, f4, hh.hiOld⟩, ⟨pn, ?_, hpar, ?_, hh.loNew, hh.hiNew⟩⟩
      · rw [hw, if_neg (Ne.symm hpold)]; exact f1
      · rw [hw, if_neg (Ne.symm hpnew)]; exact hpn
      · rw [hh.lvlNew]; exact f3)
    rest kc.2 kc.1 (g.lo po.GetParentPageId) (g.hi po.GetParentPageId) hch hmem1 hnd1
  have harr1 : (n.InsertNodeAfter old key new).array = kc :: rest1 := by
    simp only [InternalPage.InsertNodeAfter, harr]; exact e1
  have hmem2 : ∀ d, d ∈ (n.InsertNodeAfter old key new).array.map Prod.snd ↔
      d = new ∨ d ∈ n.array.map Prod.snd := by
    intro d; rw [harr1, harr]; simpa using e4 d
  have hstored : ∀ k v, Stored (t.write po.GetParentPageId
      (.internal (n.InsertNodeAfter old key new))) k v ↔ Stored t k v := by
    refine Stored.congrStored ?_ ?_
    · intro x l1 hx
      rw [hw] at hx
      by_cases h1 : x = po.GetParentPageId
      · simp [h1] at hx
      · simp only [h1, if_false] at hx; exact ⟨l1, hx, rfl⟩
    · intro x l hx
      rw [hw]
      by_cases h1 : x = po.GetParentPageId
      · rw [h1, hp] at hx; cases hx
      · exact ⟨l, by simpa [h1] using hx, rfl⟩
  refine ⟨?_, by rw [harr1]; simp [e3], hstored⟩
  have hbase : Base (t.write po.GetParentPageId (.internal (n.InsertNodeAfter old key new))) g := by
    refine hh.toBase.transfer ?_ ?_ (fun _ _ _ => ⟨rfl, rfl, rfl, rfl⟩) ?_ ?_ hh.fuel
      (le_refl _) ?_
    · intro x l1 hx
      rw [hw] at hx
      by_cases h1 : x = po.GetParentPageId
      · simp [h1] at hx
      · simp only [h1, if_false] at hx; exact ⟨l1, hx, rfl, rfl⟩
    · intro x l hx
      rw [hw]
      by_cases h1 : x = po.GetParentPageId
      · rw [h1, hp] at hx; cases hx
      · exact ⟨l, by simpa [h1] using hx⟩
    · intro x pg hx
      rw [hw] at hx
      by_cases h1 : x = po.GetParentPageId
      · simp only [h1, if_true, Option.some.injEq] at hx
        subst hx
        have := hh.ids _ _ hp
        have := hh.pid _ _ hp
        rw [h1]
        exact ⟨by omega, by show _ < t.next_page_id; omega, this⟩
      · simp only [h1, if_false] at hx
        have := hh.ids _ _ hx
        exact ⟨this.1, this.2, hh.pid _ _ hx⟩
    · intro x pg hx
      rw [hw] at hx
      by_cases h1 : x = po.GetParentPageId
      · rw [h1]; exact hh.lvlRoot _ _ hp
      · simp only [h1, if_false] at hx; exact hh.lvlRoot _ _ hx
    · obtain ⟨pr, h1, h2, h3⟩ := hh.rootPage
      have := hpars t.root_page_id
      rw [h1] at this
      cases hpg : (t.write po.GetParentPageId
          (.internal (n.InsertNodeAfter old key new))).pages t.root_page_id with
      | none => simp [hpg] at this
      | some pg1 =>
        simp only [hpg, Option.map_some', Option.some.injEq] at this
        exact ⟨pg1, hpg, this.trans h2, h3⟩
  refine { toBase := hbase, internalOK := ?_, listed := ?_, rootHi := hh.rootHi.1 hnr }
  · intro x nx hx
    rw [hw] at hx
    by_cases h1 : x = po.GetParentPageId
    · simp only [h1, if_true, Option.some.injEq, Page.internal.injEq] at hx
      subst hx
      rw [h1]
      refine ⟨h, kc, rest1, hlvl, harr1, e2, ?_⟩
      simp only [InternalPage.InsertNodeAfter]
      exact nodup_insertAfter _ hnd hnew
    · simp only [h1, if_false] at hx
      exact (hh.internalOK x nx po hx hpo h1).congrInternal rfl rfl rfl rfl
        (fun c _ => ⟨hpars c, rfl, rfl, rfl⟩)
  · intro x pg hx hxr
    have key1 : ∀ q1 nq, t.pages q1 = some (.internal nq) → x ∈ nq.array.map Prod.snd →
        ∃ n2, (t.write po.GetParentPageId (.internal (n.InsertNodeAfter old key new))).pages q1
          = some (.internal n2) ∧ x ∈ n2.array.map Prod.snd := by
      intro q1 nq hq1 hx1
      rw [hw]
      by_cases h2 : q1 = po.GetParentPageId
      · rw [h2, hp] at hq1; cases hq1
        exact ⟨_, by simp [h2], (hmem2 x).2 (Or.inr hx1)⟩
      · exact ⟨nq, by simpa [h2] using hq1, hx1⟩
    rw [hw] at hx
    by_cases h1 : x = po.GetParentPageId
    · simp only [h1, if_true, Option.some.injEq] at hx
      subst hx
      have hxr1 : po.GetParentPageId ≠ t.root_page_id := by rw [← h1]; exact hxr
      obtain ⟨nq, f1, f2⟩ := hh.listed _ _ hp hxr1 hpnew
      rw [← h1] at f2
      exact key1 _ nq f1 f2
    · simp only [h1, if_false] at hx
      by_cases h2 : x = new
      · subst h2
        rw [hpn] at hx; cases hx
        rw [hpar]
        exact ⟨_, by rw [hw]; simp, (hmem2 x).2 (Or.inl rfl)⟩
      · obtain ⟨nq, f1, f2⟩ := hh.listed x pg hx hxr h2
        exact key1 _ nq f1 f2

theorem Page.getPageId_setParent (p : Page) (a : Int) :
    (p.SetParentPageId a).GetPageId = p.GetPageId := by cases p <;> rfl

theorem Page.getParent_setParent (p : Page) (a : Int) :
    (p.SetParentPageId a).GetParentPageId = a := by cases p <;> rfl

theorem Page.setParent_eq_leaf {p : Page} {a : Int} {l1 : LeafPage}
    (h : p.SetParentPageId a = .leaf l1) :
    ∃ l, p = .leaf l ∧ l1.array = l.array ∧ l1.next_page_id = l.next_page_id := by
  cases p with
  | leaf l => simp only [Page.SetParentPageId, Page.leaf.injEq] at h; subst h; exact ⟨l, rfl, rfl, rfl⟩
  | internal n => simp [Page.SetParentPageId] at h

theorem Page.setParent_eq_internal {p : Page} {a : Int} {n1 : InternalPage}
    (h : p.SetParentPageId a = .internal n1) :
    ∃ n, p = .internal n ∧ n1.array = n.array := by
  cases p with
  | leaf l => simp [Page.SetParentPageId] at h
  | internal n =>
    simp only [Page.SetParentPageId, Page.internal.injEq] at h; subst h; exact ⟨n, rfl, rfl⟩

theorem Page.setParent_leaf (l : LeafPage) (a : Int) :
    ∃ l1, (Page.leaf l).SetParentPageId a = .leaf l1 ∧ l1.array = l.array ∧
      l1.next_page_id = l.next_page_id := ⟨_, rfl, rfl, rfl⟩

theorem Page.setParent_internal (n : InternalPage) (a : Int) :
    ∃ n1, (Page.internal n).SetParentPageId a = .internal n1 ∧ n1.array = n.array :=
  ⟨_, rfl, rfl⟩

/-- A pool that differs from another one only in parent page ids of some pages holds the
same leaves and the same internal slot arrays. -/
theorem reparented_leaf {pages pages1 : Pool} {x : Int} {f : Page → Page}
    (hf : ∀ p, f p = p ∨ ∃ a, f p = p.SetParentPageId a)
    (hx : pages1 x = (pages x).map f) {l1 : LeafPage} (h : pages1 x = some (.leaf l1)) :
    ∃ l, pages x = some (.leaf l) ∧ l1.array = l.array ∧
      l1.next_page_id = l.next_page_id := by
  rw [hx] at h
  cases hp : pages x with
  | none => simp [hp] at h
  | some p =>
    simp only [hp, Option.map_some', Option.some.injEq] at h
    rcases hf p with h1 | ⟨a, h1⟩
    · rw [h1] at h; subst h; exact ⟨l1, rfl, rfl, rfl⟩
    · rw [h1] at h
      obtain ⟨l, e1, e2, e3⟩ := Page.setParent_eq_leaf h
      exact ⟨l, by rw [e1], e2, e3⟩

theorem reparented_internal {pages pages1 : Pool} {x : Int} {f : Page → Page}
    (hf : ∀ p, f p = p ∨ ∃ a, f p = p.SetParentPageId a)
    (hx : pages1 x = (pages x).map f) {n1 : InternalPage}
    (h : pages1 x = some (.internal n1)) :
    ∃ n, pages x = some (.internal n) ∧ n1.array = n.array := by
  rw [hx] at h
  cases hp : pages x with
  | none => simp [hp] at h
  | some p =>
    simp only [hp, Option.map_some', Option.some.injEq] at h
    rcases hf p with h1 | ⟨a, h1⟩
    · rw [h1] at h; subst h; exact ⟨n1, rfl, rfl⟩
    · rw [h1] at h
      obtain ⟨n, e1, e2⟩ := Page.setParent_eq_internal h
      exact ⟨n, by rw [e1], e2⟩

theorem reparented_leaf2 {pages pages1 : Pool} {x : Int} {f : Page → Page}
    (hf : ∀ p, f p = p ∨ ∃ a, f p = p.SetParentPageId a)
    (hx : pages1 x = (pages x).map f) {l : LeafPage} (h : pages x = some (.leaf l)) :
    ∃ l1, pages1 x = some (.leaf l1) ∧ l1.array = l.array := by
  rw [hx, h]
  rcases hf (.leaf l) with h1 | ⟨a, h1⟩
  · exact ⟨l, by simp [h1], rfl⟩
  · exact ⟨{ l with parent_page_id := a }, by simp only [Option.map_some', h1]; rfl, rfl⟩

theorem reparented_internal2 {pages pages1 : Pool} {x : Int} {f : Page → Page}
    (hf : ∀ p, f p = p ∨ ∃ a, f p = p.SetParentPageId a)
    (hx : pages1 x = (pages x).map f) {n : InternalPage} (h : pages x = some (.internal n)) :
    ∃ n1, pages1 x = some (.internal n1) ∧ n1.array = n.array := by
  rw [hx, h]
  rcases hf (.internal n) with h1 | ⟨a, h1⟩
  · exact ⟨n, by simp [h1], rfl⟩
  · exact ⟨{ n with parent_page_id := a }, by simp only [Option.map_some', h1]; rfl, rfl⟩

theorem reparented_some {pages pages1 : Pool} {x : Int} {f : Page → Page}
    (hf : ∀ p, f p = p ∨ ∃ a, f p = p.SetParentPageId a)
    (hx : pages1 x = (pages x).map f) {p1 : Page} (h : pages1 x = some p1) :
    ∃ p, pages x = some p ∧ p1 = f p ∧ p1.GetPageId = p.GetPageId := by
  rw [hx] at h
  cases hp : pages x with
  | none => simp [hp] at h
  | some p =>
    simp only [hp, Option.map_some', Option.some.injEq] at h
    refine ⟨p, rfl, h.symm, ?_⟩
    rcases hf p with h1 | ⟨a, h1⟩
    · rw [← h, h1]
    · rw [← h, h1, Page.getPageId_setParent]

/-- The split of the root closes the hole with a new root above the two halves. -/
theorem HoleInv.newRoot {t t1 : BPlusTree} {g : Ghost} {old new key : Int} {u : Option Int}
    (hh : HoleInv t g old new key u) {po pn : Page} {nr : InternalPage} {k0 : Int}
    (hpo : t.pages old = some po) (hpn : t.pages new = some pn) (hr : old = t.root_page_id)
    (hnr1 : nr.page_id = t.next_page_id) (hnr2 : nr.parent_page_id = INVALID_PAGE_ID)
    (hnr3 : nr.array = [(k0, old), (key, new)])
    (hp : ∀ x, t1.pages x =
      if x = new then some (pn.SetParentPageId t.next_page_id)
      else if x = old then some (po.SetParentPageId t.next_page_id)
      else if x = t.next_page_id then some (.internal nr) else t.pages x)
    (hroot : t1.root_page_id = t.next_page_id)
    (hnext : t1.next_page_id = t.next_page_id + 1) :
    ∃ g1, Inv t1 g1 ∧ ∀ k v, Stored t1 k v ↔ Stored t k v := by
  have hN : t.pages t.next_page_id = none := Inv.fresh_none hh.toBase
  have hex : ∀ x pg, t.pages x = some pg → x ≠ t.next_page_id := by
    intro x pg hx h; rw [h, hN] at hx; cases hx
  have hoN := hex _ _ hpo
  have hnN := hex _ _ hpn
  have hpR : t1.pages t.next_page_id = some (.internal nr) := by
    rw [hp]; simp [Ne.symm hoN, Ne.symm hnN]
  have hpold : t1.pages old = some (po.SetParentPageId t.next_page_id) := by
    rw [hp]; simp [hh.distinct.symm]
  have hpnew : t1.pages new = some (pn.SetParentPageId t.next_page_id) := by
    rw [hp]; simp
  have hf : ∀ x : Int, ∀ p : Page,
      (fun p : Page => if x = new ∨ x = old then p.SetParentPageId t.next_page_id else p) p = p ∨
      ∃ a, (fun p : Page => if x = new ∨ x = old then p.SetParentPageId t.next_page_id
        else p) p = p.SetParentPageId a := by
    intro x p
    by_cases h : x = new ∨ x = old
    · right; exact ⟨t.next_page_id, by simp [h]⟩
    · left; simp [h]
  have hmap : ∀ x, x ≠ t.next_page_id → t1.pages x = (t.pages x).map
      (fun p => if x = new ∨ x = old then p.SetParentPageId t.next_page_id else p) := by
    intro x hx
    rw [hp]
    by_cases h1 : x = new
    · rw [h1]; simp [hpn]
    · by_cases h2 : x = old
      · rw [h2]; simp [hpo, hh.distinct.symm]
      · simp [h1, h2, hx]
  have hsame : ∀ x, x ≠ t.next_page_id → x ≠ new → x ≠ old → t1.pages x = t.pages x := by
    intro x h1 h2 h3; rw [hp]; simp [h1, h2, h3]
  have hpoPar : po.GetParentPageId = INVALID_PAGE_ID := (hh.isRoot_iff hpo).2 hr
  have hstored : ∀ k v, Stored t1 k v ↔ Stored t k v := by
    refine Stored.congrStored ?_ ?_
    · intro x l1 hx
      by_cases h : x = t.next_page_id
      · rw [h, hpR] at hx; cases hx
      · obtain ⟨l, e1, e2, -⟩ := reparented_leaf (hf x) (hmap x h) hx
        exact ⟨l, e1, e2⟩
    · intro x l hx
      exact reparented_leaf2 (hf x) (hmap x (hex _ _ hx)) hx
  refine ⟨{ g with lvl := fun x => if x = t.next_page_id then g.lvl old + 1 else g.lvl x,
                   lo := fun x => if x = t.next_page_id then none else g.lo x,
                   hi := fun x => if x = t.next_page_id then none else g.hi x }, ?_, hstored⟩
  refine { toBase := ?_, internalOK := ?_, listed := ?_, rootHi := by rw [hroot]; simp }
  · refine hh.toBase.transfer ?_ ?_ ?_ ?_ ?_ ?_ (by rw [hnext]; omega) ?_
    · intro x l1 hx
      by_cases h : x = t.next_page_id
      · rw [h, hpR] at hx; cases hx
      · exact reparented_leaf (hf x) (hmap x h) hx
    · intro x l hx
      obtain ⟨l1, e1, -⟩ := reparented_leaf2 (hf x) (hmap x (hex _ _ hx)) hx
      exact ⟨l1, e1⟩
    · intro x l hx
      simp [hex _ _ hx]
    · intro x pg hx
      rw [hnext]
      by_cases h : x = t.next_page_id
      · rw [h, hpR] at hx; cases hx
        have := hh.ids _ _ hpo
        rw [h]
        exact ⟨by omega, by omega, hnr1⟩
      · obtain ⟨p, e1, -, e3⟩ := reparented_some (hf x) (hmap x h) hx
        have := hh.ids _ _ e1
        exact ⟨this.1, by omega, e3.trans (hh.pid _ _ e1)⟩
    · intro x pg hx
      rw [hroot]
      simp only [if_true]
      by_cases h : x = t.next_page_id
      · simp [h]
      · obtain ⟨p, e1, -, -⟩ := reparented_some (hf x) (hmap x h) hx
        have := hh.lvlRoot _ _ e1
        rw [← hr] at this
        simp only [h, if_false]
        omega
    · rw [hroot, hnext]
      simp only [if_true]
      have := hh.fuel
      rw [← hr] at this
      have := hh.ids _ _ hpo
      omega
    · rw [hroot]
      exact ⟨_, hpR, hnr2, by simp⟩
  · intro x n1 hx
    by_cases h : x = t.next_page_id
    · rw [h, hpR] at hx; cases hx
      rw [h]
      refine ⟨g.lvl old, (k0, old), [(key, new)], by simp, hnr3, ?_, ?_⟩
      · refine ⟨⟨_, hpold, Page.getParent_setParent _ _, by simp [hoN], ?_, ?_⟩,
          ⟨_, hpnew, Page.getParent_setParent _ _, ?_, ?_, ?_⟩⟩
        · obtain ⟨pr, h1, h2, h3⟩ := hh.rootPage
          simp only [hoN, if_false, if_true]
          rw [hr]; exact h3
        · simp only [hoN, if_false]; exact hh.hiOld
        · simp only [hnN, if_false]; exact hh.lvlNew
        · simp only [hnN, if_false, if_true]; exact hh.loNew
        · simp only [hnN, if_false, if_true]
          rw [hh.hiNew]; exact hh.rootHi.2 hr
      · rw [hnr3]
        simp [hh.distinct.symm]
    · obtain ⟨n, e1, e2⟩ := reparented_internal (hf x) (hmap x h) hx
      have hxp : x ≠ po.GetParentPageId := by
        rw [hpoPar]; have := (hh.ids _ _ e1).1
        simp only [INVALID_PAGE_ID]; omega
      have hok := hh.internalOK x n po e1 hpo hxp
      refine hok.congrInternal e2 (by simp [h]) (by simp [h]) (by simp [h]) ?_
      intro c hc
      obtain ⟨pg, -, -, f1, f2, -⟩ := hok.child_exists hc
      have hcN := hex _ _ f1
      have hcnew : c ≠ new := by
        intro h1; rw [h1] at hc; exact hh.fresh x n e1 hc
      have hcold : c ≠ old := by
        intro h1; rw [h1, hpo] at f1; cases f1
        rw [hpoPar] at f2
        have := (hh.ids _ _ e1).1
        simp only [INVALID_PAGE_ID] at f2; omega
      exact ⟨by rw [hsame c hcN hcnew hcold], by simp [hcN], by simp [hcN], by simp [hcN]⟩
  · intro x pg hx hxr
    rw [hroot] at hxr
    have hRarr : ∀ d, d = old ∨ d = new → d ∈ nr.array.map Prod.snd := by
      intro d hd; rw [hnr3]; simp; tauto
    by_cases h1 : x = new
    · rw [h1, hpnew] at hx; cases hx
      rw [Page.getParent_setParent]
      exact ⟨nr, hpR, by rw [h1]; exact hRarr _ (Or.inr rfl)⟩
    · by_cases h2 : x = old
      · rw [h2, hpold] at hx; cases hx
        rw [Page.getParent_setParent]
        exact ⟨nr, hpR, by rw [h2]; exact hRarr _ (Or.inl rfl)⟩
      · rw [hsame x hxr h1 h2] at hx
        obtain ⟨nq, f1, f2⟩ := hh.listed x pg hx (by rw [← hr]; exact h2) h1
        obtain ⟨n1, g1, g2⟩ := reparented_internal2 (hf _) (hmap _ (hex _ _ f1)) f1
        exact ⟨n1, g1, by rw [g2]; exact f2⟩

/-- In a well-formed tree the root is the only page without a parent page in the pool. -/
theorem Inv.parent_exists {t : BPlusTree} {g : Ghost} (hinv : Inv t g) {p : Int} {pg : Page}
    (hp : t.pages p = some pg) {pq : Page} (hq : t.pages pg.GetParentPageId = some pq) :
    p ≠ t.root_page_id ∧ pg.GetParentPageId ≠ p ∧
      ∃ nq, pq = .internal nq ∧ p ∈ nq.array.map Prod.snd := by
  have hnr : p ≠ t.root_page_id := by
    intro h
    obtain ⟨pr, h1, h2, -⟩ := hinv.rootPage
    rw [← h, hp] at h1; cases h1
    rw [h2] at hq
    have := (hinv.ids _ _ hq).1
    simp [INVALID_PAGE_ID] at this
  obtain ⟨nq, e1, e2⟩ := hinv.listed p pg hp hnr
  rw [hq] at e1; cases e1
  refine ⟨hnr, ?_, nq, rfl, e2⟩
  obtain ⟨pg1, -, -, f1, f2, f3, -⟩ := (hinv.internalOK _ nq hq).child_exists e2
  intro h
  rw [h] at f3
  omega

/-- State after the split of an internal page: the hole invariant holds for the page and its
new right sibling. -/
theorem internal_split_hole {t t2 : BPlusTree} {g : Ghost} {p : Int} {n np nN : InternalPage}
    {kc kcm : Int × Int} {xs ys : List (Int × Int)}
    (hinv : Inv t g) (hp : t.pages p = some (.internal n))
    (harr : n.array = (kc :: xs) ++ (kcm :: ys))
    (hp2 : ∀ x, t2.pages x =
      if x = p then some (.internal np)
      else if x = t.next_page_id then some (.internal nN)
      else if x ∈ (kcm :: ys).map Prod.snd then
        (t.pages x).map (fun q => q.SetParentPageId t.next_page_id)
      else t.pages x)
    (hnext : t2.next_page_id = t.next_page_id + 1) (hroot : t2.root_page_id = t.root_page_id)
    (hnp1 : np.page_id = n.page_id) (hnp2 : np.parent_page_id = n.parent_page_id)
    (hnp3 : np.array = kc :: xs)
    (hnN1 : nN.page_id = t.next_page_id) (hnN2 : nN.parent_page_id = n.parent_page_id)
    (hnN3 : nN.array = kcm :: ys) :
    ∃ g1, HoleInv t2 g1 p t.next_page_id kcm.1 (g.hi p) ∧
      (∀ x, x ≠ t.next_page_id → g1.lvl x = g.lvl x) ∧
      ∀ k v, Stored t2 k v ↔ Stored t k v := by
  have hN : t.pages t.next_page_id = none := Inv.fresh_none hinv.toBase
  have hex : ∀ x pg, t.pages x = some pg → x ≠ t.next_page_id := by
    intro x pg hx h; rw [h, hN] at hx; cases hx
  have hpN := hex _ _ hp
  obtain ⟨h, kc1, rest, hlvl, harr1, hch, hnd⟩ := hinv.internalOK p n hp
  rw [harr] at harr1
  simp only [List.cons_append, List.cons.injEq] at harr1
  obtain ⟨hkc, hrest⟩ := harr1
  subst hkc; subst hrest
  obtain ⟨hchL, hchR⟩ := Chain.append.1 hch
  have hchild : ∀ c ∈ n.array.map Prod.snd, ∃ pg, t.pages c = some pg ∧
      pg.GetParentPageId = p ∧ g.lvl c = h := by
    intro c hc
    obtain ⟨pg, -, -, e1, e2, e3, -⟩ := (hinv.internalOK p n hp).child_exists hc
    exact ⟨pg, e1, e2, by omega⟩
  have hMmem : ∀ c ∈ (kcm :: ys).map Prod.snd, c ∈ n.array.map Prod.snd := by
    intro c hc; rw [harr]; simp only [List.map_append, List.mem_append]; exact Or.inr hc
  have hLmem : ∀ c ∈ (kc :: xs).map Prod.snd, c ∈ n.array.map Prod.snd := by
    intro c hc; rw [harr]; simp only [List.map_append, List.mem_append]; exact Or.inl hc
  have hdisj : ∀ c ∈ (kc :: xs).map Prod.snd, c ∉ (kcm :: ys).map Prod.snd := by
    rw [harr, List.map_append] at hnd
    intro c hc hc1
    exact (List.nodup_append.1 hnd).2.2 hc hc1
  have hpM : ∀ c ∈ n.array.map Prod.snd, c ≠ p ∧ c ≠ t.next_page_id := by
    intro c hc
    obtain ⟨pg, e1, e2, e3⟩ := hchild c hc
    exact ⟨by intro h1; rw [h1] at e3; omega, hex _ _ e1⟩
  have hpp : t2.pages p = some (.internal np) := by rw [hp2]; simp
  have hpNew : t2.pages t.next_page_id = some (.internal nN) := by
    rw [hp2]; simp [Ne.symm hpN]
  have hf : ∀ x : Int, ∀ q : Page,
      (fun q : Page => if x ∈ (kcm :: ys).map Prod.snd then q.SetParentPageId t.next_page_id
        else q) q = q ∨
      ∃ a, (fun q : Page => if x ∈ (kcm :: ys).map Prod.snd then
        q.SetParentPageId t.next_page_id else q) q = q.SetParentPageId a := by
    intro x q
    by_cases h1 : x ∈ (kcm :: ys).map Prod.snd
    · right; exact ⟨t.next_page_id, by simp only [h1, if_true]⟩
    · left; simp only [h1, if_false]
  have hmap : ∀ x, x ≠ p → x ≠ t.next_page_id → t2.pages x = (t.pages x).map
      (fun q => if x ∈ (kcm :: ys).map Prod.snd then q.SetParentPageId t.next_page_id
        else q) := by
    intro x h1 h2
    rw [hp2]
    by_cases h3 : x ∈ (kcm :: ys).map Prod.snd
    · simp only [h1, h2, h3, if_false, if_true]
    · simp only [h1, h2, h3, if_false, Option.map_id']
  have hsame : ∀ x, x ≠ p → x ≠ t.next_page_id → x ∉ (kcm :: ys).map Prod.snd →
      t2.pages x = t.pages x := by
    intro x h1 h2 h3; rw [hp2]; simp only [h1, h2, h3, if_false]
  have hmoved : ∀ x pg, x ∈ (kcm :: ys).map Prod.snd → t.pages x = some pg →
      t2.pages x = some (pg.SetParentPageId t.next_page_id) := by
    intro x pg h1 h2
    obtain ⟨h3, h4⟩ := hpM x (hMmem x h1)
    rw [hp2]; simp only [h3, h4, h1, if_false, if_true, h2, Option.map_some']
  -- an internal page of the new state and the page it comes from
  have hint : ∀ x n1, t2.pages x = some (.internal n1) → x ≠ p → x ≠ t.next_page_id →
      ∃ n0, t.pages x = some (.internal n0) ∧ n1.array = n0.array :=
    fun x n1 hx h1 h2 => reparented_internal (hf x) (hmap x h1 h2) hx
  have hint2 : ∀ x n0, t.pages x = some (.internal n0) → x ≠ p →
      ∃ n1, t2.pages x = some (.internal n1) ∧ n1.array = n0.array :=
    fun x n0 hx h1 => reparented_internal2 (hf x) (hmap x h1 (hex _ _ hx)) hx
  -- children of other pages are not touched
  have hother : ∀ x nx, t.pages x = some (.internal nx) → x ≠ p →
      ∀ c ∈ nx.array.map Prod.snd, c ∉ (kcm :: ys).map Prod.snd ∧ c ≠ t.next_page_id ∧
        (c = p → x = n.parent_page_id) := by
    intro x nx hx hxp c hc
    obtain ⟨pg, -, -, e1, e2, -⟩ := (hinv.internalOK x nx hx).child_exists hc
    refine ⟨?_, hex _ _ e1, ?_⟩
    · intro hcM
      obtain ⟨pg1, f1, f2, -⟩ := hchild c (hMmem c hcM)
      rw [e1] at f1; cases f1
      exact hxp (e2.symm.trans f2)
    · intro hcp
      rw [hcp, hp] at e1; cases e1
      exact e2.symm
  have hstored : ∀ k v, Stored t2 k v ↔ Stored t k v := by
    refine Stored.congrStored ?_ ?_
    · intro x l1 hx
      by_cases h1 : x = p
      · rw [h1, hpp] at hx; cases hx
      · by_cases h2 : x = t.next_page_id
        · rw [h2, hpNew] at hx; cases hx
        · obtain ⟨l, e1, e2, -⟩ := reparented_leaf (hf x) (hmap x h1 h2) hx
          exact ⟨l, e1, e2⟩
    · intro x l hx
      have h1 : x ≠ p := by intro h1; rw [h1, hp] at hx; cases hx
      exact reparented_leaf2 (hf x) (hmap x h1 (hex _ _ hx)) hx
  refine ⟨{ lvl := fun x => if x = t.next_page_id then g.lvl p else g.lvl x,
            lo := fun x => if x = t.next_page_id then some kcm.1 else g.lo x,
            hi := fun x => if x = p then some kcm.1
                           else if x = t.next_page_id then g.hi p else g.hi x,
            pos := g.pos }, ?_, fun x hx => by simp only [hx, if_false], hstored⟩
  refine
    { toBase := ?_, oldPage := ?_, distinct := Ne.symm hpN, lvlNew := ?_,
      hiOld := ?_, loNew := ?_, hiNew := ?_, fresh := ?_, internalOK := ?_, parentOK := ?_,
      listed := ?_, rootHi := ?_ }
  · -- base
    refine hinv.toBase.transfer ?_ ?_ ?_ ?_ ?_ ?_ (by rw [hnext]; omega) ?_
    · intro x l1 hx
      by_cases h1 : x = p
      · rw [h1, hpp] at hx; cases hx
      · by_cases h2 : x = t.next_page_id
        · rw [h2, hpNew] at hx; cases hx
        · exact reparented_leaf (hf x) (hmap x h1 h2) hx
    · intro x l hx
      have h1 : x ≠ p := by intro h1; rw [h1, hp] at hx; cases hx
      obtain ⟨l1, e1, -⟩ := reparented_leaf2 (hf x) (hmap x h1 (hex _ _ hx)) hx
      exact ⟨l1, e1⟩
    · intro x l hx
      have h1 : x ≠ p := by intro h1; rw [h1, hp] at hx; cases hx
      simp [hex _ _ hx, h1]
    · intro x pg hx
      rw [hnext]
      by_cases h1 : x = p
      · rw [h1, hpp] at hx; cases hx
        have := hinv.ids _ _ hp
        rw [h1]
        exact ⟨this.1, by omega, hnp1.trans (hinv.pid _ _ hp)⟩
      · by_cases h2 : x = t.next_page_id
        · rw [h2, hpNew] at hx; cases hx
          have := hinv.ids _ _ hp
          rw [h2]
          exact ⟨by omega, by omega, hnN1⟩
        · obtain ⟨q, e1, -, e3⟩ := reparented_some (hf x) (hmap x h1 h2) hx
          have := hinv.ids _ _ e1
          exact ⟨this.1, by omega, e3.trans (hinv.pid _ _ e1)⟩
    · intro x pg hx
      obtain ⟨pr, hr1, -, -⟩ := hinv.rootPage
      rw [hroot]
      simp only [hex _ _ hr1, if_false]
      by_cases h2 : x = t.next_page_id
      · simp only [h2, if_true]; exact hinv.lvlRoot _ _ hp
      · simp only [h2, if_false]
        by_cases h1 : x = p
        · rw [h1]; exact hinv.lvlRoot _ _ hp
        · obtain ⟨q, e1, -, -⟩ := reparented_some (hf x) (hmap x h1 h2) hx
          exact hinv.lvlRoot _ _ e1
    · obtain ⟨pr, hr1, -, -⟩ := hinv.rootPage
      rw [hroot, hnext]
      simp only [hex _ _ hr1, if_false]
      have := hinv.fuel
      omega
    · obtain ⟨pr, hr1, hr2, hr3⟩ := hinv.rootPage
      rw [hroot]
      have hlo : (if t.root_page_id = t.next_page_id then some kcm.1 else g.lo t.root_page_id)
          = none := by simp only [hex _ _ hr1, if_false]; exact hr3
      by_cases h1 : t.root_page_id = p
      · rw [h1] at hr1 hlo ⊢
        rw [hp] at hr1; cases hr1
        exact ⟨_, hpp, hnp2.trans hr2, hlo⟩
      · have hnM : t.root_page_id ∉ (kcm :: ys).map Prod.snd := by
          intro hm
          obtain ⟨pg1, f1, f2, -⟩ := hchild _ (hMmem _ hm)
          rw [hr1] at f1; cases f1
          rw [hr2] at f2
          have := (hinv.ids _ _ hp).1
          simp only [INVALID_PAGE_ID] at f2; omega
        exact ⟨pr, by rw [hsame _ h1 (hex _ _ hr1) hnM]; exact hr1, hr2, hlo⟩
  · exact ⟨_, _, hpp, hpNew, hnN2.trans hnp2.symm⟩
  · simp only [if_true, hpN, if_false]
  · simp only [if_true]
  · simp only [if_true]
  · simp only [Ne.symm hpN, if_false, if_true]
  · -- fresh
    intro x n1 hx hmem
    by_cases h1 : x = p
    · rw [h1, hpp] at hx; cases hx
      rw [hnp3] at hmem
      exact (hpM _ (hLmem _ hmem)).2 rfl
    · by_cases h2 : x = t.next_page_id
      · rw [h2, hpNew] at hx; cases hx
        rw [hnN3] at hmem
        exact (hpM _ (hMmem _ hmem)).2 rfl
      · obtain ⟨n0, e1, e2⟩ := hint x n1 hx h1 h2
        rw [e2] at hmem
        exact (hother x n0 e1 h1 _ hmem).2.1 rfl
  · -- internalOK
    intro x n1 po hx hpo hne
    rw [hpp] at hpo; cases hpo
    by_cases h1 : x = p
    · rw [h1, hpp] at hx; cases hx
      rw [h1]
      refine ⟨h, kc, xs, by simp only [hpN, if_false]; exact hlvl, hnp3, ?_,
        by rw [hnp3]; rw [harr, List.map_append] at hnd; exact (List.nodup_append.1 hnd).1⟩
      simp only [hpN, if_false, if_true]
      refine hchL.mono (fun d l u hd hc => ?_)
      have hd1 : d ∈ (kc :: xs).map Prod.snd := by simpa using hd
      obtain ⟨e1, e2⟩ := hpM d (hLmem d hd1)
      refine hc.congrChild (by rw [hsame d e1 e2 (hdisj d hd1)]) ?_ ?_ ?_ <;>
        simp only [e1, e2, if_false]
    · by_cases h2 : x = t.next_page_id
      · rw [h2, hpNew] at hx; cases hx
        rw [h2]
        refine ⟨h, kcm, ys, by simp only [if_true]; exact hlvl, hnN3, ?_,
          by rw [hnN3]; rw [harr, List.map_append] at hnd; exact (List.nodup_append.1 hnd).2.1⟩
        simp only [Ne.symm hpN, if_false, if_true]
        refine hchR.mono (fun d l u hd hc => ?_)
        have hd1 : d ∈ (kcm :: ys).map Prod.snd := by simpa using hd
        obtain ⟨e1, e2⟩ := hpM d (hMmem d hd1)
        obtain ⟨pg, f1, f2, f3, f4, f5⟩ := hc
        exact ⟨_, hmoved d pg hd1 f1, Page.getParent_setParent _ _,
          by simp only [e2, if_false]; exact f3, by simp only [e2, if_false]; exact f4,
          by simp only [e1, e2, if_false]; exact f5⟩
      · obtain ⟨n0, e1, e2⟩ := hint x n1 hx h1 h2
        refine (hinv.internalOK x n0 e1).congrInternal e2 (by simp only [h2, if_false])
          (by simp only [h2, if_false]) (by simp only [h1, h2, if_false]) ?_
        intro c hc
        obtain ⟨f1, f2, f3⟩ := hother x n0 e1 h1 c hc
        have f4 : c ≠ p := by
          intro hcp; apply hne
          simp only [Page.GetParentPageId]
          rw [hnp2]; exact f3 hcp
        refine ⟨by rw [hsame c f4 f2 f1], ?_, ?_, ?_⟩ <;> simp only [f4, f2, if_false]
  · -- parentOK
    intro po nq hpo hq
    rw [hpp] at hpo; cases hpo
    simp only [Page.GetParentPageId] at hq ⊢
    rw [hnp2] at hq ⊢
    have hqN : n.parent_page_id ≠ t.next_page_id := by
      intro h1
      have := hinv.ids _ _ hp
      obtain ⟨pr, hr1, hr2, -⟩ := hinv.rootPage
      by_cases h3 : p = t.root_page_id
      · rw [← h3, hp] at hr1; cases hr1
        simp only [Page.GetParentPageId] at hr2
        rw [hr2] at h1
        simp only [INVALID_PAGE_ID] at h1; omega
      · obtain ⟨nq1, e1, -⟩ := hinv.listed p _ hp h3
        simp only [Page.GetParentPageId] at e1
        exact hex _ _ e1 h1
    have hqp : n.parent_page_id ≠ p := by
      intro h1
      by_cases h3 : p = t.root_page_id
      · obtain ⟨pr, hr1, hr2, -⟩ := hinv.rootPage
        rw [← h3, hp] at hr1; cases hr1
        simp only [Page.GetParentPageId] at hr2
        rw [hr2] at h1
        have := (hinv.ids _ _ hp).1
        simp only [INVALID_PAGE_ID] at h1; omega
      · obtain ⟨nq1, e1, e2⟩ := hinv.listed p _ hp h3
        simp only [Page.GetParentPageId] at e1
        rw [h1, hp] at e1; cases e1
        exact (hpM p e2).1 rfl
    obtain ⟨n0, e1, e2⟩ := hint _ nq hq hqp hqN
    refine (hinv.internalOK _ n0 e1).congrInternal e2 (by simp only [Ghost.setHi, hqN, if_false])
      (by simp only [Ghost.setHi, hqN, if_false])
      (by simp only [Ghost.setHi, hqN, hqp, if_false]) ?_
    intro c hc
    obtain ⟨f1, f2, f3⟩ := hother _ n0 e1 hqp c hc
    by_cases hcp : c = p
    · rw [hcp]
      refine ⟨by rw [hpp, hp]; simp only [Option.map_some', Page.GetParentPageId, hnp2], ?_, ?_, ?_⟩ <;>
        simp only [Ghost.setHi, hpN, if_false, if_true]
    · refine ⟨by rw [hsame c hcp f2 f1], ?_, ?_, ?_⟩ <;>
        simp only [Ghost.setHi, hcp, f2, if_false]
  · -- listed
    intro x pg hx hxr hxN
    rw [hroot] at hxr
    by_cases h1 : x = p
    · rw [h1, hpp] at hx; cases hx
      rw [h1] at hxr
      obtain ⟨nq, e1, e2⟩ := hinv.listed p _ hp hxr
      simp only [Page.GetParentPageId] at e1 ⊢
      rw [hnp2]
      have hqp : n.parent_page_id ≠ p := by
        intro h3; rw [h3, hp] at e1; cases e1; exact (hpM p e2).1 rfl
      obtain ⟨n1, f1, f2⟩ := hint2 _ nq e1 hqp
      exact ⟨n1, f1, by rw [f2, h1]; exact e2⟩
    · by_cases h3 : x ∈ (kcm :: ys).map Prod.snd
      · obtain ⟨pg0, e1, -, -⟩ := hchild x (hMmem x h3)
        rw [hmoved x pg0 h3 e1] at hx; cases hx
        rw [Page.getParent_setParent]
        exact ⟨nN, hpNew, by rw [hnN3]; exact h3⟩
      · rw [hsame x h1 hxN h3] at hx
        obtain ⟨nq, e1, e2⟩ := hinv.listed x pg hx hxr
        by_cases h4 : pg.GetParentPageId = p
        · rw [h4] at e1 ⊢
          rw [hp] at e1; cases e1
          refine ⟨np, hpp, ?_⟩
          rw [hnp3]
          rw [harr, List.map_append, List.mem_append] at e2
          rcases e2 with e2 | e2
          · exact e2
          · exact absurd e2 h3
        · obtain ⟨n1, f1, f2⟩ := hint2 _ nq e1 h4
          exact ⟨n1, f1, by rw [f2]; exact e2⟩
  · -- rootHi
    obtain ⟨pr, hr1, -, -⟩ := hinv.rootPage
    rw [hroot]
    refine ⟨fun h1 => ?_, fun h1 => ?_⟩
    · simp only [Ne.symm h1, hex _ _ hr1, if_false]; exact hinv.rootHi
    · rw [h1]; exact hinv.rootHi

theorem take_drop_half {α : Type} (A : List α) (h : 2 ≤ A.length) :
    ∃ a xs b ys, A.take (A.length / 2) = a :: xs ∧ A.drop (A.length / 2) = b :: ys ∧
      A = (a :: xs) ++ (b :: ys) := by
  have h1 : 0 < A.length / 2 := by omega
  have h2 : A.length / 2 < A.length := by omega
  cases ht : A.take (A.length / 2) with
  | nil =>
    have := congrArg List.length ht
    simp only [List.length_take, List.length_nil] at this
    omega
  | cons a xs =>
    cases hd : A.drop (A.length / 2) with
    | nil =>
      have := congrArg List.length hd
      simp only [List.length_drop, List.length_nil] at this
      omega
    | cons b ys =>
      refine ⟨a, xs, b, ys, rfl, rfl, ?_⟩
      rw [← ht, ← hd, List.take_append_drop]

/-- The split of an internal page with at least two slots in a well-formed tree. -/
theorem Split_internal {t : BPlusTree} {g : Ghost} {p : Int} {n : InternalPage}
    (hinv : Inv t g) (hp : t.pages p = some (.internal n)) (hlen : 2 ≤ n.array.length) :
    ∃ t2 g1 nN k, t.Split p = .ok (t2, t.next_page_id) ∧
      HoleInv t2 g1 p t.next_page_id k (g.hi p) ∧
      t2.pages t.next_page_id = some (.internal nN) ∧ nN.KeyAt 0 = some k ∧
      (∀ x, x ≠ t.next_page_id → g1.lvl x = g.lvl x) ∧
      (∀ k v, Stored t2 k v ↔ Stored t k v) ∧
      t2.root_page_id = t.root_page_id ∧ t2.leaf_max_size = t.leaf_max_size ∧
      t2.internal_max_size = t.internal_max_size := by
  obtain ⟨kc, xs, kcm, ys, htake, hdrop, harr⟩ := take_drop_half n.array hlen
  have hN : t.pages t.next_page_id = none := Inv.fresh_none hinv.toBase
  have hpN : p ≠ t.next_page_id := by intro h; rw [← h, hp] at hN; cases hN
  have hchild : ∀ c ∈ (kcm :: ys).map Prod.snd, ∃ pg, t.pages c = some pg ∧ c ≠ p ∧
      c ≠ t.next_page_id := by
    intro c hc
    have hc1 : c ∈ n.array.map Prod.snd := by
      rw [harr, List.map_append, List.mem_append]; exact Or.inr hc
    obtain ⟨pg, -, -, e1, e2, e3, -⟩ := (hinv.internalOK p n hp).child_exists hc1
    refine ⟨pg, e1, ?_, ?_⟩
    · intro h; rw [h] at e3; omega
    · intro h; rw [h, hN] at e1; cases e1
  obtain ⟨pages1, e1, e2⟩ := reparent_spec t.next_page_id ((kcm :: ys).map Prod.snd)
    ((t.pages.write t.next_page_id (.internal
      { page_id := t.next_page_id, parent_page_id := n.parent_page_id,
        max_size := t.internal_max_size, array := kcm :: ys })).write p
      (.internal { n with array := kc :: xs })) (by
        intro c hc
        obtain ⟨pg, f1, f2, f3⟩ := hchild c hc
        exact ⟨pg, by rw [Pool.write_apply, if_neg f2, Pool.write_apply, if_neg f3]; exact f1⟩)
  have hsplit : t.Split p = .ok
      ({ t with next_page_id := t.next_page_id + 1, pages := pages1 }, t.next_page_id) := by
    simp only [BPlusTree.Split, hp, InternalPage.MoveHalfTo, InternalPage.Init, htake, hdrop,
      List.nil_append, BPlusTree.write]
    rw [e1]
  obtain ⟨g1, h1, h2, h3⟩ := @internal_split_hole t
    { t with next_page_id := t.next_page_id + 1, pages := pages1 } g p n
    { n with array := kc :: xs }
    { page_id := t.next_page_id, parent_page_id := n.parent_page_id,
      max_size := t.internal_max_size, array := kcm :: ys } kc kcm xs ys
    hinv hp harr (by
      intro x
      show pages1 x = _
      rw [e2 x]
      by_cases hx1 : x = p
      · have : x ∉ (kcm :: ys).map Prod.snd := by
          intro hc; exact (hchild x hc).choose_spec.2.1 hx1
        rw [if_neg this, if_pos hx1, Pool.write_apply, if_pos hx1]
      · by_cases hx2 : x = t.next_page_id
        · have : x ∉ (kcm :: ys).map Prod.snd := by
            intro hc; exact (hchild x hc).choose_spec.2.2 hx2
          rw [if_neg this, if_neg hx1, if_pos hx2, Pool.write_apply, if_neg hx1,
            Pool.write_apply, if_pos hx2]
        · rw [if_neg hx1, if_neg hx2, Pool.write_apply, if_neg hx1, Pool.write_apply,
            if_neg hx2])
    rfl rfl rfl rfl rfl rfl rfl rfl
  refine ⟨_, g1,
    { page_id := t.next_page_id, parent_page_id := n.parent_page_id,
      max_size := t.internal_max_size, array := kcm :: ys },
    kcm.1, hsplit, h1, ?_, rfl, h2, h3, rfl, rfl, rfl⟩
  show pages1 t.next_page_id = _
  rw [e2]
  have : t.next_page_id ∉ (kcm :: ys).map Prod.snd := by
    intro hc; exact (hchild _ hc).choose_spec.2.2 rfl
  rw [if_neg this, Pool.write_apply, if_neg (Ne.symm hpN), Pool.write_apply, if_pos rfl]

/-- `InsertIntoParent` closes the hole left by a split, whatever the height above it. -/
theorem InsertIntoParent_spec :
    ∀ (fuel : Nat) (t : BPlusTree) (g : Ghost) (old new key : Int) (u : Option Int),
      HoleInv t g old new key u → g.lvl t.root_page_id < g.lvl old + fuel →
      ∃ t1 g1, BPlusTree.InsertIntoParent fuel t old key new = .ok t1 ∧ Inv t1 g1 ∧
        (∀ k v, Stored t1 k v ↔ Stored t k v) ∧ t1.leaf_max_size = t.leaf_max_size ∧
        t1.internal_max_size = t.internal_max_size := by
  intro fuel
  induction fuel with
  | zero =>
    intro t g old new key u hh hlt
    obtain ⟨po, pn, hpo, -, -⟩ := hh.oldPage
    have := hh.lvlRoot _ _ hpo
    omega
  | succ fuel ih =>
    intro t g old new key u hh hlt
    obtain ⟨po, pn, hpo, hpn, hpar⟩ := hh.oldPage
    have hido := hh.pid _ _ hpo
    have hidn := hh.pid _ _ hpn
    by_cases hroot : po.GetParentPageId = INVALID_PAGE_ID
    · -- the split page is the root
      have hr := (hh.isRoot_iff hpo).1 hroot
      obtain ⟨g1, h1, h2⟩ := @HoleInv.newRoot t
        { t with
          next_page_id := t.next_page_id + 1, root_page_id := t.next_page_id,
          header_record := HeaderPage.UpdateRecord t.header_record t.next_page_id,
          pages := ((t.pages.write t.next_page_id (.internal
            { page_id := t.next_page_id, parent_page_id := INVALID_PAGE_ID,
              max_size := t.internal_max_size, array := [(0, old), (key, new)] })).write old
            (po.SetParentPageId t.next_page_id)).write new
            (pn.SetParentPageId t.next_page_id) }
        g old new key u hh po pn
        { page_id := t.next_page_id, parent_page_id := INVALID_PAGE_ID,
          max_size := t.internal_max_size, array := [(0, old), (key, new)] }
        0 hpo hpn hr rfl rfl rfl (fun x => rfl) rfl rfl
      refine ⟨_, g1, ?_, h1, h2, rfl, rfl⟩
      simp only [BPlusTree.InsertIntoParent, hpo, hpn, Page.IsRootPage, hroot, beq_self_eq_true,
        if_true, hido, hidn, InternalPage.Init, InternalPage.PopulateNewRoot, BPlusTree.write,
        BPlusTree.UpdateRootPageId]
      rfl
    · -- the split page has a parent
      have hnr : old ≠ t.root_page_id := fun h => hroot ((hh.isRoot_iff hpo).2 h)
      obtain ⟨n, hp, -⟩ := hh.listed old po hpo hnr hh.distinct.symm
      obtain ⟨h1, h2, h3⟩ := hh.insertNodeAfter hpo hnr hp
      have hunf : BPlusTree.InsertIntoParent (fuel + 1) t old key new =
          if (n.InsertNodeAfter old key new).GetSize < (n.InsertNodeAfter old key new).max_size + 1
          then .ok (t.write po.GetParentPageId (.internal (n.InsertNodeAfter old key new)))
          else
            match (t.write po.GetParentPageId
                (.internal (n.InsertNodeAfter old key new))).Split po.GetParentPageId with
            | .error e => .error e
            | .ok (t2, new_parent_id) =>
              match t2.pages new_parent_id with
              | some (.internal new_parent_node) =>
                match new_parent_node.KeyAt 0 with
                | none => .error .bad_access
                | some up_key =>
                  BPlusTree.InsertIntoParent fuel t2 po.GetParentPageId up_key new_parent_id
              | _ => .error .bad_access := by
        have hb : (po.GetParentPageId == INVALID_PAGE_ID) = false := by
          simp only [beq_eq_false_iff_ne, ne_eq]; exact hroot
        simp only [BPlusTree.InsertIntoParent, hpo, hpn, Page.IsRootPage, hb, hp, hido, hidn]
        rfl
      rw [hunf]
      by_cases hsz : (n.InsertNodeAfter old key new).GetSize <
          (n.InsertNodeAfter old key new).max_size + 1
      · rw [if_pos hsz]
        exact ⟨_, g, rfl, h1, h3, rfl, rfl⟩
      · rw [if_neg hsz]
        have hp1 : (t.write po.GetParentPageId
            (.internal (n.InsertNodeAfter old key new))).pages po.GetParentPageId =
            some (.internal (n.InsertNodeAfter old key new)) := by
          simp [BPlusTree.write_pages, Pool.write_apply]
        obtain ⟨t2, g1, nN, k, f1, f2, f3, f4, f5, f6, f7, f8, f9⟩ := Split_internal h1 hp1 h2
        rw [f1]
        simp only [BPlusTree.write] at f3 ⊢
        simp only [f3, f4]
        have hmeasure : g1.lvl t2.root_page_id < g1.lvl po.GetParentPageId + fuel := by
          have hfresh : t.pages t.next_page_id = none := Inv.fresh_none hh.toBase
          obtain ⟨pr, hr1, -, -⟩ := hh.rootPage
          obtain ⟨pg0, -, -, q1, q2, q3, -⟩ := (hh.parentOK po n hpo hp).child_exists
            (by
              obtain ⟨n1, w1, w2⟩ := hh.listed old po hpo hnr hh.distinct.symm
              rw [hp] at w1; cases w1; exact w2)
          rw [Ghost.setHi_lvl] at q3
          have e1 : g1.lvl t2.root_page_id = g.lvl t.root_page_id := by
            rw [f7]
            apply f5
            intro hc
            change t.root_page_id = t.next_page_id at hc
            rw [hc, hfresh] at hr1; cases hr1
          have e2 : g1.lvl po.GetParentPageId = g.lvl po.GetParentPageId := by
            apply f5
            intro hc
            change po.GetParentPageId = t.next_page_id at hc
            rw [hc, hfresh] at hp; cases hp
          rw [e1, e2]
          omega
        obtain ⟨t3, g3, r1, r2, r3, r4, r5⟩ := ih t2 g1 po.GetParentPageId _ k _ f2 hmeasure
        refine ⟨t3, g3, r1, r2, fun a b => (r3 a b).trans ((f6 a b).trans (h3 a b)), ?_, ?_⟩
        · rw [r4, f8]; rfl
        · rw [r5, f9]; rfl

/-- `InsertIntoLeaf` of a key that is already stored changes nothing and reports `false`. -/
theorem InsertIntoLeaf_dup {t : BPlusTree} {g : Ghost} (hinv : Inv t g) {key w : Int}
    (value : Int) (hst : Stored t key w) : t.InsertIntoLeaf key value = .ok (t, false) := by
  obtain ⟨q, l, h1, h2, h3⟩ := FindLeafPage_spec hinv key
  have hm : (key, w) ∈ l.array := (hinv.stored_leaf h2 h3 w).1 hst
  have hl : LeafPage.lookup l.array key = some w :=
    (lookup_eq_some (hinv.leafOK q l h2).2.2.1).2 hm
  simp only [BPlusTree.InsertIntoLeaf, h1, LeafPage.Lookup, hl, Option.isSome_some, if_true]

/-- `InsertIntoLeaf` of a new key returns `true`, keeps the tree well-formed and adds the
pair to the stored pairs. -/
theorem InsertIntoLeaf_new {t : BPlusTree} {g : Ghost} (hinv : Inv t g) {key : Int}
    (value : Int) (hfresh : ∀ w, ¬ Stored t key w) :
    ∃ t1 g1, t.InsertIntoLeaf key value = .ok (t1, true) ∧ Inv t1 g1 ∧
      (∀ k v, Stored t1 k v ↔ (k = key ∧ v = value) ∨ Stored t k v) ∧
      t1.leaf_max_size = t.leaf_max_size ∧ t1.internal_max_size = t.internal_max_size := by
  obtain ⟨q, l, h1, h2, h3⟩ := FindLeafPage_spec hinv key
  have hnm : ∀ w, (key, w) ∉ l.array := fun w hw => hfresh w ⟨q, l, h2, hw⟩
  have hl : LeafPage.lookup l.array key = none := lookup_eq_none.2 hnm
  obtain ⟨a1, a2, a3, a4, a5, a6⟩ := hinv.leafOK q l h2
  have hsorted := pairwise_insertSorted (v := value) hnm a3
  have hrange : ∀ kv ∈ LeafPage.insertSorted l.array key value,
      InRange (g.lo q) (g.hi q) kv.1 := by
    intro kv hkv
    rcases (mem_insertSorted hnm kv).1 hkv with h | h
    · rw [h]; exact h3
    · exact a4 kv h
  have hlen := length_insertSorted (v := value) hnm
  have hother : ∀ k v, (∃ x lx, x ≠ q ∧ t.pages x = some (.leaf lx) ∧ (k, v) ∈ lx.array) ∨
      (k, v) ∈ l.array ↔ Stored t k v := by
    intro k v
    constructor
    · rintro (⟨x, lx, -, hx, hm⟩ | hm)
      · exact ⟨x, lx, hx, hm⟩
      · exact ⟨q, l, h2, hm⟩
    · rintro ⟨x, lx, hx, hm⟩
      by_cases hxq : x = q
      · rw [hxq, h2] at hx; cases hx; exact Or.inr hm
      · exact Or.inl ⟨x, lx, hxq, hx, hm⟩
  by_cases hsz : (l.Insert key value).GetSize < t.leaf_max_size
  · -- no split
    refine ⟨t.write q (.leaf (l.Insert key value)), g, ?_, ?_, ?_, rfl, rfl⟩
    · simp only [BPlusTree.InsertIntoLeaf, h1, LeafPage.Lookup, hl, Option.isSome_none,
        Bool.false_eq_true, if_false, hsz, if_true]
    · refine hinv.writeLeaf h2 rfl rfl rfl ?_ hsorted hrange
      intro h
      have := congrArg List.length h
      simp only [LeafPage.Insert, hlen, List.length_nil] at this
      omega
    · intro k v
      rw [Stored.storedWriteLeaf h2]
      constructor
      · rintro (hm | hex)
        · rcases (mem_insertSorted hnm (k, v)).1 hm with h | h
          · exact Or.inl (Prod.mk.inj h)
          · exact Or.inr ((hother k v).1 (Or.inr h))
        · exact Or.inr ((hother k v).1 (Or.inl hex))
      · rintro (⟨hk, hv⟩ | hs)
        · exact Or.inl ((mem_insertSorted hnm _).2 (Or.inl (by rw [hk, hv])))
        · rcases (hother k v).2 hs with hex | hm
          · exact Or.inr hex
          · exact Or.inl ((mem_insertSorted hnm _).2 (Or.inr hm))
  · -- split
    have hlen2 : 2 ≤ (LeafPage.insertSorted l.array key value).length := by
      rw [hlen]
      have : l.array.length ≠ 0 := fun h => a2 (List.length_eq_zero.1 h)
      omega
    obtain ⟨kv1, xs, kv0, ys, htake, hdrop, happ⟩ := take_drop_half _ hlen2
    have hN : t.pages t.next_page_id = none := Inv.fresh_none hinv.toBase
    have hqN : q ≠ t.next_page_id := by intro h; rw [← h, h2] at hN; cases hN
    have hpw : ∀ x, (((t.pages.write q (.leaf (l.Insert key value))).write t.next_page_id
        (.leaf { page_id := t.next_page_id, parent_page_id := l.parent_page_id,
                 max_size := t.leaf_max_size, next_page_id := l.next_page_id,
                 array := kv0 :: ys })).write q
        (.leaf { l with array := kv1 :: xs, next_page_id := t.next_page_id })) x =
        if x = q then some (.leaf { l with array := kv1 :: xs, next_page_id := t.next_page_id })
        else if x = t.next_page_id then
          some (.leaf { page_id := t.next_page_id, parent_page_id := l.parent_page_id,
                        max_size := t.leaf_max_size, next_page_id := l.next_page_id,
                        array := kv0 :: ys })
        else t.pages x := by
      intro x
      simp only [Pool.write_apply]
      by_cases hx1 : x = q
      · simp only [hx1, if_true]
      · by_cases hx2 : x = t.next_page_id
        · simp only [hx1, hx2, if_false, if_true]
        · simp only [hx1, hx2, if_false]
    obtain ⟨g1, hh, hlvl⟩ := @leaf_split_hole t
      { t with
        next_page_id := t.next_page_id + 1,
        pages := ((t.pages.write q (.leaf (l.Insert key value))).write t.next_page_id
          (.leaf { page_id := t.next_page_id, parent_page_id := l.parent_page_id,
                   max_size := t.leaf_max_size, next_page_id := l.next_page_id,
                   array := kv0 :: ys })).write q
          (.leaf { l with array := kv1 :: xs, next_page_id := t.next_page_id }) }
      g q l
      { l with array := kv1 :: xs, next_page_id := t.next_page_id }
      { page_id := t.next_page_id, parent_page_id := l.parent_page_id,
        max_size := t.leaf_max_size, next_page_id := l.next_page_id, array := kv0 :: ys }
      (kv1 :: xs) ys kv0 hinv h2 hpw rfl rfl rfl rfl rfl rfl rfl rfl rfl rfl (by simp)
      (by rw [← happ]; exact hsorted) (by rw [← happ]; exact hrange)
    have hmeasure : g1.lvl t.root_page_id < g1.lvl q + (t.next_page_id + 1).toNat := by
      obtain ⟨pr, hr1, -, -⟩ := hinv.rootPage
      have e1 : g1.lvl t.root_page_id = g.lvl t.root_page_id := by
        apply hlvl; intro hc; rw [hc, hN] at hr1; cases hr1
      rw [e1]
      have := hinv.fuel
      have := (hinv.ids _ _ h2)
      omega
    obtain ⟨t3, g3, r1, r2, r3, r4, r5⟩ := InsertIntoParent_spec _ _ g1 q t.next_page_id kv0.1 _
      hh hmeasure
    refine ⟨t3, g3, ?_, r2, ?_, r4, r5⟩
    · simp only [BPlusTree.InsertIntoLeaf, h1, LeafPage.Lookup, hl, Option.isSome_none,
        Bool.false_eq_true, if_false, hsz]
      simp only [BPlusTree.Split, BPlusTree.write, Pool.write_apply, if_true,
        LeafPage.MoveHalfTo, LeafPage.Init, LeafPage.Insert, htake, hdrop, List.nil_append,
        LeafPage.KeyAt, List.get?_cons_zero, Option.map_some', BPlusTree.fuel]
      simp only [BPlusTree.write, LeafPage.Insert, BPlusTree.fuel] at r1
      rw [if_neg (Ne.symm hqN)]
      simp only [List.get?_cons_zero, Option.map_some']
      rw [r1]
    · intro k v
      rw [r3, Stored.leaf_split h2 hN hpw]
      have hmem : (k, v) ∈ (kv1 :: xs) ++ (kv0 :: ys) ↔
          (k, v) = (key, value) ∨ (k, v) ∈ l.array := by
        rw [← happ]; exact mem_insertSorted hnm _
      constructor
      · rintro (hm | hex)
        · rcases hmem.1 hm with h | h
          · exact Or.inl (Prod.mk.inj h)
          · exact Or.inr ((hother k v).1 (Or.inr h))
        · exact Or.inr ((hother k v).1 (Or.inl hex))
      · rintro (⟨hk, hv⟩ | hs)
        · exact Or.inl (hmem.2 (Or.inl (by rw [hk, hv])))
        · rcases (hother k v).2 hs with hex | hm
          · exact Or.inr hex
          · exact Or.inl (hmem.2 (Or.inr hm))

/-- `StartNewTree` on a pool without tree pages yields a well-formed one-leaf tree. -/
theorem StartNewTree_inv {t : BPlusTree} (hempty : ∀ q, t.pages q = none)
    (hnext : 0 < t.next_page_id) (key value : Int) :
    ∃ g, Inv (t.StartNewTree key value) g ∧
      ∀ k v, Stored (t.StartNewTree key value) k v ↔ k = key ∧ v = value := by
  have hp : ∀ x, (t.StartNewTree key value).pages x =
      if x = t.next_page_id then
        some (.leaf { page_id := t.next_page_id, parent_page_id := INVALID_PAGE_ID,
                      max_size := t.leaf_max_size, next_page_id := INVALID_PAGE_ID,
                      array := [(key, value)] })
      else none := by
    intro x
    simp only [BPlusTree.StartNewTree, BPlusTree.write, BPlusTree.UpdateRootPageId,
      Pool.write_apply, LeafPage.Init, LeafPage.Insert, LeafPage.insertSorted, hempty]
  have hroot : (t.StartNewTree key value).root_page_id = t.next_page_id := rfl
  have hnx : (t.StartNewTree key value).next_page_id = t.next_page_id + 1 := rfl
  have hcases : ∀ x pg, (t.StartNewTree key value).pages x = some pg →
      x = t.next_page_id ∧ pg = .leaf
        { page_id := t.next_page_id, parent_page_id := INVALID_PAGE_ID,
          max_size := t.leaf_max_size, next_page_id := INVALID_PAGE_ID,
          array := [(key, value)] } := by
    intro x pg hx
    rw [hp] at hx
    by_cases h : x = t.next_page_id
    · simp only [h, if_true, Option.some.injEq] at hx
      exact ⟨h, hx.symm⟩
    · simp only [h, if_false] at hx; cases hx
  refine ⟨{ lvl := fun _ => 0, lo := fun _ => none, hi := fun _ => none, pos := fun _ => 0 },
    ?_, ?_⟩
  · refine
      { ids := ?_, pid := ?_, leafOK := ?_, leafUniq := ?_, lvlRoot := fun _ _ _ => le_refl _,
        fuel := ?_, pos := ?_, rootPage := ?_, internalOK := ?_, listed := ?_, rootHi := rfl }
    · intro x pg hx
      obtain ⟨h1, -⟩ := hcases x pg hx
      rw [hnx, h1]; omega
    · intro x pg hx
      obtain ⟨h1, h2⟩ := hcases x pg hx
      rw [h1, h2]; rfl
    · intro x l hx
      obtain ⟨h1, h2⟩ := hcases x _ hx
      cases h2
      refine ⟨rfl, by simp, by simp, fun kv _ => InRange.none_none _, fun _ => rfl, ?_⟩
      intro h; exact absurd rfl h
    · intro x x1 l l1 k hx hx1 _ _
      rw [(hcases x _ hx).1, (hcases x1 _ hx1).1]
    · rw [hnx]; show 0 < _; omega
    · intro x l hx; rw [hnx]; show 0 < _; omega
    · rw [hroot]
      refine ⟨_, by rw [hp, if_pos rfl], ?_, rfl⟩
      rfl
    · intro x n hx
      obtain ⟨-, h2⟩ := hcases x _ hx
      cases h2
    · intro x pg hx hne
      exact absurd (hcases x pg hx).1 (by rw [hroot] at hne; exact hne)
  · intro k v
    constructor
    · rintro ⟨x, l, hx, hm⟩
      obtain ⟨-, h2⟩ := hcases x _ hx
      cases h2
      simpa using hm
    · rintro ⟨h1, h2⟩
      exact ⟨t.next_page_id, _, by rw [hp, if_pos rfl], by rw [h1, h2]; simp⟩

theorem Inv.root_ne_invalid {t : BPlusTree} {g : Ghost} (hinv : Inv t g) :
    t.root_page_id ≠ INVALID_PAGE_ID := by
  obtain ⟨pg, hroot, -, -⟩ := hinv.rootPage
  have := (hinv.ids _ _ hroot).1
  simp only [INVALID_PAGE_ID]; omega

theorem Inv.nextPos {t : BPlusTree} {g : Ghost} (hinv : Inv t g) : 0 < t.next_page_id := by
  obtain ⟨pg, hroot, -, -⟩ := hinv.rootPage
  have := hinv.ids _ _ hroot
  omega

theorem TreeInv.treeNextPos {t : BPlusTree} {m : Int → Option Int} (h : TreeInv t m) :
    0 < t.next_page_id := by
  rcases h with ⟨-, -, h, -⟩ | ⟨g, hinv, -⟩
  · exact h
  · exact hinv.nextPos

/-- `Insert` of a key that the tree does not hold. -/
theorem Insert_new {t : BPlusTree} {m : Int → Option Int} (h : TreeInv t m) {key : Int}
    (value : Int) (hk : m key = none) :
    ∃ t1 g1, t.Insert key value = .ok (t1, true) ∧ Inv t1 g1 ∧
      (∀ k v, Stored t1 k v ↔ (if k = key ∧ m k = none then some value else m k) = some v) ∧
      t1.leaf_max_size = t.leaf_max_size ∧ t1.internal_max_size = t.internal_max_size := by
  rcases h with ⟨h1, h2, h3, h4⟩ | ⟨g, hinv, hst⟩
  · obtain ⟨g1, e1, e2⟩ := StartNewTree_inv h2 h3 key value
    refine ⟨_, g1, by simp [BPlusTree.Insert, BPlusTree.IsEmpty, h1], e1, ?_, rfl, rfl⟩
    intro k v
    rw [e2]
    by_cases hkk : k = key
    · simp [hkk, h4]; exact eq_comm
    · simp [hkk, h4]
  · have hfresh : ∀ w, ¬ Stored t key w := by
      intro w hw; rw [hst, hk] at hw; cases hw
    obtain ⟨t1, g1, e1, e2, e3, e4, e5⟩ := InsertIntoLeaf_new hinv value hfresh
    have hne : (t.root_page_id == INVALID_PAGE_ID) = false := by
      simp only [beq_eq_false_iff_ne, ne_eq]; exact hinv.root_ne_invalid
    refine ⟨t1, g1, by simp only [BPlusTree.Insert, BPlusTree.IsEmpty, hne]; exact e1, e2, ?_,
      e4, e5⟩
    intro k v
    rw [e3, hst]
    by_cases hkk : k = key
    · subst hkk
      simp only [true_and, hk, and_self, if_true, Option.some.injEq]
      constructor
      · rintro (h | h)
        · exact h.symm
        · cases h
      · intro h; exact Or.inl h.symm
    · simp [hkk]

/-- `Insert` of a key that the tree holds returns `false` and changes nothing. -/
theorem Insert_dup {t : BPlusTree} {m : Int → Option Int} (h : TreeInv t m) {key w : Int}
    (value : Int) (hk : m key = some w) : t.Insert key value = .ok (t, false) := by
  rcases h with ⟨h1, h2, h3, h4⟩ | ⟨g, hinv, hst⟩
  · rw [h4] at hk; cases hk
  · have hne : (t.root_page_id == INVALID_PAGE_ID) = false := by
      simp only [beq_eq_false_iff_ne, ne_eq]; exact hinv.root_ne_invalid
    simp only [BPlusTree.Insert, BPlusTree.IsEmpty, hne]
    exact InsertIntoLeaf_dup hinv value ((hst key w).2 hk)

theorem TreeInv.of_inv {t : BPlusTree} {g : Ghost} {m : Int → Option Int} (hinv : Inv t g)
    (hst : ∀ k v, Stored t k v ↔ m k = some v) : TreeInv t m := Or.inr ⟨g, hinv, hst⟩

theorem TreeInv.new (L I : Int) : TreeInv (BPlusTree.new L I) (fun _ => none) :=
  Or.inl ⟨rfl, fun _ => rfl, by show (0 : Int) < 1; omega, fun _ => rfl⟩

/-- Every sequence of `Insert` calls runs through and keeps the tree well-formed; the pairs
stored afterwards are those of `insertAllSpec`. -/
theorem InsertAll_spec :
    ∀ (kvs : List (Int × Int)) (t : BPlusTree) (m : Int → Option Int), TreeInv t m →
      ∃ t1 bs, t.InsertAll kvs = .ok (t1, bs) ∧ TreeInv t1 (insertAllSpec m kvs) ∧
        t1.leaf_max_size = t.leaf_max_size ∧ t1.internal_max_size = t.internal_max_size ∧
        (kvs ≠ [] → ∃ g, Inv t1 g) ∧
        ((kvs.map Prod.fst).Nodup → (∀ kv ∈ kvs, m kv.1 = none) →
          bs = List.replicate kvs.length true) := by
  intro kvs
  induction kvs with
  | nil =>
    intro t m h
    exact ⟨t, [], rfl, h, rfl, rfl, fun h => absurd rfl h, fun _ _ => rfl⟩
  | cons kv rest ih =>
    intro t m h
    cases hk : m kv.1 with
    | none =>
      obtain ⟨t1, g1, e1, e2, e3, e4, e5⟩ := Insert_new h kv.2 hk
      obtain ⟨t2, bs, f1, f2, f3, f4, f5, f6⟩ := ih t1 _ (TreeInv.of_inv e2 e3)
      refine ⟨t2, true :: bs, by simp only [BPlusTree.InsertAll, e1, f1], f2, f3.trans e4,
        f4.trans e5, ?_, ?_⟩
      · intro _
        rcases f2 with ⟨a1, a2, -, -⟩ | ⟨g, hg, -⟩
        · exfalso
          cases rest with
          | nil =>
            simp only [BPlusTree.InsertAll, Except.ok.injEq, Prod.mk.injEq] at f1
            rw [← f1.1] at a1
            exact e2.root_ne_invalid a1
          | cons x xs => obtain ⟨g, hg⟩ := f5 (by simp); exact hg.root_ne_invalid a1
        · exact ⟨g, hg⟩
      · intro hnd hnone
        simp only [List.map_cons, List.nodup_cons] at hnd
        rw [f6 hnd.2 (fun x hx => by
          have h1 : x.1 ≠ kv.1 := by
            intro h2; apply hnd.1; rw [← h2]; exact List.mem_map_of_mem _ hx
          simp only [h1, false_and, if_false]
          exact hnone x (List.mem_cons_of_mem _ hx))]
        rfl
    | some w =>
      have e1 := Insert_dup h kv.2 hk
      have hm : (fun k => if k = kv.1 ∧ m k = none then some kv.2 else m k) = m := by
        funext k
        by_cases hkk : k = kv.1
        · subst hkk; simp [hk]
        · simp [hkk]
      obtain ⟨t2, bs, f1, f2, f3, f4, f5, f6⟩ := ih t m h
      refine ⟨t2, false :: bs, by simp only [BPlusTree.InsertAll, e1, f1], ?_, f3, f4, ?_, ?_⟩
      · show TreeInv t2 (insertAllSpec _ rest)
        rw [hm]; exact f2
      · intro _
        rcases h with ⟨-, -, -, a4⟩ | ⟨g, hg, -⟩
        · rw [a4] at hk; cases hk
        · rcases f2 with ⟨a1, a2, -, -⟩ | ⟨g2, hg2, -⟩
          · exfalso
            cases rest with
            | nil =>
              simp only [BPlusTree.InsertAll, Except.ok.injEq, Prod.mk.injEq] at f1
              rw [← f1.1] at a1
              exact hg.root_ne_invalid a1
            | cons x xs => obtain ⟨g3, hg3⟩ := f5 (by simp); exact hg3.root_ne_invalid a1
          · exact ⟨g2, hg2⟩
      · intro _ hnone
        have := hnone kv (by simp)
        rw [hk] at this; cases this

theorem insertAllSpec_eq :
    ∀ (kvs : List (Int × Int)) (m : Int → Option Int) (k : Int),
      insertAllSpec m kvs k = match m k with
        | some v => some v
        | none => kvs.lookup k := by
  intro kvs
  induction kvs with
  | nil => intro m k; simp only [insertAllSpec, List.lookup]; cases m k <;> rfl
  | cons kv rest ih =>
    intro m k
    obtain ⟨a, b⟩ := kv
    simp only [insertAllSpec, ih]
    by_cases hk : k = a
    · subst hk
      cases hm : m k with
      | none => simp [List.lookup]
      | some v => simp [hm]
    · cases hm : m k with
      | none =>
        have : (k == a) = false := by simp [hk]
        simp [hk, hm, List.lookup, this]
      | some v => simp [hk, hm]

theorem insertAllSpec_none (kvs : List (Int × Int)) (k : Int) :
    insertAllSpec (fun _ => none) kvs k = kvs.lookup k := by
  rw [insertAllSpec_eq]

/-- `GetValue` of a stored key returns `true` and appends the stored value. -/
theorem GetValue_found {t : BPlusTree} {g : Ghost} (hinv : Inv t g) {k v : Int}
    (hst : Stored t k v) (r : List Int) : t.GetValue k r = .ok (t, true, r ++ [v]) := by
  obtain ⟨q, l, h1, h2, h3⟩ := FindLeafPage_spec hinv k
  have hm : (k, v) ∈ l.array := (hinv.stored_leaf h2 h3 v).1 hst
  have hl : LeafPage.lookup l.array k = some v :=
    (lookup_eq_some (hinv.leafOK q l h2).2.2.1).2 hm
  simp only [BPlusTree.GetValue, h1, LeafPage.Lookup, hl]

/-- `GetValue` of a key that is not stored returns `false` and appends nothing. -/
theorem GetValue_absent {t : BPlusTree} {g : Ghost} (hinv : Inv t g) {k : Int}
    (hst : ∀ w, ¬ Stored t k w) (r : List Int) : t.GetValue k r = .ok (t, false, r) := by
  obtain ⟨q, l, h1, h2, h3⟩ := FindLeafPage_spec hinv k
  have hl : LeafPage.lookup l.array k = none :=
    lookup_eq_none.2 (fun w hw => hst w ⟨q, l, h2, hw⟩)
  simp only [BPlusTree.GetValue, h1, LeafPage.Lookup, hl]

theorem BPlusTree.write_self {t : BPlusTree} {q : Int} {p : Page} (h : t.pages q = some p) :
    t.write q p = t := by
  have : t.pages.write q p = t.pages := by
    funext x
    rw [Pool.write_apply]
    by_cases hx : x = q
    · rw [if_pos hx, hx, h]
    · rw [if_neg hx]
  simp only [BPlusTree.write, this]

/-- `Remove` of a key that is not stored changes neither the tree nor the transaction. -/
theorem Remove_absent {t : BPlusTree} {g : Ghost} (hinv : Inv t g) {k : Int}
    (hst : ∀ w, ¬ Stored t k w) (txn : Transaction) : t.Remove k txn = .ok (t, txn) := by
  obtain ⟨q, l, h1, h2, h3⟩ := FindLeafPage_spec hinv k
  have hrm : LeafPage.removeKey l.array k = l.array :=
    removeKey_of_not_mem (fun w hw => hst w ⟨q, l, h2, hw⟩)
  have hl : l.RemoveAndDeleteRecord k = l := by
    simp only [LeafPage.RemoveAndDeleteRecord, hrm]
  simp only [BPlusTree.Remove, h1, hl, if_true, BPlusTree.write_self h2]

/-- Keys of a list of pairs with distinct keys: `lookup` finds exactly the listed pairs. -/
theorem lookup_eq_some_iff_mem :
    ∀ (kvs : List (Int × Int)), (kvs.map Prod.fst).Nodup → ∀ k v,
      kvs.lookup k = some v ↔ (k, v) ∈ kvs := by
  intro kvs
  induction kvs with
  | nil => intro _ k v; simp [List.lookup]
  | cons kv rest ih =>
    intro hnd k v
    obtain ⟨a, b⟩ := kv
    simp only [List.map_cons, List.nodup_cons] at hnd
    by_cases hk : k = a
    · subst hk
      simp only [List.lookup, beq_self_eq_true, Option.some.injEq, List.mem_cons,
        Prod.mk.injEq, true_and]
      constructor
      · intro h; exact Or.inl h.symm
      · rintro (h | h)
        · exact h.symm
        · exact absurd (List.mem_map_of_mem Prod.fst h) hnd.1
    · have : (k == a) = false := by simp [hk]
      simp only [List.lookup, this, ih hnd.2, List.mem_cons, Prod.mk.injEq, hk, false_and,
        false_or]

theorem lookup_eq_none_iff :
    ∀ (kvs : List (Int × Int)) (k : Int), kvs.lookup k = none ↔ k ∉ kvs.map Prod.fst := by
  intro kvs
  induction kvs with
  | nil => intro k; simp [List.lookup]
  | cons kv rest ih =>
    intro k
    obtain ⟨a, b⟩ := kv
    by_cases hk : k = a
    · subst hk; simp [List.lookup]
    · have : (k == a) = false := by simp [hk]
      simp only [List.lookup, this, ih, List.map_cons, List.mem_cons, hk, false_or]

/-- Trees built by a sequence of `Insert` calls on a new tree: the calls run through, and
the result is well-formed and stores for each key the value of its first insertion. -/
theorem build_spec (L I : Int) (kvs : List (Int × Int)) :
    ∃ t bs, (BPlusTree.new L I).InsertAll kvs = .ok (t, bs) ∧
      (kvs = [] → t = BPlusTree.new L I) ∧
      (kvs ≠ [] → ∃ g, Inv t g ∧ ∀ k v, Stored t k v ↔ kvs.lookup k = some v) ∧
      TreeInv t (fun k => kvs.lookup k) ∧
      ((kvs.map Prod.fst).Nodup → bs = List.replicate kvs.length true) := by
  obtain ⟨t, bs, h1, h2, -, -, h5, h6⟩ := InsertAll_spec kvs _ _ (TreeInv.new L I)
  have hm : insertAllSpec (fun _ => none) kvs = fun k => kvs.lookup k := by
    funext k; exact insertAllSpec_none kvs k
  rw [hm] at h2
  refine ⟨t, bs, h1, ?_, ?_, h2, fun hnd => h6 hnd (fun _ _ => rfl)⟩
  · intro he
    subst he
    simp only [BPlusTree.InsertAll, Except.ok.injEq, Prod.mk.injEq] at h1
    exact h1.1.symm
  · intro hne
    obtain ⟨g, hg⟩ := h5 hne
    rcases h2 with ⟨a1, -, -, -⟩ | ⟨g2, hg2, hst⟩
    · exact absurd a1 hg.root_ne_invalid
    · exact ⟨g2, hg2, hst⟩

/-! ## Iteration along the sibling chain -/

theorem chain_exists {t : BPlusTree} {g : Ghost} (hinv : Inv t g) :
    ∀ (d : Nat) (q : Int) (l : LeafPage), t.pages q = some (.leaf l) →
      t.next_page_id.toNat - g.pos q ≤ d → ∃ qe es, ChainFrom t.pages q qe es := by
  intro d
  induction d with
  | zero =>
    intro q l hq hd
    have := hinv.pos q l hq
    omega
  | succ d ih =>
    intro q l hq hd
    by_cases hn : l.next_page_id = INVALID_PAGE_ID
    · exact ⟨q, l.array, ChainFrom.last q l hq hn⟩
    · obtain ⟨l1, b, e1, e2, e3, e4⟩ := (hinv.leafOK q l hq).2.2.2.2.2 hn
      have := hinv.pos _ l1 e1
      obtain ⟨qe, es, hc⟩ := ih _ l1 e1 (by omega)
      exact ⟨qe, l.array ++ es, ChainFrom.cons q qe l es hq hn hc⟩

theorem endLoop_spec {t : BPlusTree} {g : Ghost} (hinv : Inv t g) {q qe : Int}
    {es : List (Int × Int)} (hc : ChainFrom t.pages q qe es) :
    ∀ (l : LeafPage) (fuel : Nat), t.pages q = some (.leaf l) →
      t.next_page_id.toNat - g.pos q ≤ fuel →
      ∃ le, t.pages qe = some (.leaf le) ∧ le.next_page_id = INVALID_PAGE_ID ∧
        BPlusTree.endLoop t.pages fuel q l = .ok { page_id := qe, index := le.GetSize } := by
  induction hc with
  | last q l0 hq hn =>
    intro l fuel hl hf
    rw [hq] at hl; cases hl
    have := hinv.pos q l0 hq
    obtain ⟨f, rfl⟩ : ∃ f, fuel = f + 1 := ⟨fuel - 1, by omega⟩
    exact ⟨l0, hq, hn, by simp only [BPlusTree.endLoop, hn, ne_eq, not_true_eq_false, if_false]⟩
  | cons q qe l0 es hq hn _ ih =>
    intro l fuel hl hf
    rw [hq] at hl; cases hl
    have := hinv.pos q l0 hq
    obtain ⟨f, rfl⟩ : ∃ f, fuel = f + 1 := ⟨fuel - 1, by omega⟩
    obtain ⟨l1, b, e1, e2, e3, e4⟩ := (hinv.leafOK q l0 hq).2.2.2.2.2 hn
    have := hinv.pos _ l1 e1
    obtain ⟨le, h1, h2, h3⟩ := ih l1 f e1 (by omega)
    refine ⟨le, h1, h2, ?_⟩
    simp only [BPlusTree.endLoop, hn, ne_eq, not_false_eq_true, if_true, e1]
    exact h3

theorem scanLoop_at_end {t : BPlusTree} {qe : Int} {le : LeafPage}
    (hqe : t.pages qe = some (.leaf le)) (fuel : Nat) :
    BPlusTree.scanLoop t { page_id := qe, index := le.GetSize } (fuel + 1)
      { page_id := qe, index := le.GetSize } = .ok [] := by
  simp [BPlusTree.scanLoop, IndexIterator.ne, IndexIterator.eq, hqe]

theorem scanLoop_step {t : BPlusTree} {g : Ghost} (hinv : Inv t g) {q qe : Int}
    {l le : LeafPage} (hq : t.pages q = some (.leaf l)) (hqe : t.pages qe = some (.leaf le))
    (hle : le.next_page_id = INVALID_PAGE_ID) {i : Nat} {kv : Int × Int}
    (hi : l.array.get? i = some kv) (fuel : Nat) :
    BPlusTree.scanLoop t { page_id := qe, index := le.GetSize } (fuel + 1)
      { page_id := q, index := i } =
      match BPlusTree.scanLoop t { page_id := qe, index := le.GetSize } fuel
        (if l.next_page_id ≠ INVALID_PAGE_ID ∧ i + 1 = l.array.length then
          { page_id := l.next_page_id, index := 0 }
         else { page_id := q, index := ((i + 1 : Nat) : Int) }) with
      | .error e => .error e
      | .ok rest => .ok (kv :: rest) := by
  have hlt : i < l.array.length := by
    rw [List.get?_eq_some] at hi; obtain ⟨h, -⟩ := hi; exact h
  have hne : IndexIterator.ne t { page_id := q, index := i }
      { page_id := qe, index := le.GetSize } = .ok true := by
    simp only [IndexIterator.ne, IndexIterator.eq, hq, hqe, Page.GetPageId]
    have h1 := hinv.pid _ _ hq
    have h2 := hinv.pid _ _ hqe
    simp only [Page.GetPageId] at h1 h2
    rw [h1, h2]
    by_cases hqq : q = qe
    · subst hqq
      rw [hq] at hqe; cases hqe
      have : ((i : Int) == l.GetSize) = false := by
        simp only [beq_eq_false_iff_ne, ne_eq, LeafPage.GetSize]; omega
      simp [this]
    · have : (q == qe) = false := by simp [hqq]
      simp [this]
  have hderef : IndexIterator.deref t { page_id := q, index := i } = .ok kv := by
    simp only [IndexIterator.deref, hq, LeafPage.GetItem, Int.toNat_ofNat, hi]
    simp
  by_cases hcond : l.next_page_id ≠ INVALID_PAGE_ID ∧ i + 1 = l.array.length
  · obtain ⟨l1, b, e1, -⟩ := (hinv.leafOK q l hq).2.2.2.2.2 hcond.1
    have hnext : IndexIterator.next t { page_id := q, index := i } =
        .ok { page_id := l.next_page_id, index := 0 } := by
      have : ((i : Int) + 1 = l.GetSize) := by simp only [LeafPage.GetSize]; omega
      simp only [IndexIterator.next, hq, hcond.1, ne_eq, not_false_eq_true, this, and_self,
        if_true, e1]
    simp only [BPlusTree.scanLoop, hne, hderef, hnext, if_pos hcond]
  · have hnext : IndexIterator.next t { page_id := q, index := i } =
        .ok { page_id := q, index := ((i + 1 : Nat) : Int) } := by
      have : ¬ (l.next_page_id ≠ INVALID_PAGE_ID ∧ (i : Int) + 1 = l.GetSize) := by
        intro h; apply hcond
        refine ⟨h.1, ?_⟩
        have := h.2
        simp only [LeafPage.GetSize] at this; omega
      simp only [IndexIterator.next, hq, this, if_false]
      simp
    simp only [BPlusTree.scanLoop, hne, hderef, hnext, if_neg hcond]

theorem drop_of_get? {α : Type} :
    ∀ (xs : List α) (i : Nat) (x : α), xs.get? i = some x → xs.drop i = x :: xs.drop (i + 1) := by
  intro xs
  induction xs with
  | nil => intro i x h; simp at h
  | cons y ys ih =>
    intro i x h
    cases i with
    | zero =>
      simp only [List.get?_cons_zero, Option.some.injEq] at h
      simp [h]
    | succ i =>
      simp only [List.get?_cons_succ] at h
      simpa using ih i x h

/-- The scan of one leaf from index `i` on, followed by the scan of the rest of the chain. -/
theorem scanLoop_leaf {t : BPlusTree} {g : Ghost} (hinv : Inv t g) {q qe : Int}
    {l le : LeafPage} (hq : t.pages q = some (.leaf l)) (hqe : t.pages qe = some (.leaf le))
    (hle : le.next_page_id = INVALID_PAGE_ID) (rest : List (Int × Int))
    (hlast : l.next_page_id = INVALID_PAGE_ID → q = qe ∧ rest = [])
    (hcont : l.next_page_id ≠ INVALID_PAGE_ID → ∀ f, rest.length < f →
      BPlusTree.scanLoop t { page_id := qe, index := le.GetSize } f
        { page_id := l.next_page_id, index := 0 } = .ok rest) :
    ∀ (n i fuel : Nat), l.array.length - i = n → i < l.array.length →
      (l.array.length - i) + rest.length < fuel →
      BPlusTree.scanLoop t { page_id := qe, index := le.GetSize } fuel
        { page_id := q, index := i } = .ok (l.array.drop i ++ rest) := by
  intro n
  induction n with
  | zero => intro i fuel h1 h2; omega
  | succ n ih =>
    intro i fuel h1 h2 h3
    obtain ⟨f, rfl⟩ : ∃ f, fuel = f + 1 := ⟨fuel - 1, by omega⟩
    obtain ⟨kv, hkv⟩ : ∃ kv, l.array.get? i = some kv :=
      ⟨l.array.get ⟨i, h2⟩, List.get?_eq_get h2⟩
    rw [scanLoop_step hinv hq hqe hle hkv f, drop_of_get? _ _ _ hkv]
    by_cases hend : i + 1 = l.array.length
    · have hdrop : l.array.drop (i + 1) = [] := by
        rw [hend]; exact List.drop_length _
      rw [hdrop]
      by_cases hn : l.next_page_id = INVALID_PAGE_ID
      · obtain ⟨e1, e2⟩ := hlast hn
        subst e1
        rw [hq] at hqe; cases hqe
        have hc : ¬ (l.next_page_id ≠ INVALID_PAGE_ID ∧ i + 1 = l.array.length) :=
          fun h => h.1 hn
        rw [if_neg hc, e2]
        have hidx : ((i + 1 : Nat) : Int) = l.GetSize := by
          simp only [LeafPage.GetSize]; omega
        rw [hidx]
        obtain ⟨f1, rfl⟩ : ∃ f1, f = f1 + 1 := ⟨f - 1, by omega⟩
        rw [scanLoop_at_end hq]
        rfl
      · rw [if_pos ⟨hn, hend⟩, hcont hn f (by omega)]
        rfl
    · have hc : ¬ (l.next_page_id ≠ INVALID_PAGE_ID ∧ i + 1 = l.array.length) :=
        fun h => hend h.2
      rw [if_neg hc, ih (i + 1) f (by omega) (by omega) (by omega)]
      rfl

theorem scanLoop_spec {t : BPlusTree} {g : Ghost} (hinv : Inv t g) {q qe : Int}
    {es : List (Int × Int)} (hc : ChainFrom t.pages q qe es) {le : LeafPage}
    (hqe : t.pages qe = some (.leaf le)) (hle : le.next_page_id = INVALID_PAGE_ID) :
    ∀ f, es.length < f →
      BPlusTree.scanLoop t { page_id := qe, index := le.GetSize } f
        { page_id := q, index := 0 } = .ok es := by
  induction hc with
  | last q l hq hn =>
    intro f hf
    have hne : l.array ≠ [] := (hinv.leafOK q l hq).2.1
    have hpos : 0 < l.array.length := List.length_pos.2 hne
    have := scanLoop_leaf hinv hq hqe hle [] (fun _ => ⟨rfl, rfl⟩)
      (fun h => absurd hn h) _ 0 f rfl hpos (by simpa using hf)
    simpa using this
  | cons q qe l es hq hn _ ih =>
    intro f hf
    have hne : l.array ≠ [] := (hinv.leafOK q l hq).2.1
    have hpos : 0 < l.array.length := List.length_pos.2 hne
    have := scanLoop_leaf hinv hq hqe hle es (fun h => absurd h hn)
      (fun _ f1 hf1 => ih hqe f1 hf1) _ 0 f rfl hpos (by simpa using hf)
    simpa using this

theorem chain_sound {t : BPlusTree} {q qe : Int} {es : List (Int × Int)}
    (hc : ChainFrom t.pages q qe es) : ∀ k v, (k, v) ∈ es → Stored t k v := by
  induction hc with
  | last q l hq hn => intro k v h; exact ⟨q, l, hq, h⟩
  | cons q qe l es hq hn _ ih =>
    intro k v h
    rcases List.mem_append.1 h with h | h
    · exact ⟨q, l, hq, h⟩
    · exact ih k v h

theorem chain_sorted {t : BPlusTree} {g : Ghost} (hinv : Inv t g) {q qe : Int}
    {es : List (Int × Int)} (hc : ChainFrom t.pages q qe es) :
    es.Pairwise (fun a b => a.1 < b.1) ∧ ∀ kv ∈ es, ∀ a, g.lo q = some a → a ≤ kv.1 := by
  induction hc with
  | last q l hq hn =>
    obtain ⟨-, -, a3, a4, -, -⟩ := hinv.leafOK q l hq
    exact ⟨a3, fun kv hkv a ha => (a4 kv hkv).1 a ha⟩
  | cons q qe l es hq hn _ ih =>
    obtain ⟨-, -, a3, a4, -, a6⟩ := hinv.leafOK q l hq
    obtain ⟨l1, b, e1, e2, e3, e4⟩ := a6 hn
    refine ⟨List.pairwise_append.2 ⟨a3, ih.1, ?_⟩, ?_⟩
    · intro x hx y hy
      have h1 := (a4 x hx).2 b e2
      have h2 := ih.2 y hy b e3
      omega
    · intro kv hkv a ha
      rcases List.mem_append.1 hkv with h | h
      · exact (a4 kv h).1 a ha
      · have h1 := ih.2 kv h b e3
        have h2 := (hinv.leafOK q l hq).2.1
        obtain ⟨x, hx⟩ := List.exists_mem_of_ne_nil _ h2
        have h3 := (a4 x hx).1 a ha
        have h4 := (a4 x hx).2 b e2
        omega

theorem chain_complete {t : BPlusTree} {g : Ghost} (hinv : Inv t g) {q qe : Int}
    {es : List (Int × Int)} (hc : ChainFrom t.pages q qe es) :
    ∀ k v, Stored t k v → (∀ a, g.lo q = some a → a ≤ k) → (k, v) ∈ es := by
  induction hc with
  | last q l hq hn =>
    intro k v hst hlo
    have hhi := (hinv.leafOK q l hq).2.2.2.2.1 hn
    exact (hinv.stored_leaf hq ⟨hlo, fun b hb => by rw [hhi] at hb; cases hb⟩ v).1 hst
  | cons q qe l es hq hn _ ih =>
    intro k v hst hlo
    obtain ⟨l1, b, e1, e2, e3, e4⟩ := (hinv.leafOK q l hq).2.2.2.2.2 hn
    by_cases hk : k < b
    · refine List.mem_append.2 (Or.inl ?_)
      exact (hinv.stored_leaf hq
        ⟨hlo, fun b1 hb1 => by rw [e2] at hb1; cases hb1; exact hk⟩ v).1 hst
    · refine List.mem_append.2 (Or.inr (ih k v hst ?_))
      intro a ha
      rw [e3] at ha; cases ha
      omega

/-- The loop from `begin()` to `end()` over a well-formed tree visits the stored pairs in
strictly ascending key order. -/
theorem scan_spec {t : BPlusTree} {g : Ghost} (hinv : Inv t g) :
    ∃ es, (∀ fuel, es.length < fuel → t.scan fuel = .ok es) ∧
      es.Pairwise (fun a b => a.1 < b.1) ∧ ∀ k v, (k, v) ∈ es ↔ Stored t k v := by
  obtain ⟨q, l, h1, h2, h3⟩ := FindLeafPage_leftMost hinv 0
  have hpos := hinv.pos q l h2
  obtain ⟨qe, es, hc⟩ := chain_exists hinv _ q l h2 (le_refl _)
  obtain ⟨le, e1, e2, e3⟩ := endLoop_spec hinv hc l t.fuel h2 (by
    simp only [BPlusTree.fuel]; omega)
  refine ⟨es, ?_, (chain_sorted hinv hc).1, fun k v => ⟨chain_sound hc k v, fun hst =>
    chain_complete hinv hc k v hst (fun a ha => by rw [h3] at ha; cases ha)⟩⟩
  intro fuel hf
  simp only [BPlusTree.scan, BPlusTree.begin, BPlusTree.end_, h1, e3]
  exact scanLoop_spec hinv hc e1 e2 fuel hf

/-- The descent does not read leaf contents: after a leaf is overwritten by a leaf, it
ends at the same page. -/
theorem findLeafLoop_write_leaf {pages : Pool} {q : Int} {l l1 : LeafPage}
    (hq : pages q = some (.leaf l)) (key : Int) (lm : Bool) :
    ∀ (fuel : Nat) (x : Int),
      BPlusTree.findLeafLoop (pages.write q (.leaf l1)) key lm fuel x =
        match BPlusTree.findLeafLoop pages key lm fuel x with
        | .ok r => .ok (r.1, if r.1 = q then l1 else r.2)
        | .error e => .error e := by
  intro fuel
  induction fuel with
  | zero => intro x; rfl
  | succ fuel ih =>
    intro x
    by_cases hx : x = q
    · subst hx
      simp only [BPlusTree.findLeafLoop, Pool.write_apply, if_true, hq]
    · simp only [BPlusTree.findLeafLoop, Pool.write_apply, if_neg hx]
      cases hp : pages x with
      | none => rfl
      | some pg =>
        cases pg with
        | leaf lx => simp only [if_neg hx]
        | internal n =>
          simp only
          cases hc : (if lm = true then n.ValueAt 0 else n.Lookup key) with
          | none => rfl
          | some c => simp only [ih c]

/-- `Remove` of a stored key whose leaf is the root or keeps its minimum size touches that
leaf only; `GetValue` then reports the key as absent. -/
theorem Remove_leaf_only {t : BPlusTree} {g : Ghost} (hinv : Inv t g) {k v q : Int}
    {l : LeafPage} (hfind : t.FindLeafPage k false = .ok (q, l))
    (hq : t.pages q = some (.leaf l)) (hmem : (k, v) ∈ l.array)
    (hcase : (l.IsRootPage = true ∧ 2 ≤ l.array.length) ∨
      (l.IsRootPage = false ∧ l.GetMinSize ≤ l.GetSize - 1)) :
    ∃ t2, t.Remove k { deleted_page_set := [] } = .ok (t2, { deleted_page_set := [] }) ∧
      (∀ r, t2.GetValue k r = .ok (t2, false, r)) ∧ t2.root_page_id = t.root_page_id := by
  have hsorted := (hinv.leafOK q l hq).2.2.1
  have hlen := length_removeKey_of_mem hmem
  have hfuel : ∃ f, t.fuel = f + 1 := by
    have := hinv.nextPos
    exact ⟨t.fuel - 1, by simp only [BPlusTree.fuel]; omega⟩
  obtain ⟨f, hf⟩ := hfuel
  have hw : (t.write q (.leaf (l.RemoveAndDeleteRecord k))).pages q =
      some (.leaf (l.RemoveAndDeleteRecord k)) := by
    simp [BPlusTree.write_pages, Pool.write_apply]
  have hsz : (l.RemoveAndDeleteRecord k).GetSize ≠ l.GetSize := by
    simp only [LeafPage.GetSize, LeafPage.RemoveAndDeleteRecord]; omega
  have hcor : BPlusTree.CoalesceOrRedistribute (f + 1)
      (t.write q (.leaf (l.RemoveAndDeleteRecord k))) q { deleted_page_set := [] } =
      .ok (t.write q (.leaf (l.RemoveAndDeleteRecord k)), { deleted_page_set := [] }, false) := by
    rcases hcase with ⟨h1, h2⟩ | ⟨h1, h2⟩
    · have hr : (Page.leaf (l.RemoveAndDeleteRecord k)).IsRootPage = true := by
        simpa [Page.IsRootPage, Page.GetParentPageId, LeafPage.RemoveAndDeleteRecord,
          LeafPage.IsRootPage] using h1
      have hs0 : (l.RemoveAndDeleteRecord k).GetSize ≠ 0 := by
        simp only [LeafPage.GetSize, LeafPage.RemoveAndDeleteRecord]; omega
      simp only [BPlusTree.CoalesceOrRedistribute, hw, hr, if_true, BPlusTree.AdjustRoot, hs0,
        if_false]
    · have hr : (Page.leaf (l.RemoveAndDeleteRecord k)).IsRootPage = false := by
        simpa [Page.IsRootPage, Page.GetParentPageId, LeafPage.RemoveAndDeleteRecord,
          LeafPage.IsRootPage] using h1
      have hs : (Page.leaf (l.RemoveAndDeleteRecord k)).GetSize ≥
          (Page.leaf (l.RemoveAndDeleteRecord k)).GetMinSize := by
        simp only [Page.GetSize, Page.GetMinSize, LeafPage.GetSize, LeafPage.GetMinSize,
          LeafPage.RemoveAndDeleteRecord] at h2 ⊢
        omega
      simp only [BPlusTree.CoalesceOrRedistribute, hw, hr, Bool.false_eq_true, if_false, hs,
        if_true]
  refine ⟨t.write q (.leaf (l.RemoveAndDeleteRecord k)), ?_, ?_, rfl⟩
  · simp only [BPlusTree.Remove, hfind, hsz, if_false]
    have : (t.write q (.leaf (l.RemoveAndDeleteRecord k))).fuel = f + 1 := hf
    rw [this, hcor]
    rfl
  · intro r
    have hne := hinv.root_ne_invalid
    have h1 : (t.write q (.leaf (l.RemoveAndDeleteRecord k))).FindLeafPage k false =
        .ok (q, l.RemoveAndDeleteRecord k) := by
      simp only [BPlusTree.FindLeafPage, BPlusTree.write, hne, if_false] at hfind ⊢
      have := @findLeafLoop_write_leaf t.pages q l (l.RemoveAndDeleteRecord k) hq k false t.fuel
        t.root_page_id
      rw [hfind] at this
      simp only [if_true] at this
      exact this
    have hl : LeafPage.lookup (l.RemoveAndDeleteRecord k).array k = none := by
      apply lookup_eq_none.2
      intro w hw1
      exact ((mem_removeKey hsorted (k, w)).1 hw1).2 rfl
    simp only [BPlusTree.GetValue, h1, LeafPage.Lookup, hl]

/-- A tree that holds one pair becomes empty when its key is removed; `GetValue` on the
empty tree raises the runtime error of the descent. -/
theorem insert_remove_empty (t : BPlusTree) (hroot : t.root_page_id = INVALID_PAGE_ID)
    (hnext : 0 ≤ t.next_page_id) (k v : Int) (r : List Int) :
    ∃ t1 t2, t.Insert k v = .ok (t1, true) ∧
      t1.Remove k { deleted_page_set := [] } = .ok (t2, { deleted_page_set := [] }) ∧
      t2.IsEmpty = true ∧ t2.GetValue k r = .error .runtime_error := by
  have hne : t.next_page_id ≠ INVALID_PAGE_ID := by simp only [INVALID_PAGE_ID]; omega
  have hfuel : ∃ f, (t.next_page_id + 1).toNat = f + 1 :=
    ⟨(t.next_page_id + 1).toNat - 1, by omega⟩
  obtain ⟨f, hf⟩ := hfuel
  have hrem : ∃ t2, (t.StartNewTree k v).Remove k { deleted_page_set := [] } =
      .ok (t2, { deleted_page_set := [] }) ∧ t2.root_page_id = INVALID_PAGE_ID := by
    simp only [BPlusTree.Remove, BPlusTree.FindLeafPage, BPlusTree.StartNewTree,
      BPlusTree.write, BPlusTree.UpdateRootPageId, hne, if_false, BPlusTree.fuel, hf,
      BPlusTree.findLeafLoop, Pool.write_apply, if_true, LeafPage.Init, LeafPage.Insert,
      LeafPage.insertSorted, LeafPage.RemoveAndDeleteRecord, LeafPage.removeKey,
      LeafPage.GetSize, List.length_nil, List.length_singleton, Nat.cast_zero, Nat.cast_one,
      zero_ne_one, BPlusTree.CoalesceOrRedistribute, Page.IsRootPage, Page.GetParentPageId,
      beq_self_eq_true, BPlusTree.AdjustRoot, Transaction.AddIntoDeletedPageSet,
      List.nil_append, List.foldl_cons, List.foldl_nil]
    exact ⟨_, rfl, rfl⟩
  obtain ⟨t2, h1, h2⟩ := hrem
  refine ⟨t.StartNewTree k v, t2, by simp [BPlusTree.Insert, BPlusTree.IsEmpty, hroot], h1, ?_, ?_⟩
  · simp [BPlusTree.IsEmpty, h2]
  · simp [BPlusTree.GetValue, BPlusTree.FindLeafPage, h2]

/-- The driver `build` always produces a tree, and that tree is well formed and stores, for
each key, the first value inserted for it. -/
theorem build_ok (L I : Int) (kvs : List (Int × Int)) :
    ∃ t bs, (BPlusTree.new L I).InsertAll kvs = .ok (t, bs) ∧ build L I kvs = .ok t ∧
      (kvs = [] → t = BPlusTree.new L I) ∧
      (kvs ≠ [] → ∃ g, Inv t g ∧ ∀ k v, Stored t k v ↔ kvs.lookup k = some v) ∧
      TreeInv t (fun k => kvs.lookup k) ∧
      ((kvs.map Prod.fst).Nodup → bs = List.replicate kvs.length true) := by
  obtain ⟨t, bs, h1, h2, h3, h4, h5⟩ := build_spec L I kvs
  exact ⟨t, bs, h1, by simp only [build, h1], h2, h3, h4, h5⟩

/-- In a well-formed tree whose root is a leaf, a leaf page without parent is the root and
holds every stored pair. -/
theorem Inv.root_leaf_all {t : BPlusTree} {g : Ghost} (hinv : Inv t g) {q : Int} {l : LeafPage}
    (hq : t.pages q = some (.leaf l)) (hroot : l.IsRootPage = true) {k v : Int}
    (hst : Stored t k v) : (k, v) ∈ l.array := by
  have hqr : q = t.root_page_id := by
    by_contra hne
    obtain ⟨n, hn, -⟩ := hinv.listed q _ hq hne
    have hpar : (Page.leaf l).GetParentPageId = INVALID_PAGE_ID := by
      simpa [LeafPage.IsRootPage, Page.GetParentPageId] using hroot
    rw [hpar] at hn
    have := (hinv.ids _ _ hn).1
    simp only [INVALID_PAGE_ID] at this
    omega
  obtain ⟨pg, hpg, -, hlo⟩ := hinv.rootPage
  refine (hinv.stored_leaf hq ?_ v).1 hst
  rw [hqr, hlo, hinv.rootHi]
  exact ⟨fun a ha => (by cases ha), fun b hb => (by cases hb)⟩

/-! ### Page sizes of trees built by insertion -/

theorem PageSz.setParent {L I : Int} (pg : Page) (a : Int) :
    PageSz L I (pg.SetParentPageId a) ↔ PageSz L I pg := by
  cases pg <;> exact Iff.rfl

theorem SzInv.write {t : BPlusTree} (h : SzInv t) {q : Int} {pg : Page}
    (hpg : PageSz t.leaf_max_size t.internal_max_size pg) : SzInv (t.write q pg) := by
  intro x px hx
  rw [BPlusTree.write_pages, Pool.write_apply] at hx
  by_cases hxq : x = q
  · rw [if_pos hxq] at hx; cases hx; exact hpg
  · rw [if_neg hxq] at hx; exact h x px hx

/-- What `reparent` returns differs from the pool it started on in parent page ids only. -/
theorem reparent_view (parent : Int) :
    ∀ (cs : List Int) (pages pages1 : Pool), reparent pages cs parent = .ok pages1 →
      ∀ x, pages1 x = pages x ∨
        ∃ p, pages x = some p ∧ pages1 x = some (p.SetParentPageId parent) := by
  intro cs
  induction cs with
  | nil =>
    intro pages pages1 h x
    simp only [reparent, Except.ok.injEq] at h
    exact Or.inl (by rw [h])
  | cons c rest ih =>
    intro pages pages1 h x
    simp only [reparent] at h
    cases hc : pages c with
    | none => rw [hc] at h; cases h
    | some p =>
      rw [hc] at h
      rcases ih _ _ h x with h1 | ⟨p1, h1, h2⟩
      · rw [Pool.write_apply] at h1
        by_cases hx : x = c
        · rw [if_pos hx] at h1
          exact Or.inr ⟨p, by rw [hx]; exact hc, h1⟩
        · rw [if_neg hx] at h1
          exact Or.inl h1
      · rw [Pool.write_apply] at h1
        by_cases hx : x = c
        · rw [if_pos hx] at h1
          cases h1
          exact Or.inr ⟨p, by rw [hx]; exact hc, by rw [h2, Page.setParent_setParent]⟩
        · rw [if_neg hx] at h1
          exact Or.inr ⟨p1, h1, h2⟩

theorem SzInv.reparented {t : BPlusTree} (h : SzInv t) {pages1 : Pool} {a : Int}
    (hv : ∀ x, pages1 x = t.pages x ∨
      ∃ p, t.pages x = some p ∧ pages1 x = some (p.SetParentPageId a)) :
    SzInv { t with pages := pages1 } := by
  intro x px hx
  rcases hv x with h1 | ⟨p, h1, h2⟩
  · exact h x px (by rw [← h1]; exact hx)
  · have : px = p.SetParentPageId a := by
      have h3 : pages1 x = some px := hx
      rw [h2] at h3; cases h3; rfl
    rw [this]
    exact (PageSz.setParent p a).2 (h x p h1)

theorem findLeafLoop_page {pages : Pool} {key : Int} {lm : Bool} :
    ∀ (fuel : Nat) (q x : Int) (l : LeafPage),
      BPlusTree.findLeafLoop pages key lm fuel q = .ok (x, l) → pages x = some (.leaf l) := by
  intro fuel
  induction fuel with
  | zero => intro q x l h; simp [BPlusTree.findLeafLoop] at h
  | succ f ih =>
    intro q x l h
    simp only [BPlusTree.findLeafLoop] at h
    cases hq : pages q with
    | none => rw [hq] at h; cases h
    | some pg =>
      rw [hq] at h
      cases pg with
      | leaf l0 =>
        simp only [Except.ok.injEq, Prod.mk.injEq] at h
        rw [← h.1, ← h.2]; exact hq
      | internal n =>
        simp only at h
        cases hn : (if lm = true then n.ValueAt 0 else n.Lookup key) with
        | none => rw [hn] at h; cases h
        | some c => rw [hn] at h; exact ih c x l h

theorem length_insertAfter_ge (old key new : Int) :
    ∀ (arr : List (Int × Int)),
      arr.length ≤ (InternalPage.insertAfter arr old key new).length := by
  intro arr
  induction arr with
  | nil => simp [InternalPage.insertAfter]
  | cons kc rest ih =>
    simp only [InternalPage.insertAfter]
    split
    · simp
    · simp only [List.length_cons]; omega

/-- `Split` keeps the size facts when the page it splits is a leaf, or an internal page with
more than three entries. -/
theorem Split_sz {t t1 : BPlusTree} {q new_id : Int} (h : SzInv t)
    (hq : ∀ n, t.pages q = some (.internal n) → 4 ≤ n.array.length)
    (hs : t.Split q = .ok (t1, new_id)) :
    SzInv t1 ∧ t1.leaf_max_size = t.leaf_max_size ∧
      t1.internal_max_size = t.internal_max_size := by
  simp only [BPlusTree.Split] at hs
  cases hp : t.pages q with
  | none => rw [hp] at hs; cases hs
  | some pg =>
    rw [hp] at hs
    have hpg := h q pg hp
    cases pg with
    | leaf l =>
      simp only [Except.ok.injEq, Prod.mk.injEq] at hs
      obtain ⟨hs, -⟩ := hs
      subst hs
      refine ⟨?_, rfl, rfl⟩
      refine SzInv.write (SzInv.write (t := { t with next_page_id := t.next_page_id + 1 }) h ?_) ?_
      · exact rfl
      · exact hpg
    | internal n =>
      have h4 := hq n hp
      simp only at hs
      cases hr : reparent
          ((({ t with next_page_id := t.next_page_id + 1 } : BPlusTree).write t.next_page_id
            (.internal (n.MoveHalfTo (InternalPage.Init t.next_page_id n.parent_page_id
              t.internal_max_size)).2)).write q
            (.internal (n.MoveHalfTo (InternalPage.Init t.next_page_id n.parent_page_id
              t.internal_max_size)).1)).pages
          ((n.MoveHalfTo (InternalPage.Init t.next_page_id n.parent_page_id
              t.internal_max_size)).2.array.map Prod.snd)
          (n.MoveHalfTo (InternalPage.Init t.next_page_id n.parent_page_id
              t.internal_max_size)).2.page_id with
      | error e => rw [hr] at hs; cases hs
      | ok pages1 =>
        rw [hr] at hs
        simp only [Except.ok.injEq, Prod.mk.injEq] at hs
        obtain ⟨hs, -⟩ := hs
        subst hs
        refine ⟨?_, rfl, rfl⟩
        have hbase : SzInv ((({ t with next_page_id := t.next_page_id + 1 } : BPlusTree).write
            t.next_page_id
            (.internal (n.MoveHalfTo (InternalPage.Init t.next_page_id n.parent_page_id
              t.internal_max_size)).2)).write q
            (.internal (n.MoveHalfTo (InternalPage.Init t.next_page_id n.parent_page_id
              t.internal_max_size)).1)) := by
          refine SzInv.write (SzInv.write (t := { t with next_page_id := t.next_page_id + 1 })
            h ?_) ?_
          · refine ⟨rfl, ?_⟩
            simp only [InternalPage.MoveHalfTo, InternalPage.Init, List.nil_append,
              List.length_drop]
            omega
          · refine ⟨hpg.1, ?_⟩
            simp only [InternalPage.MoveHalfTo, List.length_take]
            omega
        exact SzInv.reparented hbase (reparent_view _ _ _ _ hr)

theorem InsertIntoParent_sz :
    ∀ (fuel : Nat) (t t1 : BPlusTree) (old key new : Int), SzInv t →
      3 ≤ t.internal_max_size → BPlusTree.InsertIntoParent fuel t old key new = .ok t1 →
      SzInv t1 ∧ t1.leaf_max_size = t.leaf_max_size ∧
        t1.internal_max_size = t.internal_max_size := by
  intro fuel
  induction fuel with
  | zero => intro t t1 old key new _ _ h; simp [BPlusTree.InsertIntoParent] at h
  | succ f ih =>
    intro t t1 old key new hsz hI h
    simp only [BPlusTree.InsertIntoParent] at h
    cases ho : t.pages old with
    | none => rw [ho] at h; cases h
    | some po =>
      cases hn : t.pages new with
      | none => rw [ho, hn] at h; cases h
      | some pn =>
        rw [ho, hn] at h
        simp only at h
        by_cases hroot : po.IsRootPage = true
        · rw [if_pos hroot] at h
          simp only [Except.ok.injEq] at h
          subst h
          refine ⟨?_, rfl, rfl⟩
          have base : SzInv (((t.write t.next_page_id (.internal
              ((InternalPage.Init t.next_page_id INVALID_PAGE_ID
                t.internal_max_size).PopulateNewRoot po.GetPageId key pn.GetPageId))).write old
              (po.SetParentPageId t.next_page_id)).write new
              (pn.SetParentPageId t.next_page_id)) := by
            refine SzInv.write (SzInv.write (SzInv.write hsz ?_) ?_) ?_
            · exact ⟨rfl, by simp [InternalPage.PopulateNewRoot]⟩
            · exact (PageSz.setParent po _).2 (hsz old po ho)
            · exact (PageSz.setParent pn _).2 (hsz new pn hn)
          exact base
        · rw [if_neg hroot] at h
          cases hp : t.pages po.GetParentPageId with
          | none => rw [hp] at h; cases h
          | some pp =>
            rw [hp] at h
            cases pp with
            | leaf _ => cases h
            | internal parent_node =>
              simp only at h
              have hpsz := hsz _ _ hp
              have hlen := length_insertAfter_ge po.GetPageId key pn.GetPageId parent_node.array
              have hsz1 : SzInv (t.write po.GetParentPageId (.internal
                  (parent_node.InsertNodeAfter po.GetPageId key pn.GetPageId))) := by
                refine SzInv.write hsz ⟨hpsz.1, ?_⟩
                simp only [InternalPage.InsertNodeAfter]
                have := hpsz.2
                omega
              split at h
              · simp only [Except.ok.injEq] at h
                subst h
                exact ⟨hsz1, rfl, rfl⟩
              · rename_i hbig
                cases hs : (t.write po.GetParentPageId (.internal
                    (parent_node.InsertNodeAfter po.GetPageId key pn.GetPageId))).Split
                    po.GetParentPageId with
                | error e => rw [hs] at h; cases h
                | ok r =>
                  obtain ⟨t2, new_parent_id⟩ := r
                  rw [hs] at h
                  simp only at h
                  have h2 := Split_sz hsz1 (by
                    intro n hn2
                    rw [BPlusTree.write_pages, Pool.write_apply, if_pos rfl] at hn2
                    cases hn2
                    simp only [InternalPage.GetSize, InternalPage.InsertNodeAfter, not_lt] at hbig
                    have := hpsz.1
                    simp only [InternalPage.InsertNodeAfter]
                    omega) hs
                  cases hnp : t2.pages new_parent_id with
                  | none => rw [hnp] at h; cases h
                  | some pg2 =>
                    rw [hnp] at h
                    cases pg2 with
                    | leaf _ => cases h
                    | internal npn =>
                      simp only at h
                      cases hk : npn.KeyAt 0 with
                      | none => rw [hk] at h; cases h
                      | some up_key =>
                        rw [hk] at h
                        have h3 := ih t2 t1 _ _ _ h2.1 (by rw [h2.2.2]; exact hI) h
                        exact ⟨h3.1, by rw [h3.2.1, h2.2.1]; rfl, by rw [h3.2.2, h2.2.2]; rfl⟩

theorem FindLeafPage_page {t : BPlusTree} {key x : Int} {lm : Bool} {l : LeafPage}
    (h : t.FindLeafPage key lm = .ok (x, l)) : t.pages x = some (.leaf l) := by
  simp only [BPlusTree.FindLeafPage] at h
  split at h
  · cases h
  · exact findLeafLoop_page _ _ _ _ h

theorem Insert_sz {t t1 : BPlusTree} {k v : Int} {b : Bool} (hsz : SzInv t)
    (hI : 3 ≤ t.internal_max_size) (h : t.Insert k v = .ok (t1, b)) :
    SzInv t1 ∧ t1.leaf_max_size = t.leaf_max_size ∧
      t1.internal_max_size = t.internal_max_size := by
  simp only [BPlusTree.Insert] at h
  split at h
  · simp only [Except.ok.injEq, Prod.mk.injEq] at h
    obtain ⟨h, -⟩ := h
    subst h
    refine ⟨?_, rfl, rfl⟩
    have base : SzInv (t.write t.next_page_id (.leaf
        ((LeafPage.Init t.next_page_id INVALID_PAGE_ID t.leaf_max_size).Insert k v))) :=
      SzInv.write hsz rfl
    exact base
  · simp only [BPlusTree.InsertIntoLeaf] at h
    cases hf : t.FindLeafPage k false with
    | error e => rw [hf] at h; cases h
    | ok r =>
      obtain ⟨page_id, leaf_page⟩ := r
      rw [hf] at h
      simp only at h
      have hpage := FindLeafPage_page hf
      split at h
      · simp only [Except.ok.injEq, Prod.mk.injEq] at h
        obtain ⟨h, -⟩ := h
        subst h
        exact ⟨hsz, rfl, rfl⟩
      · have hsz1 : SzInv (t.write page_id (.leaf (leaf_page.Insert k v))) :=
          SzInv.write hsz (hsz _ (.leaf leaf_page) hpage)
        split at h
        · simp only [Except.ok.injEq, Prod.mk.injEq] at h
          obtain ⟨h, -⟩ := h
          subst h
          exact ⟨hsz1, rfl, rfl⟩
        · cases hs : (t.write page_id (.leaf (leaf_page.Insert k v))).Split page_id with
          | error e => rw [hs] at h; cases h
          | ok r =>
            obtain ⟨t2, new_id⟩ := r
            rw [hs] at h
            simp only at h
            have h2 := Split_sz hsz1 (by
              intro n hn
              rw [BPlusTree.write_pages, Pool.write_apply, if_pos rfl] at hn
              cases hn) hs
            cases hnp : t2.pages new_id with
            | none => rw [hnp] at h; cases h
            | some pg2 =>
              rw [hnp] at h
              cases pg2 with
              | internal _ => cases h
              | leaf nl =>
                simp only at h
                cases hk : nl.KeyAt 0 with
                | none => rw [hk] at h; cases h
                | some up_key =>
                  rw [hk] at h
                  simp only at h
                  cases hip : BPlusTree.InsertIntoParent t2.fuel t2 page_id up_key new_id with
                  | error e => rw [hip] at h; cases h
                  | ok t3 =>
                    rw [hip] at h
                    simp only [Except.ok.injEq, Prod.mk.injEq] at h
                    obtain ⟨h, -⟩ := h
                    subst h
                    have h3 := InsertIntoParent_sz _ _ _ _ _ _ h2.1
                      (by rw [h2.2.2]; exact hI) hip
                    exact ⟨h3.1, by rw [h3.2.1, h2.2.1]; rfl, by rw [h3.2.2, h2.2.2]; rfl⟩

theorem InsertAll_sz :
    ∀ (kvs : List (Int × Int)) (t t1 : BPlusTree) (bs : List Bool), SzInv t →
      3 ≤ t.internal_max_size → t.InsertAll kvs = .ok (t1, bs) →
      SzInv t1 ∧ t1.leaf_max_size = t.leaf_max_size ∧
        t1.internal_max_size = t.internal_max_size := by
  intro kvs
  induction kvs with
  | nil =>
    intro t t1 bs hsz _ h
    simp only [BPlusTree.InsertAll, Except.ok.injEq, Prod.mk.injEq] at h
    obtain ⟨h, -⟩ := h
    subst h
    exact ⟨hsz, rfl, rfl⟩
  | cons kv rest ih =>
    intro t t1 bs hsz hI h
    simp only [BPlusTree.InsertAll] at h
    cases hi : t.Insert kv.1 kv.2 with
    | error e => rw [hi] at h; cases h
    | ok r =>
      obtain ⟨t2, b⟩ := r
      rw [hi] at h
      simp only at h
      have h2 := Insert_sz hsz hI hi
      cases hr : t2.InsertAll rest with
      | error e => rw [hr] at h; cases h
      | ok r2 =>
        obtain ⟨t3, bs3⟩ := r2
        rw [hr] at h
        simp only [Except.ok.injEq, Prod.mk.injEq] at h
        obtain ⟨h, -⟩ := h
        subst h
        have h3 := ih t2 t3 bs3 h2.1 (by rw [h2.2.2]; exact hI) hr
        exact ⟨h3.1, by rw [h3.2.1, h2.2.1], by rw [h3.2.2, h2.2.2]⟩

theorem SzInv.ofNew (L I : Int) : SzInv (BPlusTree.new L I) := by
  intro q pg h
  simp [BPlusTree.new] at h

/-! ### Shape of the tree under the page moves of a removal -/

/-- Two children `a` and `b` of a page `p` exchange children, and `p` may drop its slot for
`b`: the shape of the tree is kept, with `b` dead when its slot is dropped. -/
theorem Shape.shuffle {t t1 : BPlusTree} {lvl : Int → Nat} {dead : Int → Prop} {hole : Int}
    (hs : Shape t lvl dead hole) {p a b : Int} {pp pa pb pp1 pa1 pb1 : Page} (rm : Prop)
    (hole1 : Int) (hroot : t1.root_page_id = t.root_page_id)
    (hnext : t1.next_page_id = t.next_page_id)
    (hL : t1.leaf_max_size = t.leaf_max_size)
    (hI : t1.internal_max_size = t.internal_max_size)
    (hp : t.pages p = some pp) (hpl : ¬ dead p) (ha : t.pages a = some pa)
    (hb : t.pages b = some pb) (hap : a ∈ pp.children) (hbp : b ∈ pp.children) (hab : a ≠ b)
    (hp1 : t1.pages p = some pp1) (ha1 : t1.pages a = some pa1) (hb1 : t1.pages b = some pb1)
    (hhp : pp.SameHeader pp1) (hha : pa.SameHeader pa1) (hhb : pb.SameHeader pb1)
    (hcp : ∀ c, c ∈ pp1.children ↔ c ∈ pp.children ∧ ¬ (rm ∧ c = b))
    (hndp : pp1.children.Nodup)
    (hcab : ∀ c, c ∈ pa1.children ∨ c ∈ pb1.children ↔ c ∈ pa.children ∨ c ∈ pb.children)
    (hnda : pa1.children.Nodup) (hndb : pb1.children.Nodup)
    (hdisj : ∀ c, c ∈ pa1.children → c ∉ pb1.children) (hrm : rm → pb1.children = [])
    (hrest : ∀ q pg, q ≠ p → q ≠ a → q ≠ b → t.pages q = some pg →
      ∃ pg1, t1.pages q = some pg1 ∧ pg1.GetPageId = pg.GetPageId ∧
        pg1.IsLeafPage = pg.IsLeafPage ∧ pg1.GetMaxSize = pg.GetMaxSize ∧
        pg1.children = pg.children ∧
        pg1.GetParentPageId =
          if q ∈ pa1.children then a else if q ∈ pb1.children then b else pg.GetParentPageId)
    (hnone : ∀ q, t.pages q = none → t1.pages q = none)
    (hwide : ∀ x px, (x = p ∨ x = a ∨ (x = b ∧ ¬ rm)) → t1.pages x = some px →
      px.IsLeafPage = false →
      1 ≤ px.children.length ∧ (x ≠ hole1 → 2 ≤ px.children.length))
    (hhole : hole = p ∨ hole = a ∨ hole = b ∨ hole = hole1) :
    Shape t1 lvl (fun d => dead d ∨ (rm ∧ d = b)) hole1 := by
  obtain ⟨-, hpc⟩ := hs.child p pp hp hpl
  obtain ⟨hal, hla, pa', hpa', hpara⟩ := hpc a hap
  obtain ⟨hbl, hlb, pb', hpb', hparb⟩ := hpc b hbp
  rw [ha] at hpa'; cases hpa'
  rw [hb] at hpb'; cases hpb'
  obtain ⟨-, hac⟩ := hs.child a pa ha hal
  obtain ⟨-, hbc⟩ := hs.child b pb hb hbl
  have hpa_ne : p ≠ a := by intro h; rw [h] at hla; omega
  have hpb_ne : p ≠ b := by intro h; rw [h] at hlb; omega
  -- the children of `a` and `b`, before and after
  have hkid : ∀ c, c ∈ pa.children ∨ c ∈ pb.children →
      ¬ dead c ∧ lvl a = lvl c + 1 ∧ c ≠ p ∧ c ≠ a ∧ c ≠ b ∧
        ∃ pc, t.pages c = some pc := by
    intro c hc
    have h1 : ¬ dead c ∧ lvl a = lvl c + 1 ∧ ∃ pc, t.pages c = some pc := by
      rcases hc with hc | hc
      · obtain ⟨x1, x2, pc, x3, -⟩ := hac c hc
        exact ⟨x1, x2, pc, x3⟩
      · obtain ⟨x1, x2, pc, x3, -⟩ := hbc c hc
        exact ⟨x1, by omega, pc, x3⟩
    refine ⟨h1.1, h1.2.1, ?_, ?_, ?_, h1.2.2⟩
    · intro h; rw [h] at h1; omega
    · intro h; rw [h] at h1; omega
    · intro h; rw [h] at h1; omega
  have hkid1 : ∀ c, c ∈ pa1.children ∨ c ∈ pb1.children →
      ¬ dead c ∧ lvl a = lvl c + 1 ∧ c ≠ p ∧ c ≠ a ∧ c ≠ b ∧
        ∃ pc, t.pages c = some pc := fun c hc => hkid c ((hcab c).1 hc)
  -- pages outside `p`, `a`, `b`, read backwards
  have hback : ∀ q pg1, q ≠ p → q ≠ a → q ≠ b → t1.pages q = some pg1 →
      ∃ pg, t.pages q = some pg ∧ pg1.GetPageId = pg.GetPageId ∧
        pg1.IsLeafPage = pg.IsLeafPage ∧ pg1.GetMaxSize = pg.GetMaxSize ∧
        pg1.children = pg.children ∧
        pg1.GetParentPageId =
          if q ∈ pa1.children then a else if q ∈ pb1.children then b
          else pg.GetParentPageId := by
    intro q pg1 h1 h2 h3 hq
    cases ht : t.pages q with
    | none => rw [hnone q ht] at hq; cases hq
    | some pg =>
      obtain ⟨pg', e1, e2⟩ := hrest q pg h1 h2 h3 ht
      rw [hq] at e1; cases e1
      exact ⟨pg, rfl, e2⟩
  have hrootpa : t.root_page_id ≠ a := by
    intro h
    obtain ⟨pg, e1, e2, -⟩ := hs.root
    rw [h, ha] at e1; cases e1
    rw [hpara] at e2
    have := (hs.ids p pp hp).1
    simp only [INVALID_PAGE_ID] at e2; omega
  have hrootpb : t.root_page_id ≠ b := by
    intro h
    obtain ⟨pg, e1, e2, -⟩ := hs.root
    rw [h, hb] at e1; cases e1
    rw [hparb] at e2
    have := (hs.ids p pp hp).1
    simp only [INVALID_PAGE_ID] at e2; omega
  refine
    { ids := ?_, root := ?_, kind := ?_, wide := ?_, child := ?_, listed := ?_, lvlRoot := ?_,
      fuel := ?_ }
  · -- ids
    intro q pg1 hq
    by_cases h1 : q = p
    · subst h1; rw [hp1] at hq; cases hq
      have := hs.ids _ pp hp
      exact ⟨this.1, by rw [hhp.1]; exact this.2⟩
    by_cases h2 : q = a
    · subst h2; rw [ha1] at hq; cases hq
      have := hs.ids _ pa ha
      exact ⟨this.1, by rw [hha.1]; exact this.2⟩
    by_cases h3 : q = b
    · subst h3; rw [hb1] at hq; cases hq
      have := hs.ids _ pb hb
      exact ⟨this.1, by rw [hhb.1]; exact this.2⟩
    obtain ⟨pg, e1, e2, -⟩ := hback q pg1 h1 h2 h3 hq
    have := hs.ids _ pg e1
    exact ⟨this.1, by rw [e2]; exact this.2⟩
  · -- root
    obtain ⟨pg, e1, e2, e3⟩ := hs.root
    rw [hroot]
    have hlive : ¬ (dead t.root_page_id ∨ (rm ∧ t.root_page_id = b)) := by
      rintro (h | ⟨-, h⟩)
      · exact e3 h
      · exact hrootpb h
    by_cases h1 : t.root_page_id = p
    · rw [h1] at e1 ⊢
      rw [hp] at e1; cases e1
      exact ⟨pp1, hp1, by rw [hhp.2.1]; exact e2, by rw [← h1]; exact hlive⟩
    · obtain ⟨pg1, f1, -, -, -, -, f6⟩ := hrest _ pg h1 hrootpa hrootpb e1
      refine ⟨pg1, f1, ?_, hlive⟩
      have hnot1 : ¬ (t.root_page_id ∈ pa1.children ∨ t.root_page_id ∈ pb1.children) := by
        intro h
        have h' := (hcab _).1 h
        have hpos := (hs.ids a pa ha).1
        have hpos2 := (hs.ids b pb hb).1
        rcases h' with hc | hc
        · obtain ⟨-, -, pc, x3, x4⟩ := hac _ hc
          rw [e1] at x3; cases x3
          rw [e2] at x4
          simp only [INVALID_PAGE_ID] at x4; omega
        · obtain ⟨-, -, pc, x3, x4⟩ := hbc _ hc
          rw [e1] at x3; cases x3
          rw [e2] at x4
          simp only [INVALID_PAGE_ID] at x4; omega
      rw [f6, if_neg (fun h => hnot1 (Or.inl h)), if_neg (fun h => hnot1 (Or.inr h))]
      exact e2
  · -- kind
    intro q pg1 hq hql
    have hql0 : ¬ dead q := fun h => hql (Or.inl h)
    rw [hL, hI]
    by_cases h1 : q = p
    · subst h1; rw [hp1] at hq; cases hq
      have := hs.kind _ pp hp hql0
      rw [hhp.2.2.1, hhp.2.2.2]; exact this
    by_cases h2 : q = a
    · subst h2; rw [ha1] at hq; cases hq
      have := hs.kind _ pa ha hql0
      rw [hha.2.2.1, hha.2.2.2]; exact this
    by_cases h3 : q = b
    · subst h3; rw [hb1] at hq; cases hq
      have := hs.kind _ pb hb hql0
      rw [hhb.2.2.1, hhb.2.2.2]; exact this
    obtain ⟨pg, e1, -, e3, e4, -⟩ := hback q pg1 h1 h2 h3 hq
    have := hs.kind _ pg e1 hql0
    rw [e3, e4]; exact this
  · -- wide
    intro q pg1 hq hql hleaf
    have hql0 : ¬ dead q := fun h => hql (Or.inl h)
    by_cases h1 : q = p
    · exact hwide q pg1 (Or.inl h1) hq hleaf
    by_cases h2 : q = a
    · exact hwide q pg1 (Or.inr (Or.inl h2)) hq hleaf
    by_cases h3 : q = b
    · exact hwide q pg1 (Or.inr (Or.inr ⟨h3, fun hr => hql (Or.inr ⟨hr, h3⟩)⟩)) hq hleaf
    obtain ⟨pg, e1, -, e3, -, e5, -⟩ := hback q pg1 h1 h2 h3 hq
    have := hs.wide _ pg e1 hql0 (by rw [← e3]; exact hleaf)
    rw [e5]
    refine ⟨this.1, fun hne => this.2 ?_⟩
    rcases hhole with h | h | h | h
    · rw [h]; exact h1
    · rw [h]; exact h2
    · rw [h]; exact h3
    · rw [h]; exact hne
  · -- child
    intro q pg1 hq hql
    have hql0 : ¬ dead q := fun h => hql (Or.inl h)
    by_cases h1 : q = p
    · subst h1; rw [hp1] at hq; cases hq
      refine ⟨hndp, ?_⟩
      intro c hc
      obtain ⟨hc0, hcb⟩ := (hcp c).1 hc
      obtain ⟨x1, x2, pc, x3, x4⟩ := hpc c hc0
      refine ⟨?_, x2, ?_⟩
      · rintro (h | ⟨hr, h⟩)
        · exact x1 h
        · exact hcb ⟨hr, h⟩
      · have hcq : c ≠ q := by intro h; rw [h] at x2; omega
        by_cases h2 : c = a
        · subst h2; exact ⟨pa1, ha1, by rw [hha.2.1]; exact hpara⟩
        by_cases h3 : c = b
        · subst h3; exact ⟨pb1, hb1, by rw [hhb.2.1]; exact hparb⟩
        obtain ⟨pg1, f1, -, -, -, -, f6⟩ := hrest c pc hcq h2 h3 x3
        refine ⟨pg1, f1, ?_⟩
        have hnot1 : ¬ (c ∈ pa1.children ∨ c ∈ pb1.children) := by
          intro h
          have := (hkid1 c h).2.1
          omega
        rw [f6, if_neg (fun h => hnot1 (Or.inl h)), if_neg (fun h => hnot1 (Or.inr h))]
        exact x4
    by_cases h2 : q = a
    · subst h2; rw [ha1] at hq; cases hq
      refine ⟨hnda, ?_⟩
      intro c hc
      obtain ⟨x1, x2, x3, x4, x5, pc, x6⟩ := hkid1 c (Or.inl hc)
      refine ⟨?_, x2, ?_⟩
      · rintro (h | ⟨-, h⟩)
        · exact x1 h
        · exact x5 h
      · obtain ⟨pg1, f1, -, -, -, -, f6⟩ := hrest c pc x3 x4 x5 x6
        exact ⟨pg1, f1, by rw [f6, if_pos hc]⟩
    by_cases h3 : q = b
    · subst h3; rw [hb1] at hq; cases hq
      refine ⟨hndb, ?_⟩
      intro c hc
      obtain ⟨x1, x2, x3, x4, x5, pc, x6⟩ := hkid1 c (Or.inr hc)
      refine ⟨?_, by omega, ?_⟩
      · rintro (h | ⟨-, h⟩)
        · exact x1 h
        · exact x5 h
      · obtain ⟨pg1, f1, -, -, -, -, f6⟩ := hrest c pc x3 x4 x5 x6
        exact ⟨pg1, f1, by rw [f6, if_neg (fun h => hdisj c h hc), if_pos hc]⟩
    obtain ⟨pg, e1, -, -, -, e5, -⟩ := hback q pg1 h1 h2 h3 hq
    obtain ⟨y1, y2⟩ := hs.child _ pg e1 hql0
    rw [e5]
    refine ⟨y1, ?_⟩
    intro c hc
    obtain ⟨x1, x2, pc, x3, x4⟩ := y2 c hc
    have hca : c ≠ a := by
      intro h; rw [h, ha] at x3; cases x3
      exact h1 (by rw [← x4, hpara])
    have hcb : c ≠ b := by
      intro h; rw [h, hb] at x3; cases x3
      exact h1 (by rw [← x4, hparb])
    refine ⟨?_, x2, ?_⟩
    · rintro (h | ⟨-, h⟩)
      · exact x1 h
      · exact hcb h
    · by_cases hcp' : c = p
      · rw [hcp'] at x3 ⊢
        rw [hp] at x3; cases x3
        exact ⟨pp1, hp1, by rw [hhp.2.1]; exact x4⟩
      · obtain ⟨pg1', f1, -, -, -, -, f6⟩ := hrest c pc hcp' hca hcb x3
        refine ⟨pg1', f1, ?_⟩
        have hnot : ¬ (c ∈ pa.children ∨ c ∈ pb.children) := by
          rintro (h | h)
          · obtain ⟨-, -, pc', z3, z4⟩ := hac c h
            rw [x3] at z3; cases z3
            exact h2 (by rw [← x4, z4])
          · obtain ⟨-, -, pc', z3, z4⟩ := hbc c h
            rw [x3] at z3; cases z3
            exact h3 (by rw [← x4, z4])
        have hnot1 : ¬ (c ∈ pa1.children ∨ c ∈ pb1.children) := fun h => hnot ((hcab c).1 h)
        rw [f6, if_neg (fun h => hnot1 (Or.inl h)), if_neg (fun h => hnot1 (Or.inr h))]
        exact x4
  · -- listed
    intro q pg1 hq hql hqr
    have hql0 : ¬ dead q := fun h => hql (Or.inl h)
    rw [hroot] at hqr
    have hlivep : ¬ (dead p ∨ (rm ∧ p = b)) := by
      rintro (h | ⟨-, h⟩)
      · exact hpl h
      · exact hpb_ne h
    have hlivea : ¬ (dead a ∨ (rm ∧ a = b)) := by
      rintro (h | ⟨-, h⟩)
      · exact hal h
      · exact hab h
    by_cases h1 : q = p
    · subst h1; rw [hp1] at hq; cases hq
      obtain ⟨y1, gp, y2, y3⟩ := hs.listed _ pp hp hql0 hqr
      rw [hhp.2.1]
      obtain ⟨-, hgc⟩ := hs.child _ gp y2 y1
      have hlg := (hgc _ y3).2.1
      have hga : pp.GetParentPageId ≠ a := by intro h; rw [h] at hlg; omega
      have hgb : pp.GetParentPageId ≠ b := by intro h; rw [h] at hlg; omega
      have hgp : pp.GetParentPageId ≠ q := by intro h; rw [h] at hlg; omega
      obtain ⟨gp1, f1, -, -, -, f5, -⟩ := hrest _ gp hgp hga hgb y2
      refine ⟨?_, gp1, f1, by rw [f5]; exact y3⟩
      rintro (h | ⟨-, h⟩)
      · exact y1 h
      · exact hgb h
    by_cases h2 : q = a
    · subst h2; rw [ha1] at hq; cases hq
      rw [hha.2.1, hpara]
      exact ⟨hlivep, pp1, hp1, (hcp _).2 ⟨hap, fun h => hab h.2⟩⟩
    by_cases h3 : q = b
    · subst h3; rw [hb1] at hq; cases hq
      rw [hhb.2.1, hparb]
      exact ⟨hlivep, pp1, hp1, (hcp _).2 ⟨hbp, fun h => hql (Or.inr ⟨h.1, rfl⟩)⟩⟩
    obtain ⟨pg, e1, -, -, -, -, e6⟩ := hback q pg1 h1 h2 h3 hq
    by_cases hqa : q ∈ pa1.children
    · rw [e6, if_pos hqa]
      exact ⟨hlivea, pa1, ha1, hqa⟩
    by_cases hqb : q ∈ pb1.children
    · rw [e6, if_neg hqa, if_pos hqb]
      refine ⟨?_, pb1, hb1, hqb⟩
      rintro (h | ⟨hr, -⟩)
      · exact hbl h
      · rw [hrm hr] at hqb; cases hqb
    rw [e6, if_neg hqa, if_neg hqb]
    obtain ⟨y1, xp, y2, y3⟩ := hs.listed _ pg e1 hql0 hqr
    have hnot : ¬ (q ∈ pa.children ∨ q ∈ pb.children) := by
      intro h
      rcases (hcab q).2 h with h | h
      · exact hqa h
      · exact hqb h
    have hxa : pg.GetParentPageId ≠ a := by
      intro h; rw [h, ha] at y2; cases y2
      exact hnot (Or.inl y3)
    have hxb : pg.GetParentPageId ≠ b := by
      intro h; rw [h, hb] at y2; cases y2
      exact hnot (Or.inr y3)
    refine ⟨?_, ?_⟩
    · rintro (h | ⟨-, h⟩)
      · exact y1 h
      · exact hxb h
    · by_cases hxp : pg.GetParentPageId = p
      · rw [hxp] at y2 ⊢
        rw [hp] at y2; cases y2
        exact ⟨pp1, hp1, (hcp _).2 ⟨y3, fun h => h3 h.2⟩⟩
      · obtain ⟨xp1, f1, -, -, -, f5, -⟩ := hrest _ xp hxp hxa hxb y2
        exact ⟨xp1, f1, by rw [f5]; exact y3⟩
  · -- lvlRoot
    intro q pg1 hq hql
    have hql0 : ¬ dead q := fun h => hql (Or.inl h)
    rw [hroot]
    by_cases h1 : q = p
    · subst h1; exact hs.lvlRoot _ pp hp hql0
    by_cases h2 : q = a
    · subst h2; exact hs.lvlRoot _ pa ha hql0
    by_cases h3 : q = b
    · subst h3; exact hs.lvlRoot _ pb hb hql0
    obtain ⟨pg, e1, -⟩ := hback q pg1 h1 h2 h3 hq
    exact hs.lvlRoot _ pg e1 hql0
  · rw [hroot, hnext]; exact hs.fuel

theorem Page.children_setParent (pg : Page) (a : Int) :
    (pg.SetParentPageId a).children = pg.children := by cases pg <;> rfl

theorem Page.isLeaf_setParent (pg : Page) (a : Int) :
    (pg.SetParentPageId a).IsLeafPage = pg.IsLeafPage := by cases pg <;> rfl

theorem Page.maxSize_setParent (pg : Page) (a : Int) :
    (pg.SetParentPageId a).GetMaxSize = pg.GetMaxSize := by cases pg <;> rfl

/-- Children move from the page `b` to its sibling `a`, and the parent `p` may drop its slot
for `b`: the form of `Shape.shuffle` that the page moves of a removal produce. -/
theorem Shape.move {t t1 : BPlusTree} {lvl : Int → Nat} {dead : Int → Prop} {hole : Int}
    (hs : Shape t lvl dead hole) {p a b : Int} {pp pa pb : Page} (pp1 pa1 pb1 : Page)
    (rm : Prop) (hole1 : Int) (M : List Int) (hroot : t1.root_page_id = t.root_page_id)
    (hnext : t1.next_page_id = t.next_page_id)
    (hL : t1.leaf_max_size = t.leaf_max_size)
    (hI : t1.internal_max_size = t.internal_max_size)
    (hp : t.pages p = some pp) (hpl : ¬ dead p) (ha : t.pages a = some pa)
    (hb : t.pages b = some pb) (hap : a ∈ pp.children) (hbp : b ∈ pp.children) (hab : a ≠ b)
    (hp1 : t1.pages p = some pp1) (ha1 : t1.pages a = some pa1) (hb1 : t1.pages b = some pb1)
    (hhp : pp.SameHeader pp1) (hha : pa.SameHeader pa1) (hhb : pb.SameHeader pb1)
    (hcp : ∀ c, c ∈ pp1.children ↔ c ∈ pp.children ∧ ¬ (rm ∧ c = b))
    (hndp : pp1.children.Nodup)
    (hM : ∀ c ∈ M, c ∈ pb.children)
    (hca : ∀ c, c ∈ pa1.children ↔ c ∈ pa.children ∨ c ∈ M)
    (hcb : ∀ c, c ∈ pb1.children ↔ c ∈ pb.children ∧ c ∉ M)
    (hnda : pa1.children.Nodup) (hndb : pb1.children.Nodup)
    (hrm : rm → pb1.children = [])
    (hrest : ∀ q pg, q ≠ p → q ≠ a → q ≠ b → t.pages q = some pg →
      t1.pages q = some (if q ∈ M then pg.SetParentPageId a else pg))
    (hnone : ∀ q, t.pages q = none → t1.pages q = none)
    (hwide : ∀ x px, (x = p ∨ x = a ∨ (x = b ∧ ¬ rm)) → t1.pages x = some px →
      px.IsLeafPage = false →
      1 ≤ px.children.length ∧ (x ≠ hole1 → 2 ≤ px.children.length))
    (hhole : hole = p ∨ hole = a ∨ hole = b ∨ hole = hole1) :
    Shape t1 lvl (fun d => dead d ∨ (rm ∧ d = b)) hole1 := by
  obtain ⟨-, hpc⟩ := hs.child p pp hp hpl
  obtain ⟨hal, -, -⟩ := hpc a hap
  obtain ⟨hbl, -, -⟩ := hpc b hbp
  obtain ⟨-, hac⟩ := hs.child a pa ha hal
  obtain ⟨-, hbc⟩ := hs.child b pb hb hbl
  have hsep : ∀ c, c ∈ pa.children → c ∉ pb.children := by
    intro c h1 h2
    obtain ⟨-, -, pc, x3, x4⟩ := hac c h1
    obtain ⟨-, -, pc', y3, y4⟩ := hbc c h2
    rw [x3] at y3; cases y3
    exact hab (by rw [← x4, y4])
  refine Shape.shuffle hs rm hole1 hroot hnext hL hI hp hpl ha hb hap hbp hab hp1 ha1 hb1 hhp
    hha hhb hcp hndp ?_ hnda hndb ?_ hrm ?_ hnone hwide hhole
  · intro c
    rw [hca, hcb]
    constructor
    · rintro ((h | h) | ⟨h, -⟩)
      · exact Or.inl h
      · exact Or.inr (hM c h)
      · exact Or.inr h
    · rintro (h | h)
      · exact Or.inl (Or.inl h)
      · by_cases hm : c ∈ M
        · exact Or.inl (Or.inr hm)
        · exact Or.inr ⟨h, hm⟩
  · intro c h1 h2
    rw [hca] at h1
    rw [hcb] at h2
    rcases h1 with h1 | h1
    · exact hsep c h1 h2.1
    · exact h2.2 h1
  · intro q pg h1 h2 h3 hq
    refine ⟨_, hrest q pg h1 h2 h3 hq, ?_, ?_, ?_, ?_, ?_⟩
    · split
      · exact Page.getPageId_setParent _ _
      · rfl
    · split
      · exact Page.isLeaf_setParent _ _
      · rfl
    · split
      · exact Page.maxSize_setParent _ _
      · rfl
    · split
      · exact Page.children_setParent _ _
      · rfl
    · by_cases hm : q ∈ M
      · rw [if_pos hm, Page.getParent_setParent, if_pos ((hca q).2 (Or.inr hm))]
      · rw [if_neg hm]
        by_cases hqa : q ∈ pa1.children
        · rw [if_pos hqa]
          rcases (hca q).1 hqa with h | h
          · obtain ⟨-, -, pc, x3, x4⟩ := hac q h
            rw [hq] at x3; cases x3
            exact x4
          · exact absurd h hm
        · rw [if_neg hqa]
          by_cases hqb : q ∈ pb1.children
          · rw [if_pos hqb]
            obtain ⟨-, -, pc, x3, x4⟩ := hbc q ((hcb q).1 hqb).1
            rw [hq] at x3; cases x3
            exact x4
          · rw [if_neg hqb]

/-! ### Slot arrays of internal pages -/

theorem valueIndex_split :
    ∀ (arr : List (Int × Int)) (v : Int) (i : Nat), InternalPage.valueIndex arr v = some i →
      ∃ pre kc post, arr = pre ++ kc :: post ∧ kc.2 = v ∧ pre.length = i := by
  intro arr
  induction arr with
  | nil => intro v i h; simp [InternalPage.valueIndex] at h
  | cons kc rest ih =>
    intro v i h
    simp only [InternalPage.valueIndex] at h
    by_cases hk : kc.2 = v
    · rw [if_pos hk] at h
      simp only [Option.some.injEq] at h
      exact ⟨[], kc, rest, rfl, hk, by rw [← h]; rfl⟩
    · rw [if_neg hk] at h
      cases hr : InternalPage.valueIndex rest v with
      | none => rw [hr] at h; simp at h
      | some j =>
        rw [hr] at h
        simp only [Option.map_some', Option.some.injEq] at h
        obtain ⟨pre, kc1, post, e1, e2, e3⟩ := ih v j hr
        exact ⟨kc :: pre, kc1, post, by rw [e1]; rfl, e2, by rw [← h]; simp [e3]⟩

theorem valueIndex_of_mem :
    ∀ (arr : List (Int × Int)) (v : Int), v ∈ arr.map Prod.snd →
      ∃ i, InternalPage.valueIndex arr v = some i := by
  intro arr
  induction arr with
  | nil => intro v h; simp at h
  | cons kc rest ih =>
    intro v h
    simp only [InternalPage.valueIndex]
    by_cases hk : kc.2 = v
    · exact ⟨0, by rw [if_pos hk]⟩
    · rw [if_neg hk]
      simp only [List.map_cons, List.mem_cons] at h
      rcases h with h | h
      · exact absurd h.symm hk
      · obtain ⟨j, hj⟩ := ih v h
        exact ⟨j + 1, by rw [hj]; rfl⟩

theorem map_snd_setKeyAt :
    ∀ (arr : List (Int × Int)) (i : Nat) (k : Int),
      (InternalPage.setKeyAt arr i k).map Prod.snd = arr.map Prod.snd := by
  intro arr
  induction arr with
  | nil => intro i k; rfl
  | cons kc rest ih =>
    intro i k
    cases i with
    | zero => rfl
    | succ j => simp only [InternalPage.setKeyAt, List.map_cons, ih]

theorem eraseIdx_split {α : Type} (pre : List α) (x : α) (post : List α) :
    (pre ++ x :: post).eraseIdx pre.length = pre ++ post := by
  induction pre with
  | nil => rfl
  | cons y ys ih => simp only [List.cons_append, List.length_cons, List.eraseIdx_cons_succ, ih]

theorem get?_split {α : Type} (pre : List α) (x : α) (post : List α) :
    (pre ++ x :: post).get? pre.length = some x := by
  induction pre with
  | nil => rfl
  | cons y ys ih => simp only [List.cons_append, List.length_cons, List.get?_cons_succ, ih]

theorem get?_split_last {α : Type} (pre : List α) (y x : α) (post : List α) :
    ((pre ++ [y]) ++ x :: post).get? ((pre ++ [y]).length - 1) = some y := by
  have : (pre ++ [y]) ++ x :: post = pre ++ y :: (x :: post) := by simp
  rw [this]
  have h2 : (pre ++ [y]).length - 1 = pre.length := by simp
  rw [h2]
  exact get?_split pre y (x :: post)

theorem list_last_split {α : Type} (l : List α) (h : l ≠ []) :
    ∃ init x, l = init ++ [x] ∧ l.dropLast = init ∧ l.drop (l.length - 1) = [x] := by
  refine ⟨l.dropLast, l.getLast h, (List.dropLast_append_getLast h).symm, rfl, ?_⟩
  have e := List.dropLast_append_getLast h
  have hlen : l.length - 1 = l.dropLast.length := by simp
  rw [hlen]
  conv_lhs => rw [← e]
  simp

/-! ### The pages around an under-full page -/

theorem Shape.rootIff {t : BPlusTree} {lvl : Int → Nat} {dead : Int → Prop} {hole : Int}
    (hs : Shape t lvl dead hole) {q : Int} {pg : Page} (hq : t.pages q = some pg)
    (hl : ¬ dead q) : pg.IsRootPage = true ↔ q = t.root_page_id := by
  constructor
  · intro h
    by_contra hne
    obtain ⟨-, pp, h2, -⟩ := hs.listed q pg hq hl hne
    have hpar : pg.GetParentPageId = INVALID_PAGE_ID := by
      simpa [Page.IsRootPage] using h
    rw [hpar] at h2
    have := (hs.ids _ _ h2).1
    simp only [INVALID_PAGE_ID] at this
    omega
  · intro h
    obtain ⟨pr, h1, h2, -⟩ := hs.root
    rw [← h, hq] at h1; cases h1
    simp [Page.IsRootPage, h2]

/-- A live page that is not the root has an internal parent that lists it, and a sibling in
the slot that `CoalesceOrRedistribute` reads. -/
theorem Shape.family {t : BPlusTree} {lvl : Int → Nat} {dead : Int → Prop} {node_id : Int}
    {node : Page} (hs : Shape t lvl dead node_id) (hnode : t.pages node_id = some node)
    (hlive : ¬ dead node_id) (hnr : node_id ≠ t.root_page_id) :
    ∃ pn pre kc post, t.pages node.GetParentPageId = some (.internal pn) ∧
      ¬ dead node.GetParentPageId ∧ pn.array = pre ++ kc :: post ∧ kc.2 = node_id ∧
      pn.ValueIndex node.GetPageId = some pre.length ∧ 2 ≤ pn.array.length ∧
      (pn.array.map Prod.snd).Nodup ∧ lvl node.GetParentPageId = lvl node_id + 1 := by
  obtain ⟨hpl, pp, hp, hin⟩ := hs.listed node_id node hnode hlive hnr
  cases pp with
  | leaf l => simp [Page.children] at hin
  | internal pn =>
    have hid := (hs.ids _ _ hnode).2
    obtain ⟨i, hi⟩ := valueIndex_of_mem pn.array node_id hin
    obtain ⟨pre, kc, post, e1, e2, e3⟩ := valueIndex_split _ _ _ hi
    obtain ⟨hnd, hc⟩ := hs.child _ _ hp hpl
    have hlvl := (hc node_id hin).2.1
    have hne : node.GetParentPageId ≠ node_id := by
      intro h; rw [h] at hlvl; omega
    have hw := (hs.wide _ _ hp hpl rfl).2 hne
    refine ⟨pn, pre, kc, post, hp, hpl, e1, e2, ?_, ?_, hnd, hlvl⟩
    · rw [hid, e3]; exact hi
    · simpa [Page.children] using hw

/-! ### Redistribution between leaves -/

theorem LeavesFrom.refl (t : BPlusTree) : LeavesFrom t t :=
  fun q l _ h1 h2 => ⟨q, l, h1, h2⟩

theorem LeavesFrom.trans {t2 t1 t : BPlusTree} (h21 : LeavesFrom t2 t1) (h10 : LeavesFrom t1 t) :
    LeavesFrom t2 t := by
  intro q l e h1 h2
  obtain ⟨q1, l1, e1, e2⟩ := h21 q l e h1 h2
  exact h10 q1 l1 e e1 e2

theorem Shape.deadEq {t : BPlusTree} {lvl : Int → Nat} {dead dead1 : Int → Prop} {hole : Int}
    (hs : Shape t lvl dead hole) (h : ∀ d, dead1 d ↔ dead d) : Shape t lvl dead1 hole := by
  have : dead1 = dead := funext (fun d => propext (h d))
  rw [this]; exact hs

/-- `Redistribute` on a leaf that is child 0 of its parent: the first entry of the right
sibling moves over. -/
theorem Redistribute_leaf_first {t : BPlusTree} {lvl : Int → Nat} {dead : Int → Prop}
    {node_id s : Int} {ln ls : LeafPage} {pn : InternalPage} {kc kc1 : Int × Int}
    {post : List (Int × Int)} (hs : Shape t lvl dead node_id)
    (hnode : t.pages node_id = some (.leaf ln)) (hsib : t.pages s = some (.leaf ls))
    (hp : t.pages ln.parent_page_id = some (.internal pn)) (hpl : ¬ dead ln.parent_page_id)
    (harr : pn.array = kc :: kc1 :: post) (hkc : kc.2 = node_id) (hkc1 : kc1.2 = s)
    (hsz : 2 ≤ ls.array.length) :
    ∃ t1, t.Redistribute s node_id 0 = .ok t1 ∧ Shape t1 lvl dead node_id ∧
      LeavesFrom t1 t := by
  obtain ⟨hnd, hc⟩ := hs.child _ _ hp hpl
  have hin : node_id ∈ (Page.internal pn).children := by
    simp [Page.children, harr, hkc]
  have hsin : s ∈ (Page.internal pn).children := by
    simp [Page.children, harr, hkc1]
  have hne : node_id ≠ s := by
    intro h
    simp only [Page.children, harr, List.map_cons, hkc, hkc1, List.nodup_cons, List.mem_cons]
      at hnd
    exact hnd.1 (Or.inl h)
  have hpn : ln.parent_page_id ≠ node_id := by
    intro h; have := (hc _ hin).2.1; rw [h] at this; omega
  have hps : ln.parent_page_id ≠ s := by
    intro h; have := (hc _ hsin).2.1; rw [h] at this; omega
  obtain ⟨x, y, rest, hls⟩ : ∃ x y rest, ls.array = x :: y :: rest := by
    match hl : ls.array, hsz with
    | x :: y :: rest, _ => exact ⟨x, y, rest, rfl⟩
    | [_], h => simp at h
    | [], h => simp at h
  have hkey : (ls.MoveFirstToEndOf ln).1.KeyAt 0 = some y.1 := by
    simp [LeafPage.MoveFirstToEndOf, LeafPage.KeyAt, hls]
  refine ⟨((t.write s (.leaf (ls.MoveFirstToEndOf ln).1)).write node_id
      (.leaf (ls.MoveFirstToEndOf ln).2)).write ln.parent_page_id
      (.internal (pn.SetKeyAt 1 y.1)),
    (by simp only [BPlusTree.Redistribute, hnode, hsib, hp, if_true, hkey]), ?_, ?_⟩
  · refine Shape.deadEq (Shape.move hs (.internal (pn.SetKeyAt 1 y.1))
      (.leaf (ls.MoveFirstToEndOf ln).2) (.leaf (ls.MoveFirstToEndOf ln).1) False node_id []
      rfl rfl rfl rfl hp hpl hnode hsib hin
      hsin hne ?_ ?_ ?_ ⟨rfl, rfl, rfl, rfl⟩ ⟨rfl, rfl, rfl, rfl⟩
      ⟨rfl, rfl, rfl, rfl⟩ ?_ ?_ ?_ ?_ ?_ ?_ ?_ ?_ ?_ ?_ ?_ ?_) ?_
    · simp only [BPlusTree.write_pages, Pool.write_apply, if_true]
    · simp only [BPlusTree.write_pages, Pool.write_apply, if_neg hpn.symm, if_true]
    · simp only [BPlusTree.write_pages, Pool.write_apply, if_neg hps.symm, if_neg hne.symm,
        if_true]
    · intro c
      simp only [Page.children, InternalPage.SetKeyAt, map_snd_setKeyAt, false_and,
        not_false_eq_true, and_true]
    · simpa only [Page.children, InternalPage.SetKeyAt, map_snd_setKeyAt] using hnd
    · intro c hc; cases hc
    · intro c; simp [Page.children]
    · intro c; simp [Page.children]
    · simp [Page.children]
    · simp [Page.children]
    · intro h; exact absurd h id
    · intro q pg h1 h2 h3 hq
      simp only [BPlusTree.write_pages, Pool.write_apply, if_neg h1, if_neg h2, if_neg h3, hq,
        List.not_mem_nil, if_false]
    · intro q hq
      have h1 : q ≠ ln.parent_page_id := by intro h; rw [h, hp] at hq; cases hq
      have h2 : q ≠ node_id := by intro h; rw [h, hnode] at hq; cases hq
      have h3 : q ≠ s := by intro h; rw [h, hsib] at hq; cases hq
      simp only [BPlusTree.write_pages, Pool.write_apply, if_neg h1, if_neg h2, if_neg h3, hq]
    · intro x px hx hpx hleaf
      rcases hx with hx | hx | ⟨hx, -⟩
      · subst hx
        simp only [BPlusTree.write_pages, Pool.write_apply, if_true, Option.some.injEq] at hpx
        subst hpx
        have := (hs.wide _ _ hp hpl rfl).2 hpn
        simp only [Page.children, InternalPage.SetKeyAt, map_snd_setKeyAt, List.length_map]
          at this ⊢
        exact ⟨by omega, fun _ => this⟩
      · subst hx
        simp only [BPlusTree.write_pages, Pool.write_apply, if_neg hpn.symm, if_true,
          Option.some.injEq] at hpx
        subst hpx
        cases hleaf
      · subst hx
        simp only [BPlusTree.write_pages, Pool.write_apply, if_neg hps.symm, if_neg hne.symm,
          if_true, Option.some.injEq] at hpx
        subst hpx
        cases hleaf
    · exact Or.inr (Or.inl rfl)
    · intro d; simp
  · intro q l e hq he
    simp only [BPlusTree.write_pages, Pool.write_apply] at hq
    by_cases h1 : q = ln.parent_page_id
    · rw [if_pos h1] at hq; cases hq
    rw [if_neg h1] at hq
    by_cases h2 : q = node_id
    · rw [if_pos h2] at hq
      simp only [Option.some.injEq, Page.leaf.injEq] at hq
      subst hq
      simp only [LeafPage.MoveFirstToEndOf, List.mem_append] at he
      rcases he with he | he
      · exact ⟨node_id, ln, hnode, he⟩
      · exact ⟨s, ls, hsib, List.mem_of_mem_take he⟩
    rw [if_neg h2] at hq
    by_cases h3 : q = s
    · rw [if_pos h3] at hq
      simp only [Option.some.injEq, Page.leaf.injEq] at hq
      subst hq
      simp only [LeafPage.MoveFirstToEndOf] at he
      exact ⟨s, ls, hsib, List.mem_of_mem_tail he⟩
    rw [if_neg h3] at hq
    exact ⟨q, l, hq, he⟩

/-- The pool after the writes of a page move: two sibling pages are written, the moved
children are reparented, the parent is written. -/
theorem pool_form {pages : Pool} {x1 x2 p dst : Int} {P1 P2 PP : Page} {M : List Int}
    (hM : ∀ c ∈ M, c ≠ x1 ∧ c ≠ x2 ∧ ∃ pg, pages c = some pg) :
    ∃ pages1, reparent ((pages.write x1 P1).write x2 P2) M dst = .ok pages1 ∧
      ∀ x, (pages1.write p PP) x =
        if x = p then some PP else if x = x2 then some P2 else if x = x1 then some P1
        else (pages x).map (fun pg => if x ∈ M then pg.SetParentPageId dst else pg) := by
  obtain ⟨pages1, h1, h2⟩ := reparent_spec dst M ((pages.write x1 P1).write x2 P2) (by
    intro c hc
    obtain ⟨e1, e2, pg, e3⟩ := hM c hc
    exact ⟨pg, by rw [Pool.write_apply, if_neg e2, Pool.write_apply, if_neg e1]; exact e3⟩)
  refine ⟨pages1, h1, ?_⟩
  intro x
  rw [Pool.write_apply]
  by_cases hp : x = p
  · rw [if_pos hp, if_pos hp]
  rw [if_neg hp, if_neg hp, h2 x]
  by_cases hx2 : x = x2
  · have : x ∉ M := fun h => (hM x h).2.1 hx2
    rw [if_neg this, Pool.write_apply, if_pos hx2, if_pos hx2]
  by_cases hx1 : x = x1
  · have : x ∉ M := fun h => (hM x h).1 hx1
    rw [if_neg this, Pool.write_apply, if_neg hx2, Pool.write_apply, if_pos hx1, if_neg hx2,
      if_pos hx1]
  rw [if_neg hx2, if_neg hx1]
  by_cases hm : x ∈ M
  · rw [if_pos hm, Pool.write_apply, if_neg hx2, Pool.write_apply, if_neg hx1]
    cases pages x <;> simp [hm]
  · rw [if_neg hm, Pool.write_apply, if_neg hx2, Pool.write_apply, if_neg hx1]
    cases pages x <;> simp [hm]

theorem pool_form_nil {pages : Pool} {x1 x2 p : Int} {P1 P2 PP : Page} :
    ∀ x, (((pages.write x1 P1).write x2 P2).write p PP) x =
        if x = p then some PP else if x = x2 then some P2 else if x = x1 then some P1
        else (pages x).map (fun pg => if x ∈ ([] : List Int) then pg.SetParentPageId x2
          else pg) := by
  intro x
  simp only [Pool.write_apply, List.not_mem_nil, if_false]
  by_cases hp : x = p
  · rw [if_pos hp, if_pos hp]
  rw [if_neg hp, if_neg hp]
  by_cases hx2 : x = x2
  · rw [if_pos hx2, if_pos hx2]
  rw [if_neg hx2, if_neg hx2]
  by_cases hx1 : x = x1
  · rw [if_pos hx1, if_pos hx1]
  rw [if_neg hx1, if_neg hx1]
  cases pages x <;> rfl

/-- The lemma `Shape.move` for a pool in the form of `pool_form`. -/
theorem Shape.moveForm {t t1 : BPlusTree} {lvl : Int → Nat} {dead : Int → Prop} {hole : Int}
    (hs : Shape t lvl dead hole) {p a b : Int} {pp pa pb : Page} (pp1 pa1 pb1 : Page)
    (rm : Prop) (hole1 : Int) (M : List Int) (hroot : t1.root_page_id = t.root_page_id)
    (hnext : t1.next_page_id = t.next_page_id)
    (hL : t1.leaf_max_size = t.leaf_max_size)
    (hI : t1.internal_max_size = t.internal_max_size)
    (hp : t.pages p = some pp) (hpl : ¬ dead p) (ha : t.pages a = some pa)
    (hb : t.pages b = some pb) (hap : a ∈ pp.children) (hbp : b ∈ pp.children) (hab : a ≠ b)
    (hform : ∀ x, t1.pages x =
        if x = p then some pp1 else if x = a then some pa1 else if x = b then some pb1
        else (t.pages x).map (fun pg => if x ∈ M then pg.SetParentPageId a else pg))
    (hhp : pp.SameHeader pp1) (hha : pa.SameHeader pa1) (hhb : pb.SameHeader pb1)
    (hcp : ∀ c, c ∈ pp1.children ↔ c ∈ pp.children ∧ ¬ (rm ∧ c = b))
    (hndp : pp1.children.Nodup)
    (hM : ∀ c ∈ M, c ∈ pb.children)
    (hca : ∀ c, c ∈ pa1.children ↔ c ∈ pa.children ∨ c ∈ M)
    (hcb : ∀ c, c ∈ pb1.children ↔ c ∈ pb.children ∧ c ∉ M)
    (hnda : pa1.children.Nodup) (hndb : pb1.children.Nodup)
    (hrm : rm → pb1.children = [])
    (hwide : (pp1.IsLeafPage = false →
        1 ≤ pp1.children.length ∧ (p ≠ hole1 → 2 ≤ pp1.children.length)) ∧
      (pa1.IsLeafPage = false →
        1 ≤ pa1.children.length ∧ (a ≠ hole1 → 2 ≤ pa1.children.length)) ∧
      (¬ rm → pb1.IsLeafPage = false →
        1 ≤ pb1.children.length ∧ (b ≠ hole1 → 2 ≤ pb1.children.length)))
    (hhole : hole = p ∨ hole = a ∨ hole = b ∨ hole = hole1) :
    Shape t1 lvl (fun d => dead d ∨ (rm ∧ d = b)) hole1 := by
  obtain ⟨-, hpc⟩ := hs.child p pp hp hpl
  have hpa : p ≠ a := by intro h; have := (hpc a hap).2.1; rw [h] at this; omega
  have hpb : p ≠ b := by intro h; have := (hpc b hbp).2.1; rw [h] at this; omega
  have hp1 : t1.pages p = some pp1 := by rw [hform, if_pos rfl]
  have ha1 : t1.pages a = some pa1 := by rw [hform, if_neg hpa.symm, if_pos rfl]
  have hb1 : t1.pages b = some pb1 := by
    rw [hform, if_neg hpb.symm, if_neg hab.symm, if_pos rfl]
  refine Shape.move hs pp1 pa1 pb1 rm hole1 M hroot hnext hL hI hp hpl ha hb hap hbp hab hp1
    ha1 hb1 hhp hha hhb hcp hndp hM hca hcb hnda hndb hrm ?_ ?_ ?_ hhole
  · intro q pg h1 h2 h3 hq
    rw [hform, if_neg h1, if_neg h2, if_neg h3, hq]
    rfl
  · intro q hq
    have h1 : q ≠ p := by intro h; rw [h, hp] at hq; cases hq
    have h2 : q ≠ a := by intro h; rw [h, ha] at hq; cases hq
    have h3 : q ≠ b := by intro h; rw [h, hb] at hq; cases hq
    rw [hform, if_neg h1, if_neg h2, if_neg h3, hq]
    rfl
  · intro x px hx hpx hleaf
    rcases hx with hx | hx | ⟨hx, hr⟩
    · subst hx; rw [hp1] at hpx; cases hpx; exact hwide.1 hleaf
    · subst hx; rw [ha1] at hpx; cases hpx; exact hwide.2.1 hleaf
    · subst hx; rw [hb1] at hpx; cases hpx; exact hwide.2.2 hr hleaf

/-- Entries of the leaves after a page move, for a pool in the form of `pool_form`. -/
theorem LeavesFrom.ofForm {t t1 : BPlusTree} {p a b : Int} {pp1 pa1 pb1 : Page}
    {M : List Int}
    (hform : ∀ x, t1.pages x =
        if x = p then some pp1 else if x = a then some pa1 else if x = b then some pb1
        else (t.pages x).map (fun pg => if x ∈ M then pg.SetParentPageId a else pg))
    (hpp : pp1.IsLeafPage = false)
    (hab : ∀ l e, (pa1 = .leaf l ∨ pb1 = .leaf l) → e ∈ l.array →
      ∃ q0 l0, t.pages q0 = some (.leaf l0) ∧ e ∈ l0.array) :
    LeavesFrom t1 t := by
  intro q l e hq he
  rw [hform] at hq
  by_cases h1 : q = p
  · rw [if_pos h1] at hq; cases hq; cases hpp
  rw [if_neg h1] at hq
  by_cases h2 : q = a
  · rw [if_pos h2] at hq; cases hq
    exact hab l e (Or.inl rfl) he
  rw [if_neg h2] at hq
  by_cases h3 : q = b
  · rw [if_pos h3] at hq; cases hq
    exact hab l e (Or.inr rfl) he
  rw [if_neg h3] at hq
  cases hpg : t.pages q with
  | none => rw [hpg] at hq; cases hq
  | some pg =>
    rw [hpg] at hq
    simp only [Option.map_some', Option.some.injEq] at hq
    by_cases hm : q ∈ M
    · rw [if_pos hm] at hq
      obtain ⟨l0, e1, e2, -⟩ := Page.setParent_eq_leaf hq
      subst e1
      exact ⟨q, l0, hpg, by rw [← e2]; exact he⟩
    · rw [if_neg hm] at hq
      subst hq
      exact ⟨q, l, hpg, he⟩

/-- `Redistribute` on a leaf that is not child 0 of its parent: the last entry of the left
sibling moves over. -/
theorem Redistribute_leaf_last {t : BPlusTree} {lvl : Int → Nat} {dead : Int → Prop}
    {node_id s : Int} {ln ls : LeafPage} {pn : InternalPage} {index : Nat}
    (hs : Shape t lvl dead node_id)
    (hnode : t.pages node_id = some (.leaf ln)) (hsib : t.pages s = some (.leaf ls))
    (hp : t.pages ln.parent_page_id = some (.internal pn)) (hpl : ¬ dead ln.parent_page_id)
    (hin : node_id ∈ (Page.internal pn).children) (hsin : s ∈ (Page.internal pn).children)
    (hne : node_id ≠ s) (hidx : index ≠ 0) (hsz : 1 ≤ ls.array.length) :
    ∃ t1, t.Redistribute s node_id index = .ok t1 ∧ Shape t1 lvl dead node_id ∧
      LeavesFrom t1 t := by
  obtain ⟨hnd, hc⟩ := hs.child _ _ hp hpl
  have hpn : ln.parent_page_id ≠ node_id := by
    intro h; have := (hc _ hin).2.1; rw [h] at this; omega
  obtain ⟨init, x, e1, e2, e3⟩ := list_last_split ls.array (by
    intro h; rw [h] at hsz; simp at hsz)
  have hkey : (ls.MoveLastToFrontOf ln).2.KeyAt 0 = some x.1 := by
    simp [LeafPage.MoveLastToFrontOf, LeafPage.KeyAt, e3]
  have hform := @pool_form_nil t.pages s node_id ln.parent_page_id
    (.leaf (ls.MoveLastToFrontOf ln).1) (.leaf (ls.MoveLastToFrontOf ln).2)
    (.internal (pn.SetKeyAt index x.1))
  refine ⟨((t.write s (.leaf (ls.MoveLastToFrontOf ln).1)).write node_id
      (.leaf (ls.MoveLastToFrontOf ln).2)).write ln.parent_page_id
      (.internal (pn.SetKeyAt index x.1)),
    (by simp only [BPlusTree.Redistribute, hnode, hsib, hp, if_neg hidx, hkey]), ?_, ?_⟩
  · refine Shape.deadEq (Shape.moveForm hs (.internal (pn.SetKeyAt index x.1))
      (.leaf (ls.MoveLastToFrontOf ln).2) (.leaf (ls.MoveLastToFrontOf ln).1) False node_id []
      rfl rfl rfl rfl hp hpl hnode hsib hin hsin hne hform ⟨rfl, rfl, rfl, rfl⟩
      ⟨rfl, rfl, rfl, rfl⟩ ⟨rfl, rfl, rfl, rfl⟩ ?_ ?_ ?_ ?_ ?_ ?_ ?_ ?_ ?_ ?_) ?_
    · intro c
      simp only [Page.children, InternalPage.SetKeyAt, map_snd_setKeyAt, false_and,
        not_false_eq_true, and_true]
    · simpa only [Page.children, InternalPage.SetKeyAt, map_snd_setKeyAt] using hnd
    · intro c hc; cases hc
    · intro c; simp [Page.children]
    · intro c; simp [Page.children]
    · simp [Page.children]
    · simp [Page.children]
    · intro h; exact absurd h id
    · refine ⟨fun _ => ?_, fun h => (by cases h), fun _ h => (by cases h)⟩
      have := (hs.wide _ _ hp hpl rfl).2 hpn
      simp only [Page.children, InternalPage.SetKeyAt, map_snd_setKeyAt, List.length_map]
        at this ⊢
      exact ⟨by omega, fun _ => this⟩
    · exact Or.inr (Or.inl rfl)
    · intro d; simp
  · refine LeavesFrom.ofForm hform rfl ?_
    intro l e hl he
    rcases hl with hl | hl
    · simp only [Page.leaf.injEq] at hl; subst hl
      simp only [LeafPage.MoveLastToFrontOf, List.mem_append] at he
      rcases he with he | he
      · exact ⟨s, ls, hsib, List.mem_of_mem_drop he⟩
      · exact ⟨node_id, ln, hnode, he⟩
    · simp only [Page.leaf.injEq] at hl; subst hl
      simp only [LeafPage.MoveLastToFrontOf] at he
      exact ⟨s, ls, hsib, List.mem_of_mem_dropLast he⟩

/-! ### Redistribution between internal pages -/

/-- What the shape says about two internal siblings `a` and `b` below the page `p`. -/
theorem Shape.siblings {t : BPlusTree} {lvl : Int → Nat} {dead : Int → Prop} {hole : Int}
    (hs : Shape t lvl dead hole) {p a b : Int} {pp pa pb : Page}
    (hp : t.pages p = some pp) (hpl : ¬ dead p) (ha : t.pages a = some pa)
    (hb : t.pages b = some pb) (hap : a ∈ pp.children) (hbp : b ∈ pp.children) (hab : a ≠ b) :
    ¬ dead a ∧ ¬ dead b ∧ pa.children.Nodup ∧ pb.children.Nodup ∧
      (∀ c, c ∈ pa.children → c ∉ pb.children) ∧
      (∀ c, c ∈ pa.children ∨ c ∈ pb.children → c ≠ a ∧ c ≠ b ∧ ∃ pg, t.pages c = some pg) ∧
      p ≠ a ∧ p ≠ b := by
  obtain ⟨-, hpc⟩ := hs.child p pp hp hpl
  obtain ⟨hal, hla, -⟩ := hpc a hap
  obtain ⟨hbl, hlb, -⟩ := hpc b hbp
  obtain ⟨hnda, hac⟩ := hs.child a pa ha hal
  obtain ⟨hndb, hbc⟩ := hs.child b pb hb hbl
  refine ⟨hal, hbl, hnda, hndb, ?_, ?_, ?_, ?_⟩
  · intro c h1 h2
    obtain ⟨-, -, pc, x3, x4⟩ := hac c h1
    obtain ⟨-, -, pc', y3, y4⟩ := hbc c h2
    rw [x3] at y3; cases y3
    exact hab (by rw [← x4, y4])
  · intro c hc
    have h1 : lvl a = lvl c + 1 ∧ ∃ pc, t.pages c = some pc := by
      rcases hc with hc | hc
      · obtain ⟨-, x2, pc, x3, -⟩ := hac c hc
        exact ⟨x2, pc, x3⟩
      · obtain ⟨-, x2, pc, x3, -⟩ := hbc c hc
        exact ⟨by omega, pc, x3⟩
    refine ⟨?_, ?_, h1.2⟩
    · intro h; rw [h] at h1; omega
    · intro h; rw [h] at h1; omega
  · intro h; rw [h] at hla; omega
  · intro h; rw [h] at hlb; omega

theorem mem_tail_iff (x : Int × Int) (tl : List (Int × Int))
    (hnd : ((x :: tl).map Prod.snd).Nodup) (c : Int) :
    c ∈ tl.map Prod.snd ↔
      c ∈ (x :: tl).map Prod.snd ∧ c ∉ ((x :: tl).take 1).map Prod.snd := by
  simp only [List.map_cons, List.nodup_cons] at hnd
  simp only [List.map_cons, List.mem_cons, List.take_succ_cons, List.take_zero, List.map_nil,
    List.not_mem_nil, or_false]
  constructor
  · intro h
    exact ⟨Or.inr h, fun hx => hnd.1 (by rw [← hx]; exact h)⟩
  · rintro ⟨h1 | h1, h2⟩
    · exact absurd h1 h2
    · exact h1

/-- `Redistribute` on an internal page that is child 0 of its parent: the first child of the
right sibling moves over. -/
theorem Redistribute_internal_first {t : BPlusTree} {lvl : Int → Nat} {dead : Int → Prop}
    {node_id s : Int} {nn ns : InternalPage} {pn : InternalPage}
    (hs : Shape t lvl dead node_id)
    (hnode : t.pages node_id = some (.internal nn)) (hsib : t.pages s = some (.internal ns))
    (hp : t.pages nn.parent_page_id = some (.internal pn)) (hpl : ¬ dead nn.parent_page_id)
    (hin : node_id ∈ (Page.internal pn).children) (hsin : s ∈ (Page.internal pn).children)
    (hne : node_id ≠ s) (hsz : 3 ≤ ns.array.length) :
    ∃ t1, t.Redistribute s node_id 0 = .ok t1 ∧ Shape t1 lvl dead node_id ∧
      LeavesFrom t1 t := by
  obtain ⟨hal, hbl, hnda, hndb, hsep, hkids, hpa, hpb⟩ :=
    hs.siblings hp hpl hnode hsib hin hsin hne
  have hid : nn.page_id = node_id := (hs.ids _ _ hnode).2
  have hw := hs.wide _ _ hp hpl rfl
  have hwn := hs.wide _ _ hnode hal rfl
  obtain ⟨x, y, z, rest, hns⟩ : ∃ x y z rest, ns.array = x :: y :: z :: rest := by
    match hl : ns.array, hsz with
    | x :: y :: z :: rest, _ => exact ⟨x, y, z, rest, rfl⟩
    | [_, _], h => simp at h
    | [_], h => simp at h
    | [], h => simp at h
  obtain ⟨k0, k1, prest, hpn⟩ : ∃ k0 k1 prest, pn.array = k0 :: k1 :: prest := by
    have h2 := hw.2 hpa
    simp only [Page.children, List.length_map] at h2
    match hl : pn.array, h2 with
    | k0 :: k1 :: prest, _ => exact ⟨k0, k1, prest, rfl⟩
    | [_], h => simp at h
    | [], h => simp at h
  have hmid : pn.KeyAt 1 = some k1.1 := by simp [InternalPage.KeyAt, hpn]
  have hkey : (ns.MoveFirstToEndOf nn k1.1).1.KeyAt 0 = some y.1 := by
    simp [InternalPage.MoveFirstToEndOf, InternalPage.KeyAt, hns]
  have hM : ∀ c ∈ (ns.array.take 1).map Prod.snd,
      c ≠ s ∧ c ≠ node_id ∧ ∃ pg, t.pages c = some pg := by
    intro c hc
    have : c ∈ (Page.internal ns).children := by
      simp only [Page.children]
      exact List.mem_map.2 (by
        obtain ⟨kc, h1, h2⟩ := List.mem_map.1 hc
        exact ⟨kc, List.mem_of_mem_take h1, h2⟩)
    obtain ⟨e1, e2, e3⟩ := hkids c (Or.inr this)
    exact ⟨e2, e1, e3⟩
  obtain ⟨pages1, hr, hform⟩ := @pool_form t.pages s node_id nn.parent_page_id nn.page_id
    (.internal (ns.MoveFirstToEndOf nn k1.1).1) (.internal (ns.MoveFirstToEndOf nn k1.1).2)
    (.internal (pn.SetKeyAt 1 y.1)) _ hM
  rw [hid] at hform
  refine ⟨({ (t.write s (.internal (ns.MoveFirstToEndOf nn k1.1).1)).write node_id
      (.internal (ns.MoveFirstToEndOf nn k1.1).2) with pages := pages1 } : BPlusTree).write
      nn.parent_page_id (.internal (pn.SetKeyAt 1 y.1)),
    (by simp only [BPlusTree.Redistribute, hnode, hsib, hp, if_true, hmid,
          BPlusTree.write_pages, hr, hkey]), ?_, ?_⟩
  · refine Shape.deadEq (Shape.moveForm hs (.internal (pn.SetKeyAt 1 y.1))
      (.internal (ns.MoveFirstToEndOf nn k1.1).2) (.internal (ns.MoveFirstToEndOf nn k1.1).1)
      False node_id ((ns.array.take 1).map Prod.snd)
      rfl rfl rfl rfl hp hpl hnode hsib hin hsin hne hform ⟨rfl, rfl, rfl, rfl⟩
      ⟨rfl, rfl, rfl, rfl⟩ ⟨rfl, rfl, rfl, rfl⟩ ?_ ?_ ?_ ?_ ?_ ?_ ?_ ?_ ?_ ?_) ?_
    · intro c
      simp only [Page.children, InternalPage.SetKeyAt, map_snd_setKeyAt, false_and,
        not_false_eq_true, and_true]
    · have := (hs.child _ _ hp hpl).1
      simpa only [Page.children, InternalPage.SetKeyAt, map_snd_setKeyAt] using this
    · intro c hc
      simp only [Page.children, hns, List.take_succ_cons, List.take_zero, List.map_cons,
        List.map_nil, List.mem_singleton] at hc ⊢
      simp [hc]
    · intro c
      simp only [Page.children, InternalPage.MoveFirstToEndOf, List.map_append, List.map_map,
        List.mem_append]
      constructor
      · rintro (h | h)
        · exact Or.inl h
        · refine Or.inr ?_
          simpa [Function.comp] using h
      · rintro (h | h)
        · exact Or.inl h
        · refine Or.inr ?_
          simpa [Function.comp] using h
    · intro c
      have hndb1 : (ns.array.map Prod.snd).Nodup := hndb
      rw [hns] at hndb1
      simp only [Page.children, InternalPage.MoveFirstToEndOf, hns, List.tail_cons]
      exact mem_tail_iff x _ hndb1 c
    · simp only [Page.children, InternalPage.MoveFirstToEndOf, hns, List.take_succ_cons,
        List.take_zero, List.map_cons, List.map_nil, List.map_append]
      simp only [Page.children] at hnda
      refine List.Nodup.append hnda (List.nodup_singleton _) ?_
      intro c h1 h2
      simp only [List.mem_singleton] at h2
      refine hsep c h1 ?_
      simp [Page.children, hns, h2]
    · have hndb1 : (ns.array.map Prod.snd).Nodup := hndb
      rw [hns] at hndb1
      simp only [Page.children, InternalPage.MoveFirstToEndOf, hns, List.tail_cons]
      exact (List.nodup_cons.1 hndb1).2
    · intro h; exact absurd h id
    · refine ⟨fun _ => ?_, fun _ => ?_, fun _ _ => ?_⟩
      · have := hw.2 hpa
        simp only [Page.children, InternalPage.SetKeyAt, map_snd_setKeyAt, List.length_map]
          at this ⊢
        exact ⟨by omega, fun _ => this⟩
      · have := hwn.1
        simp only [Page.children, InternalPage.MoveFirstToEndOf, List.length_map,
          List.length_append, hns, List.take_succ_cons, List.take_zero, List.length_cons,
          List.length_nil] at this ⊢
        exact ⟨by omega, fun _ => by omega⟩
      · simp only [Page.children, InternalPage.MoveFirstToEndOf, hns, List.tail_cons,
          List.length_map, List.length_cons]
        exact ⟨by omega, fun _ => by omega⟩
    · exact Or.inr (Or.inl rfl)
    · intro d; simp
  · refine LeavesFrom.ofForm hform rfl ?_
    intro l e hl he
    rcases hl with hl | hl <;> cases hl

theorem mem_init_iff (init : List (Int × Int)) (x : Int × Int)
    (hnd : ((init ++ [x]).map Prod.snd).Nodup) (c : Int) :
    c ∈ init.map Prod.snd ↔
      c ∈ (init ++ [x]).map Prod.snd ∧ c ∉ ([x] : List (Int × Int)).map Prod.snd := by
  simp only [List.map_append, List.map_cons, List.map_nil] at hnd
  have hd := List.disjoint_of_nodup_append hnd
  simp only [List.map_append, List.map_cons, List.map_nil, List.mem_append, List.mem_singleton]
  constructor
  · intro h
    exact ⟨Or.inl h, fun hx => hd h (by simp [hx])⟩
  · rintro ⟨h1 | h1, h2⟩
    · exact h1
    · exact absurd h1 h2

/-- `Redistribute` on an internal page that is not child 0 of its parent: the last child of
the left sibling moves over. -/
theorem Redistribute_internal_last {t : BPlusTree} {lvl : Int → Nat} {dead : Int → Prop}
    {node_id s : Int} {nn ns : InternalPage} {pn : InternalPage} {index : Nat} {mk : Int}
    (hs : Shape t lvl dead node_id)
    (hnode : t.pages node_id = some (.internal nn)) (hsib : t.pages s = some (.internal ns))
    (hp : t.pages nn.parent_page_id = some (.internal pn)) (hpl : ¬ dead nn.parent_page_id)
    (hin : node_id ∈ (Page.internal pn).children) (hsin : s ∈ (Page.internal pn).children)
    (hne : node_id ≠ s) (hidx : index ≠ 0) (hmid : pn.KeyAt index = some mk)
    (hsz : 3 ≤ ns.array.length) :
    ∃ t1, t.Redistribute s node_id index = .ok t1 ∧ Shape t1 lvl dead node_id ∧
      LeavesFrom t1 t := by
  obtain ⟨hal, hbl, hnda, hndb, hsep, hkids, hpa, hpb⟩ :=
    hs.siblings hp hpl hnode hsib hin hsin hne
  have hid : nn.page_id = node_id := (hs.ids _ _ hnode).2
  have hw := hs.wide _ _ hp hpl rfl
  have hwn := hs.wide _ _ hnode hal rfl
  obtain ⟨init, x, e1, e2, e3⟩ := list_last_split ns.array (by
    intro h; rw [h] at hsz; simp at hsz)
  have hinit : 2 ≤ init.length := by
    rw [e1] at hsz; simp at hsz; omega
  have hndb1 : ((init ++ [x]).map Prod.snd).Nodup := by
    have : (ns.array.map Prod.snd).Nodup := hndb
    rw [e1] at this; exact this
  have hkey : (ns.MoveLastToFrontOf nn mk).2.KeyAt 0 = some x.1 := by
    simp [InternalPage.MoveLastToFrontOf, InternalPage.KeyAt, e3]
  have hM : ∀ c ∈ (ns.array.drop (ns.array.length - 1)).map Prod.snd,
      c ≠ s ∧ c ≠ node_id ∧ ∃ pg, t.pages c = some pg := by
    intro c hc
    have : c ∈ (Page.internal ns).children := by
      simp only [Page.children]
      exact List.mem_map.2 (by
        obtain ⟨kc, h1, h2⟩ := List.mem_map.1 hc
        exact ⟨kc, List.mem_of_mem_drop h1, h2⟩)
    obtain ⟨e1, e2, e3⟩ := hkids c (Or.inr this)
    exact ⟨e2, e1, e3⟩
  obtain ⟨pages1, hr, hform⟩ := @pool_form t.pages s node_id nn.parent_page_id nn.page_id
    (.internal (ns.MoveLastToFrontOf nn mk).1) (.internal (ns.MoveLastToFrontOf nn mk).2)
    (.internal (pn.SetKeyAt index x.1)) _ hM
  rw [hid] at hform
  refine ⟨({ (t.write s (.internal (ns.MoveLastToFrontOf nn mk).1)).write node_id
      (.internal (ns.MoveLastToFrontOf nn mk).2) with pages := pages1 } : BPlusTree).write
      nn.parent_page_id (.internal (pn.SetKeyAt index x.1)),
    (by simp only [BPlusTree.Redistribute, hnode, hsib, hp, if_neg hidx, hmid,
          BPlusTree.write_pages, hr, hkey]), ?_, ?_⟩
  · refine Shape.deadEq (Shape.moveForm hs (.internal (pn.SetKeyAt index x.1))
      (.internal (ns.MoveLastToFrontOf nn mk).2) (.internal (ns.MoveLastToFrontOf nn mk).1)
      False node_id ((ns.array.drop (ns.array.length - 1)).map Prod.snd)
      rfl rfl rfl rfl hp hpl hnode hsib hin hsin hne hform ⟨rfl, rfl, rfl, rfl⟩
      ⟨rfl, rfl, rfl, rfl⟩ ⟨rfl, rfl, rfl, rfl⟩ ?_ ?_ ?_ ?_ ?_ ?_ ?_ ?_ ?_ ?_) ?_
    · intro c
      simp only [Page.children, InternalPage.SetKeyAt, map_snd_setKeyAt, false_and,
        not_false_eq_true, and_true]
    · have := (hs.child _ _ hp hpl).1
      simpa only [Page.children, InternalPage.SetKeyAt, map_snd_setKeyAt] using this
    · intro c hc
      simp only [Page.children]
      obtain ⟨kc, h1, h2⟩ := List.mem_map.1 hc
      exact List.mem_map.2 ⟨kc, List.mem_of_mem_drop h1, h2⟩
    · intro c
      simp only [Page.children, InternalPage.MoveLastToFrontOf, List.map_append,
        map_snd_setKeyAt, List.mem_append]
      exact Or.comm
    · intro c
      simp only [Page.children, InternalPage.MoveLastToFrontOf, e2, e3]
      rw [e1]
      exact mem_init_iff init x hndb1 c
    · simp only [Page.children, InternalPage.MoveLastToFrontOf, List.map_append,
        map_snd_setKeyAt, e3]
      simp only [Page.children] at hnda
      refine List.Nodup.append (List.nodup_singleton _) hnda ?_
      intro c h1 h2
      simp only [List.map_cons, List.map_nil, List.mem_singleton] at h1
      refine hsep c h2 ?_
      simp [Page.children, e1, h1]
    · simp only [Page.children, InternalPage.MoveLastToFrontOf, e2]
      simp only [List.map_append] at hndb1
      exact (List.nodup_append.1 hndb1).1
    · intro h; exact absurd h id
    · refine ⟨fun _ => ?_, fun _ => ?_, fun _ _ => ?_⟩
      · have := hw.2 hpa
        simp only [Page.children, InternalPage.SetKeyAt, map_snd_setKeyAt, List.length_map]
          at this ⊢
        exact ⟨by omega, fun _ => this⟩
      · have := hwn.1
        simp only [Page.children, InternalPage.MoveLastToFrontOf, List.length_map,
          List.length_append, e3, List.length_cons, List.length_nil] at this ⊢
        exact ⟨by omega, fun _ => by omega⟩
      · simp only [Page.children, InternalPage.MoveLastToFrontOf, e2, List.length_map]
        exact ⟨by omega, fun _ => by omega⟩
    · exact Or.inr (Or.inl rfl)
    · intro d; simp
  · refine LeavesFrom.ofForm hform rfl ?_
    intro l e hl he
    rcases hl with hl | hl <;> cases hl

/-! ### Coalescing into the left sibling -/

/-- Children of a parent page after `Remove(index)` of the slot of `node_id`. -/
theorem children_remove {pn : InternalPage} {pre post : List (Int × Int)} {kc : Int × Int}
    (harr : pn.array = pre ++ kc :: post) (hnd : (pn.array.map Prod.snd).Nodup) :
    (∀ c, c ∈ (Page.internal (pn.Remove pre.length)).children ↔
      c ∈ (Page.internal pn).children ∧ ¬ (True ∧ c = kc.2)) ∧
    (Page.internal (pn.Remove pre.length)).children.Nodup ∧
    (Page.internal (pn.Remove pre.length)).children.length + 1 = pn.array.length := by
  rw [harr] at hnd
  simp only [List.map_append, List.map_cons] at hnd
  have h1 := List.nodup_append.1 hnd
  have h2 := List.nodup_cons.1 h1.2.1
  have hd := h1.2.2
  simp only [Page.children, InternalPage.Remove, harr, eraseIdx_split, List.map_append,
    List.map_cons, List.mem_append, List.mem_cons, true_and, List.length_append,
    List.length_map, List.length_cons]
  refine ⟨?_, ?_, by omega⟩
  · intro c
    constructor
    · rintro (h | h)
      · exact ⟨Or.inl h, fun hx => hd h (by rw [hx]; exact List.mem_cons_self _ _)⟩
      · exact ⟨Or.inr (Or.inr h), fun hx => h2.1 (by rw [← hx]; exact h)⟩
    · rintro ⟨h | h | h, hx⟩
      · exact Or.inl h
      · exact absurd h hx
      · exact Or.inr h
  · refine List.Nodup.append h1.1 h2.2 ?_
    intro c hc1 hc2
    exact hd hc1 (List.mem_cons_of_mem _ hc2)

/-- `Coalesce` of a leaf that is not child 0 of its parent: the leaf is emptied into its left
sibling, the parent drops its slot, and the recursive call is made on this state. -/
theorem Coalesce_leaf_spec {t : BPlusTree} {lvl : Int → Nat} {dead : Int → Prop}
    {node_id s : Int} {ln ls : LeafPage} {pn : InternalPage} {pre post : List (Int × Int)}
    {kc : Int × Int} (hs : Shape t lvl dead node_id)
    (hnode : t.pages node_id = some (.leaf ln)) (hsib : t.pages s = some (.leaf ls))
    (hp : t.pages ln.parent_page_id = some (.internal pn)) (hpl : ¬ dead ln.parent_page_id)
    (harr : pn.array = pre ++ kc :: post) (hkc : kc.2 = node_id) (hidx : pre.length ≠ 0)
    (hsin : s ∈ (Page.internal pn).children) (hne : node_id ≠ s) :
    ∃ t1, (∀ recur txn, BPlusTree.Coalesce recur t s node_id ln.parent_page_id pre.length txn =
        recur t1 ln.parent_page_id txn) ∧
      Shape t1 lvl (fun d => dead d ∨ d = node_id) ln.parent_page_id ∧ LeavesFrom t1 t ∧
      t1.pages ln.parent_page_id = some (.internal (pn.Remove pre.length)) ∧
      t1.root_page_id = t.root_page_id ∧ t1.leaf_max_size = t.leaf_max_size ∧
      t1.internal_max_size = t.internal_max_size := by
  have hin : node_id ∈ (Page.internal pn).children := by
    simp [Page.children, harr, hkc]
  have hndp := (hs.child _ _ hp hpl).1
  obtain ⟨r1, r2, r3⟩ := children_remove harr hndp
  rw [hkc] at r1
  have hw := hs.wide _ _ hp hpl rfl
  have hform := @pool_form_nil t.pages node_id s ln.parent_page_id
    (.leaf (ln.MoveAllTo ls).1)
    (.leaf { (ln.MoveAllTo ls).2 with next_page_id := ln.next_page_id })
    (.internal (pn.Remove pre.length))
  refine ⟨((t.write node_id (.leaf (ln.MoveAllTo ls).1)).write s
      (.leaf { (ln.MoveAllTo ls).2 with next_page_id := ln.next_page_id })).write
      ln.parent_page_id (.internal (pn.Remove pre.length)), ?_, ?_, ?_, ?_, rfl, rfl, rfl⟩
  · intro recur txn
    simp only [BPlusTree.Coalesce, if_neg hidx, hp, hnode, hsib]
  · refine Shape.deadEq (Shape.moveForm hs (.internal (pn.Remove pre.length))
      (.leaf { (ln.MoveAllTo ls).2 with next_page_id := ln.next_page_id })
      (.leaf (ln.MoveAllTo ls).1) True ln.parent_page_id []
      rfl rfl rfl rfl hp hpl hsib hnode hsin hin hne.symm hform ⟨rfl, rfl, rfl, rfl⟩
      ⟨rfl, rfl, rfl, rfl⟩ ⟨rfl, rfl, rfl, rfl⟩ r1 r2 ?_ ?_ ?_ ?_ ?_ ?_ ?_ ?_) ?_
    · intro c hc; cases hc
    · intro c; simp [Page.children]
    · intro c; simp [Page.children]
    · simp [Page.children]
    · simp [Page.children]
    · intro _; rfl
    · have hpn : ln.parent_page_id ≠ node_id := by
        intro h
        have := ((hs.child _ _ hp hpl).2 _ hin).2.1
        rw [h] at this; omega
      have h2 := hw.2 hpn
      simp only [Page.children, List.length_map] at h2
      refine ⟨fun _ => ⟨by omega, fun h => absurd rfl h⟩, fun h => (by cases h),
        fun h => absurd trivial h⟩
    · exact Or.inr (Or.inr (Or.inl rfl))
    · intro d; simp
  · refine LeavesFrom.ofForm hform rfl ?_
    intro l e hl he
    rcases hl with hl | hl
    · simp only [Page.leaf.injEq] at hl; subst hl
      simp only [LeafPage.MoveAllTo, List.mem_append] at he
      rcases he with he | he
      · exact ⟨s, ls, hsib, he⟩
      · exact ⟨node_id, ln, hnode, he⟩
    · simp only [Page.leaf.injEq] at hl; subst hl
      simp [LeafPage.MoveAllTo] at he
  · simp only [BPlusTree.write_pages, Pool.write_apply, if_true]

/-- `Coalesce` of an internal page that is not child 0 of its parent: its children go to the
left sibling, the parent drops its slot, and the recursive call is made on this state. -/
theorem Coalesce_internal_spec {t : BPlusTree} {lvl : Int → Nat} {dead : Int → Prop}
    {node_id s : Int} {nn ns : InternalPage} {pn : InternalPage}
    {pre post : List (Int × Int)} {kc : Int × Int} (hs : Shape t lvl dead node_id)
    (hnode : t.pages node_id = some (.internal nn)) (hsib : t.pages s = some (.internal ns))
    (hp : t.pages nn.parent_page_id = some (.internal pn)) (hpl : ¬ dead nn.parent_page_id)
    (harr : pn.array = pre ++ kc :: post) (hkc : kc.2 = node_id) (hidx : pre.length ≠ 0)
    (hsin : s ∈ (Page.internal pn).children) (hne : node_id ≠ s) :
    ∃ t1, (∀ recur txn, BPlusTree.Coalesce recur t s node_id nn.parent_page_id pre.length txn =
        recur t1 nn.parent_page_id txn) ∧
      Shape t1 lvl (fun d => dead d ∨ d = node_id) nn.parent_page_id ∧ LeavesFrom t1 t ∧
      t1.pages nn.parent_page_id = some (.internal (pn.Remove pre.length)) ∧
      t1.root_page_id = t.root_page_id ∧ t1.leaf_max_size = t.leaf_max_size ∧
      t1.internal_max_size = t.internal_max_size := by
  have hin : node_id ∈ (Page.internal pn).children := by
    simp [Page.children, harr, hkc]
  obtain ⟨hal, hbl, hnda, hndb, hsep, hkids, hpa, hpb⟩ :=
    hs.siblings hp hpl hsib hnode hsin hin hne.symm
  have hid : ns.page_id = s := (hs.ids _ _ hsib).2
  have hndp := (hs.child _ _ hp hpl).1
  obtain ⟨r1, r2, r3⟩ := children_remove harr hndp
  rw [hkc] at r1
  have hw := hs.wide _ _ hp hpl rfl
  have hws := hs.wide _ _ hsib hal rfl
  have hmid : pn.KeyAt pre.length = some kc.1 := by
    simp only [InternalPage.KeyAt, harr, get?_split, Option.map_some']
  have hM : ∀ c ∈ nn.array.map Prod.snd,
      c ≠ node_id ∧ c ≠ s ∧ ∃ pg, t.pages c = some pg := by
    intro c hc
    obtain ⟨e1, e2, e3⟩ := hkids c (Or.inr hc)
    exact ⟨e2, e1, e3⟩
  obtain ⟨pages1, hr, hform⟩ := @pool_form t.pages node_id s nn.parent_page_id ns.page_id
    (.internal (nn.MoveAllTo ns kc.1).1) (.internal (nn.MoveAllTo ns kc.1).2)
    (.internal (pn.Remove pre.length)) _ hM
  rw [hid] at hform
  refine ⟨({ (t.write node_id (.internal (nn.MoveAllTo ns kc.1).1)).write s
      (.internal (nn.MoveAllTo ns kc.1).2) with pages := pages1 } : BPlusTree).write
      nn.parent_page_id (.internal (pn.Remove pre.length)), ?_, ?_, ?_, ?_, rfl, rfl, rfl⟩
  · intro recur txn
    simp only [BPlusTree.Coalesce, if_neg hidx, hp, hnode, hsib, hmid, BPlusTree.write_pages,
      hr]
  · refine Shape.deadEq (Shape.moveForm hs (.internal (pn.Remove pre.length))
      (.internal (nn.MoveAllTo ns kc.1).2) (.internal (nn.MoveAllTo ns kc.1).1)
      True nn.parent_page_id (nn.array.map Prod.snd)
      rfl rfl rfl rfl hp hpl hsib hnode hsin hin hne.symm hform ⟨rfl, rfl, rfl, rfl⟩
      ⟨rfl, rfl, rfl, rfl⟩ ⟨rfl, rfl, rfl, rfl⟩ r1 r2 ?_ ?_ ?_ ?_ ?_ ?_ ?_ ?_) ?_
    · intro c hc; exact hc
    · intro c
      simp only [Page.children, InternalPage.MoveAllTo, List.map_append, map_snd_setKeyAt,
        List.mem_append]
    · intro c
      simp only [Page.children, InternalPage.MoveAllTo, List.map_nil, List.not_mem_nil,
        false_iff, not_and, not_not]
      exact fun h => h
    · simp only [Page.children, InternalPage.MoveAllTo, List.map_append, map_snd_setKeyAt]
      exact List.Nodup.append hnda hndb (fun c h1 h2 => hsep c h1 h2)
    · simp [Page.children, InternalPage.MoveAllTo]
    · intro _; rfl
    · have h2 := hw.2 hpb
      have h3 := hws.2 hne.symm
      simp only [Page.children, List.length_map] at h2 h3
      refine ⟨fun _ => ⟨by omega, fun h => absurd rfl h⟩, fun _ => ?_,
        fun h => absurd trivial h⟩
      simp only [Page.children, InternalPage.MoveAllTo, List.length_map, List.length_append]
      exact ⟨by omega, fun _ => by omega⟩
    · exact Or.inr (Or.inr (Or.inl rfl))
    · intro d; simp
  · refine LeavesFrom.ofForm hform rfl ?_
    intro l e hl he
    rcases hl with hl | hl <;> cases hl
  · simp only [BPlusTree.write_pages, Pool.write_apply, if_true]

/-! ### The root after a removal -/

/-- `AdjustRoot` on the root page: an internal root with a single child hands the root over
to that child, every other root stays. -/
theorem AdjustRoot_spec {t : BPlusTree} {lvl : Int → Nat} {dead : Int → Prop} {node_id : Int}
    (hs : Shape t lvl dead node_id) (hroot : node_id = t.root_page_id)
    (hleaf : ∀ l, t.pages node_id = some (.leaf l) → l.array ≠ []) :
    ∃ t1 b, t.AdjustRoot node_id = .ok (t1, b) ∧
      Shape t1 lvl (fun d => dead d ∨ (b = true ∧ d = node_id)) node_id ∧ LeavesFrom t1 t := by
  obtain ⟨pr, hpr, hpar, hlive⟩ := hs.root
  rw [← hroot] at hpr hlive
  have hsame : Shape t lvl (fun d => dead d ∨ (false = true ∧ d = node_id)) node_id :=
    Shape.deadEq hs (by intro d; simp)
  cases pr with
  | leaf l =>
    have hne := hleaf l hpr
    have hsz : ¬ (l.GetSize = 0) := by
      simp only [LeafPage.GetSize]
      intro h
      have : l.array.length = 0 := by omega
      exact hne (List.length_eq_zero.1 this)
    exact ⟨t, false, by simp only [BPlusTree.AdjustRoot, hpr, if_neg hsz], hsame,
      LeavesFrom.refl t⟩
  | internal n =>
    by_cases hone : n.GetSize = 1
    swap
    · exact ⟨t, false, by simp only [BPlusTree.AdjustRoot, hpr, if_neg hone], hsame,
        LeavesFrom.refl t⟩
    obtain ⟨kc, hn⟩ : ∃ kc, n.array = [kc] := by
      simp only [InternalPage.GetSize] at hone
      match h : n.array, hone with
      | [kc], _ => exact ⟨kc, rfl⟩
      | [], h1 => simp at h1
      | _ :: _ :: _, h1 => simp at h1; omega
    obtain ⟨-, hc⟩ := hs.child _ _ hpr hlive
    have hcin : kc.2 ∈ (Page.internal n).children := by simp [Page.children, hn]
    obtain ⟨hcl, hlc, pc, hpc, hcpar⟩ := hc kc.2 hcin
    have hcr : kc.2 ≠ node_id := by intro h; rw [h] at hlc; omega
    have hval : n.RemoveAndReturnOnlyChild.1 = some kc.2 := by
      simp [InternalPage.RemoveAndReturnOnlyChild, InternalPage.ValueAt, hn]
    have hform : ∀ x, (((({ t.write node_id (.internal n.RemoveAndReturnOnlyChild.2) with
        root_page_id := kc.2 } : BPlusTree).UpdateRootPageId 0).write kc.2
        (pc.SetParentPageId INVALID_PAGE_ID)).pages x) =
        if x = kc.2 then some (pc.SetParentPageId INVALID_PAGE_ID)
        else if x = node_id then some (.internal n.RemoveAndReturnOnlyChild.2)
        else t.pages x := by
      intro x
      simp only [BPlusTree.write_pages, BPlusTree.UpdateRootPageId, Pool.write_apply]
    refine ⟨((({ t.write node_id (.internal n.RemoveAndReturnOnlyChild.2) with
        root_page_id := kc.2 } : BPlusTree).UpdateRootPageId 0).write kc.2
        (pc.SetParentPageId INVALID_PAGE_ID)), true, ?_, ?_, ?_⟩
    · simp only [BPlusTree.AdjustRoot, hpr, if_pos hone, hval, BPlusTree.UpdateRootPageId,
        BPlusTree.write_pages, Pool.write_apply, if_neg hcr, hpc]
    · -- pages of the new state, read backwards
      have hback : ∀ q pg1, q ≠ node_id → (if q = kc.2 then some (pc.SetParentPageId
          INVALID_PAGE_ID) else if q = node_id then some (.internal n.RemoveAndReturnOnlyChild.2)
          else t.pages q) = some pg1 →
          ∃ pg, t.pages q = some pg ∧ pg1.GetPageId = pg.GetPageId ∧
            pg1.IsLeafPage = pg.IsLeafPage ∧ pg1.GetMaxSize = pg.GetMaxSize ∧
            pg1.children = pg.children ∧ (q ≠ kc.2 → pg1 = pg) := by
        intro q pg1 h1 hq
        by_cases h2 : q = kc.2
        · rw [if_pos h2] at hq
          simp only [Option.some.injEq] at hq
          subst hq
          exact ⟨pc, by rw [h2]; exact hpc, Page.getPageId_setParent _ _,
            Page.isLeaf_setParent _ _, Page.maxSize_setParent _ _,
            Page.children_setParent _ _, fun h => absurd h2 h⟩
        · rw [if_neg h2, if_neg h1] at hq
          exact ⟨pg1, hq, rfl, rfl, rfl, rfl, fun _ => rfl⟩
      have hfwd : ∀ q pg, q ≠ node_id → q ≠ kc.2 → t.pages q = some pg →
          (if q = kc.2 then some (pc.SetParentPageId INVALID_PAGE_ID)
          else if q = node_id then some (.internal n.RemoveAndReturnOnlyChild.2)
          else t.pages q) = some pg := by
        intro q pg h1 h2 hq
        rw [if_neg h2, if_neg h1]; exact hq
      refine
        { ids := ?_, root := ?_, kind := ?_, wide := ?_, child := ?_, listed := ?_,
          lvlRoot := ?_, fuel := ?_ }
      · intro q pg1 hq
        rw [hform] at hq
        by_cases h1 : q = node_id
        · have hq2 : pg1 = .internal n.RemoveAndReturnOnlyChild.2 := by
            rw [if_neg (by rw [h1]; exact hcr.symm), if_pos h1] at hq
            simp only [Option.some.injEq] at hq
            exact hq.symm
          subst hq2
          rw [h1]
          exact hs.ids _ (.internal n) hpr
        · obtain ⟨pg, e1, e2, -⟩ := hback q pg1 h1 hq
          have := hs.ids _ _ e1
          exact ⟨this.1, by rw [e2]; exact this.2⟩
      · refine ⟨pc.SetParentPageId INVALID_PAGE_ID, ?_, Page.getParent_setParent _ _, ?_⟩
        · show ((({ t.write node_id (.internal n.RemoveAndReturnOnlyChild.2) with
            root_page_id := kc.2 } : BPlusTree).UpdateRootPageId 0).write kc.2
            (pc.SetParentPageId INVALID_PAGE_ID)).pages kc.2 = _
          rw [hform, if_pos rfl]
        · show ¬ (dead kc.2 ∨ (true = true ∧ kc.2 = node_id))
          rintro (h | ⟨-, h⟩)
          · exact hcl h
          · exact hcr h
      · intro q pg1 hq hql
        rw [hform] at hq
        have h1 : q ≠ node_id := fun h => hql (Or.inr ⟨rfl, h⟩)
        obtain ⟨pg, e1, -, e3, e4, -⟩ := hback q pg1 h1 hq
        have := hs.kind _ pg e1 (fun h => hql (Or.inl h))
        rw [e3, e4]; exact this
      · intro q pg1 hq hql hlf
        rw [hform] at hq
        have h1 : q ≠ node_id := fun h => hql (Or.inr ⟨rfl, h⟩)
        obtain ⟨pg, e1, -, e3, -, e5, -⟩ := hback q pg1 h1 hq
        have := hs.wide _ pg e1 (fun h => hql (Or.inl h)) (by rw [← e3]; exact hlf)
        rw [e5]; exact this
      · intro q pg1 hq hql
        rw [hform] at hq
        have h1 : q ≠ node_id := fun h => hql (Or.inr ⟨rfl, h⟩)
        obtain ⟨pg, e1, -, -, -, e5, e6⟩ := hback q pg1 h1 hq
        obtain ⟨y1, y2⟩ := hs.child _ pg e1 (fun h => hql (Or.inl h))
        rw [e5]
        refine ⟨y1, ?_⟩
        intro d hd
        obtain ⟨x1, x2, pd, x3, x4⟩ := y2 d hd
        have hdr : d ≠ node_id := by
          intro h
          rw [h, hpr] at x3; cases x3
          have hp := (hs.ids _ _ e1).1
          rw [hpar] at x4
          simp only [INVALID_PAGE_ID] at x4; omega
        have hdc : d ≠ kc.2 := by
          intro h
          rw [h, hpc] at x3; cases x3
          exact h1 (by rw [← x4, hcpar])
        refine ⟨?_, x2, pd, ?_, x4⟩
        · rintro (h | ⟨-, h⟩)
          · exact x1 h
          · exact hdr h
        · rw [hform]; exact hfwd d pd hdr hdc x3
      · intro q pg1 hq hql hqr
        rw [hform] at hq
        have h1 : q ≠ node_id := fun h => hql (Or.inr ⟨rfl, h⟩)
        have h2 : q ≠ kc.2 := hqr
        obtain ⟨pg, e1, -, -, -, -, e6⟩ := hback q pg1 h1 hq
        have e7 := e6 h2
        subst e7
        obtain ⟨y1, xp, y2, y3⟩ := hs.listed _ pg1 e1 (fun h => hql (Or.inl h))
          (by rw [← hroot]; exact h1)
        have hxr : pg1.GetParentPageId ≠ node_id := by
          intro h
          rw [h, hpr] at y2; cases y2
          simp only [Page.children, hn, List.map_cons, List.map_nil, List.mem_singleton] at y3
          exact h2 y3
        refine ⟨?_, ?_⟩
        · rintro (h | ⟨-, h⟩)
          · exact y1 h
          · exact hxr h
        · by_cases hxc : pg1.GetParentPageId = kc.2
          · rw [hxc] at y2 ⊢
            rw [hpc] at y2; cases y2
            exact ⟨pc.SetParentPageId INVALID_PAGE_ID, by rw [hform, if_pos rfl],
              by rw [Page.children_setParent]; exact y3⟩
          · exact ⟨xp, by rw [hform]; exact hfwd _ xp hxr hxc y2, y3⟩
      · intro q pg1 hq hql
        rw [hform] at hq
        have h1 : q ≠ node_id := fun h => hql (Or.inr ⟨rfl, h⟩)
        show lvl q ≤ lvl kc.2
        by_cases h2 : q = kc.2
        · rw [h2]
        · obtain ⟨pg, e1, -, -, -, -, e6⟩ := hback q pg1 h1 hq
          obtain ⟨y1, xp, y2, y3⟩ := hs.listed _ pg e1 (fun h => hql (Or.inl h))
            (by rw [← hroot]; exact h1)
          have z1 := ((hs.child _ xp y2 y1).2 q y3).2.1
          have z2 := hs.lvlRoot _ xp y2 y1
          rw [← hroot] at z2
          omega
      · show lvl kc.2 < t.next_page_id.toNat
        have := hs.fuel
        rw [← hroot] at this
        omega
    · intro q l e hq he
      rw [hform] at hq
      by_cases h2 : q = kc.2
      · rw [if_pos h2] at hq
        simp only [Option.some.injEq] at hq
        obtain ⟨l0, e1, e2, -⟩ := Page.setParent_eq_leaf hq
        exact ⟨kc.2, l0, by rw [hpc, e1], by rw [← e2]; exact he⟩
      · rw [if_neg h2] at hq
        by_cases h1 : q = node_id
        · rw [if_pos h1] at hq; cases hq
        · rw [if_neg h1] at hq
          exact ⟨q, l, hq, he⟩

/-- The sibling that `CoalesceOrRedistribute` reads for a live page that is not the root. -/
theorem Shape.neighbour {t : BPlusTree} {lvl : Int → Nat} {dead : Int → Prop} {node_id : Int}
    {node : Page} (hs : Shape t lvl dead node_id) (hnode : t.pages node_id = some node)
    (hlive : ¬ dead node_id) (hnr : node_id ≠ t.root_page_id) :
    ∃ pn pre kc post s ps, t.pages node.GetParentPageId = some (.internal pn) ∧
      ¬ dead node.GetParentPageId ∧ pn.array = pre ++ kc :: post ∧ kc.2 = node_id ∧
      pn.ValueIndex node.GetPageId = some pre.length ∧
      pn.ValueAt (if pre.length = 0 then 1 else pre.length - 1) = some s ∧
      t.pages s = some ps ∧ s ∈ (Page.internal pn).children ∧ node_id ≠ s ∧
      ps.IsLeafPage = node.IsLeafPage ∧
      (pre.length = 0 → ∃ kc1 post1, pn.array = kc :: kc1 :: post1 ∧ kc1.2 = s) := by
  obtain ⟨pn, pre, kc, post, hp, hpl, harr, hkc, hidx, h2, hnd, hlvl⟩ :=
    hs.family hnode hlive hnr
  have hchild := (hs.child _ _ hp hpl).2
  -- the sibling slot
  have hsl : ∃ kc1, pn.ValueAt (if pre.length = 0 then 1 else pre.length - 1) = some kc1.2 ∧
      kc1 ∈ pn.array ∧ kc1.2 ≠ node_id ∧
      (pre.length = 0 → ∃ post1, pn.array = kc :: kc1 :: post1) := by
    rw [harr] at hnd h2
    obtain rfl | ⟨y, ys, rfl⟩ : pre = [] ∨ ∃ y ys, pre = y :: ys := by
      cases pre with
      | nil => exact Or.inl rfl
      | cons y ys => exact Or.inr ⟨y, ys, rfl⟩
    · obtain rfl | ⟨kc1, post1, rfl⟩ : post = [] ∨ ∃ y ys, post = y :: ys := by
        cases post with
        | nil => exact Or.inl rfl
        | cons y ys => exact Or.inr ⟨y, ys, rfl⟩
      · simp at h2
      · refine ⟨kc1, by simp [InternalPage.ValueAt, harr], by simp [harr], ?_,
          fun _ => ⟨post1, harr⟩⟩
        simp only [List.nil_append, List.map_cons, List.nodup_cons, List.mem_cons] at hnd
        intro h
        exact hnd.1 (Or.inl (by rw [hkc, h]))
    · obtain ⟨init, kc1, e1, -, -⟩ := list_last_split (y :: ys) (by simp)
      rw [e1] at hnd harr ⊢
      refine ⟨kc1, ?_, by simp [harr], ?_, fun h => by simp at h⟩
      · have hlen : (if (init ++ [kc1]).length = 0 then 1 else (init ++ [kc1]).length - 1) =
            (init ++ [kc1]).length - 1 := by simp
        rw [hlen]
        simp only [InternalPage.ValueAt, harr, get?_split_last, Option.map_some']
      · simp only [List.map_append, List.map_cons, List.map_nil] at hnd
        have hd := List.disjoint_of_nodup_append hnd
        intro h
        exact hd (show kc1.2 ∈ init.map Prod.snd ++ [kc1.2] by simp)
          (by rw [h, hkc]; exact List.mem_cons_self _ _)
  obtain ⟨kc1, hv, hmem, hne, hfirst⟩ := hsl
  have hsin : kc1.2 ∈ (Page.internal pn).children := by
    simp only [Page.children]
    exact List.mem_map.2 ⟨kc1, hmem, rfl⟩
  obtain ⟨hsl, hslvl, ps, hps, -⟩ := hchild kc1.2 hsin
  have hk1 := (hs.kind _ _ hnode hlive).1
  have hk2 := (hs.kind _ _ hps hsl).1
  have hkind : ps.IsLeafPage = node.IsLeafPage := by
    have hl : lvl kc1.2 = lvl node_id := by omega
    rw [hl] at hk2
    cases h1 : ps.IsLeafPage <;> cases h2 : node.IsLeafPage <;> simp_all
  refine ⟨pn, pre, kc, post, kc1.2, ps, hp, hpl, harr, hkc, hidx, hv, hps, hsin,
    fun h => hne h.symm, hkind, ?_⟩
  intro h0
  obtain ⟨post1, e⟩ := hfirst h0
  exact ⟨kc1, post1, e, rfl⟩

/-! ### `CoalesceOrRedistribute` -/

/-- `CoalesceOrRedistribute` on a live page of a well-shaped tree returns and keeps the shape,
provided no page it coalesces is child 0 of its parent. -/
theorem CoalesceOrRedistribute_spec :
    ∀ (fuel : Nat) (t : BPlusTree) (lvl : Int → Nat) (dead : Int → Prop) (node_id : Int)
      (txn : Transaction), Shape t lvl dead node_id → 2 ≤ t.leaf_max_size →
      3 ≤ t.internal_max_size → (∃ pg, t.pages node_id = some pg) → ¬ dead node_id →
      (∀ l, t.pages node_id = some (.leaf l) → node_id = t.root_page_id → l.array ≠ []) →
      lvl t.root_page_id < lvl node_id + fuel → coalescesLeftmost fuel t node_id = false →
      ∃ t1 txn1 b ds hole1, BPlusTree.CoalesceOrRedistribute fuel t node_id txn =
          .ok (t1, txn1, b) ∧
        txn1.deleted_page_set = txn.deleted_page_set ++ ds ∧
        Shape t1 lvl (fun d => dead d ∨ d ∈ ds ∨ (b = true ∧ d = node_id)) hole1 ∧
        LeavesFrom t1 t := by
  intro fuel
  induction fuel with
  | zero =>
    intro t lvl dead node_id txn hs _ _ hex hlive _ hfuel _
    obtain ⟨pg, hpg⟩ := hex
    have := hs.lvlRoot _ _ hpg hlive
    omega
  | succ f ih =>
    intro t lvl dead node_id txn hs hL hI hex hlive hleaf hfuel hcl
    obtain ⟨node, hnode⟩ := hex
    have hstay : ∀ t1 : BPlusTree, Shape t1 lvl dead node_id →
        Shape t1 lvl (fun d => dead d ∨ d ∈ ([] : List Int) ∨ (false = true ∧ d = node_id))
          node_id := fun t1 h => Shape.deadEq h (by intro d; simp)
    by_cases hr : node.IsRootPage = true
    · -- the root
      have hroot := (hs.rootIff hnode hlive).1 hr
      obtain ⟨t1, b, h1, h2, h3⟩ := AdjustRoot_spec hs hroot (fun l hl => hleaf l hl hroot)
      refine ⟨t1, txn, b, [], node_id, ?_, by simp, Shape.deadEq h2 (by intro d; simp), h3⟩
      simp only [BPlusTree.CoalesceOrRedistribute, hnode, hr, if_true, h1]
    have hnr : node_id ≠ t.root_page_id := fun h => hr ((hs.rootIff hnode hlive).2 h)
    by_cases hsz : node.GetSize ≥ node.GetMinSize
    · refine ⟨t, txn, false, [], node_id, ?_, by simp, hstay t hs, LeavesFrom.refl t⟩
      simp only [BPlusTree.CoalesceOrRedistribute, hnode, hr, Bool.false_eq_true, if_false, hsz,
        if_true]
    obtain ⟨pn, pre, kc, post, s, ps, hp, hpl, harr, hkc, hidx, hval, hps, hsin, hne, hkind,
      hfirst⟩ := hs.neighbour hnode hlive hnr
    have hin : node_id ∈ (Page.internal pn).children := by
      simp [Page.children, harr, hkc]
    have hkn := (hs.kind _ _ hnode hlive).2
    have hmid : pn.KeyAt pre.length = some kc.1 := by
      simp only [InternalPage.KeyAt, harr, get?_split, Option.map_some']
    have hpid : pn.page_id = node.GetParentPageId := (hs.ids _ _ hp).2
    by_cases hred : ps.GetSize + node.GetSize > t.maxSize node
    · -- redistribution
      have hgoal : ∃ t1, t.Redistribute s node_id pre.length = .ok t1 ∧
          Shape t1 lvl dead node_id ∧ LeavesFrom t1 t := by
        cases node with
        | leaf ln =>
          cases ps with
          | internal _ => cases hkind
          | leaf ls =>
            simp only [Page.GetSize, Page.GetMinSize, LeafPage.GetSize, LeafPage.GetMinSize,
              BPlusTree.maxSize, Page.IsLeafPage, if_true, Page.GetMaxSize, ge_iff_le, not_le,
              gt_iff_lt] at hsz hred hkn
            have hls : 2 ≤ ls.array.length := by
              rw [hkn] at hsz; omega
            by_cases h0 : pre.length = 0
            · obtain ⟨kc1, post1, e1, e2⟩ := hfirst h0
              rw [h0]
              exact Redistribute_leaf_first hs hnode hps hp hpl e1 hkc e2 hls
            · exact Redistribute_leaf_last hs hnode hps hp hpl hin hsin hne h0 (by omega)
        | internal nn =>
          cases ps with
          | leaf _ => cases hkind
          | internal ns =>
            simp only [Page.GetSize, Page.GetMinSize, InternalPage.GetSize,
              InternalPage.GetMinSize, BPlusTree.maxSize, Page.IsLeafPage, Page.GetMaxSize,
              ge_iff_le, not_le, gt_iff_lt, Bool.false_eq_true, if_false] at hsz hred hkn
            have hns : 3 ≤ ns.array.length := by
              rw [hkn] at hsz; omega
            by_cases h0 : pre.length = 0
            · rw [h0]
              exact Redistribute_internal_first hs hnode hps hp hpl hin hsin hne hns
            · exact Redistribute_internal_last hs hnode hps hp hpl hin hsin hne h0 hmid hns
      obtain ⟨t1, h1, h2, h3⟩ := hgoal
      refine ⟨t1, txn, false, [], node_id, ?_, by simp, hstay t1 h2, h3⟩
      simp only [BPlusTree.CoalesceOrRedistribute, hnode, hr, Bool.false_eq_true, if_false, hsz,
        hp, hidx, hval, hps, hred, if_true, h1]
    · -- coalescing
      simp only [coalescesLeftmost, hnode, hr, Bool.false_eq_true, if_false, hsz, hp, hidx,
        hval, hps, hred] at hcl
      have h0 : pre.length ≠ 0 := by
        intro h
        rw [if_pos h] at hcl
        cases hcl
      rw [if_neg h0] at hcl
      have hgoal : ∃ t1, (∀ recur txn, BPlusTree.Coalesce recur t s node_id
            node.GetParentPageId pre.length txn = recur t1 node.GetParentPageId txn) ∧
          Shape t1 lvl (fun d => dead d ∨ d = node_id) node.GetParentPageId ∧
          LeavesFrom t1 t ∧
          t1.pages node.GetParentPageId = some (.internal (pn.Remove pre.length)) ∧
          t1.root_page_id = t.root_page_id ∧ t1.leaf_max_size = t.leaf_max_size ∧
          t1.internal_max_size = t.internal_max_size := by
        cases node with
        | leaf ln =>
          cases ps with
          | internal _ => cases hkind
          | leaf ls => exact Coalesce_leaf_spec hs hnode hps hp hpl harr hkc h0 hsin hne
        | internal nn =>
          cases ps with
          | leaf _ => cases hkind
          | internal ns => exact Coalesce_internal_spec hs hnode hps hp hpl harr hkc h0 hsin hne
      obtain ⟨t1, c1, c2, c3, c4, c5, c6, c7⟩ := hgoal
      rw [c1] at hcl
      simp only at hcl
      have hlvl : lvl node.GetParentPageId = lvl node_id + 1 :=
        ((hs.child _ _ hp hpl).2 _ hin).2.1
      have hpne : node.GetParentPageId ≠ node_id := by
        intro h; rw [h] at hlvl; omega
      obtain ⟨t2, txn2, b2, ds2, hole2, d1, d2, d3, d4⟩ :=
        ih t1 lvl (fun d => dead d ∨ d = node_id) node.GetParentPageId txn c2
          (by rw [c6]; exact hL) (by rw [c7]; exact hI) ⟨_, c4⟩
          (by
            rintro (h | h)
            · exact hpl h
            · exact hpne h)
          (by intro l hl; rw [c4] at hl; cases hl)
          (by rw [c5, hlvl]; omega) hcl
      refine ⟨t2, if b2 = true then txn2.AddIntoDeletedPageSet pn.page_id else txn2, true,
        ds2 ++ (if b2 = true then [node.GetParentPageId] else []), hole2, ?_, ?_, ?_,
        LeavesFrom.trans d4 c3⟩
      · simp only [BPlusTree.CoalesceOrRedistribute, hnode, hr, Bool.false_eq_true, if_false,
          hsz, hp, hidx, hval, hps, hred, c1, d1]
      · cases b2 with
        | false => simp [d2]
        | true => simp [Transaction.AddIntoDeletedPageSet, d2, hpid]
      · refine Shape.deadEq d3 ?_
        intro d
        cases b2 with
        | false => simp; tauto
        | true => simp; tauto

/-! ### From the insertion invariant to the shape, and the descent on a shape -/

/-- A tree built by insertion has the shape that the removal works on, whatever leaf the
removal has already taken an entry from. -/
theorem Inv.toShape {t : BPlusTree} {g : Ghost} (hinv : Inv t g) (hsz : SzInv t) {q : Int}
    {l l1 : LeafPage} (hq : t.pages q = some (.leaf l))
    (hhdr : (Page.leaf l).SameHeader (.leaf l1)) :
    Shape (t.write q (.leaf l1)) g.lvl (fun _ => False) q := by
  have hpg : ∀ x pg1, (t.write q (.leaf l1)).pages x = some pg1 →
      ∃ pg, t.pages x = some pg ∧ pg.SameHeader pg1 ∧ pg1.children = pg.children := by
    intro x pg1 hx
    rw [BPlusTree.write_pages, Pool.write_apply] at hx
    by_cases hxq : x = q
    · rw [if_pos hxq] at hx; cases hx
      exact ⟨.leaf l, by rw [hxq]; exact hq, hhdr, rfl⟩
    · rw [if_neg hxq] at hx
      exact ⟨pg1, hx, ⟨rfl, rfl, rfl, rfl⟩, rfl⟩
  have hfw : ∀ x pg, t.pages x = some pg →
      ∃ pg1, (t.write q (.leaf l1)).pages x = some pg1 ∧ pg.SameHeader pg1 ∧
        pg1.children = pg.children := by
    intro x pg hx
    rw [BPlusTree.write_pages, Pool.write_apply]
    by_cases hxq : x = q
    · rw [if_pos hxq]
      rw [hxq, hq] at hx; cases hx
      exact ⟨.leaf l1, rfl, hhdr, rfl⟩
    · rw [if_neg hxq]
      exact ⟨pg, hx, ⟨rfl, rfl, rfl, rfl⟩, rfl⟩
  have hkids : ∀ x pg, t.pages x = some pg → pg.children.Nodup ∧
      ∀ c ∈ pg.children, g.lvl x = g.lvl c + 1 ∧
        ∃ pc, t.pages c = some pc ∧ pc.GetParentPageId = x := by
    intro x pg hx
    cases pg with
    | leaf lx => exact ⟨List.nodup_nil, fun c hc => by cases hc⟩
    | internal n =>
      have hok := hinv.internalOK x n hx
      refine ⟨hok.choose_spec.choose_spec.choose_spec.2.2.2, ?_⟩
      intro c hc
      obtain ⟨pc, -, -, e1, e2, e3, -⟩ := hok.child_exists hc
      exact ⟨by omega, pc, e1, e2⟩
  refine
    { ids := ?_, root := ?_, kind := ?_, wide := ?_, child := ?_, listed := ?_,
      lvlRoot := ?_, fuel := hinv.fuel }
  · intro x pg1 hx
    obtain ⟨pg, e1, e2, -⟩ := hpg x pg1 hx
    exact ⟨(hinv.ids x pg e1).1, by rw [e2.1]; exact hinv.pid x pg e1⟩
  · obtain ⟨pr, e1, e2, -⟩ := hinv.rootPage
    obtain ⟨pr1, f1, f2, -⟩ := hfw _ pr e1
    exact ⟨pr1, f1, by rw [f2.2.1]; exact e2, fun h => h⟩
  · intro x pg1 hx _
    obtain ⟨pg, e1, e2, -⟩ := hpg x pg1 hx
    have h1 := hsz x pg e1
    rw [e2.2.2.1, e2.2.2.2]
    cases pg with
    | leaf lx =>
      exact ⟨⟨fun _ => (hinv.leafOK x lx e1).1, fun _ => rfl⟩, h1⟩
    | internal n =>
      obtain ⟨h, -, -, e3, -⟩ := hinv.internalOK x n e1
      refine ⟨⟨fun hc => (by cases hc), fun hc => (by rw [e3] at hc; cases hc)⟩, h1.1⟩
  · intro x pg1 hx _ hlf
    obtain ⟨pg, e1, e2, e3⟩ := hpg x pg1 hx
    rw [e3]
    cases pg with
    | leaf lx => rw [e2.2.2.1] at hlf; cases hlf
    | internal n =>
      have h1 := (hsz x _ e1).2
      simp only [Page.children, List.length_map]
      exact ⟨by omega, fun _ => h1⟩
  · intro x pg1 hx _
    obtain ⟨pg, e1, e2, e3⟩ := hpg x pg1 hx
    rw [e3]
    obtain ⟨y1, y2⟩ := hkids x pg e1
    refine ⟨y1, fun c hc => ?_⟩
    obtain ⟨z1, pc, z2, z3⟩ := y2 c hc
    obtain ⟨pc1, f1, f2, -⟩ := hfw c pc z2
    exact ⟨fun h => h, z1, pc1, f1, by rw [f2.2.1]; exact z3⟩
  · intro x pg1 hx _ hxr
    obtain ⟨pg, e1, e2, -⟩ := hpg x pg1 hx
    obtain ⟨n, y1, y2⟩ := hinv.listed x pg e1 hxr
    obtain ⟨pp1, f1, -, f3⟩ := hfw _ _ y1
    rw [e2.2.1]
    exact ⟨fun h => h, pp1, f1, by rw [f3]; exact y2⟩
  · intro x pg1 hx _
    obtain ⟨pg, e1, -⟩ := hpg x pg1 hx
    exact hinv.lvlRoot x pg e1

theorem lookupFrom_mem (key : Int) :
    ∀ (rest : List (Int × Int)) (c : Int),
      InternalPage.lookupFrom c rest key ∈ c :: rest.map Prod.snd := by
  intro rest
  induction rest with
  | nil => intro c; simp [InternalPage.lookupFrom]
  | cons kc rest ih =>
    intro c
    simp only [InternalPage.lookupFrom]
    split
    · exact List.mem_cons_self _ _
    · exact List.mem_cons_of_mem _ (by simpa using ih kc.2)

/-- The descent reaches a live leaf on every pool that agrees with a well-shaped tree on its
live pages. -/
theorem Shape.descent {t : BPlusTree} {lvl : Int → Nat} {dead : Int → Prop} {hole : Int}
    (hs : Shape t lvl dead hole) {pages1 : Pool} (hag : ∀ x, ¬ dead x → pages1 x = t.pages x)
    (key : Int) :
    ∀ (fuel : Nat) (q : Int) (pg : Page), t.pages q = some pg → ¬ dead q → lvl q < fuel →
      ∃ x l, BPlusTree.findLeafLoop pages1 key false fuel q = .ok (x, l) ∧
        t.pages x = some (.leaf l) := by
  intro fuel
  induction fuel with
  | zero => intro q pg _ _ h; omega
  | succ f ih =>
    intro q pg hq hl hf
    simp only [BPlusTree.findLeafLoop, hag q hl, hq]
    cases pg with
    | leaf l => exact ⟨q, l, rfl, hq⟩
    | internal n =>
      have hw := (hs.wide q _ hq hl rfl).1
      obtain ⟨-, hc⟩ := hs.child q _ hq hl
      obtain ⟨kc, rest, hn⟩ : ∃ kc rest, n.array = kc :: rest := by
        simp only [Page.children, List.length_map] at hw
        match h : n.array, hw with
        | kc :: rest, _ => exact ⟨kc, rest, rfl⟩
        | [], h1 => simp at h1
      have hmem : InternalPage.lookupFrom kc.2 rest key ∈ (Page.internal n).children := by
        simp only [Page.children, hn, List.map_cons]
        exact lookupFrom_mem key rest kc.2
      obtain ⟨x1, x2, pc, x3, -⟩ := hc _ hmem
      obtain ⟨x, l, h1, h2⟩ := ih _ pc x3 x1 (by omega)
      refine ⟨x, l, ?_, h2⟩
      simp only [Bool.false_eq_true, if_false, InternalPage.Lookup, hn]
      exact h1

theorem foldl_DeletePage (D : List Int) :
    ∀ (pages : Pool) (x : Int),
      (D.foldl Pool.DeletePage pages) x = if x ∈ D then none else pages x := by
  induction D with
  | nil => intro pages x; simp
  | cons d rest ih =>
    intro pages x
    simp only [List.foldl_cons, ih, Pool.DeletePage, List.mem_cons]
    by_cases h1 : x ∈ rest
    · simp [h1]
    · by_cases h2 : x = d
      · simp [h2]
      · simp [h1, h2]

/-! ### `Remove` of a stored key -/

/-- `Remove(k)` of a stored key on a tree built by insertion that holds another key as well:
if no page that the call coalesces is child 0 of its parent, the call returns and `GetValue(k)`
finds nothing afterwards. -/
theorem Remove_stored {t : BPlusTree} {g : Ghost} (hinv : Inv t g) (hsz : SzInv t)
    (hL : 2 ≤ t.leaf_max_size) (hI : 3 ≤ t.internal_max_size) {k v k1 v1 q : Int}
    {l : LeafPage} (hst : Stored t k v) (hk1 : k1 ≠ k) (hst1 : Stored t k1 v1)
    (hfind : t.FindLeafPage k false = .ok (q, l))
    (hcl : coalescesLeftmost (t.write q (.leaf (l.RemoveAndDeleteRecord k))).fuel
      (t.write q (.leaf (l.RemoveAndDeleteRecord k))) q = false) :
    ∃ t2, t.Remove k { deleted_page_set := [] } = .ok (t2, { deleted_page_set := [] }) ∧
      ∀ r, t2.GetValue k r = .ok (t2, false, r) := by
  obtain ⟨q', l', f1, hq, hrange⟩ := FindLeafPage_spec hinv k
  rw [hfind] at f1
  simp only [Except.ok.injEq, Prod.mk.injEq] at f1
  obtain ⟨rfl, rfl⟩ := f1
  have hmem : (k, v) ∈ l.array := (hinv.stored_leaf hq hrange v).1 hst
  have hsorted := (hinv.leafOK q l hq).2.2.1
  have hlen := length_removeKey_of_mem hmem
  have hsize : (l.RemoveAndDeleteRecord k).GetSize ≠ l.GetSize := by
    simp only [LeafPage.GetSize, LeafPage.RemoveAndDeleteRecord]; omega
  have hshape := hinv.toShape hsz hq
    (show (Page.leaf l).SameHeader (.leaf (l.RemoveAndDeleteRecord k)) from ⟨rfl, rfl, rfl, rfl⟩)
  have hw : (t.write q (.leaf (l.RemoveAndDeleteRecord k))).pages q =
      some (.leaf (l.RemoveAndDeleteRecord k)) := by
    simp [BPlusTree.write_pages, Pool.write_apply]
  -- no leaf holds the key any more
  have hnokey : ∀ y ly w, (t.write q (.leaf (l.RemoveAndDeleteRecord k))).pages y =
      some (.leaf ly) → (k, w) ∉ ly.array := by
    intro y ly w hy hm
    rw [BPlusTree.write_pages, Pool.write_apply] at hy
    by_cases hyq : y = q
    · rw [if_pos hyq] at hy
      simp only [Option.some.injEq, Page.leaf.injEq] at hy
      subst hy
      exact ((mem_removeKey hsorted (k, w)).1 hm).2 rfl
    · rw [if_neg hyq] at hy
      have hr := (hinv.leafOK y ly hy).2.2.2.1 _ hm
      exact hyq (hinv.leafUniq y q ly l k hy hq hr hrange)
  obtain ⟨t2, txn1, b, ds, hole1, c1, c2, c3, c4⟩ :=
    CoalesceOrRedistribute_spec (t.write q (.leaf (l.RemoveAndDeleteRecord k))).fuel
      (t.write q (.leaf (l.RemoveAndDeleteRecord k))) g.lvl (fun _ => False) q
      { deleted_page_set := [] } hshape hL hI ⟨_, hw⟩ (fun h => h)
      (by
        intro l2 hl2 hroot
        rw [hw] at hl2
        simp only [Option.some.injEq, Page.leaf.injEq] at hl2
        subst hl2
        have hr : l.IsRootPage = true := by
          obtain ⟨pr, e1, e2, -⟩ := hinv.rootPage
          have hroot' : q = t.root_page_id := hroot
          rw [← hroot', hq] at e1; cases e1
          simpa [LeafPage.IsRootPage, Page.GetParentPageId] using e2
        have h1 := hinv.root_leaf_all hq hr hst1
        have h2 : (k1, v1) ∈ LeafPage.removeKey l.array k :=
          (mem_removeKey hsorted (k1, v1)).2 ⟨h1, hk1⟩
        intro h
        simp only [LeafPage.RemoveAndDeleteRecord] at h
        rw [h] at h2
        cases h2)
      (by
        have := hshape.fuel
        show g.lvl t.root_page_id < g.lvl q + t.next_page_id.toNat
        have h2 : g.lvl t.root_page_id < t.next_page_id.toNat := this
        omega)
      hcl
  simp only [List.nil_append] at c2
  obtain ⟨D, hDdef⟩ : ∃ D, D = (if b = true then txn1.AddIntoDeletedPageSet
      (l.RemoveAndDeleteRecord k).page_id else txn1).deleted_page_set := ⟨_, rfl⟩
  have hD : ∀ x, x ∈ D ↔ (False ∨ x ∈ ds ∨ (b = true ∧ x = q)) := by
    intro x
    have hid : (l.RemoveAndDeleteRecord k).page_id = q := (hshape.ids q _ hw).2
    rw [hDdef]
    cases b with
    | false => simp [c2]
    | true => simp [Transaction.AddIntoDeletedPageSet, c2, hid]
  refine ⟨{ t2 with pages := D.foldl Pool.DeletePage t2.pages }, ?_, ?_⟩
  · simp only [BPlusTree.Remove, hfind, hsize, if_false, c1, hDdef]
  · intro r
    obtain ⟨pr, e1, e2, e3⟩ := c3.root
    have hne : t2.root_page_id ≠ INVALID_PAGE_ID := by
      have := (c3.ids _ _ e1).1
      simp only [INVALID_PAGE_ID]; omega
    have hag : ∀ y, ¬ (False ∨ y ∈ ds ∨ (b = true ∧ y = q)) →
        (D.foldl Pool.DeletePage t2.pages) y = t2.pages y := by
      intro y hy
      rw [foldl_DeletePage, if_neg (fun h => hy ((hD y).1 h))]
    obtain ⟨x, lx, d1, d2⟩ := c3.descent hag k t2.fuel t2.root_page_id pr e1 e3 c3.fuel
    have hl : LeafPage.lookup lx.array k = none := by
      apply lookup_eq_none.2
      intro w hw1
      obtain ⟨y, ly, z1, z2⟩ := c4 x lx (k, w) d2 hw1
      exact hnokey y ly w z1 z2
    simp only [BPlusTree.GetValue, BPlusTree.FindLeafPage, hne, if_false]
    have hfuel : ({ t2 with pages := D.foldl Pool.DeletePage t2.pages } : BPlusTree).fuel =
        t2.fuel := rfl
    rw [hfuel, d1]
    simp only [LeafPage.Lookup, hl]

/-! ## The sibling chain as a list of leaves -/

/-- Under the invariant the recorded walk along the sibling chain runs through: it lists
leaves of the pool in ascending chain position, ends at the leaf without successor and holds
the pairs of the chain. -/
theorem leafChainFrom_spec {t : BPlusTree} {g : Ghost} (hinv : Inv t g) {q qe : Int}
    {es : List (Int × Int)} (hc : ChainFrom t.pages q qe es) :
    ∀ (fuel : Nat), t.next_page_id.toNat - g.pos q ≤ fuel →
      ∃ ch, leafChainFrom t.pages fuel q = .ok ch ∧ entriesOf ch = es ∧
        (∀ e ∈ ch, t.pages e.1 = some (.leaf e.2) ∧ g.pos q ≤ g.pos e.1) ∧
        (ch.map Prod.fst).Nodup ∧
        ∃ le, ch.getLast? = some (qe, le) ∧ le.next_page_id = INVALID_PAGE_ID := by
  induction hc with
  | last q l hq hn =>
    intro fuel hf
    have := hinv.pos q l hq
    obtain ⟨f, rfl⟩ : ∃ f, fuel = f + 1 := ⟨fuel - 1, by omega⟩
    refine ⟨[(q, l)], by simp only [leafChainFrom, hq, hn, if_true], by simp [entriesOf], ?_,
      by simp, l, by simp, hn⟩
    intro e he
    simp only [List.mem_singleton] at he
    subst he
    exact ⟨hq, le_refl _⟩
  | cons q qe l es hq hn _ ih =>
    intro fuel hf
    have := hinv.pos q l hq
    obtain ⟨f, rfl⟩ : ∃ f, fuel = f + 1 := ⟨fuel - 1, by omega⟩
    obtain ⟨l1, b, e1, e2, e3, e4⟩ := (hinv.leafOK q l hq).2.2.2.2.2 hn
    have := hinv.pos _ l1 e1
    obtain ⟨ch, h1, h2, h3, h4, le, h5, h6⟩ := ih f (by omega)
    have hne : ch ≠ [] := by
      rintro rfl
      simp at h5
    refine ⟨(q, l) :: ch, by simp only [leafChainFrom, hq, hn, if_false, h1], ?_, ?_, ?_, le, ?_,
      h6⟩
    · simp only [entriesOf, List.flatMap_cons] at h2 ⊢
      rw [h2]
    · intro e he
      rcases List.mem_cons.1 he with h | h
      · subst h; exact ⟨hq, le_refl _⟩
      · exact ⟨(h3 e h).1, by have := (h3 e h).2; omega⟩
    · simp only [List.map_cons, List.nodup_cons]
      refine ⟨?_, h4⟩
      intro hmem
      obtain ⟨e, he, heq⟩ := List.mem_map.1 hmem
      have := (h3 e he).2
      rw [heq] at this
      omega
    · obtain ⟨y, ys, rfl⟩ : ∃ y ys, ch = y :: ys := List.exists_cons_of_ne_nil hne
      rw [List.getLast?_cons_cons]
      exact h5

/-- Pairs of a list of leaves: membership. -/
theorem mem_entriesOf {ch : List (Int × LeafPage)} {kv : Int × Int} :
    kv ∈ entriesOf ch ↔ ∃ e ∈ ch, kv ∈ e.2.array := by
  simp only [entriesOf, List.mem_flatMap]

/-- The leaves of a well-formed tree, read along the sibling chain from the leftmost leaf. -/
theorem leafChain_spec {t : BPlusTree} {g : Ghost} (hinv : Inv t g) :
    ∃ ch, t.leafChain = .ok ch ∧ (ch.map Prod.fst).Nodup ∧
      (∀ q l, (q, l) ∈ ch ↔ t.pages q = some (.leaf l)) ∧
      (∃ qe le, ch.getLast? = some (qe, le) ∧ le.next_page_id = INVALID_PAGE_ID) ∧
      (entriesOf ch).Pairwise (fun a b => a.1 < b.1) ∧
      ∀ k v, (k, v) ∈ entriesOf ch ↔ Stored t k v := by
  obtain ⟨q, l, h1, h2, h3⟩ := FindLeafPage_leftMost hinv 0
  obtain ⟨qe, es, hc⟩ := chain_exists hinv _ q l h2 (le_refl _)
  obtain ⟨ch, c1, c2, c3, c4, le, c5, c6⟩ := leafChainFrom_spec hinv hc t.fuel (by
    simp only [BPlusTree.fuel]; omega)
  have hcomp : ∀ k v, Stored t k v → (k, v) ∈ entriesOf ch := fun k v hst => by
    rw [c2]
    exact chain_complete hinv hc k v hst (fun a ha => by rw [h3] at ha; cases ha)
  refine ⟨ch, by simp only [BPlusTree.leafChain, h1, c1], c4, ?_, ⟨qe, le, c5, c6⟩, ?_, ?_⟩
  · intro q1 l1
    refine ⟨fun h => (c3 _ h).1, fun h => ?_⟩
    obtain ⟨-, a2, -, a4, -, -⟩ := hinv.leafOK q1 l1 h
    obtain ⟨kv, hkv⟩ := List.exists_mem_of_ne_nil _ a2
    obtain ⟨e, he, hin⟩ := mem_entriesOf.1 (hcomp kv.1 kv.2 ⟨q1, l1, h, hkv⟩)
    have hq := hinv.leafUniq q1 e.1 l1 e.2 kv.1 h (c3 e he).1 (a4 kv hkv)
      ((hinv.leafOK e.1 e.2 (c3 e he).1).2.2.2.1 _ hin)
    have hl : l1 = e.2 := by
      have := (c3 e he).1
      rw [← hq, h] at this
      cases this; rfl
    rw [hq, hl]
    exact he
  · rw [c2]; exact (chain_sorted hinv hc).1
  · intro k v
    refine ⟨fun h => ?_, hcomp k v⟩
    rw [c2] at h
    exact chain_sound hc k v h

/-! ## Keys of a subtree lie in the interval of its root page -/

/-- Children that tile an interval and whose subtrees are non-empty and keep to their own
intervals: every key below any of the children lies in the tiled interval. -/
theorem Chain.subtreeRange {pages : Pool} {g : Ghost} {p : Int} {h : Nat} :
    ∀ {rest : List (Int × Int)} {c : Int} {lower upper : Option Int},
      Chain (ChildOK pages g p h) c lower rest upper →
      (∀ d ∈ c :: rest.map Prod.snd, SubtreeOK pages g d) →
      ∀ d ∈ c :: rest.map Prod.snd, ∀ q l kv, Subtree pages d q → pages q = some (.leaf l) →
        kv ∈ l.array → InRange lower upper kv.1
  | [], c, lower, upper, hc, hok, d, hd, q, l, kv, hs, hq, hkv => by
    simp only [List.map_nil, List.mem_singleton] at hd
    subst hd
    obtain ⟨pg, -, -, -, hlo, hhi⟩ := hc
    have := (hok d (by simp)).2 q l kv hs hq hkv
    rwa [hlo, hhi] at this
  | kc :: rest, c, lower, upper, hc, hok, d, hd, q, l, kv, hs, hq, hkv => by
    obtain ⟨⟨pg, -, -, -, hlo, hhi⟩, htail⟩ := hc
    have hokc := hok c (by simp)
    have hokt : ∀ d ∈ kc.2 :: rest.map Prod.snd, SubtreeOK pages g d := fun d hd =>
      hok d (by simp only [List.map_cons, List.mem_cons] at hd ⊢; tauto)
    have ih := Chain.subtreeRange htail hokt
    -- a key below the first child and a key below the next child
    obtain ⟨q0, l0, kv0, s0, p0, m0⟩ := hokc.1
    have r0 := hokc.2 q0 l0 kv0 s0 p0 m0
    rw [hlo, hhi] at r0
    obtain ⟨q1, l1, kv1, s1, p1, m1⟩ := (hokt kc.2 (by simp)).1
    have r1 := ih kc.2 (by simp) q1 l1 kv1 s1 p1 m1
    have h01 : kv0.1 < kc.1 := r0.2 _ rfl
    have h11 : kc.1 ≤ kv1.1 := r1.1 _ rfl
    rcases List.mem_cons.1 hd with hdc | hdt
    · subst hdc
      have r := hokc.2 q l kv hs hq hkv
      rw [hlo, hhi] at r
      refine ⟨r.1, fun b hb => ?_⟩
      have := r.2 _ rfl
      have := r1.2 b hb
      omega
    · have r := ih d (by simpa using hdt) q l kv hs hq hkv
      refine ⟨fun a ha => ?_, r.2⟩
      have := r.1 _ rfl
      have := r0.1 a ha
      omega

/-- In a well-formed tree every page has a non-empty subtree whose keys lie in the interval
of the page. -/
theorem Inv.subtreeOK {t : BPlusTree} {g : Ghost} (hinv : Inv t g) :
    ∀ (h : Nat) (x : Int) (pg : Page), t.pages x = some pg → g.lvl x = h →
      SubtreeOK t.pages g x := by
  intro h
  induction h with
  | zero =>
    intro x pg hx hl
    cases pg with
    | internal n =>
      obtain ⟨h1, -, -, e1, -⟩ := hinv.internalOK x n hx
      omega
    | leaf l =>
      obtain ⟨-, a2, -, a4, -, -⟩ := hinv.leafOK x l hx
      obtain ⟨kv, hkv⟩ := List.exists_mem_of_ne_nil _ a2
      refine ⟨⟨x, l, kv, Subtree.self x, hx, hkv⟩, ?_⟩
      intro q l1 kv1 hs hq hkv1
      cases hs with
      | self => rw [hx] at hq; cases hq; exact a4 kv1 hkv1
      | child _ c _ n hn _ _ => rw [hx] at hn; cases hn
  | succ h ih =>
    intro x pg hx hl
    cases pg with
    | leaf l =>
      have := (hinv.leafOK x l hx).1
      omega
    | internal n =>
      obtain ⟨h1, kc, rest, e1, harr, hch, -⟩ := hinv.internalOK x n hx
      have hh : h1 = h := by omega
      subst hh
      have hok : ∀ d ∈ kc.2 :: rest.map Prod.snd, SubtreeOK t.pages g d := by
        intro d hd
        obtain ⟨lo1, hi1, pd, hpd, -, hld, -, -⟩ := hch.child d hd
        exact ih d pd hpd hld
      have hrange := Chain.subtreeRange hch hok
      refine ⟨?_, ?_⟩
      · obtain ⟨q0, l0, kv0, s0, p0, m0⟩ := (hok kc.2 (by simp)).1
        exact ⟨q0, l0, kv0, Subtree.child x kc.2 q0 n hx (by rw [harr]; simp) s0, p0, m0⟩
      · intro q l kv hs hq hkv
        cases hs with
        | self => rw [hx] at hq; cases hq
        | child _ c _ n1 hn hc hsub =>
          rw [hx] at hn; cases hn
          rw [harr] at hc
          exact hrange c (by simpa using hc) q l kv hsub hq hkv

/-- Neighbouring slots of a chain: the separator key of the right slot is the upper bound of
the left child and the lower bound of the right child. -/
theorem Chain.slot {pages : Pool} {g : Ghost} {p : Int} {h : Nat} :
    ∀ {rest : List (Int × Int)} {x : Int × Int} {lower upper : Option Int} (i : Nat)
      (a b : Int × Int), Chain (ChildOK pages g p h) x.2 lower rest upper →
      (x :: rest).get? i = some a → (x :: rest).get? (i + 1) = some b →
      g.hi a.2 = some b.1 ∧ g.lo b.2 = some b.1
  | [], x, lower, upper, i, a, b, _, _, hb => by
    simp at hb
  | kc :: rest, x, lower, upper, 0, a, b, hc, ha, hb => by
    simp only [List.get?_cons_zero, Option.some.injEq, List.get?_cons_succ] at ha hb
    subst ha; subst hb
    obtain ⟨⟨pg, -, -, -, -, hhi⟩, htail⟩ := hc
    obtain ⟨u, pg1, -, -, -, hlo1, -⟩ := htail.head
    exact ⟨hhi, hlo1⟩
  | kc :: rest, x, lower, upper, i + 1, a, b, hc, ha, hb => by
    simp only [List.get?_cons_succ] at ha hb
    exact Chain.slot i a b hc.2 ha (by simpa using hb)

/-- Separator consistency of a well-formed tree: below the child left of a separator key all
keys are smaller, below the child right of it no key is smaller. -/
theorem Inv.separators {t : BPlusTree} {g : Ghost} (hinv : Inv t g) {q : Int}
    {n : InternalPage} (hq : t.pages q = some (.internal n)) {i : Nat} {a b : Int × Int}
    (ha : n.array.get? i = some a) (hb : n.array.get? (i + 1) = some b) :
    (∀ q1 l e, Subtree t.pages a.2 q1 → t.pages q1 = some (.leaf l) → e ∈ l.array →
      e.1 < b.1) ∧
    (∀ q1 l e, Subtree t.pages b.2 q1 → t.pages q1 = some (.leaf l) → e ∈ l.array →
      b.1 ≤ e.1) := by
  obtain ⟨h, kc, rest, e1, harr, hch, -⟩ := hinv.internalOK q n hq
  rw [harr] at ha hb
  obtain ⟨s1, s2⟩ := Chain.slot i a b hch ha hb
  have hmem : ∀ c : Int × Int, c ∈ kc :: rest → ∃ pc, t.pages c.2 = some pc := by
    intro c hc
    obtain ⟨lo1, hi1, pd, hpd, -⟩ := hch.child c.2 (by
      rcases List.mem_cons.1 hc with h1 | h1
      · subst h1; simp
      · exact List.mem_cons_of_mem _ (List.mem_map_of_mem Prod.snd h1))
    exact ⟨pd, hpd⟩
  obtain ⟨pa, hpa⟩ := hmem a (List.get?_mem ha)
  obtain ⟨pb, hpb⟩ := hmem b (List.get?_mem hb)
  refine ⟨fun q1 l e hs hl he => ?_, fun q1 l e hs hl he => ?_⟩
  · have := ((hinv.subtreeOK _ a.2 pa hpa rfl).2 q1 l e hs hl he).2 _ s1
    exact this
  · have := ((hinv.subtreeOK _ b.2 pb hpb rfl).2 q1 l e hs hl he).1 _ s2
    exact this

/-! ## Occupancy of the pages during an insertion -/

theorem Page.getSize_setParent (pg : Page) (a : Int) :
    (pg.SetParentPageId a).GetSize = pg.GetSize := by cases pg <;> rfl

theorem Page.atMost_setParent {L I : Int} (pg : Page) (a : Int) :
    (pg.SetParentPageId a).AtMost L I ↔ pg.AtMost L I := by
  simp only [Page.AtMost, Page.getSize_setParent, Page.isLeaf_setParent]

theorem Page.atLeast_setParent {L I : Int} (pg : Page) (a : Int) :
    (pg.SetParentPageId a).AtLeast L I ↔ pg.AtLeast L I := by
  simp only [Page.AtLeast, Page.getSize_setParent, Page.isLeaf_setParent]

/-- A page of the pool is replaced by a page of the same kind under the same id. -/
theorem Fill.writePage {t t1 : BPlusTree} {over over1 : Option Int} (hf : Fill t over) {q : Int}
    {pg pg1 : Page} (hq : t.pages q = some pg)
    (hp : t1.pages = t.pages.write q pg1) (hnext : t1.next_page_id = t.next_page_id)
    (hL : t1.leaf_max_size = t.leaf_max_size) (hI : t1.internal_max_size = t.internal_max_size)
    (hover : ∀ x, x ≠ q → over1 ≠ some x → over ≠ some x)
    (hid : pg1.GetPageId = q)
    (hle : over1 ≠ some q → pg1.AtMost t.leaf_max_size t.internal_max_size)
    (hge : pg.AtLeast t.leaf_max_size t.internal_max_size →
      pg1.AtLeast t.leaf_max_size t.internal_max_size)
    (hch : ∀ c ∈ pg1.children, c < t.next_page_id ∧
      ∀ pc, t.pages c = some pc → pc.AtLeast t.leaf_max_size t.internal_max_size) :
    Fill t1 over1 := by
  have hpx : ∀ x, t1.pages x = if x = q then some pg1 else t.pages x := fun x => by
    rw [hp, Pool.write_apply]
  have hgood : ∀ c, (c < t.next_page_id ∧
      ∀ pc, t.pages c = some pc → pc.AtLeast t.leaf_max_size t.internal_max_size) →
      c < t1.next_page_id ∧
        ∀ pc, t1.pages c = some pc → pc.AtLeast t1.leaf_max_size t1.internal_max_size := by
    intro c hc
    rw [hnext, hL, hI]
    refine ⟨hc.1, fun pc hpc => ?_⟩
    rw [hpx] at hpc
    by_cases hcq : c = q
    · rw [if_pos hcq] at hpc
      cases hpc
      exact hge (hc.2 pg (by rw [hcq]; exact hq))
    · rw [if_neg hcq] at hpc
      exact hc.2 pc hpc
  refine ⟨?_, ?_, ?_⟩
  · intro x px hx
    rw [hpx] at hx
    rw [hnext]
    by_cases hxq : x = q
    · rw [if_pos hxq] at hx
      cases hx
      exact ⟨by rw [hxq]; exact (hf.ids q pg hq).1, by rw [hxq]; exact hid⟩
    · rw [if_neg hxq] at hx
      exact hf.ids x px hx
  · intro x px hx ho
    rw [hpx] at hx
    rw [hL, hI]
    by_cases hxq : x = q
    · rw [if_pos hxq] at hx
      cases hx
      exact hle (by rw [← hxq]; exact ho)
    · rw [if_neg hxq] at hx
      exact hf.atMost x px hx (hover x hxq ho)
  · intro p n c hpn hc
    rw [hpx] at hpn
    by_cases hpq : p = q
    · rw [if_pos hpq] at hpn
      cases hpn
      exact hgood c (hch c hc)
    · rw [if_neg hpq] at hpn
      exact hgood c (hf.listed p n c hpn hc)

/-- A fresh page is put into the pool under the next page id. -/
theorem Fill.alloc {t t1 : BPlusTree} {over : Option Int} (hf : Fill t over) {pg1 : Page}
    (hp : t1.pages = t.pages.write t.next_page_id pg1)
    (hnext : t1.next_page_id = t.next_page_id + 1)
    (hL : t1.leaf_max_size = t.leaf_max_size) (hI : t1.internal_max_size = t.internal_max_size)
    (hid : pg1.GetPageId = t.next_page_id)
    (hle : pg1.AtMost t.leaf_max_size t.internal_max_size)
    (hch : ∀ c ∈ pg1.children, c < t.next_page_id ∧
      ∀ pc, t.pages c = some pc → pc.AtLeast t.leaf_max_size t.internal_max_size) :
    Fill t1 over := by
  have hpx : ∀ x, t1.pages x = if x = t.next_page_id then some pg1 else t.pages x := fun x => by
    rw [hp, Pool.write_apply]
  have hgood : ∀ c, (c < t.next_page_id ∧
      ∀ pc, t.pages c = some pc → pc.AtLeast t.leaf_max_size t.internal_max_size) →
      c < t1.next_page_id ∧
        ∀ pc, t1.pages c = some pc → pc.AtLeast t1.leaf_max_size t1.internal_max_size := by
    intro c hc
    rw [hnext, hL, hI]
    refine ⟨by have := hc.1; omega, fun pc hpc => ?_⟩
    rw [hpx, if_neg (by have := hc.1; omega)] at hpc
    exact hc.2 pc hpc
  refine ⟨?_, ?_, ?_⟩
  · intro x px hx
    rw [hpx] at hx
    rw [hnext]
    by_cases hxq : x = t.next_page_id
    · rw [if_pos hxq] at hx
      cases hx
      exact ⟨by omega, by rw [hxq]; exact hid⟩
    · rw [if_neg hxq] at hx
      have := hf.ids x px hx
      exact ⟨by omega, this.2⟩
  · intro x px hx ho
    rw [hpx] at hx
    rw [hL, hI]
    by_cases hxq : x = t.next_page_id
    · rw [if_pos hxq] at hx
      cases hx
      exact hle
    · rw [if_neg hxq] at hx
      exact hf.atMost x px hx ho
  · intro p n c hpn hc
    rw [hpx] at hpn
    by_cases hpq : p = t.next_page_id
    · rw [if_pos hpq] at hpn
      cases hpn
      exact hgood c (hch c hc)
    · rw [if_neg hpq] at hpn
      exact hgood c (hf.listed p n c hpn hc)

/-- Rewriting parent page ids changes no occupancy fact. -/
theorem Fill.reparentedPool {t : BPlusTree} {over : Option Int} (hf : Fill t over) {pages1 : Pool}
    {a : Int}
    (hv : ∀ x, pages1 x = t.pages x ∨
      ∃ p, t.pages x = some p ∧ pages1 x = some (p.SetParentPageId a)) :
    Fill { t with pages := pages1 } over := by
  have hback : ∀ x px1, pages1 x = some px1 → ∃ px, t.pages x = some px ∧
      (px1 = px ∨ px1 = px.SetParentPageId a) := by
    intro x px1 hx
    rcases hv x with h1 | ⟨p, h1, h2⟩
    · exact ⟨px1, by rw [← h1]; exact hx, Or.inl rfl⟩
    · rw [h2] at hx; cases hx
      exact ⟨p, h1, Or.inr rfl⟩
  refine ⟨?_, ?_, ?_⟩
  · intro x px1 hx
    obtain ⟨px, h1, h2⟩ := hback x px1 hx
    have := hf.ids x px h1
    rcases h2 with h2 | h2
    · rw [h2]; exact this
    · rw [h2, Page.getPageId_setParent]; exact this
  · intro x px1 hx ho
    obtain ⟨px, h1, h2⟩ := hback x px1 hx
    have := hf.atMost x px h1 ho
    rcases h2 with h2 | h2
    · rw [h2]; exact this
    · rw [h2]; exact (Page.atMost_setParent px a).2 this
  · intro p n c hpn hc
    obtain ⟨px, h1, h2⟩ := hback p _ hpn
    have hpx : ∃ n0, t.pages p = some (.internal n0) ∧ n0.array = n.array := by
      rcases h2 with h2 | h2
      · exact ⟨n, by rw [h1, ← h2], rfl⟩
      · cases px with
        | leaf l => cases h2
        | internal n0 =>
          simp only [Page.SetParentPageId, Page.internal.injEq] at h2
          exact ⟨n0, h1, by rw [h2]⟩
    obtain ⟨n0, h3, h4⟩ := hpx
    obtain ⟨g1, g2⟩ := hf.listed p n0 c h3 (by rw [h4]; exact hc)
    refine ⟨g1, fun pc hpc => ?_⟩
    obtain ⟨pc0, h5, h6⟩ := hback c pc hpc
    have := g2 pc0 h5
    rcases h6 with h6 | h6
    · rw [h6]; exact this
    · rw [h6]; exact (Page.atLeast_setParent pc0 a).2 this

/-- The page about to be split may be named or not. -/
theorem Fill.weaken {t : BPlusTree} {over : Option Int} (hf : Fill t none) : Fill t over :=
  ⟨hf.ids, fun x px hx _ => hf.atMost x px hx (by simp), hf.listed⟩

/-- `Split` of a page that holds one entry more than its capacity: afterwards every page is
within its capacity, and both halves have the minimum occupancy. -/
theorem Split_fill {t t1 : BPlusTree} {q new_id : Int} {pg : Page} (hf : Fill t (some q))
    (hL : 2 ≤ t.leaf_max_size) (hI : 1 ≤ t.internal_max_size) (hq : t.pages q = some pg)
    (hsize : pg.GetSize =
      (if pg.IsLeafPage then t.leaf_max_size - 1 else t.internal_max_size) + 1)
    (hs : t.Split q = .ok (t1, new_id)) :
    Fill t1 none ∧ t1.leaf_max_size = t.leaf_max_size ∧
      t1.internal_max_size = t.internal_max_size ∧
      (∀ p1, t1.pages q = some p1 → p1.AtLeast t.leaf_max_size t.internal_max_size) ∧
      (∀ p1, t1.pages new_id = some p1 → p1.AtLeast t.leaf_max_size t.internal_max_size) := by
  have hqn : q < t.next_page_id := (hf.ids q pg hq).1
  have hqne : q ≠ t.next_page_id := by omega
  simp only [BPlusTree.Split] at hs
  rw [hq] at hs
  cases pg with
  | leaf l =>
    simp only [Except.ok.injEq, Prod.mk.injEq] at hs
    obtain ⟨hs, hnew⟩ := hs
    subst hs; subst hnew
    simp only [Page.GetSize, LeafPage.GetSize, Page.IsLeafPage, if_true] at hsize
    have hpid : l.page_id = q := (hf.ids q _ hq).2
    have halloc : Fill (({ t with next_page_id := t.next_page_id + 1 } : BPlusTree).write
        t.next_page_id (.leaf { (l.MoveHalfTo (LeafPage.Init t.next_page_id l.parent_page_id
          t.leaf_max_size)).2 with next_page_id := (l.MoveHalfTo (LeafPage.Init t.next_page_id
          l.parent_page_id t.leaf_max_size)).1.next_page_id })) (some q) := by
      refine Fill.alloc hf rfl rfl rfl rfl rfl ?_ ?_
      · simp only [Page.AtMost, Page.GetSize, LeafPage.GetSize, Page.IsLeafPage, if_true,
          LeafPage.MoveHalfTo, LeafPage.Init, List.nil_append, List.length_drop]
        omega
      · intro c hc
        simp [Page.children] at hc
    have hold : (l.MoveHalfTo (LeafPage.Init t.next_page_id l.parent_page_id
        t.leaf_max_size)).1.array.length = l.array.length / 2 := by
      simp only [LeafPage.MoveHalfTo, List.length_take]
      omega
    have hnewlen : (l.MoveHalfTo (LeafPage.Init t.next_page_id l.parent_page_id
        t.leaf_max_size)).2.array.length = l.array.length - l.array.length / 2 := by
      simp only [LeafPage.MoveHalfTo, LeafPage.Init, List.nil_append, List.length_drop]
    refine ⟨?_, rfl, rfl, ?_, ?_⟩
    · refine @Fill.writePage _ _ _ _ halloc q (.leaf l) _ ?_ rfl rfl rfl rfl ?_ ?_ ?_ ?_ ?_
      · rw [BPlusTree.write_pages, Pool.write_apply, if_neg hqne]; exact hq
      · intro x hx _ h; exact hx (Option.some.inj h).symm
      · exact hpid
      · intro _
        simp only [Page.AtMost, Page.GetSize, LeafPage.GetSize, Page.IsLeafPage, if_true, hold]
        show ((l.array.length / 2 : Nat) : Int) ≤ t.leaf_max_size - 1
        omega
      · intro _
        simp only [Page.AtLeast, Page.GetSize, LeafPage.GetSize, Page.IsLeafPage, if_true, hold]
        show (t.leaf_max_size - 1 + 1) / 2 ≤ ((l.array.length / 2 : Nat) : Int)
        omega
      · intro c hc
        simp [Page.children] at hc
    · intro p1 hp1
      rw [BPlusTree.write_pages, Pool.write_apply, if_pos rfl] at hp1
      cases hp1
      simp only [Page.AtLeast, Page.GetSize, LeafPage.GetSize, Page.IsLeafPage, if_true, hold]
      omega
    · intro p1 hp1
      rw [BPlusTree.write_pages, Pool.write_apply, if_neg (Ne.symm hqne),
        BPlusTree.write_pages, Pool.write_apply, if_pos rfl] at hp1
      cases hp1
      simp only [Page.AtLeast, Page.GetSize, LeafPage.GetSize, Page.IsLeafPage, if_true,
        hnewlen]
      omega
  | internal n =>
    simp only at hs
    simp only [Page.GetSize, InternalPage.GetSize, Page.IsLeafPage, Bool.false_eq_true,
      if_false] at hsize
    have hpid : n.page_id = q := (hf.ids q _ hq).2
    have hold : (n.MoveHalfTo (InternalPage.Init t.next_page_id n.parent_page_id
        t.internal_max_size)).1.array.length = n.array.length / 2 := by
      simp only [InternalPage.MoveHalfTo, List.length_take]
      omega
    have hnewlen : (n.MoveHalfTo (InternalPage.Init t.next_page_id n.parent_page_id
        t.internal_max_size)).2.array.length = n.array.length - n.array.length / 2 := by
      simp only [InternalPage.MoveHalfTo, InternalPage.Init, List.nil_append, List.length_drop]
    have hgeNew : (Page.internal (n.MoveHalfTo (InternalPage.Init t.next_page_id
        n.parent_page_id t.internal_max_size)).2).AtLeast t.leaf_max_size
        t.internal_max_size := by
      simp only [Page.AtLeast, Page.GetSize, InternalPage.GetSize, Page.IsLeafPage,
        Bool.false_eq_true, if_false, hnewlen]
      omega
    have hgeOld : (Page.internal (n.MoveHalfTo (InternalPage.Init t.next_page_id
        n.parent_page_id t.internal_max_size)).1).AtLeast t.leaf_max_size
        t.internal_max_size := by
      simp only [Page.AtLeast, Page.GetSize, InternalPage.GetSize, Page.IsLeafPage,
        Bool.false_eq_true, if_false, hold]
      omega
    have halloc : Fill (({ t with next_page_id := t.next_page_id + 1 } : BPlusTree).write
        t.next_page_id (.internal (n.MoveHalfTo (InternalPage.Init t.next_page_id
          n.parent_page_id t.internal_max_size)).2)) (some q) := by
      refine Fill.alloc hf rfl rfl rfl rfl rfl ?_ ?_
      · simp only [Page.AtMost, Page.GetSize, InternalPage.GetSize, Page.IsLeafPage,
          Bool.false_eq_true, if_false, hnewlen]
        omega
      · intro c hc
        refine hf.listed q n c hq ?_
        simp only [Page.children, InternalPage.MoveHalfTo, InternalPage.Init,
          List.nil_append] at hc
        obtain ⟨e, he, rfl⟩ := List.mem_map.1 hc
        exact List.mem_map_of_mem _ (List.mem_of_mem_drop he)
    have hwrite : Fill ((({ t with next_page_id := t.next_page_id + 1 } : BPlusTree).write
        t.next_page_id (.internal (n.MoveHalfTo (InternalPage.Init t.next_page_id
          n.parent_page_id t.internal_max_size)).2)).write q
        (.internal (n.MoveHalfTo (InternalPage.Init t.next_page_id
          n.parent_page_id t.internal_max_size)).1)) none := by
      refine @Fill.writePage _ _ _ _ halloc q (.internal n) _ ?_ rfl rfl rfl rfl ?_ ?_ ?_ ?_ ?_
      · rw [BPlusTree.write_pages, Pool.write_apply, if_neg hqne]; exact hq
      · intro x hx _ h; exact hx (Option.some.inj h).symm
      · exact hpid
      · intro _
        simp only [Page.AtMost, Page.GetSize, InternalPage.GetSize, Page.IsLeafPage,
          Bool.false_eq_true, if_false, hold]
        show ((n.array.length / 2 : Nat) : Int) ≤ t.internal_max_size
        omega
      · intro _; exact hgeOld
      · intro c hc
        have := halloc.listed q n c (by
          rw [BPlusTree.write_pages, Pool.write_apply, if_neg hqne]; exact hq) (by
          simp only [Page.children, InternalPage.MoveHalfTo] at hc
          obtain ⟨e, he, rfl⟩ := List.mem_map.1 hc
          exact List.mem_map_of_mem _ (List.mem_of_mem_take he))
        exact this
    cases hr : reparent
        ((({ t with next_page_id := t.next_page_id + 1 } : BPlusTree).write t.next_page_id
          (.internal (n.MoveHalfTo (InternalPage.Init t.next_page_id n.parent_page_id
            t.internal_max_size)).2)).write q
          (.internal (n.MoveHalfTo (InternalPage.Init t.next_page_id n.parent_page_id
            t.internal_max_size)).1)).pages
        ((n.MoveHalfTo (InternalPage.Init t.next_page_id n.parent_page_id
            t.internal_max_size)).2.array.map Prod.snd)
        (n.MoveHalfTo (InternalPage.Init t.next_page_id n.parent_page_id
            t.internal_max_size)).2.page_id with
    | error e => rw [hr] at hs; cases hs
    | ok pages1 =>
      rw [hr] at hs
      simp only [Except.ok.injEq, Prod.mk.injEq] at hs
      obtain ⟨hs, hnew⟩ := hs
      subst hs; subst hnew
      have hview := reparent_view _ _ _ _ hr
      refine ⟨Fill.reparentedPool hwrite hview, rfl, rfl, ?_, ?_⟩
      · intro p1 hp1
        rcases hview q with h1 | ⟨p, h1, h2⟩
        · have h3 : pages1 q = some p1 := hp1
          rw [h1, BPlusTree.write_pages, Pool.write_apply, if_pos rfl] at h3
          cases h3; exact hgeOld
        · have h3 : pages1 q = some p1 := hp1
          rw [h2] at h3; cases h3
          rw [BPlusTree.write_pages, Pool.write_apply, if_pos rfl] at h1
          cases h1
          exact (Page.atLeast_setParent _ _).2 hgeOld
      · intro p1 hp1
        rcases hview t.next_page_id with h1 | ⟨p, h1, h2⟩
        · have h3 : pages1 t.next_page_id = some p1 := hp1
          rw [h1, BPlusTree.write_pages, Pool.write_apply, if_neg (Ne.symm hqne),
            BPlusTree.write_pages, Pool.write_apply, if_pos rfl] at h3
          cases h3; exact hgeNew
        · have h3 : pages1 t.next_page_id = some p1 := hp1
          rw [h2] at h3; cases h3
          rw [BPlusTree.write_pages, Pool.write_apply, if_neg (Ne.symm hqne),
            BPlusTree.write_pages, Pool.write_apply, if_pos rfl] at h1
          cases h1
          exact (Page.atLeast_setParent _ _).2 hgeNew

theorem length_insertAfter_le (old key new : Int) :
    ∀ (arr : List (Int × Int)),
      (InternalPage.insertAfter arr old key new).length ≤ arr.length + 1 := by
  intro arr
  induction arr with
  | nil => simp [InternalPage.insertAfter]
  | cons kc rest ih =>
    simp only [InternalPage.insertAfter]
    split
    · simp
    · simp only [List.length_cons]; omega

theorem mem_insertAfter_snd (old key new : Int) :
    ∀ (arr : List (Int × Int)) (c : Int),
      c ∈ (InternalPage.insertAfter arr old key new).map Prod.snd →
      c = new ∨ c ∈ arr.map Prod.snd := by
  intro arr
  induction arr with
  | nil => intro c hc; simp [InternalPage.insertAfter] at hc
  | cons kc rest ih =>
    intro c hc
    simp only [InternalPage.insertAfter] at hc
    split at hc
    · simp only [List.map_cons, List.mem_cons] at hc ⊢
      tauto
    · simp only [List.map_cons, List.mem_cons] at hc ⊢
      rcases hc with h | h
      · exact Or.inr (Or.inl h)
      · rcases ih c h with h1 | h1
        · exact Or.inl h1
        · exact Or.inr (Or.inr h1)

/-- Rewriting the parent page id of one page changes no occupancy fact. -/
theorem Fill.setParentOf {t : BPlusTree} {over : Option Int} (hf : Fill t over) {q : Int}
    {pg : Page} (hq : t.pages q = some pg) (a : Int) :
    Fill (t.write q (pg.SetParentPageId a)) over := by
  refine Fill.writePage hf hq rfl rfl rfl rfl (fun _ _ h => h) ?_ ?_ ?_ ?_
  · rw [Page.getPageId_setParent]; exact (hf.ids q pg hq).2
  · intro ho
    exact (Page.atMost_setParent pg a).2 (hf.atMost q pg hq ho)
  · exact fun h => (Page.atLeast_setParent pg a).2 h
  · intro c hc
    rw [Page.children_setParent] at hc
    cases pg with
    | leaf l => simp [Page.children] at hc
    | internal n => exact hf.listed q n c hq hc

/-- The page about to be split turns out to be within its capacity. -/
theorem Fill.settle {t : BPlusTree} {q : Int} (hf : Fill t (some q))
    (hq : ∀ pg, t.pages q = some pg → pg.AtMost t.leaf_max_size t.internal_max_size) :
    Fill t none := by
  refine ⟨hf.ids, fun x px hx _ => ?_, hf.listed⟩
  by_cases hxq : x = q
  · exact hq px (by rw [← hxq]; exact hx)
  · exact hf.atMost x px hx (fun h => hxq (Option.some.inj h).symm)

/-- `InsertIntoParent` after a split whose halves have the minimum occupancy: afterwards every
page is within its capacity and every listed child has the minimum occupancy. -/
theorem InsertIntoParent_fill :
    ∀ (fuel : Nat) (t t1 : BPlusTree) (old key new : Int), Fill t none → SzInv t →
      2 ≤ t.leaf_max_size → 3 ≤ t.internal_max_size →
      (∀ po, t.pages old = some po → po.AtLeast t.leaf_max_size t.internal_max_size) →
      (∀ pn, t.pages new = some pn → pn.AtLeast t.leaf_max_size t.internal_max_size) →
      BPlusTree.InsertIntoParent fuel t old key new = .ok t1 → Fill t1 none := by
  intro fuel
  induction fuel with
  | zero => intro t t1 old key new _ _ _ _ _ _ h; simp [BPlusTree.InsertIntoParent] at h
  | succ f ih =>
    intro t t1 old key new hf hsz hL hI hgo hgn h
    simp only [BPlusTree.InsertIntoParent] at h
    cases ho : t.pages old with
    | none => rw [ho] at h; cases h
    | some po =>
      cases hn : t.pages new with
      | none => rw [ho, hn] at h; cases h
      | some pn =>
        rw [ho, hn] at h
        simp only at h
        have hoid := hf.ids old po ho
        have hnid := hf.ids new pn hn
        by_cases hroot : po.IsRootPage = true
        · rw [if_pos hroot] at h
          simp only [Except.ok.injEq] at h
          subst h
          have h0 : ∀ T0 : BPlusTree,
              T0 = { t with next_page_id := t.next_page_id + 1, root_page_id := t.next_page_id } →
              Fill (T0.write t.next_page_id (.internal
                ((InternalPage.Init t.next_page_id INVALID_PAGE_ID
                  t.internal_max_size).PopulateNewRoot po.GetPageId key pn.GetPageId))) none := by
            intro T0 hT0
            subst hT0
            refine Fill.alloc hf rfl rfl rfl rfl rfl ?_ ?_
            · simp only [Page.AtMost, Page.GetSize, InternalPage.GetSize, Page.IsLeafPage,
                Bool.false_eq_true, if_false, InternalPage.PopulateNewRoot, List.length_cons,
                List.length_nil]
              push_cast
              omega
            · intro c hc
              simp only [Page.children, InternalPage.PopulateNewRoot, List.map_cons,
                List.map_nil, List.mem_cons, List.mem_singleton, List.not_mem_nil,
                or_false] at hc
              rcases hc with hc | hc
              · rw [hc, hoid.2]
                exact ⟨hoid.1, hgo⟩
              · rw [hc, hnid.2]
                exact ⟨hnid.1, hgn⟩
          have h1 := h0 _ rfl
          have hne1 : old ≠ t.next_page_id := by omega
          have h2 := @Fill.setParentOf _ _ h1 old po (by
            rw [BPlusTree.write_pages, Pool.write_apply, if_neg hne1]; exact ho) t.next_page_id
          by_cases hon : new = old
          · have hpp : pn = po := by rw [hon, ho] at hn; cases hn; rfl
            subst hpp
            have h3 := @Fill.setParentOf _ _ h2 new (pn.SetParentPageId t.next_page_id) (by
              rw [BPlusTree.write_pages, Pool.write_apply, if_pos hon]) t.next_page_id
            rw [Page.setParent_setParent] at h3
            exact ⟨h3.ids, h3.atMost, h3.listed⟩
          · have hne2 : new ≠ t.next_page_id := by omega
            have h3 := @Fill.setParentOf _ _ h2 new pn (by
              rw [BPlusTree.write_pages, Pool.write_apply, if_neg hon,
                BPlusTree.write_pages, Pool.write_apply, if_neg hne2]; exact hn) t.next_page_id
            exact ⟨h3.ids, h3.atMost, h3.listed⟩
        · rw [if_neg hroot] at h
          cases hp : t.pages po.GetParentPageId with
          | none => rw [hp] at h; cases h
          | some pp =>
            rw [hp] at h
            cases pp with
            | leaf _ => cases h
            | internal parent_node =>
              simp only at h
              have hpsz := hsz _ _ hp
              have hlen := length_insertAfter_ge po.GetPageId key pn.GetPageId parent_node.array
              have hlen2 := length_insertAfter_le po.GetPageId key pn.GetPageId
                parent_node.array
              have hple := hf.atMost _ _ hp (by simp)
              simp only [Page.AtMost, Page.GetSize, InternalPage.GetSize, Page.IsLeafPage,
                Bool.false_eq_true, if_false] at hple
              have hsz1 : SzInv (t.write po.GetParentPageId (.internal
                  (parent_node.InsertNodeAfter po.GetPageId key pn.GetPageId))) := by
                refine SzInv.write hsz ⟨hpsz.1, ?_⟩
                simp only [InternalPage.InsertNodeAfter]
                have := hpsz.2
                omega
              have hover : Fill (t.write po.GetParentPageId (.internal
                  (parent_node.InsertNodeAfter po.GetPageId key pn.GetPageId)))
                  (some po.GetParentPageId) := by
                refine Fill.writePage hf hp rfl rfl rfl rfl (fun _ _ _ => by simp) ?_ ?_ ?_ ?_
                · exact (hf.ids _ _ hp).2
                · intro h0; exact absurd rfl h0
                · intro hge
                  simp only [Page.AtLeast, Page.GetSize, InternalPage.GetSize, Page.IsLeafPage,
                    Bool.false_eq_true, if_false, InternalPage.InsertNodeAfter] at hge ⊢
                  omega
                · intro c hc
                  simp only [Page.children, InternalPage.InsertNodeAfter] at hc
                  rcases mem_insertAfter_snd _ _ _ _ c hc with h1 | h1
                  · rw [h1, hnid.2]
                    exact ⟨hnid.1, hgn⟩
                  · exact hf.listed _ parent_node c hp h1
              split at h
              · rename_i hsmall
                simp only [Except.ok.injEq] at h
                subst h
                refine Fill.settle hover ?_
                intro pg hpg
                rw [BPlusTree.write_pages, Pool.write_apply, if_pos rfl] at hpg
                cases hpg
                simp only [InternalPage.GetSize, InternalPage.InsertNodeAfter] at hsmall
                have := hpsz.1
                simp only [Page.AtMost, Page.GetSize, InternalPage.GetSize, Page.IsLeafPage,
                  Bool.false_eq_true, if_false, InternalPage.InsertNodeAfter]
                show ((InternalPage.insertAfter parent_node.array po.GetPageId key
                  pn.GetPageId).length : Int) ≤ t.internal_max_size
                omega
              · rename_i hbig
                simp only [InternalPage.GetSize, InternalPage.InsertNodeAfter, not_lt] at hbig
                have hmax := hpsz.1
                cases hs : (t.write po.GetParentPageId (.internal
                    (parent_node.InsertNodeAfter po.GetPageId key pn.GetPageId))).Split
                    po.GetParentPageId with
                | error e => rw [hs] at h; cases h
                | ok r =>
                  obtain ⟨t2, new_parent_id⟩ := r
                  rw [hs] at h
                  simp only at h
                  have h2 := Split_sz hsz1 (by
                    intro n hn2
                    rw [BPlusTree.write_pages, Pool.write_apply, if_pos rfl] at hn2
                    cases hn2
                    simp only [InternalPage.InsertNodeAfter]
                    omega) hs
                  have h3 := @Split_fill _ _ _ _ (.internal
                    (parent_node.InsertNodeAfter po.GetPageId key pn.GetPageId)) hover hL (by
                      show 1 ≤ t.internal_max_size
                      omega) (by
                      rw [BPlusTree.write_pages, Pool.write_apply, if_pos rfl]) (by
                      simp only [Page.GetSize, InternalPage.GetSize, Page.IsLeafPage,
                        Bool.false_eq_true, if_false, InternalPage.InsertNodeAfter]
                      show ((InternalPage.insertAfter parent_node.array po.GetPageId key
                        pn.GetPageId).length : Int) = t.internal_max_size + 1
                      omega) hs
                  obtain ⟨f2, e1, e2, g1, g2⟩ := h3
                  cases hnp : t2.pages new_parent_id with
                  | none => rw [hnp] at h; cases h
                  | some pg2 =>
                    rw [hnp] at h
                    cases pg2 with
                    | leaf _ => cases h
                    | internal npn =>
                      simp only at h
                      cases hk : npn.KeyAt 0 with
                      | none => rw [hk] at h; cases h
                      | some up_key =>
                        rw [hk] at h
                        exact ih t2 t1 _ _ _ f2 h2.1 (by rw [h2.2.1]; exact hL)
                          (by rw [h2.2.2]; exact hI) (by rw [e1, e2]; exact g1)
                          (by rw [e1, e2]; exact g2) h

/-- `Insert` keeps every page within its capacity and every listed child at the minimum
occupancy. -/
theorem Insert_fill {t t1 : BPlusTree} {k v : Int} {b : Bool} (hf : Fill t none)
    (hsz : SzInv t) (hL : 2 ≤ t.leaf_max_size) (hI : 3 ≤ t.internal_max_size)
    (h : t.Insert k v = .ok (t1, b)) : Fill t1 none := by
  simp only [BPlusTree.Insert] at h
  split at h
  · simp only [Except.ok.injEq, Prod.mk.injEq] at h
    obtain ⟨h, -⟩ := h
    subst h
    have h0 : ∀ T0 : BPlusTree,
        T0 = { t with next_page_id := t.next_page_id + 1, root_page_id := t.next_page_id } →
        Fill ((T0.UpdateRootPageId 1).write t.next_page_id (.leaf
          ((LeafPage.Init t.next_page_id INVALID_PAGE_ID t.leaf_max_size).Insert k v)))
          none := by
      intro T0 hT0
      subst hT0
      refine Fill.alloc hf rfl rfl rfl rfl rfl ?_ ?_
      · simp only [Page.AtMost, Page.GetSize, LeafPage.GetSize, Page.IsLeafPage, if_true,
          LeafPage.Insert, LeafPage.Init, LeafPage.insertSorted, List.length_cons,
          List.length_nil]
        push_cast
        omega
      · intro c hc
        simp [Page.children] at hc
    exact h0 _ rfl
  · simp only [BPlusTree.InsertIntoLeaf] at h
    cases hfl : t.FindLeafPage k false with
    | error e => rw [hfl] at h; cases h
    | ok r =>
      obtain ⟨page_id, leaf_page⟩ := r
      rw [hfl] at h
      simp only at h
      have hpage := FindLeafPage_page hfl
      split at h
      · simp only [Except.ok.injEq, Prod.mk.injEq] at h
        obtain ⟨h, -⟩ := h
        subst h
        exact hf
      · rename_i hnone
        have hlk : LeafPage.lookup leaf_page.array k = none := by
          cases hc : LeafPage.lookup leaf_page.array k with
          | none => rfl
          | some w => simp [LeafPage.Lookup, hc] at hnone
        have hlen := length_insertSorted (v := v) (lookup_eq_none.1 hlk)
        have hple := hf.atMost _ _ hpage (by simp)
        simp only [Page.AtMost, Page.GetSize, LeafPage.GetSize, Page.IsLeafPage,
          if_true] at hple
        have hsz1 : SzInv (t.write page_id (.leaf (leaf_page.Insert k v))) :=
          SzInv.write hsz (hsz _ (.leaf leaf_page) hpage)
        have hover : Fill (t.write page_id (.leaf (leaf_page.Insert k v))) (some page_id) := by
          refine Fill.writePage hf hpage rfl rfl rfl rfl (fun _ _ _ => by simp) ?_ ?_ ?_ ?_
          · exact (hf.ids _ _ hpage).2
          · intro h0; exact absurd rfl h0
          · intro hge
            simp only [Page.AtLeast, Page.GetSize, LeafPage.GetSize, Page.IsLeafPage, if_true,
              LeafPage.Insert, hlen] at hge ⊢
            push_cast
            omega
          · intro c hc
            simp [Page.children] at hc
        split at h
        · rename_i hsmall
          simp only [Except.ok.injEq, Prod.mk.injEq] at h
          obtain ⟨h, -⟩ := h
          subst h
          refine Fill.settle hover ?_
          intro pg hpg
          rw [BPlusTree.write_pages, Pool.write_apply, if_pos rfl] at hpg
          cases hpg
          simp only [LeafPage.GetSize, LeafPage.Insert, hlen] at hsmall
          simp only [Page.AtMost, Page.GetSize, LeafPage.GetSize, Page.IsLeafPage, if_true,
            LeafPage.Insert, hlen]
          show ((leaf_page.array.length + 1 : Nat) : Int) ≤ t.leaf_max_size - 1
          omega
        · rename_i hbig
          simp only [LeafPage.GetSize, LeafPage.Insert, hlen, not_lt] at hbig
          cases hs : (t.write page_id (.leaf (leaf_page.Insert k v))).Split page_id with
          | error e => rw [hs] at h; cases h
          | ok r =>
            obtain ⟨t2, new_id⟩ := r
            rw [hs] at h
            simp only at h
            have h2 := Split_sz hsz1 (by
              intro n hn
              rw [BPlusTree.write_pages, Pool.write_apply, if_pos rfl] at hn
              cases hn) hs
            have h3 := @Split_fill _ _ _ _ (.leaf (leaf_page.Insert k v)) hover hL (by
                show 1 ≤ t.internal_max_size
                omega) (by
                rw [BPlusTree.write_pages, Pool.write_apply, if_pos rfl]) (by
                simp only [Page.GetSize, LeafPage.GetSize, Page.IsLeafPage, if_true,
                  LeafPage.Insert, hlen]
                show ((leaf_page.array.length + 1 : Nat) : Int) = t.leaf_max_size - 1 + 1
                omega) hs
            obtain ⟨f2, e1, e2, g1, g2⟩ := h3
            cases hnp : t2.pages new_id with
            | none => rw [hnp] at h; cases h
            | some pg2 =>
              rw [hnp] at h
              cases pg2 with
              | internal _ => cases h
              | leaf nl =>
                simp only at h
                cases hk : nl.KeyAt 0 with
                | none => rw [hk] at h; cases h
                | some up_key =>
                  rw [hk] at h
                  simp only at h
                  cases hip : BPlusTree.InsertIntoParent t2.fuel t2 page_id up_key new_id with
                  | error e => rw [hip] at h; cases h
                  | ok t3 =>
                    rw [hip] at h
                    simp only [Except.ok.injEq, Prod.mk.injEq] at h
                    obtain ⟨h, -⟩ := h
                    subst h
                    exact InsertIntoParent_fill _ _ _ _ _ _ f2 h2.1 (by rw [h2.2.1]; exact hL)
                      (by rw [h2.2.2]; exact hI) (by rw [e1, e2]; exact g1)
                      (by rw [e1, e2]; exact g2) hip

theorem InsertAll_fill :
    ∀ (kvs : List (Int × Int)) (t t1 : BPlusTree) (bs : List Bool), Fill t none → SzInv t →
      2 ≤ t.leaf_max_size → 3 ≤ t.internal_max_size → t.InsertAll kvs = .ok (t1, bs) →
      Fill t1 none := by
  intro kvs
  induction kvs with
  | nil =>
    intro t t1 bs hf _ _ _ h
    simp only [BPlusTree.InsertAll, Except.ok.injEq, Prod.mk.injEq] at h
    obtain ⟨h, -⟩ := h
    subst h
    exact hf
  | cons kv rest ih =>
    intro t t1 bs hf hsz hL hI h
    simp only [BPlusTree.InsertAll] at h
    cases hi : t.Insert kv.1 kv.2 with
    | error e => rw [hi] at h; cases h
    | ok r =>
      obtain ⟨t2, b⟩ := r
      rw [hi] at h
      simp only at h
      have h2 := Insert_sz hsz hI hi
      have f2 := Insert_fill hf hsz hL hI hi
      cases hr : t2.InsertAll rest with
      | error e => rw [hr] at h; cases h
      | ok r2 =>
        obtain ⟨t3, bs3⟩ := r2
        rw [hr] at h
        simp only [Except.ok.injEq, Prod.mk.injEq] at h
        obtain ⟨h, -⟩ := h
        subst h
        exact ih t2 t3 bs3 f2 h2.1 (by rw [h2.2.1]; exact hL) (by rw [h2.2.2]; exact hI) hr

theorem Fill.ofNewTree (L I : Int) : Fill (BPlusTree.new L I) none :=
  ⟨fun q pg h => by simp [BPlusTree.new] at h, fun q pg h => by simp [BPlusTree.new] at h,
    fun p n c h => by simp [BPlusTree.new] at h⟩

/-- Size bounds of a tree built by `Insert` calls: every page is within its capacity and every
page other than the root has the minimum occupancy. -/
theorem build_fill (L I : Int) (kvs : List (Int × Int)) (hL : 2 ≤ L) (hI : 3 ≤ I) :
    ∃ t, build L I kvs = .ok t ∧ t.leaf_max_size = L ∧ t.internal_max_size = I ∧
      ∀ q pg, t.pages q = some pg → pg.AtMost L I ∧ (q ≠ t.root_page_id → pg.AtLeast L I) := by
  obtain ⟨t, bs, h0, h1, h2, h3, -, -⟩ := build_ok L I kvs
  have hsz := InsertAll_sz kvs _ _ _ (SzInv.ofNew L I) hI h0
  have hf := InsertAll_fill kvs _ _ _ (Fill.ofNewTree L I) (SzInv.ofNew L I) hL hI h0
  have eL : t.leaf_max_size = L := hsz.2.1
  have eI : t.internal_max_size = I := hsz.2.2
  refine ⟨t, h1, eL, eI, ?_⟩
  intro q pg hq
  refine ⟨by have := hf.atMost q pg hq (by simp); rwa [eL, eI] at this, fun hne => ?_⟩
  by_cases hnil : kvs = []
  · rw [h2 hnil] at hq
    simp [BPlusTree.new] at hq
  · obtain ⟨g, hinv, -⟩ := h3 hnil
    obtain ⟨n, hn, hmem⟩ := hinv.listed q pg hq hne
    have := (hf.listed _ n q hn hmem).2 pg hq
    rwa [eL, eI] at this

/-! ## The header page record -/

theorem Split_hdr {t t1 : BPlusTree} {q new_id : Int} (hs : t.Split q = .ok (t1, new_id)) :
    t1.root_page_id = t.root_page_id ∧ t1.header_record = t.header_record := by
  simp only [BPlusTree.Split] at hs
  cases hp : t.pages q with
  | none => rw [hp] at hs; cases hs
  | some pg =>
    rw [hp] at hs
    cases pg with
    | leaf l =>
      simp only [Except.ok.injEq, Prod.mk.injEq] at hs
      obtain ⟨hs, -⟩ := hs
      subst hs
      exact ⟨rfl, rfl⟩
    | internal n =>
      simp only at hs
      generalize reparent _ _ _ = r at hs
      cases r with
      | error e => cases hs
      | ok pages1 =>
        simp only [Except.ok.injEq, Prod.mk.injEq] at hs
        obtain ⟨hs, -⟩ := hs
        subst hs
        exact ⟨rfl, rfl⟩

theorem InsertIntoParent_hdr :
    ∀ (fuel : Nat) (t t1 : BPlusTree) (old key new : Int),
      t.header_record = some t.root_page_id →
      BPlusTree.InsertIntoParent fuel t old key new = .ok t1 →
      t1.header_record = some t1.root_page_id := by
  intro fuel
  induction fuel with
  | zero => intro t t1 old key new _ h; simp [BPlusTree.InsertIntoParent] at h
  | succ f ih =>
    intro t t1 old key new hh h
    simp only [BPlusTree.InsertIntoParent] at h
    cases ho : t.pages old with
    | none => rw [ho] at h; cases h
    | some po =>
      cases hn : t.pages new with
      | none => rw [ho, hn] at h; cases h
      | some pn =>
        rw [ho, hn] at h
        simp only at h
        by_cases hroot : po.IsRootPage = true
        · rw [if_pos hroot] at h
          simp only [Except.ok.injEq] at h
          subst h
          show HeaderPage.UpdateRecord t.header_record _ = some _
          rw [hh]
          rfl
        · rw [if_neg hroot] at h
          cases hp : t.pages po.GetParentPageId with
          | none => rw [hp] at h; cases h
          | some pp =>
            rw [hp] at h
            cases pp with
            | leaf _ => cases h
            | internal parent_node =>
              simp only at h
              split at h
              · simp only [Except.ok.injEq] at h
                subst h
                exact hh
              · cases hs : (t.write po.GetParentPageId (.internal
                    (parent_node.InsertNodeAfter po.GetPageId key pn.GetPageId))).Split
                    po.GetParentPageId with
                | error e => rw [hs] at h; cases h
                | ok r =>
                  obtain ⟨t2, new_parent_id⟩ := r
                  rw [hs] at h
                  simp only at h
                  obtain ⟨e1, e2⟩ := Split_hdr hs
                  cases hnp : t2.pages new_parent_id with
                  | none => rw [hnp] at h; cases h
                  | some pg2 =>
                    rw [hnp] at h
                    cases pg2 with
                    | leaf _ => cases h
                    | internal npn =>
                      simp only at h
                      cases hk : npn.KeyAt 0 with
                      | none => rw [hk] at h; cases h
                      | some up_key =>
                        rw [hk] at h
                        exact ih t2 t1 _ _ _ (by rw [e1, e2]; exact hh) h

/-- `Insert` into a tree that has no record yet, or whose record is the page id of its root,
leaves the header page record equal to the root page id. -/
theorem Insert_hdr {t t1 : BPlusTree} {k v : Int} {b : Bool}
    (hh : (t.root_page_id = INVALID_PAGE_ID ∧ t.header_record = none) ∨
      (t.root_page_id ≠ INVALID_PAGE_ID ∧ t.header_record = some t.root_page_id))
    (h : t.Insert k v = .ok (t1, b)) : t1.header_record = some t1.root_page_id := by
  simp only [BPlusTree.Insert] at h
  split at h
  · rename_i he
    have hnone : t.header_record = none := by
      rcases hh with h0 | h0
      · exact h0.2
      · simp [BPlusTree.IsEmpty, h0.1] at he
    simp only [Except.ok.injEq, Prod.mk.injEq] at h
    obtain ⟨h, -⟩ := h
    subst h
    show HeaderPage.InsertRecord t.header_record _ = some _
    rw [hnone]
    rfl
  · rename_i hne
    have hh1 : t.header_record = some t.root_page_id := by
      rcases hh with h0 | h0
      · simp [BPlusTree.IsEmpty, h0.1] at hne
      · exact h0.2
    simp only [BPlusTree.InsertIntoLeaf] at h
    cases hfl : t.FindLeafPage k false with
    | error e => rw [hfl] at h; cases h
    | ok r =>
      obtain ⟨page_id, leaf_page⟩ := r
      rw [hfl] at h
      simp only at h
      split at h
      · simp only [Except.ok.injEq, Prod.mk.injEq] at h
        obtain ⟨h, -⟩ := h
        subst h
        exact hh1
      · split at h
        · simp only [Except.ok.injEq, Prod.mk.injEq] at h
          obtain ⟨h, -⟩ := h
          subst h
          exact hh1
        · cases hs : (t.write page_id (.leaf (leaf_page.Insert k v))).Split page_id with
          | error e => rw [hs] at h; cases h
          | ok r =>
            obtain ⟨t2, new_id⟩ := r
            rw [hs] at h
            simp only at h
            obtain ⟨e1, e2⟩ := Split_hdr hs
            cases hnp : t2.pages new_id with
            | none => rw [hnp] at h; cases h
            | some pg2 =>
              rw [hnp] at h
              cases pg2 with
              | internal _ => cases h
              | leaf nl =>
                simp only at h
                cases hk : nl.KeyAt 0 with
                | none => rw [hk] at h; cases h
                | some up_key =>
                  rw [hk] at h
                  simp only at h
                  cases hip : BPlusTree.InsertIntoParent t2.fuel t2 page_id up_key new_id with
                  | error e => rw [hip] at h; cases h
                  | ok t3 =>
                    rw [hip] at h
                    simp only [Except.ok.injEq, Prod.mk.injEq] at h
                    obtain ⟨h, -⟩ := h
                    subst h
                    exact InsertIntoParent_hdr _ _ _ _ _ _ (by rw [e1, e2]; exact hh1) hip

theorem Redistribute_hdr {t t1 : BPlusTree} {neighbor_id node_id : Int} {index : Nat}
    (h : t.Redistribute neighbor_id node_id index = .ok t1) :
    t1.root_page_id = t.root_page_id ∧ t1.header_record = t.header_record := by
  simp only [BPlusTree.Redistribute] at h
  split at h
  · split at h
    · cases h
    · cases h
    · split at h
      · split at h
        · cases h
        · simp only [Except.ok.injEq] at h
          subst h
          exact ⟨rfl, rfl⟩
      · split at h
        · cases h
        · simp only [Except.ok.injEq] at h
          subst h
          exact ⟨rfl, rfl⟩
  · split at h
    · cases h
    · cases h
    · split at h
      · split at h
        · cases h
        · generalize reparent _ _ _ = r at h
          cases r with
          | error e => cases h
          | ok pages1 =>
            simp only at h
            split at h
            · cases h
            · simp only [Except.ok.injEq] at h
              subst h
              exact ⟨rfl, rfl⟩
      · split at h
        · cases h
        · generalize reparent _ _ _ = r at h
          cases r with
          | error e => cases h
          | ok pages1 =>
            simp only at h
            split at h
            · cases h
            · simp only [Except.ok.injEq] at h
              subst h
              exact ⟨rfl, rfl⟩
  · cases h
  · cases h

theorem AdjustRoot_hdr {t t1 : BPlusTree} {old_root_id : Int} {b : Bool}
    (hh : t.header_record = some t.root_page_id)
    (h : t.AdjustRoot old_root_id = .ok (t1, b)) :
    t1.header_record = some t1.root_page_id := by
  simp only [BPlusTree.AdjustRoot] at h
  repeat' split at h
  all_goals first
    | (simp only [Except.ok.injEq, Prod.mk.injEq] at h
       obtain ⟨h, -⟩ := h
       subst h
       first
         | exact hh
         | (show HeaderPage.UpdateRecord t.header_record _ = some _
            rw [hh]
            rfl))
    | cases h

theorem Coalesce_hdr
    {recur : BPlusTree → Int → Transaction → Except Failure (BPlusTree × Transaction × Bool)}
    {t : BPlusTree} {neighbor_id node_id parent_id : Int} {index : Nat} {txn : Transaction}
    {r : BPlusTree × Transaction × Bool}
    (hrec : ∀ t0 id txn0 r0, t0.header_record = some t0.root_page_id →
      recur t0 id txn0 = .ok r0 → r0.1.header_record = some r0.1.root_page_id)
    (hh : t.header_record = some t.root_page_id)
    (h : BPlusTree.Coalesce recur t neighbor_id node_id parent_id index txn = .ok r) :
    r.1.header_record = some r.1.root_page_id := by
  simp only [BPlusTree.Coalesce] at h
  split at h
  · cases h
  · cases h
  · split at h
    · refine hrec _ _ _ _ ?_ h
      exact hh
    · split at h
      · cases h
      · generalize reparent _ _ _ = rp at h
        cases rp with
        | error e => cases h
        | ok pages1 =>
          simp only at h
          refine hrec _ _ _ _ ?_ h
          exact hh
    · cases h
    · cases h

theorem CoalesceOrRedistribute_hdr :
    ∀ (fuel : Nat) (t : BPlusTree) (node_id : Int) (txn : Transaction)
      (r : BPlusTree × Transaction × Bool), t.header_record = some t.root_page_id →
      BPlusTree.CoalesceOrRedistribute fuel t node_id txn = .ok r →
      r.1.header_record = some r.1.root_page_id := by
  intro fuel
  induction fuel with
  | zero => intro t node_id txn r _ h; simp [BPlusTree.CoalesceOrRedistribute] at h
  | succ f ih =>
    intro t node_id txn r hh h
    simp only [BPlusTree.CoalesceOrRedistribute] at h
    split at h
    · cases h
    · split at h
      · cases ha : t.AdjustRoot node_id with
        | error e => rw [ha] at h; cases h
        | ok ra =>
          obtain ⟨t1, b⟩ := ra
          rw [ha] at h
          simp only [Except.ok.injEq] at h
          subst h
          exact AdjustRoot_hdr hh ha
      · split at h
        · simp only [Except.ok.injEq] at h
          subst h
          exact hh
        · split at h
          · cases h
          · cases h
          · split at h
            · cases h
            · split at h
              · cases h
              · split at h
                · cases h
                · split at h
                  · split at h
                    · cases h
                    · rename_i hr
                      simp only [Except.ok.injEq] at h
                      subst h
                      obtain ⟨e1, e2⟩ := Redistribute_hdr hr
                      show _ = some _
                      rw [e1, e2]; exact hh
                  · split at h
                    · cases h
                    · rename_i hc
                      simp only [Except.ok.injEq] at h
                      subst h
                      have h2 := Coalesce_hdr
                        (fun t0 id txn0 r0 h0 h1 => ih t0 id txn0 r0 h0 h1) hh hc
                      exact h2

/-- `Remove` leaves the header page record equal to the root page id. -/
theorem Remove_hdr {t t1 : BPlusTree} {k : Int} {txn txn1 : Transaction}
    (hh : t.root_page_id = INVALID_PAGE_ID ∨ t.header_record = some t.root_page_id)
    (h : t.Remove k txn = .ok (t1, txn1)) : t1.header_record = some t1.root_page_id := by
  have hh1 : t.header_record = some t.root_page_id := by
    rcases hh with h0 | h0
    · simp [BPlusTree.Remove, BPlusTree.FindLeafPage, h0] at h
    · exact h0
  simp only [BPlusTree.Remove] at h
  split at h
  · cases h
  · split at h
    · simp only [Except.ok.injEq, Prod.mk.injEq] at h
      obtain ⟨h, -⟩ := h
      subst h
      exact hh1
    · split at h
      · cases h
      · rename_i hc
        simp only [Except.ok.injEq, Prod.mk.injEq] at h
        obtain ⟨h, -⟩ := h
        subst h
        have h2 := CoalesceOrRedistribute_hdr _ _ _ _ _ (by exact hh1) hc
        exact h2

/-! ## Exhaustion of the buffer pool during an insertion -/

theorem newPageCalls_append (a b : List Event) :
    newPageCalls (a ++ b) = newPageCalls a ++ newPageCalls b := by
  simp only [newPageCalls, List.filterMap_append]

theorem newPageCalls_UnlockUnpinPages (ps : List Int) :
    newPageCalls (Latched.UnlockUnpinPages ps) = [] := by
  induction ps with
  | nil => rfl
  | cons p rest ih =>
    simp only [Latched.UnlockUnpinPages, List.flatMap_cons] at ih ⊢
    rw [newPageCalls_append, ih]
    rfl

theorem newPageCalls_Unlock (ps : List Int) : newPageCalls (Latched.Unlock ps) = [] := by
  induction ps with
  | nil => rfl
  | cons p rest ih =>
    simp only [Latched.Unlock, List.map_cons] at ih ⊢
    simp only [newPageCalls, List.filterMap_cons] at ih ⊢
    exact ih

theorem newPageCalls_reparentEvents (cs : List Int) :
    newPageCalls (Latched.reparentEvents cs) = [] := by
  induction cs with
  | nil => rfl
  | cons c rest ih =>
    simp only [Latched.reparentEvents, List.flatMap_cons] at ih ⊢
    rw [newPageCalls_append, ih]
    rfl

theorem newPageCalls_unlockRoot (b : Bool) : newPageCalls (Latched.unlockRoot b) = [] := by
  cases b <;> rfl

theorem newPageCalls_UpdateRootPageId : newPageCalls Latched.UpdateRootPageId = [] := rfl

theorem Traced.log_emit {α : Type} (x : Traced α) (evs : List Event) :
    (x.emit evs).log = evs ++ x.log := rfl

theorem Traced.result_emit {α : Type} (x : Traced α) (evs : List Event) :
    (x.emit evs).result = x.result := rfl

theorem Traced.bind_ok {α β : Type} {x : Traced α} {a : α} (f : α → Traced β)
    (h : x.result = .ok a) :
    (x.bind f).log = x.log ++ (f a).log ∧ (x.bind f).result = (f a).result := by
  simp only [Traced.bind, h, and_self]

theorem Traced.bind_error {α β : Type} {x : Traced α} {e : Failure} (f : α → Traced β)
    (h : x.result = .error e) :
    (x.bind f).log = x.log ∧ (x.bind f).result = .error e := by
  simp only [Traced.bind, h, and_self]

/-- Sequencing keeps the property that a refused `NewPage` raises the runtime error. -/
theorem Traced.OomRaises.ofBind {α β : Type} {x : Traced α} {f : α → Traced β}
    (hx : x.OomRaises) (hf : ∀ a, x.result = .ok a → (f a).OomRaises) :
    (x.bind f).OomRaises := by
  intro site hs hmem
  cases hr : x.result with
  | error e =>
    obtain ⟨e1, e2⟩ := Traced.bind_error f hr
    rw [e1] at hmem
    rw [e2]
    have := hx site hs hmem
    rw [hr] at this
    cases this
    rfl
  | ok a =>
    obtain ⟨e1, e2⟩ := Traced.bind_ok f hr
    rw [e1, newPageCalls_append] at hmem
    rw [e2]
    rcases List.mem_append.1 hmem with h | h
    · have := hx site hs h
      rw [hr] at this
      cases this
    · exact hf a hr site hs h

/-- Calls that are no refused `NewPage` may come first. -/
theorem Traced.OomRaises.ofEmit {α : Type} {x : Traced α} {evs : List Event}
    (hx : x.OomRaises) (hevs : ∀ site, (site, none) ∉ newPageCalls evs) :
    (x.emit evs).OomRaises := by
  intro site hs hmem
  rw [Traced.log_emit, newPageCalls_append] at hmem
  rw [Traced.result_emit]
  rcases List.mem_append.1 hmem with h | h
  · exact absurd h (hevs site)
  · exact hx site hs h

/-- A call without any `NewPage`. -/
theorem Traced.OomRaises.ofQuiet {α : Type} {x : Traced α} (h : newPageCalls x.log = []) :
    x.OomRaises := by
  intro site _ hmem
  rw [h] at hmem
  cases hmem

theorem newPageCalls_descendLoop (t : BPlusTree) (key : Int) (op : Operation) (lm : Bool) :
    ∀ (fuel : Nat) (page_id : Int) (flag : Bool) (ps : List Int),
      newPageCalls (Latched.descendLoop t key op lm fuel page_id flag ps).log = [] := by
  intro fuel
  induction fuel with
  | zero => intro page_id flag ps; rfl
  | succ f ih =>
    intro page_id flag ps
    simp only [Latched.descendLoop]
    split
    · rfl
    · rfl
    · split
      · rfl
      · split
        · exact ih _ _ _
        · split
          · rw [Traced.log_emit, newPageCalls_append, ih]; rfl
          · split
            · rw [Traced.log_emit, newPageCalls_append, ih, newPageCalls_append,
                newPageCalls_append, newPageCalls_unlockRoot, newPageCalls_UnlockUnpinPages]
              rfl
            · rw [Traced.log_emit, newPageCalls_append, ih]; rfl

theorem newPageCalls_FindLeafPageByOperation (t : BPlusTree) (key : Int) (op : Operation)
    (lm : Bool) (ps : List Int) :
    newPageCalls (Latched.FindLeafPageByOperation t key op lm ps).log = [] := by
  simp only [Latched.FindLeafPageByOperation]
  split
  · rfl
  · split
    · rfl
    · split
      · rw [Traced.log_emit, newPageCalls_append, newPageCalls_descendLoop]; rfl
      · split
        · rw [Traced.log_emit, newPageCalls_append, newPageCalls_descendLoop]; rfl
        · rw [Traced.log_emit, newPageCalls_append, newPageCalls_descendLoop]; rfl

theorem Split_oom (avail : Nat) (t : BPlusTree) (node_id : Int) :
    (Latched.Split avail t node_id).OomRaises := by
  intro site hs hmem
  cases avail with
  | zero => rfl
  | succ a =>
    simp only [Latched.Split] at hmem ⊢
    split at hmem
    · simp [newPageCalls] at hmem
    · exfalso
      rename_i t1 new_id _
      have : newPageCalls (Event.NewPage Site.Split (some new_id) ::
          (match t1.pages new_id with
           | some (.internal new_node) => Latched.reparentEvents (new_node.array.map Prod.snd)
           | _ => [])) = [(Site.Split, some new_id)] := by
        show (Site.Split, some new_id) :: newPageCalls _ = _
        split
        · rw [newPageCalls_reparentEvents]
        · rfl
      have hmem2 : (site, none) ∈ newPageCalls (Event.NewPage Site.Split (some new_id) ::
          (match t1.pages new_id with
           | some (.internal new_node) => Latched.reparentEvents (new_node.array.map Prod.snd)
           | _ => [])) := hmem
      rw [this] at hmem2
      simp at hmem2

theorem InsertIntoParent_oom :
    ∀ (fuel avail : Nat) (t : BPlusTree) (old key new : Int) (flag : Bool) (ps : List Int),
      (Latched.InsertIntoParent fuel avail t old key new flag ps).OomRaises := by
  intro fuel
  induction fuel with
  | zero => intro avail t old key new flag ps; exact Traced.OomRaises.ofQuiet rfl
  | succ f ih =>
    intro avail t old key new flag ps
    simp only [Latched.InsertIntoParent]
    split
    · split
      · cases avail with
        | zero =>
          intro site hs hmem
          simp [newPageCalls] at hmem
          exact absurd hmem hs
        | succ a =>
          intro site hs hmem
          exfalso
          simp only [newPageCalls_append, newPageCalls_UpdateRootPageId,
            newPageCalls_unlockRoot, newPageCalls_Unlock, List.append_nil] at hmem
          simp [newPageCalls] at hmem
      · split
        · exact Traced.OomRaises.ofQuiet rfl
        · exact Traced.OomRaises.ofQuiet rfl
        · split
          · refine Traced.OomRaises.ofQuiet ?_
            simp only [newPageCalls_append, newPageCalls_unlockRoot, newPageCalls_Unlock]
            rfl
          · refine Traced.OomRaises.ofEmit ?_ (by intro site h; simp [newPageCalls] at h)
            refine Traced.OomRaises.ofBind (Split_oom _ _ _) ?_
            intro s _
            split
            · split
              · exact Traced.OomRaises.ofQuiet rfl
              · refine Traced.OomRaises.ofBind (ih _ _ _ _ _ _ _) ?_
                intro r _
                exact Traced.OomRaises.ofQuiet rfl
            · exact Traced.OomRaises.ofQuiet rfl
    · exact Traced.OomRaises.ofQuiet rfl

theorem InsertIntoLeaf_oom (avail : Nat) (t : BPlusTree) (key value : Int) (ps : List Int) :
    (Latched.InsertIntoLeaf avail t key value ps).OomRaises := by
  simp only [Latched.InsertIntoLeaf]
  refine Traced.OomRaises.ofBind
    (Traced.OomRaises.ofQuiet (newPageCalls_FindLeafPageByOperation _ _ _ _ _)) ?_
  intro d _
  split
  · split
    · refine Traced.OomRaises.ofQuiet ?_
      simp only [newPageCalls_append, newPageCalls_unlockRoot, newPageCalls_UnlockUnpinPages]
      rfl
    · split
      · refine Traced.OomRaises.ofQuiet ?_
        simp only [newPageCalls_append, newPageCalls_unlockRoot]
        rfl
      · refine Traced.OomRaises.ofBind (Split_oom _ _ _) ?_
        intro s _
        split
        · split
          · exact Traced.OomRaises.ofQuiet rfl
          · refine Traced.OomRaises.ofBind (InsertIntoParent_oom _ _ _ _ _ _ _ _) ?_
            intro r _
            exact Traced.OomRaises.ofQuiet rfl
        · exact Traced.OomRaises.ofQuiet rfl
  · exact Traced.OomRaises.ofQuiet rfl

theorem StartNewTree_oom (avail : Nat) (t : BPlusTree) (key value : Int) :
    (Latched.StartNewTree avail t key value).OomRaises := by
  intro site hs hmem
  cases avail with
  | zero => rfl
  | succ a =>
    exfalso
    simp only [Latched.StartNewTree, newPageCalls_append, newPageCalls_UpdateRootPageId] at hmem
    simp [newPageCalls] at hmem

/-- `Insert` raises the runtime error whenever `NewPage` returns no page in `StartNewTree` or
in `Split`. -/
theorem Insert_oom (avail : Nat) (t : BPlusTree) (key value : Int) (ps : List Int) :
    (Latched.Insert avail t key value ps).OomRaises := by
  have hbody : (if t.IsEmpty then
      (Latched.StartNewTree avail t key value).bind fun r =>
        ({ log := [], result := .ok (r.1, r.2, ps, true) } :
          Traced (Nat × BPlusTree × List Int × Bool))
    else Latched.InsertIntoLeaf avail t key value ps).OomRaises := by
    split
    · refine Traced.OomRaises.ofBind (StartNewTree_oom _ _ _ _) ?_
      intro r _
      exact Traced.OomRaises.ofQuiet rfl
    · exact InsertIntoLeaf_oom _ _ _ _ _
  intro site hs hmem
  simp only [Latched.Insert, newPageCalls_append] at hmem ⊢
  rcases List.mem_append.1 hmem with h | h
  · rcases List.mem_append.1 h with h1 | h1
    · simp [newPageCalls] at h1
    · exact hbody site hs h1
  · simp [newPageCalls] at h

/-! ## Pins and write latches held by the descent -/

theorem foldl_pinStep_UnlockUnpinPages (p : Int) :
    ∀ (ps : List Int) (c : Nat),
      (Latched.UnlockUnpinPages ps).foldl (pinStep p) c = c - ps.count p := by
  intro ps
  induction ps with
  | nil => intro c; rfl
  | cons q rest ih =>
    intro c
    simp only [Latched.UnlockUnpinPages, List.flatMap_cons, List.foldl_append] at ih ⊢
    rw [ih]
    by_cases hq : q = p
    · subst hq
      simp only [List.foldl, pinStep, if_true, List.count_cons_self]
      omega
    · simp only [List.foldl, pinStep, hq, if_false, List.count_cons_of_ne (Ne.symm hq)]

theorem foldl_wlatchStep_UnlockUnpinPages (p : Int) :
    ∀ (ps : List Int) (c : Nat),
      (Latched.UnlockUnpinPages ps).foldl (wlatchStep p) c = c - ps.count p := by
  intro ps
  induction ps with
  | nil => intro c; rfl
  | cons q rest ih =>
    intro c
    simp only [Latched.UnlockUnpinPages, List.flatMap_cons, List.foldl_append] at ih ⊢
    rw [ih]
    by_cases hq : q = p
    · subst hq
      simp only [List.foldl, wlatchStep, if_true, List.count_cons_self]
      omega
    · simp only [List.foldl, wlatchStep, hq, if_false, List.count_cons_of_ne (Ne.symm hq)]

theorem descendLoop_none (t : BPlusTree) (key : Int) (op : Operation) (lm : Bool) :
    ∀ (fuel : Nat) (q : Int) (flag : Bool) (ps : List Int) (d : Descent), t.pages q = none →
      (Latched.descendLoop t key op lm fuel q flag ps).result ≠ .ok d := by
  intro fuel q flag ps d hq h
  cases fuel with
  | zero => simp [Latched.descendLoop] at h
  | succ f => simp [Latched.descendLoop, hq] at h

/-- The descent of an `INSERT` or a `DELETE` holds, of every page, as many pins and as many
write latches as the page set lists it, and one more of the leaf it returns. -/
theorem descendLoop_held (t : BPlusTree) (key : Int) (op : Operation) (lm : Bool)
    (hop : op ≠ .FIND) (step : Int → Nat → Event → Nat)
    (hacq : ∀ p c next,
      ([Event.FetchPage next, Event.WLatch next]).foldl (step p) c =
        c + if next = p then 1 else 0)
    (hroot : ∀ p c b, (Latched.unlockRoot b).foldl (step p) c = c)
    (hrel : ∀ p c ps, (Latched.UnlockUnpinPages ps).foldl (step p) c = c - ps.count p) :
    ∀ (fuel : Nat) (page_id : Int) (flag : Bool) (ps : List Int) (d : Descent) (p : Int)
      (c : Nat), (Latched.descendLoop t key op lm fuel page_id flag ps).result = .ok d →
      c = ps.count p + (if page_id = p then 1 else 0) →
      (Latched.descendLoop t key op lm fuel page_id flag ps).log.foldl (step p) c =
        d.page_set.count p + (if d.page_id = p then 1 else 0) := by
  intro fuel
  induction fuel with
  | zero => intro page_id flag ps d p c h; simp [Latched.descendLoop] at h
  | succ f ih =>
    intro page_id flag ps d p c h hc
    simp only [Latched.descendLoop] at h ⊢
    split at h
    · cases h
    · simp only [Except.ok.injEq] at h
      subst h
      exact hc
    · split at h
      · cases h
      · split at h
        · exact absurd h (descendLoop_none t key op lm f _ _ _ d (by assumption))
        · rw [if_neg hop] at h ⊢
          split at h
          · rename_i hsafe
            rw [Traced.result_emit] at h
            rw [if_pos hsafe, Traced.log_emit, List.foldl_append, List.foldl_append,
              List.foldl_append, hacq,
              hroot, hrel]
            refine ih _ _ _ d p _ h ?_
            rw [hc, List.count_append]
            simp only [List.count_nil, List.count_singleton, beq_iff_eq]
            omega
          · rename_i hsafe
            rw [Traced.result_emit] at h
            rw [if_neg hsafe, Traced.log_emit, List.foldl_append, hacq]
            refine ih _ _ _ d p _ h ?_
            rw [hc, List.count_append]
            simp only [List.count_singleton, beq_iff_eq]

/-- Pins held when `FindLeafPageByOperation` returns for an `INSERT` or a `DELETE` with an
empty page set: one for each entry of the page set and one for the leaf. -/
theorem FindLeafPageByOperation_pins (t : BPlusTree) (key : Int) (op : Operation) (lm : Bool)
    (hop : op ≠ .FIND) (d : Descent) (p : Int)
    (h : (Latched.FindLeafPageByOperation t key op lm []).result = .ok d) :
    (Latched.FindLeafPageByOperation t key op lm []).log.foldl (pinStep p) 0 =
      d.page_set.count p + (if d.page_id = p then 1 else 0) := by
  have hacq : ∀ p c next,
      ([Event.FetchPage next, Event.WLatch next]).foldl (pinStep p) c =
        c + if next = p then 1 else 0 := by
    intro p c next
    by_cases hn : next = p <;> simp [List.foldl, pinStep, hn]
  have hroot : ∀ p c b, (Latched.unlockRoot b).foldl (pinStep p) c = c := by
    intro p c b
    cases b <;> rfl
  simp only [Latched.FindLeafPageByOperation] at h ⊢
  split at h
  · cases h
  · rename_i hne
    rw [if_neg hne]
    split at h
    · cases h
    · rename_i node hnode
      simp only [hnode, if_neg hop]
      split at h
      · rename_i hsafe
        rw [Traced.result_emit] at h
        rw [if_pos hsafe, Traced.log_emit, List.foldl_append]
        refine descendLoop_held t key op lm hop pinStep hacq hroot
          (fun p c ps => foldl_pinStep_UnlockUnpinPages p ps c) _ _ _ _ d p _ h ?_
        by_cases hr : t.root_page_id = p <;> simp [List.foldl, pinStep, hr]
      · rename_i hsafe
        rw [Traced.result_emit] at h
        rw [if_neg hsafe, Traced.log_emit, List.foldl_append]
        refine descendLoop_held t key op lm hop pinStep hacq hroot
          (fun p c ps => foldl_pinStep_UnlockUnpinPages p ps c) _ _ _ _ d p _ h ?_
        by_cases hr : t.root_page_id = p <;> simp [List.foldl, pinStep, hr]

/-- Write latches held when `FindLeafPageByOperation` returns for an `INSERT` or a `DELETE`
with an empty page set: one for each entry of the page set and one for the leaf. -/
theorem FindLeafPageByOperation_wlatches (t : BPlusTree) (key : Int) (op : Operation)
    (lm : Bool) (hop : op ≠ .FIND) (d : Descent) (p : Int)
    (h : (Latched.FindLeafPageByOperation t key op lm []).result = .ok d) :
    (Latched.FindLeafPageByOperation t key op lm []).log.foldl (wlatchStep p) 0 =
      d.page_set.count p + (if d.page_id = p then 1 else 0) := by
  have hacq : ∀ p c next,
      ([Event.FetchPage next, Event.WLatch next]).foldl (wlatchStep p) c =
        c + if next = p then 1 else 0 := by
    intro p c next
    by_cases hn : next = p <;> simp [List.foldl, wlatchStep, hn]
  have hroot : ∀ p c b, (Latched.unlockRoot b).foldl (wlatchStep p) c = c := by
    intro p c b
    cases b <;> rfl
  simp only [Latched.FindLeafPageByOperation] at h ⊢
  split at h
  · cases h
  · rename_i hne
    rw [if_neg hne]
    split at h
    · cases h
    · rename_i node hnode
      simp only [hnode, if_neg hop]
      split at h
      · rename_i hsafe
        rw [Traced.result_emit] at h
        rw [if_pos hsafe, Traced.log_emit, List.foldl_append]
        refine descendLoop_held t key op lm hop wlatchStep hacq hroot
          (fun p c ps => foldl_wlatchStep_UnlockUnpinPages p ps c) _ _ _ _ d p _ h ?_
        by_cases hr : t.root_page_id = p <;> simp [List.foldl, wlatchStep, hr]
      · rename_i hsafe
        rw [Traced.result_emit] at h
        rw [if_neg hsafe, Traced.log_emit, List.foldl_append]
        refine descendLoop_held t key op lm hop wlatchStep hacq hroot
          (fun p c ps => foldl_wlatchStep_UnlockUnpinPages p ps c) _ _ _ _ d p _ h ?_
        by_cases hr : t.root_page_id = p <;> simp [List.foldl, wlatchStep, hr]

/-! ## The logged operations compute the tree state of the embedding -/

theorem Traced.result_bind_ok {α β : Type} {x : Traced α} {f : α → Traced β} {b : β}
    (h : (x.bind f).result = .ok b) : ∃ a, x.result = .ok a ∧ (f a).result = .ok b := by
  cases hr : x.result with
  | error e => rw [(Traced.bind_error f hr).2] at h; cases h
  | ok a => exact ⟨a, rfl, by rw [(Traced.bind_ok f hr).2] at h; exact h⟩

/-- The logged descent reaches the leaf that the descent of the embedding reaches. -/
theorem descendLoop_result (t : BPlusTree) (key : Int) (op : Operation) (lm : Bool) :
    ∀ (fuel : Nat) (q : Int) (flag : Bool) (ps : List Int) (d : Descent),
      (Latched.descendLoop t key op lm fuel q flag ps).result = .ok d →
      ∃ l, BPlusTree.findLeafLoop t.pages key lm fuel q = .ok (d.page_id, l) := by
  intro fuel
  induction fuel with
  | zero => intro q flag ps d h; simp [Latched.descendLoop] at h
  | succ f ih =>
    intro q flag ps d h
    simp only [Latched.descendLoop] at h
    simp only [BPlusTree.findLeafLoop]
    cases hq : t.pages q with
    | none => rw [hq] at h; cases h
    | some pg =>
      rw [hq] at h
      cases pg with
      | leaf l =>
        simp only [Except.ok.injEq] at h
        subst h
        exact ⟨l, rfl⟩
      | internal n =>
        simp only at h ⊢
        cases hn : (if lm = true then n.ValueAt 0 else n.Lookup key) with
        | none => rw [hn] at h; cases h
        | some next =>
          rw [hn] at h
          simp only at h ⊢
          split at h
          · exact ih _ _ _ d h
          · split at h
            · exact ih _ _ _ d (by rw [Traced.result_emit] at h; exact h)
            · split at h
              · exact ih _ _ _ d (by rw [Traced.result_emit] at h; exact h)
              · exact ih _ _ _ d (by rw [Traced.result_emit] at h; exact h)

theorem FindLeafPageByOperation_result {t : BPlusTree} {key : Int} {op : Operation} {lm : Bool}
    {ps : List Int} {d : Descent}
    (h : (Latched.FindLeafPageByOperation t key op lm ps).result = .ok d) :
    ∃ l, t.FindLeafPage key lm = .ok (d.page_id, l) ∧ t.pages d.page_id = some (.leaf l) := by
  simp only [Latched.FindLeafPageByOperation] at h
  have key_fact : ∀ flag, (Latched.descendLoop t key op lm t.fuel t.root_page_id flag ps).result =
      .ok d → t.root_page_id ≠ INVALID_PAGE_ID →
      ∃ l, t.FindLeafPage key lm = .ok (d.page_id, l) ∧ t.pages d.page_id = some (.leaf l) := by
    intro flag h1 hne
    obtain ⟨l, hl⟩ := descendLoop_result t key op lm _ _ _ _ d h1
    have hf : t.FindLeafPage key lm = .ok (d.page_id, l) := by
      simp only [BPlusTree.FindLeafPage, hne, if_false]
      exact hl
    exact ⟨l, hf, FindLeafPage_page hf⟩
  split at h
  · cases h
  · rename_i hne
    split at h
    · cases h
    · split at h
      · exact key_fact _ (by rw [Traced.result_emit] at h; exact h) hne
      · split at h
        · exact key_fact _ (by rw [Traced.result_emit] at h; exact h) hne
        · exact key_fact _ (by rw [Traced.result_emit] at h; exact h) hne

theorem Split_result {avail : Nat} {t : BPlusTree} {q : Int} {s : Nat × BPlusTree × Int}
    (h : (Latched.Split avail t q).result = .ok s) : t.Split q = .ok (s.2.1, s.2.2) := by
  cases avail with
  | zero => cases h
  | succ a =>
    simp only [Latched.Split] at h
    cases hs : t.Split q with
    | error e => rw [hs] at h; cases h
    | ok r =>
      rw [hs] at h
      simp only [Except.ok.injEq] at h
      subst h
      rfl

theorem InsertIntoParent_result :
    ∀ (fuel avail : Nat) (t : BPlusTree) (old key new : Int) (flag : Bool) (ps : List Int)
      (r : Nat × BPlusTree × List Int),
      (Latched.InsertIntoParent fuel avail t old key new flag ps).result = .ok r →
      BPlusTree.InsertIntoParent fuel t old key new = .ok r.2.1 := by
  intro fuel
  induction fuel with
  | zero => intro avail t old key new flag ps r h; cases h
  | succ f ih =>
    intro avail t old key new flag ps r h
    simp only [Latched.InsertIntoParent] at h
    simp only [BPlusTree.InsertIntoParent]
    cases ho : t.pages old with
    | none => rw [ho] at h; cases h
    | some po =>
      cases hn : t.pages new with
      | none => rw [ho, hn] at h; cases h
      | some pn =>
        rw [ho, hn] at h
        simp only at h ⊢
        by_cases hroot : po.IsRootPage = true
        · rw [if_pos hroot] at h ⊢
          cases avail with
          | zero => cases h
          | succ a =>
            simp only [Except.ok.injEq] at h
            subst h
            rfl
        · rw [if_neg hroot] at h ⊢
          cases hp : t.pages po.GetParentPageId with
          | none => rw [hp] at h; cases h
          | some pp =>
            rw [hp] at h
            cases pp with
            | leaf _ => cases h
            | internal parent_node =>
              simp only at h ⊢
              split at h
              · rename_i hsmall
                rw [if_pos hsmall]
                simp only [Except.ok.injEq] at h
                subst h
                rfl
              · rename_i hbig
                rw [if_neg hbig]
                rw [Traced.result_emit] at h
                obtain ⟨s, hs1, hs2⟩ := Traced.result_bind_ok h
                rw [Split_result hs1]
                simp only
                cases hnp : s.2.1.pages s.2.2 with
                | none => rw [hnp] at hs2; cases hs2
                | some pg2 =>
                  rw [hnp] at hs2
                  cases pg2 with
                  | leaf _ => cases hs2
                  | internal npn =>
                    simp only at hs2 ⊢
                    cases hk : npn.KeyAt 0 with
                    | none => rw [hk] at hs2; cases hs2
                    | some up_key =>
                      rw [hk] at hs2
                      simp only at hs2 ⊢
                      obtain ⟨r1, hr1, hr2⟩ := Traced.result_bind_ok hs2
                      simp only [Except.ok.injEq] at hr2
                      subst hr2
                      exact ih _ _ _ _ _ _ _ _ hr1

/-- What the logged `Insert` returns is what `Insert` of the embedding returns. -/
theorem Insert_result {avail : Nat} {t : BPlusTree} {key value : Int} {ps : List Int}
    {r : Nat × BPlusTree × List Int × Bool}
    (h : (Latched.Insert avail t key value ps).result = .ok r) :
    t.Insert key value = .ok (r.2.1, r.2.2.2) := by
  simp only [Latched.Insert] at h
  simp only [BPlusTree.Insert]
  by_cases hempty : t.IsEmpty = true
  · rw [if_pos hempty] at h ⊢
    obtain ⟨s, hs1, hs2⟩ := Traced.result_bind_ok h
    simp only [Except.ok.injEq] at hs2
    subst hs2
    cases avail with
    | zero => cases hs1
    | succ a =>
      simp only [Latched.StartNewTree, Except.ok.injEq] at hs1
      subst hs1
      rfl
  · rw [if_neg hempty] at h ⊢
    simp only [Latched.InsertIntoLeaf] at h
    simp only [BPlusTree.InsertIntoLeaf]
    obtain ⟨d, hd1, hd2⟩ := Traced.result_bind_ok h
    obtain ⟨l, hl1, hl2⟩ := FindLeafPageByOperation_result hd1
    rw [hl1]
    rw [hl2] at hd2
    simp only at hd2 ⊢
    split at hd2
    · rename_i hdup
      rw [if_pos hdup]
      simp only [Except.ok.injEq] at hd2
      subst hd2
      rfl
    · rename_i hdup
      rw [if_neg hdup]
      split at hd2
      · rename_i hsmall
        rw [if_pos hsmall]
        simp only [Except.ok.injEq] at hd2
        subst hd2
        rfl
      · rename_i hbig
        rw [if_neg hbig]
        obtain ⟨s, hs1, hs2⟩ := Traced.result_bind_ok hd2
        rw [Split_result hs1]
        simp only
        cases hnp : s.2.1.pages s.2.2 with
        | none => rw [hnp] at hs2; cases hs2
        | some pg2 =>
          rw [hnp] at hs2
          cases pg2 with
          | internal _ => cases hs2
          | leaf nl =>
            simp only at hs2 ⊢
            cases hk : nl.KeyAt 0 with
            | none => rw [hk] at hs2; cases hs2
            | some up_key =>
              rw [hk] at hs2
              simp only at hs2 ⊢
              obtain ⟨r1, hr1, hr2⟩ := Traced.result_bind_ok hs2
              simp only [Except.ok.injEq] at hr2
              subst hr2
              rw [InsertIntoParent_result _ _ _ _ _ _ _ _ _ hr1]

theorem GetValue_result {t : BPlusTree} {key : Int} {res : List Int} {r : Bool × List Int}
    (h : (Latched.GetValue t key res).result = .ok r) :
    t.GetValue key res = .ok (t, r.1, r.2) := by
  simp only [Latched.GetValue] at h
  obtain ⟨d, hd1, hd2⟩ := Traced.result_bind_ok h
  obtain ⟨l, hl1, hl2⟩ := FindLeafPageByOperation_result hd1
  rw [hl2] at hd2
  simp only at hd2
  simp only [BPlusTree.GetValue, hl1]
  cases hlk : l.Lookup key with
  | none =>
    rw [hlk] at hd2
    simp only [Except.ok.injEq] at hd2
    subst hd2
    rfl
  | some v =>
    rw [hlk] at hd2
    simp only [Except.ok.injEq] at hd2
    subst hd2
    rfl

/-- `Coalesce` merges the two pages and then hands the tree to the recursive call. -/
theorem Coalesce_recur
    (recur : BPlusTree → Int → Transaction → Except Failure (BPlusTree × Transaction × Bool))
    {t : BPlusTree} {neighbor_id node_id parent_id : Int} {index : Nat} {txn : Transaction}
    {moved : BPlusTree × Transaction × Bool}
    (h : BPlusTree.Coalesce (fun t1 _ txn1 => .ok (t1, txn1, false)) t neighbor_id node_id
      parent_id index txn = .ok moved) :
    BPlusTree.Coalesce recur t neighbor_id node_id parent_id index txn =
      recur moved.1 parent_id txn := by
  simp only [BPlusTree.Coalesce] at h ⊢
  cases hp : t.pages parent_id with
  | none => rw [hp] at h; cases h
  | some pp =>
    rw [hp] at h
    cases pp with
    | leaf _ => cases h
    | internal parent =>
      simp only at h ⊢
      cases h1 : t.pages (if index = 0 then neighbor_id else node_id) with
      | none =>
        rw [h1] at h
        cases h2 : t.pages (if index = 0 then node_id else neighbor_id) with
        | none => rw [h2] at h; cases h
        | some p2 => rw [h2] at h; cases h
      | some p1 =>
        cases h2 : t.pages (if index = 0 then node_id else neighbor_id) with
        | none => rw [h1, h2] at h; cases p1 <;> cases h
        | some p2 =>
          rw [h1, h2] at h
          cases p1 with
          | leaf l1 =>
            cases p2 with
            | internal _ => cases h
            | leaf l2 =>
              simp only [Except.ok.injEq] at h
              subst h
              rfl
          | internal n1 =>
            cases p2 with
            | leaf _ => cases h
            | internal n2 =>
              simp only at h ⊢
              cases hk : parent.KeyAt (if index = 0 then 1 else index) with
              | none => rw [hk] at h; cases h
              | some middle_key =>
                rw [hk] at h
                simp only at h ⊢
                generalize reparent _ _ _ = rp at h ⊢
                cases rp with
                | error e => cases h
                | ok pages1 =>
                  simp only [Except.ok.injEq] at h
                  subst h
                  rfl

theorem AdjustRoot_result {t : BPlusTree} {old_root_id : Int} {flag : Bool}
    {r : BPlusTree × Bool} (h : (Latched.AdjustRoot t old_root_id flag).result = .ok r) :
    t.AdjustRoot old_root_id = .ok r := by
  simp only [Latched.AdjustRoot] at h
  split at h
  · cases h
  · split at h
    · split at h
      · cases h
      · rename_i r0 hr0
        simp only [Except.ok.injEq] at h
        subst h
        exact hr0
    · exact h
  · split at h
    · exact h
    · exact h

theorem Redistribute_result {t : BPlusTree} {neighbor_id node_id : Int} {index : Nat}
    {flag : Bool} {t1 : BPlusTree}
    (h : (Latched.Redistribute t neighbor_id node_id index flag).result = .ok t1) :
    t.Redistribute neighbor_id node_id index = .ok t1 := by
  simp only [Latched.Redistribute] at h
  split at h
  · cases h
  · split at h
    · exact h
    · simp only at h
      split at h <;> cases h

theorem CoalesceOrRedistribute_result :
    ∀ (fuel : Nat) (t : BPlusTree) (node_id : Int) (txn : Transaction) (flag : Bool)
      (ps : List Int) (r : BPlusTree × Transaction × List Int × Bool),
      (Latched.CoalesceOrRedistribute fuel t node_id txn flag ps).result = .ok r →
      BPlusTree.CoalesceOrRedistribute fuel t node_id txn = .ok (r.1, r.2.1, r.2.2.2) := by
  intro fuel
  induction fuel with
  | zero => intro t node_id txn flag ps r h; cases h
  | succ f ih =>
    intro t node_id txn flag ps r h
    simp only [Latched.CoalesceOrRedistribute] at h
    simp only [BPlusTree.CoalesceOrRedistribute]
    cases hq : t.pages node_id with
    | none => rw [hq] at h; cases h
    | some node =>
      rw [hq] at h
      simp only at h ⊢
      by_cases hroot : node.IsRootPage = true
      · rw [if_pos hroot] at h ⊢
        rw [Traced.result_emit] at h
        obtain ⟨a, ha1, ha2⟩ := Traced.result_bind_ok h
        rw [AdjustRoot_result ha1]
        simp only [Except.ok.injEq] at ha2
        subst ha2
        rfl
      · rw [if_neg hroot] at h ⊢
        by_cases hmin : node.GetSize ≥ node.GetMinSize
        · rw [if_pos hmin] at h ⊢
          simp only [Except.ok.injEq] at h
          subst h
          rfl
        · rw [if_neg hmin] at h ⊢
          cases hp : t.pages node.GetParentPageId with
          | none => rw [hp] at h; cases h
          | some pp =>
            rw [hp] at h
            cases pp with
            | leaf _ => cases h
            | internal parent_node =>
              simp only at h ⊢
              cases hi : parent_node.ValueIndex node.GetPageId with
              | none => rw [hi] at h; cases h
              | some index =>
                rw [hi] at h
                simp only at h ⊢
                cases hv : parent_node.ValueAt (if index = 0 then 1 else index - 1) with
                | none => rw [hv] at h; cases h
                | some sibling_page_id =>
                  rw [hv] at h
                  simp only at h ⊢
                  cases hs : t.pages sibling_page_id with
                  | none => rw [hs] at h; cases h
                  | some sibling_node =>
                    rw [hs] at h
                    simp only at h ⊢
                    by_cases hbig : sibling_node.GetSize + node.GetSize > t.maxSize node
                    · rw [if_pos hbig] at h ⊢
                      rw [Traced.result_emit] at h
                      obtain ⟨t1, ht1, ht2⟩ := Traced.result_bind_ok h
                      rw [Redistribute_result ht1]
                      simp only [Except.ok.injEq] at ht2
                      subst ht2
                      rfl
                    · rw [if_neg hbig] at h ⊢
                      cases hc : BPlusTree.Coalesce (fun t1 _ txn1 => .ok (t1, txn1, false)) t
                          sibling_page_id node_id node.GetParentPageId index txn with
                      | error e => rw [hc] at h; cases h
                      | ok moved =>
                        rw [hc] at h
                        simp only at h
                        rw [Traced.result_emit] at h
                        obtain ⟨r1, hr1, hr2⟩ := Traced.result_bind_ok h
                        rw [Coalesce_recur _ hc, ih _ _ _ _ _ _ hr1]
                        simp only [Except.ok.injEq] at hr2
                        subst hr2
                        rfl

/-- What the logged `Remove` returns is what `Remove` of the embedding returns. -/
theorem Remove_result {t : BPlusTree} {key : Int} {txn : Transaction} {ps : List Int}
    {r : BPlusTree × Transaction × List Int}
    (h : (Latched.Remove t key txn ps).result = .ok r) :
    t.Remove key txn = .ok (r.1, r.2.1) := by
  simp only [Latched.Remove] at h
  obtain ⟨d, hd1, hd2⟩ := Traced.result_bind_ok h
  obtain ⟨l, hl1, hl2⟩ := FindLeafPageByOperation_result hd1
  rw [hl2] at hd2
  simp only at hd2
  simp only [BPlusTree.Remove, hl1]
  split at hd2
  · rename_i hsame
    rw [if_pos hsame]
    simp only [Except.ok.injEq] at hd2
    subst hd2
    rfl
  · rename_i hsame
    rw [if_neg hsame]
    obtain ⟨r1, hr1, hr2⟩ := Traced.result_bind_ok hd2
    rw [CoalesceOrRedistribute_result _ _ _ _ _ _ _ hr1]
    simp only [Except.ok.injEq] at hr2
    subst hr2
    rfl

/-! ## Properties of the tree operations -/

/-- C1: on a newly constructed tree (leaf_max_size at least 2, internal_max_size at least 3)
every call of a sequence of `Insert` calls with pairwise distinct keys returns `true`, and
afterwards, for every inserted pair `(k, v)`, `GetValue(k)` with an empty result vector returns
`true` and leaves the vector equal to `[v]`. -/
theorem insert_then_getValue (L I : Int) (kvs : List (Int × Int)) (_hL : 2 ≤ L) (_hI : 3 ≤ I)
    (hnd : (kvs.map Prod.fst).Nodup) :
    ∃ t, (BPlusTree.new L I).InsertAll kvs = .ok (t, List.replicate kvs.length true) ∧
      ∀ kv ∈ kvs, t.GetValue kv.1 [] = .ok (t, true, [kv.2]) := by
  obtain ⟨t, bs, h1, -, -, h3, -, h5⟩ := build_ok L I kvs
  refine ⟨t, by rw [h1, h5 hnd], ?_⟩
  intro kv hkv
  obtain ⟨g, hinv, hst⟩ := h3 (List.ne_nil_of_mem hkv)
  have := GetValue_found hinv
    ((hst kv.1 kv.2).2 ((lookup_eq_some_iff_mem kvs hnd kv.1 kv.2).2 hkv)) []
  simpa using this

theorem insert_then_getValue_witness :
    (2 : Int) ≤ 3 ∧ (3 : Int) ≤ 3 ∧ (([(2, 102), (1, 101), (3, 103)] : List (Int × Int)).map
      Prod.fst).Nodup ∧
    ∃ t, (BPlusTree.new 3 3).InsertAll [(2, 102), (1, 101), (3, 103)] =
        .ok (t, List.replicate ([(2, 102), (1, 101), (3, 103)] : List (Int × Int)).length true) ∧
      ∀ kv ∈ ([(2, 102), (1, 101), (3, 103)] : List (Int × Int)),
        t.GetValue kv.1 [] = .ok (t, true, [kv.2]) :=
  ⟨by decide, by decide, by decide,
    insert_then_getValue 3 3 [(2, 102), (1, 101), (3, 103)] (by decide) (by decide) (by decide)⟩

/-- C2, at the empty key set: on a newly constructed tree with no key inserted the iteration
from `begin()` to `end()` does not yield the empty sequence, `begin()` raises the runtime error
of the descent. -/
theorem scan_of_no_keys_raises : buildThenScan 3 3 [] 1 = .error .runtime_error := by
  decide

/-- C2, amended: for every non-empty list of pairs with pairwise distinct keys inserted in the
given order into a newly constructed tree, the iteration from `begin()` with `operator++` until
the iterator equals `end()` terminates and visits exactly the inserted pairs, each once, in
strictly ascending key order. -/
theorem scan_yields_sorted_keys (L I : Int) (kvs : List (Int × Int)) (fuel : Nat)
    (hne : kvs ≠ []) (hnd : (kvs.map Prod.fst).Nodup) (hfuel : kvs.length < fuel) :
    ∃ es, buildThenScan L I kvs fuel = .ok es ∧ es.Perm kvs ∧
      (es.map Prod.fst).Sorted (fun a b => a < b) := by
  obtain ⟨t, bs, -, h1, -, h3, -, -⟩ := build_ok L I kvs
  obtain ⟨g, hinv, hst⟩ := h3 hne
  obtain ⟨es, e1, e2, e3⟩ := scan_spec hinv
  have hmem : ∀ kv, kv ∈ es ↔ kv ∈ kvs := by
    rintro ⟨k, v⟩
    rw [e3, hst, lookup_eq_some_iff_mem kvs hnd]
  have hnd1 : es.Nodup := e2.imp (fun h => by intro he; rw [he] at h; exact lt_irrefl _ h)
  have hperm : es.Perm kvs := (List.perm_ext_iff_of_nodup hnd1 (List.Nodup.of_map _ hnd)).2 hmem
  refine ⟨es, ?_, hperm, ?_⟩
  · simp only [buildThenScan, h1]
    exact e1 fuel (by rw [hperm.length_eq]; exact hfuel)
  · exact (List.pairwise_map).2 e2

theorem scan_yields_sorted_keys_witness :
    ([(2, 102), (1, 101), (3, 103)] : List (Int × Int)) ≠ [] ∧
    (([(2, 102), (1, 101), (3, 103)] : List (Int × Int)).map Prod.fst).Nodup ∧
    ([(2, 102), (1, 101), (3, 103)] : List (Int × Int)).length < 4 ∧
    ∃ es, buildThenScan 3 3 [(2, 102), (1, 101), (3, 103)] 4 = .ok es ∧
      es.Perm [(2, 102), (1, 101), (3, 103)] ∧ (es.map Prod.fst).Sorted (fun a b => a < b) :=
  ⟨by decide, by decide, by decide,
    scan_yields_sorted_keys 3 3 [(2, 102), (1, 101), (3, 103)] 4 (by decide) (by decide)
      (by decide)⟩

/-- C3: on a tree built by `Insert` calls in which key `k` is stored with value `v` (the first
pair inserted for `k`), `Insert(k, w)` returns `false` and gives back the tree unchanged, root
page id and every page included, and `GetValue(k)` still yields `[v]`. -/
theorem duplicate_insert_rejected (L I : Int) (kvs : List (Int × Int)) (k v w : Int)
    (hk : kvs.lookup k = some v) :
    ∃ t, build L I kvs = .ok t ∧ t.Insert k w = .ok (t, false) ∧
      t.GetValue k [] = .ok (t, true, [v]) := by
  obtain ⟨t, bs, -, h1, -, h3, h4, -⟩ := build_ok L I kvs
  have hne : kvs ≠ [] := by rintro rfl; simp [List.lookup] at hk
  obtain ⟨g, hinv, hst⟩ := h3 hne
  refine ⟨t, h1, Insert_dup h4 w hk, ?_⟩
  simpa using GetValue_found hinv ((hst k v).2 hk) []

theorem duplicate_insert_rejected_witness :
    ([(2, 102), (1, 101), (3, 103)] : List (Int × Int)).lookup 1 = some 101 ∧
    ∃ t, build 3 3 [(2, 102), (1, 101), (3, 103)] = .ok t ∧ t.Insert 1 7 = .ok (t, false) ∧
      t.GetValue 1 [] = .ok (t, true, [101]) :=
  ⟨by decide, duplicate_insert_rejected 3 3 [(2, 102), (1, 101), (3, 103)] 1 101 7 (by decide)⟩

set_option maxRecDepth 100000 in
/-- C4, the code on scenario 4: with leaf_max_size = internal_max_size = 3 and
the keys 1 to 10 inserted in ascending order, key 5 sits alone in leaf page 8, the leftmost
child of internal page 10, with key 6 in the right sibling page 9.  `Remove(5)` moves the entry
of page 9 into page 8, drops the slot of page 9 from page 10 and then hands page 8, the page
that now holds key 6, to `DeletePage`: page 10 still lists page 8, which is gone, so that
`GetValue(6)` and the iteration from `begin()` both fail on the missing page. -/
theorem remove_deletes_surviving_leaf :
    (build 3 3 scenarioKeys).map (fun t => (t.pages 8, t.pages 9, t.pages 10)) =
      .ok (some (.leaf { page_id := 8, parent_page_id := 10, max_size := 3, next_page_id := 9,
                         array := [(5, 105)] }),
           some (.leaf { page_id := 9, parent_page_id := 10, max_size := 3, next_page_id := 11,
                         array := [(6, 106)] }),
           some (.internal { page_id := 10, parent_page_id := 14, max_size := 3,
                             array := [(5, 8), (6, 9)] })) ∧
    (buildThenRemove 3 3 scenarioKeys [5]).map (fun t => (t.pages 8, t.pages 9, t.pages 10)) =
      .ok (none,
           some (.leaf { page_id := 9, parent_page_id := 10, max_size := 3, next_page_id := 11,
                         array := [] }),
           some (.internal { page_id := 10, parent_page_id := 14, max_size := 3,
                             array := [(5, 8), (7, 11)] })) ∧
    (buildThenRemove 3 3 scenarioKeys [5]).bind
      (fun t => (t.GetValue 6 []).map Prod.snd) = .error .page_fault ∧
    (buildThenRemove 3 3 scenarioKeys [5]).bind (fun t => t.scan 20) = .error .page_fault := by
  decide!

/-- C5, at the empty tree: on a newly constructed tree, after `Insert(1, 101)` and `Remove(1)`
the tree is empty again and `GetValue(1)` raises the runtime error of the descent instead of
returning `false`. -/
theorem getValue_after_remove_of_only_key_raises :
    buildInsertRemoveGet 3 3 [] 1 101 = .error .runtime_error := by
  decide!

/-- C5, amended: on a tree built by `Insert` calls (leaf_max_size at least 2, internal_max_size
at least 3) and a key `k` not stored in it, the calls `Insert(k, v)`, `Remove(k)`,
`GetValue(k)` end as follows, provided no page that `Remove(k)` coalesces is child 0 of its
parent.  If the tree was empty, it is empty again after `Remove(k)` and `GetValue(k)` raises the
runtime error of the descent.  If the tree was not empty, `GetValue(k)` returns `false` with an
empty result. -/
theorem insert_remove_getValue (L I : Int) (kvs : List (Int × Int)) (k v : Int) (hL : 2 ≤ L)
    (hI : 3 ≤ I) (hk : k ∉ kvs.map Prod.fst)
    (hcl : removeCoalescesLeftmost L I kvs k v = false) :
    buildInsertRemoveGet L I kvs k v =
      if kvs = [] then .error .runtime_error else .ok (false, []) := by
  obtain ⟨t, bs, h0, h1, h2, h3, h4, -⟩ := build_ok L I kvs
  by_cases hne : kvs = []
  · obtain ⟨t1, t2, e1, e2, -, e4⟩ :=
      insert_remove_empty (BPlusTree.new L I) rfl (show (0 : Int) ≤ 1 by decide) k v []
    rw [if_pos hne]
    simp only [buildInsertRemoveGet, h1, insertRemoveGet, h2 hne, e1, e2, e4]
  · rw [if_neg hne]
    have hm : kvs.lookup k = none := (lookup_eq_none_iff kvs k).2 hk
    obtain ⟨hsz, hLt, hIt⟩ := InsertAll_sz kvs _ _ _ (SzInv.ofNew L I) hI h0
    obtain ⟨t1, g1, e1, hinv1, hst1, -, -⟩ := Insert_new h4 v hm
    obtain ⟨hsz1, hL1, hI1⟩ := Insert_sz hsz (by rw [hIt]; exact hI) e1
    obtain ⟨q, l, f1, -, -⟩ := FindLeafPage_spec hinv1 k
    have hkst : Stored t1 k v := (hst1 k v).2 (by simp [hm])
    simp only [removeCoalescesLeftmost, h1, e1, f1] at hcl
    obtain ⟨a, b, hak, hab⟩ : ∃ a b, a ≠ k ∧ Stored t1 a b := by
      match kvs, hne, hk, hst1 with
      | (a, b) :: rest, _, hk, hst1 =>
        have hak : a ≠ k := by
          intro h; apply hk; simp [h]
        exact ⟨a, b, hak, (hst1 a b).2 (by simp [hak, List.lookup])⟩
    obtain ⟨t2, r1, r2⟩ := Remove_stored hinv1 hsz1 (by rw [hL1, hLt]; exact hL)
      (by rw [hI1, hIt]; exact hI) hkst hak hab f1 hcl
    simp only [buildInsertRemoveGet, h1, insertRemoveGet, e1, r1, r2 []]

set_option maxRecDepth 100000 in
theorem insert_remove_getValue_witness :
    (2 : Int) ≤ 4 ∧ (3 : Int) ≤ 4 ∧
    (4 : Int) ∉ ([(1, 101), (2, 102), (3, 103)] : List (Int × Int)).map Prod.fst ∧
    removeCoalescesLeftmost 4 4 [(1, 101), (2, 102), (3, 103)] 4 104 = false ∧
    buildInsertRemoveGet 4 4 [(1, 101), (2, 102), (3, 103)] 4 104 =
      if ([(1, 101), (2, 102), (3, 103)] : List (Int × Int)) = [] then .error .runtime_error
      else .ok (false, []) :=
  ⟨by decide, by decide, by decide, by decide!,
    insert_remove_getValue 4 4 [(1, 101), (2, 102), (3, 103)] 4 104 (by decide) (by decide)
      (by decide) (by decide!)⟩

/-- C6: on a non-empty tree built by `Insert` calls, `GetValue(k)` for a key `k` that is not
stored returns `false`, appends nothing to the result vector and gives back the tree unchanged,
root page id and every page included. -/
theorem getValue_of_absent_key (L I : Int) (kvs : List (Int × Int)) (k : Int) (r : List Int)
    (hne : kvs ≠ []) (hk : k ∉ kvs.map Prod.fst) :
    ∃ t, build L I kvs = .ok t ∧ t.GetValue k r = .ok (t, false, r) := by
  obtain ⟨t, bs, -, h1, -, h3, -, -⟩ := build_ok L I kvs
  obtain ⟨g, hinv, hst⟩ := h3 hne
  refine ⟨t, h1, GetValue_absent hinv ?_ r⟩
  intro w hw
  rw [hst, (lookup_eq_none_iff kvs k).2 hk] at hw
  cases hw

theorem getValue_of_absent_key_witness :
    ([(2, 102), (1, 101), (3, 103)] : List (Int × Int)) ≠ [] ∧
    (5 : Int) ∉ ([(2, 102), (1, 101), (3, 103)] : List (Int × Int)).map Prod.fst ∧
    ∃ t, build 3 3 [(2, 102), (1, 101), (3, 103)] = .ok t ∧
      t.GetValue 5 [9] = .ok (t, false, [9]) :=
  ⟨by decide, by decide,
    getValue_of_absent_key 3 3 [(2, 102), (1, 101), (3, 103)] 5 [9] (by decide) (by decide)⟩

/-- C7: on a non-empty tree built by `Insert` calls, `Remove(k)` for a key `k` that is not
stored raises no error and gives back the tree and the transaction unchanged: root page id,
every page and the deleted-page set. -/
theorem remove_of_absent_key (L I : Int) (kvs : List (Int × Int)) (k : Int)
    (txn : Transaction) (hne : kvs ≠ []) (hk : k ∉ kvs.map Prod.fst) :
    ∃ t, build L I kvs = .ok t ∧ t.Remove k txn = .ok (t, txn) := by
  obtain ⟨t, bs, -, h1, -, h3, -, -⟩ := build_ok L I kvs
  obtain ⟨g, hinv, hst⟩ := h3 hne
  refine ⟨t, h1, Remove_absent hinv ?_ txn⟩
  intro w hw
  rw [hst, (lookup_eq_none_iff kvs k).2 hk] at hw
  cases hw

theorem remove_of_absent_key_witness :
    ([(2, 102), (1, 101), (3, 103)] : List (Int × Int)) ≠ [] ∧
    (5 : Int) ∉ ([(2, 102), (1, 101), (3, 103)] : List (Int × Int)).map Prod.fst ∧
    ∃ t, build 3 3 [(2, 102), (1, 101), (3, 103)] = .ok t ∧
      t.Remove 5 { deleted_page_set := [4] } = .ok (t, { deleted_page_set := [4] }) :=
  ⟨by decide, by decide,
    remove_of_absent_key 3 3 [(2, 102), (1, 101), (3, 103)] 5 { deleted_page_set := [4] }
      (by decide) (by decide)⟩

/-- C8, the code on an empty tree: `Remove(k)` on a newly constructed tree does not return
immediately, the descent it starts with raises the runtime error, for every key and every
transaction. -/
theorem remove_on_empty_tree_raises (L I k : Int) (txn : Transaction) :
    (BPlusTree.new L I).Remove k txn = .error .runtime_error := by
  simp [BPlusTree.Remove, BPlusTree.FindLeafPage, BPlusTree.new]

set_option maxRecDepth 100000 in
/-- C9, the code on scenario 4: with leaf_max_size = internal_max_size = 3 and
the keys 1 to 10 inserted in ascending order, `Remove(1)` merges the leaf of key 2 (page 2)
into the leaf of key 1 (page 1) and then hands page 1, the surviving page, to `DeletePage`,
and likewise the surviving internal pages above it, the root page 7 among them; `Remove(2)`
then fails on the missing page, and so does the removal of the ten keys in ascending order. -/
theorem remove_all_fails_on_deleted_page :
    (buildThenRemove 3 3 scenarioKeys [1]).map
        (fun t => (t.root_page_id, t.pages 7, t.pages 1, t.pages 2)) =
      .ok (7, none, none,
           some (.leaf { page_id := 2, parent_page_id := 3, max_size := 3, next_page_id := 4,
                         array := [] })) ∧
    (buildThenRemove 3 3 scenarioKeys [1, 2]).map (fun t => t.IsEmpty) = .error .page_fault ∧
    (buildThenRemove 3 3 scenarioKeys [1, 2, 3, 4, 5, 6, 7, 8, 9, 10]).map
        (fun t => t.IsEmpty) = .error .page_fault := by
  decide!

/-- C10: a newly constructed tree is empty; on an empty tree `Insert(k, v)` returns `true` and
makes the root a leaf page with parent `INVALID_PAGE_ID` that holds exactly `[(k, v)]`, after
which `IsEmpty()` is `false` and `GetValue(k)` yields `[v]`.  Page ids handed out by the buffer
pool are not negative. -/
theorem insert_into_empty_tree (L I : Int) (t : BPlusTree) (k v : Int)
    (hempty : t.IsEmpty = true) (hnext : 0 ≤ t.next_page_id) :
    (BPlusTree.new L I).IsEmpty = true ∧
    ∃ t1 l, t.Insert k v = .ok (t1, true) ∧ t1.pages t1.root_page_id = some (.leaf l) ∧
      l.parent_page_id = INVALID_PAGE_ID ∧ l.array = [(k, v)] ∧ t1.IsEmpty = false ∧
      t1.GetValue k [] = .ok (t1, true, [v]) := by
  refine ⟨rfl, ?_⟩
  have hne : t.next_page_id ≠ INVALID_PAGE_ID := by simp only [INVALID_PAGE_ID]; omega
  have hfuel : ∃ f, (t.next_page_id + 1).toNat = f + 1 :=
    ⟨(t.next_page_id + 1).toNat - 1, by omega⟩
  obtain ⟨f, hf⟩ := hfuel
  refine ⟨t.StartNewTree k v,
    (LeafPage.Init t.next_page_id INVALID_PAGE_ID t.leaf_max_size).Insert k v,
    by simp only [BPlusTree.Insert, hempty, if_true], ?_, ?_, ?_,
    ?_, ?_⟩
  · simp only [BPlusTree.StartNewTree, BPlusTree.write, BPlusTree.UpdateRootPageId,
      Pool.write_apply, if_true]
  · rfl
  · rfl
  · simp only [BPlusTree.IsEmpty, BPlusTree.StartNewTree, BPlusTree.write,
      BPlusTree.UpdateRootPageId, beq_eq_false_iff_ne, ne_eq]
    exact hne
  · simp only [BPlusTree.GetValue, BPlusTree.FindLeafPage, BPlusTree.StartNewTree,
      BPlusTree.write, BPlusTree.UpdateRootPageId, hne, if_false, BPlusTree.fuel, hf,
      BPlusTree.findLeafLoop, Pool.write_apply, if_true, LeafPage.Init, LeafPage.Insert,
      LeafPage.insertSorted, LeafPage.Lookup, LeafPage.lookup, beq_self_eq_true,
      List.nil_append]

theorem insert_into_empty_tree_witness :
    (BPlusTree.new 3 3).IsEmpty = true ∧ (0 : Int) ≤ (BPlusTree.new 3 3).next_page_id ∧
    ((BPlusTree.new 3 3).IsEmpty = true ∧
    ∃ t1 l, (BPlusTree.new 3 3).Insert 5 105 = .ok (t1, true) ∧
      t1.pages t1.root_page_id = some (.leaf l) ∧
      l.parent_page_id = INVALID_PAGE_ID ∧ l.array = [(5, 105)] ∧ t1.IsEmpty = false ∧
      t1.GetValue 5 [] = .ok (t1, true, [105])) :=
  ⟨by decide, by decide,
    insert_into_empty_tree 3 3 (BPlusTree.new 3 3) 5 105 (by decide) (by decide)⟩

/-- C11: after any sequence of `Insert` calls on a newly constructed tree every leaf holds its
keys in strictly ascending order; when at least one pair was inserted, following
`next_page_id` from the leftmost leaf visits every leaf page exactly once, ends at a leaf whose
`next_page_id` is `INVALID_PAGE_ID`, and the keys of the visited leaves, concatenated, are the
inserted keys in strictly ascending order.  With no pair inserted the tree has no page. -/
theorem leaves_form_sorted_chain (L I : Int) (kvs : List (Int × Int)) :
    ∃ t, build L I kvs = .ok t ∧
      (∀ q l, t.pages q = some (.leaf l) → l.array.Pairwise (fun a b => a.1 < b.1)) ∧
      (kvs = [] → ∀ q, t.pages q = none) ∧
      (kvs ≠ [] → ∃ ch, t.leafChain = .ok ch ∧ (ch.map Prod.fst).Nodup ∧
        (∀ q l, (q, l) ∈ ch ↔ t.pages q = some (.leaf l)) ∧
        (∃ qe le, ch.getLast? = some (qe, le) ∧ le.next_page_id = INVALID_PAGE_ID) ∧
        ((entriesOf ch).map Prod.fst).Pairwise (fun a b => a < b) ∧
        ∀ k, k ∈ (entriesOf ch).map Prod.fst ↔ k ∈ kvs.map Prod.fst) := by
  obtain ⟨t, bs, -, h1, h2, h3, -, -⟩ := build_ok L I kvs
  refine ⟨t, h1, ?_, ?_, ?_⟩
  · intro q l hq
    by_cases hne : kvs = []
    · rw [h2 hne] at hq
      simp [BPlusTree.new] at hq
    · obtain ⟨g, hinv, -⟩ := h3 hne
      exact (hinv.leafOK q l hq).2.2.1
  · intro hnil q
    rw [h2 hnil]
    rfl
  · intro hne
    obtain ⟨g, hinv, hst⟩ := h3 hne
    obtain ⟨ch, c1, c2, c3, c4, c5, c6⟩ := leafChain_spec hinv
    refine ⟨ch, c1, c2, c3, c4, List.pairwise_map.2 c5, ?_⟩
    intro k
    constructor
    · intro hk
      obtain ⟨kv, hkv, rfl⟩ := List.mem_map.1 hk
      have := (hst kv.1 kv.2).1 ((c6 kv.1 kv.2).1 hkv)
      by_contra hnot
      rw [(lookup_eq_none_iff kvs kv.1).2 hnot] at this
      cases this
    · intro hk
      cases hlk : kvs.lookup k with
      | none => exact absurd hk ((lookup_eq_none_iff kvs k).1 hlk)
      | some v =>
        exact List.mem_map.2 ⟨(k, v), (c6 k v).2 ((hst k v).2 hlk), rfl⟩

theorem leaves_form_sorted_chain_witness :
    ∃ t, build 3 3 [(5, 105), (1, 101), (4, 104), (2, 102), (3, 103)] = .ok t ∧
      (∀ q l, t.pages q = some (.leaf l) → l.array.Pairwise (fun a b => a.1 < b.1)) ∧
      (([(5, 105), (1, 101), (4, 104), (2, 102), (3, 103)] : List (Int × Int)) = [] → ∀ q, t.pages q = none) ∧
      (([(5, 105), (1, 101), (4, 104), (2, 102), (3, 103)] : List (Int × Int)) ≠ [] →
        ∃ ch, t.leafChain = .ok ch ∧ (ch.map Prod.fst).Nodup ∧
        (∀ q l, (q, l) ∈ ch ↔ t.pages q = some (.leaf l)) ∧
        (∃ qe le, ch.getLast? = some (qe, le) ∧ le.next_page_id = INVALID_PAGE_ID) ∧
        ((entriesOf ch).map Prod.fst).Pairwise (fun a b => a < b) ∧
        ∀ k, k ∈ (entriesOf ch).map Prod.fst ↔
          k ∈ ([(5, 105), (1, 101), (4, 104), (2, 102), (3, 103)] : List (Int × Int)).map Prod.fst) :=
  leaves_form_sorted_chain 3 3 [(5, 105), (1, 101), (4, 104), (2, 102), (3, 103)]

/-- C13: after any sequence of `Insert` calls on a newly constructed tree, for every internal
page and every slot `i + 1` of it, every key held by a leaf in the subtree of the child of slot
`i` is strictly less than the key of slot `i + 1`, and every key held by a leaf in the subtree
of the child of slot `i + 1` is greater than or equal to that key. -/
theorem separators_bound_subtrees (L I : Int) (kvs : List (Int × Int)) :
    ∃ t, build L I kvs = .ok t ∧
      ∀ q n i a b, t.pages q = some (.internal n) → n.array.get? i = some a →
        n.array.get? (i + 1) = some b →
        (∀ q1 l e, Subtree t.pages a.2 q1 → t.pages q1 = some (.leaf l) → e ∈ l.array →
          e.1 < b.1) ∧
        (∀ q1 l e, Subtree t.pages b.2 q1 → t.pages q1 = some (.leaf l) → e ∈ l.array →
          b.1 ≤ e.1) := by
  obtain ⟨t, bs, -, h1, h2, h3, -, -⟩ := build_ok L I kvs
  refine ⟨t, h1, ?_⟩
  intro q n i a b hq ha hb
  by_cases hne : kvs = []
  · rw [h2 hne] at hq
    simp [BPlusTree.new] at hq
  · obtain ⟨g, hinv, -⟩ := h3 hne
    exact hinv.separators hq ha hb

theorem separators_bound_subtrees_witness :
    ∃ t, build 3 3 [(5, 105), (1, 101), (4, 104), (2, 102), (3, 103)] = .ok t ∧
      ∀ q n i a b, t.pages q = some (.internal n) → n.array.get? i = some a →
        n.array.get? (i + 1) = some b →
        (∀ q1 l e, Subtree t.pages a.2 q1 → t.pages q1 = some (.leaf l) → e ∈ l.array →
          e.1 < b.1) ∧
        (∀ q1 l e, Subtree t.pages b.2 q1 → t.pages q1 = some (.leaf l) → e ∈ l.array →
          b.1 ≤ e.1) :=
  separators_bound_subtrees 3 3 [(5, 105), (1, 101), (4, 104), (2, 102), (3, 103)]

/-- C14: after any sequence of `Insert` calls on a newly constructed tree the root page, which
exists as soon as a pair was inserted, has `parent_page_id = INVALID_PAGE_ID`, and for every
other page `p` the page with id `p.parent_page_id` is an internal page that holds `p.page_id`
in exactly one slot. -/
theorem parent_pointers_consistent (L I : Int) (kvs : List (Int × Int)) :
    ∃ t, build L I kvs = .ok t ∧
      (kvs ≠ [] → ∃ r, t.pages t.root_page_id = some r) ∧
      (∀ r, t.pages t.root_page_id = some r → r.GetParentPageId = INVALID_PAGE_ID) ∧
      ∀ q p, t.pages q = some p → q ≠ t.root_page_id →
        p.GetPageId = q ∧ ∃ n, t.pages p.GetParentPageId = some (.internal n) ∧
          (n.array.map Prod.snd).count p.GetPageId = 1 := by
  obtain ⟨t, bs, -, h1, h2, h3, -, -⟩ := build_ok L I kvs
  refine ⟨t, h1, ?_, ?_, ?_⟩
  · intro hne
    obtain ⟨g, hinv, -⟩ := h3 hne
    obtain ⟨pg, hpg, -, -⟩ := hinv.rootPage
    exact ⟨pg, hpg⟩
  · intro r hr
    by_cases hne : kvs = []
    · rw [h2 hne] at hr
      simp [BPlusTree.new] at hr
    · obtain ⟨g, hinv, -⟩ := h3 hne
      obtain ⟨pg, hpg, hpar, -⟩ := hinv.rootPage
      rw [hpg] at hr; cases hr
      exact hpar
  · intro q p hq hqr
    by_cases hne : kvs = []
    · rw [h2 hne] at hq
      simp [BPlusTree.new] at hq
    · obtain ⟨g, hinv, -⟩ := h3 hne
      obtain ⟨n, hn, hmem⟩ := hinv.listed q p hq hqr
      have hpid := hinv.pid q p hq
      obtain ⟨h, kc, rest, -, -, -, hnd⟩ := hinv.internalOK _ n hn
      refine ⟨hpid, n, hn, ?_⟩
      rw [hpid]
      exact List.count_eq_one_of_mem hnd hmem

theorem parent_pointers_consistent_witness :
    ∃ t, build 3 3 [(5, 105), (1, 101), (4, 104), (2, 102), (3, 103)] = .ok t ∧
      (([(5, 105), (1, 101), (4, 104), (2, 102), (3, 103)] : List (Int × Int)) ≠ [] → ∃ r, t.pages t.root_page_id = some r) ∧
      (∀ r, t.pages t.root_page_id = some r → r.GetParentPageId = INVALID_PAGE_ID) ∧
      ∀ q p, t.pages q = some p → q ≠ t.root_page_id →
        p.GetPageId = q ∧ ∃ n, t.pages p.GetParentPageId = some (.internal n) ∧
          (n.array.map Prod.snd).count p.GetPageId = 1 :=
  parent_pointers_consistent 3 3 [(5, 105), (1, 101), (4, 104), (2, 102), (3, 103)]

/-- C15: for every leaf_max_size `L >= 2`, `Insert` of a new key into a tree whose root is a
leaf holding `L - 1` keys returns `true` and makes the root an internal page (a fresh page, two
page ids after the split page) with exactly two slots: the old root leaf keeps the
`floor(L/2)` smallest of the `L` keys, the fresh leaf holds the `ceil(L/2)` largest, the key of
slot 1 is the first key of the fresh leaf, both leaves have the new root as parent, the old
leaf points to the fresh leaf and the fresh leaf has `next_page_id = INVALID_PAGE_ID`. -/
theorem root_leaf_split (t : BPlusTree) (l : LeafPage) (key value : Int)
    (hL : 2 ≤ t.leaf_max_size)
    (hid : 0 < t.root_page_id ∧ t.root_page_id < t.next_page_id)
    (hroot : t.pages t.root_page_id = some (.leaf l))
    (hhdr : l.page_id = t.root_page_id ∧ l.parent_page_id = INVALID_PAGE_ID ∧
      l.next_page_id = INVALID_PAGE_ID)
    (hsz : (l.array.length : Int) = t.leaf_max_size - 1)
    (hsorted : l.array.Pairwise (fun a b => a.1 < b.1))
    (hlk : l.Lookup key = none) :
    ∃ t1 all sep, t.Insert key value = .ok (t1, true) ∧
      all = LeafPage.insertSorted l.array key value ∧
      all.Pairwise (fun a b => a.1 < b.1) ∧
      (∀ e, e ∈ all ↔ e = (key, value) ∨ e ∈ l.array) ∧
      (all.length : Int) = t.leaf_max_size ∧
      ((all.take (all.length / 2)).length : Int) = t.leaf_max_size / 2 ∧
      ((all.drop (all.length / 2)).length : Int) = (t.leaf_max_size + 1) / 2 ∧
      (all.drop (all.length / 2)).head? = some sep ∧
      t1.root_page_id = t.next_page_id + 1 ∧
      t1.pages t1.root_page_id = some (.internal
        { page_id := t1.root_page_id, parent_page_id := INVALID_PAGE_ID,
          max_size := t.internal_max_size,
          array := [(0, t.root_page_id), (sep.1, t.next_page_id)] }) ∧
      t1.pages t.root_page_id = some (.leaf
        { page_id := t.root_page_id, parent_page_id := t1.root_page_id, max_size := l.max_size,
          next_page_id := t.next_page_id, array := all.take (all.length / 2) }) ∧
      t1.pages t.next_page_id = some (.leaf
        { page_id := t.next_page_id, parent_page_id := t1.root_page_id,
          max_size := t.leaf_max_size, next_page_id := INVALID_PAGE_ID,
          array := all.drop (all.length / 2) }) := by
  obtain ⟨h0, h1⟩ := hid
  have hnew : ∀ w, (key, w) ∉ l.array := lookup_eq_none.1 hlk
  obtain ⟨hpid, hpar, hnext⟩ := hhdr
  have hne : t.root_page_id ≠ INVALID_PAGE_ID := by simp only [INVALID_PAGE_ID]; omega
  have hlen := length_insertSorted (v := value) hnew
  have hlenI : ((LeafPage.insertSorted l.array key value).length : Int) = t.leaf_max_size := by
    rw [hlen]; push_cast; omega
  obtain ⟨f, hf⟩ : ∃ f, t.fuel = f + 1 := ⟨t.fuel - 1, by simp only [BPlusTree.fuel]; omega⟩
  have hfind : t.FindLeafPage key false = .ok (t.root_page_id, l) := by
    simp only [BPlusTree.FindLeafPage, hne, if_false, hf, BPlusTree.findLeafLoop, hroot]
  have hdroplen : (LeafPage.insertSorted l.array key value).length / 2 <
      (LeafPage.insertSorted l.array key value).length := by omega
  obtain ⟨sep, rest, hdrop⟩ : ∃ sep rest,
      (LeafPage.insertSorted l.array key value).drop
        ((LeafPage.insertSorted l.array key value).length / 2) = sep :: rest := by
    cases hd : (LeafPage.insertSorted l.array key value).drop
        ((LeafPage.insertSorted l.array key value).length / 2) with
    | nil =>
      have := congrArg List.length hd
      simp only [List.length_drop, List.length_nil] at this
      omega
    | cons a b => exact ⟨a, b, rfl⟩
  have hnlt : ¬ ((LeafPage.insertSorted l.array key value).length : Int) < t.leaf_max_size := by
    omega
  have hr1 : t.next_page_id ≠ t.root_page_id := by omega
  have hr2 : t.next_page_id + 1 ≠ t.root_page_id := by omega
  have hr3 : t.next_page_id + 1 ≠ t.next_page_id := by omega
  have hr4 : t.root_page_id ≠ t.next_page_id := by omega
  have hr5 : t.root_page_id ≠ t.next_page_id + 1 := by omega
  have hr6 : t.next_page_id ≠ t.next_page_id + 1 := by omega
  have hfuel2 : ∃ f2, (t.next_page_id + 1).toNat = f2 + 1 :=
    ⟨(t.next_page_id + 1).toNat - 1, by omega⟩
  obtain ⟨f2, hf2⟩ := hfuel2
  have hins : ∃ t1, t.Insert key value = .ok (t1, true) ∧
      t1.root_page_id = t.next_page_id + 1 ∧
      t1.pages (t.next_page_id + 1) = some (.internal
        { page_id := t.next_page_id + 1, parent_page_id := INVALID_PAGE_ID,
          max_size := t.internal_max_size,
          array := [(0, t.root_page_id), (sep.1, t.next_page_id)] }) ∧
      t1.pages t.root_page_id = some (.leaf
        { page_id := t.root_page_id, parent_page_id := t.next_page_id + 1,
          max_size := l.max_size, next_page_id := t.next_page_id,
          array := (LeafPage.insertSorted l.array key value).take
            ((LeafPage.insertSorted l.array key value).length / 2) }) ∧
      t1.pages t.next_page_id = some (.leaf
        { page_id := t.next_page_id, parent_page_id := t.next_page_id + 1,
          max_size := t.leaf_max_size, next_page_id := INVALID_PAGE_ID,
          array := (LeafPage.insertSorted l.array key value).drop
            ((LeafPage.insertSorted l.array key value).length / 2) }) := by
    simp only [BPlusTree.Insert, BPlusTree.IsEmpty, beq_iff_eq, hne, if_false,
      BPlusTree.InsertIntoLeaf, hfind, hlk, Option.isSome_none, Bool.false_eq_true,
      LeafPage.Insert, LeafPage.GetSize, hnlt, BPlusTree.Split, BPlusTree.write, Pool.write,
      if_true, LeafPage.MoveHalfTo, LeafPage.Init, List.nil_append, hdrop, LeafPage.KeyAt,
      List.get?_cons_zero, Option.map_some', BPlusTree.fuel, hf2, BPlusTree.InsertIntoParent,
      hr1, hr2, hr3, hr4, hr5, hr6, Page.IsRootPage, Page.GetParentPageId, hpar,
      Page.SetParentPageId, Page.GetPageId, InternalPage.Init, InternalPage.PopulateNewRoot,
      BPlusTree.UpdateRootPageId, Except.ok.injEq, Prod.mk.injEq, and_true, exists_eq_left',
      hpid, hnext]
  obtain ⟨t1, e1, e2, e3, e4, e5⟩ := hins
  refine ⟨t1, _, sep, e1, rfl, pairwise_insertSorted hnew hsorted, ?_, hlenI, ?_, ?_, ?_, e2,
    by rw [e2]; exact e3, by rw [e2]; exact e4, by rw [e2]; exact e5⟩
  · intro e
    exact mem_insertSorted hnew e
  · rw [List.length_take]; omega
  · rw [List.length_drop]; omega
  · rw [hdrop]; rfl

theorem root_leaf_split_witness :
    (2 : Int) ≤ (rootLeafOf 4 4 [(1, 101), (2, 102), (3, 103)]).leaf_max_size ∧
    (0 < (rootLeafOf 4 4 [(1, 101), (2, 102), (3, 103)]).root_page_id ∧
      (rootLeafOf 4 4 [(1, 101), (2, 102), (3, 103)]).root_page_id <
        (rootLeafOf 4 4 [(1, 101), (2, 102), (3, 103)]).next_page_id) ∧
    (rootLeafOf 4 4 [(1, 101), (2, 102), (3, 103)]).pages
        (rootLeafOf 4 4 [(1, 101), (2, 102), (3, 103)]).root_page_id =
      some (.leaf { page_id := 1, parent_page_id := INVALID_PAGE_ID, max_size := 4,
                    next_page_id := INVALID_PAGE_ID, array := [(1, 101), (2, 102), (3, 103)] }) ∧
    ((([(1, 101), (2, 102), (3, 103)] : List (Int × Int)).length : Int) = 4 - 1) ∧
    ([(1, 101), (2, 102), (3, 103)] : List (Int × Int)).Pairwise (fun a b => a.1 < b.1) ∧
    LeafPage.lookup [(1, 101), (2, 102), (3, 103)] 4 = none ∧
    ∃ t1 all sep, (rootLeafOf 4 4 [(1, 101), (2, 102), (3, 103)]).Insert 4 104 = .ok (t1, true) ∧
      all = LeafPage.insertSorted [(1, 101), (2, 102), (3, 103)] 4 104 ∧
      all.Pairwise (fun a b => a.1 < b.1) ∧
      (∀ e, e ∈ all ↔ e = (4, 104) ∨ e ∈ ([(1, 101), (2, 102), (3, 103)] : List (Int × Int))) ∧
      (all.length : Int) = 4 ∧
      ((all.take (all.length / 2)).length : Int) = 4 / 2 ∧
      ((all.drop (all.length / 2)).length : Int) = (4 + 1) / 2 ∧
      (all.drop (all.length / 2)).head? = some sep ∧
      t1.root_page_id = 2 + 1 ∧
      t1.pages t1.root_page_id = some (.internal
        { page_id := t1.root_page_id, parent_page_id := INVALID_PAGE_ID, max_size := 4,
          array := [(0, 1), (sep.1, 2)] }) ∧
      t1.pages 1 = some (.leaf
        { page_id := 1, parent_page_id := t1.root_page_id, max_size := 4, next_page_id := 2,
          array := all.take (all.length / 2) }) ∧
      t1.pages 2 = some (.leaf
        { page_id := 2, parent_page_id := t1.root_page_id, max_size := 4,
          next_page_id := INVALID_PAGE_ID, array := all.drop (all.length / 2) }) :=
  ⟨by decide, by decide, rfl, by decide, by decide, by decide,
    root_leaf_split (rootLeafOf 4 4 [(1, 101), (2, 102), (3, 103)])
      { page_id := 1, parent_page_id := INVALID_PAGE_ID, max_size := 4,
        next_page_id := INVALID_PAGE_ID, array := [(1, 101), (2, 102), (3, 103)] } 4 104
      (by decide) (by decide) rfl ⟨rfl, rfl, rfl⟩ (by decide) (by decide) (by decide)⟩

/-- C12: after any sequence of `Insert` calls on a newly constructed tree with
`leaf_max_size >= 2` and `internal_max_size >= 3`, every leaf holds at most `leaf_max_size - 1`
entries and every internal page at most `internal_max_size` slots, the root included, and
every page other than the root holds at least `ceil((leaf_max_size - 1) / 2)` entries if it is
a leaf and at least `ceil(internal_max_size / 2)` slots if it is an internal page (the ceilings
are written `(L - 1 + 1) / 2` and `(I + 1) / 2` with the rounding-down division of `Int`). -/
theorem page_sizes_within_bounds (L I : Int) (kvs : List (Int × Int)) (hL : 2 ≤ L)
    (hI : 3 ≤ I) :
    ∃ t, build L I kvs = .ok t ∧
      (∀ q l, t.pages q = some (.leaf l) →
        l.GetSize ≤ L - 1 ∧ (q ≠ t.root_page_id → (L - 1 + 1) / 2 ≤ l.GetSize)) ∧
      (∀ q n, t.pages q = some (.internal n) →
        n.GetSize ≤ I ∧ (q ≠ t.root_page_id → (I + 1) / 2 ≤ n.GetSize)) := by
  obtain ⟨t, h1, -, -, h2⟩ := build_fill L I kvs hL hI
  refine ⟨t, h1, fun q l hq => ?_, fun q n hq => ?_⟩
  · have := h2 q _ hq
    simpa [Page.AtMost, Page.AtLeast, Page.GetSize, Page.IsLeafPage] using this
  · have := h2 q _ hq
    simpa [Page.AtMost, Page.AtLeast, Page.GetSize, Page.IsLeafPage] using this

theorem page_sizes_within_bounds_witness :
    (2 : Int) ≤ 2 ∧ (3 : Int) ≤ 3 ∧
    ∃ t, build 2 3 [(5, 105), (1, 101), (4, 104), (2, 102), (3, 103), (6, 106), (7, 107)] =
        .ok t ∧
      (∀ q l, t.pages q = some (.leaf l) →
        l.GetSize ≤ 2 - 1 ∧ (q ≠ t.root_page_id → (2 - 1 + 1) / 2 ≤ l.GetSize)) ∧
      (∀ q n, t.pages q = some (.internal n) →
        n.GetSize ≤ 3 ∧ (q ≠ t.root_page_id → (3 + 1) / 2 ≤ n.GetSize)) :=
  ⟨by decide, by decide,
    page_sizes_within_bounds 2 3
      [(5, 105), (1, 101), (4, 104), (2, 102), (3, 103), (6, 106), (7, 107)] (by decide)
      (by decide)⟩

set_option maxRecDepth 100000 in
/-- C18 fails on the code for a tree that is populated again after it was emptied. With
`leaf_max_size = internal_max_size = 3` the header page record follows the root through the
first root (page 1), the new root of a split (page 3), the root that `AdjustRoot` puts in place
of an internal root with one child (page 1) and the root cleared by `AdjustRoot`
(`INVALID_PAGE_ID`). The next `Insert` starts a new tree on page 4 and calls
`UpdateRootPageId(1)`, whose `InsertRecord` finds the record of the index in place and leaves
it: the record stays `INVALID_PAGE_ID` while `root_page_id` is 4. The record follows the root
again with the next call of `UpdateRootPageId(0)`, here when the root leaf splits. The shortest
run of this kind is `Insert(1)`, `Remove(1)`, `Insert(2)`. -/
theorem header_record_stale_after_repopulation :
    runThenHeader 3 3 [Op.insert 1 101] = .ok (1, some 1) ∧
    runThenHeader 3 3 [Op.insert 1 101, Op.insert 2 102, Op.insert 3 103] = .ok (3, some 3) ∧
    runThenHeader 3 3 [Op.insert 1 101, Op.insert 2 102, Op.insert 3 103, Op.remove 3,
      Op.remove 2] = .ok (1, some 1) ∧
    runThenHeader 3 3 [Op.insert 1 101, Op.insert 2 102, Op.insert 3 103, Op.remove 3,
      Op.remove 2, Op.remove 1] = .ok (INVALID_PAGE_ID, some INVALID_PAGE_ID) ∧
    runThenHeader 3 3 [Op.insert 1 101, Op.insert 2 102, Op.insert 3 103, Op.remove 3,
      Op.remove 2, Op.remove 1, Op.insert 5 105] = .ok (4, some INVALID_PAGE_ID) ∧
    runThenHeader 3 3 [Op.insert 1 101, Op.insert 2 102, Op.insert 3 103, Op.remove 3,
      Op.remove 2, Op.remove 1, Op.insert 5 105, Op.insert 6 106, Op.insert 7 107] =
      .ok (6, some 6) ∧
    runThenHeader 3 3 [Op.insert 1 101, Op.remove 1, Op.insert 2 102] =
      .ok (2, some INVALID_PAGE_ID) :=
  ⟨by decide!, by decide!, by decide!, by decide!, by decide!, by decide!, by decide!⟩

/-- C16 fails on the code: with `leaf_max_size = 2` and `internal_max_size = 3`, after the
calls `Insert(1)`, `Insert(2)` have built a root (page 3) over two leaves, the call `Insert(3)`
returns `true` and leaves the root page with pin count 1, every pin count being 0 before the
call. -/
theorem insert_leaves_parent_pinned :
    insertThenPins 2 3 [(1, 101), (2, 102)] 100 3 103 3 = .ok (true, 1) := by
  decide

/-- C17 fails on the code: with `leaf_max_size = 4`, after the calls `Insert(1)`, `Insert(2)`
have filled a root leaf with two keys, the call `Remove(1)`, started with no latch held,
returns with the root latch held. -/
theorem remove_from_root_leaf_keeps_root_latch :
    removeThenRootLatch 4 4 [(1, 101), (2, 102)] 1 = .ok true := by
  decide

/-- C19, as stated, fails on the code: on the tree whose root leaf (page 1) holds key 1, with
`leaf_max_size = 2` and no free frame in the pool, `Insert(2)` raises the runtime error of
`Split` while page 1 is still pinned once and write-latched once; only the root latch has been
released. -/
theorem split_failure_keeps_leaf_latched_and_pinned :
    insertOutcome 0 (rootLeafOf 2 3 [(1, 101)]) 2 102 1 =
      (some .runtime_error, false, 1, 1, 0) := by
  decide

theorem rootLatchHeld_append_unlock (log : List Event) :
    rootLatchHeld (log ++ [Event.root_unlock]) = false := by
  simp only [rootLatchHeld, List.foldl_append, List.foldl, rootStep]

/-- C19, amended: whenever the buffer pool's `NewPage` returns no page during `Insert` in
`StartNewTree` or in `Split`, `Insert` fails with the out-of-memory runtime error.  When this
happens in `StartNewTree` (empty tree, no free frame), at the moment the error is raised no
latch is held and no page is pinned.  When it happens in the `Split` of the leaf (no free
frame), the root latch has been released, and the leaf that the descent returned is still
pinned and write-latched. -/
theorem insert_out_of_memory (avail : Nat) (t : BPlusTree) (key value : Int) :
    (∀ site, site ≠ Site.InsertIntoParent →
      (site, none) ∈ newPageCalls (Latched.Insert avail t key value []).log →
      (Latched.Insert avail t key value []).result = .error .runtime_error) ∧
    (t.IsEmpty = true → avail = 0 →
      (Latched.Insert avail t key value []).result = .error .runtime_error ∧
      (Site.StartNewTree, none) ∈ newPageCalls (Latched.Insert avail t key value []).log ∧
      rootLatchHeld (Latched.Insert avail t key value []).log = false ∧
      ∀ p, pinCount (Latched.Insert avail t key value []).log p = 0 ∧
        writeLatches (Latched.Insert avail t key value []).log p = 0 ∧
        readLatches (Latched.Insert avail t key value []).log p = 0) ∧
    (∀ d l, t.IsEmpty = false → avail = 0 →
      (Latched.FindLeafPageByOperation t key .INSERT false []).result = .ok d →
      t.pages d.page_id = some (.leaf l) → l.Lookup key = none →
      ¬ (l.Insert key value).GetSize < t.leaf_max_size →
      (Latched.Insert avail t key value []).result = .error .runtime_error ∧
      (Site.Split, none) ∈ newPageCalls (Latched.Insert avail t key value []).log ∧
      rootLatchHeld (Latched.Insert avail t key value []).log = false ∧
      1 ≤ pinCount (Latched.Insert avail t key value []).log d.page_id ∧
      1 ≤ writeLatches (Latched.Insert avail t key value []).log d.page_id) := by
  refine ⟨Insert_oom avail t key value [], ?_, ?_⟩
  · intro hempty havail
    subst havail
    have hlog : (Latched.Insert 0 t key value []).log =
        [.root_lock, .NewPage .StartNewTree none, .root_unlock] := by
      simp only [Latched.Insert, hempty, if_true, Latched.StartNewTree, Traced.bind]
      rfl
    have hres : (Latched.Insert 0 t key value []).result = .error .runtime_error := by
      simp only [Latched.Insert, hempty, if_true, Latched.StartNewTree, Traced.bind]
    rw [hlog]
    refine ⟨hres, by decide, by decide, fun p => ⟨rfl, rfl, rfl⟩⟩
  · intro d l hempty havail hd hl hlk hbig
    subst havail
    have hsome : (l.Lookup key).isSome = false := by rw [hlk]; rfl
    have hbody : (Latched.InsertIntoLeaf 0 t key value []).log =
          (Latched.FindLeafPageByOperation t key .INSERT false []).log ++
            [.NewPage .Split none] ∧
        (Latched.InsertIntoLeaf 0 t key value []).result = .error .runtime_error := by
      constructor
      · simp only [Latched.InsertIntoLeaf]
        rw [(Traced.bind_ok _ hd).1]
        simp only [hl, hsome, Bool.false_eq_true, if_false, hbig, Latched.Split, Traced.bind]
      · simp only [Latched.InsertIntoLeaf]
        rw [(Traced.bind_ok _ hd).2]
        simp only [hl, hsome, Bool.false_eq_true, if_false, hbig, Latched.Split, Traced.bind]
    have hlog : (Latched.Insert 0 t key value []).log =
        [.root_lock] ++ ((Latched.FindLeafPageByOperation t key .INSERT false []).log ++
          [.NewPage .Split none]) ++ [.root_unlock] := by
      simp only [Latched.Insert, hempty, Bool.false_eq_true, if_false, hbody.1]
    have hres : (Latched.Insert 0 t key value []).result = .error .runtime_error := by
      simp only [Latched.Insert, hempty, Bool.false_eq_true, if_false, hbody.2]
    refine ⟨hres, ?_, ?_, ?_, ?_⟩
    · rw [hlog]
      simp only [newPageCalls_append, newPageCalls_FindLeafPageByOperation]
      simp [newPageCalls]
    · rw [hlog]
      exact rootLatchHeld_append_unlock _
    · rw [hlog]
      have := FindLeafPageByOperation_pins t key .INSERT false (by decide) d d.page_id hd
      show 1 ≤ List.foldl (pinStep d.page_id) 0 ([Event.root_lock] ++
        ((Latched.FindLeafPageByOperation t key .INSERT false []).log ++
          [Event.NewPage Site.Split none]) ++ [Event.root_unlock])
      rw [List.foldl_append, List.foldl_append, List.foldl_append]
      show 1 ≤ List.foldl (pinStep d.page_id) 0
        (Latched.FindLeafPageByOperation t key .INSERT false []).log
      rw [this, if_pos rfl]
      omega
    · rw [hlog]
      have := FindLeafPageByOperation_wlatches t key .INSERT false (by decide) d d.page_id hd
      show 1 ≤ List.foldl (wlatchStep d.page_id) 0 ([Event.root_lock] ++
        ((Latched.FindLeafPageByOperation t key .INSERT false []).log ++
          [Event.NewPage Site.Split none]) ++ [Event.root_unlock])
      rw [List.foldl_append, List.foldl_append, List.foldl_append]
      show 1 ≤ List.foldl (wlatchStep d.page_id) 0
        (Latched.FindLeafPageByOperation t key .INSERT false []).log
      rw [this, if_pos rfl]
      omega

set_option maxRecDepth 100000 in
theorem insert_out_of_memory_witness :
    (rootLeafOf 2 3 [(1, 101)]).IsEmpty = false ∧
    (Latched.FindLeafPageByOperation (rootLeafOf 2 3 [(1, 101)]) 2 .INSERT false []).result =
      .ok { page_id := 1, root_page_latch := true, page_set := [] } ∧
    (Latched.Insert 0 (rootLeafOf 2 3 [(1, 101)]) 2 102 []).result = .error .runtime_error ∧
    (Site.Split, none) ∈ newPageCalls (Latched.Insert 0 (rootLeafOf 2 3 [(1, 101)]) 2 102 []).log ∧
    rootLatchHeld (Latched.Insert 0 (rootLeafOf 2 3 [(1, 101)]) 2 102 []).log = false ∧
    1 ≤ pinCount (Latched.Insert 0 (rootLeafOf 2 3 [(1, 101)]) 2 102 []).log 1 ∧
    1 ≤ writeLatches (Latched.Insert 0 (rootLeafOf 2 3 [(1, 101)]) 2 102 []).log 1 :=
  ⟨by decide, by decide,
    (insert_out_of_memory 0 (rootLeafOf 2 3 [(1, 101)]) 2 102).2.2
      { page_id := 1, root_page_latch := true, page_set := [] }
      { page_id := 1, parent_page_id := INVALID_PAGE_ID, max_size := 2,
        next_page_id := INVALID_PAGE_ID, array := [(1, 101)] }
      (by decide) rfl (by decide) rfl (by decide) (by decide)⟩

/-! ## The two halves of a split page -/

theorem Split_leaf_eq {t : BPlusTree} {q : Int} {l : LeafPage}
    (hq : t.pages q = some (.leaf l)) :
    t.Split q = .ok
      ((({ t with next_page_id := t.next_page_id + 1 } : BPlusTree).write t.next_page_id
        (.leaf { page_id := t.next_page_id, parent_page_id := l.parent_page_id,
                 max_size := t.leaf_max_size, next_page_id := l.next_page_id,
                 array := l.array.drop (l.array.length / 2) })).write q
        (.leaf { l with next_page_id := t.next_page_id,
                        array := l.array.take (l.array.length / 2) }), t.next_page_id) := by
  simp only [BPlusTree.Split, hq, LeafPage.MoveHalfTo, LeafPage.Init, List.nil_append]

theorem Split_leaf_pages {t : BPlusTree} {q : Int} {l : LeafPage}
    (hq : t.pages q = some (.leaf l)) (hfresh : q ≠ t.next_page_id) :
    ∃ t1 l1 l2, t.Split q = .ok (t1, t.next_page_id) ∧
      t1.pages q = some (.leaf l1) ∧ t1.pages t.next_page_id = some (.leaf l2) ∧
      l1.array = l.array.take (l.array.length / 2) ∧
      l2.array = l.array.drop (l.array.length / 2) ∧
      l2.page_id = t.next_page_id ∧ l2.next_page_id = l.next_page_id ∧
      l1.next_page_id = t.next_page_id ∧ l2.parent_page_id = l.parent_page_id ∧
      l1.parent_page_id = l.parent_page_id := by
  refine ⟨_, { l with next_page_id := t.next_page_id,
                      array := l.array.take (l.array.length / 2) },
    { page_id := t.next_page_id, parent_page_id := l.parent_page_id,
      max_size := t.leaf_max_size, next_page_id := l.next_page_id,
      array := l.array.drop (l.array.length / 2) }, Split_leaf_eq hq, ?_, ?_, rfl, rfl, rfl, rfl,
    rfl, rfl, rfl⟩
  · simp only [BPlusTree.write, Pool.write_apply, if_true]
  · simp only [BPlusTree.write, Pool.write_apply, if_neg (Ne.symm hfresh), if_true]

theorem Split_internal_pages {t : BPlusTree} {q : Int} {n : InternalPage}
    (hq : t.pages q = some (.internal n)) (hfresh : q ≠ t.next_page_id)
    (hch : ∀ c ∈ n.array.map Prod.snd, ∃ pg, t.pages c = some pg) :
    ∃ t1 n1 n2, t.Split q = .ok (t1, t.next_page_id) ∧
      t1.pages q = some (.internal n1) ∧ t1.pages t.next_page_id = some (.internal n2) ∧
      n1.array = n.array.take (n.array.length / 2) ∧
      n2.array = n.array.drop (n.array.length / 2) := by
  let moved2 : InternalPage :=
    { page_id := t.next_page_id, parent_page_id := n.parent_page_id,
      max_size := t.internal_max_size, array := n.array.drop (n.array.length / 2) }
  let moved1 : InternalPage := { n with array := n.array.take (n.array.length / 2) }
  let pool2 : Pool := (t.pages.write t.next_page_id (.internal moved2)).write q (.internal moved1)
  have hex : ∀ c ∈ moved2.array.map Prod.snd, ∃ pg, pool2 c = some pg := by
    intro c hc
    show ∃ pg, ((t.pages.write t.next_page_id (.internal moved2)).write q
      (.internal moved1)) c = some pg
    rw [Pool.write_apply, Pool.write_apply]
    by_cases h1 : c = q
    · rw [if_pos h1]; exact ⟨_, rfl⟩
    · rw [if_neg h1]
      by_cases h2 : c = t.next_page_id
      · rw [if_pos h2]; exact ⟨_, rfl⟩
      · rw [if_neg h2]
        refine hch c ?_
        obtain ⟨x, hx, rfl⟩ := List.mem_map.1 hc
        exact List.mem_map.2 ⟨x, List.mem_of_mem_drop hx, rfl⟩
  obtain ⟨pages1, hre, hview⟩ := reparent_spec t.next_page_id _ pool2 hex
  have hsplit : t.Split q = .ok
      ({ ({ t with next_page_id := t.next_page_id + 1 } : BPlusTree) with pages := pages1 },
        t.next_page_id) := by
    simp only [BPlusTree.Split, hq, InternalPage.MoveHalfTo, InternalPage.Init,
      List.nil_append, BPlusTree.write]
    have : reparent ((t.pages.write t.next_page_id (.internal moved2)).write q
        (.internal moved1)) (moved2.array.map Prod.snd) t.next_page_id = .ok pages1 := hre
    simp only [moved1, moved2] at this
    rw [this]
  have hq1 : pool2 q = some (.internal moved1) := by
    show ((t.pages.write t.next_page_id (.internal moved2)).write q (.internal moved1)) q = _
    rw [Pool.write_apply, if_pos rfl]
  have hn1 : pool2 t.next_page_id = some (.internal moved2) := by
    show ((t.pages.write t.next_page_id (.internal moved2)).write q
      (.internal moved1)) t.next_page_id = _
    rw [Pool.write_apply, if_neg (Ne.symm hfresh), Pool.write_apply, if_pos rfl]
  have hpq : ∃ n1, pages1 q = some (.internal n1) ∧ n1.array = moved1.array := by
    rw [hview q, hq1]
    split
    · exact ⟨_, rfl, rfl⟩
    · exact ⟨_, rfl, rfl⟩
  have hpn : ∃ n2, pages1 t.next_page_id = some (.internal n2) ∧ n2.array = moved2.array := by
    rw [hview t.next_page_id, hn1]
    split
    · exact ⟨_, rfl, rfl⟩
    · exact ⟨_, rfl, rfl⟩
  obtain ⟨n1, h1, e1⟩ := hpq
  obtain ⟨n2, h2, e2⟩ := hpn
  exact ⟨_, n1, n2, hsplit, h1, h2, e1, e2⟩

theorem newPageCalls_Split_head (avail : Nat) (t : BPlusTree) (q : Int) :
    ∃ x, (Site.Split, x) ∈ newPageCalls (Latched.Split avail t q).log := by
  cases avail with
  | zero => exact ⟨none, by simp [Latched.Split, newPageCalls]⟩
  | succ a =>
    simp only [Latched.Split]
    cases hs : t.Split q with
    | error e => exact ⟨some t.next_page_id, by simp [newPageCalls]⟩
    | ok r => exact ⟨some r.2, by simp [newPageCalls]⟩

theorem log_bind_sub {α β : Type} (x : Traced α) (f : α → Traced β) (e : Event)
    (h : e ∈ x.log) : e ∈ (x.bind f).log := by
  cases hr : x.result with
  | error err => rw [(Traced.bind_error f hr).1]; exact h
  | ok a => rw [(Traced.bind_ok f hr).1]; exact List.mem_append_left _ h

theorem mem_newPageCalls {log : List Event} {s : Site} {x : Option Int} :
    (s, x) ∈ newPageCalls log ↔ Event.NewPage s x ∈ log := by
  simp only [newPageCalls, List.mem_filterMap]
  constructor
  · rintro ⟨e, he, h⟩
    cases e <;> simp at h
    obtain ⟨rfl, rfl⟩ := h
    exact he
  · intro h
    exact ⟨_, h, rfl⟩

/-! ## The page set kept by the descent -/

theorem deepestSafe_none (safe : Int → Bool) :
    ∀ (path : List Int), deepestSafe safe path = none ↔ ∀ y ∈ path, safe y = false := by
  intro path
  induction path with
  | nil => simp [deepestSafe]
  | cons p rest ih =>
    simp only [deepestSafe]
    cases hd : deepestSafe safe rest with
    | some s =>
      simp only [false_iff, reduceCtorEq]
      intro hall
      have := ih.2 (fun y hy => hall y (List.mem_cons_of_mem _ hy))
      rw [hd] at this
      cases this
    | none =>
      have hrest := ih.1 hd
      simp only
      constructor
      · intro h y hy
        rcases List.mem_cons.1 hy with h1 | h1
        · subst h1
          by_contra hcon
          have : safe y = true := by simpa using hcon
          rw [if_pos this] at h
          cases h
        · exact hrest y h1
      · intro h
        rw [if_neg (by rw [h p (List.mem_cons_self _ _)]; simp)]

theorem deepestSafe_spec (safe : Int → Bool) :
    ∀ (path s : List Int), deepestSafe safe path = some s →
      ∃ pre x tl, path = pre ++ s ∧ s = x :: tl ∧ safe x = true ∧
        ∀ y ∈ tl, safe y = false := by
  intro path
  induction path with
  | nil => intro s h; cases h
  | cons p rest ih =>
    intro s h
    simp only [deepestSafe] at h
    cases hd : deepestSafe safe rest with
    | some s1 =>
      rw [hd] at h
      cases h
      obtain ⟨pre, x, tl, e1, e2, e3, e4⟩ := ih s hd
      exact ⟨p :: pre, x, tl, by rw [e1]; rfl, e2, e3, e4⟩
    | none =>
      rw [hd] at h
      simp only at h
      split at h
      · rename_i hp
        cases h
        exact ⟨[], p, rest, rfl, rfl, hp, (deepestSafe_none safe rest).1 hd⟩
      · cases h

theorem deepestSafe_last (safe : Int → Bool) :
    ∀ (path : List Int) (x : Int), safe x = true → deepestSafe safe (path ++ [x]) = some [x] := by
  intro path
  induction path with
  | nil =>
    intro x hx
    simp only [List.nil_append, deepestSafe, hx, if_true]
  | cons p rest ih =>
    intro x hx
    rw [List.cons_append, deepestSafe, ih x hx]

theorem descendLoop_absent (t : BPlusTree) (key : Int) (op : Operation) (lm : Bool)
    (fuel : Nat) (q : Int) (flag : Bool) (ps : List Int) (hq : t.pages q = none) (d : Descent) :
    (Latched.descendLoop t key op lm fuel q flag ps).result ≠ .ok d := by
  cases fuel with
  | zero => simp [Latched.descendLoop]
  | succ f => simp [Latched.descendLoop, hq]

/-- The page set and the flag that the descent returns, in terms of the path it walks. -/
theorem descendLoop_page_set (t : BPlusTree) (key : Int) (op : Operation) (lm : Bool)
    (hop : op ≠ .FIND) :
    ∀ (fuel : Nat) (q : Int) (flag : Bool) (ps : List Int) (d : Descent),
      (Latched.descendLoop t key op lm fuel q flag ps).result = .ok d →
      ∃ rest, descentPath t.pages key lm fuel q = q :: rest ∧
        (q :: rest).getLast? = some d.page_id ∧
        (∃ l, t.pages d.page_id = some (.leaf l)) ∧
        (rest ≠ [] → ∃ n, t.pages q = some (.internal n)) ∧
        d.page_set = (match deepestSafe (t.safeAt op) rest with
          | some s => s.dropLast
          | none => ps ++ (q :: rest).dropLast) ∧
        (d.root_page_latch = true ↔ flag = true ∧ ∀ p ∈ rest, t.safeAt op p = false) := by
  intro fuel
  induction fuel with
  | zero => intro q flag ps d h; simp [Latched.descendLoop] at h
  | succ f ih =>
    intro q flag ps d h
    simp only [Latched.descendLoop] at h
    simp only [descentPath]
    cases hq : t.pages q with
    | none => rw [hq] at h; cases h
    | some pg =>
      rw [hq] at h
      cases pg with
      | leaf l =>
        simp only [Except.ok.injEq] at h
        subst h
        refine ⟨[], rfl, rfl, ⟨l, hq⟩, fun h => absurd rfl h, ?_, ?_⟩
        · simp [deepestSafe]
        · simp
      | internal n =>
        simp only at h ⊢
        cases hn : (if lm = true then n.ValueAt 0 else n.Lookup key) with
        | none => rw [hn] at h; cases h
        | some next =>
          rw [hn] at h
          simp only at h ⊢
          cases hnext : t.pages next with
          | none =>
            rw [hnext] at h
            exact absurd h (descendLoop_absent t key op lm f next flag ps hnext d)
          | some next_node =>
            rw [hnext] at h
            simp only [if_neg hop] at h
            have hsafeAt : t.safeAt op next = t.IsSafe next_node op := by
              simp only [BPlusTree.safeAt, hnext]
            by_cases hs : t.IsSafe next_node op = true
            · rw [if_pos hs, Traced.result_emit] at h
              obtain ⟨rest1, hp, hlast, hleaf, -, hset, hflag⟩ := ih next false [] d h
              refine ⟨next :: rest1, by rw [hp], ?_, hleaf, fun _ => ⟨n, rfl⟩, ?_, ?_⟩
              · rw [List.getLast?_cons_cons]; exact hlast
              · rw [hset]
                simp only [deepestSafe]
                cases hd : deepestSafe (t.safeAt op) rest1 with
                | some s => rfl
                | none =>
                  simp only [hsafeAt, hs, if_true, List.nil_append]
              · constructor
                · intro hl
                  have := (hflag.1 hl).1
                  cases this
                · rintro ⟨-, hall⟩
                  have := hall next (List.mem_cons_self _ _)
                  rw [hsafeAt, hs] at this
                  cases this
            · rw [if_neg hs, Traced.result_emit] at h
              obtain ⟨rest1, hp, hlast, hleaf, -, hset, hflag⟩ := ih next flag (ps ++ [q]) d h
              refine ⟨next :: rest1, by rw [hp], ?_, hleaf, fun _ => ⟨n, rfl⟩, ?_, ?_⟩
              · rw [List.getLast?_cons_cons]; exact hlast
              · rw [hset]
                simp only [deepestSafe]
                cases hd : deepestSafe (t.safeAt op) rest1 with
                | some s => rfl
                | none =>
                  simp only [hsafeAt, hs, Bool.false_eq_true, if_false, List.dropLast_cons₂,
                    List.append_assoc, List.singleton_append]
              · rw [hflag]
                constructor
                · rintro ⟨h1, h2⟩
                  refine ⟨h1, ?_⟩
                  intro p hp1
                  rcases List.mem_cons.1 hp1 with h3 | h3
                  · subst h3; rw [hsafeAt]; simpa using hs
                  · exact h2 p h3
                · rintro ⟨h1, h2⟩
                  exact ⟨h1, fun p hp1 => h2 p (List.mem_cons_of_mem _ hp1)⟩

/-! ## The pages written by `Redistribute` and by `Coalesce` -/

theorem drop_last_concat {α : Type} (init : List α) (z : α) :
    (init ++ [z]).drop ((init ++ [z]).length - 1) = [z] := by
  have : (init ++ [z]).length - 1 = init.length := by simp
  rw [this, List.drop_left]

theorem Redistribute_leaf_first_eq {t : BPlusTree} {node_id s : Int} {ln ls : LeafPage}
    {pn : InternalPage} {x y : Int × Int} {rest : List (Int × Int)}
    (hnode : t.pages node_id = some (.leaf ln)) (hsib : t.pages s = some (.leaf ls))
    (hp : t.pages ln.parent_page_id = some (.internal pn)) (hls : ls.array = x :: y :: rest) :
    t.Redistribute s node_id 0 = .ok
      (((t.write s (.leaf { ls with array := y :: rest })).write node_id
        (.leaf { ln with array := ln.array ++ [x] })).write ln.parent_page_id
        (.internal (pn.SetKeyAt 1 y.1))) := by
  have hkey : (ls.MoveFirstToEndOf ln).1.KeyAt 0 = some y.1 := by
    simp [LeafPage.MoveFirstToEndOf, LeafPage.KeyAt, hls]
  simp only [BPlusTree.Redistribute, hnode, hsib, hp, if_true, hkey]
  simp only [LeafPage.MoveFirstToEndOf, hls, List.tail_cons, List.take_succ_cons, List.take_zero]

theorem Redistribute_leaf_last_eq {t : BPlusTree} {node_id s : Int} {ln ls : LeafPage}
    {pn : InternalPage} {index : Nat} {z : Int × Int} {init : List (Int × Int)}
    (hnode : t.pages node_id = some (.leaf ln)) (hsib : t.pages s = some (.leaf ls))
    (hp : t.pages ln.parent_page_id = some (.internal pn)) (hidx : index ≠ 0)
    (hls : ls.array = init ++ [z]) :
    t.Redistribute s node_id index = .ok
      (((t.write s (.leaf { ls with array := init })).write node_id
        (.leaf { ln with array := z :: ln.array })).write ln.parent_page_id
        (.internal (pn.SetKeyAt index z.1))) := by
  have hd : ls.array.drop (ls.array.length - 1) = [z] := by rw [hls]; exact drop_last_concat _ _
  have hkey : (ls.MoveLastToFrontOf ln).2.KeyAt 0 = some z.1 := by
    simp [LeafPage.MoveLastToFrontOf, LeafPage.KeyAt, hd]
  have hm1 : (ls.MoveLastToFrontOf ln).1 = { ls with array := init } := by
    simp only [LeafPage.MoveLastToFrontOf, hls, List.dropLast_concat]
  have hm2 : (ls.MoveLastToFrontOf ln).2 = { ln with array := z :: ln.array } := by
    simp only [LeafPage.MoveLastToFrontOf, hd, List.singleton_append]
  simp only [BPlusTree.Redistribute, hnode, hsib, hp, if_neg hidx, hkey]
  rw [hm1, hm2]

theorem Redistribute_internal_first_form {t : BPlusTree} {node_id s : Int}
    {nn ns pn : InternalPage} {x y : Int × Int} {rest : List (Int × Int)} {mk : Int}
    (hnode : t.pages node_id = some (.internal nn)) (hsib : t.pages s = some (.internal ns))
    (hp : t.pages nn.parent_page_id = some (.internal pn)) (hns : ns.array = x :: y :: rest)
    (hmid : pn.KeyAt 1 = some mk)
    (hM : x.2 ≠ s ∧ x.2 ≠ node_id ∧ ∃ pg, t.pages x.2 = some pg) :
    ∃ t1, t.Redistribute s node_id 0 = .ok t1 ∧ t1.root_page_id = t.root_page_id ∧
      t1.next_page_id = t.next_page_id ∧ t1.leaf_max_size = t.leaf_max_size ∧
      t1.internal_max_size = t.internal_max_size ∧
      ∀ q, t1.pages q =
        if q = nn.parent_page_id then some (.internal (pn.SetKeyAt 1 y.1))
        else if q = node_id then some (.internal { nn with array := nn.array ++ [(mk, x.2)] })
        else if q = s then some (.internal { ns with array := y :: rest })
        else (t.pages q).map (fun pg => if q ∈ [x.2] then pg.SetParentPageId nn.page_id
          else pg) := by
  have hkey : (ns.MoveFirstToEndOf nn mk).1.KeyAt 0 = some y.1 := by
    simp [InternalPage.MoveFirstToEndOf, InternalPage.KeyAt, hns]
  have hM1 : ∀ c ∈ [x.2], c ≠ s ∧ c ≠ node_id ∧ ∃ pg, t.pages c = some pg := by
    intro c hc
    simp only [List.mem_singleton] at hc
    subst hc
    exact hM
  obtain ⟨pages1, hr, hform⟩ := @pool_form t.pages s node_id nn.parent_page_id nn.page_id
    (.internal { ns with array := y :: rest })
    (.internal { nn with array := nn.array ++ [(mk, x.2)] })
    (.internal (pn.SetKeyAt 1 y.1)) _ hM1
  have hm1 : (ns.MoveFirstToEndOf nn mk).1 = { ns with array := y :: rest } := by
    simp only [InternalPage.MoveFirstToEndOf, hns, List.tail_cons]
  have hm2 : (ns.MoveFirstToEndOf nn mk).2 = { nn with array := nn.array ++ [(mk, x.2)] } := by
    simp only [InternalPage.MoveFirstToEndOf, hns, List.take_succ_cons, List.take_zero,
      List.map_cons, List.map_nil]
  have htake : (ns.array.take 1).map Prod.snd = [x.2] := by
    simp only [hns, List.take_succ_cons, List.take_zero, List.map_cons, List.map_nil]
  refine ⟨({ (t.write s (.internal { ns with array := y :: rest })).write node_id
      (.internal { nn with array := nn.array ++ [(mk, x.2)] }) with pages := pages1 } :
        BPlusTree).write nn.parent_page_id (.internal (pn.SetKeyAt 1 y.1)), ?_, rfl, rfl, rfl,
    rfl, hform⟩
  simp only [BPlusTree.Redistribute, hnode, hsib, hp, if_true, hmid, hm1, hm2, htake,
    BPlusTree.write_pages, hr]
  rw [← hm1, hkey]

theorem Redistribute_internal_last_form {t : BPlusTree} {node_id s : Int}
    {nn ns pn : InternalPage} {index : Nat} {z : Int × Int} {init : List (Int × Int)}
    {mk : Int}
    (hnode : t.pages node_id = some (.internal nn)) (hsib : t.pages s = some (.internal ns))
    (hp : t.pages nn.parent_page_id = some (.internal pn)) (hidx : index ≠ 0)
    (hns : ns.array = init ++ [z]) (hmid : pn.KeyAt index = some mk)
    (hM : z.2 ≠ s ∧ z.2 ≠ node_id ∧ ∃ pg, t.pages z.2 = some pg) :
    ∃ t1, t.Redistribute s node_id index = .ok t1 ∧ t1.root_page_id = t.root_page_id ∧
      t1.next_page_id = t.next_page_id ∧ t1.leaf_max_size = t.leaf_max_size ∧
      t1.internal_max_size = t.internal_max_size ∧
      ∀ q, t1.pages q =
        if q = nn.parent_page_id then some (.internal (pn.SetKeyAt index z.1))
        else if q = node_id then
          some (.internal { nn with array := z :: InternalPage.setKeyAt nn.array 0 mk })
        else if q = s then some (.internal { ns with array := init })
        else (t.pages q).map (fun pg => if q ∈ [z.2] then pg.SetParentPageId nn.page_id
          else pg) := by
  have hd : ns.array.drop (ns.array.length - 1) = [z] := by rw [hns]; exact drop_last_concat _ _
  have hkey : (ns.MoveLastToFrontOf nn mk).2.KeyAt 0 = some z.1 := by
    simp [InternalPage.MoveLastToFrontOf, InternalPage.KeyAt, hd]
  have hM1 : ∀ c ∈ [z.2], c ≠ s ∧ c ≠ node_id ∧ ∃ pg, t.pages c = some pg := by
    intro c hc
    simp only [List.mem_singleton] at hc
    subst hc
    exact hM
  obtain ⟨pages1, hr, hform⟩ := @pool_form t.pages s node_id nn.parent_page_id nn.page_id
    (.internal { ns with array := init })
    (.internal { nn with array := z :: InternalPage.setKeyAt nn.array 0 mk })
    (.internal (pn.SetKeyAt index z.1)) _ hM1
  have hm1 : (ns.MoveLastToFrontOf nn mk).1 = { ns with array := init } := by
    simp only [InternalPage.MoveLastToFrontOf, hns, List.dropLast_concat]
  have hm2 : (ns.MoveLastToFrontOf nn mk).2 =
      { nn with array := z :: InternalPage.setKeyAt nn.array 0 mk } := by
    simp only [InternalPage.MoveLastToFrontOf, hd, List.singleton_append]
  have htake : (ns.array.drop (ns.array.length - 1)).map Prod.snd = [z.2] := by
    rw [hd]; rfl
  refine ⟨({ (t.write s (.internal { ns with array := init })).write node_id
      (.internal { nn with array := z :: InternalPage.setKeyAt nn.array 0 mk }) with
        pages := pages1 } : BPlusTree).write nn.parent_page_id
          (.internal (pn.SetKeyAt index z.1)), ?_, rfl, rfl, rfl, rfl, hform⟩
  simp only [BPlusTree.Redistribute, hnode, hsib, hp, if_neg hidx, hmid, hm1, hm2, htake,
    BPlusTree.write_pages, hr]
  rw [← hm2, hkey]

theorem length_setKeyAt :
    ∀ (arr : List (Int × Int)) (i : Nat) (k : Int),
      (InternalPage.setKeyAt arr i k).length = arr.length := by
  intro arr i k
  have := congrArg List.length (map_snd_setKeyAt arr i k)
  simpa using this

theorem Coalesce_leaf_eq
    (recur : BPlusTree → Int → Transaction → Except Failure (BPlusTree × Transaction × Bool))
    {t : BPlusTree} {neighbor_id node_id parent_id : Int} {index : Nat} (txn : Transaction)
    {lr ll : LeafPage} {pn : InternalPage} (hp : t.pages parent_id = some (.internal pn))
    (hr : t.pages (if index = 0 then neighbor_id else node_id) = some (.leaf lr))
    (hl : t.pages (if index = 0 then node_id else neighbor_id) = some (.leaf ll)) :
    BPlusTree.Coalesce recur t neighbor_id node_id parent_id index txn =
      recur
        (((t.write (if index = 0 then neighbor_id else node_id)
            (.leaf { lr with array := [] })).write (if index = 0 then node_id else neighbor_id)
            (.leaf { ll with next_page_id := lr.next_page_id,
                             array := ll.array ++ lr.array })).write parent_id
            (.internal (pn.Remove (if index = 0 then 1 else index)))) parent_id txn := by
  simp only [BPlusTree.Coalesce, hp, hr, hl, LeafPage.MoveAllTo]

theorem Coalesce_internal_form {t : BPlusTree} {neighbor_id node_id parent_id : Int}
    {index : Nat} {nr nl pn : InternalPage} {mk : Int}
    (hp : t.pages parent_id = some (.internal pn))
    (hr : t.pages (if index = 0 then neighbor_id else node_id) = some (.internal nr))
    (hl : t.pages (if index = 0 then node_id else neighbor_id) = some (.internal nl))
    (hmid : pn.KeyAt (if index = 0 then 1 else index) = some mk)
    (hM : ∀ c ∈ nr.array.map Prod.snd, c ≠ (if index = 0 then neighbor_id else node_id) ∧
      c ≠ (if index = 0 then node_id else neighbor_id) ∧ ∃ pg, t.pages c = some pg) :
    ∃ tm, (∀ recur txn, BPlusTree.Coalesce recur t neighbor_id node_id parent_id index txn =
        recur tm parent_id txn) ∧ tm.root_page_id = t.root_page_id ∧
      tm.next_page_id = t.next_page_id ∧ tm.leaf_max_size = t.leaf_max_size ∧
      tm.internal_max_size = t.internal_max_size ∧
      ∀ q, tm.pages q =
        if q = parent_id then some (.internal (pn.Remove (if index = 0 then 1 else index)))
        else if q = (if index = 0 then node_id else neighbor_id) then
          some (.internal { nl with array := nl.array ++ InternalPage.setKeyAt nr.array 0 mk })
        else if q = (if index = 0 then neighbor_id else node_id) then
          some (.internal { nr with array := [] })
        else (t.pages q).map (fun pg => if q ∈ nr.array.map Prod.snd then
          pg.SetParentPageId nl.page_id else pg) := by
  obtain ⟨pages1, hre, hform⟩ := @pool_form t.pages (if index = 0 then neighbor_id else node_id)
    (if index = 0 then node_id else neighbor_id) parent_id nl.page_id
    (.internal { nr with array := [] })
    (.internal { nl with array := nl.array ++ InternalPage.setKeyAt nr.array 0 mk })
    (.internal (pn.Remove (if index = 0 then 1 else index))) _ hM
  refine ⟨({ (t.write (if index = 0 then neighbor_id else node_id)
      (.internal { nr with array := [] })).write (if index = 0 then node_id else neighbor_id)
      (.internal { nl with array := nl.array ++ InternalPage.setKeyAt nr.array 0 mk }) with
        pages := pages1 } : BPlusTree).write parent_id
          (.internal (pn.Remove (if index = 0 then 1 else index))), ?_, rfl, rfl, rfl, rfl,
    hform⟩
  intro recur txn
  simp only [BPlusTree.Coalesce, hp, hr, hl, hmid, InternalPage.MoveAllTo,
    BPlusTree.write_pages, hre]

/-! ## The parent and the sibling of an under-full page -/

theorem Shape.around {t : BPlusTree} {lvl : Int → Nat} {dead : Int → Prop} {node_id : Int}
    {node : Page} {pn : InternalPage} {index : Nat} {s : Int} {ps : Page}
    (hs : Shape t lvl dead node_id) (hnode : t.pages node_id = some node)
    (hlive : ¬ dead node_id) (hnr : node_id ≠ t.root_page_id)
    (hp : t.pages node.GetParentPageId = some (.internal pn))
    (hidx : pn.ValueIndex node.GetPageId = some index)
    (hsv : pn.ValueAt (if index = 0 then 1 else index - 1) = some s)
    (hsib : t.pages s = some ps) :
    node.IsRootPage = false ∧ node.GetPageId = node_id ∧ ¬ dead node.GetParentPageId ∧
      node_id ≠ s ∧ ps.IsLeafPage = node.IsLeafPage ∧ s ∈ (Page.internal pn).children ∧
      node_id ∈ (Page.internal pn).children ∧
      (index = 0 → ∃ kc kc1 post1, pn.array = kc :: kc1 :: post1 ∧ kc.2 = node_id ∧
        kc1.2 = s) ∧
      (index ≠ 0 → ∃ pre kc1 kc post, pn.array = pre ++ kc1 :: kc :: post ∧ kc1.2 = s ∧
        kc.2 = node_id ∧ pre.length + 1 = index) := by
  obtain ⟨pn1, pre, kc, post, s1, ps1, hp1, hpl, harr, hkc, hidx1, hsv1, hsib1, hsin, hne, hkind,
    hfirst⟩ := hs.neighbour hnode hlive hnr
  rw [hp] at hp1
  cases hp1
  rw [hidx] at hidx1
  cases hidx1
  rw [hsv] at hsv1
  cases hsv1
  rw [hsib] at hsib1
  cases hsib1
  have hroot : node.IsRootPage = false := by
    cases h : node.IsRootPage with
    | false => rfl
    | true => exact absurd ((hs.rootIff hnode hlive).1 h) hnr
  have hin : node_id ∈ (Page.internal pn).children := by
    simp only [Page.children, harr, List.map_append, List.map_cons, List.mem_append,
      List.mem_cons]
    exact Or.inr (Or.inl hkc.symm)
  refine ⟨hroot, (hs.ids _ _ hnode).2, hpl, hne, hkind, hsin, hin, ?_, ?_⟩
  · intro h0
    obtain ⟨kc1, post1, e, e1⟩ := hfirst h0
    exact ⟨kc, kc1, post1, e, hkc, e1⟩
  · intro h0
    have hpre : pre ≠ [] := by
      intro h; rw [h] at h0; exact h0 rfl
    obtain ⟨init, k1, e1, -, -⟩ := list_last_split pre hpre
    rw [if_neg h0] at hsv
    have hget : pn.ValueAt (pre.length - 1) = some k1.2 := by
      simp only [InternalPage.ValueAt, harr]
      rw [e1, get?_split_last]
      rfl
    rw [hget] at hsv
    cases hsv
    refine ⟨init, k1, kc, post, ?_, rfl, hkc, ?_⟩
    · rw [harr, e1]; simp
    · rw [e1]; simp

theorem keyAt_around {pn : InternalPage} {index : Nat}
    (h0 : index = 0 → ∃ kc kc1 post1, pn.array = kc :: kc1 :: post1)
    (h1 : index ≠ 0 → ∃ pre kc1 kc post, pn.array = pre ++ kc1 :: kc :: post ∧
      pre.length + 1 = index) :
    ∃ kc, pn.array.get? (if index = 0 then 1 else index) = some kc ∧
      pn.KeyAt (if index = 0 then 1 else index) = some kc.1 := by
  by_cases hi : index = 0
  · obtain ⟨kc, kc1, post1, e⟩ := h0 hi
    rw [if_pos hi]
    exact ⟨kc1, by rw [e]; rfl, by simp [InternalPage.KeyAt, e]⟩
  · obtain ⟨pre, kc1, kc, post, e, hl⟩ := h1 hi
    rw [if_neg hi]
    have hg : pn.array.get? index = some kc := by
      rw [e, ← hl]
      have : pre ++ kc1 :: kc :: post = (pre ++ [kc1]) ++ kc :: post := by simp
      rw [this]
      have h2 : pre.length + 1 = (pre ++ [kc1]).length := by simp
      rw [h2]
      exact get?_split _ _ _
    exact ⟨kc, hg, by simp only [InternalPage.KeyAt, hg, Option.map_some']⟩

/-- `Coalesce` moves every entry of the right-hand page to the end of the left-hand page and
removes the slot of the right-hand page from the parent, then calls `CoalesceOrRedistribute` on
the parent. -/
theorem Coalesce_merge {t : BPlusTree} {neighbor_id node_id parent_id : Int} {index : Nat}
    {PR PL : Page} {pn : InternalPage} (hp : t.pages parent_id = some (.internal pn))
    (hr : t.pages (if index = 0 then neighbor_id else node_id) = some PR)
    (hl : t.pages (if index = 0 then node_id else neighbor_id) = some PL)
    (hkind : PR.IsLeafPage = PL.IsLeafPage)
    (hmid : ∃ mk, pn.KeyAt (if index = 0 then 1 else index) = some mk)
    (hM : ∀ c ∈ PR.children, c ≠ (if index = 0 then neighbor_id else node_id) ∧
      c ≠ (if index = 0 then node_id else neighbor_id) ∧ ∃ pg, t.pages c = some pg)
    (hne : (if index = 0 then neighbor_id else node_id) ≠
      (if index = 0 then node_id else neighbor_id))
    (hpr : parent_id ≠ (if index = 0 then neighbor_id else node_id))
    (hpl : parent_id ≠ (if index = 0 then node_id else neighbor_id)) :
    ∃ tm merged emptied,
      (∀ recur txn, BPlusTree.Coalesce recur t neighbor_id node_id parent_id index txn =
        recur tm parent_id txn) ∧
      tm.pages (if index = 0 then node_id else neighbor_id) = some merged ∧
      tm.pages (if index = 0 then neighbor_id else node_id) = some emptied ∧
      tm.pages parent_id = some (.internal (pn.Remove (if index = 0 then 1 else index))) ∧
      merged.entries.map Prod.snd = (PL.entries ++ PR.entries).map Prod.snd ∧
      (PL.IsLeafPage = true → merged.entries = PL.entries ++ PR.entries) ∧
      merged.GetSize = PL.GetSize + PR.GetSize ∧ merged.IsLeafPage = PL.IsLeafPage ∧
      emptied.entries = [] := by
  cases PR with
  | leaf lr =>
    cases PL with
    | internal _ => simp [Page.IsLeafPage] at hkind
    | leaf ll =>
      refine ⟨_, .leaf { ll with next_page_id := lr.next_page_id,
                                 array := ll.array ++ lr.array },
        .leaf { lr with array := [] },
        fun recur txn => Coalesce_leaf_eq recur txn hp hr hl, ?_, ?_, ?_, rfl, fun _ => rfl, ?_,
        rfl, rfl⟩
      · simp only [BPlusTree.write_pages, Pool.write_apply, if_neg (Ne.symm hpl), if_true]
      · simp only [BPlusTree.write_pages, Pool.write_apply, if_neg (Ne.symm hpr), if_neg hne,
          if_true]
      · simp only [BPlusTree.write_pages, Pool.write_apply, if_true]
      · simp only [Page.GetSize, LeafPage.GetSize, List.length_append]
        push_cast
        rfl
  | internal nr =>
    cases PL with
    | leaf _ => simp [Page.IsLeafPage] at hkind
    | internal nl =>
      obtain ⟨mk, hmk⟩ := hmid
      obtain ⟨tm, hco, -, -, -, -, hform⟩ := Coalesce_internal_form hp hr hl hmk hM
      refine ⟨tm, .internal { nl with array := nl.array ++ InternalPage.setKeyAt nr.array 0 mk },
        .internal { nr with array := [] }, hco, ?_, ?_, ?_, ?_, ?_, ?_, rfl, rfl⟩
      · rw [hform, if_neg (Ne.symm hpl), if_pos rfl]
      · rw [hform, if_neg (Ne.symm hpr), if_neg hne, if_pos rfl]
      · rw [hform, if_pos rfl]
      · simp only [Page.entries, List.map_append, map_snd_setKeyAt]
      · intro h; simp [Page.IsLeafPage] at h
      · simp only [Page.GetSize, InternalPage.GetSize, List.length_append, length_setKeyAt]
        push_cast
        rfl

/-! ## What `Redistribute` does to the two pages and to the parent -/

theorem list_two_of_length {α : Type} (l : List α) (h : 2 ≤ l.length) :
    ∃ x y rest, l = x :: y :: rest := by
  match l, h with
  | x :: y :: rest, _ => exact ⟨x, y, rest, rfl⟩
  | [_], h => simp at h
  | [], h => simp at h

/-- `Redistribute` on a page and its sibling, in a tree of the shape `Shape`: one entry of the
sibling moves over, and the parent gets the first key of the right-hand page as separator. -/
theorem Redistribute_rotate {t : BPlusTree} {lvl : Int → Nat} {dead : Int → Prop}
    {node_id : Int} {node : Page} {pn : InternalPage} {index : Nat} {s : Int} {ps : Page}
    (hs : Shape t lvl dead node_id) (hnode : t.pages node_id = some node)
    (hlive : ¬ dead node_id) (hnr : node_id ≠ t.root_page_id)
    (hp : t.pages node.GetParentPageId = some (.internal pn))
    (hidx : pn.ValueIndex node.GetPageId = some index)
    (hsv : pn.ValueAt (if index = 0 then 1 else index - 1) = some s)
    (hsib : t.pages s = some ps) (hm : 2 ≤ ps.GetSize) :
    ∃ t1 node1 ps1 k, t.Redistribute s node_id index = .ok t1 ∧
      t1.pages node_id = some node1 ∧ t1.pages s = some ps1 ∧
      t1.pages node.GetParentPageId =
        some (.internal (pn.SetKeyAt (if index = 0 then 1 else index) k)) ∧
      node.SameHeader node1 ∧ ps.SameHeader ps1 ∧
      (index = 0 → ∃ x, ps.entries = x :: ps1.entries ∧
        ps1.entries.head?.map Prod.fst = some k ∧
        ((node.IsLeafPage = true ∧ node1.entries = node.entries ++ [x]) ∨
          (node.IsLeafPage = false ∧ ∃ sep, pn.KeyAt 1 = some sep ∧
            node1.entries = node.entries ++ [(sep, x.2)]))) ∧
      (index ≠ 0 → ∃ z, ps.entries = ps1.entries ++ [z] ∧ z.1 = k ∧
        ((node.IsLeafPage = true ∧ node1.entries = z :: node.entries) ∨
          (node.IsLeafPage = false ∧ ∃ sep, pn.KeyAt index = some sep ∧
            node1.entries = z :: InternalPage.setKeyAt node.entries 0 sep))) := by
  obtain ⟨hroot, hid, hpl, hne, hkind, hsin, hin, h0, h1⟩ :=
    hs.around hnode hlive hnr hp hidx hsv hsib
  obtain ⟨hal, hbl, hnda, hndb, hsep, hkids, hpa, hpb⟩ :=
    hs.siblings hp hpl hnode hsib hin hsin hne
  obtain ⟨kcm, -, hmid⟩ := keyAt_around
    (fun h => by obtain ⟨a, b, c, e, -⟩ := h0 h; exact ⟨a, b, c, e⟩)
    (fun h => by obtain ⟨a, b, c, d, e, -, -, e2⟩ := h1 h; exact ⟨a, b, c, d, e, e2⟩)
  cases node with
  | leaf ln =>
    cases ps with
    | internal _ => simp [Page.IsLeafPage] at hkind
    | leaf ls =>
      have hlen : 2 ≤ ls.array.length := by
        have : (2 : Int) ≤ ls.array.length := hm
        exact_mod_cast this
      have hp1 : t.pages ln.parent_page_id = some (.internal pn) := hp
      have hpa1 : ln.parent_page_id ≠ node_id := hpa
      have hpb1 : ln.parent_page_id ≠ s := hpb
      by_cases hi : index = 0
      · subst hi
        obtain ⟨x, y, rest, hls⟩ := list_two_of_length _ hlen
        refine ⟨_, .leaf { ln with array := ln.array ++ [x] },
          .leaf { ls with array := y :: rest }, y.1,
          Redistribute_leaf_first_eq hnode hsib hp1 hls, ?_, ?_, ?_, ⟨rfl, rfl, rfl, rfl⟩,
          ⟨rfl, rfl, rfl, rfl⟩, ?_, fun h => absurd rfl h⟩
        · simp only [BPlusTree.write_pages, Pool.write_apply, if_neg (Ne.symm hpa1), if_true]
        · simp only [BPlusTree.write_pages, Pool.write_apply, if_neg (Ne.symm hpb1),
            if_neg (Ne.symm hne), if_true]
        · simp only [BPlusTree.write_pages, Pool.write_apply]
          rw [if_pos (show (Page.leaf ln).GetParentPageId = ln.parent_page_id from rfl)]
          rfl
        · intro _
          exact ⟨x, hls, rfl, Or.inl ⟨rfl, rfl⟩⟩
      · obtain ⟨init, z, hls, -, -⟩ := list_last_split ls.array (by
          intro h; rw [h] at hlen; simp at hlen)
        refine ⟨_, .leaf { ln with array := z :: ln.array },
          .leaf { ls with array := init }, z.1,
          Redistribute_leaf_last_eq hnode hsib hp1 hi hls, ?_, ?_, ?_, ⟨rfl, rfl, rfl, rfl⟩,
          ⟨rfl, rfl, rfl, rfl⟩, fun h => absurd h hi, ?_⟩
        · simp only [BPlusTree.write_pages, Pool.write_apply, if_neg (Ne.symm hpa1), if_true]
        · simp only [BPlusTree.write_pages, Pool.write_apply, if_neg (Ne.symm hpb1),
            if_neg (Ne.symm hne), if_true]
        · simp only [BPlusTree.write_pages, Pool.write_apply]
          rw [if_pos (show (Page.leaf ln).GetParentPageId = ln.parent_page_id from rfl),
            if_neg hi]
        · intro _
          exact ⟨z, hls, rfl, Or.inl ⟨rfl, rfl⟩⟩
  | internal nn =>
    cases ps with
    | leaf _ => simp [Page.IsLeafPage] at hkind
    | internal ns =>
      have hlen : 2 ≤ ns.array.length := by
        have : (2 : Int) ≤ ns.array.length := hm
        exact_mod_cast this
      have hp1 : t.pages nn.parent_page_id = some (.internal pn) := hp
      have hpa1 : nn.parent_page_id ≠ node_id := hpa
      have hpb1 : nn.parent_page_id ≠ s := hpb
      by_cases hi : index = 0
      · subst hi
        obtain ⟨x, y, rest, hns⟩ := list_two_of_length _ hlen
        have hmid1 : pn.KeyAt 1 = some kcm.1 := hmid
        have hM : x.2 ≠ s ∧ x.2 ≠ node_id ∧ ∃ pg, t.pages x.2 = some pg := by
          obtain ⟨a1, a2, a3⟩ := hkids x.2 (Or.inr (by simp [Page.children, hns]))
          exact ⟨a2, a1, a3⟩
        obtain ⟨t1, hr, -, -, -, -, hform⟩ :=
          Redistribute_internal_first_form hnode hsib hp1 hns hmid1 hM
        refine ⟨t1, .internal { nn with array := nn.array ++ [(kcm.1, x.2)] },
          .internal { ns with array := y :: rest }, y.1, hr, ?_, ?_, ?_, ⟨rfl, rfl, rfl, rfl⟩,
          ⟨rfl, rfl, rfl, rfl⟩, ?_, fun h => absurd rfl h⟩
        · rw [hform, if_neg (Ne.symm hpa1), if_pos rfl]
        · rw [hform, if_neg (Ne.symm hpb1), if_neg (Ne.symm hne), if_pos rfl]
        · rw [hform]
          show (if nn.parent_page_id = nn.parent_page_id then _ else _) = _
          rw [if_pos rfl]
          rfl
        · intro _
          exact ⟨x, hns, rfl, Or.inr ⟨rfl, kcm.1, hmid1, rfl⟩⟩
      · obtain ⟨init, z, hns, -, -⟩ := list_last_split ns.array (by
          intro h; rw [h] at hlen; simp at hlen)
        have hmid1 : pn.KeyAt index = some kcm.1 := by rw [if_neg hi] at hmid; exact hmid
        have hM : z.2 ≠ s ∧ z.2 ≠ node_id ∧ ∃ pg, t.pages z.2 = some pg := by
          obtain ⟨a1, a2, a3⟩ := hkids z.2 (Or.inr (by simp [Page.children, hns]))
          exact ⟨a2, a1, a3⟩
        obtain ⟨t1, hr, -, -, -, -, hform⟩ :=
          Redistribute_internal_last_form hnode hsib hp1 hi hns hmid1 hM
        refine ⟨t1, .internal { nn with array := z :: InternalPage.setKeyAt nn.array 0 kcm.1 },
          .internal { ns with array := init }, z.1, hr, ?_, ?_, ?_, ⟨rfl, rfl, rfl, rfl⟩,
          ⟨rfl, rfl, rfl, rfl⟩, fun h => absurd h hi, ?_⟩
        · rw [hform, if_neg (Ne.symm hpa1), if_pos rfl]
        · rw [hform, if_neg (Ne.symm hpb1), if_neg (Ne.symm hne), if_pos rfl]
        · rw [hform]
          show (if nn.parent_page_id = nn.parent_page_id then _ else _) = _
          rw [if_pos rfl, if_neg hi]
        · intro _
          exact ⟨z, hns, rfl, Or.inr ⟨rfl, kcm.1, hmid1, rfl⟩⟩

theorem Page.getSize_entries (pg : Page) : pg.GetSize = (pg.entries.length : Int) := by
  cases pg <;> rfl

theorem Page.SameHeader.minSize {pg pg1 : Page} (h : pg.SameHeader pg1) :
    pg1.GetMinSize = pg.GetMinSize := by
  obtain ⟨-, -, h3, h4⟩ := h
  cases pg <;> cases pg1 <;> simp [Page.IsLeafPage] at h3 <;>
    simp only [Page.GetMaxSize] at h4 <;>
    simp only [Page.GetMinSize, LeafPage.GetMinSize, InternalPage.GetMinSize, h4]

theorem Page.SameHeader.capacity {pg pg1 : Page} (h : pg.SameHeader pg1) (t : BPlusTree) :
    t.maxSize pg1 = t.maxSize pg := by
  simp only [BPlusTree.maxSize, h.2.2.1]

theorem keyAt_setKeyAt :
    ∀ (arr : List (Int × Int)) (i : Nat) (k : Int) (x : Int × Int), arr.get? i = some x →
      (InternalPage.setKeyAt arr i k).get? i = some (k, x.2) := by
  intro arr
  induction arr with
  | nil => intro i k x h; simp at h
  | cons kc rest ih =>
    intro i k x h
    cases i with
    | zero =>
      simp only [List.get?_cons_zero, Option.some.injEq] at h
      subst h
      rfl
    | succ j =>
      simp only [List.get?_cons_succ] at h
      simp only [InternalPage.setKeyAt, List.get?_cons_succ]
      exact ih j k x h

/-! ## Trees built by insertion, as values -/

theorem built_inv (L I : Int) (kvs : List (Int × Int)) (hne : kvs ≠ []) :
    ∃ g, Inv (built L I kvs) g := by
  obtain ⟨t, bs, -, hb, -, hinv, -, -⟩ := build_ok L I kvs
  obtain ⟨g, hg, -⟩ := hinv hne
  refine ⟨g, ?_⟩
  simp only [built, hb]
  exact hg

theorem built_sz (L I : Int) (kvs : List (Int × Int)) (hI : 3 ≤ I) :
    SzInv (built L I kvs) ∧ (built L I kvs).leaf_max_size = L ∧
      (built L I kvs).internal_max_size = I := by
  obtain ⟨t, bs, hall, hb, -, -, -, -⟩ := build_ok L I kvs
  have := InsertAll_sz kvs (BPlusTree.new L I) t bs (SzInv.ofNew L I) hI hall
  simp only [built, hb]
  exact this

/-- The tree of `build` with the entries of one leaf replaced has the shape `Shape`, that
leaf being the page that may be under-full. -/
theorem built_shape (L I : Int) (kvs : List (Int × Int)) (hne : kvs ≠ []) (hI : 3 ≤ I)
    {q : Int} {l : LeafPage} (arr : List (Int × Int))
    (hq : (built L I kvs).pages q = some (.leaf l)) :
    ∃ lvl, Shape ((built L I kvs).write q (.leaf { l with array := arr })) lvl
      (fun _ => False) q := by
  obtain ⟨g, hg⟩ := built_inv L I kvs hne
  exact ⟨g.lvl, Inv.toShape hg (built_sz L I kvs hI).1 hq ⟨rfl, rfl, rfl, rfl⟩⟩

/-- The tree of `build` with some entries of one leaf removed is well-formed, as long as the
leaf keeps an entry. -/
theorem built_inv_write (L I : Int) (kvs : List (Int × Int)) (hne : kvs ≠ [])
    {q : Int} {l : LeafPage} (arr : List (Int × Int))
    (hq : (built L I kvs).pages q = some (.leaf l)) (harr : arr ≠ [])
    (hsub : arr.Sublist l.array) :
    ∃ g, Inv ((built L I kvs).write q (.leaf { l with array := arr })) g := by
  obtain ⟨g, hg⟩ := built_inv L I kvs hne
  obtain ⟨-, -, hsorted, hrange, -, -⟩ := hg.leafOK q l hq
  exact ⟨g, Inv.writeLeaf hg hq rfl rfl rfl harr (hsorted.sublist hsub)
    (fun kv hkv => hrange kv (hsub.subset hkv))⟩

/-! ## Rotation of an entry between two adjacent pages -/

theorem Ghost.setSep_lvl (g : Ghost) (a b k : Int) : (g.setSep a b k).lvl = g.lvl := rfl

theorem Ghost.setSep_pos (g : Ghost) (a b k : Int) : (g.setSep a b k).pos = g.pos := rfl

theorem Ghost.setSep_lo (g : Ghost) (a b k x : Int) :
    (g.setSep a b k).lo x = if x = b then some k else g.lo x := rfl

theorem Ghost.setSep_hi (g : Ghost) (a b k x : Int) :
    (g.setSep a b k).hi x = if x = a then some k else g.hi x := rfl

theorem Chain.setLast {P P1 : Int → Option Int → Option Int → Prop} {a : Int}
    {u u1 : Option Int} :
    ∀ (r0 : List (Int × Int)) (c : Int) (lo : Option Int), Chain P c lo r0 u →
      (c :: r0.map Prod.snd).getLast? = some a → (c :: r0.map Prod.snd).Nodup →
      (∀ d l v, d ∈ c :: r0.map Prod.snd → d ≠ a → P d l v → P1 d l v) →
      (∀ l, P a l u → P1 a l u1) → Chain P1 c lo r0 u1
  | [], c, lo, hc, hl, _, _, h2 => by
    simp only [List.map_nil, List.getLast?_singleton, Option.some.injEq] at hl
    subst hl
    exact h2 lo hc
  | kc :: r, c, lo, hc, hl, hnd, h1, h2 => by
    have hl1 : (kc.2 :: r.map Prod.snd).getLast? = some a := by
      simpa [List.getLast?_cons_cons] using hl
    have hmem : a ∈ kc.2 :: r.map Prod.snd := List.mem_of_getLast?_eq_some hl1
    simp only [List.map_cons, List.nodup_cons] at hnd
    have hca : c ≠ a := by
      intro h; subst h
      exact hnd.1 hmem
    refine ⟨h1 c lo _ (by simp) hca hc.1,
      Chain.setLast r kc.2 _ hc.2 hl1 (List.nodup_cons.2 hnd.2) ?_ h2⟩
    intro d l v hd
    exact h1 d l v (by simp only [List.map_cons]; exact List.mem_cons_of_mem _ hd)

theorem Chain.setFirst {P P1 : Int → Option Int → Option Int → Prop} {b : Int}
    {lo lo1 : Option Int} :
    ∀ (post : List (Int × Int)) (u : Option Int), Chain P b lo post u →
      (∀ d l v, d ∈ post.map Prod.snd → P d l v → P1 d l v) →
      (∀ v, P b lo v → P1 b lo1 v) → Chain P1 b lo1 post u
  | [], u, hc, _, h2 => h2 u hc
  | kc :: r, u, hc, h1, h2 =>
    ⟨h2 _ hc.1, hc.2.mono (fun d l v hd hP => h1 d l v (by simpa using hd) hP)⟩

theorem setKeyAt_split (pre : List (Int × Int)) (ka kb : Int × Int) (post : List (Int × Int))
    (k : Int) :
    InternalPage.setKeyAt (pre ++ ka :: kb :: post) (pre.length + 1) k =
      pre ++ ka :: (k, kb.2) :: post := by
  induction pre with
  | nil => rfl
  | cons x xs ih =>
    show x :: InternalPage.setKeyAt (xs ++ ka :: kb :: post) (xs.length + 1) k = _
    rw [ih]
    rfl

/-- Moving entries between the adjacent children `a` and `b` of the internal page `p`, with
the separator between them replaced by `k1` and the moved children of `M` re-parented to
`dst`, keeps the tree well-formed, provided the two pages are well-formed for the new bound. -/
theorem Inv.rotate {t t1 : BPlusTree} {g : Ghost} {p a b dst : Int} {pn : InternalPage}
    {pre post : List (Int × Int)} {ka kb : Int × Int} {k1 : Int} {PA PB PA1 PB1 : Page}
    {M : List Int}
    (hinv : Inv t g) (hp : t.pages p = some (.internal pn))
    (harr : pn.array = pre ++ ka :: kb :: post) (hka : ka.2 = a) (hkb : kb.2 = b)
    (ha : t.pages a = some PA) (hb : t.pages b = some PB)
    (hroot : t1.root_page_id = t.root_page_id) (hnext : t1.next_page_id = t.next_page_id)
    (hp1 : t1.pages p = some (.internal { pn with array := pre ++ ka :: (k1, b) :: post }))
    (ha1 : t1.pages a = some PA1) (hb1 : t1.pages b = some PB1)
    (hother : ∀ x, x ≠ p → x ≠ a → x ≠ b →
      t1.pages x = (t.pages x).map (fun pg => if x ∈ M then pg.SetParentPageId dst else pg))
    (hha : PA.SameHeader PA1) (hhb : PB.SameHeader PB1)
    (hM : ∀ c ∈ M, c ≠ p ∧ c ≠ a ∧ c ≠ b ∧ c ≠ t.root_page_id ∧
      (∀ q n, t.pages q = some (.internal n) → c ∈ n.array.map Prod.snd → q = a ∨ q = b) ∧
      ∃ n, t1.pages dst = some (.internal n) ∧ c ∈ n.array.map Prod.snd)
    (hkeepA : ∀ c ∈ PA.children, c ∉ M → c ∈ PA1.children)
    (hkeepB : ∀ c ∈ PB.children, c ∉ M → c ∈ PB1.children)
    (hokAl : ∀ l, PA1 = .leaf l → LeafOK t1.pages (g.setSep a b k1) a l)
    (hokAn : ∀ n, PA1 = .internal n → InternalOK t1.pages (g.setSep a b k1) a n)
    (hokBl : ∀ l, PB1 = .leaf l → LeafOK t1.pages (g.setSep a b k1) b l)
    (hokBn : ∀ n, PB1 = .internal n → InternalOK t1.pages (g.setSep a b k1) b n)
    (hk1 : PA.IsLeafPage = true → InRange (g.lo a) (g.hi b) k1) :
    Inv t1 (g.setSep a b k1) := by
  have hokp := hinv.internalOK p pn hp
  obtain ⟨h, kc, rest, hlvlp, harr0, hch, hnd⟩ := hokp
  have hain : a ∈ pn.array.map Prod.snd := by rw [harr]; simp [hka]
  have hbin : b ∈ pn.array.map Prod.snd := by rw [harr]; simp [hkb]
  obtain ⟨PA0, -, -, ea1, ea2, ea3, -, -⟩ := (hinv.internalOK p pn hp).child_exists hain
  rw [ha] at ea1; cases ea1
  obtain ⟨PB0, -, -, eb1, eb2, eb3, -, -⟩ := (hinv.internalOK p pn hp).child_exists hbin
  rw [hb] at eb1; cases eb1
  have hpa : p ≠ a := by intro e; rw [← e] at ea3; omega
  have hpb : p ≠ b := by intro e; rw [← e] at eb3; omega
  have hab : a ≠ b := by
    intro e
    rw [harr, List.map_append, List.map_cons, List.map_cons, hka, hkb, e] at hnd
    have := (List.nodup_append.1 hnd).2.1
    simp at this
  have hp0 : 0 < p := (hinv.ids p _ hp).1
  have hsl : g.hi a = some kb.1 ∧ g.lo b = some kb.1 := by
    have h1 : (kc :: rest).get? pre.length = some ka := by
      rw [← harr0, harr]; exact get?_split pre ka (kb :: post)
    have h2 : (kc :: rest).get? (pre.length + 1) = some kb := by
      rw [← harr0, harr]
      have := get?_split (pre ++ [ka]) kb post
      simpa using this
    have := Chain.slot pre.length ka kb hch h1 h2
    rw [hka, hkb] at this
    exact this
  have hf : ∀ x : Int, ∀ pg : Page,
      (fun pg : Page => if x ∈ M then pg.SetParentPageId dst else pg) pg = pg ∨
      ∃ a, (fun pg : Page => if x ∈ M then pg.SetParentPageId dst else pg) pg =
        pg.SetParentPageId a := by
    intro x pg
    by_cases h1 : x ∈ M
    · right; exact ⟨dst, by simp only [h1, if_true]⟩
    · left; simp only [h1, if_false]
  have hsome0 : ∀ x pg1, t1.pages x = some pg1 → ∃ pg0, t.pages x = some pg0 ∧
      pg1.GetPageId = pg0.GetPageId ∧ pg1.IsLeafPage = pg0.IsLeafPage ∧
      (x ∉ M → pg1.GetParentPageId = pg0.GetParentPageId) ∧
      (x ∈ M → pg1.GetParentPageId = dst) := by
    intro x pg1 hx
    by_cases e1 : x = p
    · rw [e1] at hx ⊢
      rw [hp1] at hx; cases hx
      exact ⟨_, hp, rfl, rfl, fun _ => rfl, fun hm => absurd rfl (hM p hm).1⟩
    by_cases e2 : x = a
    · rw [e2] at hx ⊢
      rw [ha1] at hx; cases hx
      exact ⟨_, ha, hha.1, hha.2.2.1, fun _ => hha.2.1, fun hm => absurd rfl (hM a hm).2.1⟩
    by_cases e3 : x = b
    · rw [e3] at hx ⊢
      rw [hb1] at hx; cases hx
      exact ⟨_, hb, hhb.1, hhb.2.2.1, fun _ => hhb.2.1, fun hm => absurd rfl (hM b hm).2.2.1⟩
    rw [hother x e1 e2 e3] at hx
    cases hpg : t.pages x with
    | none => simp [hpg] at hx
    | some pg0 =>
      simp only [hpg, Option.map_some', Option.some.injEq] at hx
      refine ⟨pg0, rfl, ?_, ?_, ?_, ?_⟩
      · rw [← hx]; split
        · exact Page.getPageId_setParent _ _
        · rfl
      · rw [← hx]; split
        · exact Page.isLeaf_setParent _ _
        · rfl
      · intro hm; rw [← hx, if_neg hm]
      · intro hm; rw [← hx, if_pos hm]; exact Page.getParent_setParent _ _
  have hpars : ∀ c, c ∉ M →
      (t1.pages c).map Page.GetParentPageId = (t.pages c).map Page.GetParentPageId := by
    intro c hc
    by_cases e1 : c = p
    · rw [e1, hp1, hp]; rfl
    by_cases e2 : c = a
    · rw [e2, ha1, ha]; simp only [Option.map_some', hha.2.1]
    by_cases e3 : c = b
    · rw [e3, hb1, hb]; simp only [Option.map_some', hhb.2.1]
    rw [hother c e1 e2 e3]
    cases t.pages c with
    | none => rfl
    | some pg => simp only [Option.map_some', if_neg hc]
  have hleafex : ∀ x lx, t.pages x = some (.leaf lx) → ∃ ly, t1.pages x = some (.leaf ly) := by
    intro x lx hx
    by_cases e1 : x = p
    · rw [e1, hp] at hx; cases hx
    by_cases e2 : x = a
    · rw [e2] at hx ⊢
      rw [ha] at hx; cases hx
      cases PA1 with
      | leaf ly => exact ⟨ly, ha1⟩
      | internal n => have := hha.2.2.1; simp [Page.IsLeafPage] at this
    by_cases e3 : x = b
    · rw [e3] at hx ⊢
      rw [hb] at hx; cases hx
      cases PB1 with
      | leaf ly => exact ⟨ly, hb1⟩
      | internal n => have := hhb.2.2.1; simp [Page.IsLeafPage] at this
    obtain ⟨l1, hl1, -⟩ := reparented_leaf2 (hf x) (hother x e1 e2 e3) hx
    exact ⟨l1, hl1⟩
  have hleaf0 : ∀ x lx, t1.pages x = some (.leaf lx) → ∃ ly, t.pages x = some (.leaf ly) := by
    intro x lx hx
    obtain ⟨pg0, h0, -, h2, -⟩ := hsome0 x _ hx
    cases pg0 with
    | leaf ly => exact ⟨ly, h0⟩
    | internal n => simp [Page.IsLeafPage] at h2
  -- a leaf other than `a` does not point to `b`
  have hnb : ∀ q l0, t.pages q = some (.leaf l0) → q ≠ a → l0.next_page_id ≠ b := by
    intro q l0 hq hqa hnx
    obtain ⟨-, hne, -, hrange, -, h6⟩ := hinv.leafOK q l0 hq
    have hb0 : 0 < b := (hinv.ids b _ hb).1
    have hninv : l0.next_page_id ≠ INVALID_PAGE_ID := by
      rw [hnx]; unfold INVALID_PAGE_ID; omega
    obtain ⟨l2, bb, e1, e2, e3, -⟩ := h6 hninv
    rw [hnx] at e1 e3
    rw [hsl.2] at e3
    cases e3
    rw [hb] at e1
    cases e1
    have hlb : g.lvl b = 0 := (hinv.leafOK b l2 hb).1
    cases PA with
    | internal n =>
      obtain ⟨h', -, -, e, -⟩ := hinv.internalOK a n ha
      omega
    | leaf la =>
      obtain ⟨-, hnea, -, hrangea, -, -⟩ := hinv.leafOK a la ha
      obtain ⟨e, he⟩ := List.exists_mem_of_ne_nil _ hnea
      obtain ⟨e', he'⟩ := List.exists_mem_of_ne_nil _ hne
      have r1 := hrangea e he
      have r2 := hrange e' he'
      have r1b := r1.2 _ hsl.1
      have r2b := r2.2 _ e2
      refine hqa (hinv.leafUniq q a l0 la (max e.1 e'.1) hq ha ⟨?_, ?_⟩ ⟨?_, ?_⟩)
      · intro x hx; have := r2.1 x hx; omega
      · intro y hy; rw [e2] at hy; cases hy; omega
      · intro x hx; have := r1.1 x hx; omega
      · intro y hy; rw [hsl.1] at hy; cases hy; omega
  -- the page that was responsible for a key
  have howner : ∀ q l k, t1.pages q = some (.leaf l) →
      InRange ((g.setSep a b k1).lo q) ((g.setSep a b k1).hi q) k →
      (q ≠ a ∧ q ≠ b ∧ InRange (g.lo q) (g.hi q) k) ∨
      ((q = a ∨ q = b) ∧ (InRange (g.lo a) (g.hi a) k ∨ InRange (g.lo b) (g.hi b) k) ∧
        (q = a → k < k1) ∧ (q = b → k1 ≤ k)) := by
    intro q l k hq hr
    rw [Ghost.setSep_lo, Ghost.setSep_hi] at hr
    by_cases e2 : q = a
    · right
      rw [e2] at hq hr
      rw [if_neg hab, if_pos rfl] at hr
      obtain ⟨pg0, h0, -, h2, -⟩ := hsome0 a _ hq
      rw [ha] at h0; cases h0
      have hkk := hk1 h2.symm
      have hlt : k < k1 := hr.2 _ rfl
      refine ⟨Or.inl e2, ?_, fun _ => hlt, fun e => absurd (e2.symm.trans e) hab⟩
      by_cases hc : k < kb.1
      · left; exact ⟨hr.1, fun y hy => by rw [hsl.1] at hy; cases hy; exact hc⟩
      · right
        exact ⟨fun x hx => by rw [hsl.2] at hx; cases hx; omega,
          fun y hy => by have := hkk.2 y hy; omega⟩
    by_cases e3 : q = b
    · right
      rw [e3] at hq hr
      rw [if_pos rfl, if_neg (Ne.symm hab)] at hr
      obtain ⟨pg0, h0, -, h2, -⟩ := hsome0 b _ hq
      rw [hb] at h0; cases h0
      have hla : PA.IsLeafPage = true := by
        have hlb : g.lvl b = 0 := by
          cases hPB : PB with
          | leaf lb => rw [hPB] at hb; exact (hinv.leafOK b lb hb).1
          | internal n => rw [hPB] at h2; simp [Page.IsLeafPage] at h2
        cases PA with
        | leaf la => rfl
        | internal n =>
          obtain ⟨h', -, -, e, -⟩ := hinv.internalOK a n ha
          omega
      have hkk := hk1 hla
      have hge : k1 ≤ k := hr.1 _ rfl
      refine ⟨Or.inr e3, ?_, fun e => absurd (e.symm.trans e3) hab,
        fun _ => hge⟩
      by_cases hc : k < kb.1
      · left
        exact ⟨fun x hx => by have := hkk.1 x hx; omega,
          fun y hy => by rw [hsl.1] at hy; cases hy; exact hc⟩
      · right
        exact ⟨fun x hx => by rw [hsl.2] at hx; cases hx; omega, hr.2⟩
    · left
      rw [if_neg e3, if_neg e2] at hr
      exact ⟨e2, e3, hr⟩
  refine
    { ids := ?_, pid := ?_, leafOK := ?_, leafUniq := ?_, lvlRoot := ?_, fuel := ?_,
      pos := ?_, rootPage := ?_, internalOK := ?_, listed := ?_, rootHi := ?_ }
  · intro x pg hx
    obtain ⟨pg0, h0, -⟩ := hsome0 x pg hx
    rw [hnext]
    exact hinv.ids x pg0 h0
  · intro x pg hx
    obtain ⟨pg0, h0, h1, -⟩ := hsome0 x pg hx
    exact h1.trans (hinv.pid x pg0 h0)
  · intro q l hq
    by_cases e1 : q = p
    · rw [e1, hp1] at hq; cases hq
    by_cases e2 : q = a
    · rw [e2] at hq ⊢
      rw [ha1] at hq
      exact hokAl l (Option.some.inj hq)
    by_cases e3 : q = b
    · rw [e3] at hq ⊢
      rw [hb1] at hq
      exact hokBl l (Option.some.inj hq)
    obtain ⟨l0, h0, e4, e5⟩ := reparented_leaf (hf q) (hother q e1 e2 e3) hq
    refine (hinv.leafOK q l0 h0).congrLeaf e4 e5
      (show (g.setSep a b k1).lvl q = g.lvl q from rfl) ?_ ?_ ?_
    · rw [Ghost.setSep_lo, if_neg e3]
    · rw [Ghost.setSep_hi, if_neg e2]
    · intro l2 hl2
      exact ⟨hleafex _ _ hl2, by rw [Ghost.setSep_lo, if_neg (hnb q l0 h0 e2)], id⟩
  · intro q q1 l l1 k hq hq1 hr hr1
    obtain ⟨ly, hy⟩ := hleaf0 q l hq
    obtain ⟨ly1, hy1⟩ := hleaf0 q1 l1 hq1
    rcases howner q l k hq hr with ⟨n1, n2, r⟩ | ⟨m1, r, c1, c2⟩
    · rcases howner q1 l1 k hq1 hr1 with ⟨n3, n4, r1⟩ | ⟨m2, r1, c3, c4⟩
      · exact hinv.leafUniq q q1 ly ly1 k hy hy1 r r1
      · exfalso
        have hla : ∃ la, t.pages a = some (.leaf la) := by
          rcases m2 with e | e
          · rw [e] at hy1; exact ⟨_, hy1⟩
          · rw [e] at hy1
            have hlb : g.lvl b = 0 := (hinv.leafOK b ly1 hy1).1
            cases PA with
            | leaf la => exact ⟨la, ha⟩
            | internal n =>
              obtain ⟨h', -, -, e, -⟩ := hinv.internalOK a n ha
              omega
        have hlb : ∃ lb, t.pages b = some (.leaf lb) := by
          rcases m2 with e | e
          · rw [e] at hy1
            have hlb : g.lvl a = 0 := (hinv.leafOK a ly1 hy1).1
            cases PB with
            | leaf lb => exact ⟨lb, hb⟩
            | internal n =>
              obtain ⟨h', -, -, e, -⟩ := hinv.internalOK b n hb
              omega
          · rw [e] at hy1; exact ⟨_, hy1⟩
        obtain ⟨la, hla⟩ := hla
        obtain ⟨lb, hlb⟩ := hlb
        rcases r1 with r1 | r1
        · exact n1 (hinv.leafUniq q a ly la k hy hla r r1)
        · exact n2 (hinv.leafUniq q b ly lb k hy hlb r r1)
    · rcases howner q1 l1 k hq1 hr1 with ⟨n3, n4, r1⟩ | ⟨m2, r1, c3, c4⟩
      · exfalso
        have hla : ∃ la, t.pages a = some (.leaf la) := by
          rcases m1 with e | e
          · rw [e] at hy; exact ⟨_, hy⟩
          · rw [e] at hy
            have hlb : g.lvl b = 0 := (hinv.leafOK b ly hy).1
            cases PA with
            | leaf la => exact ⟨la, ha⟩
            | internal n =>
              obtain ⟨h', -, -, e, -⟩ := hinv.internalOK a n ha
              omega
        have hlb : ∃ lb, t.pages b = some (.leaf lb) := by
          rcases m1 with e | e
          · rw [e] at hy
            have hlb : g.lvl a = 0 := (hinv.leafOK a ly hy).1
            cases PB with
            | leaf lb => exact ⟨lb, hb⟩
            | internal n =>
              obtain ⟨h', -, -, e, -⟩ := hinv.internalOK b n hb
              omega
          · rw [e] at hy; exact ⟨_, hy⟩
        obtain ⟨la, hla⟩ := hla
        obtain ⟨lb, hlb⟩ := hlb
        rcases r with r | r
        · exact n3 (hinv.leafUniq q1 a ly1 la k hy1 hla r1 r)
        · exact n4 (hinv.leafUniq q1 b ly1 lb k hy1 hlb r1 r)
      · rcases m1 with e | e <;> rcases m2 with e' | e'
        · rw [e, e']
        · have := c1 e; have := c4 e'; omega
        · have := c2 e; have := c3 e'; omega
        · rw [e, e']
  · intro x pg hx
    obtain ⟨pg0, h0, -⟩ := hsome0 x pg hx
    rw [hroot]
    exact hinv.lvlRoot x pg0 h0
  · rw [hroot, hnext]; exact hinv.fuel
  · intro x lx hx
    obtain ⟨ly, h0⟩ := hleaf0 x lx hx
    rw [hnext]
    exact hinv.pos x ly h0
  · obtain ⟨pg, h1, h2, h3⟩ := hinv.rootPage
    have hrM : t.root_page_id ∉ M := fun hm => (hM _ hm).2.2.2.1 rfl
    have hrb : t.root_page_id ≠ b := by
      intro e
      rw [e, hb] at h1
      cases h1
      rw [eb2] at h2
      unfold INVALID_PAGE_ID at h2
      omega
    have := hpars t.root_page_id hrM
    rw [h1] at this
    rw [hroot]
    cases hpg : t1.pages t.root_page_id with
    | none => simp [hpg] at this
    | some pg1 =>
      simp only [hpg, Option.map_some', Option.some.injEq] at this
      exact ⟨pg1, rfl, this.trans h2, by rw [Ghost.setSep_lo, if_neg hrb]; exact h3⟩
  · intro q n hq
    by_cases e1 : q = p
    · rw [e1] at hq ⊢
      rw [hp1] at hq
      cases hq
      -- the parent: the chain is cut between `a` and `b`
      have hsplit : ∃ r0, pre ++ [ka] = kc :: r0 ∧ rest = r0 ++ kb :: post := by
        cases pre with
        | nil =>
          rw [harr] at harr0
          simp only [List.nil_append, List.cons.injEq] at harr0
          exact ⟨[], by simp [harr0.1], by simp [harr0.2]⟩
        | cons x xs =>
          rw [harr] at harr0
          simp only [List.cons_append, List.cons.injEq] at harr0
          exact ⟨xs ++ [ka], by simp [harr0.1], by rw [← harr0.2]; simp⟩
      obtain ⟨r0, hr0, hrest⟩ := hsplit
      rw [hrest] at hch
      obtain ⟨c1, c2⟩ := Chain.append.1 hch
      have hchildren : (pre ++ ka :: (k1, b) :: post).map Prod.snd = pn.array.map Prod.snd := by
        rw [harr]; simp [hkb]
      have hleft : kc.2 :: r0.map Prod.snd = (pre ++ [ka]).map Prod.snd := by
        rw [hr0]; rfl
      have hnd1 : ((pre ++ [ka]).map Prod.snd ++ (kb :: post).map Prod.snd).Nodup := by
        rw [← List.map_append]
        have : pre ++ [ka] ++ kb :: post = pn.array := by rw [harr]; simp
        rw [this]; exact hnd
      have hnew : pre ++ ka :: (k1, b) :: post = kc :: (r0 ++ (k1, b) :: post) := by
        have : pre ++ ka :: (k1, b) :: post = (pre ++ [ka]) ++ (k1, b) :: post := by simp
        rw [this, hr0]; rfl
      refine ⟨h, kc, r0 ++ (k1, b) :: post, hlvlp, hnew, ?_, by
        show ((pre ++ ka :: (k1, b) :: post).map Prod.snd).Nodup
        rw [hchildren]; exact hnd⟩
      rw [Ghost.setSep_lo, Ghost.setSep_hi, if_neg hpb, if_neg hpa]
      refine Chain.append.2 ⟨?_, ?_⟩
      · refine @Chain.setLast _ _ a _ _ r0 kc.2 _ c1 ?_ ?_ ?_ ?_
        · rw [hleft]; simp [hka]
        · rw [hleft]; exact (List.nodup_append.1 hnd1).1
        · intro d l v hd hda hc
          have hdM : d ∉ M := by
            intro hm
            have hdin : d ∈ pn.array.map Prod.snd := by
              rw [hleft] at hd
              have : pn.array = (pre ++ [ka]) ++ kb :: post := by rw [harr]; simp
              rw [this, List.map_append]
              exact List.mem_append_left _ hd
            rcases (hM d hm).2.2.2.2.1 p pn hp hdin with e | e
            · exact hpa e
            · exact hpb e
          have hdb : d ≠ b := by
            intro e
            rw [hleft] at hd
            have := (List.nodup_append.1 hnd1).2.2
            exact this hd (by rw [e]; simp [hkb])
          exact hc.congrChild (hpars d hdM)
            (show (g.setSep a b k1).lvl d = g.lvl d from rfl) (by rw [Ghost.setSep_lo, if_neg hdb])
            (by rw [Ghost.setSep_hi, if_neg hda])
        · intro l hc
          obtain ⟨pg, f1, f2, f3, f4, -⟩ := hc
          rw [ha] at f1; cases f1
          exact ⟨PA1, ha1, hha.2.1.trans f2, f3, by rw [Ghost.setSep_lo, if_neg hab]; exact f4,
            by rw [Ghost.setSep_hi, if_pos rfl]⟩
      · show Chain _ b (some k1) post _
        rw [hkb] at c2
        refine Chain.setFirst post _ c2 ?_ ?_
        · intro d l v hd hc
          have hdin : d ∈ pn.array.map Prod.snd := by
            rw [harr]; simp only [List.map_append, List.map_cons, List.mem_append,
              List.mem_cons]
            exact Or.inr (Or.inr (Or.inr hd))
          have hdM : d ∉ M := by
            intro hm
            rcases (hM d hm).2.2.2.2.1 p pn hp hdin with e | e
            · exact hpa e
            · exact hpb e
          have hnd2 := hnd
          rw [harr] at hnd2
          simp only [List.map_append, List.map_cons, hka, hkb] at hnd2
          have hnd3 := (List.nodup_append.1 hnd2).2.1
          simp only [List.nodup_cons, List.mem_cons, not_or] at hnd3
          have hda : d ≠ a := fun e => hnd3.1.2 (e ▸ hd)
          have hdb : d ≠ b := fun e => hnd3.2.1 (e ▸ hd)
          exact hc.congrChild (hpars d hdM)
            (show (g.setSep a b k1).lvl d = g.lvl d from rfl) (by rw [Ghost.setSep_lo, if_neg hdb])
            (by rw [Ghost.setSep_hi, if_neg hda])
        · intro v hc
          obtain ⟨pg, f1, f2, f3, -, f5⟩ := hc
          rw [hb] at f1; cases f1
          exact ⟨PB1, hb1, hhb.2.1.trans f2, f3, by rw [Ghost.setSep_lo, if_pos rfl],
            by rw [Ghost.setSep_hi, if_neg (Ne.symm hab)]; exact f5⟩
    by_cases e2 : q = a
    · rw [e2] at hq ⊢
      rw [ha1] at hq
      exact hokAn n (Option.some.inj hq)
    by_cases e3 : q = b
    · rw [e3] at hq ⊢
      rw [hb1] at hq
      exact hokBn n (Option.some.inj hq)
    obtain ⟨n0, h0, e4⟩ := reparented_internal (hf q) (hother q e1 e2 e3) hq
    refine (hinv.internalOK q n0 h0).congrInternal e4
      (show (g.setSep a b k1).lvl q = g.lvl q from rfl) ?_ ?_ ?_
    · rw [Ghost.setSep_lo, if_neg e3]
    · rw [Ghost.setSep_hi, if_neg e2]
    · intro c hc
      obtain ⟨pc, -, -, g1, g2, -⟩ := (hinv.internalOK q n0 h0).child_exists hc
      have hcM : c ∉ M := by
        intro hm
        rcases (hM c hm).2.2.2.2.1 q n0 h0 hc with e | e
        · exact e2 e
        · exact e3 e
      have hca : c ≠ a := by
        intro e
        rw [e, ha] at g1; cases g1
        exact e1 (g2.symm.trans ea2)
      have hcb : c ≠ b := by
        intro e
        rw [e, hb] at g1; cases g1
        exact e1 (g2.symm.trans eb2)
      exact ⟨hpars c hcM, (show (g.setSep a b k1).lvl c = g.lvl c from rfl),
        by rw [Ghost.setSep_lo, if_neg hcb],
        by rw [Ghost.setSep_hi, if_neg hca]⟩
  · intro q pg hq hqr
    rw [hroot] at hqr
    obtain ⟨pg0, h0, -, -, k1', k2'⟩ := hsome0 q pg hq
    by_cases hm : q ∈ M
    · rw [k2' hm]
      exact (hM q hm).2.2.2.2.2
    · rw [k1' hm]
      obtain ⟨n0, f1, f2⟩ := hinv.listed q pg0 h0 hqr
      by_cases e1 : pg0.GetParentPageId = p
      · rw [e1] at f1 ⊢
        rw [hp] at f1; cases f1
        refine ⟨_, hp1, ?_⟩
        show q ∈ (pre ++ ka :: (k1, b) :: post).map Prod.snd
        rw [harr] at f2
        simpa [hkb] using f2
      by_cases e2 : pg0.GetParentPageId = a
      · rw [e2] at f1 ⊢
        rw [ha] at f1; cases f1
        have := hkeepA q f2 hm
        cases PA1 with
        | leaf l => simp [Page.children] at this
        | internal n1 => exact ⟨n1, ha1, this⟩
      by_cases e3 : pg0.GetParentPageId = b
      · rw [e3] at f1 ⊢
        rw [hb] at f1; cases f1
        have := hkeepB q f2 hm
        cases PB1 with
        | leaf l => simp [Page.children] at this
        | internal n1 => exact ⟨n1, hb1, this⟩
      obtain ⟨n1, g1, g2⟩ := reparented_internal2 (hf _) (hother _ e1 e2 e3) f1
      exact ⟨n1, g1, by rw [g2]; exact f2⟩
  · have hra : t.root_page_id ≠ a := by
      intro e
      obtain ⟨pg, h1, h2, -⟩ := hinv.rootPage
      rw [e, ha] at h1
      cases h1
      rw [ea2] at h2
      unfold INVALID_PAGE_ID at h2
      omega
    rw [hroot, Ghost.setSep_hi, if_neg hra]
    exact hinv.rootHi

/-- Two adjacent children of an internal page: they differ from one another and from the
parent, sit one level below it, name it as their parent, and the separator between them is
the upper bound of the left one and the lower bound of the right one. -/
theorem Inv.adjacent {t : BPlusTree} {g : Ghost} {p a b : Int} {pn : InternalPage}
    {pre post : List (Int × Int)} {ka kb : Int × Int} {PA PB : Page}
    (hinv : Inv t g) (hp : t.pages p = some (.internal pn))
    (harr : pn.array = pre ++ ka :: kb :: post) (hka : ka.2 = a) (hkb : kb.2 = b)
    (ha : t.pages a = some PA) (hb : t.pages b = some PB) :
    p ≠ a ∧ p ≠ b ∧ a ≠ b ∧ g.hi a = some kb.1 ∧ g.lo b = some kb.1 ∧
      g.lvl a + 1 = g.lvl p ∧ g.lvl b + 1 = g.lvl p ∧ PA.GetParentPageId = p ∧
      PB.GetParentPageId = p := by
  obtain ⟨h, kc, rest, hlvlp, harr0, hch, hnd⟩ := hinv.internalOK p pn hp
  have hain : a ∈ pn.array.map Prod.snd := by rw [harr]; simp [hka]
  have hbin : b ∈ pn.array.map Prod.snd := by rw [harr]; simp [hkb]
  obtain ⟨PA0, -, -, ea1, ea2, ea3, -, -⟩ := (hinv.internalOK p pn hp).child_exists hain
  rw [ha] at ea1; cases ea1
  obtain ⟨PB0, -, -, eb1, eb2, eb3, -, -⟩ := (hinv.internalOK p pn hp).child_exists hbin
  rw [hb] at eb1; cases eb1
  have hpa : p ≠ a := by intro e; rw [← e] at ea3; omega
  have hpb : p ≠ b := by intro e; rw [← e] at eb3; omega
  have hab : a ≠ b := by
    intro e
    rw [harr, List.map_append, List.map_cons, List.map_cons, hka, hkb, e] at hnd
    have := (List.nodup_append.1 hnd).2.1
    simp at this
  have h1 : (kc :: rest).get? pre.length = some ka := by
    rw [← harr0, harr]; exact get?_split pre ka (kb :: post)
  have h2 : (kc :: rest).get? (pre.length + 1) = some kb := by
    rw [← harr0, harr]
    have := get?_split (pre ++ [ka]) kb post
    simpa using this
  have hsl := Chain.slot pre.length ka kb hch h1 h2
  rw [hka, hkb] at hsl
  exact ⟨hpa, hpb, hab, hsl.1, hsl.2, ea3, eb3, ea2, eb2⟩

/-- The leaf whose interval ends where the interval of the leaf `b` begins points to `b`. -/
theorem Inv.nextAdjacent {t : BPlusTree} {g : Ghost} {a b : Int} {la lb : LeafPage} {sep : Int}
    (hinv : Inv t g) (ha : t.pages a = some (.leaf la)) (hb : t.pages b = some (.leaf lb))
    (hhi : g.hi a = some sep) (hlo : g.lo b = some sep) : la.next_page_id = b := by
  obtain ⟨-, -, -, -, n5, n6⟩ := hinv.leafOK a la ha
  have hne : la.next_page_id ≠ INVALID_PAGE_ID := by
    intro e
    rw [n5 e] at hhi
    cases hhi
  obtain ⟨l2, bb, e1, e2, e3, -⟩ := n6 hne
  rw [hhi] at e2
  cases e2
  obtain ⟨-, hne2, -, hr2, -, -⟩ := hinv.leafOK _ l2 e1
  obtain ⟨-, hneb, -, hrb, -, -⟩ := hinv.leafOK b lb hb
  obtain ⟨e, he⟩ := List.exists_mem_of_ne_nil _ hne2
  obtain ⟨e', he'⟩ := List.exists_mem_of_ne_nil _ hneb
  have r1 := hr2 e he
  have r2 := hrb e' he'
  have r1a := r1.1 _ e3
  have r2a := r2.1 _ hlo
  refine hinv.leafUniq _ b l2 lb (min e.1 e'.1) e1 hb ⟨?_, ?_⟩ ⟨?_, ?_⟩
  · intro x hx; rw [e3] at hx; cases hx; omega
  · intro y hy; have := r1.2 y hy; omega
  · intro x hx; rw [hlo] at hx; cases hx; omega
  · intro y hy; have := r2.2 y hy; omega

/-- Replacing the entries of two adjacent leaves by sorted entries that respect a new
separator between them keeps the tree well-formed. -/
theorem Inv.rotateLeaves {t t1 : BPlusTree} {g : Ghost} {p a b : Int} {pn : InternalPage}
    {pre post : List (Int × Int)} {ka kb : Int × Int} {k1 : Int} {la lb : LeafPage}
    {arrA arrB : List (Int × Int)}
    (hinv : Inv t g) (hp : t.pages p = some (.internal pn))
    (harr : pn.array = pre ++ ka :: kb :: post) (hka : ka.2 = a) (hkb : kb.2 = b)
    (ha : t.pages a = some (.leaf la)) (hb : t.pages b = some (.leaf lb))
    (hroot : t1.root_page_id = t.root_page_id) (hnext : t1.next_page_id = t.next_page_id)
    (hpages : ∀ x, t1.pages x =
      if x = p then some (.internal { pn with array := pre ++ ka :: (k1, b) :: post })
      else if x = a then some (.leaf { la with array := arrA })
      else if x = b then some (.leaf { lb with array := arrB }) else t.pages x)
    (hneA : arrA ≠ []) (hsA : arrA.Pairwise (fun x y => x.1 < y.1))
    (hrA : ∀ kv ∈ arrA, InRange (g.lo a) (some k1) kv.1)
    (hneB : arrB ≠ []) (hsB : arrB.Pairwise (fun x y => x.1 < y.1))
    (hrB : ∀ kv ∈ arrB, InRange (some k1) (g.hi b) kv.1) :
    Inv t1 (g.setSep a b k1) := by
  obtain ⟨hpa, hpb, hab, hhia, hlob, -, -, -, -⟩ := hinv.adjacent hp harr hka hkb ha hb
  have hp1 := hpages p
  rw [if_pos rfl] at hp1
  have ha1 := hpages a
  rw [if_neg (Ne.symm hpa), if_pos rfl] at ha1
  have hb1 := hpages b
  rw [if_neg (Ne.symm hpb), if_neg (Ne.symm hab), if_pos rfl] at hb1
  have hb0 : 0 < b := (hinv.ids b _ hb).1
  have hnx := hinv.nextAdjacent ha hb hhia hlob
  obtain ⟨lva, -, -, -, -, a6⟩ := hinv.leafOK a la ha
  obtain ⟨lvb, -, -, -, b5, b6⟩ := hinv.leafOK b lb hb
  have hposab : g.pos a < g.pos b := by
    have hne : la.next_page_id ≠ INVALID_PAGE_ID := by
      rw [hnx]; unfold INVALID_PAGE_ID; omega
    obtain ⟨l2, bb, -, -, -, e4⟩ := a6 hne
    rw [hnx] at e4
    exact e4
  refine @Inv.rotate t t1 g p a b 0 pn pre post ka kb k1 _ _ _ _ [] hinv hp harr hka hkb ha hb
    hroot hnext hp1 ha1 hb1 ?_ ⟨rfl, rfl, rfl, rfl⟩ ⟨rfl, rfl, rfl, rfl⟩ ?_ ?_ ?_ ?_ ?_ ?_ ?_ ?_
  · intro x h1 h2 h3
    rw [hpages x, if_neg h1, if_neg h2, if_neg h3]
    cases t.pages x with
    | none => rfl
    | some pg => simp
  · intro c hc; cases hc
  · intro c hc; simp [Page.children] at hc
  · intro c hc; simp [Page.children] at hc
  · intro l hl
    cases hl
    refine ⟨lva, hneA, hsA, ?_, ?_, ?_⟩
    · rw [Ghost.setSep_lo, Ghost.setSep_hi, if_neg hab, if_pos rfl]
      exact hrA
    · intro e
      change la.next_page_id = INVALID_PAGE_ID at e
      rw [hnx] at e
      unfold INVALID_PAGE_ID at e
      omega
    · intro _
      show ∃ l1 b1, t1.pages la.next_page_id = some (.leaf l1) ∧ _
      rw [hnx]
      exact ⟨_, k1, hb1, by rw [Ghost.setSep_hi, if_pos rfl], by rw [Ghost.setSep_lo, if_pos rfl],
        hposab⟩
  · intro n hn; cases hn
  · intro l hl
    cases hl
    refine ⟨lvb, hneB, hsB, ?_, ?_, ?_⟩
    · rw [Ghost.setSep_lo, Ghost.setSep_hi, if_pos rfl, if_neg (Ne.symm hab)]
      exact hrB
    · intro e
      rw [Ghost.setSep_hi, if_neg (Ne.symm hab)]
      exact b5 e
    · intro e
      obtain ⟨l2, bb, e1, e2, e3, e4⟩ := b6 e
      have hn1 : lb.next_page_id ≠ p := by
        intro h; rw [h, hp] at e1; cases e1
      have hn2 : lb.next_page_id ≠ a := by
        intro h; rw [h] at e4; omega
      have hn3 : lb.next_page_id ≠ b := by
        intro h; rw [h] at e4; omega
      refine ⟨l2, bb, ?_, ?_, ?_, e4⟩
      · show t1.pages lb.next_page_id = _
        rw [hpages, if_neg hn1, if_neg hn2, if_neg hn3]
        exact e1
      · rw [Ghost.setSep_hi, if_neg (Ne.symm hab)]; exact e2
      · show (g.setSep a b k1).lo lb.next_page_id = _
        rw [Ghost.setSep_lo, if_neg hn3]; exact e3
  · intro n hn; cases hn
  · intro _
    obtain ⟨e, he⟩ := List.exists_mem_of_ne_nil _ hneA
    obtain ⟨e', he'⟩ := List.exists_mem_of_ne_nil _ hneB
    have r1 := hrA e he
    have r2 := hrB e' he'
    have := r1.2 _ rfl
    have := r2.1 _ rfl
    exact ⟨fun x hx => by have := r1.1 x hx; omega, fun y hy => by have := r2.2 y hy; omega⟩

/-- A child that is not moved keeps its place. -/
theorem ChildOK.rotateKeep {pages pages1 : Pool} {g : Ghost} {p a b dst q : Int} {k1 : Int}
    {M : List Int} {h : Nat}
    (hother : ∀ x, x ≠ p → x ≠ a → x ≠ b →
      pages1 x = (pages x).map (fun pg => if x ∈ M then pg.SetParentPageId dst else pg))
    (hlp : g.lvl p = h + 2) (hla : g.lvl a = h + 1) (hlb : g.lvl b = h + 1)
    {d : Int} {l v : Option Int} (hd : d ∉ M) (hc : ChildOK pages g q h d l v) :
    ChildOK pages1 (g.setSep a b k1) q h d l v := by
  obtain ⟨pg, f1, f2, f3, f4, f5⟩ := hc
  have h1 : d ≠ p := by intro e; rw [e] at f3; omega
  have h2 : d ≠ a := by intro e; rw [e] at f3; omega
  have h3 : d ≠ b := by intro e; rw [e] at f3; omega
  refine ⟨pg, ?_, f2, f3, ?_, ?_⟩
  · rw [hother d h1 h2 h3, f1]
    simp only [Option.map_some', if_neg hd]
  · rw [Ghost.setSep_lo, if_neg h3]; exact f4
  · rw [Ghost.setSep_hi, if_neg h2]; exact f5

/-- A moved child sits below its new parent. -/
theorem ChildOK.rotateMove {pages pages1 : Pool} {g : Ghost} {p a b dst q : Int} {k1 : Int}
    {M : List Int} {h : Nat}
    (hother : ∀ x, x ≠ p → x ≠ a → x ≠ b →
      pages1 x = (pages x).map (fun pg => if x ∈ M then pg.SetParentPageId dst else pg))
    (hlp : g.lvl p = h + 2) (hla : g.lvl a = h + 1) (hlb : g.lvl b = h + 1)
    {d : Int} {l v : Option Int} (hd : d ∈ M) (hc : ChildOK pages g q h d l v) :
    ChildOK pages1 (g.setSep a b k1) dst h d l v := by
  obtain ⟨pg, f1, f2, f3, f4, f5⟩ := hc
  have h1 : d ≠ p := by intro e; rw [e] at f3; omega
  have h2 : d ≠ a := by intro e; rw [e] at f3; omega
  have h3 : d ≠ b := by intro e; rw [e] at f3; omega
  refine ⟨pg.SetParentPageId dst, ?_, Page.getParent_setParent _ _, f3, ?_, ?_⟩
  · rw [hother d h1 h2 h3, f1]
    simp only [Option.map_some', if_pos hd]
  · rw [Ghost.setSep_lo, if_neg h3]; exact f4
  · rw [Ghost.setSep_hi, if_neg h2]; exact f5

/-! ## `Redistribute` keeps the tree well-formed -/

/-- The slots of the parent around an under-full page and the sibling that
`CoalesceOrRedistribute` picks for it. -/
theorem Inv.slotsAround {t : BPlusTree} {g : Ghost} {node_id s : Int} {node ps : Page}
    {pn : InternalPage} {index : Nat}
    (hinv : Inv t g) (hnode : t.pages node_id = some node)
    (hp : t.pages node.GetParentPageId = some (.internal pn))
    (hidx : pn.ValueIndex node_id = some index)
    (hsv : pn.ValueAt (if index = 0 then 1 else index - 1) = some s)
    (hsib : t.pages s = some ps) :
    ps.IsLeafPage = node.IsLeafPage ∧ node.GetPageId = node_id ∧
      (index = 0 → ∃ kc kc1 post1, pn.array = [] ++ kc :: kc1 :: post1 ∧ kc.2 = node_id ∧
        kc1.2 = s) ∧
      (index ≠ 0 → ∃ pre kc1 kc post, pn.array = pre ++ kc1 :: kc :: post ∧ kc1.2 = s ∧
        kc.2 = node_id ∧ pre.length + 1 = index) := by
  obtain ⟨pre, kc, post, harr, hkc, hlen⟩ := valueIndex_split pn.array node_id index hidx
  have hok := hinv.internalOK _ pn hp
  have hsin : s ∈ pn.array.map Prod.snd := by
    simp only [InternalPage.ValueAt] at hsv
    cases hg : pn.array.get? (if index = 0 then 1 else index - 1) with
    | none => rw [hg] at hsv; cases hsv
    | some e =>
      rw [hg] at hsv
      simp only [Option.map_some', Option.some.injEq] at hsv
      rw [← hsv]
      exact List.mem_map_of_mem _ (List.get?_mem hg)
  have hnin : node_id ∈ pn.array.map Prod.snd := by
    rw [harr]; simp [hkc]
  obtain ⟨P1, -, -, e1, -, e3, -, -⟩ := hok.child_exists hsin
  rw [hsib] at e1; cases e1
  obtain ⟨P2, -, -, f1, -, f3, -, -⟩ := hok.child_exists hnin
  rw [hnode] at f1; cases f1
  have hlvl : ∀ x (pg : Page), t.pages x = some pg → (pg.IsLeafPage = true ↔ g.lvl x = 0) := by
    intro x pg hx
    cases pg with
    | leaf l => exact ⟨fun _ => (hinv.leafOK x l hx).1, fun _ => rfl⟩
    | internal n =>
      obtain ⟨h', -, -, e, -⟩ := hinv.internalOK x n hx
      constructor
      · intro h; simp [Page.IsLeafPage] at h
      · intro h; omega
  have hkind : ps.IsLeafPage = node.IsLeafPage := by
    have h1 := hlvl s ps hsib
    have h2 := hlvl node_id node hnode
    have h3 : g.lvl s = g.lvl node_id := by omega
    rw [h3] at h1
    cases hA : ps.IsLeafPage <;> cases hB : node.IsLeafPage <;> simp [hA, hB] at h1 h2 ⊢
    · exact h1 h2
    · exact h2 h1
  refine ⟨hkind, hinv.pid _ _ hnode, ?_, ?_⟩
  · intro h0
    rw [h0] at hlen hsv
    have hpre : pre = [] := List.length_eq_zero.1 hlen
    rw [hpre] at harr
    simp only [if_true, InternalPage.ValueAt, harr, List.nil_append] at hsv
    cases post with
    | nil => simp at hsv
    | cons kc1 post1 =>
      simp only [List.get?_cons_succ, List.get?_cons_zero, Option.map_some',
        Option.some.injEq] at hsv
      exact ⟨kc, kc1, post1, harr, hkc, hsv⟩
  · intro h0
    have hpre : pre ≠ [] := by
      intro h; rw [h] at hlen; exact h0 hlen.symm
    obtain ⟨init, k1, e1, -, -⟩ := list_last_split pre hpre
    rw [if_neg h0] at hsv
    have hget : pn.ValueAt (pre.length - 1) = some k1.2 := by
      simp only [InternalPage.ValueAt, harr]
      rw [e1, get?_split_last]
      rfl
    rw [← hlen, hget] at hsv
    cases hsv
    refine ⟨init, k1, kc, post, ?_, rfl, hkc, ?_⟩
    · rw [harr, e1]; simp
    · rw [← hlen, e1]; simp

theorem Redistribute_inv_leaf_first {t : BPlusTree} {g : Ghost} {node_id s : Int}
    {ln ls : LeafPage} {pn : InternalPage} {kc kc1 : Int × Int} {post1 : List (Int × Int)}
    {x y : Int × Int} {rest : List (Int × Int)}
    (hinv : Inv t g) (hnode : t.pages node_id = some (.leaf ln))
    (hsib : t.pages s = some (.leaf ls))
    (hp : t.pages ln.parent_page_id = some (.internal pn))
    (harr : pn.array = [] ++ kc :: kc1 :: post1) (hkc : kc.2 = node_id) (hkc1 : kc1.2 = s)
    (hls : ls.array = x :: y :: rest) :
    ∃ t1, t.Redistribute s node_id 0 = .ok t1 ∧ Inv t1 (g.setSep node_id s y.1) ∧
      t1.pages ln.parent_page_id = some (.internal (pn.SetKeyAt 1 y.1)) ∧
      t1.pages node_id = some (.leaf { ln with array := ln.array ++ [x] }) ∧
      t1.pages s = some (.leaf { ls with array := y :: rest }) := by
  obtain ⟨hpa, hpb, hab, hhia, hlob, -, -, -, -⟩ := hinv.adjacent hp harr hkc hkc1 hnode hsib
  obtain ⟨-, hnea, hsa, hra, -, -⟩ := hinv.leafOK node_id ln hnode
  obtain ⟨-, -, hsb, hrb, -, -⟩ := hinv.leafOK s ls hsib
  have hset : pn.SetKeyAt 1 y.1 = { pn with array := [] ++ kc :: (y.1, s) :: post1 } := by
    simp only [InternalPage.SetKeyAt, harr]
    rw [← hkc1]
    rfl
  have hpages : ∀ q, (((t.write s (.leaf { ls with array := y :: rest })).write node_id
      (.leaf { ln with array := ln.array ++ [x] })).write ln.parent_page_id
        (.internal (pn.SetKeyAt 1 y.1))).pages q =
      if q = ln.parent_page_id then
        some (.internal { pn with array := [] ++ kc :: (y.1, s) :: post1 })
      else if q = node_id then some (.leaf { ln with array := ln.array ++ [x] })
      else if q = s then some (.leaf { ls with array := y :: rest }) else t.pages q := by
    intro q
    simp only [BPlusTree.write_pages, Pool.write_apply, hset]
  rw [hls] at hsb hrb
  have hxy : x.1 < y.1 := (List.pairwise_cons.1 hsb).1 y (by simp)
  have hx := hrb x (by simp)
  have hxlo : kc1.1 ≤ x.1 := hx.1 _ hlob
  refine ⟨_, Redistribute_leaf_first_eq hnode hsib hp hls, ?_, ?_, ?_, ?_⟩
  rotate_left
  · rw [hpages, if_pos rfl, hset]
  · rw [hpages, if_neg (Ne.symm hpa), if_pos rfl]
  · rw [hpages, if_neg (Ne.symm hpb), if_neg (Ne.symm hab), if_pos rfl]
  refine Inv.rotateLeaves hinv hp harr hkc hkc1 hnode hsib rfl rfl hpages
    (by simp) ?_ ?_ (by simp) (List.pairwise_cons.1 hsb).2 ?_
  · rw [List.pairwise_append]
    refine ⟨hsa, List.pairwise_singleton _ _, ?_⟩
    intro e he e' he'
    simp only [List.mem_singleton] at he'
    subst he'
    have := (hra e he).2 _ hhia
    omega
  · intro kv hkv
    rcases List.mem_append.1 hkv with h | h
    · have := (hra kv h).2 _ hhia
      exact ⟨(hra kv h).1, fun b hb => by cases hb; omega⟩
    · simp only [List.mem_singleton] at h
      subst h
      obtain ⟨e, he⟩ := List.exists_mem_of_ne_nil _ hnea
      have r := hra e he
      have := r.2 _ hhia
      exact ⟨fun v hv => by have := r.1 v hv; omega, fun b hb => by cases hb; exact hxy⟩
  · intro kv hkv
    refine ⟨fun v hv => ?_, (hrb kv (List.mem_cons_of_mem _ hkv)).2⟩
    cases hv
    rcases List.mem_cons.1 hkv with h | h
    · rw [h]
    · have := (List.pairwise_cons.1 (List.pairwise_cons.1 hsb).2).1 kv h
      omega

theorem Redistribute_inv_leaf_last {t : BPlusTree} {g : Ghost} {node_id s : Int}
    {ln ls : LeafPage} {pn : InternalPage} {pre post : List (Int × Int)} {kc1 kc : Int × Int}
    {index : Nat} {z : Int × Int} {init : List (Int × Int)}
    (hinv : Inv t g) (hnode : t.pages node_id = some (.leaf ln))
    (hsib : t.pages s = some (.leaf ls))
    (hp : t.pages ln.parent_page_id = some (.internal pn))
    (harr : pn.array = pre ++ kc1 :: kc :: post) (hkc1 : kc1.2 = s) (hkc : kc.2 = node_id)
    (hlen : pre.length + 1 = index)
    (hls : ls.array = init ++ [z]) (hinit : init ≠ []) :
    ∃ t1, t.Redistribute s node_id index = .ok t1 ∧ Inv t1 (g.setSep s node_id z.1) ∧
      t1.pages ln.parent_page_id = some (.internal (pn.SetKeyAt index z.1)) ∧
      t1.pages node_id = some (.leaf { ln with array := z :: ln.array }) ∧
      t1.pages s = some (.leaf { ls with array := init }) := by
  obtain ⟨hpa, hpb, hab, hhia, hlob, -, -, -, -⟩ := hinv.adjacent hp harr hkc1 hkc hsib hnode
  obtain ⟨-, hneb, hsb, hrb, -, -⟩ := hinv.leafOK node_id ln hnode
  obtain ⟨-, -, hsa, hra, -, -⟩ := hinv.leafOK s ls hsib
  have hidx : index ≠ 0 := by omega
  have hset : pn.SetKeyAt index z.1 = { pn with array := pre ++ kc1 :: (z.1, node_id) :: post } := by
    simp only [InternalPage.SetKeyAt, harr]
    rw [← hlen, setKeyAt_split, hkc]
  have hpages : ∀ q, (((t.write s (.leaf { ls with array := init })).write node_id
      (.leaf { ln with array := z :: ln.array })).write ln.parent_page_id
        (.internal (pn.SetKeyAt index z.1))).pages q =
      if q = ln.parent_page_id then
        some (.internal { pn with array := pre ++ kc1 :: (z.1, node_id) :: post })
      else if q = s then some (.leaf { ls with array := init })
      else if q = node_id then some (.leaf { ln with array := z :: ln.array })
      else t.pages q := by
    intro q
    simp only [BPlusTree.write_pages, Pool.write_apply, hset]
    by_cases h1 : q = ln.parent_page_id
    · simp only [h1, if_true]
    · simp only [h1, if_false]
      by_cases h2 : q = node_id
      · rw [if_pos h2, if_neg (by rw [h2]; exact Ne.symm hab), if_pos h2]
      · rw [if_neg h2, if_neg h2]
  rw [hls] at hsa hra
  have hsa' := List.pairwise_append.1 hsa
  have hz := hra z (by simp)
  have hzhi : z.1 < kc.1 := hz.2 _ hhia
  refine ⟨_, Redistribute_leaf_last_eq hnode hsib hp hidx hls, ?_, ?_, ?_, ?_⟩
  rotate_left
  · rw [hpages, if_pos rfl, hset]
  · rw [hpages, if_neg (Ne.symm hpb), if_neg (Ne.symm hab), if_pos rfl]
  · rw [hpages, if_neg (Ne.symm hpa), if_pos rfl]
  refine Inv.rotateLeaves hinv hp harr hkc1 hkc hsib hnode rfl rfl hpages
    hinit hsa'.1 ?_ (by simp) ?_ ?_
  · intro kv hkv
    refine ⟨(hra kv (List.mem_append_left _ hkv)).1, fun b hb => ?_⟩
    cases hb
    exact hsa'.2.2 kv hkv z (by simp)
  · rw [List.pairwise_cons]
    refine ⟨?_, hsb⟩
    intro e he
    have := (hrb e he).1 _ hlob
    omega
  · intro kv hkv
    rcases List.mem_cons.1 hkv with h | h
    · rw [h]
      refine ⟨fun v hv => by cases hv; exact le_refl _, fun b hb => ?_⟩
      obtain ⟨e, he⟩ := List.exists_mem_of_ne_nil _ hneb
      have r := hrb e he
      have := r.1 _ hlob
      have := r.2 b hb
      omega
    · have r := hrb kv h
      have := r.1 _ hlob
      exact ⟨fun v hv => by cases hv; omega, r.2⟩

theorem Redistribute_inv_internal_first {t : BPlusTree} {g : Ghost} {node_id s : Int}
    {nn ns : InternalPage} {pn : InternalPage} {kc kc1 : Int × Int} {post1 : List (Int × Int)}
    {x y : Int × Int} {rest : List (Int × Int)}
    (hinv : Inv t g) (hnode : t.pages node_id = some (.internal nn))
    (hsib : t.pages s = some (.internal ns))
    (hp : t.pages nn.parent_page_id = some (.internal pn))
    (harr : pn.array = [] ++ kc :: kc1 :: post1) (hkc : kc.2 = node_id) (hkc1 : kc1.2 = s)
    (hns : ns.array = x :: y :: rest) :
    ∃ t1, t.Redistribute s node_id 0 = .ok t1 ∧ Inv t1 (g.setSep node_id s y.1) ∧
      t1.pages nn.parent_page_id = some (.internal (pn.SetKeyAt 1 y.1)) ∧
      t1.pages node_id = some (.internal { nn with array := nn.array ++ [(kc1.1, x.2)] }) ∧
      t1.pages s = some (.internal { ns with array := y :: rest }) := by
  obtain ⟨hpa, hpb, hab, hhia, hlob, la, lb, -, -⟩ :=
    hinv.adjacent hp harr hkc hkc1 hnode hsib
  have hmid : pn.KeyAt 1 = some kc1.1 := by simp [InternalPage.KeyAt, harr]
  obtain ⟨ha', kca, resta, lva, harra, hcha, hnda⟩ := hinv.internalOK node_id nn hnode
  obtain ⟨hb', kcb, restb, lvb, harrb, hchb, hndb⟩ := hinv.internalOK s ns hsib
  rw [hns] at harrb hndb
  simp only [List.cons.injEq] at harrb
  obtain ⟨e1, e2⟩ := harrb
  subst e1
  subst e2
  have hh : hb' = ha' := by omega
  subst hh
  obtain ⟨hcx, hctail⟩ := hchb
  have hcx0 := hcx
  obtain ⟨pgx, x1, x2, x3, x4, x5⟩ := hcx
  have hxs : x.2 ≠ s := by intro e; rw [e] at x3; omega
  have hxn : x.2 ≠ node_id := by intro e; rw [e] at x3; omega
  have hxp : x.2 ≠ nn.parent_page_id := by intro e; rw [e] at x3; omega
  have hpid : nn.page_id = node_id := hinv.pid node_id _ hnode
  obtain ⟨t1, hr, hroot, hnext, -, -, hform⟩ :=
    Redistribute_internal_first_form hnode hsib hp hns hmid ⟨hxs, hxn, pgx, x1⟩
  have hset : pn.SetKeyAt 1 y.1 = { pn with array := [] ++ kc :: (y.1, s) :: post1 } := by
    simp only [InternalPage.SetKeyAt, harr]
    rw [← hkc1]
    rfl
  have hp1 := hform nn.parent_page_id
  rw [if_pos rfl] at hp1
  have ha1 := hform node_id
  rw [if_neg (Ne.symm hpa), if_pos rfl] at ha1
  have hb1 := hform s
  rw [if_neg (Ne.symm hpb), if_neg (Ne.symm hab), if_pos rfl] at hb1
  have hother : ∀ q, q ≠ nn.parent_page_id → q ≠ node_id → q ≠ s →
      t1.pages q = (t.pages q).map (fun pg => if q ∈ [x.2] then pg.SetParentPageId nn.page_id
        else pg) := by
    intro q h1 h2 h3
    rw [hform q, if_neg h1, if_neg h2, if_neg h3]
  have hlp : g.lvl nn.parent_page_id = hb' + 2 := by omega
  have hxnot : x.2 ∉ nn.array.map Prod.snd := by
    intro hm
    obtain ⟨pg, -, -, f1, f2, -⟩ := (hinv.internalOK node_id nn hnode).child_exists hm
    rw [x1] at f1; cases f1
    exact hab (f2.symm.trans x2)
  refine ⟨t1, hr, ?_, by rw [hp1], ha1, hb1⟩
  refine @Inv.rotate t t1 g nn.parent_page_id node_id s nn.page_id pn [] post1 kc kc1 y.1 _ _ _ _
    [x.2] hinv hp harr hkc hkc1 hnode hsib hroot hnext (by rw [hp1, hset]) ha1 hb1 hother
    ⟨rfl, rfl, rfl, rfl⟩ ⟨rfl, rfl, rfl, rfl⟩ ?_ ?_ ?_ ?_ ?_ ?_ ?_ ?_
  · intro c hc
    simp only [List.mem_singleton] at hc
    subst hc
    refine ⟨hxp, hxn, hxs, ?_, ?_, ?_⟩
    · intro e
      have := hinv.lvlRoot s _ hsib
      rw [← e] at this
      omega
    · intro q n hq hm
      obtain ⟨pg, -, -, f1, f2, -⟩ := (hinv.internalOK q n hq).child_exists hm
      rw [x1] at f1; cases f1
      exact Or.inr (f2.symm.trans x2)
    · rw [hpid]
      exact ⟨_, ha1, by simp⟩
  · intro c hc _
    simp only [Page.children, List.map_append, List.mem_append] at hc ⊢
    exact Or.inl hc
  · intro c hc hm
    simp only [Page.children, hns, List.map_cons, List.mem_cons, List.mem_singleton] at hc hm ⊢
    rcases hc with h | h
    · exact absurd (Or.inl h) hm
    · exact h
  · intro l hl; cases hl
  · intro n hn
    cases hn
    refine ⟨hb', kca, resta ++ [(kc1.1, x.2)], lva, by simp [harra], ?_, ?_⟩
    · rw [Ghost.setSep_lo, Ghost.setSep_hi, if_neg hab, if_pos rfl]
      refine Chain.append.2 ⟨?_, ?_⟩
      · rw [hhia] at hcha
        refine hcha.mono (fun d l v _ hP => ?_)
        have hd : d ∉ [x.2] := by
          intro hm
          simp only [List.mem_singleton] at hm
          obtain ⟨pg, f1, f2, -⟩ := hP
          rw [hm, x1] at f1; cases f1
          exact hab (f2.symm.trans x2)
        exact ChildOK.rotateKeep hother hlp lva lvb hd hP
      · show ChildOK _ _ _ _ _ _ _
        rw [hlob] at hcx0
        have := @ChildOK.rotateMove t.pages t1.pages g nn.parent_page_id node_id s nn.page_id s
          y.1 [x.2] hb' hother hlp lva lvb x.2 _ _ (by simp) hcx0
        rw [hpid] at this
        exact this
    · show ((nn.array ++ [(kc1.1, x.2)]).map Prod.snd).Nodup
      rw [List.map_append, List.nodup_append]
      refine ⟨hnda, by simp, ?_⟩
      intro c hc hc'
      simp only [List.map_cons, List.map_nil, List.mem_singleton] at hc'
      rw [hc'] at hc
      exact hxnot hc
  · intro l hl; cases hl
  · intro n hn
    cases hn
    simp only [List.map_cons, List.nodup_cons] at hndb
    refine ⟨hb', y, rest, lvb, rfl, ?_, by
      show ((y :: rest).map Prod.snd).Nodup
      simp only [List.map_cons, List.nodup_cons]
      exact hndb.2⟩
    rw [Ghost.setSep_lo, Ghost.setSep_hi, if_pos rfl, if_neg (Ne.symm hab)]
    refine hctail.mono (fun d l v hd hP => ?_)
    have hd1 : d ∉ [x.2] := by
      intro hm
      simp only [List.mem_singleton] at hm
      rw [hm] at hd
      exact hndb.1 (by simpa using hd)
    exact ChildOK.rotateKeep hother hlp lva lvb hd1 hP
  · intro h; simp [Page.IsLeafPage] at h

theorem Redistribute_inv_internal_last {t : BPlusTree} {g : Ghost} {node_id s : Int}
    {nn ns : InternalPage} {pn : InternalPage} {pre post : List (Int × Int)}
    {kc1 kc : Int × Int} {index : Nat} {z : Int × Int} {init : List (Int × Int)}
    (hinv : Inv t g) (hnode : t.pages node_id = some (.internal nn))
    (hsib : t.pages s = some (.internal ns))
    (hp : t.pages nn.parent_page_id = some (.internal pn))
    (harr : pn.array = pre ++ kc1 :: kc :: post) (hkc1 : kc1.2 = s) (hkc : kc.2 = node_id)
    (hlen : pre.length + 1 = index)
    (hns : ns.array = init ++ [z]) (hinit : init ≠ []) :
    ∃ t1, t.Redistribute s node_id index = .ok t1 ∧ Inv t1 (g.setSep s node_id z.1) ∧
      t1.pages nn.parent_page_id = some (.internal (pn.SetKeyAt index z.1)) ∧
      t1.pages node_id =
        some (.internal { nn with array := z :: InternalPage.setKeyAt nn.array 0 kc.1 }) ∧
      t1.pages s = some (.internal { ns with array := init }) := by
  obtain ⟨hpa, hpb, hab, hhia, hlob, la, lb, -, -⟩ :=
    hinv.adjacent hp harr hkc1 hkc hsib hnode
  have hidx : index ≠ 0 := by omega
  have hmid : pn.KeyAt index = some kc.1 := by
    have := get?_split (pre ++ [kc1]) kc post
    simp only [List.append_assoc, List.singleton_append, List.length_append, List.length_singleton]
      at this
    simp only [InternalPage.KeyAt, harr, ← hlen, this, Option.map_some']
  obtain ⟨ha', kca, resta, lva, harra, hcha, hnda⟩ := hinv.internalOK s ns hsib
  obtain ⟨hb', kcb, restb, lvb, harrb, hchb, hndb⟩ := hinv.internalOK node_id nn hnode
  have hh : hb' = ha' := by omega
  subst hh
  obtain ⟨i0, hi0⟩ : ∃ i0, init = kca :: i0 := by
    cases init with
    | nil => exact absurd rfl hinit
    | cons a0 i0 =>
      rw [hns] at harra
      simp only [List.cons_append, List.cons.injEq] at harra
      exact ⟨i0, by rw [harra.1]⟩
  have hresta : resta = i0 ++ [z] := by
    rw [hns, hi0] at harra
    simp only [List.cons_append, List.cons.injEq, true_and] at harra
    exact harra.symm
  rw [hresta] at hcha
  obtain ⟨hcinit, hcz⟩ := Chain.append.1 hcha
  have hcz0 : ChildOK t.pages g s hb' z.2 (some z.1) (g.hi s) := hcz
  obtain ⟨pgz, z1, z2, z3, z4, z5⟩ := hcz
  have hzs : z.2 ≠ s := by intro e; rw [e] at z3; omega
  have hzn : z.2 ≠ node_id := by intro e; rw [e] at z3; omega
  have hzp : z.2 ≠ nn.parent_page_id := by intro e; rw [e] at z3; omega
  have hpid : nn.page_id = node_id := hinv.pid node_id _ hnode
  obtain ⟨t1, hr, hroot, hnext, -, -, hform⟩ :=
    Redistribute_internal_last_form hnode hsib hp hidx hns hmid ⟨hzs, hzn, pgz, z1⟩
  have hset : pn.SetKeyAt index z.1 =
      { pn with array := pre ++ kc1 :: (z.1, node_id) :: post } := by
    simp only [InternalPage.SetKeyAt, harr]
    rw [← hlen, setKeyAt_split, hkc]
  have hp1 := hform nn.parent_page_id
  rw [if_pos rfl] at hp1
  have hb1 := hform node_id
  rw [if_neg (Ne.symm hpb), if_pos rfl] at hb1
  have ha1 := hform s
  rw [if_neg (Ne.symm hpa), if_neg hab, if_pos rfl] at ha1
  have hother : ∀ q, q ≠ nn.parent_page_id → q ≠ s → q ≠ node_id →
      t1.pages q = (t.pages q).map (fun pg => if q ∈ [z.2] then pg.SetParentPageId nn.page_id
        else pg) := by
    intro q h1 h2 h3
    rw [hform q, if_neg h1, if_neg h3, if_neg h2]
  have hlp : g.lvl nn.parent_page_id = hb' + 2 := by omega
  have hznot : z.2 ∉ nn.array.map Prod.snd := by
    intro hm
    obtain ⟨pg, -, -, f1, f2, -⟩ := (hinv.internalOK node_id nn hnode).child_exists hm
    rw [z1] at f1; cases f1
    exact hab (z2.symm.trans f2)
  have hsetn : InternalPage.setKeyAt nn.array 0 kc.1 = (kc.1, kcb.2) :: restb := by
    rw [harrb]; rfl
  have hndinit : ((init ++ [z]).map Prod.snd).Nodup := by rw [← hns]; exact hnda
  refine ⟨t1, hr, ?_, by rw [hp1], hb1, ha1⟩
  refine @Inv.rotate t t1 g nn.parent_page_id s node_id nn.page_id pn pre post kc1 kc z.1 _ _ _ _
    [z.2] hinv hp harr hkc1 hkc hsib hnode hroot hnext (by rw [hp1, hset]) ha1 hb1 hother
    ⟨rfl, rfl, rfl, rfl⟩ ⟨rfl, rfl, rfl, rfl⟩ ?_ ?_ ?_ ?_ ?_ ?_ ?_ ?_
  · intro c hc
    simp only [List.mem_singleton] at hc
    subst hc
    refine ⟨hzp, hzs, hzn, ?_, ?_, ?_⟩
    · intro e
      have := hinv.lvlRoot s _ hsib
      rw [← e] at this
      omega
    · intro q n hq hm
      obtain ⟨pg, -, -, f1, f2, -⟩ := (hinv.internalOK q n hq).child_exists hm
      rw [z1] at f1; cases f1
      exact Or.inl (f2.symm.trans z2)
    · rw [hpid]
      exact ⟨_, hb1, by simp⟩
  · intro c hc hm
    simp only [Page.children, hns, List.map_append, List.map_cons, List.map_nil, List.mem_append,
      List.mem_singleton] at hc hm ⊢
    rcases hc with h | h
    · exact h
    · exact absurd h hm
  · intro c hc _
    simp only [Page.children, List.map_cons, List.mem_cons, map_snd_setKeyAt] at hc ⊢
    exact Or.inr hc
  · intro l hl; cases hl
  · intro n hn
    cases hn
    refine ⟨hb', kca, i0, lva, hi0, ?_, ?_⟩
    · rw [Ghost.setSep_lo, Ghost.setSep_hi, if_neg hab, if_pos rfl]
      refine hcinit.mono (fun d l v hd hP => ?_)
      have hd1 : d ∉ [z.2] := by
        intro hm
        simp only [List.mem_singleton] at hm
        rw [hm] at hd
        rw [List.map_append, List.nodup_append] at hndinit
        have hdin : z.2 ∈ init.map Prod.snd := by rw [hi0]; simpa using hd
        exact hndinit.2.2 hdin (by simp)
      exact ChildOK.rotateKeep hother hlp lva lvb hd1 hP
    · show (init.map Prod.snd).Nodup
      rw [List.map_append, List.nodup_append] at hndinit
      exact hndinit.1
  · intro l hl; cases hl
  · intro n hn
    cases hn
    refine ⟨hb', z, (kc.1, kcb.2) :: restb, lvb, by simp [hsetn], ?_, ?_⟩
    · rw [Ghost.setSep_lo, Ghost.setSep_hi, if_pos rfl, if_neg (Ne.symm hab)]
      refine ⟨?_, ?_⟩
      · rw [hhia] at hcz0
        have := @ChildOK.rotateMove t.pages t1.pages g nn.parent_page_id s node_id nn.page_id s
          z.1 [z.2] hb' hother hlp lva lvb z.2 _ _ (by simp) hcz0
        rw [hpid] at this
        exact this
      · show Chain _ kcb.2 (some kc.1) restb _
        rw [hlob] at hchb
        refine hchb.mono (fun d l v _ hP => ?_)
        have hd : d ∉ [z.2] := by
          intro hm
          simp only [List.mem_singleton] at hm
          obtain ⟨pg, f1, f2, -⟩ := hP
          rw [hm, z1] at f1; cases f1
          exact hab (z2.symm.trans f2)
        exact ChildOK.rotateKeep hother hlp lva lvb hd hP
    · show ((z :: InternalPage.setKeyAt nn.array 0 kc.1).map Prod.snd).Nodup
      rw [List.map_cons, map_snd_setKeyAt, List.nodup_cons]
      exact ⟨hznot, hndb⟩
  · intro h; simp [Page.IsLeafPage] at h

/-- C25: `AdjustRoot(old_root)` on a page of the pool, whose only child is in the pool when
it is an internal page of size 1, returns true exactly when the page is an internal page of size
1 or a leaf of size 0.  In the first case `root_page_id` becomes the page id of the only child
and the `parent_page_id` of that child becomes `INVALID_PAGE_ID`; in the second case
`root_page_id` becomes `INVALID_PAGE_ID`; in every other case the tree state is unchanged. -/
theorem adjustRoot_cases (t : BPlusTree) (old_root_id : Int) (pg : Page)
    (hpg : t.pages old_root_id = some pg)
    (hchild : ∀ n c, pg = .internal n → n.array = [c] → ∃ pc, t.pages c.2 = some pc) :
    ∃ t1 b, t.AdjustRoot old_root_id = .ok (t1, b) ∧
      (b = true ↔ (pg.IsLeafPage = false ∧ pg.GetSize = 1) ∨
        (pg.IsLeafPage = true ∧ pg.GetSize = 0)) ∧
      (pg.IsLeafPage = false → pg.GetSize = 1 →
        ∃ n c pc, pg = .internal n ∧ n.ValueAt 0 = some c ∧ t1.root_page_id = c ∧
          t1.pages c = some pc ∧ pc.GetParentPageId = INVALID_PAGE_ID) ∧
      (pg.IsLeafPage = true → pg.GetSize = 0 → t1.root_page_id = INVALID_PAGE_ID) ∧
      (b = false → t1 = t) := by
  cases pg with
  | leaf l =>
    by_cases hz : l.GetSize = 0
    · refine ⟨({ t with root_page_id := INVALID_PAGE_ID }).UpdateRootPageId 0, true, ?_, ?_, ?_,
        ?_, ?_⟩
      · simp only [BPlusTree.AdjustRoot, hpg, hz, if_true]
      · simp [Page.IsLeafPage, Page.GetSize, hz]
      · intro h; simp [Page.IsLeafPage] at h
      · intro _ _; rfl
      · intro h; cases h
    · refine ⟨t, false, ?_, ?_, ?_, ?_, ?_⟩
      · simp only [BPlusTree.AdjustRoot, hpg, hz, if_false]
      · simp [Page.IsLeafPage, Page.GetSize, hz]
      · intro h; simp [Page.IsLeafPage] at h
      · intro _ h; exact absurd h hz
      · intro _; rfl
  | internal n =>
    by_cases hz : n.GetSize = 1
    · have hlen : n.array.length = 1 := by
        simp only [InternalPage.GetSize] at hz; exact_mod_cast hz
      obtain ⟨c, hc⟩ := List.length_eq_one.1 hlen
      obtain ⟨pc, hpc⟩ := hchild n c rfl hc
      have hv : n.ValueAt 0 = some c.2 := by simp [InternalPage.ValueAt, hc]
      have hpage : ∃ x, (t.pages.write old_root_id
          (.internal (n.RemoveAndReturnOnlyChild).2)) c.2 = some x := by
        rw [Pool.write_apply]
        by_cases hco : c.2 = old_root_id
        · rw [if_pos hco]; exact ⟨_, rfl⟩
        · rw [if_neg hco]; exact ⟨pc, hpc⟩
      obtain ⟨x, hx⟩ := hpage
      refine ⟨((({ (t.write old_root_id (.internal (n.RemoveAndReturnOnlyChild).2)) with
          root_page_id := c.2 }).UpdateRootPageId 0).write c.2
            (x.SetParentPageId INVALID_PAGE_ID)), true, ?_, ?_, ?_, ?_, ?_⟩
      · simp only [BPlusTree.AdjustRoot, hpg, hz, if_true]
        have hv1 : (n.RemoveAndReturnOnlyChild).1 = some c.2 := hv
        rw [hv1]
        simp only [BPlusTree.UpdateRootPageId, BPlusTree.write]
        rw [hx]
      · simp [Page.IsLeafPage, Page.GetSize, hz]
      · intro _ _
        refine ⟨n, c.2, x.SetParentPageId INVALID_PAGE_ID, rfl, hv, rfl, ?_,
          Page.getParent_setParent _ _⟩
        simp only [BPlusTree.write, Pool.write_apply, if_true]
      · intro h; simp [Page.IsLeafPage] at h
      · intro h; cases h
    · refine ⟨t, false, ?_, ?_, ?_, ?_, ?_⟩
      · simp only [BPlusTree.AdjustRoot, hpg, hz, if_false]
      · simp [Page.IsLeafPage, Page.GetSize, hz]
      · intro _ h; exact absurd h hz
      · intro h; simp [Page.IsLeafPage] at h
      · intro _; rfl

theorem adjustRoot_cases_witness :
    ((rootLeafOf 4 4 []).write 2 (.internal (InternalPage.mk 2 INVALID_PAGE_ID 4 [(0, 1)]))).pages 2 =
      some (.internal (InternalPage.mk 2 INVALID_PAGE_ID 4 [(0, 1)])) ∧
    ∃ t1 b, ((rootLeafOf 4 4 []).write 2 (.internal (InternalPage.mk 2 INVALID_PAGE_ID 4 [(0, 1)]))).AdjustRoot 2 =
          .ok (t1, b) ∧
      (b = true ↔ ((Page.internal (InternalPage.mk 2 INVALID_PAGE_ID 4 [(0, 1)])).IsLeafPage = false ∧
          (Page.internal (InternalPage.mk 2 INVALID_PAGE_ID 4 [(0, 1)])).GetSize = 1) ∨
        ((Page.internal (InternalPage.mk 2 INVALID_PAGE_ID 4 [(0, 1)])).IsLeafPage = true ∧
          (Page.internal (InternalPage.mk 2 INVALID_PAGE_ID 4 [(0, 1)])).GetSize = 0)) ∧
      ((Page.internal (InternalPage.mk 2 INVALID_PAGE_ID 4 [(0, 1)])).IsLeafPage = false →
        (Page.internal (InternalPage.mk 2 INVALID_PAGE_ID 4 [(0, 1)])).GetSize = 1 →
        ∃ n c pc, Page.internal (InternalPage.mk 2 INVALID_PAGE_ID 4 [(0, 1)]) = .internal n ∧ n.ValueAt 0 = some c ∧
          t1.root_page_id = c ∧ t1.pages c = some pc ∧
          pc.GetParentPageId = INVALID_PAGE_ID) ∧
      ((Page.internal (InternalPage.mk 2 INVALID_PAGE_ID 4 [(0, 1)])).IsLeafPage = true →
        (Page.internal (InternalPage.mk 2 INVALID_PAGE_ID 4 [(0, 1)])).GetSize = 0 →
        t1.root_page_id = INVALID_PAGE_ID) ∧
      (b = false → t1 = (rootLeafOf 4 4 []).write 2 (.internal (InternalPage.mk 2 INVALID_PAGE_ID 4 [(0, 1)]))) :=
  ⟨rfl, adjustRoot_cases _ 2 _ rfl (by
    intro n c hn hc
    cases hn
    cases hc
    exact ⟨_, rfl⟩)⟩

/-- C27: `IsSafe` is sound for the structural algorithms.  If `IsSafe(node, INSERT)` holds of
the leaf that the descent reaches, the insertion of a new key leaves the size below
`leaf_max_size` and `InsertIntoLeaf` writes that leaf only; if it holds of the internal parent
of a split page, `InsertNodeAfter` leaves the size at most `internal_max_size` and
`InsertIntoParent` writes that parent only.  If `IsSafe(node, DELETE)` holds and one entry is
removed from the page, a page that is not the root keeps at least `min_size` entries, and
`CoalesceOrRedistribute`, which calls `AdjustRoot` on the root, returns false and leaves
the tree as it is. -/
theorem isSafe_sound (t : BPlusTree) (node : Page) :
    (∀ key value q l, node = .leaf l → t.IsSafe node .INSERT = true →
      t.FindLeafPage key false = .ok (q, l) → l.Lookup key = none →
      (l.Insert key value).GetSize < t.leaf_max_size ∧
        t.InsertIntoLeaf key value = .ok (t.write q (.leaf (l.Insert key value)), true)) ∧
    (∀ fuel old key new po pn n, node = .internal n → t.IsSafe node .INSERT = true →
      n.max_size = t.internal_max_size → t.pages old = some po → t.pages new = some pn →
      po.IsRootPage = false → t.pages po.GetParentPageId = some (.internal n) →
      (n.InsertNodeAfter po.GetPageId key pn.GetPageId).GetSize ≤ t.internal_max_size ∧
        BPlusTree.InsertIntoParent (fuel + 1) t old key new =
          .ok (t.write po.GetParentPageId
            (.internal (n.InsertNodeAfter po.GetPageId key pn.GetPageId)))) ∧
    (∀ fuel (t1 : BPlusTree) node_id node1 txn, t.IsSafe node .DELETE = true →
      t1.pages node_id = some node1 → node1.IsRootPage = node.IsRootPage →
      node1.GetMinSize = node.GetMinSize → node1.GetSize + 1 = node.GetSize →
      (node.IsRootPage = false → node1.GetMinSize ≤ node1.GetSize) ∧
        BPlusTree.CoalesceOrRedistribute (fuel + 1) t1 node_id txn = .ok (t1, txn, false)) := by
  refine ⟨?_, ?_, ?_⟩
  · intro key value q l hnode hsafe hfind hlk
    subst hnode
    have hlt : l.GetSize < t.leaf_max_size - 1 := by
      simp only [BPlusTree.IsSafe, BPlusTree.maxSize, Page.IsLeafPage, Page.GetSize,
        if_true] at hsafe
      split at hsafe
      · simpa using hsafe
      · simpa using hsafe
    have hlen : (l.Insert key value).GetSize = l.GetSize + 1 := by
      simp only [LeafPage.Insert, LeafPage.GetSize]
      rw [length_insertSorted (lookup_eq_none.1 hlk)]
      push_cast
      rfl
    have hfit : (l.Insert key value).GetSize < t.leaf_max_size := by rw [hlen]; omega
    refine ⟨hfit, ?_⟩
    simp only [BPlusTree.InsertIntoLeaf, hfind]
    have : (l.Lookup key).isSome = false := by rw [hlk]; rfl
    simp only [this, Bool.false_eq_true, if_false, hfit, if_true]
  · intro fuel old key new po pn n hnode hsafe hmax hold hnew hroot hpar
    subst hnode
    have hlt : n.GetSize < t.internal_max_size := by
      simp only [BPlusTree.IsSafe, BPlusTree.maxSize, Page.IsLeafPage, Page.GetSize] at hsafe
      split at hsafe
      · simpa using hsafe
      · simpa using hsafe
    have hlen : (n.InsertNodeAfter po.GetPageId key pn.GetPageId).GetSize ≤ n.GetSize + 1 := by
      simp only [InternalPage.InsertNodeAfter, InternalPage.GetSize]
      have := length_insertAfter_le po.GetPageId key pn.GetPageId n.array
      exact_mod_cast this
    refine ⟨(by omega), ?_⟩
    simp only [BPlusTree.InsertIntoParent, hold, hnew, hroot, Bool.false_eq_true, if_false, hpar]
    have hm : (n.InsertNodeAfter po.GetPageId key pn.GetPageId).max_size =
        t.internal_max_size := hmax
    rw [if_pos (by rw [hm]; omega)]
  · intro fuel t1 node_id node1 txn hsafe hpage hrootEq hmin hsize
    cases hr : node.IsRootPage with
    | true =>
      have hgt : 2 < node.GetSize := by
        simp only [BPlusTree.IsSafe, hr, if_true] at hsafe
        simpa using hsafe
      refine ⟨(fun h => by cases h), ?_⟩
      have hr1 : node1.IsRootPage = true := by rw [hrootEq, hr]
      simp only [BPlusTree.CoalesceOrRedistribute, hpage, hr1, if_true]
      have hadj : t1.AdjustRoot node_id = .ok (t1, false) := by
        simp only [BPlusTree.AdjustRoot, hpage]
        cases node1 with
        | leaf l1 =>
          have : l1.GetSize ≠ 0 := by
            have : (Page.leaf l1).GetSize = l1.GetSize := rfl
            omega
          simp only [this, if_false]
        | internal n1 =>
          have : n1.GetSize ≠ 1 := by
            have : (Page.internal n1).GetSize = n1.GetSize := rfl
            omega
          simp only [this, if_false]
      rw [hadj]
    | false =>
      have hgt : node.GetMinSize < node.GetSize := by
        simp only [BPlusTree.IsSafe, hr, Bool.false_eq_true, if_false] at hsafe
        simpa using hsafe
      have hge : node1.GetMinSize ≤ node1.GetSize := by omega
      refine ⟨fun _ => hge, ?_⟩
      have hr1 : node1.IsRootPage = false := by rw [hrootEq, hr]
      simp only [BPlusTree.CoalesceOrRedistribute, hpage, hr1, Bool.false_eq_true, if_false]
      rw [if_pos hge]

set_option maxRecDepth 100000 in
theorem isSafe_sound_witness :
    ((rootLeafOf 4 4 [(1, 101)]).IsSafe
        (.leaf (LeafPage.mk 1 INVALID_PAGE_ID 4 INVALID_PAGE_ID [(1, 101)])) .INSERT = true ∧
      (rootLeafOf 4 4 [(1, 101)]).FindLeafPage 2 false =
        .ok (1, LeafPage.mk 1 INVALID_PAGE_ID 4 INVALID_PAGE_ID [(1, 101)]) ∧
      (LeafPage.mk 1 INVALID_PAGE_ID 4 INVALID_PAGE_ID [(1, 101)]).Lookup 2 = none ∧
      ((LeafPage.mk 1 INVALID_PAGE_ID 4 INVALID_PAGE_ID [(1, 101)]).Insert 2 102).GetSize <
        (rootLeafOf 4 4 [(1, 101)]).leaf_max_size ∧
      (rootLeafOf 4 4 [(1, 101)]).InsertIntoLeaf 2 102 =
        .ok ((rootLeafOf 4 4 [(1, 101)]).write 1
          (.leaf ((LeafPage.mk 1 INVALID_PAGE_ID 4 INVALID_PAGE_ID [(1, 101)]).Insert 2 102)),
          true)) ∧
    ((built 3 3 [(1, 101), (2, 102), (3, 103)]).IsSafe
        (.internal (InternalPage.mk 3 INVALID_PAGE_ID 3 [(0, 1), (2, 2)])) .INSERT = true ∧
      (InternalPage.mk 3 INVALID_PAGE_ID 3 [(0, 1), (2, 2)]).max_size =
        (built 3 3 [(1, 101), (2, 102), (3, 103)]).internal_max_size ∧
      (built 3 3 [(1, 101), (2, 102), (3, 103)]).pages 1 =
        some (.leaf (LeafPage.mk 1 3 3 2 [(1, 101)])) ∧
      (built 3 3 [(1, 101), (2, 102), (3, 103)]).pages 2 =
        some (.leaf (LeafPage.mk 2 3 3 INVALID_PAGE_ID [(2, 102), (3, 103)])) ∧
      (Page.leaf (LeafPage.mk 1 3 3 2 [(1, 101)])).IsRootPage = false ∧
      (built 3 3 [(1, 101), (2, 102), (3, 103)]).pages
          (Page.leaf (LeafPage.mk 1 3 3 2 [(1, 101)])).GetParentPageId =
        some (.internal (InternalPage.mk 3 INVALID_PAGE_ID 3 [(0, 1), (2, 2)])) ∧
      ((InternalPage.mk 3 INVALID_PAGE_ID 3 [(0, 1), (2, 2)]).InsertNodeAfter 1 2 2).GetSize ≤
        (built 3 3 [(1, 101), (2, 102), (3, 103)]).internal_max_size ∧
      BPlusTree.InsertIntoParent (0 + 1) (built 3 3 [(1, 101), (2, 102), (3, 103)]) 1 2 2 =
        .ok ((built 3 3 [(1, 101), (2, 102), (3, 103)]).write 3
          (.internal ((InternalPage.mk 3 INVALID_PAGE_ID 3 [(0, 1), (2, 2)]).InsertNodeAfter
            1 2 2)))) ∧
    ((rootLeafOf 4 4 [(1, 101), (2, 102)]).IsSafe
        (.leaf (LeafPage.mk 1 INVALID_PAGE_ID 4 INVALID_PAGE_ID
          [(1, 101), (2, 102), (3, 103)])) .DELETE = true ∧
      (rootLeafOf 4 4 [(1, 101), (2, 102)]).pages 1 =
        some (.leaf (LeafPage.mk 1 INVALID_PAGE_ID 4 INVALID_PAGE_ID [(1, 101), (2, 102)])) ∧
      BPlusTree.CoalesceOrRedistribute (0 + 1) (rootLeafOf 4 4 [(1, 101), (2, 102)]) 1
          { deleted_page_set := [] } =
        .ok (rootLeafOf 4 4 [(1, 101), (2, 102)], { deleted_page_set := [] }, false)) :=
  ⟨⟨by decide, by decide, by decide,
    (isSafe_sound (rootLeafOf 4 4 [(1, 101)])
      (.leaf (LeafPage.mk 1 INVALID_PAGE_ID 4 INVALID_PAGE_ID [(1, 101)]))).1 2 102 1 _ rfl
      (by decide) (by decide) (by decide)⟩,
   ⟨by decide, by decide, by decide, by decide, by decide, by decide,
    (isSafe_sound (built 3 3 [(1, 101), (2, 102), (3, 103)])
      (.internal (InternalPage.mk 3 INVALID_PAGE_ID 3 [(0, 1), (2, 2)]))).2.1 0 1 2 2
      (.leaf (LeafPage.mk 1 3 3 2 [(1, 101)]))
      (.leaf (LeafPage.mk 2 3 3 INVALID_PAGE_ID [(2, 102), (3, 103)])) _ rfl
      (by decide) (by decide) (by decide) (by decide) (by decide) (by decide)⟩,
   ⟨by decide, by decide,
    ((isSafe_sound (rootLeafOf 4 4 [(1, 101), (2, 102)])
      (.leaf (LeafPage.mk 1 INVALID_PAGE_ID 4 INVALID_PAGE_ID
        [(1, 101), (2, 102), (3, 103)]))).2.2 0 (rootLeafOf 4 4 [(1, 101), (2, 102)]) 1
      (.leaf (LeafPage.mk 1 INVALID_PAGE_ID 4 INVALID_PAGE_ID [(1, 101), (2, 102)]))
      { deleted_page_set := [] } (by decide) (by decide) (by decide) (by decide)
      (by decide)).2⟩⟩

/-- C29: with `leaf_max_size = L >= 2`, `Split` of a leaf that holds `L` entries leaves
`floor(L / 2)` entries in the old leaf and `ceil(L / 2)` in the new one, both between
`ceil((L - 1) / 2)` and `L - 1`; with `internal_max_size = I >= 2`, `Split` of an internal
page that holds `I + 1` slots leaves `floor((I + 1) / 2)` and `ceil((I + 1) / 2)` slots, both
between `ceil(I / 2)` and `I`; and `InsertIntoParent`, on a parent that held at most `I`
slots, calls `Split` exactly when the parent holds `I + 1` slots after `InsertNodeAfter`.
The ceilings are written with the rounding-down division: `ceil(x / 2) = (x + 1) / 2`. -/
theorem split_sizes (t : BPlusTree) (q : Int) (hfresh : q ≠ t.next_page_id) :
    (∀ l, 2 ≤ t.leaf_max_size → t.pages q = some (.leaf l) → l.GetSize = t.leaf_max_size →
      ∃ t1 l1 l2, t.Split q = .ok (t1, t.next_page_id) ∧ t1.pages q = some (.leaf l1) ∧
        t1.pages t.next_page_id = some (.leaf l2) ∧
        l1.GetSize = t.leaf_max_size / 2 ∧ l2.GetSize = (t.leaf_max_size + 1) / 2 ∧
        (t.leaf_max_size - 1 + 1) / 2 ≤ l1.GetSize ∧ l1.GetSize ≤ t.leaf_max_size - 1 ∧
        (t.leaf_max_size - 1 + 1) / 2 ≤ l2.GetSize ∧ l2.GetSize ≤ t.leaf_max_size - 1) ∧
    (∀ n, 2 ≤ t.internal_max_size → t.pages q = some (.internal n) →
      (∀ c ∈ n.array.map Prod.snd, (t.pages c).isSome = true) →
      n.GetSize = t.internal_max_size + 1 →
      ∃ t1 n1 n2, t.Split q = .ok (t1, t.next_page_id) ∧ t1.pages q = some (.internal n1) ∧
        t1.pages t.next_page_id = some (.internal n2) ∧
        n1.GetSize = (t.internal_max_size + 1) / 2 ∧
        n2.GetSize = (t.internal_max_size + 1 + 1) / 2 ∧
        (t.internal_max_size + 1) / 2 ≤ n1.GetSize ∧ n1.GetSize ≤ t.internal_max_size ∧
        (t.internal_max_size + 1) / 2 ≤ n2.GetSize ∧ n2.GetSize ≤ t.internal_max_size) ∧
    (∀ fuel avail old key new flag page_set po pn n, t.pages old = some po →
      t.pages new = some pn → po.IsRootPage = false → po.GetParentPageId = q →
      t.pages q = some (.internal n) → n.max_size = t.internal_max_size →
      n.GetSize ≤ t.internal_max_size →
      ((∃ x, (Site.Split, x) ∈ newPageCalls
          (Latched.InsertIntoParent (fuel + 1) avail t old key new flag page_set).log) ↔
        (n.InsertNodeAfter po.GetPageId key pn.GetPageId).GetSize =
          t.internal_max_size + 1)) := by
  refine ⟨?_, ?_, ?_⟩
  · intro l hL hq hsize
    obtain ⟨t1, l1, l2, hs, h1, h2, e1, e2, -⟩ := Split_leaf_pages hq hfresh
    have hlen : (l.array.length : Int) = t.leaf_max_size := hsize
    refine ⟨t1, l1, l2, hs, h1, h2, ?_⟩
    · simp only [LeafPage.GetSize, e1, e2, List.length_take, List.length_drop]
      have hmin : min (l.array.length / 2) l.array.length = l.array.length / 2 := by omega
      rw [hmin]
      have hd : ((l.array.length / 2 : Nat) : Int) = (l.array.length : Int) / 2 := by
        push_cast; rfl
      have hsub : ((l.array.length - l.array.length / 2 : Nat) : Int) =
          (l.array.length : Int) - (l.array.length : Int) / 2 := by
        rw [Nat.cast_sub (by omega)]; push_cast; rfl
      rw [hd, hsub, hlen]
      omega
  · intro n hI hq hch hsize
    obtain ⟨t1, n1, n2, hs, h1, h2, e1, e2⟩ := Split_internal_pages hq hfresh
      (fun c hc => Option.isSome_iff_exists.1 (hch c hc))
    have hlen : (n.array.length : Int) = t.internal_max_size + 1 := hsize
    refine ⟨t1, n1, n2, hs, h1, h2, ?_⟩
    simp only [InternalPage.GetSize, e1, e2, List.length_take, List.length_drop]
    have hmin : min (n.array.length / 2) n.array.length = n.array.length / 2 := by omega
    rw [hmin]
    have hd : ((n.array.length / 2 : Nat) : Int) = (n.array.length : Int) / 2 := by
      push_cast; rfl
    have hsub : ((n.array.length - n.array.length / 2 : Nat) : Int) =
        (n.array.length : Int) - (n.array.length : Int) / 2 := by
      rw [Nat.cast_sub (by omega)]; push_cast; rfl
    rw [hd, hsub, hlen]
    omega
  · intro fuel avail old key new flag page_set po pn n hold hnew hroot hpar hq hmax hsize
    subst hpar
    have hle : (n.InsertNodeAfter po.GetPageId key pn.GetPageId).GetSize ≤ n.GetSize + 1 := by
      simp only [InternalPage.InsertNodeAfter, InternalPage.GetSize]
      have := length_insertAfter_le po.GetPageId key pn.GetPageId n.array
      exact_mod_cast this
    have hm : (n.InsertNodeAfter po.GetPageId key pn.GetPageId).max_size =
        t.internal_max_size := hmax
    simp only [Latched.InsertIntoParent, hold, hnew, hroot, Bool.false_eq_true, if_false, hq]
    by_cases hfit : (n.InsertNodeAfter po.GetPageId key pn.GetPageId).GetSize <
        (n.InsertNodeAfter po.GetPageId key pn.GetPageId).max_size + 1
    · rw [if_pos hfit]
      constructor
      · rintro ⟨x, hx⟩
        simp only [newPageCalls_append, newPageCalls_unlockRoot, newPageCalls_Unlock,
          List.append_nil] at hx
        simp [newPageCalls] at hx
      · intro h
        rw [hm] at hfit
        omega
    · rw [if_neg hfit]
      constructor
      · intro _
        rw [hm] at hfit
        omega
      · intro _
        obtain ⟨x, hx⟩ := newPageCalls_Split_head avail
          (t.write po.GetParentPageId
            (.internal (n.InsertNodeAfter po.GetPageId key pn.GetPageId))) po.GetParentPageId
        refine ⟨x, ?_⟩
        rw [Traced.log_emit, newPageCalls_append]
        refine List.mem_append_right _ ?_
        rw [mem_newPageCalls] at hx ⊢
        exact log_bind_sub _ _ _ hx

/-- C30: `Split` of the leaf `old` into the fresh leaf `new` sets `new.next_page_id` to the
former `next_page_id` of `old` and `old.next_page_id` to the page id of `new`, gives `new` the
`parent_page_id` of `old`, and the entries of `old` followed by those of `new` are the entries
that `old` held before the split. -/
theorem split_leaf_links (t : BPlusTree) (q : Int) (l : LeafPage)
    (hq : t.pages q = some (.leaf l)) (hfresh : q ≠ t.next_page_id) :
    ∃ t1 l1 l2, t.Split q = .ok (t1, t.next_page_id) ∧
      t1.pages q = some (.leaf l1) ∧ t1.pages t.next_page_id = some (.leaf l2) ∧
      l2.page_id = t.next_page_id ∧ l2.next_page_id = l.next_page_id ∧
      l1.next_page_id = l2.page_id ∧ l2.parent_page_id = l.parent_page_id ∧
      l1.parent_page_id = l.parent_page_id ∧ l1.array ++ l2.array = l.array := by
  obtain ⟨t1, l1, l2, hs, h1, h2, e1, e2, e3, e4, e5, e6, e7⟩ := Split_leaf_pages hq hfresh
  refine ⟨t1, l1, l2, hs, h1, h2, e3, e4, by rw [e5, e3], e6, e7, ?_⟩
  rw [e1, e2]
  exact List.take_append_drop _ _

theorem split_leaf_links_witness :
    (rootLeafOf 4 4 [(1, 101), (2, 102), (3, 103), (4, 104)]).pages 1 = some (.leaf (LeafPage.mk 1 INVALID_PAGE_ID 4 INVALID_PAGE_ID [(1, 101), (2, 102), (3, 103), (4, 104)])) ∧
    (1 : Int) ≠ (rootLeafOf 4 4 [(1, 101), (2, 102), (3, 103), (4, 104)]).next_page_id ∧
    ∃ t1 l1 l2, (rootLeafOf 4 4 [(1, 101), (2, 102), (3, 103), (4, 104)]).Split 1 = .ok (t1, (rootLeafOf 4 4 [(1, 101), (2, 102), (3, 103), (4, 104)]).next_page_id) ∧
      t1.pages 1 = some (.leaf l1) ∧
      t1.pages (rootLeafOf 4 4 [(1, 101), (2, 102), (3, 103), (4, 104)]).next_page_id = some (.leaf l2) ∧
      l2.page_id = (rootLeafOf 4 4 [(1, 101), (2, 102), (3, 103), (4, 104)]).next_page_id ∧
      l2.next_page_id = (LeafPage.mk 1 INVALID_PAGE_ID 4 INVALID_PAGE_ID [(1, 101), (2, 102), (3, 103), (4, 104)]).next_page_id ∧
      l1.next_page_id = l2.page_id ∧
      l2.parent_page_id = (LeafPage.mk 1 INVALID_PAGE_ID 4 INVALID_PAGE_ID [(1, 101), (2, 102), (3, 103), (4, 104)]).parent_page_id ∧
      l1.parent_page_id = (LeafPage.mk 1 INVALID_PAGE_ID 4 INVALID_PAGE_ID [(1, 101), (2, 102), (3, 103), (4, 104)]).parent_page_id ∧
      l1.array ++ l2.array = (LeafPage.mk 1 INVALID_PAGE_ID 4 INVALID_PAGE_ID [(1, 101), (2, 102), (3, 103), (4, 104)]).array :=
  ⟨rfl, by decide, split_leaf_links _ 1 _ rfl (by decide)⟩

set_option maxRecDepth 100000 in
theorem split_sizes_witness :
    ((1 : Int) ≠ (rootLeafOf 4 4 [(1, 101), (2, 102), (3, 103), (4, 104)]).next_page_id ∧ (2 : Int) ≤ (rootLeafOf 4 4 [(1, 101), (2, 102), (3, 103), (4, 104)]).leaf_max_size ∧
      (rootLeafOf 4 4 [(1, 101), (2, 102), (3, 103), (4, 104)]).pages 1 = some (.leaf (LeafPage.mk 1 INVALID_PAGE_ID 4 INVALID_PAGE_ID [(1, 101), (2, 102), (3, 103), (4, 104)])) ∧
      (LeafPage.mk 1 INVALID_PAGE_ID 4 INVALID_PAGE_ID [(1, 101), (2, 102), (3, 103), (4, 104)]).GetSize = (rootLeafOf 4 4 [(1, 101), (2, 102), (3, 103), (4, 104)]).leaf_max_size ∧
      ∃ t1 l1 l2, (rootLeafOf 4 4 [(1, 101), (2, 102), (3, 103), (4, 104)]).Split 1 = .ok (t1, (rootLeafOf 4 4 [(1, 101), (2, 102), (3, 103), (4, 104)]).next_page_id) ∧
        t1.pages 1 = some (.leaf l1) ∧
        t1.pages (rootLeafOf 4 4 [(1, 101), (2, 102), (3, 103), (4, 104)]).next_page_id = some (.leaf l2) ∧
        l1.GetSize = (rootLeafOf 4 4 [(1, 101), (2, 102), (3, 103), (4, 104)]).leaf_max_size / 2 ∧
        l2.GetSize = ((rootLeafOf 4 4 [(1, 101), (2, 102), (3, 103), (4, 104)]).leaf_max_size + 1) / 2 ∧
        ((rootLeafOf 4 4 [(1, 101), (2, 102), (3, 103), (4, 104)]).leaf_max_size - 1 + 1) / 2 ≤ l1.GetSize ∧
        l1.GetSize ≤ (rootLeafOf 4 4 [(1, 101), (2, 102), (3, 103), (4, 104)]).leaf_max_size - 1 ∧
        ((rootLeafOf 4 4 [(1, 101), (2, 102), (3, 103), (4, 104)]).leaf_max_size - 1 + 1) / 2 ≤ l2.GetSize ∧
        l2.GetSize ≤ (rootLeafOf 4 4 [(1, 101), (2, 102), (3, 103), (4, 104)]).leaf_max_size - 1) ∧
    ((3 : Int) ≠ ({ (built 3 3 [(1, 101), (2, 102), (3, 103), (4, 104)]) with internal_max_size := 2 } : BPlusTree).next_page_id ∧ (2 : Int) ≤ ({ (built 3 3 [(1, 101), (2, 102), (3, 103), (4, 104)]) with internal_max_size := 2 } : BPlusTree).internal_max_size ∧
      ({ (built 3 3 [(1, 101), (2, 102), (3, 103), (4, 104)]) with internal_max_size := 2 } : BPlusTree).pages 3 = some (.internal (InternalPage.mk 3 INVALID_PAGE_ID 3 [(0, 1), (2, 2), (3, 4)])) ∧
      (∀ c ∈ (InternalPage.mk 3 INVALID_PAGE_ID 3 [(0, 1), (2, 2), (3, 4)]).array.map Prod.snd, (({ (built 3 3 [(1, 101), (2, 102), (3, 103), (4, 104)]) with internal_max_size := 2 } : BPlusTree).pages c).isSome = true) ∧
      (InternalPage.mk 3 INVALID_PAGE_ID 3 [(0, 1), (2, 2), (3, 4)]).GetSize = ({ (built 3 3 [(1, 101), (2, 102), (3, 103), (4, 104)]) with internal_max_size := 2 } : BPlusTree).internal_max_size + 1 ∧
      ∃ t1 n1 n2, ({ (built 3 3 [(1, 101), (2, 102), (3, 103), (4, 104)]) with internal_max_size := 2 } : BPlusTree).Split 3 = .ok (t1, ({ (built 3 3 [(1, 101), (2, 102), (3, 103), (4, 104)]) with internal_max_size := 2 } : BPlusTree).next_page_id) ∧
        t1.pages 3 = some (.internal n1) ∧
        t1.pages ({ (built 3 3 [(1, 101), (2, 102), (3, 103), (4, 104)]) with internal_max_size := 2 } : BPlusTree).next_page_id = some (.internal n2) ∧
        n1.GetSize = (({ (built 3 3 [(1, 101), (2, 102), (3, 103), (4, 104)]) with internal_max_size := 2 } : BPlusTree).internal_max_size + 1) / 2 ∧
        n2.GetSize = (({ (built 3 3 [(1, 101), (2, 102), (3, 103), (4, 104)]) with internal_max_size := 2 } : BPlusTree).internal_max_size + 1 + 1) / 2 ∧
        (({ (built 3 3 [(1, 101), (2, 102), (3, 103), (4, 104)]) with internal_max_size := 2 } : BPlusTree).internal_max_size + 1) / 2 ≤ n1.GetSize ∧
        n1.GetSize ≤ ({ (built 3 3 [(1, 101), (2, 102), (3, 103), (4, 104)]) with internal_max_size := 2 } : BPlusTree).internal_max_size ∧
        (({ (built 3 3 [(1, 101), (2, 102), (3, 103), (4, 104)]) with internal_max_size := 2 } : BPlusTree).internal_max_size + 1) / 2 ≤ n2.GetSize ∧
        n2.GetSize ≤ ({ (built 3 3 [(1, 101), (2, 102), (3, 103), (4, 104)]) with internal_max_size := 2 } : BPlusTree).internal_max_size) ∧
    ((3 : Int) ≠ (built 3 2 [(1, 101), (2, 102), (3, 103)]).next_page_id ∧
      (built 3 2 [(1, 101), (2, 102), (3, 103)]).pages 1 = some (Page.leaf (LeafPage.mk 1 3 3 2 [(1, 101)])) ∧ (built 3 2 [(1, 101), (2, 102), (3, 103)]).pages 2 = some (Page.leaf (LeafPage.mk 2 3 3 INVALID_PAGE_ID [(2, 102), (3, 103)])) ∧
      (Page.leaf (LeafPage.mk 1 3 3 2 [(1, 101)])).IsRootPage = false ∧ (Page.leaf (LeafPage.mk 1 3 3 2 [(1, 101)])).GetParentPageId = 3 ∧
      (built 3 2 [(1, 101), (2, 102), (3, 103)]).pages 3 = some (.internal (InternalPage.mk 3 INVALID_PAGE_ID 2 [(0, 1), (2, 2)])) ∧
      (InternalPage.mk 3 INVALID_PAGE_ID 2 [(0, 1), (2, 2)]).max_size = (built 3 2 [(1, 101), (2, 102), (3, 103)]).internal_max_size ∧
      (InternalPage.mk 3 INVALID_PAGE_ID 2 [(0, 1), (2, 2)]).GetSize ≤ (built 3 2 [(1, 101), (2, 102), (3, 103)]).internal_max_size ∧
      ((∃ x, (Site.Split, x) ∈ newPageCalls
          (Latched.InsertIntoParent (0 + 1) 1 (built 3 2 [(1, 101), (2, 102), (3, 103)]) 1 2 2 false []).log) ↔
        ((InternalPage.mk 3 INVALID_PAGE_ID 2 [(0, 1), (2, 2)]).InsertNodeAfter (Page.leaf (LeafPage.mk 1 3 3 2 [(1, 101)])).GetPageId 2 (Page.leaf (LeafPage.mk 2 3 3 INVALID_PAGE_ID [(2, 102), (3, 103)])).GetPageId).GetSize =
          (built 3 2 [(1, 101), (2, 102), (3, 103)]).internal_max_size + 1)) :=
  ⟨⟨by decide, by decide, rfl, by decide,
    (split_sizes (rootLeafOf 4 4 [(1, 101), (2, 102), (3, 103), (4, 104)]) 1 (by decide)).1 _ (by decide) rfl (by decide)⟩,
   ⟨by decide, by decide, by decide, by decide, by decide,
    (split_sizes ({ (built 3 3 [(1, 101), (2, 102), (3, 103), (4, 104)]) with internal_max_size := 2 } : BPlusTree) 3 (by decide)).2.1 (InternalPage.mk 3 INVALID_PAGE_ID 3 [(0, 1), (2, 2), (3, 4)]) (by decide) (by decide) (by decide) (by decide)⟩,
   ⟨by decide, by decide, by decide, by decide, by decide, by decide, by decide, by decide,
    (split_sizes (built 3 2 [(1, 101), (2, 102), (3, 103)]) 3 (by decide)).2.2 0 1 1 2 2 false [] (Page.leaf (LeafPage.mk 1 3 3 2 [(1, 101)])) (Page.leaf (LeafPage.mk 2 3 3 INVALID_PAGE_ID [(2, 102), (3, 103)])) (InternalPage.mk 3 INVALID_PAGE_ID 2 [(0, 1), (2, 2)]) (by decide)
      (by decide) (by decide) (by decide) (by decide) (by decide) (by decide)⟩⟩

/-- C21 fails on the code when the under-full page is child 0 of its parent.  With
`leaf_max_size = internal_max_size = 3` the calls `Insert(1)`, ..., `Insert(4)` build the root
page 3 over the leaves 1, 2 and 4, which hold the keys 1, 2 and 3, 4.  `Remove(1)` empties
leaf 1 (index 0) and coalesces it with its right sibling, leaf 2: the entry of leaf 2 is moved
into leaf 1 and the slot of leaf 2 is removed from page 3, but the page queued for deletion,
and passed to `DeletePage`, is the surviving left-hand page 1, while the emptied page 2 stays in
the pool.  `Remove(2)` on the same tree (index 1, sibling on the left) queues the emptied
right-hand page 2. -/
theorem coalesce_of_leftmost_child_deletes_left_page :
    removeQueued (built 3 3 [(1, 101), (2, 102), (3, 103), (4, 104)]) 1 [1, 2, 3] =
      .ok { deleted := [1], entries := [some [(2, 102)], some [], some [(0, 1), (3, 4)]] } ∧
    removeDeleted (built 3 3 [(1, 101), (2, 102), (3, 103), (4, 104)]) 1 [1, 2, 3] =
      .ok { deleted := [1], entries := [none, some [], some [(0, 1), (3, 4)]] } ∧
    removeQueued (built 3 3 [(1, 101), (2, 102), (3, 103), (4, 104)]) 2 [1, 2, 3] =
      .ok { deleted := [2], entries := [some [(1, 101)], some [], some [(0, 1), (3, 4)]] } := by
  decide

/-- C28: when `FindLeafPageByOperation` returns for INSERT or DELETE, the page set of the
transaction being empty on entry, the page set holds, in root-to-leaf order, the proper
ancestors of the returned leaf from the deepest node below the root on the descent path of which
`IsSafe` holds, or from the root when `IsSafe` holds of no node below the root (`heldAncestors`
of the path); it is empty exactly when `IsSafe` holds of the leaf or the leaf is the root; and the
returned flag is true exactly when `IsSafe` holds of no page on the path, the root
included. -/
theorem page_set_after_descent (t : BPlusTree) (key : Int) (op : Operation) (leftMost : Bool)
    (d : Descent) (hop : op ≠ .FIND)
    (h : (Latched.FindLeafPageByOperation t key op leftMost []).result = .ok d) :
    ∃ rest, descentPath t.pages key leftMost t.fuel t.root_page_id = t.root_page_id :: rest ∧
      (t.root_page_id :: rest).getLast? = some d.page_id ∧
      (∃ l, t.pages d.page_id = some (.leaf l)) ∧
      d.page_set = heldAncestors (t.safeAt op) (t.root_page_id :: rest) ∧
      (d.page_set = [] ↔ t.safeAt op d.page_id = true ∨ d.page_id = t.root_page_id) ∧
      (d.root_page_latch = true ↔ ∀ p ∈ t.root_page_id :: rest, t.safeAt op p = false) := by
  simp only [Latched.FindLeafPageByOperation] at h
  split at h
  · cases h
  · split at h
    · cases h
    · rename_i node hnode
      try rw [if_neg hop] at h
      have hsafeRoot : t.safeAt op t.root_page_id = t.IsSafe node op := by
        simp only [BPlusTree.safeAt, hnode]
      have key_fact : ∀ flag : Bool, (flag = true ↔ t.IsSafe node op = false) →
          (Latched.descendLoop t key op leftMost t.fuel t.root_page_id flag []).result = .ok d →
          ∃ rest, descentPath t.pages key leftMost t.fuel t.root_page_id =
              t.root_page_id :: rest ∧
            (t.root_page_id :: rest).getLast? = some d.page_id ∧
            (∃ l, t.pages d.page_id = some (.leaf l)) ∧
            d.page_set = heldAncestors (t.safeAt op) (t.root_page_id :: rest) ∧
            (d.page_set = [] ↔ t.safeAt op d.page_id = true ∨ d.page_id = t.root_page_id) ∧
            (d.root_page_latch = true ↔
              ∀ p ∈ t.root_page_id :: rest, t.safeAt op p = false) := by
        intro flag hflag0 hres
        obtain ⟨rest, hp, hlast, hleaf, hint, hset, hflag⟩ :=
          descendLoop_page_set t key op leftMost hop _ _ _ _ d hres
        have hheld : d.page_set = heldAncestors (t.safeAt op) (t.root_page_id :: rest) := by
          rw [hset]
          simp only [heldAncestors]
          cases deepestSafe (t.safeAt op) rest with
          | some s => rfl
          | none => simp only [List.nil_append]
        refine ⟨rest, hp, hlast, hleaf, hheld, ?_, ?_⟩
        · constructor
          · intro hempty
            rw [hset] at hempty
            cases hd : deepestSafe (t.safeAt op) rest with
            | some s =>
              rw [hd] at hempty
              simp only at hempty
              obtain ⟨pre, x, tl, e1, e2, e3, -⟩ := deepestSafe_spec _ _ _ hd
              subst e2
              have htl : tl = [] := by
                cases tl with
                | nil => rfl
                | cons a b => simp at hempty
              subst htl
              left
              rw [e1] at hlast
              have : (t.root_page_id :: (pre ++ [x])).getLast? = some x := by
                rw [← List.cons_append, List.getLast?_append]
                rfl
              rw [this] at hlast
              cases hlast
              exact e3
            | none =>
              rw [hd] at hempty
              simp only [List.nil_append] at hempty
              right
              cases rest with
              | nil =>
                simp only [List.getLast?_singleton, Option.some.injEq] at hlast
                exact hlast.symm
              | cons a b => simp at hempty
          · intro hor
            rw [hheld]
            cases rest with
            | nil => simp [heldAncestors, deepestSafe]
            | cons a b =>
              obtain ⟨n, hn⟩ := hint (by simp)
              obtain ⟨l, hl⟩ := hleaf
              have hne : d.page_id ≠ t.root_page_id := by
                intro e
                rw [e, hn] at hl
                cases hl
              have hs : t.safeAt op d.page_id = true := by
                rcases hor with h1 | h1
                · exact h1
                · exact absurd h1 hne
              have hsplit : ∃ init, a :: b = init ++ [d.page_id] := by
                have hne2 : a :: b ≠ [] := by simp
                refine ⟨(a :: b).dropLast, ?_⟩
                have h1 : (a :: b).getLast? = some d.page_id := by
                  rw [List.getLast?_cons_cons] at hlast; exact hlast
                have h2 := List.dropLast_append_getLast? _ h1
                exact h2.symm
              obtain ⟨init, hinit⟩ := hsplit
              simp only [heldAncestors]
              rw [hinit, deepestSafe_last _ _ _ hs]
              rfl
        · rw [hflag, hflag0]
          constructor
          · rintro ⟨h1, h2⟩ p hp1
            rcases List.mem_cons.1 hp1 with h3 | h3
            · subst h3; rw [hsafeRoot]; exact h1
            · exact h2 p h3
          · intro hall
            refine ⟨?_, fun p hp1 => hall p (List.mem_cons_of_mem _ hp1)⟩
            rw [← hsafeRoot]
            exact hall _ (List.mem_cons_self _ _)
      split at h
      · rename_i hs
        rw [Traced.result_emit] at h
        exact key_fact false (by simp [hs]) h
      · rename_i hs
        rw [Traced.result_emit] at h
        exact key_fact true (by simpa using hs) h

set_option maxRecDepth 100000 in
theorem page_set_after_descent_witness :
    Operation.DELETE ≠ Operation.FIND ∧
    (Latched.FindLeafPageByOperation
        (built 4 4 [(1, 101), (2, 102), (3, 103), (4, 104), (5, 105), (6, 106), (7, 107),
          (8, 108), (9, 109), (10, 110)]) 10 .DELETE false []).result =
      .ok { page_id := 6, root_page_latch := false, page_set := [7] } ∧
    ∃ rest, descentPath
        (built 4 4 [(1, 101), (2, 102), (3, 103), (4, 104), (5, 105), (6, 106), (7, 107),
          (8, 108), (9, 109), (10, 110)]).pages 10 false
        (built 4 4 [(1, 101), (2, 102), (3, 103), (4, 104), (5, 105), (6, 106), (7, 107),
          (8, 108), (9, 109), (10, 110)]).fuel
        (built 4 4 [(1, 101), (2, 102), (3, 103), (4, 104), (5, 105), (6, 106), (7, 107),
          (8, 108), (9, 109), (10, 110)]).root_page_id =
          (built 4 4 [(1, 101), (2, 102), (3, 103), (4, 104), (5, 105), (6, 106), (7, 107),
            (8, 108), (9, 109), (10, 110)]).root_page_id :: rest ∧
      ((built 4 4 [(1, 101), (2, 102), (3, 103), (4, 104), (5, 105), (6, 106), (7, 107),
          (8, 108), (9, 109), (10, 110)]).root_page_id :: rest).getLast? =
        some (Descent.mk 6 false [7]).page_id ∧
      (∃ l, (built 4 4 [(1, 101), (2, 102), (3, 103), (4, 104), (5, 105), (6, 106), (7, 107),
          (8, 108), (9, 109), (10, 110)]).pages (Descent.mk 6 false [7]).page_id =
        some (.leaf l)) ∧
      (Descent.mk 6 false [7]).page_set =
        heldAncestors ((built 4 4 [(1, 101), (2, 102), (3, 103), (4, 104), (5, 105), (6, 106),
          (7, 107), (8, 108), (9, 109), (10, 110)]).safeAt .DELETE)
          ((built 4 4 [(1, 101), (2, 102), (3, 103), (4, 104), (5, 105), (6, 106), (7, 107),
            (8, 108), (9, 109), (10, 110)]).root_page_id :: rest) ∧
      ((Descent.mk 6 false [7]).page_set = [] ↔
        (built 4 4 [(1, 101), (2, 102), (3, 103), (4, 104), (5, 105), (6, 106), (7, 107),
          (8, 108), (9, 109), (10, 110)]).safeAt .DELETE (Descent.mk 6 false [7]).page_id = true ∨
        (Descent.mk 6 false [7]).page_id =
          (built 4 4 [(1, 101), (2, 102), (3, 103), (4, 104), (5, 105), (6, 106), (7, 107),
            (8, 108), (9, 109), (10, 110)]).root_page_id) ∧
      ((Descent.mk 6 false [7]).root_page_latch = true ↔
        ∀ p ∈ (built 4 4 [(1, 101), (2, 102), (3, 103), (4, 104), (5, 105), (6, 106), (7, 107),
          (8, 108), (9, 109), (10, 110)]).root_page_id :: rest,
          (built 4 4 [(1, 101), (2, 102), (3, 103), (4, 104), (5, 105), (6, 106), (7, 107),
            (8, 108), (9, 109), (10, 110)]).safeAt .DELETE p = false) :=
  ⟨by decide, by decide,
    page_set_after_descent _ 10 .DELETE false (Descent.mk 6 false [7]) (by decide)
      (by decide)⟩

/-- C24: on an under-full page other than the root, in a tree of the shape `Shape`,
`CoalesceOrRedistribute` works with the sibling `parent.child(1)` when the page is child 0 and
`parent.child(index - 1)` otherwise.  When `sibling.size + node.size` exceeds the capacity
`maxSize(node)` (`leaf_max_size - 1` for a leaf, `internal_max_size` for an internal page), it
returns what `Redistribute` leaves, with the flag false; otherwise it coalesces: before the
recursive call on the parent, the left-hand page of the two holds the entries of both, its size
is the sum of the two sizes and does not exceed the capacity, the right-hand page is empty, and
the parent has lost the slot of the right-hand page. -/
theorem coalesce_when_fits (fuel : Nat) (t : BPlusTree) (lvl : Int → Nat) (dead : Int → Prop)
    (node_id : Int) (node : Page) (txn : Transaction) (pn : InternalPage) (index : Nat)
    (s : Int) (ps : Page) (hs : Shape t lvl dead node_id)
    (hnode : t.pages node_id = some node) (hlive : ¬ dead node_id)
    (hnr : node_id ≠ t.root_page_id) (hunder : node.GetSize < node.GetMinSize)
    (hp : t.pages node.GetParentPageId = some (.internal pn))
    (hidx : pn.ValueIndex node.GetPageId = some index)
    (hsv : pn.ValueAt (if index = 0 then 1 else index - 1) = some s)
    (hsib : t.pages s = some ps) :
    (ps.GetSize + node.GetSize > t.maxSize node →
      BPlusTree.CoalesceOrRedistribute (fuel + 1) t node_id txn =
        (match t.Redistribute s node_id index with
         | .error e => .error e
         | .ok t1 => .ok (t1, txn, false))) ∧
    (ps.GetSize + node.GetSize ≤ t.maxSize node →
      ∃ tm merged emptied,
        BPlusTree.CoalesceOrRedistribute (fuel + 1) t node_id txn =
          (match BPlusTree.CoalesceOrRedistribute fuel tm node.GetParentPageId txn with
           | .error e => .error e
           | .ok (t1, txn1, delete_parent) =>
             .ok (t1,
               if delete_parent then txn1.AddIntoDeletedPageSet pn.page_id else txn1, true)) ∧
        tm.pages (if index = 0 then node_id else s) = some merged ∧
        tm.pages (if index = 0 then s else node_id) = some emptied ∧
        tm.pages node.GetParentPageId =
          some (.internal (pn.Remove (if index = 0 then 1 else index))) ∧
        merged.entries.map Prod.snd =
          ((if index = 0 then node else ps).entries ++
            (if index = 0 then ps else node).entries).map Prod.snd ∧
        (node.IsLeafPage = true → merged.entries =
          (if index = 0 then node else ps).entries ++ (if index = 0 then ps else node).entries) ∧
        merged.GetSize = ps.GetSize + node.GetSize ∧ merged.GetSize ≤ t.maxSize merged ∧
        emptied.entries = []) := by
  obtain ⟨hroot, hid, hpl, hne, hkind, hsin, hin, h0, h1⟩ :=
    hs.around hnode hlive hnr hp hidx hsv hsib
  have hunder1 : ¬ (node.GetSize ≥ node.GetMinSize) := by omega
  constructor
  · intro hbig
    simp only [BPlusTree.CoalesceOrRedistribute, hnode, hroot, Bool.false_eq_true, if_false,
      hunder1, hp, hidx, hsv, hsib, hbig, if_true]
  · intro hfit
    have hnot : ¬ (ps.GetSize + node.GetSize > t.maxSize node) := by omega
    obtain ⟨hal, hbl, hnda, hndb, hsep, hkids, hpa, hpb⟩ :=
      hs.siblings hp hpl hnode hsib hin hsin hne
    obtain ⟨kcm, -, hmid⟩ := keyAt_around
      (fun h => by obtain ⟨a, b, c, e, -⟩ := h0 h; exact ⟨a, b, c, e⟩)
      (fun h => by obtain ⟨a, b, c, d, e, -, -, e2⟩ := h1 h; exact ⟨a, b, c, d, e, e2⟩)
    have hcor : ∀ tm, (∀ recur txn0, BPlusTree.Coalesce recur t s node_id node.GetParentPageId
          index txn0 = recur tm node.GetParentPageId txn0) →
        BPlusTree.CoalesceOrRedistribute (fuel + 1) t node_id txn =
          (match BPlusTree.CoalesceOrRedistribute fuel tm node.GetParentPageId txn with
           | .error e => .error e
           | .ok (t1, txn1, delete_parent) =>
             .ok (t1,
               if delete_parent then txn1.AddIntoDeletedPageSet pn.page_id else txn1,
               true)) := by
      intro tm htm
      simp only [BPlusTree.CoalesceOrRedistribute, hnode, hroot, Bool.false_eq_true, if_false,
        hunder1, hp, hidx, hsv, hsib, hnot, htm]
    have hmax : ∀ pg : Page, pg.IsLeafPage = node.IsLeafPage → t.maxSize pg = t.maxSize node := by
      intro pg h
      simp only [BPlusTree.maxSize, h]
    by_cases hi : index = 0
    · simp only [hi, if_true] at hmid ⊢
      obtain ⟨tm, merged, emptied, hco, e1, e2, e3, e4, e5, e6, e7, e8⟩ :=
        @Coalesce_merge t s node_id node.GetParentPageId index ps node pn hp
          (by rw [if_pos hi]; exact hsib) (by rw [if_pos hi]; exact hnode) hkind
          (by rw [if_pos hi]; exact ⟨_, hmid⟩)
          (by
            rw [if_pos hi, if_pos hi]
            intro c hc
            obtain ⟨a1, a2, a3⟩ := hkids c (Or.inr hc)
            exact ⟨a2, a1, a3⟩)
          (by rw [if_pos hi, if_pos hi]; exact Ne.symm hne)
          (by rw [if_pos hi]; exact hpb) (by rw [if_pos hi]; exact hpa)
      simp only [hi, if_true] at hco e1 e2 e3
      refine ⟨tm, merged, emptied, ?_, e1, e2, e3, e4, ?_, ?_, ?_, e8⟩
      · have := hcor tm (by intro r x; rw [hi]; exact hco r x)
        exact this
      · intro hl; exact e5 hl
      · rw [e6]; omega
      · rw [hmax merged e7, e6]; omega
    · simp only [hi, if_false] at hmid ⊢
      obtain ⟨tm, merged, emptied, hco, e1, e2, e3, e4, e5, e6, e7, e8⟩ :=
        @Coalesce_merge t s node_id node.GetParentPageId index node ps pn hp
          (by rw [if_neg hi]; exact hnode) (by rw [if_neg hi]; exact hsib) hkind.symm
          (by rw [if_neg hi]; exact ⟨_, hmid⟩)
          (by
            rw [if_neg hi, if_neg hi]
            intro c hc
            obtain ⟨a1, a2, a3⟩ := hkids c (Or.inl hc)
            exact ⟨a1, a2, a3⟩)
          (by rw [if_neg hi, if_neg hi]; exact hne)
          (by rw [if_neg hi]; exact hpa) (by rw [if_neg hi]; exact hpb)
      simp only [hi, if_false] at hco e1 e2 e3
      refine ⟨tm, merged, emptied, hcor tm hco, e1, e2, e3, e4, ?_, ?_, ?_, e8⟩
      · intro hl; exact e5 (by rw [hkind]; exact hl)
      · rw [e6]
      · rw [hmax merged (by rw [e7, hkind]), e6]; omega

set_option maxRecDepth 100000 in
theorem coalesce_when_fits_witness :
    (∃ lvl, Shape ((built 3 3 [(1, 101), (2, 102), (3, 103), (4, 104)]).write 1 (.leaf (LeafPage.mk 1 3 3 2 []))) lvl (fun _ => False) 1) ∧
    ((built 3 3 [(1, 101), (2, 102), (3, 103), (4, 104)]).write 1 (.leaf (LeafPage.mk 1 3 3 2 []))).pages 1 = some (Page.leaf (LeafPage.mk 1 3 3 2 [])) ∧
    (1 : Int) ≠ ((built 3 3 [(1, 101), (2, 102), (3, 103), (4, 104)]).write 1 (.leaf (LeafPage.mk 1 3 3 2 []))).root_page_id ∧
    (Page.leaf (LeafPage.mk 1 3 3 2 [])).GetSize < (Page.leaf (LeafPage.mk 1 3 3 2 [])).GetMinSize ∧
    ((built 3 3 [(1, 101), (2, 102), (3, 103), (4, 104)]).write 1 (.leaf (LeafPage.mk 1 3 3 2 []))).pages (Page.leaf (LeafPage.mk 1 3 3 2 [])).GetParentPageId = some (.internal (InternalPage.mk 3 INVALID_PAGE_ID 3 [(0, 1), (2, 2), (3, 4)])) ∧
    (InternalPage.mk 3 INVALID_PAGE_ID 3 [(0, 1), (2, 2), (3, 4)]).ValueIndex (Page.leaf (LeafPage.mk 1 3 3 2 [])).GetPageId = some 0 ∧
    (InternalPage.mk 3 INVALID_PAGE_ID 3 [(0, 1), (2, 2), (3, 4)]).ValueAt (if (0 : Nat) = 0 then 1 else 0 - 1) = some 2 ∧
    ((built 3 3 [(1, 101), (2, 102), (3, 103), (4, 104)]).write 1 (.leaf (LeafPage.mk 1 3 3 2 []))).pages 2 = some (Page.leaf (LeafPage.mk 2 3 3 4 [(2, 102)])) ∧
    ((Page.leaf (LeafPage.mk 2 3 3 4 [(2, 102)])).GetSize + (Page.leaf (LeafPage.mk 1 3 3 2 [])).GetSize > ((built 3 3 [(1, 101), (2, 102), (3, 103), (4, 104)]).write 1 (.leaf (LeafPage.mk 1 3 3 2 []))).maxSize (Page.leaf (LeafPage.mk 1 3 3 2 [])) →
      BPlusTree.CoalesceOrRedistribute (0 + 1) ((built 3 3 [(1, 101), (2, 102), (3, 103), (4, 104)]).write 1 (.leaf (LeafPage.mk 1 3 3 2 []))) 1 (Transaction.mk []) =
        (match ((built 3 3 [(1, 101), (2, 102), (3, 103), (4, 104)]).write 1 (.leaf (LeafPage.mk 1 3 3 2 []))).Redistribute 2 1 0 with
         | .error e => .error e
         | .ok t1 => .ok (t1, (Transaction.mk []), false))) ∧
    ((Page.leaf (LeafPage.mk 2 3 3 4 [(2, 102)])).GetSize + (Page.leaf (LeafPage.mk 1 3 3 2 [])).GetSize ≤ ((built 3 3 [(1, 101), (2, 102), (3, 103), (4, 104)]).write 1 (.leaf (LeafPage.mk 1 3 3 2 []))).maxSize (Page.leaf (LeafPage.mk 1 3 3 2 [])) →
      ∃ tm merged emptied,
        BPlusTree.CoalesceOrRedistribute (0 + 1) ((built 3 3 [(1, 101), (2, 102), (3, 103), (4, 104)]).write 1 (.leaf (LeafPage.mk 1 3 3 2 []))) 1 (Transaction.mk []) =
          (match BPlusTree.CoalesceOrRedistribute 0 tm (Page.leaf (LeafPage.mk 1 3 3 2 [])).GetParentPageId (Transaction.mk []) with
           | .error e => .error e
           | .ok (t1, txn1, delete_parent) =>
             .ok (t1,
               if delete_parent then txn1.AddIntoDeletedPageSet (InternalPage.mk 3 INVALID_PAGE_ID 3 [(0, 1), (2, 2), (3, 4)]).page_id else txn1, true)) ∧
        tm.pages (if (0 : Nat) = 0 then 1 else 2) = some merged ∧
        tm.pages (if (0 : Nat) = 0 then 2 else 1) = some emptied ∧
        tm.pages (Page.leaf (LeafPage.mk 1 3 3 2 [])).GetParentPageId =
          some (.internal ((InternalPage.mk 3 INVALID_PAGE_ID 3 [(0, 1), (2, 2), (3, 4)]).Remove (if (0 : Nat) = 0 then 1 else 0))) ∧
        merged.entries.map Prod.snd =
          ((if (0 : Nat) = 0 then (Page.leaf (LeafPage.mk 1 3 3 2 [])) else (Page.leaf (LeafPage.mk 2 3 3 4 [(2, 102)]))).entries ++
            (if (0 : Nat) = 0 then (Page.leaf (LeafPage.mk 2 3 3 4 [(2, 102)])) else (Page.leaf (LeafPage.mk 1 3 3 2 []))).entries).map Prod.snd ∧
        ((Page.leaf (LeafPage.mk 1 3 3 2 [])).IsLeafPage = true → merged.entries =
          (if (0 : Nat) = 0 then (Page.leaf (LeafPage.mk 1 3 3 2 [])) else (Page.leaf (LeafPage.mk 2 3 3 4 [(2, 102)]))).entries ++
            (if (0 : Nat) = 0 then (Page.leaf (LeafPage.mk 2 3 3 4 [(2, 102)])) else (Page.leaf (LeafPage.mk 1 3 3 2 []))).entries) ∧
        merged.GetSize = (Page.leaf (LeafPage.mk 2 3 3 4 [(2, 102)])).GetSize + (Page.leaf (LeafPage.mk 1 3 3 2 [])).GetSize ∧ merged.GetSize ≤ ((built 3 3 [(1, 101), (2, 102), (3, 103), (4, 104)]).write 1 (.leaf (LeafPage.mk 1 3 3 2 []))).maxSize merged ∧
        emptied.entries = []) := by
  obtain ⟨lvl, hs⟩ := @built_shape 3 3 [(1, 101), (2, 102), (3, 103), (4, 104)] (by decide) (by decide) 1
    (LeafPage.mk 1 3 3 2 [(1, 101)]) [] (by decide)
  exact ⟨⟨lvl, hs⟩, by decide, by decide, by decide, by decide, by decide, by decide, by decide,
    coalesce_when_fits 0 ((built 3 3 [(1, 101), (2, 102), (3, 103), (4, 104)]).write 1 (.leaf (LeafPage.mk 1 3 3 2 []))) lvl (fun _ => False) 1 (Page.leaf (LeafPage.mk 1 3 3 2 [])) (Transaction.mk []) (InternalPage.mk 3 INVALID_PAGE_ID 3 [(0, 1), (2, 2), (3, 4)]) 0 2 (Page.leaf (LeafPage.mk 2 3 3 4 [(2, 102)])) hs (by decide)
      (fun h => h) (by decide) (by decide) (by decide) (by decide) (by decide) (by decide)⟩

/-- C22: in a tree of the shape `Shape` with `leaf_max_size >= 1` and
`internal_max_size >= 1`, let `CoalesceOrRedistribute` be called on a page other than the root
that holds `min_size - 1` entries, whose sibling holds at most `maxSize` entries, and let the
two sizes add up to more than `maxSize(node)`.  Then `Redistribute` is what is done: the call
returns false, the page has gained one entry and the sibling has lost one, the entries of
the left-hand page followed by those of the right-hand page are the same sequence as before (for
internal pages: the same children in the same order and, with the unused key of slot 0 of the
right-hand page read as the separator key of the parent, the same entries), and both pages hold
between `min_size` and `maxSize` entries afterwards. -/
theorem redistribute_moves_one_entry (fuel : Nat) (t : BPlusTree) (lvl : Int → Nat)
    (dead : Int → Prop) (node_id : Int) (node : Page) (txn : Transaction) (pn : InternalPage)
    (index : Nat) (s : Int) (ps : Page) (hs : Shape t lvl dead node_id)
    (hL : 1 ≤ t.leaf_max_size) (hI : 1 ≤ t.internal_max_size)
    (hnode : t.pages node_id = some node) (hlive : ¬ dead node_id)
    (hnr : node_id ≠ t.root_page_id) (hsize : node.GetSize + 1 = node.GetMinSize)
    (hp : t.pages node.GetParentPageId = some (.internal pn))
    (hidx : pn.ValueIndex node.GetPageId = some index)
    (hsv : pn.ValueAt (if index = 0 then 1 else index - 1) = some s)
    (hsib : t.pages s = some ps) (hsibmax : ps.GetSize ≤ t.maxSize ps)
    (hbig : ps.GetSize + node.GetSize > t.maxSize node) :
    ∃ t1 node1 ps1 pn1,
      BPlusTree.CoalesceOrRedistribute (fuel + 1) t node_id txn = .ok (t1, txn, false) ∧
      t1.pages node_id = some node1 ∧ t1.pages s = some ps1 ∧
      t1.pages node.GetParentPageId = some (.internal pn1) ∧
      node1.GetSize = node.GetSize + 1 ∧ ps1.GetSize + 1 = ps.GetSize ∧
      (node.IsLeafPage = true →
        (if index = 0 then node1 else ps1).entries ++ (if index = 0 then ps1 else node1).entries =
          (if index = 0 then node else ps).entries ++ (if index = 0 then ps else node).entries) ∧
      ((if index = 0 then node1 else ps1).entries ++
          (if index = 0 then ps1 else node1).entries).map Prod.snd =
        ((if index = 0 then node else ps).entries ++
          (if index = 0 then ps else node).entries).map Prod.snd ∧
      (node.IsLeafPage = false → ∀ sep sep1,
        pn.KeyAt (if index = 0 then 1 else index) = some sep →
        pn1.KeyAt (if index = 0 then 1 else index) = some sep1 →
        (if index = 0 then node1 else ps1).entries ++
            InternalPage.setKeyAt (if index = 0 then ps1 else node1).entries 0 sep1 =
          (if index = 0 then node else ps).entries ++
            InternalPage.setKeyAt (if index = 0 then ps else node).entries 0 sep) ∧
      node1.GetMinSize ≤ node1.GetSize ∧ node1.GetSize ≤ t.maxSize node1 ∧
      ps1.GetMinSize ≤ ps1.GetSize ∧ ps1.GetSize ≤ t.maxSize ps1 := by
  obtain ⟨hroot, hid, hpl, hne, hkind, hsin, hin, h0, h1⟩ :=
    hs.around hnode hlive hnr hp hidx hsv hsib
  obtain ⟨hal, hbl, -, -, -, -, -, -⟩ := hs.siblings hp hpl hnode hsib hin hsin hne
  have hkn := (hs.kind _ _ hnode hlive).2
  have hks := (hs.kind _ _ hsib hbl).2
  have hcap : node.GetMinSize ≤ t.maxSize node ∧ 2 * node.GetMinSize ≤ t.maxSize node + 1 ∧
      ps.GetMinSize = node.GetMinSize ∧ t.maxSize ps = t.maxSize node := by
    cases node with
    | leaf ln =>
      cases ps with
      | internal _ => simp [Page.IsLeafPage] at hkind
      | leaf ls =>
        simp only [Page.GetMaxSize, Page.IsLeafPage, if_true] at hkn hks
        simp only [Page.GetMinSize, LeafPage.GetMinSize, BPlusTree.maxSize, Page.IsLeafPage,
          if_true, hkn, hks] at hsize hsibmax hbig ⊢
        refine ⟨?_, ?_, ?_, ?_⟩ <;> first | trivial | omega
    | internal nn =>
      cases ps with
      | leaf _ => simp [Page.IsLeafPage] at hkind
      | internal ns =>
        simp only [Page.GetMaxSize, Page.IsLeafPage, Bool.false_eq_true, if_false] at hkn hks
        simp only [Page.GetMinSize, InternalPage.GetMinSize, BPlusTree.maxSize,
          Page.IsLeafPage, Bool.false_eq_true, if_false, hkn, hks] at hsize hsibmax hbig ⊢
        refine ⟨?_, ?_, ?_, ?_⟩ <;> first | trivial | omega
  obtain ⟨c1, c2, c3, c4⟩ := hcap
  have hm : 2 ≤ ps.GetSize := by omega
  obtain ⟨t1, node1, ps1, k, hr, e1, e2, e3, hh1, hh2, f0, f1⟩ :=
    Redistribute_rotate hs hnode hlive hnr hp hidx hsv hsib hm
  have hunder1 : ¬ (node.GetSize ≥ node.GetMinSize) := by omega
  have hcor : BPlusTree.CoalesceOrRedistribute (fuel + 1) t node_id txn =
      .ok (t1, txn, false) := by
    simp only [BPlusTree.CoalesceOrRedistribute, hnode, hroot, Bool.false_eq_true, if_false,
      hunder1, hp, hidx, hsv, hsib, hbig, if_true, hr]
  obtain ⟨kcm, hget, hmid⟩ := keyAt_around
    (fun h => by obtain ⟨a, b, c, e, -⟩ := h0 h; exact ⟨a, b, c, e⟩)
    (fun h => by obtain ⟨a, b, c, d, e, -, -, e2⟩ := h1 h; exact ⟨a, b, c, d, e, e2⟩)
  have hk1 : (pn.SetKeyAt (if index = 0 then 1 else index) k).KeyAt
      (if index = 0 then 1 else index) = some k := by
    simp only [InternalPage.KeyAt, InternalPage.SetKeyAt, keyAt_setKeyAt _ _ k _ hget,
      Option.map_some']
  have hmin1 := hh1.minSize
  have hmin2 := hh2.minSize
  have hcap1 := hh1.capacity t
  have hcap2 := hh2.capacity t
  have hsz : node1.GetSize = node.GetSize + 1 ∧ ps1.GetSize + 1 = ps.GetSize := by
    rw [Page.getSize_entries node1, Page.getSize_entries node, Page.getSize_entries ps1,
      Page.getSize_entries ps]
    by_cases hi : index = 0
    · obtain ⟨x, a1, -, a3⟩ := f0 hi
      rw [a1]
      rcases a3 with ⟨-, a4⟩ | ⟨-, sep, -, a4⟩ <;> rw [a4] <;> simp
    · obtain ⟨z, a1, -, a3⟩ := f1 hi
      rw [a1]
      rcases a3 with ⟨-, a4⟩ | ⟨-, sep, -, a4⟩ <;> rw [a4] <;> simp [length_setKeyAt]
  refine ⟨t1, node1, ps1, _, hcor, e1, e2, e3, hsz.1, hsz.2, ?_, ?_, ?_, ?_, ?_, ?_, ?_⟩
  · intro hleaf
    by_cases hi : index = 0
    · obtain ⟨x, a1, -, a3⟩ := f0 hi
      simp only [hi, if_true]
      rcases a3 with ⟨-, a4⟩ | ⟨a5, -⟩
      · rw [a4, a1]; simp
      · rw [hleaf] at a5; cases a5
    · obtain ⟨z, a1, -, a3⟩ := f1 hi
      simp only [hi, if_false]
      rcases a3 with ⟨-, a4⟩ | ⟨a5, -⟩
      · rw [a4, a1]; simp
      · rw [hleaf] at a5; cases a5
  · by_cases hi : index = 0
    · obtain ⟨x, a1, -, a3⟩ := f0 hi
      simp only [hi, if_true]
      rcases a3 with ⟨-, a4⟩ | ⟨-, sep, -, a4⟩ <;> rw [a4, a1] <;> simp
    · obtain ⟨z, a1, -, a3⟩ := f1 hi
      simp only [hi, if_false]
      rcases a3 with ⟨-, a4⟩ | ⟨-, sep, -, a4⟩ <;> rw [a4, a1] <;>
        simp [map_snd_setKeyAt]
  · intro hint sep sep1 hsep hsep1
    rw [hk1] at hsep1
    cases hsep1
    by_cases hi : index = 0
    · obtain ⟨x, a1, a2, a3⟩ := f0 hi
      simp only [hi, if_true] at hsep ⊢
      rcases a3 with ⟨a5, -⟩ | ⟨-, sep2, a6, a4⟩
      · rw [hint] at a5; cases a5
      · rw [hsep] at a6
        cases a6
        rw [a4, a1]
        cases hps1 : ps1.entries with
        | nil => rw [hps1] at a2; simp at a2
        | cons y rest =>
          rw [hps1] at a2
          simp only [List.head?_cons, Option.map_some', Option.some.injEq] at a2
          subst a2
          simp [InternalPage.setKeyAt]
    · obtain ⟨z, a1, a2, a3⟩ := f1 hi
      simp only [hi, if_false] at hsep ⊢
      rcases a3 with ⟨a5, -⟩ | ⟨-, sep2, a6, a4⟩
      · rw [hint] at a5; cases a5
      · rw [hsep] at a6
        cases a6
        subst a2
        rw [a4, a1]
        simp [InternalPage.setKeyAt]
  · rw [hmin1, hsz.1]; omega
  · rw [hcap1, hsz.1]; omega
  · rw [hmin2, c3]; omega
  · rw [hcap2]; omega

set_option maxRecDepth 100000 in
theorem redistribute_moves_one_entry_witness :
    (∃ lvl, Shape ((built 4 4 [(1, 101), (2, 102), (3, 103), (4, 104), (5, 105)]).write 1 (.leaf (LeafPage.mk 1 3 4 2 [(2, 102)]))) lvl (fun _ => False) 1) ∧
    (1 : Int) ≤ ((built 4 4 [(1, 101), (2, 102), (3, 103), (4, 104), (5, 105)]).write 1 (.leaf (LeafPage.mk 1 3 4 2 [(2, 102)]))).leaf_max_size ∧ (1 : Int) ≤ ((built 4 4 [(1, 101), (2, 102), (3, 103), (4, 104), (5, 105)]).write 1 (.leaf (LeafPage.mk 1 3 4 2 [(2, 102)]))).internal_max_size ∧
    ((built 4 4 [(1, 101), (2, 102), (3, 103), (4, 104), (5, 105)]).write 1 (.leaf (LeafPage.mk 1 3 4 2 [(2, 102)]))).pages 1 = some (Page.leaf (LeafPage.mk 1 3 4 2 [(2, 102)])) ∧
    (1 : Int) ≠ ((built 4 4 [(1, 101), (2, 102), (3, 103), (4, 104), (5, 105)]).write 1 (.leaf (LeafPage.mk 1 3 4 2 [(2, 102)]))).root_page_id ∧
    (Page.leaf (LeafPage.mk 1 3 4 2 [(2, 102)])).GetSize + 1 = (Page.leaf (LeafPage.mk 1 3 4 2 [(2, 102)])).GetMinSize ∧
    ((built 4 4 [(1, 101), (2, 102), (3, 103), (4, 104), (5, 105)]).write 1 (.leaf (LeafPage.mk 1 3 4 2 [(2, 102)]))).pages (Page.leaf (LeafPage.mk 1 3 4 2 [(2, 102)])).GetParentPageId = some (.internal (InternalPage.mk 3 INVALID_PAGE_ID 4 [(0, 1), (3, 2)])) ∧
    (InternalPage.mk 3 INVALID_PAGE_ID 4 [(0, 1), (3, 2)]).ValueIndex (Page.leaf (LeafPage.mk 1 3 4 2 [(2, 102)])).GetPageId = some 0 ∧
    (InternalPage.mk 3 INVALID_PAGE_ID 4 [(0, 1), (3, 2)]).ValueAt (if (0 : Nat) = 0 then 1 else 0 - 1) = some 2 ∧
    ((built 4 4 [(1, 101), (2, 102), (3, 103), (4, 104), (5, 105)]).write 1 (.leaf (LeafPage.mk 1 3 4 2 [(2, 102)]))).pages 2 = some (Page.leaf (LeafPage.mk 2 3 4 INVALID_PAGE_ID [(3, 103), (4, 104), (5, 105)])) ∧
    (Page.leaf (LeafPage.mk 2 3 4 INVALID_PAGE_ID [(3, 103), (4, 104), (5, 105)])).GetSize ≤ ((built 4 4 [(1, 101), (2, 102), (3, 103), (4, 104), (5, 105)]).write 1 (.leaf (LeafPage.mk 1 3 4 2 [(2, 102)]))).maxSize (Page.leaf (LeafPage.mk 2 3 4 INVALID_PAGE_ID [(3, 103), (4, 104), (5, 105)])) ∧
    (Page.leaf (LeafPage.mk 2 3 4 INVALID_PAGE_ID [(3, 103), (4, 104), (5, 105)])).GetSize + (Page.leaf (LeafPage.mk 1 3 4 2 [(2, 102)])).GetSize > ((built 4 4 [(1, 101), (2, 102), (3, 103), (4, 104), (5, 105)]).write 1 (.leaf (LeafPage.mk 1 3 4 2 [(2, 102)]))).maxSize (Page.leaf (LeafPage.mk 1 3 4 2 [(2, 102)])) ∧
    ∃ t1 node1 ps1 pn1,
      BPlusTree.CoalesceOrRedistribute (0 + 1) ((built 4 4 [(1, 101), (2, 102), (3, 103), (4, 104), (5, 105)]).write 1 (.leaf (LeafPage.mk 1 3 4 2 [(2, 102)]))) 1 (Transaction.mk []) = .ok (t1, (Transaction.mk []), false) ∧
      t1.pages 1 = some node1 ∧ t1.pages 2 = some ps1 ∧
      t1.pages (Page.leaf (LeafPage.mk 1 3 4 2 [(2, 102)])).GetParentPageId = some (.internal pn1) ∧
      node1.GetSize = (Page.leaf (LeafPage.mk 1 3 4 2 [(2, 102)])).GetSize + 1 ∧ ps1.GetSize + 1 = (Page.leaf (LeafPage.mk 2 3 4 INVALID_PAGE_ID [(3, 103), (4, 104), (5, 105)])).GetSize ∧
      ((Page.leaf (LeafPage.mk 1 3 4 2 [(2, 102)])).IsLeafPage = true →
        (if (0 : Nat) = 0 then node1 else ps1).entries ++ (if (0 : Nat) = 0 then ps1 else node1).entries =
          (if (0 : Nat) = 0 then (Page.leaf (LeafPage.mk 1 3 4 2 [(2, 102)])) else (Page.leaf (LeafPage.mk 2 3 4 INVALID_PAGE_ID [(3, 103), (4, 104), (5, 105)]))).entries ++
            (if (0 : Nat) = 0 then (Page.leaf (LeafPage.mk 2 3 4 INVALID_PAGE_ID [(3, 103), (4, 104), (5, 105)])) else (Page.leaf (LeafPage.mk 1 3 4 2 [(2, 102)]))).entries) ∧
      ((if (0 : Nat) = 0 then node1 else ps1).entries ++
          (if (0 : Nat) = 0 then ps1 else node1).entries).map Prod.snd =
        ((if (0 : Nat) = 0 then (Page.leaf (LeafPage.mk 1 3 4 2 [(2, 102)])) else (Page.leaf (LeafPage.mk 2 3 4 INVALID_PAGE_ID [(3, 103), (4, 104), (5, 105)]))).entries ++
          (if (0 : Nat) = 0 then (Page.leaf (LeafPage.mk 2 3 4 INVALID_PAGE_ID [(3, 103), (4, 104), (5, 105)])) else (Page.leaf (LeafPage.mk 1 3 4 2 [(2, 102)]))).entries).map Prod.snd ∧
      ((Page.leaf (LeafPage.mk 1 3 4 2 [(2, 102)])).IsLeafPage = false → ∀ sep sep1,
        (InternalPage.mk 3 INVALID_PAGE_ID 4 [(0, 1), (3, 2)]).KeyAt (if (0 : Nat) = 0 then 1 else 0) = some sep →
        pn1.KeyAt (if (0 : Nat) = 0 then 1 else 0) = some sep1 →
        (if (0 : Nat) = 0 then node1 else ps1).entries ++
            InternalPage.setKeyAt (if (0 : Nat) = 0 then ps1 else node1).entries 0 sep1 =
          (if (0 : Nat) = 0 then (Page.leaf (LeafPage.mk 1 3 4 2 [(2, 102)])) else (Page.leaf (LeafPage.mk 2 3 4 INVALID_PAGE_ID [(3, 103), (4, 104), (5, 105)]))).entries ++
            InternalPage.setKeyAt (if (0 : Nat) = 0 then (Page.leaf (LeafPage.mk 2 3 4 INVALID_PAGE_ID [(3, 103), (4, 104), (5, 105)])) else (Page.leaf (LeafPage.mk 1 3 4 2 [(2, 102)]))).entries 0 sep) ∧
      node1.GetMinSize ≤ node1.GetSize ∧ node1.GetSize ≤ ((built 4 4 [(1, 101), (2, 102), (3, 103), (4, 104), (5, 105)]).write 1 (.leaf (LeafPage.mk 1 3 4 2 [(2, 102)]))).maxSize node1 ∧
      ps1.GetMinSize ≤ ps1.GetSize ∧ ps1.GetSize ≤ ((built 4 4 [(1, 101), (2, 102), (3, 103), (4, 104), (5, 105)]).write 1 (.leaf (LeafPage.mk 1 3 4 2 [(2, 102)]))).maxSize ps1 := by
  obtain ⟨lvl, hs⟩ := @built_shape 4 4 [(1, 101), (2, 102), (3, 103), (4, 104), (5, 105)] (by decide) (by decide) 1
    (LeafPage.mk 1 3 4 2 [(1, 101), (2, 102)]) [(2, 102)] (by decide)
  exact ⟨⟨lvl, hs⟩, by decide, by decide, by decide, by decide, by decide, by decide,
    by decide, by decide, by decide, by decide, by decide,
    redistribute_moves_one_entry 0 ((built 4 4 [(1, 101), (2, 102), (3, 103), (4, 104), (5, 105)]).write 1 (.leaf (LeafPage.mk 1 3 4 2 [(2, 102)]))) lvl (fun _ => False) 1 (Page.leaf (LeafPage.mk 1 3 4 2 [(2, 102)])) (Transaction.mk []) (InternalPage.mk 3 INVALID_PAGE_ID 4 [(0, 1), (3, 2)]) 0 2 (Page.leaf (LeafPage.mk 2 3 4 INVALID_PAGE_ID [(3, 103), (4, 104), (5, 105)])) hs
      (by decide) (by decide) (by decide) (fun h => h) (by decide) (by decide) (by decide)
      (by decide) (by decide) (by decide) (by decide) (by decide)⟩

theorem get?_setKeyAt_ne :
    ∀ (arr : List (Int × Int)) (j : Nat) (k : Int) (i : Nat), i ≠ j →
      (InternalPage.setKeyAt arr j k).get? i = arr.get? i := by
  intro arr
  induction arr with
  | nil => intro j k i _; rfl
  | cons kc rest ih =>
    intro j k i hij
    cases j with
    | zero =>
      cases i with
      | zero => exact absurd rfl hij
      | succ i => rfl
    | succ j =>
      cases i with
      | zero => rfl
      | succ i =>
        show (InternalPage.setKeyAt rest j k).get? i = rest.get? i
        exact ih j k i (fun e => hij (by rw [e]))

/-- What `SetKeyAt` does to an internal page: the key of slot `j` is replaced, every other slot
and every child pointer is kept. -/
theorem setKeyAt_facts (pn : InternalPage) (j : Nat) (k : Int) (x : Int × Int)
    (hget : pn.array.get? j = some x) :
    pn.KeyAt j = some x.1 ∧ (pn.SetKeyAt j k).KeyAt j = some k ∧
      (∀ i, i ≠ j → (pn.SetKeyAt j k).array.get? i = pn.array.get? i) ∧
      (pn.SetKeyAt j k).array.map Prod.snd = pn.array.map Prod.snd := by
  refine ⟨by simp only [InternalPage.KeyAt, hget, Option.map_some'], ?_, ?_, ?_⟩
  · simp only [InternalPage.KeyAt, InternalPage.SetKeyAt, keyAt_setKeyAt _ _ _ _ hget,
      Option.map_some']
  · intro i hi
    exact get?_setKeyAt_ne _ _ _ _ hi
  · exact map_snd_setKeyAt _ _ _

/-- `Redistribute` on the page `node_id` and the sibling `s` that `CoalesceOrRedistribute`
picks for it, in a pool all of whose pages form a well-formed tree and with a sibling of at
least two entries: the call succeeds, the tree is well-formed again, the parent page is changed
by one `SetKeyAt`, and for internal pages the old separator goes down with the moved entry. -/
theorem Redistribute_separators {t : BPlusTree} {g : Ghost} {node_id s : Int}
    {node ps : Page} {pn : InternalPage} {index : Nat}
    (hinv : Inv t g) (hnode : t.pages node_id = some node)
    (hp : t.pages node.GetParentPageId = some (.internal pn))
    (hidx : pn.ValueIndex node_id = some index)
    (hsv : pn.ValueAt (if index = 0 then 1 else index - 1) = some s)
    (hsib : t.pages s = some ps) (hsz : 2 ≤ ps.GetSize) :
    ∃ t1 pn1 node1 ps1 k old,
      t.Redistribute s node_id index = .ok t1 ∧
      t1.pages node.GetParentPageId = some (.internal pn1) ∧
      t1.pages node_id = some node1 ∧ t1.pages s = some ps1 ∧
      SeparatorsOK t1.pages ∧ (∃ g1, Inv t1 g1) ∧
      pn.KeyAt (if index = 0 then 1 else index) = some old ∧
      pn1 = pn.SetKeyAt (if index = 0 then 1 else index) k ∧
      pn1.KeyAt (if index = 0 then 1 else index) = some k ∧
      (∀ i, i ≠ (if index = 0 then 1 else index) → pn1.array.get? i = pn.array.get? i) ∧
      pn1.array.map Prod.snd = pn.array.map Prod.snd ∧
      (index = 0 → (ps1.entries.get? 0).map Prod.fst = some k) ∧
      (index ≠ 0 → (node1.entries.get? 0).map Prod.fst = some k) ∧
      (node.IsLeafPage = false →
        (index = 0 → ∃ x, ps.entries.get? 0 = some x ∧
          node1.entries = node.entries ++ [(old, x.2)] ∧ ps1.entries = ps.entries.tail) ∧
        (index ≠ 0 → ∃ z c0, ps.entries.getLast? = some z ∧ node.entries.get? 0 = some c0 ∧
          node1.entries = z :: (old, c0.2) :: node.entries.tail ∧
          ps1.entries = ps.entries.dropLast)) := by
  obtain ⟨hkind, -, h0, h1⟩ := hinv.slotsAround hnode hp hidx hsv hsib
  have hlen : 2 ≤ ps.entries.length := by
    rw [Page.getSize_entries] at hsz
    exact_mod_cast hsz
  by_cases hi : index = 0
  · subst hi
    obtain ⟨kc, kc1, post1, harr, hkc, hkc1⟩ := h0 rfl
    obtain ⟨x, y, rest, hxy⟩ := list_two_of_length _ hlen
    have hget : pn.array.get? 1 = some kc1 := by rw [harr]; rfl
    obtain ⟨f1, f2, f3, f4⟩ := setKeyAt_facts pn 1 y.1 kc1 hget
    simp only [if_true]
    cases node with
    | leaf ln =>
      cases ps with
      | internal ns => simp [Page.IsLeafPage] at hkind
      | leaf ls =>
        obtain ⟨t1, hr, hinv1, hp1, hn1, hs1⟩ :=
          Redistribute_inv_leaf_first hinv hnode hsib hp harr hkc hkc1 hxy
        exact ⟨t1, _, _, _, y.1, kc1.1, hr, hp1, hn1, hs1,
          fun q n i a b hq ha hb => hinv1.separators hq ha hb, ⟨_, hinv1⟩, f1, rfl, f2, f3, f4,
          fun _ => rfl, fun h => absurd rfl h, fun h => by simp [Page.IsLeafPage] at h⟩
    | internal nn =>
      cases ps with
      | leaf ls => simp [Page.IsLeafPage] at hkind
      | internal ns =>
        obtain ⟨t1, hr, hinv1, hp1, hn1, hs1⟩ :=
          Redistribute_inv_internal_first hinv hnode hsib hp harr hkc hkc1 hxy
        refine ⟨t1, _, _, _, y.1, kc1.1, hr, hp1, hn1, hs1,
          fun q n i a b hq ha hb => hinv1.separators hq ha hb, ⟨_, hinv1⟩, f1, rfl, f2, f3, f4,
          fun _ => rfl, fun h => absurd rfl h, fun _ => ⟨fun _ => ?_, fun h => absurd rfl h⟩⟩
        have hxy1 : ns.array = x :: y :: rest := hxy
        exact ⟨x, by simp only [Page.entries, hxy1]; rfl, rfl,
          by simp only [Page.entries, hxy1, List.tail_cons]⟩
  · obtain ⟨pre, kc1, kc, post, harr, hkc1, hkc, hl⟩ := h1 hi
    have hne : ps.entries ≠ [] := by
      intro e; rw [e] at hlen; simp at hlen
    obtain ⟨init, z, hz, hz1, -⟩ := list_last_split _ hne
    have hinit : init ≠ [] := by
      intro e; rw [hz, e] at hlen; simp at hlen
    have hget : pn.array.get? index = some kc := by
      rw [harr, ← hl]
      have := get?_split (pre ++ [kc1]) kc post
      simpa using this
    obtain ⟨f1, f2, f3, f4⟩ := setKeyAt_facts pn index z.1 kc hget
    simp only [if_neg hi]
    cases node with
    | leaf ln =>
      cases ps with
      | internal ns => simp [Page.IsLeafPage] at hkind
      | leaf ls =>
        obtain ⟨t1, hr, hinv1, hp1, hn1, hs1⟩ :=
          Redistribute_inv_leaf_last hinv hnode hsib hp harr hkc1 hkc hl hz hinit
        exact ⟨t1, _, _, _, z.1, kc.1, hr, hp1, hn1, hs1,
          fun q n i a b hq ha hb => hinv1.separators hq ha hb, ⟨_, hinv1⟩, f1, rfl, f2, f3, f4,
          fun h => absurd h hi, fun _ => rfl, fun h => by simp [Page.IsLeafPage] at h⟩
    | internal nn =>
      cases ps with
      | leaf ls => simp [Page.IsLeafPage] at hkind
      | internal ns =>
        obtain ⟨t1, hr, hinv1, hp1, hn1, hs1⟩ :=
          Redistribute_inv_internal_last hinv hnode hsib hp harr hkc1 hkc hl hz hinit
        refine ⟨t1, _, _, _, z.1, kc.1, hr, hp1, hn1, hs1,
          fun q n i a b hq ha hb => hinv1.separators hq ha hb, ⟨_, hinv1⟩, f1, rfl, f2, f3, f4,
          fun h => absurd h hi, fun _ => rfl, fun _ => ⟨fun h => absurd h hi, fun _ => ?_⟩⟩
        have hz2 : ns.array = init ++ [z] := hz
        obtain ⟨h', c0, r0, -, hnn, -, -⟩ := hinv.internalOK node_id nn hnode
        refine ⟨z, c0, by simp only [Page.entries, hz2, List.getLast?_append, List.getLast?_singleton]; rfl,
          by simp only [Page.entries, hnn]; rfl, ?_, ?_⟩
        · simp only [Page.entries, hnn, List.tail_cons]
          rfl
        · simp only [Page.entries, hz2, List.dropLast_concat]

/-! ## The leaf that the descent returns -/

/-- The logged descent returns whenever the descent of the embedding does, with the same
leaf. -/
theorem descendLoop_returns (t : BPlusTree) (key : Int) (op : Operation) (lm : Bool) :
    ∀ (fuel : Nat) (q x : Int) (l : LeafPage) (flag : Bool) (ps : List Int),
      BPlusTree.findLeafLoop t.pages key lm fuel q = .ok (x, l) →
      ∃ d, (Latched.descendLoop t key op lm fuel q flag ps).result = .ok d ∧
        d.page_id = x := by
  intro fuel
  induction fuel with
  | zero => intro q x l flag ps h; simp [BPlusTree.findLeafLoop] at h
  | succ f ih =>
    intro q x l flag ps h
    simp only [BPlusTree.findLeafLoop] at h
    simp only [Latched.descendLoop]
    cases hq : t.pages q with
    | none => rw [hq] at h; cases h
    | some pg =>
      rw [hq] at h
      cases pg with
      | leaf l0 =>
        simp only [Except.ok.injEq, Prod.mk.injEq] at h
        exact ⟨_, rfl, h.1⟩
      | internal n =>
        simp only at h ⊢
        cases hn : (if lm = true then n.ValueAt 0 else n.Lookup key) with
        | none => rw [hn] at h; cases h
        | some next =>
          rw [hn] at h
          simp only at h ⊢
          split
          · exact ih _ _ _ _ _ h
          · split
            · rw [Traced.result_emit]; exact ih _ _ _ _ _ h
            · split
              · rw [Traced.result_emit]; exact ih _ _ _ _ _ h
              · rw [Traced.result_emit]; exact ih _ _ _ _ _ h

theorem FindLeafPageByOperation_returns {t : BPlusTree} {key x : Int} {lm : Bool}
    {l : LeafPage} (h : t.FindLeafPage key lm = .ok (x, l)) (op : Operation) (ps : List Int) :
    ∃ d, (Latched.FindLeafPageByOperation t key op lm ps).result = .ok d ∧ d.page_id = x := by
  simp only [BPlusTree.FindLeafPage] at h
  simp only [Latched.FindLeafPageByOperation]
  split at h
  · cases h
  · rename_i hne
    rw [if_neg hne]
    cases hr : t.pages t.root_page_id with
    | none =>
      cases hf : t.fuel with
      | zero => rw [hf] at h; simp [BPlusTree.findLeafLoop] at h
      | succ f => rw [hf] at h; simp [BPlusTree.findLeafLoop, hr] at h
    | some node =>
      simp only
      split
      · rw [Traced.result_emit]; exact descendLoop_returns t key op lm _ _ _ _ _ _ h
      · split
        · rw [Traced.result_emit]; exact descendLoop_returns t key op lm _ _ _ _ _ _ h
        · rw [Traced.result_emit]; exact descendLoop_returns t key op lm _ _ _ _ _ _ h

/-- With `leftMost = true` the descent does not read the key. -/
theorem findLeafLoop_leftMost_key (pages : Pool) (key key1 : Int) :
    ∀ (fuel : Nat) (q : Int),
      BPlusTree.findLeafLoop pages key true fuel q =
        BPlusTree.findLeafLoop pages key1 true fuel q := by
  intro fuel
  induction fuel with
  | zero => intro q; rfl
  | succ f ih =>
    intro q
    simp only [BPlusTree.findLeafLoop, if_true]
    cases pages q with
    | none => rfl
    | some pg =>
      cases pg with
      | leaf l => rfl
      | internal n =>
        simp only
        cases n.ValueAt 0 with
        | none => rfl
        | some next => exact ih next

theorem FindLeafPage_leftMost_key (t : BPlusTree) (key key1 : Int) :
    t.FindLeafPage key true = t.FindLeafPage key1 true := by
  simp only [BPlusTree.FindLeafPage, findLeafLoop_leftMost_key t.pages key key1]

/-! ## Coalescing child 0 of a parent, and the return of `CoalesceOrRedistribute` -/

/-- `Coalesce` of a leaf that is child 0 of its parent: the right sibling is emptied into the
leaf, the parent drops slot 1, and the recursive call is made on this state. -/
theorem Coalesce_leaf_first_shape {t : BPlusTree} {lvl : Int → Nat} {dead : Int → Prop}
    {node_id s : Int} {ln ls : LeafPage} {pn : InternalPage} {kc kc1 : Int × Int}
    {post1 : List (Int × Int)} (hs : Shape t lvl dead node_id)
    (hnode : t.pages node_id = some (.leaf ln)) (hsib : t.pages s = some (.leaf ls))
    (hp : t.pages ln.parent_page_id = some (.internal pn)) (hpl : ¬ dead ln.parent_page_id)
    (harr : pn.array = kc :: kc1 :: post1) (hkc : kc.2 = node_id) (hkc1 : kc1.2 = s)
    (hne : node_id ≠ s) :
    ∃ t1, (∀ recur txn, BPlusTree.Coalesce recur t s node_id ln.parent_page_id 0 txn =
        recur t1 ln.parent_page_id txn) ∧
      Shape t1 lvl (fun d => dead d ∨ d = s) ln.parent_page_id ∧
      t1.pages ln.parent_page_id = some (.internal (pn.Remove 1)) ∧
      t1.root_page_id = t.root_page_id ∧ t1.leaf_max_size = t.leaf_max_size ∧
      t1.internal_max_size = t.internal_max_size := by
  have hin : node_id ∈ (Page.internal pn).children := by
    simp [Page.children, harr, hkc]
  have hsin : s ∈ (Page.internal pn).children := by
    simp [Page.children, harr, hkc1]
  have hndp := (hs.child _ _ hp hpl).1
  have harr1 : pn.array = [kc] ++ kc1 :: post1 := by rw [harr]; rfl
  obtain ⟨r1, r2, r3⟩ := children_remove harr1 hndp
  rw [hkc1] at r1
  have hform := @pool_form_nil t.pages s node_id ln.parent_page_id
    (.leaf { ls with array := [] })
    (.leaf { ln with next_page_id := ls.next_page_id, array := ln.array ++ ls.array })
    (.internal (pn.Remove 1))
  refine ⟨((t.write s (.leaf { ls with array := [] })).write node_id
      (.leaf { ln with next_page_id := ls.next_page_id, array := ln.array ++ ls.array })).write
      ln.parent_page_id (.internal (pn.Remove 1)), ?_, ?_, ?_, rfl, rfl, rfl⟩
  · intro recur txn
    have h := @Coalesce_leaf_eq recur t s node_id ln.parent_page_id 0 txn ls ln pn hp
      (by rw [if_pos rfl]; exact hsib) (by rw [if_pos rfl]; exact hnode)
    simp only [if_true] at h
    exact h
  · refine Shape.deadEq (Shape.moveForm hs (.internal (pn.Remove 1))
      (.leaf { ln with next_page_id := ls.next_page_id, array := ln.array ++ ls.array })
      (.leaf { ls with array := [] }) True ln.parent_page_id []
      rfl rfl rfl rfl hp hpl hnode hsib hin hsin hne hform ⟨rfl, rfl, rfl, rfl⟩
      ⟨rfl, rfl, rfl, rfl⟩ ⟨rfl, rfl, rfl, rfl⟩ r1 r2 ?_ ?_ ?_ ?_ ?_ ?_ ?_ ?_) ?_
    · intro c hc; cases hc
    · intro c; simp [Page.children]
    · intro c; simp [Page.children]
    · simp [Page.children]
    · simp [Page.children]
    · intro _; rfl
    · have h2 : 2 ≤ pn.array.length := by rw [harr]; simp
      have r4 : (Page.internal (pn.Remove 1)).children.length + 1 = pn.array.length := r3
      refine ⟨fun _ => ⟨by omega, fun h => absurd rfl h⟩, fun h => (by cases h),
        fun h => absurd trivial h⟩
    · exact Or.inr (Or.inl rfl)
    · intro d; simp
  · simp only [BPlusTree.write_pages, Pool.write_apply, if_true]

/-- `Coalesce` of an internal page that is child 0 of its parent: the children of the right
sibling go to the page, the parent drops slot 1, and the recursive call is made on this
state. -/
theorem Coalesce_internal_first_shape {t : BPlusTree} {lvl : Int → Nat} {dead : Int → Prop}
    {node_id s : Int} {nn ns : InternalPage} {pn : InternalPage} {kc kc1 : Int × Int}
    {post1 : List (Int × Int)} (hs : Shape t lvl dead node_id)
    (hnode : t.pages node_id = some (.internal nn)) (hsib : t.pages s = some (.internal ns))
    (hp : t.pages nn.parent_page_id = some (.internal pn)) (hpl : ¬ dead nn.parent_page_id)
    (harr : pn.array = kc :: kc1 :: post1) (hkc : kc.2 = node_id) (hkc1 : kc1.2 = s)
    (hne : node_id ≠ s) :
    ∃ t1, (∀ recur txn, BPlusTree.Coalesce recur t s node_id nn.parent_page_id 0 txn =
        recur t1 nn.parent_page_id txn) ∧
      Shape t1 lvl (fun d => dead d ∨ d = s) nn.parent_page_id ∧
      t1.pages nn.parent_page_id = some (.internal (pn.Remove 1)) ∧
      t1.root_page_id = t.root_page_id ∧ t1.leaf_max_size = t.leaf_max_size ∧
      t1.internal_max_size = t.internal_max_size := by
  have hid : nn.page_id = node_id := (hs.ids _ _ hnode).2
  subst hid
  have hin : nn.page_id ∈ (Page.internal pn).children := by
    simp [Page.children, harr, hkc]
  have hsin : s ∈ (Page.internal pn).children := by
    simp [Page.children, harr, hkc1]
  obtain ⟨hal, hbl, hnda, hndb, hsep, hkids, hpa, hpb⟩ :=
    hs.siblings hp hpl hnode hsib hin hsin hne
  have hndp := (hs.child _ _ hp hpl).1
  have harr1 : pn.array = [kc] ++ kc1 :: post1 := by rw [harr]; rfl
  obtain ⟨r1, r2, r3⟩ := children_remove harr1 hndp
  rw [hkc1] at r1
  have hws := hs.wide _ _ hsib hbl rfl
  have hwn := hs.wide _ _ hnode hal rfl
  have hmid : pn.KeyAt 1 = some kc1.1 := by
    simp [InternalPage.KeyAt, harr]
  have hM : ∀ c ∈ ns.array.map Prod.snd,
      c ≠ s ∧ c ≠ nn.page_id ∧ ∃ pg, t.pages c = some pg := by
    intro c hc
    obtain ⟨e1, e2, e3⟩ := hkids c (Or.inr hc)
    exact ⟨e2, e1, e3⟩
  obtain ⟨tm, f1, f2, f3, f4, f5, f6⟩ :=
    @Coalesce_internal_form t s nn.page_id nn.parent_page_id 0 ns nn pn kc1.1 hp
      (by rw [if_pos rfl]; exact hsib) (by rw [if_pos rfl]; exact hnode)
      (by rw [if_pos rfl]; exact hmid)
      (by rw [if_pos rfl, if_pos rfl]; exact hM)
  simp only [if_true] at f1 f6
  refine ⟨tm, f1, ?_, ?_, f2, f4, f5⟩
  · refine Shape.deadEq (Shape.moveForm hs (.internal (pn.Remove 1))
      (.internal { nn with array := nn.array ++ InternalPage.setKeyAt ns.array 0 kc1.1 })
      (.internal { ns with array := [] })
      True nn.parent_page_id (ns.array.map Prod.snd)
      f2 f3 f4 f5 hp hpl hnode hsib hin hsin hne f6 ⟨rfl, rfl, rfl, rfl⟩
      ⟨rfl, rfl, rfl, rfl⟩ ⟨rfl, rfl, rfl, rfl⟩ r1 r2 ?_ ?_ ?_ ?_ ?_ ?_ ?_ ?_) ?_
    · intro c hc; exact hc
    · intro c
      simp only [Page.children, List.map_append, map_snd_setKeyAt, List.mem_append]
    · intro c
      simp only [Page.children, List.map_nil, List.not_mem_nil, false_iff, not_and, not_not]
      exact fun h => h
    · simp only [Page.children, List.map_append, map_snd_setKeyAt]
      exact List.Nodup.append hnda hndb (fun c h1 h2 => hsep c h1 h2)
    · simp [Page.children]
    · intro _; rfl
    · have h2 : 2 ≤ pn.array.length := by rw [harr]; simp
      have r4 : (Page.internal (pn.Remove 1)).children.length + 1 = pn.array.length := r3
      have h3 := hws.2 hne.symm
      have h4 := hwn.1
      simp only [Page.children, List.length_map] at h3 h4
      refine ⟨fun _ => ⟨by omega, fun h => absurd rfl h⟩, fun _ => ?_,
        fun h => absurd trivial h⟩
      simp only [Page.children, List.length_map, List.length_append, length_setKeyAt]
      exact ⟨by omega, fun _ => by omega⟩
    · exact Or.inr (Or.inl rfl)
    · intro d; simp
  · rw [f6, if_pos rfl]

/-- `CoalesceOrRedistribute` on a live page of a well-shaped tree returns as soon as the fuel
exceeds the number of levels between the page and the root: every recursive call is made on
the parent of the page. -/
theorem CoalesceOrRedistribute_returns :
    ∀ (fuel : Nat) (t : BPlusTree) (lvl : Int → Nat) (dead : Int → Prop) (node_id : Int)
      (txn : Transaction), Shape t lvl dead node_id → 2 ≤ t.leaf_max_size →
      3 ≤ t.internal_max_size → (∃ pg, t.pages node_id = some pg) → ¬ dead node_id →
      lvl t.root_page_id < lvl node_id + fuel →
      ∃ r, BPlusTree.CoalesceOrRedistribute fuel t node_id txn = .ok r := by
  intro fuel
  induction fuel with
  | zero =>
    intro t lvl dead node_id txn hs _ _ hex hlive hfuel
    obtain ⟨pg, hpg⟩ := hex
    have := hs.lvlRoot _ _ hpg hlive
    omega
  | succ f ih =>
    intro t lvl dead node_id txn hs hL hI hex hlive hfuel
    obtain ⟨node, hnode⟩ := hex
    by_cases hr : node.IsRootPage = true
    · -- the root
      have hroot := (hs.rootIff hnode hlive).1 hr
      have hadj : ∃ r, t.AdjustRoot node_id = .ok r := by
        cases node with
        | leaf l =>
          by_cases h0 : l.GetSize = 0
          · exact ⟨_, by simp only [BPlusTree.AdjustRoot, hnode, if_pos h0]; rfl⟩
          · exact ⟨_, by simp only [BPlusTree.AdjustRoot, hnode, if_neg h0]; rfl⟩
        | internal n =>
          obtain ⟨t1, b, h1, -, -⟩ := AdjustRoot_spec hs hroot
            (fun l hl => by rw [hnode] at hl; cases hl)
          exact ⟨_, h1⟩
      obtain ⟨⟨t1, b⟩, h1⟩ := hadj
      exact ⟨_, by simp only [BPlusTree.CoalesceOrRedistribute, hnode, hr, if_true, h1]; rfl⟩
    have hnr : node_id ≠ t.root_page_id := fun h => hr ((hs.rootIff hnode hlive).2 h)
    by_cases hsz : node.GetSize ≥ node.GetMinSize
    · exact ⟨_, by simp only [BPlusTree.CoalesceOrRedistribute, hnode, hr, Bool.false_eq_true,
        if_false, hsz, if_true]; rfl⟩
    obtain ⟨pn, pre, kc, post, s, ps, hp, hpl, harr, hkc, hidx, hval, hps, hsin, hne, hkind,
      hfirst⟩ := hs.neighbour hnode hlive hnr
    have hin : node_id ∈ (Page.internal pn).children := by
      simp [Page.children, harr, hkc]
    have hkn := (hs.kind _ _ hnode hlive).2
    have hmid : pn.KeyAt pre.length = some kc.1 := by
      simp only [InternalPage.KeyAt, harr, get?_split, Option.map_some']
    by_cases hred : ps.GetSize + node.GetSize > t.maxSize node
    · -- redistribution
      have hgoal : ∃ t1, t.Redistribute s node_id pre.length = .ok t1 ∧
          Shape t1 lvl dead node_id ∧ LeavesFrom t1 t := by
        cases node with
        | leaf ln =>
          cases ps with
          | internal _ => cases hkind
          | leaf ls =>
            simp only [Page.GetSize, Page.GetMinSize, LeafPage.GetSize, LeafPage.GetMinSize,
              BPlusTree.maxSize, Page.IsLeafPage, if_true, Page.GetMaxSize, ge_iff_le, not_le,
              gt_iff_lt] at hsz hred hkn
            have hls : 2 ≤ ls.array.length := by
              rw [hkn] at hsz; omega
            by_cases h0 : pre.length = 0
            · obtain ⟨kc1, post1, e1, e2⟩ := hfirst h0
              rw [h0]
              exact Redistribute_leaf_first hs hnode hps hp hpl e1 hkc e2 hls
            · exact Redistribute_leaf_last hs hnode hps hp hpl hin hsin hne h0 (by omega)
        | internal nn =>
          cases ps with
          | leaf _ => cases hkind
          | internal ns =>
            simp only [Page.GetSize, Page.GetMinSize, InternalPage.GetSize,
              InternalPage.GetMinSize, BPlusTree.maxSize, Page.IsLeafPage, Page.GetMaxSize,
              ge_iff_le, not_le, gt_iff_lt, Bool.false_eq_true, if_false] at hsz hred hkn
            have hns : 3 ≤ ns.array.length := by
              rw [hkn] at hsz; omega
            by_cases h0 : pre.length = 0
            · rw [h0]
              exact Redistribute_internal_first hs hnode hps hp hpl hin hsin hne hns
            · exact Redistribute_internal_last hs hnode hps hp hpl hin hsin hne h0 hmid hns
      obtain ⟨t1, h1, -, -⟩ := hgoal
      exact ⟨_, by simp only [BPlusTree.CoalesceOrRedistribute, hnode, hr, Bool.false_eq_true,
        if_false, hsz, hp, hidx, hval, hps, hred, if_true, h1]; rfl⟩
    · -- coalescing: the recursive call is on the parent, in a state of the same shape
      have hlvl : lvl node.GetParentPageId = lvl node_id + 1 :=
        ((hs.child _ _ hp hpl).2 _ hin).2.1
      obtain ⟨-, -, -, -, -, -, hpa, hpb⟩ :=
        hs.siblings hp hpl hnode hps hin hsin hne
      have hgoal : ∃ t1 gone, (∀ recur txn, BPlusTree.Coalesce recur t s node_id
            node.GetParentPageId pre.length txn = recur t1 node.GetParentPageId txn) ∧
          Shape t1 lvl (fun d => dead d ∨ d = gone) node.GetParentPageId ∧
          node.GetParentPageId ≠ gone ∧
          (∃ pg, t1.pages node.GetParentPageId = some pg) ∧
          t1.root_page_id = t.root_page_id ∧ t1.leaf_max_size = t.leaf_max_size ∧
          t1.internal_max_size = t.internal_max_size := by
        by_cases h0 : pre.length = 0
        · obtain ⟨kc1, post1, e1, e2⟩ := hfirst h0
          rw [h0]
          cases node with
          | leaf ln =>
            cases ps with
            | internal _ => cases hkind
            | leaf ls =>
              obtain ⟨t1, c1, c2, c4, c5, c6, c7⟩ :=
                Coalesce_leaf_first_shape hs hnode hps hp hpl e1 hkc e2 hne
              exact ⟨t1, s, c1, c2, hpb, ⟨_, c4⟩, c5, c6, c7⟩
          | internal nn =>
            cases ps with
            | leaf _ => cases hkind
            | internal ns =>
              obtain ⟨t1, c1, c2, c4, c5, c6, c7⟩ :=
                Coalesce_internal_first_shape hs hnode hps hp hpl e1 hkc e2 hne
              exact ⟨t1, s, c1, c2, hpb, ⟨_, c4⟩, c5, c6, c7⟩
        · cases node with
          | leaf ln =>
            cases ps with
            | internal _ => cases hkind
            | leaf ls =>
              obtain ⟨t1, c1, c2, -, c4, c5, c6, c7⟩ :=
                Coalesce_leaf_spec hs hnode hps hp hpl harr hkc h0 hsin hne
              exact ⟨t1, node_id, c1, c2, hpa, ⟨_, c4⟩, c5, c6, c7⟩
          | internal nn =>
            cases ps with
            | leaf _ => cases hkind
            | internal ns =>
              obtain ⟨t1, c1, c2, -, c4, c5, c6, c7⟩ :=
                Coalesce_internal_spec hs hnode hps hp hpl harr hkc h0 hsin hne
              exact ⟨t1, node_id, c1, c2, hpa, ⟨_, c4⟩, c5, c6, c7⟩
      obtain ⟨t1, gone, c1, c2, c3, c4, c5, c6, c7⟩ := hgoal
      obtain ⟨⟨t2, txn2, b2⟩, d1⟩ :=
        ih t1 lvl (fun d => dead d ∨ d = gone) node.GetParentPageId txn c2
          (by rw [c6]; exact hL) (by rw [c7]; exact hI) c4
          (by
            rintro (h | h)
            · exact hpl h
            · exact c3 h)
          (by rw [c5, hlvl]; omega)
      exact ⟨_, by simp only [BPlusTree.CoalesceOrRedistribute, hnode, hr, Bool.false_eq_true,
        if_false, hsz, hp, hidx, hval, hps, hred, c1, d1]; rfl⟩

/-! ## Pages left out of the pool -/

theorem Pool.hide_some {pages : Pool} {dead : List Int} {x : Int} {pg : Page}
    (h : pages.hide dead x = some pg) : x ∉ dead ∧ pages x = some pg := by
  simp only [Pool.hide] at h
  by_cases hx : x ∈ dead
  · rw [if_pos hx] at h; cases h
  · rw [if_neg hx] at h; exact ⟨hx, h⟩

theorem BPlusTree.pages_of_hide {t : BPlusTree} {dead : List Int} {x : Int} {pg : Page}
    (h : (t.hide dead).pages x = some pg) : x ∉ dead ∧ t.pages x = some pg :=
  Pool.hide_some h

theorem Pool.hide_nil (pages : Pool) : pages.hide [] = pages := by
  funext x
  simp [Pool.hide]

theorem BPlusTree.hide_empty (t : BPlusTree) : t.hide [] = t := by
  simp only [BPlusTree.hide, Pool.hide_nil]

theorem Pool.hide_write {pages : Pool} {dead : List Int} {a : Int} (p : Page) (h : a ∉ dead) :
    (pages.write a p).hide dead = (pages.hide dead).write a p := by
  funext x
  simp only [Pool.hide, Pool.write_apply]
  by_cases hx : x = a
  · subst hx
    rw [if_neg h, if_pos rfl, if_pos rfl]
  · rw [if_neg hx, if_neg hx]

theorem BPlusTree.hide_of_write {t : BPlusTree} {dead : List Int} {a : Int} (p : Page)
    (h : a ∉ dead) : (t.write a p).hide dead = (t.hide dead).write a p := by
  simp only [BPlusTree.hide, BPlusTree.write, Pool.hide_write p h]

theorem reparent_hide (dead : List Int) :
    ∀ (cs : List Int) (pages : Pool) (parent : Int) (pages1 : Pool),
      reparent (pages.hide dead) cs parent = .ok pages1 →
      ∃ pages2, reparent pages cs parent = .ok pages2 ∧ pages2.hide dead = pages1 ∧
        ∀ d ∈ dead, pages2 d = pages d := by
  intro cs
  induction cs with
  | nil =>
    intro pages parent pages1 h
    simp only [reparent, Except.ok.injEq] at h
    exact ⟨pages, rfl, h, fun _ _ => rfl⟩
  | cons c rest ih =>
    intro pages parent pages1 h
    simp only [reparent] at h
    cases hc : pages.hide dead c with
    | none => rw [hc] at h; cases h
    | some p =>
      rw [hc] at h
      obtain ⟨hcd, hcp⟩ := Pool.hide_some hc
      simp only at h
      rw [← Pool.hide_write _ hcd] at h
      obtain ⟨pages2, e1, e2, e3⟩ := ih _ _ _ h
      refine ⟨pages2, by simp only [reparent, hcp, e1], e2, ?_⟩
      intro d hd
      rw [e3 d hd, Pool.write_apply, if_neg]
      intro e
      exact hcd (e ▸ hd)

/-- `Redistribute` does not look at the pages that are left out: when it succeeds on the live
pages, it succeeds on the whole pool with the same live pages afterwards and leaves the other
pages as they are. -/
theorem Redistribute_hide {t t1 : BPlusTree} {dead : List Int} {neighbor_id node_id : Int}
    {index : Nat} (h : (t.hide dead).Redistribute neighbor_id node_id index = .ok t1) :
    ∃ t2, t.Redistribute neighbor_id node_id index = .ok t2 ∧ t2.hide dead = t1 ∧
      ∀ d ∈ dead, t2.pages d = t.pages d := by
  have hw3 : ∀ (a b c : Int) (A B C : Page), a ∉ dead → b ∉ dead → c ∉ dead →
      ∀ d ∈ dead, (((t.write a A).write b B).write c C).pages d = t.pages d := by
    intro a b c A B C ha hb hc d hd
    have h1 : d ≠ a := fun e => ha (e ▸ hd)
    have h2 : d ≠ b := fun e => hb (e ▸ hd)
    have h3 : d ≠ c := fun e => hc (e ▸ hd)
    simp only [BPlusTree.write_pages, Pool.write_apply, if_neg h1, if_neg h2, if_neg h3]
  simp only [BPlusTree.Redistribute] at h
  split at h
  · -- leaves
    rename_i leaf_node neighbor_leaf_node hn hs
    obtain ⟨hnd, hn1⟩ := Pool.hide_some hn
    obtain ⟨hsd, hs1⟩ := Pool.hide_some hs
    split at h
    · cases h
    · cases h
    · rename_i parent_node hp
      obtain ⟨hpd, hp1⟩ := Pool.hide_some hp
      split at h
      · rename_i hi
        split at h
        · cases h
        · rename_i k hk
          simp only [Except.ok.injEq] at h
          subst h
          refine ⟨_, by simp only [BPlusTree.Redistribute, hn1, hs1, hp1, if_pos hi, hk]; rfl, ?_,
            hw3 _ _ _ _ _ _ hsd hnd hpd⟩
          rw [BPlusTree.hide_of_write _ hpd, BPlusTree.hide_of_write _ hnd,
            BPlusTree.hide_of_write _ hsd]
      · rename_i hi
        split at h
        · cases h
        · rename_i k hk
          simp only [Except.ok.injEq] at h
          subst h
          refine ⟨_, by simp only [BPlusTree.Redistribute, hn1, hs1, hp1, if_neg hi, hk]; rfl, ?_,
            hw3 _ _ _ _ _ _ hsd hnd hpd⟩
          rw [BPlusTree.hide_of_write _ hpd, BPlusTree.hide_of_write _ hnd,
            BPlusTree.hide_of_write _ hsd]
  · -- internal pages
    rename_i internal_node neighbor_internal_node hn hs
    obtain ⟨hnd, hn1⟩ := Pool.hide_some hn
    obtain ⟨hsd, hs1⟩ := Pool.hide_some hs
    split at h
    · cases h
    · cases h
    · rename_i parent_node hp
      obtain ⟨hpd, hp1⟩ := Pool.hide_some hp
      split at h
      · rename_i hi
        split at h
        · cases h
        · rename_i middle_key hm
          split at h
          · cases h
          · rename_i pages1 hre
            split at h
            · cases h
            · rename_i k hk
              simp only [Except.ok.injEq] at h
              subst h
              simp only [BPlusTree.write_pages, BPlusTree.hide] at hre
              rw [← Pool.hide_write _ hsd, ← Pool.hide_write _ hnd] at hre
              obtain ⟨pages2, e1, e2, e3⟩ := reparent_hide dead _ _ _ _ hre
              refine ⟨_, by simp only [BPlusTree.Redistribute, hn1, hs1, hp1, if_pos hi, hm,
                BPlusTree.write_pages, e1, hk]; rfl, ?_, ?_⟩
              · rw [BPlusTree.hide_of_write _ hpd]
                simp only [BPlusTree.hide, BPlusTree.write, e2]
              · intro d hd
                have h1 : d ≠ neighbor_id := fun e => hsd (e ▸ hd)
                have h2 : d ≠ node_id := fun e => hnd (e ▸ hd)
                have h3 : d ≠ internal_node.parent_page_id := fun e => hpd (e ▸ hd)
                simp only [BPlusTree.write_pages, Pool.write_apply, if_neg h3]
                rw [e3 d hd]
                simp only [Pool.write_apply, if_neg h1, if_neg h2]
      · rename_i hi
        split at h
        · cases h
        · rename_i middle_key hm
          split at h
          · cases h
          · rename_i pages1 hre
            split at h
            · cases h
            · rename_i k hk
              simp only [Except.ok.injEq] at h
              subst h
              simp only [BPlusTree.write_pages, BPlusTree.hide] at hre
              rw [← Pool.hide_write _ hsd, ← Pool.hide_write _ hnd] at hre
              obtain ⟨pages2, e1, e2, e3⟩ := reparent_hide dead _ _ _ _ hre
              refine ⟨_, by simp only [BPlusTree.Redistribute, hn1, hs1, hp1, if_neg hi, hm,
                BPlusTree.write_pages, e1, hk]; rfl, ?_, ?_⟩
              · rw [BPlusTree.hide_of_write _ hpd]
                simp only [BPlusTree.hide, BPlusTree.write, e2]
              · intro d hd
                have h1 : d ≠ neighbor_id := fun e => hsd (e ▸ hd)
                have h2 : d ≠ node_id := fun e => hnd (e ▸ hd)
                have h3 : d ≠ internal_node.parent_page_id := fun e => hpd (e ▸ hd)
                simp only [BPlusTree.write_pages, Pool.write_apply, if_neg h3]
                rw [e3 d hd]
                simp only [Pool.write_apply, if_neg h1, if_neg h2]
  · cases h
  · cases h

/-! ## A state in which internal pages are redistributed -/

theorem redistributionState_dom {q : Int} {pg : Page}
    (h : (redistributionState.hide [5]).pages q = some pg) :
    q = 1 ∨ q = 2 ∨ q = 3 ∨ q = 4 ∨ q = 6 ∨ q = 7 ∨ q = 8 := by
  obtain ⟨h5, h1⟩ := BPlusTree.pages_of_hide h
  simp only [List.mem_singleton] at h5
  simp only [redistributionState] at h1
  by_contra hc
  simp only [not_or] at hc
  obtain ⟨c1, c2, c3, c4, c6, c7, c8⟩ := hc
  simp only [if_neg c1, if_neg c2, if_neg c3, if_neg c4, if_neg h5, if_neg c6, if_neg c7,
    if_neg c8] at h1
  cases h1

set_option maxRecDepth 100000 in
/-- The live pages of `redistributionState` form a well-formed tree. -/
theorem redistributionState_inv : Inv (redistributionState.hide [5]) redistributionGhost := by
  have key : ∀ (x : Int) (X : Page), redistributionState.pages x = some X → ∀ pg,
      (redistributionState.hide [5]).pages x = some pg → pg = X := by
    intro x X hX pg h
    have h1 := (BPlusTree.pages_of_hide h).2
    rw [hX] at h1
    cases h1
    rfl
  have hpage : ∀ q pg, (redistributionState.hide [5]).pages q = some pg →
      (q = 1 ∧ pg = .leaf (LeafPage.mk 1 3 4 8 [(-1, 99), (0, 100)])) ∨
      (q = 2 ∧ pg = .leaf (LeafPage.mk 2 3 4 4 [(3, 103), (4, 104)])) ∨
      (q = 3 ∧ pg = .internal (InternalPage.mk 3 7 3 [(0, 1), (1, 8), (3, 2)])) ∨
      (q = 4 ∧ pg = .leaf (LeafPage.mk 4 6 4 INVALID_PAGE_ID [(5, 105), (6, 106), (8, 108)])) ∨
      (q = 6 ∧ pg = .internal (InternalPage.mk 6 7 3 [(5, 4)])) ∨
      (q = 7 ∧ pg = .internal (InternalPage.mk 7 INVALID_PAGE_ID 3 [(0, 3), (5, 6)])) ∨
      (q = 8 ∧ pg = .leaf (LeafPage.mk 8 3 4 2 [(1, 101), (2, 102)])) := by
    intro q pg h
    rcases redistributionState_dom h with e | e | e | e | e | e | e <;> subst e
    · exact Or.inl ⟨rfl, key 1 (.leaf (LeafPage.mk 1 3 4 8 [(-1, 99), (0, 100)])) (by decide) pg h⟩
    · exact Or.inr (Or.inl ⟨rfl, key 2 (.leaf (LeafPage.mk 2 3 4 4 [(3, 103), (4, 104)])) (by decide) pg h⟩)
    · exact Or.inr (Or.inr (Or.inl ⟨rfl, key 3 (.internal (InternalPage.mk 3 7 3 [(0, 1), (1, 8), (3, 2)])) (by decide) pg h⟩))
    · exact Or.inr (Or.inr (Or.inr (Or.inl ⟨rfl, key 4 (.leaf (LeafPage.mk 4 6 4 INVALID_PAGE_ID [(5, 105), (6, 106), (8, 108)])) (by decide) pg h⟩)))
    · exact Or.inr (Or.inr (Or.inr (Or.inr (Or.inl ⟨rfl, key 6 (.internal (InternalPage.mk 6 7 3 [(5, 4)])) (by decide) pg h⟩))))
    · exact Or.inr (Or.inr (Or.inr (Or.inr (Or.inr (Or.inl ⟨rfl, key 7 (.internal (InternalPage.mk 7 INVALID_PAGE_ID 3 [(0, 3), (5, 6)])) (by decide) pg h⟩)))))
    · exact Or.inr (Or.inr (Or.inr (Or.inr (Or.inr (Or.inr (⟨rfl, key 8 (.leaf (LeafPage.mk 8 3 4 2 [(1, 101), (2, 102)])) (by decide) pg h⟩))))))
  have hleaf : ∀ q l, (redistributionState.hide [5]).pages q = some (.leaf l) →
      (q = 1 ∧ l = LeafPage.mk 1 3 4 8 [(-1, 99), (0, 100)]) ∨
      (q = 2 ∧ l = LeafPage.mk 2 3 4 4 [(3, 103), (4, 104)]) ∨
      (q = 4 ∧ l = LeafPage.mk 4 6 4 INVALID_PAGE_ID [(5, 105), (6, 106), (8, 108)]) ∨
      (q = 8 ∧ l = LeafPage.mk 8 3 4 2 [(1, 101), (2, 102)]) := by
    intro q l h
    rcases hpage q _ h with ⟨e, e1⟩ | ⟨e, e1⟩ | ⟨e, e1⟩ | ⟨e, e1⟩ | ⟨e, e1⟩ | ⟨e, e1⟩ | ⟨e, e1⟩ <;>
      subst e
    · cases e1
      exact Or.inl ⟨rfl, rfl⟩
    · cases e1
      exact Or.inr (Or.inl ⟨rfl, rfl⟩)
    · cases e1
    · cases e1
      exact Or.inr (Or.inr (Or.inl ⟨rfl, rfl⟩))
    · cases e1
    · cases e1
    · cases e1
      exact Or.inr (Or.inr (Or.inr (⟨rfl, rfl⟩)))
  have hint : ∀ q n, (redistributionState.hide [5]).pages q = some (.internal n) →
      (q = 3 ∧ n = InternalPage.mk 3 7 3 [(0, 1), (1, 8), (3, 2)]) ∨
      (q = 6 ∧ n = InternalPage.mk 6 7 3 [(5, 4)]) ∨
      (q = 7 ∧ n = InternalPage.mk 7 INVALID_PAGE_ID 3 [(0, 3), (5, 6)]) := by
    intro q n h
    rcases hpage q _ h with ⟨e, e1⟩ | ⟨e, e1⟩ | ⟨e, e1⟩ | ⟨e, e1⟩ | ⟨e, e1⟩ | ⟨e, e1⟩ | ⟨e, e1⟩ <;>
      subst e
    · cases e1
    · cases e1
    · cases e1
      exact Or.inl ⟨rfl, rfl⟩
    · cases e1
    · cases e1
      exact Or.inr (Or.inl ⟨rfl, rfl⟩)
    · cases e1
      exact Or.inr (Or.inr (⟨rfl, rfl⟩))
    · cases e1
  have hbase : Base (redistributionState.hide [5]) redistributionGhost := by
    refine ⟨?_, ?_, ?_, ?_, ?_, ?_, ?_, ?_⟩
    · intro q pg h
      rcases hpage q pg h with ⟨e, -⟩ | ⟨e, -⟩ | ⟨e, -⟩ | ⟨e, -⟩ | ⟨e, -⟩ | ⟨e, -⟩ | ⟨e, -⟩ <;>
        subst e <;> decide
    · intro q pg h
      rcases hpage q pg h with ⟨e, e1⟩ | ⟨e, e1⟩ | ⟨e, e1⟩ | ⟨e, e1⟩ | ⟨e, e1⟩ | ⟨e, e1⟩ |
        ⟨e, e1⟩ <;> subst e <;> subst e1 <;> rfl
    · intro q l h
      rcases hleaf q l h with ⟨e, e1⟩ | ⟨e, e1⟩ | ⟨e, e1⟩ | ⟨e, e1⟩ <;> subst e <;> subst e1
      · refine ⟨by decide, by decide, by decide, ?_, by decide, fun _ =>
          ⟨LeafPage.mk 8 3 4 2 [(1, 101), (2, 102)], 1, by decide, by decide, by decide,
            by decide⟩⟩
        intro kv hkv
        simp only [List.mem_cons, List.mem_singleton, List.not_mem_nil, or_false] at hkv
        rcases hkv with rfl | rfl <;> refine ⟨?_, ?_⟩ <;> intro a ha <;>
          simp [redistributionGhost] at ha <;> omega
      · refine ⟨by decide, by decide, by decide, ?_, by decide, fun _ =>
          ⟨LeafPage.mk 4 6 4 INVALID_PAGE_ID [(5, 105), (6, 106), (8, 108)], 5, by decide,
            by decide, by decide, by decide⟩⟩
        intro kv hkv
        simp only [List.mem_cons, List.mem_singleton, List.not_mem_nil, or_false] at hkv
        rcases hkv with rfl | rfl <;> refine ⟨?_, ?_⟩ <;> intro a ha <;>
          simp [redistributionGhost] at ha <;> omega
      · refine ⟨by decide, by decide, by decide, ?_, by decide, fun h => absurd rfl h⟩
        intro kv hkv
        simp only [List.mem_cons, List.mem_singleton, List.not_mem_nil, or_false] at hkv
        rcases hkv with rfl | rfl | rfl <;> refine ⟨?_, ?_⟩ <;> intro a ha <;>
          simp [redistributionGhost] at ha <;> omega
      · refine ⟨by decide, by decide, by decide, ?_, by decide, fun _ =>
          ⟨LeafPage.mk 2 3 4 4 [(3, 103), (4, 104)], 3, by decide, by decide, by decide,
            by decide⟩⟩
        intro kv hkv
        simp only [List.mem_cons, List.mem_singleton, List.not_mem_nil, or_false] at hkv
        rcases hkv with rfl | rfl <;> refine ⟨?_, ?_⟩ <;> intro a ha <;>
          simp [redistributionGhost] at ha <;> omega
    · intro q q1 l l1 k h h1 hr hr1
      rcases hleaf q l h with ⟨e, -⟩ | ⟨e, -⟩ | ⟨e, -⟩ | ⟨e, -⟩ <;>
      rcases hleaf q1 l1 h1 with ⟨e1, -⟩ | ⟨e1, -⟩ | ⟨e1, -⟩ | ⟨e1, -⟩ <;>
      subst e <;> subst e1 <;> first
        | rfl
        | (exfalso
           obtain ⟨a1, a2⟩ := hr
           obtain ⟨b1, b2⟩ := hr1
           simp [redistributionGhost] at a1 a2 b1 b2
           omega)
    · intro q pg h
      rcases hpage q pg h with ⟨e, -⟩ | ⟨e, -⟩ | ⟨e, -⟩ | ⟨e, -⟩ | ⟨e, -⟩ | ⟨e, -⟩ | ⟨e, -⟩ <;>
        subst e <;> decide
    · decide
    · intro q l h
      rcases hleaf q l h with ⟨e, -⟩ | ⟨e, -⟩ | ⟨e, -⟩ | ⟨e, -⟩ <;> subst e <;> decide
    · exact ⟨.internal (InternalPage.mk 7 INVALID_PAGE_ID 3 [(0, 3), (5, 6)]), by decide,
        by decide, by decide⟩
  refine ⟨hbase, ?_, ?_, by decide⟩
  · intro q n h
    rcases hint q n h with ⟨e, e1⟩ | ⟨e, e1⟩ | ⟨e, e1⟩ <;> subst e <;> subst e1
    · refine ⟨0, (0, 1), [(1, 8), (3, 2)], by decide, rfl, ?_, by decide⟩
      exact ⟨⟨.leaf (LeafPage.mk 1 3 4 8 [(-1, 99), (0, 100)]), by decide, by decide, by decide, by decide, by decide⟩,
        ⟨.leaf (LeafPage.mk 8 3 4 2 [(1, 101), (2, 102)]), by decide, by decide, by decide, by decide, by decide⟩,
        ⟨.leaf (LeafPage.mk 2 3 4 4 [(3, 103), (4, 104)]), by decide, by decide, by decide, by decide, by decide⟩⟩
    · refine ⟨0, (5, 4), [], by decide, rfl, ?_, by decide⟩
      exact ⟨.leaf (LeafPage.mk 4 6 4 INVALID_PAGE_ID [(5, 105), (6, 106), (8, 108)]), by decide, by decide, by decide, by decide, by decide⟩
    · refine ⟨1, (0, 3), [(5, 6)], by decide, rfl, ?_, by decide⟩
      exact ⟨⟨.internal (InternalPage.mk 3 7 3 [(0, 1), (1, 8), (3, 2)]), by decide, by decide, by decide, by decide, by decide⟩,
        ⟨.internal (InternalPage.mk 6 7 3 [(5, 4)]), by decide, by decide, by decide, by decide, by decide⟩⟩
  · intro q pg h hr
    rcases hpage q pg h with ⟨e, e1⟩ | ⟨e, e1⟩ | ⟨e, e1⟩ | ⟨e, e1⟩ | ⟨e, e1⟩ | ⟨e, e1⟩ |
      ⟨e, e1⟩ <;> subst e <;> subst e1
    · exact ⟨InternalPage.mk 3 7 3 [(0, 1), (1, 8), (3, 2)], by decide, by decide⟩
    · exact ⟨InternalPage.mk 3 7 3 [(0, 1), (1, 8), (3, 2)], by decide, by decide⟩
    · exact ⟨InternalPage.mk 7 INVALID_PAGE_ID 3 [(0, 3), (5, 6)], by decide, by decide⟩
    · exact ⟨InternalPage.mk 6 7 3 [(5, 4)], by decide, by decide⟩
    · exact ⟨InternalPage.mk 7 INVALID_PAGE_ID 3 [(0, 3), (5, 6)], by decide, by decide⟩
    · exact absurd rfl hr
    · exact ⟨InternalPage.mk 3 7 3 [(0, 1), (1, 8), (3, 2)], by decide, by decide⟩

theorem BPlusTree.eq_of_fields {a b : BPlusTree} (h1 : a.root_page_id = b.root_page_id)
    (h2 : a.leaf_max_size = b.leaf_max_size) (h3 : a.internal_max_size = b.internal_max_size)
    (h4 : ∀ x, a.pages x = b.pages x) (h5 : a.next_page_id = b.next_page_id)
    (h6 : a.header_record = b.header_record) : a = b := by
  cases a
  cases b
  simp only at h1 h2 h3 h4 h5 h6
  subst h1 h2 h3 h5 h6
  have : _ = _ := funext h4
  subst this
  rfl

set_option maxRecDepth 100000 in
/-- The tree of the keys 1 to 8, 0 and -1, with key 7 taken out of leaf 5 and leaf 5 emptied
into leaf 4 as `Coalesce` does it, is `redistributionState`. -/
theorem redistributionState_eq :
    ((((built 4 3 [(1, 101), (2, 102), (3, 103), (4, 104), (5, 105), (6, 106), (7, 107),
        (8, 108), (0, 100), (-1, 99)]).write 5
        (.leaf ((LeafPage.mk 5 6 4 INVALID_PAGE_ID [(7, 107), (8, 108)]).RemoveAndDeleteRecord
          7))).write 5 (.leaf (LeafPage.mk 5 6 4 INVALID_PAGE_ID []))).write 4
        (.leaf (LeafPage.mk 4 6 4 INVALID_PAGE_ID [(5, 105), (6, 106), (8, 108)]))).write 6
        (.internal (InternalPage.mk 6 7 3 [(5, 4)])) = redistributionState := by
  have hne : [((1 : Int), (101 : Int)), (2, 102), (3, 103), (4, 104), (5, 105), (6, 106),
      (7, 107), (8, 108), (0, 100), (-1, 99)] ≠ [] := by decide
  obtain ⟨g, hinv⟩ := built_inv 4 3 _ hne
  have hnext : (built 4 3 [(1, 101), (2, 102), (3, 103), (4, 104), (5, 105), (6, 106),
      (7, 107), (8, 108), (0, 100), (-1, 99)]).next_page_id = 9 := by decide
  refine BPlusTree.eq_of_fields (by decide) (by decide) (by decide) ?_ (by decide) (by decide)
  intro x
  by_cases hx : 0 < x ∧ x < 9
  · obtain ⟨hx1, hx2⟩ := hx
    interval_cases x <;> decide
  · have hb : (built 4 3 [(1, 101), (2, 102), (3, 103), (4, 104), (5, 105), (6, 106),
        (7, 107), (8, 108), (0, 100), (-1, 99)]).pages x = none := by
      cases hb : (built 4 3 [(1, 101), (2, 102), (3, 103), (4, 104), (5, 105), (6, 106),
        (7, 107), (8, 108), (0, 100), (-1, 99)]).pages x with
      | none => rfl
      | some pg =>
        have := hinv.ids x pg hb
        rw [hnext] at this
        exact absurd this hx
    have c1 : x ≠ 1 := by intro e; subst e; exact hx (by decide)
    have c2 : x ≠ 2 := by intro e; subst e; exact hx (by decide)
    have c3 : x ≠ 3 := by intro e; subst e; exact hx (by decide)
    have c4 : x ≠ 4 := by intro e; subst e; exact hx (by decide)
    have c5 : x ≠ 5 := by intro e; subst e; exact hx (by decide)
    have c6 : x ≠ 6 := by intro e; subst e; exact hx (by decide)
    have c7 : x ≠ 7 := by intro e; subst e; exact hx (by decide)
    have c8 : x ≠ 8 := by intro e; subst e; exact hx (by decide)
    simp only [BPlusTree.write_pages, Pool.write_apply, redistributionState, if_neg c1,
      if_neg c2, if_neg c3, if_neg c4, if_neg c5, if_neg c6, if_neg c7, if_neg c8, hb]

/-! ## The descent on an empty tree, and insertion into a leaf with room -/

/-- C38: when `root_page_id` is `INVALID_PAGE_ID`, `FindLeafPageByOperation` raises the runtime
error for every key, operation, `leftMost` flag and page set, and its log is empty: no call to the
root latch, to a page latch or to the buffer pool has been made.  Hence `GetValue`, `begin()`,
`Begin(key)` and `end()` raise that error, `GetValue` without any logged call. -/
theorem descent_on_empty_tree_raises (t : BPlusTree) (h : t.root_page_id = INVALID_PAGE_ID) :
    (∀ key op leftMost page_set,
      Latched.FindLeafPageByOperation t key op leftMost page_set =
        { log := [], result := .error .runtime_error }) ∧
    (∀ key leftMost, t.FindLeafPage key leftMost = .error .runtime_error) ∧
    (∀ key result, t.GetValue key result = .error .runtime_error) ∧
    (∀ key result, (Latched.GetValue t key result).result = .error .runtime_error ∧
      (Latched.GetValue t key result).log = []) ∧
    t.begin = .error .runtime_error ∧ (∀ key, t.Begin key = .error .runtime_error) ∧
    t.end_ = .error .runtime_error := by
  have h1 : ∀ key op leftMost page_set,
      Latched.FindLeafPageByOperation t key op leftMost page_set =
        { log := [], result := .error .runtime_error } := by
    intro key op leftMost page_set
    simp only [Latched.FindLeafPageByOperation, h, if_true]
  have h2 : ∀ key leftMost, t.FindLeafPage key leftMost = .error .runtime_error := by
    intro key leftMost
    simp only [BPlusTree.FindLeafPage, h, if_true]
  refine ⟨h1, h2, ?_, ?_, ?_, ?_, ?_⟩
  · intro key result
    simp only [BPlusTree.GetValue, h2]
  · intro key result
    simp only [Latched.GetValue, h1, Traced.bind, and_self]
  · simp only [BPlusTree.begin, h2]
  · intro key
    simp only [BPlusTree.Begin, h2]
  · simp only [BPlusTree.end_, h2]

theorem descent_on_empty_tree_raises_witness :
    (BPlusTree.new 3 3).root_page_id = INVALID_PAGE_ID ∧
    (∀ key op leftMost page_set,
      Latched.FindLeafPageByOperation (BPlusTree.new 3 3) key op leftMost page_set =
        { log := [], result := .error .runtime_error }) ∧
    (∀ key leftMost, (BPlusTree.new 3 3).FindLeafPage key leftMost = .error .runtime_error) ∧
    (∀ key result, (BPlusTree.new 3 3).GetValue key result = .error .runtime_error) ∧
    (∀ key result,
      (Latched.GetValue (BPlusTree.new 3 3) key result).result = .error .runtime_error ∧
      (Latched.GetValue (BPlusTree.new 3 3) key result).log = []) ∧
    (BPlusTree.new 3 3).begin = .error .runtime_error ∧
    (∀ key, (BPlusTree.new 3 3).Begin key = .error .runtime_error) ∧
    (BPlusTree.new 3 3).end_ = .error .runtime_error :=
  ⟨rfl, descent_on_empty_tree_raises (BPlusTree.new 3 3) rfl⟩

/-- Where `insertSorted` puts a pair whose key is not in the array: behind the entries with a
smaller key and in front of the first entry with a larger key. -/
theorem insertSorted_split :
    ∀ (arr : List (Int × Int)) (k v : Int), (∀ w, (k, w) ∉ arr) →
      ∃ pre post, arr = pre ++ post ∧ LeafPage.insertSorted arr k v = pre ++ (k, v) :: post ∧
        (∀ e ∈ pre, e.1 < k) ∧ (∀ e, post.head? = some e → k < e.1) := by
  intro arr
  induction arr with
  | nil =>
    intro k v _
    exact ⟨[], [], rfl, rfl, (fun e he => by cases he), (fun e he => by cases he)⟩
  | cons kv rest ih =>
    intro k v hk
    simp only [LeafPage.insertSorted]
    by_cases h1 : k < kv.1
    · rw [if_pos h1]
      refine ⟨[], kv :: rest, rfl, rfl, (fun e he => by cases he), fun e he => ?_⟩
      simp only [List.head?_cons, Option.some.injEq] at he
      rw [← he]; exact h1
    · rw [if_neg h1]
      have h2 : k ≠ kv.1 := by
        intro e
        exact hk kv.2 (by rw [e]; exact List.mem_cons_self _ _)
      rw [if_neg h2]
      obtain ⟨pre, post, e1, e2, e3, e4⟩ := ih k v
        (fun w hw => hk w (List.mem_cons_of_mem _ hw))
      refine ⟨kv :: pre, post, by rw [e1]; rfl, by rw [e2]; rfl, ?_, e4⟩
      intro e he
      rcases List.mem_cons.1 he with h | h
      · rw [h]; omega
      · exact e3 e h

/-- C34: if the leaf that the descent reaches for the new key `k` holds fewer than
`leaf_max_size - 1` entries, `Insert(k, v)` returns true and the tree afterwards is the tree
before with that one leaf page written: `root_page_id`, the next page id to allocate, every other
page and the set of page ids in the pool are unchanged.  The leaf keeps its header, holds one
entry more, and `(k, v)` stands behind the entries with smaller keys and in front of the first
entry with a larger key; a sorted leaf stays sorted. -/
theorem insert_into_leaf_with_room (t : BPlusTree) (k v q : Int) (l : LeafPage)
    (hfind : t.FindLeafPage k false = .ok (q, l)) (hnew : l.Lookup k = none)
    (hroom : l.GetSize < t.leaf_max_size - 1) :
    ∃ t1 l1, t.Insert k v = .ok (t1, true) ∧ t1 = t.write q (.leaf l1) ∧
      t1.root_page_id = t.root_page_id ∧ t1.next_page_id = t.next_page_id ∧
      t1.pages q = some (.leaf l1) ∧ (∀ x, x ≠ q → t1.pages x = t.pages x) ∧
      (∀ x, (t1.pages x).isSome = (t.pages x).isSome) ∧
      l1.page_id = l.page_id ∧ l1.parent_page_id = l.parent_page_id ∧
      l1.next_page_id = l.next_page_id ∧ l1.max_size = l.max_size ∧
      l1.GetSize = l.GetSize + 1 ∧
      (∃ pre post, l.array = pre ++ post ∧ l1.array = pre ++ (k, v) :: post ∧
        (∀ e ∈ pre, e.1 < k) ∧ (∀ e, post.head? = some e → k < e.1)) ∧
      (l.array.Pairwise (fun a b => a.1 < b.1) → l1.array.Pairwise (fun a b => a.1 < b.1)) := by
  have hq : t.pages q = some (.leaf l) := FindLeafPage_page hfind
  have hne : t.root_page_id ≠ INVALID_PAGE_ID := by
    intro e
    simp only [BPlusTree.FindLeafPage, e, if_true] at hfind
    cases hfind
  have hemp : t.IsEmpty = false := by
    simp only [BPlusTree.IsEmpty, beq_eq_false_iff_ne, ne_eq]
    exact hne
  have hnm : ∀ w, (k, w) ∉ l.array := lookup_eq_none.1 hnew
  have hlen := length_insertSorted (v := v) hnm
  have hsz : (l.Insert k v).GetSize < t.leaf_max_size := by
    simp only [LeafPage.GetSize, LeafPage.Insert, hlen] at hroom ⊢
    push_cast
    omega
  refine ⟨t.write q (.leaf (l.Insert k v)), l.Insert k v, ?_, rfl, rfl, rfl, ?_, ?_, ?_, rfl,
    rfl, rfl, rfl, ?_, insertSorted_split l.array k v hnm,
    fun hs => pairwise_insertSorted hnm hs⟩
  · simp only [BPlusTree.Insert, hemp, Bool.false_eq_true, if_false, BPlusTree.InsertIntoLeaf,
      hfind, hnew, Option.isSome_none, hsz, if_true]
  · simp only [BPlusTree.write_pages, Pool.write_apply, if_true]
  · intro x hx
    simp only [BPlusTree.write_pages, Pool.write_apply, if_neg hx]
  · intro x
    simp only [BPlusTree.write_pages, Pool.write_apply]
    by_cases hx : x = q
    · rw [if_pos hx, hx, hq]; rfl
    · rw [if_neg hx]
  · simp only [LeafPage.GetSize, LeafPage.Insert, hlen]
    push_cast
    rfl

set_option maxRecDepth 100000 in
theorem insert_into_leaf_with_room_witness :
    (built 4 4 [(1, 101), (2, 102), (3, 103), (4, 104)]).FindLeafPage 5 false =
      .ok (2, LeafPage.mk 2 3 4 INVALID_PAGE_ID [(3, 103), (4, 104)]) ∧
    (LeafPage.mk 2 3 4 INVALID_PAGE_ID [(3, 103), (4, 104)]).Lookup 5 = none ∧
    (LeafPage.mk 2 3 4 INVALID_PAGE_ID [(3, 103), (4, 104)]).GetSize <
      (built 4 4 [(1, 101), (2, 102), (3, 103), (4, 104)]).leaf_max_size - 1 ∧
    ((built 4 4 [(1, 101), (2, 102), (3, 103), (4, 104)]).Insert 5 105).map
        (fun r => (r.1.pages 2, r.1.pages 4, r.1.next_page_id, r.2)) =
      .ok (some (.leaf (LeafPage.mk 2 3 4 INVALID_PAGE_ID [(3, 103), (4, 104), (5, 105)])),
        none, 4, true) ∧
    ∃ t1 l1, (built 4 4 [(1, 101), (2, 102), (3, 103), (4, 104)]).Insert 5 105 = .ok (t1, true) ∧
      t1 = (built 4 4 [(1, 101), (2, 102), (3, 103), (4, 104)]).write 2 (.leaf l1) ∧
      t1.root_page_id = (built 4 4 [(1, 101), (2, 102), (3, 103), (4, 104)]).root_page_id ∧
      t1.next_page_id = (built 4 4 [(1, 101), (2, 102), (3, 103), (4, 104)]).next_page_id ∧
      t1.pages 2 = some (.leaf l1) ∧
      (∀ x, x ≠ 2 →
        t1.pages x = (built 4 4 [(1, 101), (2, 102), (3, 103), (4, 104)]).pages x) ∧
      (∀ x, (t1.pages x).isSome =
        ((built 4 4 [(1, 101), (2, 102), (3, 103), (4, 104)]).pages x).isSome) ∧
      l1.page_id = (LeafPage.mk 2 3 4 INVALID_PAGE_ID [(3, 103), (4, 104)]).page_id ∧
      l1.parent_page_id =
        (LeafPage.mk 2 3 4 INVALID_PAGE_ID [(3, 103), (4, 104)]).parent_page_id ∧
      l1.next_page_id = (LeafPage.mk 2 3 4 INVALID_PAGE_ID [(3, 103), (4, 104)]).next_page_id ∧
      l1.max_size = (LeafPage.mk 2 3 4 INVALID_PAGE_ID [(3, 103), (4, 104)]).max_size ∧
      l1.GetSize = (LeafPage.mk 2 3 4 INVALID_PAGE_ID [(3, 103), (4, 104)]).GetSize + 1 ∧
      (∃ pre post,
        (LeafPage.mk 2 3 4 INVALID_PAGE_ID [(3, 103), (4, 104)]).array = pre ++ post ∧
        l1.array = pre ++ (5, 105) :: post ∧
        (∀ e ∈ pre, e.1 < 5) ∧ (∀ e, post.head? = some e → 5 < e.1)) ∧
      ((LeafPage.mk 2 3 4 INVALID_PAGE_ID [(3, 103), (4, 104)]).array.Pairwise
          (fun a b => a.1 < b.1) → l1.array.Pairwise (fun a b => a.1 < b.1)) :=
  ⟨by decide, by decide, by decide, by decide,
    insert_into_leaf_with_room (built 4 4 [(1, 101), (2, 102), (3, 103), (4, 104)]) 5 105 2
      (LeafPage.mk 2 3 4 INVALID_PAGE_ID [(3, 103), (4, 104)]) (by decide) (by decide)
      (by decide)⟩

/-! ## The position of `Begin(key)` -/

set_option maxRecDepth 100000 in
/-- C32 fails on the code when `key` is larger than every key of the leaf that the descent
reaches and a later leaf holds larger keys.  With `leaf_max_size = internal_max_size = 4` the
calls `Insert(1)`, `Insert(2)`, `Insert(5)`, `Insert(6)` build the root page 3 over the leaf 1
with the keys 1, 2 and the leaf 2 with the keys 5, 6.  `Begin(3)` descends to leaf 1 and returns
the iterator at index `KeyIndex(3) = 2` of that leaf, which holds 2 entries: the iterator is not
`end()` (page 2, index 2), its index is not smaller than the size of its leaf, `operator*` reads
past the entries of the page, although key 5 is stored, and `operator++` goes on to index 3 of
the same leaf, so that the loop from `Begin(3)` to `end()` does not reach the entry of key 5.
`Begin(5)` returns the valid position of key 5. -/
theorem begin_of_key_past_leaf_is_off_the_entries :
    (built 4 4 [(1, 101), (2, 102), (5, 105), (6, 106)]).Begin 3 =
      .ok { page_id := 1, index := 2 } ∧
    (built 4 4 [(1, 101), (2, 102), (5, 105), (6, 106)]).pages 1 =
      some (.leaf (LeafPage.mk 1 3 4 2 [(1, 101), (2, 102)])) ∧
    (built 4 4 [(1, 101), (2, 102), (5, 105), (6, 106)]).pages 2 =
      some (.leaf (LeafPage.mk 2 3 4 INVALID_PAGE_ID [(5, 105), (6, 106)])) ∧
    (built 4 4 [(1, 101), (2, 102), (5, 105), (6, 106)]).end_ =
      .ok { page_id := 2, index := 2 } ∧
    IndexIterator.eq (built 4 4 [(1, 101), (2, 102), (5, 105), (6, 106)])
      { page_id := 1, index := 2 } { page_id := 2, index := 2 } = .ok false ∧
    IndexIterator.deref (built 4 4 [(1, 101), (2, 102), (5, 105), (6, 106)])
      { page_id := 1, index := 2 } = .error .bad_access ∧
    IndexIterator.next (built 4 4 [(1, 101), (2, 102), (5, 105), (6, 106)])
      { page_id := 1, index := 2 } = .ok { page_id := 1, index := 3 } ∧
    (built 4 4 [(1, 101), (2, 102), (5, 105), (6, 106)]).scanFrom 3 8 = .error .bad_access ∧
    (built 4 4 [(1, 101), (2, 102), (5, 105), (6, 106)]).Begin 5 =
      .ok { page_id := 2, index := 0 } ∧
    (built 4 4 [(1, 101), (2, 102), (5, 105), (6, 106)]).scanFrom 5 8 =
      .ok [(5, 105), (6, 106)] := by
  decide

/-! ## The tuples returned by the join executor -/

/-- The loop of `Next` reads the plan only. -/
theorem NestedLoopJoinExecutor.nextLoop_plan (e e1 : NestedLoopJoinExecutor)
    (hp : e1.predicate = e.predicate) (hc : e1.columns = e.columns) :
    ∀ (left : List Tuple) (right : ListExecutor),
      NestedLoopJoinExecutor.nextLoop e1 left right =
        NestedLoopJoinExecutor.nextLoop e left right := by
  intro left
  induction left with
  | nil => intro right; rfl
  | cons t1 left ih =>
    intro right
    simp only [NestedLoopJoinExecutor.nextLoop, NestedLoopJoinExecutor.Join, hp, hc, ih]

/-- One round of the loop of `Next`, with the cursors of the children at `t1 :: left` and
`right`. -/
theorem NestedLoopJoinExecutor.next_cons (e : NestedLoopJoinExecutor) (t1 : Tuple)
    (left : List Tuple) (right : ListExecutor) :
    NestedLoopJoinExecutor.Next
        { e with left_executor := { e.left_executor with rest := t1 :: left },
                 right_executor := right } =
      match right.Next with
      | (some t2, right1) =>
        if e.predicate t1 t2 then
          (some (e.Join t1 t2),
            { e with left_executor := { e.left_executor with rest := left },
                     right_executor := right1 })
        else
          NestedLoopJoinExecutor.Next
            { e with left_executor := { e.left_executor with rest := left },
                     right_executor := right1 }
      | (none, right1) =>
        NestedLoopJoinExecutor.Next
          { e with left_executor := { e.left_executor with rest := left },
                   right_executor := right1 } := by
  have hplan : ∀ (l0 l1 : List Tuple) (r0 r1 : ListExecutor) (left : List Tuple)
      (right : ListExecutor),
      NestedLoopJoinExecutor.nextLoop
          { e with left_executor := { e.left_executor with rest := l0 }, right_executor := r0 }
          left right =
        NestedLoopJoinExecutor.nextLoop
          { e with left_executor := { e.left_executor with rest := l1 }, right_executor := r1 }
          left right := by
    intro l0 l1 r0 r1 left right
    apply NestedLoopJoinExecutor.nextLoop_plan <;> rfl
  simp only [NestedLoopJoinExecutor.Next, NestedLoopJoinExecutor.nextLoop]
  cases hr : right.Next with
  | mk r right1 =>
    cases r with
    | none =>
      simp only
      rw [hplan (t1 :: left) left right right1]
    | some t2 =>
      simp only
      by_cases hp : e.predicate t1 t2
      · simp only [hp, if_true]
        rfl
      · simp only [hp, Bool.false_eq_true, if_false]
        rw [hplan (t1 :: left) left right right1]

/-- The calls of `Next` return the joined tuples of the pairs that stand at the same position in
the two lists and satisfy the predicate. -/
theorem NestedLoopJoinExecutor.drain_zip (e : NestedLoopJoinExecutor) :
    ∀ (left : List Tuple) (right : ListExecutor) (fuel : Nat), left.length < fuel →
      NestedLoopJoinExecutor.drain fuel
          { e with left_executor := { e.left_executor with rest := left },
                   right_executor := right } =
        some (((left.zip right.rest).filter (fun p => e.predicate p.1 p.2)).map
          (fun p => e.Join p.1 p.2)) := by
  intro left
  induction left with
  | nil =>
    intro right fuel hf
    cases fuel with
    | zero => omega
    | succ f =>
      simp only [NestedLoopJoinExecutor.drain, NestedLoopJoinExecutor.Next,
        NestedLoopJoinExecutor.nextLoop, List.zip_nil_left, List.filter_nil, List.map_nil]
  | cons t1 left ih =>
    intro right fuel hf
    cases fuel with
    | zero => omega
    | succ f =>
      have hf1 : left.length < f := by simpa using hf
      have ih1 := ih
      rw [NestedLoopJoinExecutor.drain, NestedLoopJoinExecutor.next_cons]
      cases hrest : right.rest with
      | nil =>
        have hn : right.Next = (none, right) := by
          simp only [ListExecutor.Next, hrest]
        rw [hn]
        simp only [List.zip_nil_right, List.filter_nil, List.map_nil]
        have := ih right (f + 1) (by omega)
        rw [NestedLoopJoinExecutor.drain, hrest] at this
        simpa using this
      | cons t2 rs =>
        have hn : right.Next = (some t2, { right with rest := rs }) := by
          simp only [ListExecutor.Next, hrest]
        rw [hn]
        simp only [List.zip_cons_cons, List.filter_cons]
        by_cases hp : e.predicate t1 t2
        · simp only [hp, if_true, List.map_cons]
          rw [ih { right with rest := rs } f hf1]
          rfl
        · simp only [hp, Bool.false_eq_true, if_false]
          have := ih { right with rest := rs } (f + 1) (by omega)
          rw [NestedLoopJoinExecutor.drain] at this
          exact this

set_option maxRecDepth 100000 in
/-- C39 fails on the code.  `Next` calls `Next` of the left child and then `Next` of the right
child once in every round of its loop and never sets the right child back to its start, so the
tuples it returns are the joined tuples of the pairs that stand at the same position of `Ls` and
`Rs` and satisfy the predicate, not those of all pairs.  With `Ls = [[1], [2]]`,
`Rs = [[10], [20]]`, the predicate that is always true and the output columns "column 0 of the
left tuple, column 0 of the right tuple", the calls of `Next` return `[1, 10]` and `[2, 20]`,
while the pairs of `Ls x Rs` give four joined tuples. -/
theorem join_pairs_tuples_by_position :
    (∀ (predicate : Tuple → Tuple → Bool) (columns : List (Tuple → Tuple → Int))
      (Ls Rs : List Tuple),
      joinOutput predicate columns Ls Rs =
        some (((Ls.zip Rs).filter (fun p => predicate p.1 p.2)).map
          (fun p => columns.map (fun expr => expr p.1 p.2)))) ∧
    joinOutput (fun _ _ => true) [fun l _ => l.headD 0, fun _ r => r.headD 0]
      [[1], [2]] [[10], [20]] = some [[1, 10], [2, 20]] ∧
    joinAllPairs (fun _ _ => true) [fun l _ => l.headD 0, fun _ r => r.headD 0]
      [[1], [2]] [[10], [20]] = [[1, 10], [1, 20], [2, 10], [2, 20]] := by
  refine ⟨?_, by decide, by decide⟩
  intro predicate columns Ls Rs
  exact NestedLoopJoinExecutor.drain_zip
    { predicate := predicate, columns := columns,
      left_executor := { tuples := Ls, rest := [] },
      right_executor := { tuples := Rs, rest := [] } } Ls { tuples := Rs, rest := Rs }
    (Ls.length + 1) (by omega)

/-! ## The end of the iteration -/

/-- An iterator that the caller can reach stands on a leaf page. -/
theorem IndexIterator.Reached.onLeaf {t : BPlusTree} {it : IndexIterator}
    (hr : IndexIterator.Reached t it) : ∃ l, t.pages it.page_id = some (.leaf l) := by
  induction hr with
  | ofbegin it h =>
    simp only [BPlusTree.begin] at h
    cases hf : t.FindLeafPage 0 true with
    | error e => rw [hf] at h; cases h
    | ok r =>
      obtain ⟨q, l⟩ := r
      rw [hf] at h
      simp only [Except.ok.injEq] at h
      rw [← h]
      exact ⟨l, FindLeafPage_page hf⟩
  | ofBegin key it h =>
    simp only [BPlusTree.Begin] at h
    cases hf : t.FindLeafPage key false with
    | error e => rw [hf] at h; cases h
    | ok r =>
      obtain ⟨q, l⟩ := r
      rw [hf] at h
      simp only [Except.ok.injEq] at h
      rw [← h]
      exact ⟨l, FindLeafPage_page hf⟩
  | step it it1 _ _ hn ih =>
    obtain ⟨l, hl⟩ := ih
    simp only [IndexIterator.next, hl] at hn
    split at hn
    · cases hq : t.pages l.next_page_id with
      | none => rw [hq] at hn; cases hn
      | some pg =>
        rw [hq] at hn
        cases pg with
        | internal n => cases hn
        | leaf l2 =>
          simp only [Except.ok.injEq] at hn
          rw [← hn]
          exact ⟨l2, hq⟩
    · simp only [Except.ok.injEq] at hn
      rw [← hn]
      exact ⟨l, hl⟩

/-- What `end()` returns on a well-formed tree: the position behind the entries of the leaf
whose `next_page_id` is `INVALID_PAGE_ID`. -/
theorem end_spec {t : BPlusTree} {g : Ghost} (hinv : Inv t g) :
    ∃ qe le, t.end_ = .ok { page_id := qe, index := le.GetSize } ∧
      t.pages qe = some (.leaf le) ∧ le.next_page_id = INVALID_PAGE_ID := by
  obtain ⟨q, l, h1, h2, -⟩ := FindLeafPage_leftMost hinv 0
  obtain ⟨qe, es, hc⟩ := chain_exists hinv (t.next_page_id.toNat - g.pos q) q l h2 (le_refl _)
  obtain ⟨le, e1, e2, e3⟩ := endLoop_spec hinv hc l t.fuel h2 (by
    simp only [BPlusTree.fuel]; omega)
  exact ⟨qe, le, by simp only [BPlusTree.end_, h1, e3], e1, e2⟩

/-- A well-formed tree has one leaf only whose `next_page_id` is `INVALID_PAGE_ID`. -/
theorem Inv.lastLeaf {t : BPlusTree} {g : Ghost} (hinv : Inv t g) {q q1 : Int}
    {l l1 : LeafPage} (hq : t.pages q = some (.leaf l)) (hq1 : t.pages q1 = some (.leaf l1))
    (hn : l.next_page_id = INVALID_PAGE_ID) (hn1 : l1.next_page_id = INVALID_PAGE_ID) :
    q = q1 := by
  obtain ⟨-, a2, -, a4, a5, -⟩ := hinv.leafOK q l hq
  obtain ⟨-, b2, -, b4, b5, -⟩ := hinv.leafOK q1 l1 hq1
  obtain ⟨e, he⟩ := List.exists_mem_of_ne_nil _ a2
  obtain ⟨e', he'⟩ := List.exists_mem_of_ne_nil _ b2
  have r1 := (a4 e he).1
  have r2 := (b4 e' he').1
  refine hinv.leafUniq q q1 l l1 (max e.1 e'.1) hq hq1 ⟨?_, ?_⟩ ⟨?_, ?_⟩
  · intro x hx; have := r1 x hx; omega
  · intro y hy; rw [a5 hn] at hy; cases hy
  · intro x hx; have := r2 x hx; omega
  · intro y hy; rw [b5 hn1] at hy; cases hy

/-- C31: on a well-formed tree, for every iterator `it` reached from `begin()` or `Begin(key)` by
`operator++` steps taken from iterators that are not at the end, `end()` returns an iterator `e`,
and `it.isEnd()`, `it == e` and `it != e` return: the first two return the same flag and the
third returns its negation. -/
theorem isEnd_iff_equals_end {t : BPlusTree} {g : Ghost} (hinv : Inv t g) {it : IndexIterator}
    (hr : IndexIterator.Reached t it) :
    ∃ e b, t.end_ = .ok e ∧ IndexIterator.isEnd t it = .ok b ∧
      IndexIterator.eq t it e = .ok b ∧ IndexIterator.ne t it e = .ok (!b) := by
  obtain ⟨l, hl⟩ := hr.onLeaf
  obtain ⟨qe, le, h1, h2, h3⟩ := end_spec hinv
  have hp1 : (Page.leaf l).GetPageId = it.page_id := hinv.pid _ _ hl
  have hp2 : (Page.leaf le).GetPageId = qe := hinv.pid _ _ h2
  have heq : IndexIterator.eq t it { page_id := qe, index := le.GetSize } =
      .ok (l.next_page_id == INVALID_PAGE_ID && it.index == l.GetSize) := by
    simp only [IndexIterator.eq, hl, h2, hp1, hp2]
    by_cases hn : l.next_page_id = INVALID_PAGE_ID
    · have hsame := hinv.lastLeaf hl h2 hn h3
      rw [hsame] at hl
      rw [h2] at hl
      cases hl
      simp only [hsame, hn, beq_self_eq_true, Bool.true_and]
    · have hne : it.page_id ≠ qe := by
        intro e
        rw [e, h2] at hl
        cases hl
        exact hn h3
      have e1 : (it.page_id == qe) = false := by simpa using hne
      have e2 : (l.next_page_id == INVALID_PAGE_ID) = false := by simpa using hn
      simp only [e1, e2, Bool.false_and]
  refine ⟨_, _, h1, by simp only [IndexIterator.isEnd, hl], heq, ?_⟩
  simp only [IndexIterator.ne, heq]

set_option maxRecDepth 100000 in
theorem isEnd_iff_equals_end_witness :
    (∃ g, Inv (built 3 3 [(1, 101), (2, 102), (3, 103), (4, 104)]) g) ∧
    IndexIterator.Reached (built 3 3 [(1, 101), (2, 102), (3, 103), (4, 104)])
      { page_id := 4, index := 2 } ∧
    ∃ e b, (built 3 3 [(1, 101), (2, 102), (3, 103), (4, 104)]).end_ = .ok e ∧
      IndexIterator.isEnd (built 3 3 [(1, 101), (2, 102), (3, 103), (4, 104)])
        { page_id := 4, index := 2 } = .ok b ∧
      IndexIterator.eq (built 3 3 [(1, 101), (2, 102), (3, 103), (4, 104)])
        { page_id := 4, index := 2 } e = .ok b ∧
      IndexIterator.ne (built 3 3 [(1, 101), (2, 102), (3, 103), (4, 104)])
        { page_id := 4, index := 2 } e = .ok (!b) := by
  obtain ⟨g, hg⟩ := built_inv 3 3 [(1, 101), (2, 102), (3, 103), (4, 104)] (by decide)
  have hr : IndexIterator.Reached (built 3 3 [(1, 101), (2, 102), (3, 103), (4, 104)])
      { page_id := 4, index := 2 } :=
    IndexIterator.Reached.step { page_id := 4, index := 1 } _
      (IndexIterator.Reached.step { page_id := 4, index := 0 } _
        (IndexIterator.Reached.ofBegin 3 _ (by decide)) (by decide) (by decide))
      (by decide) (by decide)
  exact ⟨⟨g, hg⟩, hr, isEnd_iff_equals_end hg hr⟩

/-! ## The leaf of a key and the first leaf -/

/-- C33: on a well-formed tree `FindLeafPageByOperation` returns, and returns the same leaf page
`q`, for the operations FIND, INSERT and DELETE and whatever the page set of the transaction;
it is the leaf of `FindLeafPage`.  With `leftMost = false` a pair with the key is stored in the
tree exactly when that leaf holds it, and no other leaf holds the key.  With `leftMost = true` the
leaf is the first one of the sibling chain: no leaf names it as its `next_page_id`, the chain of
leaves read from it along `next_page_id` starts with it and holds every leaf, and its first key is
the smallest key stored in the tree. -/
theorem descent_returns_the_leaf_of_the_key {t : BPlusTree} {g : Ghost} (hinv : Inv t g)
    (key : Int) (leftMost : Bool) :
    ∃ q l, t.pages q = some (.leaf l) ∧ t.FindLeafPage key leftMost = .ok (q, l) ∧
      (∀ op page_set, ∃ d,
        (Latched.FindLeafPageByOperation t key op leftMost page_set).result = .ok d ∧
          d.page_id = q) ∧
      (leftMost = false →
        (∀ v, Stored t key v ↔ (key, v) ∈ l.array) ∧
        (∀ q1 l1 v, t.pages q1 = some (.leaf l1) → (key, v) ∈ l1.array → q1 = q)) ∧
      (leftMost = true →
        (∀ q1 l1, t.pages q1 = some (.leaf l1) → l1.next_page_id ≠ q) ∧
        (∃ rest, t.leafChain = .ok ((q, l) :: rest) ∧
          ∀ q1 l1, t.pages q1 = some (.leaf l1) → (q1, l1) ∈ (q, l) :: rest) ∧
        ∃ e0, l.array.head? = some e0 ∧ ∀ k v, Stored t k v → e0.1 ≤ k) := by
  cases leftMost with
  | false =>
    obtain ⟨q, l, h1, h2, h3⟩ := FindLeafPage_spec hinv key
    refine ⟨q, l, h2, h1, fun op ps => FindLeafPageByOperation_returns h1 op ps, fun _ => ?_,
      fun h => by cases h⟩
    refine ⟨fun v => hinv.stored_leaf h2 h3 v, ?_⟩
    intro q1 l1 v hq1 hm
    exact hinv.leafUniq q1 q l1 l key hq1 h2 ((hinv.leafOK q1 l1 hq1).2.2.2.1 _ hm) h3
  | true =>
    obtain ⟨q, l, h1, h2, h3⟩ := FindLeafPage_leftMost hinv key
    refine ⟨q, l, h2, h1, fun op ps => FindLeafPageByOperation_returns h1 op ps,
      (fun h => by cases h), fun _ => ?_⟩
    have h0 : t.FindLeafPage 0 true = .ok (q, l) := by
      rw [FindLeafPage_leftMost_key t 0 key]; exact h1
    obtain ⟨ch, c1, -, c3, -, c5, c6⟩ := leafChain_spec hinv
    have hch : ∃ rest, ch = (q, l) :: rest := by
      simp only [BPlusTree.leafChain, h0] at c1
      cases hf : t.fuel with
      | zero => rw [hf] at c1; simp [leafChainFrom] at c1
      | succ f =>
        rw [hf] at c1
        simp only [leafChainFrom, h2] at c1
        split at c1
        · simp only [Except.ok.injEq] at c1
          exact ⟨[], c1.symm⟩
        · cases hrest : leafChainFrom t.pages f l.next_page_id with
          | error e => rw [hrest] at c1; cases c1
          | ok rest =>
            rw [hrest] at c1
            simp only [Except.ok.injEq] at c1
            exact ⟨rest, c1.symm⟩
    obtain ⟨rest, hrest⟩ := hch
    rw [hrest] at c1 c3 c5 c6
    obtain ⟨-, a2, -, -, -, -⟩ := hinv.leafOK q l h2
    refine ⟨?_, ⟨rest, c1, fun q1 l1 hq1 => (c3 q1 l1).2 hq1⟩, ?_⟩
    · intro q1 l1 hq1 hn
      obtain ⟨-, -, -, -, -, b6⟩ := hinv.leafOK q1 l1 hq1
      have hq0 := (hinv.ids q _ h2).1
      have hne : l1.next_page_id ≠ INVALID_PAGE_ID := by
        rw [hn]; unfold INVALID_PAGE_ID; omega
      obtain ⟨l2, b, -, -, e3, -⟩ := b6 hne
      rw [hn, h3] at e3
      cases e3
    · cases harr : l.array with
      | nil => exact absurd harr a2
      | cons e0 tl =>
        refine ⟨e0, rfl, ?_⟩
        intro k v hs
        have hm := (c6 k v).2 hs
        simp only [entriesOf, List.flatMap_cons, harr, List.cons_append] at hm c5
        rcases List.mem_cons.1 hm with h | h
        · rw [← h]
        · have := (List.pairwise_cons.1 c5).1 (k, v) h
          exact le_of_lt this

set_option maxRecDepth 100000 in
theorem descent_returns_the_leaf_of_the_key_witness :
    (∃ g, Inv (built 3 3 [(1, 101), (2, 102), (3, 103), (4, 104)]) g) ∧
    (∃ q l, (built 3 3 [(1, 101), (2, 102), (3, 103), (4, 104)]).pages q = some (.leaf l) ∧
      (built 3 3 [(1, 101), (2, 102), (3, 103), (4, 104)]).FindLeafPage 2 false = .ok (q, l) ∧
      (∀ op page_set, ∃ d,
        (Latched.FindLeafPageByOperation (built 3 3 [(1, 101), (2, 102), (3, 103), (4, 104)])
          2 op false page_set).result = .ok d ∧ d.page_id = q) ∧
      (false = false →
        (∀ v, Stored (built 3 3 [(1, 101), (2, 102), (3, 103), (4, 104)]) 2 v ↔
          (2, v) ∈ l.array) ∧
        (∀ q1 l1 v,
          (built 3 3 [(1, 101), (2, 102), (3, 103), (4, 104)]).pages q1 = some (.leaf l1) →
          (2, v) ∈ l1.array → q1 = q)) ∧
      (false = true →
        (∀ q1 l1,
          (built 3 3 [(1, 101), (2, 102), (3, 103), (4, 104)]).pages q1 = some (.leaf l1) →
          l1.next_page_id ≠ q) ∧
        (∃ rest,
          (built 3 3 [(1, 101), (2, 102), (3, 103), (4, 104)]).leafChain =
            .ok ((q, l) :: rest) ∧
          ∀ q1 l1,
            (built 3 3 [(1, 101), (2, 102), (3, 103), (4, 104)]).pages q1 = some (.leaf l1) →
            (q1, l1) ∈ (q, l) :: rest) ∧
        ∃ e0, l.array.head? = some e0 ∧
          ∀ k v, Stored (built 3 3 [(1, 101), (2, 102), (3, 103), (4, 104)]) k v → e0.1 ≤ k)) ∧
    (∃ q l, (built 3 3 [(1, 101), (2, 102), (3, 103), (4, 104)]).pages q = some (.leaf l) ∧
      (built 3 3 [(1, 101), (2, 102), (3, 103), (4, 104)]).FindLeafPage 0 true = .ok (q, l) ∧
      (∀ op page_set, ∃ d,
        (Latched.FindLeafPageByOperation (built 3 3 [(1, 101), (2, 102), (3, 103), (4, 104)])
          0 op true page_set).result = .ok d ∧ d.page_id = q) ∧
      (true = false →
        (∀ v, Stored (built 3 3 [(1, 101), (2, 102), (3, 103), (4, 104)]) 0 v ↔
          (0, v) ∈ l.array) ∧
        (∀ q1 l1 v,
          (built 3 3 [(1, 101), (2, 102), (3, 103), (4, 104)]).pages q1 = some (.leaf l1) →
          (0, v) ∈ l1.array → q1 = q)) ∧
      (true = true →
        (∀ q1 l1,
          (built 3 3 [(1, 101), (2, 102), (3, 103), (4, 104)]).pages q1 = some (.leaf l1) →
          l1.next_page_id ≠ q) ∧
        (∃ rest,
          (built 3 3 [(1, 101), (2, 102), (3, 103), (4, 104)]).leafChain =
            .ok ((q, l) :: rest) ∧
          ∀ q1 l1,
            (built 3 3 [(1, 101), (2, 102), (3, 103), (4, 104)]).pages q1 = some (.leaf l1) →
            (q1, l1) ∈ (q, l) :: rest) ∧
        ∃ e0, l.array.head? = some e0 ∧
          ∀ k v, Stored (built 3 3 [(1, 101), (2, 102), (3, 103), (4, 104)]) k v → e0.1 ≤ k)) := by
  obtain ⟨g, hg⟩ := built_inv 3 3 [(1, 101), (2, 102), (3, 103), (4, 104)] (by decide)
  exact ⟨⟨g, hg⟩, descent_returns_the_leaf_of_the_key hg 2 false,
    descent_returns_the_leaf_of_the_key hg 0 true⟩

/-! ## Removal from a leaf that keeps enough entries -/

theorem deletePageCalls_nil_of_not_mem :
    ∀ (log : List Event), (∀ p, Event.DeletePage p ∉ log) → deletePageCalls log = [] := by
  intro log
  induction log with
  | nil => intro _; rfl
  | cons e rest ih =>
    intro h
    have hr := ih (fun p hp => h p (List.mem_cons_of_mem _ hp))
    cases e with
    | DeletePage p => exact absurd (List.mem_cons_self _ _) (h p)
    | _ => simp only [deletePageCalls, hr]

theorem deletePageCalls_append (a b : List Event) :
    deletePageCalls (a ++ b) = deletePageCalls a ++ deletePageCalls b := by
  induction a with
  | nil => rfl
  | cons e rest ih =>
    cases e <;> simp only [List.cons_append, deletePageCalls] <;>
      first | exact ih | exact congrArg _ ih

theorem not_mem_UnlockUnpinPages (ps : List Int) (p : Int) :
    Event.DeletePage p ∉ Latched.UnlockUnpinPages ps := by
  simp [Latched.UnlockUnpinPages, List.mem_flatMap]

theorem not_mem_unlockRoot (b : Bool) (p : Int) : Event.DeletePage p ∉ Latched.unlockRoot b := by
  cases b <;> simp [Latched.unlockRoot]

/-- The descent does not call `DeletePage`. -/
theorem not_mem_descendLoop (t : BPlusTree) (key : Int) (op : Operation) (lm : Bool) (p : Int) :
    ∀ (fuel : Nat) (page_id : Int) (flag : Bool) (ps : List Int),
      Event.DeletePage p ∉ (Latched.descendLoop t key op lm fuel page_id flag ps).log := by
  intro fuel
  induction fuel with
  | zero => intro page_id flag ps; simp [Latched.descendLoop]
  | succ f ih =>
    intro page_id flag ps
    simp only [Latched.descendLoop]
    split
    · simp
    · simp
    · split
      · simp
      · split
        · exact ih _ _ _
        · split
          · rw [Traced.log_emit]
            simp only [List.mem_append, not_or]
            exact ⟨by simp, ih _ _ _⟩
          · split
            · rw [Traced.log_emit]
              simp only [List.mem_append, not_or]
              exact ⟨⟨⟨by simp, not_mem_unlockRoot _ _⟩, not_mem_UnlockUnpinPages _ _⟩, ih _ _ _⟩
            · rw [Traced.log_emit]
              simp only [List.mem_append, not_or]
              exact ⟨by simp, ih _ _ _⟩

theorem not_mem_FindLeafPageByOperation (t : BPlusTree) (key : Int) (op : Operation)
    (lm : Bool) (ps : List Int) (p : Int) :
    Event.DeletePage p ∉ (Latched.FindLeafPageByOperation t key op lm ps).log := by
  simp only [Latched.FindLeafPageByOperation]
  split
  · simp
  · split
    · simp
    · split
      · rw [Traced.log_emit]
        simp only [List.mem_append, not_or]
        exact ⟨by simp, not_mem_descendLoop _ _ _ _ _ _ _ _ _⟩
      · split
        · rw [Traced.log_emit]
          simp only [List.mem_append, not_or]
          exact ⟨by simp, not_mem_descendLoop _ _ _ _ _ _ _ _ _⟩
        · rw [Traced.log_emit]
          simp only [List.mem_append, not_or]
          exact ⟨by simp, not_mem_descendLoop _ _ _ _ _ _ _ _ _⟩

/-- What `removeKey` does to an array that holds the key: the first entry with the key goes,
the others stay in their order. -/
theorem removeKey_split :
    ∀ (arr : List (Int × Int)) (k v : Int), (k, v) ∈ arr →
      ∃ pre w post, arr = pre ++ (k, w) :: post ∧ LeafPage.removeKey arr k = pre ++ post ∧
        ∀ e ∈ pre, e.1 ≠ k := by
  intro arr
  induction arr with
  | nil => intro k v h; cases h
  | cons kv rest ih =>
    intro k v h
    simp only [LeafPage.removeKey]
    by_cases h1 : kv.1 = k
    · rw [if_pos h1]
      exact ⟨[], kv.2, rest, (by rw [← h1]; rfl), rfl, fun e he => by cases he⟩
    · rw [if_neg h1]
      have hm : (k, v) ∈ rest := by
        rcases List.mem_cons.1 h with e | e
        · exact absurd (by rw [← e]) h1
        · exact e
      obtain ⟨pre, w, post, e1, e2, e3⟩ := ih k v hm
      refine ⟨kv :: pre, w, post, by rw [e1]; rfl, by rw [e2]; rfl, ?_⟩
      intro e he
      rcases List.mem_cons.1 he with h2 | h2
      · rw [h2]; exact h1
      · exact e3 e h2

/-- C35: let the descent for `k` reach the leaf `q`, which holds a pair with the key `k`, and
let the leaf either be a page other than the root whose size after the removal is at least
`min_size`, or be the root and hold at least two entries.  Then `Remove(k)`, called with an empty
deleted-page set, returns the tree before with that one leaf page written: `root_page_id`, the
next page id to allocate and every other page are unchanged, the deleted-page set is empty
afterwards, and the calls that `Remove` makes include no `DeletePage`.  The leaf keeps its header
and loses the entry of `k`, the other entries staying in their order. -/
theorem remove_from_leaf_with_room (t : BPlusTree) (k v q : Int) (l : LeafPage)
    (page_set : List Int) (hfind : t.FindLeafPage k false = .ok (q, l))
    (hmem : (k, v) ∈ l.array)
    (hcase : (l.IsRootPage = false ∧ l.GetMinSize ≤ l.GetSize - 1) ∨
      (l.IsRootPage = true ∧ 2 ≤ l.GetSize)) :
    ∃ t1 l1, t.Remove k { deleted_page_set := [] } = .ok (t1, { deleted_page_set := [] }) ∧
      (Latched.Remove t k { deleted_page_set := [] } page_set).result =
        .ok (t1, { deleted_page_set := [] }, []) ∧
      deletePageCalls (Latched.Remove t k { deleted_page_set := [] } page_set).log = [] ∧
      t1 = t.write q (.leaf l1) ∧ t1.root_page_id = t.root_page_id ∧
      t1.next_page_id = t.next_page_id ∧ t1.pages q = some (.leaf l1) ∧
      (∀ x, x ≠ q → t1.pages x = t.pages x) ∧
      l1.page_id = l.page_id ∧ l1.parent_page_id = l.parent_page_id ∧
      l1.next_page_id = l.next_page_id ∧ l1.max_size = l.max_size ∧
      l1.GetSize + 1 = l.GetSize ∧
      ∃ pre w post, l.array = pre ++ (k, w) :: post ∧ l1.array = pre ++ post ∧
        ∀ e ∈ pre, e.1 ≠ k := by
  have hq : t.pages q = some (.leaf l) := FindLeafPage_page hfind
  have hlen := length_removeKey_of_mem hmem
  have hsz1 : (l.RemoveAndDeleteRecord k).GetSize + 1 = l.GetSize := by
    simp only [LeafPage.GetSize, LeafPage.RemoveAndDeleteRecord, ← hlen]
    push_cast
    rfl
  have hne : ¬ (l.RemoveAndDeleteRecord k).GetSize = l.GetSize := by omega
  obtain ⟨f, hf⟩ : ∃ f, t.fuel = f + 1 := by
    cases hf : t.fuel with
    | zero =>
      simp only [BPlusTree.FindLeafPage, hf] at hfind
      split at hfind <;> simp [BPlusTree.findLeafLoop] at hfind
    | succ f => exact ⟨f, rfl⟩
  have hf1 : (t.write q (.leaf (l.RemoveAndDeleteRecord k))).fuel = f + 1 := hf
  have hq1 : (t.write q (.leaf (l.RemoveAndDeleteRecord k))).pages q =
      some (.leaf (l.RemoveAndDeleteRecord k)) := by
    simp only [BPlusTree.write_pages, Pool.write_apply, if_true]
  have hroot1 : (Page.leaf (l.RemoveAndDeleteRecord k)).IsRootPage = l.IsRootPage := rfl
  have hmin1 : (Page.leaf (l.RemoveAndDeleteRecord k)).GetMinSize = l.GetMinSize := rfl
  have hgs1 : (Page.leaf (l.RemoveAndDeleteRecord k)).GetSize =
      (l.RemoveAndDeleteRecord k).GetSize := rfl
  -- the embedding
  have hpure : (t.write q (.leaf (l.RemoveAndDeleteRecord k))).CoalesceOrRedistribute (f + 1)
      q { deleted_page_set := [] } =
        .ok (t.write q (.leaf (l.RemoveAndDeleteRecord k)), { deleted_page_set := [] },
          false) := by
    simp only [BPlusTree.CoalesceOrRedistribute, hq1, hroot1]
    rcases hcase with ⟨c1, c2⟩ | ⟨c1, c2⟩
    · have : (Page.leaf (l.RemoveAndDeleteRecord k)).GetSize ≥
          (Page.leaf (l.RemoveAndDeleteRecord k)).GetMinSize := by
        rw [hgs1, hmin1]; omega
      simp only [c1, Bool.false_eq_true, if_false, this, if_true]
    · have h0 : ¬ (l.RemoveAndDeleteRecord k).GetSize = 0 := by omega
      simp only [c1, if_true, BPlusTree.AdjustRoot, hq1, h0, if_false]
  obtain ⟨d, hd, hdq⟩ := FindLeafPageByOperation_returns hfind Operation.DELETE page_set
  have hx : Latched.FindLeafPageByOperation t k .DELETE false page_set =
      { log := (Latched.FindLeafPageByOperation t k .DELETE false page_set).log,
        result := .ok d } := by
    rw [← hd]
  have hnd := not_mem_FindLeafPageByOperation t k .DELETE false page_set
  generalize (Latched.FindLeafPageByOperation t k .DELETE false page_set).log = lg0 at hx hnd
  -- the logged call of `CoalesceOrRedistribute`
  have hcor : ∃ lg, (∀ p, Event.DeletePage p ∉ lg) ∧
      Latched.CoalesceOrRedistribute (f + 1) (t.write q (.leaf (l.RemoveAndDeleteRecord k))) q
        { deleted_page_set := [] } d.root_page_latch d.page_set =
        { log := lg,
          result := .ok (t.write q (.leaf (l.RemoveAndDeleteRecord k)),
            { deleted_page_set := [] }, [], false) } := by
    simp only [Latched.CoalesceOrRedistribute, hq1, hroot1]
    rcases hcase with ⟨c1, c2⟩ | ⟨c1, c2⟩
    · have : (Page.leaf (l.RemoveAndDeleteRecord k)).GetSize ≥
          (Page.leaf (l.RemoveAndDeleteRecord k)).GetMinSize := by
        rw [hgs1, hmin1]; omega
      simp only [c1, Bool.false_eq_true, if_false, this, if_true]
      exact ⟨_, fun p => not_mem_UnlockUnpinPages _ p, rfl⟩
    · have h0 : ¬ (l.RemoveAndDeleteRecord k).GetSize = 0 := by omega
      simp only [c1, if_true, Latched.AdjustRoot, hq1, h0, if_false, BPlusTree.AdjustRoot,
        Traced.bind, Traced.emit, List.append_nil]
      exact ⟨_, fun p => not_mem_UnlockUnpinPages _ p, rfl⟩
  obtain ⟨lg, hlg, hcor⟩ := hcor
  refine ⟨t.write q (.leaf (l.RemoveAndDeleteRecord k)), l.RemoveAndDeleteRecord k, ?_, ?_, ?_,
    rfl, rfl, rfl, hq1, ?_, rfl, rfl, rfl, rfl, hsz1, removeKey_split l.array k v hmem⟩
  · simp only [BPlusTree.Remove, hfind, hne, if_false, hf1, hpure, Bool.false_eq_true,
      List.foldl_nil]
  · simp only [Latched.Remove, hx, Traced.bind, hdq, hq, hne, if_false, hf1, hcor,
      Bool.false_eq_true, List.foldl_nil]
  · simp only [Latched.Remove, hx, Traced.bind, hdq, hq, hne, if_false, hf1, hcor,
      Bool.false_eq_true, List.map_nil, List.append_nil]
    rw [deletePageCalls_append, deletePageCalls_append,
      deletePageCalls_nil_of_not_mem _ (fun p => hnd p), deletePageCalls_nil_of_not_mem _ hlg]
    rfl
  · intro x hxq
    simp only [BPlusTree.write_pages, Pool.write_apply, if_neg hxq]

set_option maxRecDepth 100000 in
theorem remove_from_leaf_with_room_witness :
    ((built 4 4 [(1, 101), (2, 102), (3, 103), (4, 104), (5, 105)]).FindLeafPage 5 false = .ok (2, (LeafPage.mk 2 3 4 INVALID_PAGE_ID [(3, 103), (4, 104), (5, 105)])) ∧
    ((5, 105) : Int × Int) ∈ (LeafPage.mk 2 3 4 INVALID_PAGE_ID [(3, 103), (4, 104), (5, 105)]).array ∧
    (((LeafPage.mk 2 3 4 INVALID_PAGE_ID [(3, 103), (4, 104), (5, 105)]).IsRootPage = false ∧ (LeafPage.mk 2 3 4 INVALID_PAGE_ID [(3, 103), (4, 104), (5, 105)]).GetMinSize ≤ (LeafPage.mk 2 3 4 INVALID_PAGE_ID [(3, 103), (4, 104), (5, 105)]).GetSize - 1) ∨
      ((LeafPage.mk 2 3 4 INVALID_PAGE_ID [(3, 103), (4, 104), (5, 105)]).IsRootPage = true ∧ 2 ≤ (LeafPage.mk 2 3 4 INVALID_PAGE_ID [(3, 103), (4, 104), (5, 105)]).GetSize))) ∧
    (∃ t1 l1, (built 4 4 [(1, 101), (2, 102), (3, 103), (4, 104), (5, 105)]).Remove 5 { deleted_page_set := [] } = .ok (t1, { deleted_page_set := [] }) ∧
      (Latched.Remove (built 4 4 [(1, 101), (2, 102), (3, 103), (4, 104), (5, 105)]) 5 { deleted_page_set := [] } []).result =
        .ok (t1, { deleted_page_set := [] }, []) ∧
      deletePageCalls (Latched.Remove (built 4 4 [(1, 101), (2, 102), (3, 103), (4, 104), (5, 105)]) 5 { deleted_page_set := [] } []).log = [] ∧
      t1 = (built 4 4 [(1, 101), (2, 102), (3, 103), (4, 104), (5, 105)]).write 2 (.leaf l1) ∧ t1.root_page_id = (built 4 4 [(1, 101), (2, 102), (3, 103), (4, 104), (5, 105)]).root_page_id ∧
      t1.next_page_id = (built 4 4 [(1, 101), (2, 102), (3, 103), (4, 104), (5, 105)]).next_page_id ∧ t1.pages 2 = some (.leaf l1) ∧
      (∀ x, x ≠ 2 → t1.pages x = (built 4 4 [(1, 101), (2, 102), (3, 103), (4, 104), (5, 105)]).pages x) ∧
      l1.page_id = (LeafPage.mk 2 3 4 INVALID_PAGE_ID [(3, 103), (4, 104), (5, 105)]).page_id ∧ l1.parent_page_id = (LeafPage.mk 2 3 4 INVALID_PAGE_ID [(3, 103), (4, 104), (5, 105)]).parent_page_id ∧
      l1.next_page_id = (LeafPage.mk 2 3 4 INVALID_PAGE_ID [(3, 103), (4, 104), (5, 105)]).next_page_id ∧ l1.max_size = (LeafPage.mk 2 3 4 INVALID_PAGE_ID [(3, 103), (4, 104), (5, 105)]).max_size ∧
      l1.GetSize + 1 = (LeafPage.mk 2 3 4 INVALID_PAGE_ID [(3, 103), (4, 104), (5, 105)]).GetSize ∧
      ∃ pre w post, (LeafPage.mk 2 3 4 INVALID_PAGE_ID [(3, 103), (4, 104), (5, 105)]).array = pre ++ (5, w) :: post ∧ l1.array = pre ++ post ∧
        ∀ e ∈ pre, e.1 ≠ 5) ∧
    ((built 4 4 [(1, 101), (2, 102)]).FindLeafPage 1 false = .ok (1, (LeafPage.mk 1 INVALID_PAGE_ID 4 INVALID_PAGE_ID [(1, 101), (2, 102)])) ∧
    ((1, 101) : Int × Int) ∈ (LeafPage.mk 1 INVALID_PAGE_ID 4 INVALID_PAGE_ID [(1, 101), (2, 102)]).array ∧
    (((LeafPage.mk 1 INVALID_PAGE_ID 4 INVALID_PAGE_ID [(1, 101), (2, 102)]).IsRootPage = false ∧ (LeafPage.mk 1 INVALID_PAGE_ID 4 INVALID_PAGE_ID [(1, 101), (2, 102)]).GetMinSize ≤ (LeafPage.mk 1 INVALID_PAGE_ID 4 INVALID_PAGE_ID [(1, 101), (2, 102)]).GetSize - 1) ∨
      ((LeafPage.mk 1 INVALID_PAGE_ID 4 INVALID_PAGE_ID [(1, 101), (2, 102)]).IsRootPage = true ∧ 2 ≤ (LeafPage.mk 1 INVALID_PAGE_ID 4 INVALID_PAGE_ID [(1, 101), (2, 102)]).GetSize))) ∧
    (∃ t1 l1, (built 4 4 [(1, 101), (2, 102)]).Remove 1 { deleted_page_set := [] } = .ok (t1, { deleted_page_set := [] }) ∧
      (Latched.Remove (built 4 4 [(1, 101), (2, 102)]) 1 { deleted_page_set := [] } []).result =
        .ok (t1, { deleted_page_set := [] }, []) ∧
      deletePageCalls (Latched.Remove (built 4 4 [(1, 101), (2, 102)]) 1 { deleted_page_set := [] } []).log = [] ∧
      t1 = (built 4 4 [(1, 101), (2, 102)]).write 1 (.leaf l1) ∧ t1.root_page_id = (built 4 4 [(1, 101), (2, 102)]).root_page_id ∧
      t1.next_page_id = (built 4 4 [(1, 101), (2, 102)]).next_page_id ∧ t1.pages 1 = some (.leaf l1) ∧
      (∀ x, x ≠ 1 → t1.pages x = (built 4 4 [(1, 101), (2, 102)]).pages x) ∧
      l1.page_id = (LeafPage.mk 1 INVALID_PAGE_ID 4 INVALID_PAGE_ID [(1, 101), (2, 102)]).page_id ∧ l1.parent_page_id = (LeafPage.mk 1 INVALID_PAGE_ID 4 INVALID_PAGE_ID [(1, 101), (2, 102)]).parent_page_id ∧
      l1.next_page_id = (LeafPage.mk 1 INVALID_PAGE_ID 4 INVALID_PAGE_ID [(1, 101), (2, 102)]).next_page_id ∧ l1.max_size = (LeafPage.mk 1 INVALID_PAGE_ID 4 INVALID_PAGE_ID [(1, 101), (2, 102)]).max_size ∧
      l1.GetSize + 1 = (LeafPage.mk 1 INVALID_PAGE_ID 4 INVALID_PAGE_ID [(1, 101), (2, 102)]).GetSize ∧
      ∃ pre w post, (LeafPage.mk 1 INVALID_PAGE_ID 4 INVALID_PAGE_ID [(1, 101), (2, 102)]).array = pre ++ (1, w) :: post ∧ l1.array = pre ++ post ∧
        ∀ e ∈ pre, e.1 ≠ 1) :=
  ⟨⟨by decide, by decide, by decide⟩,
    remove_from_leaf_with_room (built 4 4 [(1, 101), (2, 102), (3, 103), (4, 104), (5, 105)]) 5 105 2
      (LeafPage.mk 2 3 4 INVALID_PAGE_ID [(3, 103), (4, 104), (5, 105)]) [] (by decide) (by decide) (by decide),
    ⟨by decide, by decide, by decide⟩,
    remove_from_leaf_with_room (built 4 4 [(1, 101), (2, 102)]) 1 101 1
      (LeafPage.mk 1 INVALID_PAGE_ID 4 INVALID_PAGE_ID [(1, 101), (2, 102)]) [] (by decide) (by decide) (by decide)⟩

/-! ## Depth of the pages below the root -/

/-- In a well-formed tree a page reached from the root by `d` steps is in the pool and sits
`d` levels below the root. -/
theorem Inv.depthLevel {t : BPlusTree} {g : Ghost} (hinv : Inv t g) {q : Int} {d : Nat}
    (hd : DepthIs t.pages t.root_page_id q d) :
    (∃ pg, t.pages q = some pg) ∧ g.lvl q + d = g.lvl t.root_page_id := by
  induction hd with
  | self =>
    obtain ⟨pg, h1, -, -⟩ := hinv.rootPage
    exact ⟨⟨pg, h1⟩, rfl⟩
  | child x c d n _ hx hc ih =>
    obtain ⟨pc, -, -, e1, -, e3, -, -⟩ := (hinv.internalOK x n hx).child_exists hc
    exact ⟨⟨pc, e1⟩, by omega⟩

/-- In a well-formed tree every page of the pool is reached from the root, by as many steps as
its level is below the level of the root. -/
theorem Inv.depthExists {t : BPlusTree} {g : Ghost} (hinv : Inv t g) :
    ∀ (n : Nat) (q : Int) (pg : Page), t.pages q = some pg →
      g.lvl t.root_page_id - g.lvl q = n →
      DepthIs t.pages t.root_page_id q (g.lvl t.root_page_id - g.lvl q) := by
  intro n
  induction n with
  | zero =>
    intro q pg hq hn
    by_cases hr : q = t.root_page_id
    · rw [hr, Nat.sub_self]
      exact DepthIs.self _
    · obtain ⟨pn, e1, e2⟩ := hinv.listed q pg hq hr
      obtain ⟨pc, -, -, -, -, e3, -, -⟩ := (hinv.internalOK _ pn e1).child_exists e2
      have := hinv.lvlRoot _ _ e1
      omega
  | succ n ih =>
    intro q pg hq hn
    have hr : q ≠ t.root_page_id := by
      intro e; rw [e] at hn; omega
    obtain ⟨pn, e1, e2⟩ := hinv.listed q pg hq hr
    obtain ⟨pc, -, -, -, -, e3, -, -⟩ := (hinv.internalOK _ pn e1).child_exists e2
    have hle := hinv.lvlRoot _ _ e1
    have h1 := ih pg.GetParentPageId _ e1 (by omega)
    have h2 := DepthIs.child _ _ q _ pn h1 e1 e2
    have e : g.lvl t.root_page_id - g.lvl pg.GetParentPageId + 1 =
        g.lvl t.root_page_id - g.lvl q := by omega
    rw [e] at h2
    exact h2

/-- C36: after the calls `Insert(k, v)` for the pairs of any list `kvs`, made in order on a
newly constructed tree, all leaves are at the same depth below the root: there is a number `h`
such that every leaf page of the pool is reached from the root page by `h` steps from an
internal page to a child it lists, and by no other number of steps. -/
theorem leaves_at_the_same_depth (L I : Int) (kvs : List (Int × Int)) :
    ∃ t h, build L I kvs = .ok t ∧
      ∀ q l, t.pages q = some (.leaf l) →
        DepthIs t.pages t.root_page_id q h ∧
        ∀ d, DepthIs t.pages t.root_page_id q d → d = h := by
  obtain ⟨t, bs, -, h2, h3, h4, -, -⟩ := build_ok L I kvs
  by_cases hk : kvs = []
  · refine ⟨t, 0, h2, ?_⟩
    intro q l hq
    rw [h3 hk] at hq
    simp [BPlusTree.new] at hq
  · obtain ⟨g, hinv, -⟩ := h4 hk
    refine ⟨t, g.lvl t.root_page_id, h2, ?_⟩
    intro q l hq
    have hl : g.lvl q = 0 := (hinv.leafOK q l hq).1
    refine ⟨?_, ?_⟩
    · have := hinv.depthExists _ q _ hq rfl
      rw [hl, Nat.sub_zero] at this
      exact this
    · intro d hd
      have := (hinv.depthLevel hd).2
      omega

set_option maxRecDepth 100000 in
theorem leaves_at_the_same_depth_witness :
    ∃ t, build 3 3 [(1, 101), (2, 102), (3, 103), (4, 104)] = .ok t ∧
      t.pages 1 = some (.leaf (LeafPage.mk 1 3 3 2 [(1, 101)])) ∧
      ∀ q l, t.pages q = some (.leaf l) →
        DepthIs t.pages t.root_page_id q 1 ∧
        ∀ d, DepthIs t.pages t.root_page_id q d → d = 1 := by
  obtain ⟨t, h, hb, hall⟩ := leaves_at_the_same_depth 3 3 [(1, 101), (2, 102), (3, 103), (4, 104)]
  have hbt : built 3 3 [(1, 101), (2, 102), (3, 103), (4, 104)] = t := by
    simp only [built, hb]
  have h1 : t.pages 1 = some (.leaf (LeafPage.mk 1 3 3 2 [(1, 101)])) := by
    rw [← hbt]; decide
  have h3 : t.pages 3 =
      some (.internal (InternalPage.mk 3 INVALID_PAGE_ID 3 [(0, 1), (2, 2), (3, 4)])) := by
    rw [← hbt]; decide
  have hr : t.root_page_id = 3 := by
    rw [← hbt]; decide
  have hd : DepthIs t.pages t.root_page_id 1 1 := by
    rw [hr]
    exact DepthIs.child 3 3 1 0 _ (DepthIs.self 3) h3 (by decide)
  have hh : 1 = h := (hall 1 _ h1).2 1 hd
  subst hh
  exact ⟨t, hb, h1, hall⟩

/-! ## The recursion towards the root -/

/-- C37: on a well-formed tree the recursion of `InsertIntoParent` and the mutual recursion of
`CoalesceOrRedistribute` and `Coalesce` return within the levels between the page they are
started on and the root, because every recursive call is made on the parent of the current
page. The fuel of the two functions bounds the depth of the nested calls (it drops by one at
every recursive call, and a call without fuel fails with `diverge`). `InsertIntoParent`,
started in the state after a split of the page `old`, returns a tree as soon as the fuel
exceeds the number of levels between `old` and the root; `CoalesceOrRedistribute`, started on
a live page `node_id` of a well-shaped tree, returns as soon as the fuel exceeds the number of
levels between `node_id` and the root. Started on a leaf of a tree of `h` levels, `h` nested
calls are enough. -/
theorem recursion_ends_within_the_height :
    (∀ (fuel : Nat) (t : BPlusTree) (g : Ghost) (old new key : Int) (u : Option Int),
      HoleInv t g old new key u → g.lvl t.root_page_id < g.lvl old + fuel →
      ∃ t1, BPlusTree.InsertIntoParent fuel t old key new = .ok t1) ∧
    (∀ (fuel : Nat) (t : BPlusTree) (lvl : Int → Nat) (dead : Int → Prop) (node_id : Int)
      (txn : Transaction), Shape t lvl dead node_id → 2 ≤ t.leaf_max_size →
      3 ≤ t.internal_max_size → (∃ pg, t.pages node_id = some pg) → ¬ dead node_id →
      lvl t.root_page_id < lvl node_id + fuel →
      ∃ r, BPlusTree.CoalesceOrRedistribute fuel t node_id txn = .ok r) := by
  refine ⟨?_, CoalesceOrRedistribute_returns⟩
  intro fuel t g old new key u hh hfuel
  obtain ⟨t1, -, h1, -⟩ := InsertIntoParent_spec fuel t g old new key u hh hfuel
  exact ⟨t1, h1⟩

set_option maxRecDepth 100000 in
theorem recursion_ends_within_the_height_witness :
    (∃ t1, BPlusTree.InsertIntoParent 2
      { built 3 3 [(1, 101), (2, 102), (3, 103), (4, 104)] with
        next_page_id := 6,
        pages := (((built 3 3 [(1, 101), (2, 102), (3, 103), (4, 104)]).pages.write 4
          (.leaf (LeafPage.mk 4 3 3 INVALID_PAGE_ID [(3, 103), (4, 104), (5, 105)]))).write 5
          (.leaf (LeafPage.mk 5 3 3 INVALID_PAGE_ID [(4, 104), (5, 105)]))).write 4
          (.leaf (LeafPage.mk 4 3 3 5 [(3, 103)])) } 4 4 5 = .ok t1) ∧
    (∃ r, BPlusTree.CoalesceOrRedistribute 2
      ((built 3 3 [(1, 101), (2, 102), (3, 103), (4, 104)]).write 1
        (.leaf { LeafPage.mk 1 3 3 2 [(1, 101)] with array := [] })) 1
      { deleted_page_set := [] } = .ok r) := by
  have hne : [((1 : Int), (101 : Int)), (2, 102), (3, 103), (4, 104)] ≠ [] := by decide
  obtain ⟨g, hinv⟩ := built_inv 3 3 _ hne
  have hnp : (built 3 3 [(1, 101), (2, 102), (3, 103), (4, 104)]).next_page_id = 5 := by decide
  have hrt : (built 3 3 [(1, 101), (2, 102), (3, 103), (4, 104)]).root_page_id = 3 := by decide
  have h4 : (built 3 3 [(1, 101), (2, 102), (3, 103), (4, 104)]).pages 4 =
      some (.leaf (LeafPage.mk 4 3 3 INVALID_PAGE_ID [(3, 103), (4, 104)])) := by decide
  have h3 : (built 3 3 [(1, 101), (2, 102), (3, 103), (4, 104)]).pages 3 =
      some (.internal (InternalPage.mk 3 INVALID_PAGE_ID 3 [(0, 1), (2, 2), (3, 4)])) := by
    decide
  have h1 : (built 3 3 [(1, 101), (2, 102), (3, 103), (4, 104)]).pages 1 =
      some (.leaf (LeafPage.mk 1 3 3 2 [(1, 101)])) := by decide
  -- the state after the split of leaf 4
  have hfind : (built 3 3 [(1, 101), (2, 102), (3, 103), (4, 104)]).FindLeafPage 5 false =
      .ok (4, LeafPage.mk 4 3 3 INVALID_PAGE_ID [(3, 103), (4, 104)]) := by decide
  have hr5 : InRange (g.lo 4) (g.hi 4) 5 := by
    obtain ⟨q, l, e1, -, e3⟩ := FindLeafPage_spec hinv 5
    rw [hfind] at e1
    cases e1
    exact e3
  obtain ⟨-, -, -, a4, -, -⟩ := hinv.leafOK 4 _ h4
  obtain ⟨g1, hh, hlvl⟩ := @leaf_split_hole (built 3 3 [(1, 101), (2, 102), (3, 103), (4, 104)])
    { built 3 3 [(1, 101), (2, 102), (3, 103), (4, 104)] with
      next_page_id := 6,
      pages := (((built 3 3 [(1, 101), (2, 102), (3, 103), (4, 104)]).pages.write 4
        (.leaf (LeafPage.mk 4 3 3 INVALID_PAGE_ID [(3, 103), (4, 104), (5, 105)]))).write 5
        (.leaf (LeafPage.mk 5 3 3 INVALID_PAGE_ID [(4, 104), (5, 105)]))).write 4
        (.leaf (LeafPage.mk 4 3 3 5 [(3, 103)])) }
    g 4 (LeafPage.mk 4 3 3 INVALID_PAGE_ID [(3, 103), (4, 104)])
    (LeafPage.mk 4 3 3 5 [(3, 103)]) (LeafPage.mk 5 3 3 INVALID_PAGE_ID [(4, 104), (5, 105)])
    [(3, 103)] [(5, 105)] (4, 104) hinv h4
    (by
      intro x
      rw [hnp]
      simp only [Pool.write_apply]
      by_cases hx1 : x = 4
      · simp only [hx1, if_true]
      · by_cases hx2 : x = 5
        · simp only [hx1, hx2, if_false, if_true]
        · simp only [hx1, hx2, if_false])
    (by rw [hnp]; rfl) rfl rfl rfl hnp.symm rfl hnp.symm rfl rfl rfl (by simp) (by decide)
    (by
      intro kv hkv
      simp only [List.cons_append, List.nil_append, List.mem_cons, List.mem_singleton,
        List.not_mem_nil, or_false] at hkv
      rcases hkv with rfl | rfl | rfl
      · exact a4 _ (by decide)
      · exact a4 _ (by decide)
      · exact hr5)
  rw [hnp] at hh
  have hd : DepthIs (built 3 3 [(1, 101), (2, 102), (3, 103), (4, 104)]).pages
      (built 3 3 [(1, 101), (2, 102), (3, 103), (4, 104)]).root_page_id 4 1 := by
    rw [hrt]
    exact DepthIs.child 3 3 4 0 _ (DepthIs.self 3) h3 (by decide)
  have hbound : g1.lvl (built 3 3 [(1, 101), (2, 102), (3, 103), (4, 104)]).root_page_id <
      g1.lvl 4 + 2 := by
    have e := (hinv.depthLevel hd).2
    rw [hlvl _ (by rw [hnp, hrt]; decide), hlvl 4 (by rw [hnp]; decide)]
    omega
  -- the tree with leaf 1 emptied
  obtain ⟨lvl, hs⟩ := built_shape 3 3 [(1, 101), (2, 102), (3, 103), (4, 104)] hne (by decide)
    [] h1
  have hlv : lvl 3 = lvl 1 + 1 :=
    ((hs.child 3 (.internal (InternalPage.mk 3 INVALID_PAGE_ID 3 [(0, 1), (2, 2), (3, 4)]))
      (by decide) (fun h => h)).2 1 (by decide)).2.1
  exact ⟨recursion_ends_within_the_height.1 2 _ g1 4 5 4 _ hh hbound,
    recursion_ends_within_the_height.2 2 _ lvl _ 1 { deleted_page_set := [] } hs (by decide)
      (by decide)
      ⟨.leaf { LeafPage.mk 1 3 3 2 [(1, 101)] with array := [] }, by decide⟩ (fun h => h)
      (by
        have hr1 : ((built 3 3 [(1, 101), (2, 102), (3, 103), (4, 104)]).write 1
            (.leaf { LeafPage.mk 1 3 3 2 [(1, 101)] with array := [] })).root_page_id = 3 := by
          decide
        rw [hr1, hlv]
        omega)⟩

/-- C23: `Redistribute` on the page `node_id` and the sibling `s` that `CoalesceOrRedistribute`
picks for it (the page of slot 1 for `index = 0`, the page of slot `index - 1` otherwise), in a
tree that satisfies separator consistency: its live pages, the pages of the pool other than the
pages `dead` that a coalesce of the running `Remove` has emptied and that are not yet deleted,
form a well-formed tree. With a sibling of at least two entries the call succeeds, leaves the
pages of `dead` as they are and returns a tree whose live pages are well-formed again, so that
separator consistency still holds. The parent page is changed by one `SetKeyAt` only: for
`index = 0` the key of slot 1 becomes the first key of the sibling after the move, for
`index > 0` the key of slot `index` becomes the first key of the node after the move; every
other slot and every child pointer of the parent is as before. For internal pages the old
separator `old` travels down: for `index = 0` it is the key under which the first child of the
sibling is appended to the node, for `index > 0` it becomes the key of the former first child
of the node, behind the last entry of the sibling that is put in front. -/
theorem redistribute_keeps_separators {t : BPlusTree} {g : Ghost} {dead : List Int}
    {node_id s : Int} {node ps : Page} {pn : InternalPage} {index : Nat}
    (hinv : Inv (t.hide dead) g) (hnode : (t.hide dead).pages node_id = some node)
    (hp : (t.hide dead).pages node.GetParentPageId = some (.internal pn))
    (hidx : pn.ValueIndex node_id = some index)
    (hsv : pn.ValueAt (if index = 0 then 1 else index - 1) = some s)
    (hsib : (t.hide dead).pages s = some ps) (hsz : 2 ≤ ps.GetSize) :
    ∃ t1 pn1 node1 ps1 k old,
      t.Redistribute s node_id index = .ok t1 ∧
      t1.pages node.GetParentPageId = some (.internal pn1) ∧
      t1.pages node_id = some node1 ∧ t1.pages s = some ps1 ∧
      (∀ d ∈ dead, t1.pages d = t.pages d) ∧
      SeparatorsOK (t1.hide dead).pages ∧ (∃ g1, Inv (t1.hide dead) g1) ∧
      pn.KeyAt (if index = 0 then 1 else index) = some old ∧
      pn1 = pn.SetKeyAt (if index = 0 then 1 else index) k ∧
      pn1.KeyAt (if index = 0 then 1 else index) = some k ∧
      (∀ i, i ≠ (if index = 0 then 1 else index) → pn1.array.get? i = pn.array.get? i) ∧
      pn1.array.map Prod.snd = pn.array.map Prod.snd ∧
      (index = 0 → (ps1.entries.get? 0).map Prod.fst = some k) ∧
      (index ≠ 0 → (node1.entries.get? 0).map Prod.fst = some k) ∧
      (node.IsLeafPage = false →
        (index = 0 → ∃ x, ps.entries.get? 0 = some x ∧
          node1.entries = node.entries ++ [(old, x.2)] ∧ ps1.entries = ps.entries.tail) ∧
        (index ≠ 0 → ∃ z c0, ps.entries.getLast? = some z ∧ node.entries.get? 0 = some c0 ∧
          node1.entries = z :: (old, c0.2) :: node.entries.tail ∧
          ps1.entries = ps.entries.dropLast)) := by
  obtain ⟨t1, pn1, node1, ps1, k, old, h1, h2, h3, h4, h5, h6, h7⟩ :=
    Redistribute_separators hinv hnode hp hidx hsv hsib hsz
  obtain ⟨t2, e1, e2, e3⟩ := Redistribute_hide h1
  subst e2
  exact ⟨t2, pn1, node1, ps1, k, old, e1, (BPlusTree.pages_of_hide h2).2,
    (BPlusTree.pages_of_hide h3).2, (BPlusTree.pages_of_hide h4).2, e3, h5, h6, h7⟩

set_option maxRecDepth 100000 in
theorem redistribute_keeps_separators_witness :
    (built 4 3 [(1, 101), (2, 102), (3, 103), (4, 104), (5, 105), (6, 106), (7, 107),
      (8, 108), (0, 100), (-1, 99)]).FindLeafPage 7 false =
      .ok (5, LeafPage.mk 5 6 4 INVALID_PAGE_ID [(7, 107), (8, 108)]) ∧
    (∀ recur txn, BPlusTree.Coalesce recur
      ((built 4 3 [(1, 101), (2, 102), (3, 103), (4, 104), (5, 105), (6, 106), (7, 107),
        (8, 108), (0, 100), (-1, 99)]).write 5
        (.leaf ((LeafPage.mk 5 6 4 INVALID_PAGE_ID [(7, 107), (8, 108)]).RemoveAndDeleteRecord
          7))) 4 5 6 1 txn = recur redistributionState 6 txn) ∧
    Except.map (fun r => [1, 2, 3, 4, 5, 6, 7, 8].map r.1.pages)
      ((built 4 3 [(1, 101), (2, 102), (3, 103), (4, 104), (5, 105), (6, 106), (7, 107),
        (8, 108), (0, 100), (-1, 99)]).Remove 7 { deleted_page_set := [] }) =
      Except.map (fun t1 => [1, 2, 3, 4, 5, 6, 7, 8].map (t1.hide [5]).pages)
        (redistributionState.Redistribute 3 6 1) ∧
    Except.map (fun t1 => (t1.pages 3, t1.pages 6, t1.pages 7, t1.pages 2))
      (redistributionState.Redistribute 3 6 1) =
      .ok (some (.internal (InternalPage.mk 3 7 3 [(0, 1), (1, 8)])),
        some (.internal (InternalPage.mk 6 7 3 [(3, 2), (5, 4)])),
        some (.internal (InternalPage.mk 7 INVALID_PAGE_ID 3 [(0, 3), (3, 6)])),
        some (.leaf (LeafPage.mk 2 6 4 4 [(3, 103), (4, 104)]))) ∧
    Inv (redistributionState.hide [5]) redistributionGhost ∧
    (redistributionState.hide [5]).pages 6 = some (.internal (InternalPage.mk 6 7 3 [(5, 4)])) ∧
    (redistributionState.hide [5]).pages
      (Page.internal (InternalPage.mk 6 7 3 [(5, 4)])).GetParentPageId =
      some (.internal (InternalPage.mk 7 INVALID_PAGE_ID 3 [(0, 3), (5, 6)])) ∧
    (InternalPage.mk 7 INVALID_PAGE_ID 3 [(0, 3), (5, 6)]).ValueIndex 6 = some (1 : Nat) ∧
    (InternalPage.mk 7 INVALID_PAGE_ID 3 [(0, 3), (5, 6)]).ValueAt
      (if (1 : Nat) = 0 then 1 else (1 : Nat) - 1) = some 3 ∧
    (redistributionState.hide [5]).pages 3 =
      some (.internal (InternalPage.mk 3 7 3 [(0, 1), (1, 8), (3, 2)])) ∧
    2 ≤ (Page.internal (InternalPage.mk 3 7 3 [(0, 1), (1, 8), (3, 2)])).GetSize ∧
    ∃ t1 pn1 node1 ps1 k old,
      redistributionState.Redistribute 3 6 (1 : Nat) = .ok t1 ∧
      t1.pages (Page.internal (InternalPage.mk 6 7 3 [(5, 4)])).GetParentPageId =
        some (.internal pn1) ∧
      t1.pages 6 = some node1 ∧ t1.pages 3 = some ps1 ∧
      (∀ d ∈ [(5 : Int)], t1.pages d = redistributionState.pages d) ∧
      SeparatorsOK (t1.hide [5]).pages ∧ (∃ g1, Inv (t1.hide [5]) g1) ∧
      (InternalPage.mk 7 INVALID_PAGE_ID 3 [(0, 3), (5, 6)]).KeyAt
        (if (1 : Nat) = 0 then 1 else (1 : Nat)) = some old ∧
      pn1 = (InternalPage.mk 7 INVALID_PAGE_ID 3 [(0, 3), (5, 6)]).SetKeyAt
        (if (1 : Nat) = 0 then 1 else (1 : Nat)) k ∧
      pn1.KeyAt (if (1 : Nat) = 0 then 1 else (1 : Nat)) = some k ∧
      (∀ i, i ≠ (if (1 : Nat) = 0 then 1 else (1 : Nat)) →
        pn1.array.get? i = (InternalPage.mk 7 INVALID_PAGE_ID 3 [(0, 3), (5, 6)]).array.get? i) ∧
      pn1.array.map Prod.snd =
        (InternalPage.mk 7 INVALID_PAGE_ID 3 [(0, 3), (5, 6)]).array.map Prod.snd ∧
      ((1 : Nat) = 0 → (ps1.entries.get? 0).map Prod.fst = some k) ∧
      ((1 : Nat) ≠ 0 → (node1.entries.get? 0).map Prod.fst = some k) ∧
      ((Page.internal (InternalPage.mk 6 7 3 [(5, 4)])).IsLeafPage = false →
        ((1 : Nat) = 0 → ∃ x,
          (Page.internal (InternalPage.mk 3 7 3 [(0, 1), (1, 8), (3, 2)])).entries.get? 0 =
            some x ∧
          node1.entries = (Page.internal (InternalPage.mk 6 7 3 [(5, 4)])).entries ++
            [(old, x.2)] ∧
          ps1.entries =
            (Page.internal (InternalPage.mk 3 7 3 [(0, 1), (1, 8), (3, 2)])).entries.tail) ∧
        ((1 : Nat) ≠ 0 → ∃ z c0,
          (Page.internal (InternalPage.mk 3 7 3 [(0, 1), (1, 8), (3, 2)])).entries.getLast? =
            some z ∧
          (Page.internal (InternalPage.mk 6 7 3 [(5, 4)])).entries.get? 0 = some c0 ∧
          node1.entries = z :: (old, c0.2) ::
            (Page.internal (InternalPage.mk 6 7 3 [(5, 4)])).entries.tail ∧
          ps1.entries =
            (Page.internal (InternalPage.mk 3 7 3 [(0, 1), (1, 8), (3, 2)])).entries.dropLast)) := by
  refine ⟨by decide, ?_, by decide, by decide, redistributionState_inv, by decide, by decide, by decide, by decide,
    by decide, by decide,
    @redistribute_keeps_separators redistributionState redistributionGhost [5] 6 3
      (.internal (InternalPage.mk 6 7 3 [(5, 4)]))
      (.internal (InternalPage.mk 3 7 3 [(0, 1), (1, 8), (3, 2)]))
      (InternalPage.mk 7 INVALID_PAGE_ID 3 [(0, 3), (5, 6)]) 1 redistributionState_inv
      (by decide) (by decide) (by decide) (by decide) (by decide) (by decide)⟩
  intro recur txn
  have h := @Coalesce_leaf_eq recur
    ((built 4 3 [(1, 101), (2, 102), (3, 103), (4, 104), (5, 105), (6, 106), (7, 107),
      (8, 108), (0, 100), (-1, 99)]).write 5
      (.leaf ((LeafPage.mk 5 6 4 INVALID_PAGE_ID [(7, 107), (8, 108)]).RemoveAndDeleteRecord
        7))) 4 5 6 1 txn (LeafPage.mk 5 6 4 INVALID_PAGE_ID [(8, 108)])
    (LeafPage.mk 4 6 4 5 [(5, 105), (6, 106)]) (InternalPage.mk 6 7 3 [(5, 4), (7, 5)])
    (by decide) (by decide) (by decide)
  rw [h, ← redistributionState_eq]
  rfl

end bustub
